import Mathlib

/-!
# Projected knowledge compiler: POG engine, CNF engine, compiler and projector

A shallow embedding of the C++ sources (`pog.hh`, `pog.cpp`, `compile.hh`,
`compile.cpp`, `project.cpp`) together with theorems about them.

Conventions of the embedding.

* `int` values (literals, edges, node ids) are `Int`; the embedding is faithful as long
  as node ids stay below `MAX_VARIABLE`, which the source enforces by a fatal error in
  `init_hash`.
* `std::vector` is `List`; `std::set<int>` and `std::unordered_set<int>` are `Finset`.
  A loop over a `std::set` visits its elements in ascending order (`ascList`). A loop
  over a `std::unordered_set` visits them in an order that the C++ library leaves open:
  wherever the result of a loop can depend on that order, the order is a parameter
  (`Walk`), and the theorems hold for every order.
* The flat argument arena `Pog::arguments` with the per-node `offset`/`degree` is
  represented by one argument list per node: node `i` owns the slice
  `arguments[offset_i .. offset_i + degree_i)`, and the prototype under construction is
  always the last node, owning the tail of the arena.
* `q25` exact rationals are `ℚ`.
* The values drawn from `random()` for the hash salts, the tie order of `std::sort`
  among arguments of equal magnitude, and the content of the memory cell that
  `get_decision_variable` reads behind a local variable, are parameters (`Runtime`).
-/

namespace PKC

/-! ## Constants and macros (`pog.hh`) -/

/-- The literal `TAUTOLOGY`, defined as `INT_MAX`. -/
def TAUTOLOGY : Int := 2147483647

/-- The literal `CONFLICT`, defined as `-TAUTOLOGY`. -/
def CONFLICT : Int := -TAUTOLOGY

/-- The macro `IABS(x) = ((x)<0?-(x):(x))`. -/
def IABS (x : Int) : Int := if x < 0 then -x else x

/-- The macro `IMIN(x,y)`. -/
def IMIN (x y : Nat) : Nat := if x < y then x else y

/-- The bound `MAX_VARIABLE` on variable and node ids. -/
def MAX_VARIABLE : Int := 2 * 1000 * 1000 * 1000

/-- The comparison `abs_less` used to order arguments and literals. -/
def abs_less (x y : Int) : Bool := decide (IABS x < IABS y)

/-- The enumeration `pog_type_t` (without the count `POG_NUM`). -/
inductive pog_type_t where
  | POG_NONE
  | POG_PRODUCT
  | POG_SUM
  deriving DecidableEq, Repr, Inhabited

open pog_type_t

/-- A stored POG node: `struct Node`, with its slice of the argument arena as `args`
(so `degree = args.length`). -/
structure Node where
  type : pog_type_t
  args : List Int
  data_only : Bool
  projection_only : Bool
  deriving DecidableEq, Repr

instance : Inhabited Node := ⟨⟨POG_NONE, [], false, false⟩⟩

/-- The class `Pog`: number of input variables, nodes (indexed by `var-nvar-1`), the
unique table as the list of inserted `(hash, edge)` pairs, and the two variable sets. -/
structure Pog where
  nvar : Nat
  nodes : List Node
  unique_table : List (Nat × Int)
  data_variables : Finset Int
  tseitin_variables : Finset Int

/-- What the C++ runtime leaves open: the salts drawn from `random()` for the hash of
the operations and of the variables, the order in which `std::sort` leaves arguments
that `abs_less` does not separate, and the content `stray p edge` of the memory cell
behind the local variable `edge2` of `get_decision_variable(edge)`, which that method
reads when the second child of `edge` is no node. -/
structure Runtime where
  pog_salt : pog_type_t → Nat
  var_salt : Nat → Nat
  sort : List Int → List Int
  stray : Pog → Int → Int

/-- The contract of `std::sort(first, last, abs_less)`: the result is a rearrangement of
the input in which no element is `abs_less` than an earlier one. -/
def Runtime.sort_ok (rt : Runtime) : Prop :=
  ∀ l : List Int, (rt.sort l).Perm l ∧ (rt.sort l).Pairwise (fun a b => abs_less b a = false)

/-- A concrete runtime: insertion sort (what `std::sort` does on short ranges) and
fixed salts. -/
def stdRuntime : Runtime where
  pog_salt := fun t => match t with
    | POG_NONE => 3
    | POG_PRODUCT => 5
    | POG_SUM => 7
  var_salt := fun v => 2 * v + 11
  sort := fun l => l.insertionSort (fun a b => IABS a ≤ IABS b)
  stray := fun _ _ => 0

/-- A runtime whose `std::sort` leaves arguments of equal magnitude in the reverse of the
order in which it finds them (the C++ standard leaves the order of equivalent elements
open): an insertion sort of the reversed range. -/
def flipRuntime : Runtime where
  pog_salt := stdRuntime.pog_salt
  var_salt := stdRuntime.var_salt
  sort := fun l => l.reverse.insertionSort (fun a b => IABS a ≤ IABS b)
  stray := fun _ _ => 0

/-- The elements of a set in ascending order: the iteration order of `std::set`. -/
def ascList {α : Type} [LinearOrder α] (s : Finset α) : List α :=
  Quotient.liftOn s.val (fun l => l.insertionSort (· ≤ ·)) (fun a b h =>
    List.eq_of_perm_of_sorted
      (((List.perm_insertionSort _ a).trans h).trans (List.perm_insertionSort _ b).symm)
      (List.sorted_insertionSort _ a) (List.sorted_insertionSort _ b))

/-- The order in which the range-for loops of a run visit the elements of a
`std::unordered_set<int>`. The C++ library leaves that order open, and it is no function
of the content of the set (it depends on the insertions and removals made before), so
`order` receives, besides the set, the place of the loop in the run: a list of numbers
naming the call, the round and the loop, which no two loops of one run of a method
share. -/
structure Walk where
  order : List Nat → Finset Int → List Int

/-- The contract of a loop over a `std::unordered_set`: every element of the set is
visited exactly once. -/
def Walk.ok (w : Walk) : Prop :=
  ∀ (key : List Nat) (s : Finset Int), (w.order key s).Perm (ascList s)

/-- The walk handed to the part `k` of a run (a call, or a round of a loop): the places
of its loops are those of the run that start with `k`. -/
def Walk.sub (w : Walk) (k : Nat) : Walk := ⟨fun key s => w.order (k :: key) s⟩

/-- The walk that visits every set in ascending order. -/
def stdWalk : Walk := ⟨fun _ s => ascList s⟩

/-- The walk that visits every set in descending order. -/
def revWalk : Walk := ⟨fun _ s => (ascList s).reverse⟩

namespace Pog

/-- The constructor `Pog(n, dvars, tvars)`. -/
def init (n : Nat) (dvars tvars : Finset Int) : Pog :=
  { nvar := n, nodes := [], unique_table := [], data_variables := dvars,
    tseitin_variables := tvars }

/-- The method `get_phase`. -/
def get_phase (edge : Int) : Bool := decide (edge > 0)

/-- The method `get_var`. -/
def get_var (edge : Int) : Int := IABS edge

/-- The method `is_node`. -/
def is_node (p : Pog) (edge : Int) : Bool :=
  decide (get_var edge > (p.nvar : Int)) && decide (get_var edge ≠ TAUTOLOGY)

/-- The method `node_index`. -/
def node_index (p : Pog) (edge : Int) : Int :=
  if p.is_node (get_var edge) then get_var edge - p.nvar - 1 else -1

/-- The access `nodes[idx]`. -/
def nodeAt (p : Pog) (idx : Int) : Node := p.nodes.getD idx.toNat default

/-- The method `get_degree`. -/
def get_degree (p : Pog) (edge : Int) : Nat :=
  if p.node_index edge < 0 then 0 else (p.nodeAt (p.node_index edge)).args.length

/-- The method `get_type`. -/
def get_type (p : Pog) (edge : Int) : pog_type_t :=
  if p.node_index edge < 0 then POG_NONE else (p.nodeAt (p.node_index edge)).type

/-- The method `is_sum`. -/
def is_sum (p : Pog) (edge : Int) : Bool := decide (p.get_type edge = POG_SUM)

/-- The method `is_data_variable`. -/
def is_data_variable (p : Pog) (var : Int) : Bool := decide (var ∈ p.data_variables)

/-- The method `is_tseitin_variable`. -/
def is_tseitin_variable (p : Pog) (var : Int) : Bool := decide (var ∈ p.tseitin_variables)

/-- The method `only_data_variables`. -/
def only_data_variables (p : Pog) (edge : Int) : Bool :=
  if p.is_node edge then (p.nodeAt (p.node_index edge)).data_only
  else decide (get_var edge ∈ p.data_variables)

/-- The method `only_projection_variables`. -/
def only_projection_variables (p : Pog) (edge : Int) : Bool :=
  if p.is_node edge then (p.nodeAt (p.node_index edge)).projection_only
  else decide (get_var edge ∉ p.data_variables)

/-- The arguments `get_arguments(edge)[0 .. get_degree(edge))` of a node
(`NULL`, here the empty list, for a non-node). -/
def get_arguments (p : Pog) (edge : Int) : List Int :=
  if p.node_index edge < 0 then [] else (p.nodeAt (p.node_index edge)).args

/-- The method `get_argument`. -/
def get_argument (p : Pog) (edge : Int) (index : Nat) : Int :=
  if p.node_index edge < 0 then 0 else (p.nodeAt (p.node_index edge)).args.getD index 0

/-- The method `node_count`. -/
def node_count (p : Pog) : Nat := p.nodes.length

/-! ### Hashing and structural equality -/

/-- The modulus `hash_modulus`. -/
def hash_modulus : Nat := 2147483647

/-- The function `next_hash_int`, with `var_hash[var]` read from the runtime salts. -/
def next_hash_int (rt : Runtime) (sofar : Nat) (val : Int) : Nat :=
  let vval := rt.var_salt (IABS val).toNat % hash_modulus
  let lval := if val < 0 then hash_modulus - vval else vval
  (lval * sofar) % hash_modulus

/-- The hash of an operation and its argument list, as computed by `node_hash`. -/
def hash_of (rt : Runtime) (type : pog_type_t) (args : List Int) : Nat :=
  args.foldl (next_hash_int rt) (rt.pog_salt type % hash_modulus)

/-- The method `node_hash`. -/
def node_hash (rt : Runtime) (p : Pog) (var : Int) : Nat :=
  if p.node_index var < 0 then 0
  else hash_of rt (p.nodeAt (p.node_index var)).type (p.nodeAt (p.node_index var)).args

/-- The method `node_equal`. -/
def node_equal (p : Pog) (var1 var2 : Int) : Bool :=
  let idx1 := p.node_index var1
  let idx2 := p.node_index var2
  if idx1 = idx2 then true
  else if idx1 < 0 ∨ idx2 < 0 then false
  else if (p.nodeAt idx1).type ≠ (p.nodeAt idx2).type then false
  else if (p.nodeAt idx1).args.length ≠ (p.nodeAt idx2).args.length then false
  else decide ((p.nodeAt idx1).args = (p.nodeAt idx2).args)

/-! ### The builder protocol -/

/-- Replace the prototype (the last node). -/
def set_proto (p : Pog) (n : Node) : Pog := { p with nodes := p.nodes.dropLast ++ [n] }

/-- Drop the prototype: `arguments.resize(arguments.size() - degree); nodes.resize(nidx)`. -/
def retract (p : Pog) : Pog := { p with nodes := p.nodes.dropLast }

/-- The method `start_node` (for the two legal types; any other type is a fatal error). -/
def start_node (p : Pog) (type : pog_type_t) : Pog :=
  { p with nodes := p.nodes ++ [⟨type, [], true, true⟩] }

/-- The effect of `add_argument(edge)` on the prototype `proto = nodes[nodes.size()-1]`. -/
def add_argument_node (p : Pog) (proto : Node) (edge : Int) : Node :=
  let type := proto.type
  -- See if already have dominating value
  if proto.args.length = 1 ∧
      ((type = POG_PRODUCT ∧ proto.args.headD 0 = CONFLICT) ∨
       (type = POG_SUM ∧ proto.args.headD 0 = TAUTOLOGY)) then proto
  -- Check for sum operation with complementary arguments
  else if proto.args.length = 1 ∧ type = POG_SUM ∧ proto.args.headD 0 = -edge then
    { proto with args := [TAUTOLOGY] }
  -- Don't add non-dominating constants
  else if (type = POG_PRODUCT ∧ edge = TAUTOLOGY) ∨ (type = POG_SUM ∧ edge = CONFLICT) then
    proto
  -- Create unique argument for dominating constant
  else if (type = POG_SUM ∧ edge = TAUTOLOGY) ∨ (type = POG_PRODUCT ∧ edge = CONFLICT) then
    { proto with args := [edge] }
  else
    let d := proto.data_only && p.only_data_variables edge
    let q := proto.projection_only && p.only_projection_variables edge
    -- Merge arguments to product operation
    if p.is_node edge ∧ type = POG_PRODUCT ∧ p.get_type edge = POG_PRODUCT ∧ get_phase edge then
      { proto with args := proto.args ++ p.get_arguments edge, data_only := d,
                   projection_only := q }
    else
      { proto with args := proto.args ++ [edge], data_only := d, projection_only := q }

/-- The method `add_argument`. -/
def add_argument (p : Pog) (edge : Int) : Pog :=
  p.set_proto (p.add_argument_node (p.nodes.getLastD default) edge)

/-- The probe of one bucket entry in `finish_node`: the loop body
`if (node_equal(edge, oedge)) { edge = oedge; retract = true; }`. -/
def probe (p : Pog) (st : Int × Bool) (entry : Nat × Int) : Int × Bool :=
  if p.node_equal st.1 entry.2 then (entry.2, true) else st

/-- The method `finish_node`: the new graph and the returned edge. -/
def finish_node (rt : Runtime) (p : Pog) : Pog × Int :=
  let proto := p.nodes.getLastD default
  let nidx := p.nodes.length - 1
  if proto.args.length = 0 then
    -- Operation with no arguments
    (p.retract, if proto.type = POG_SUM then CONFLICT else TAUTOLOGY)
  else if proto.args.length = 1 then
    -- Either single argument or dominating constant
    (p.retract, proto.args.headD 0)
  else
    -- Order arguments
    let p1 := p.set_proto { proto with args := rt.sort proto.args }
    -- Look in hash table
    let edge : Int := (nidx : Int) + p.nvar + 1
    let h := node_hash rt p1 edge
    let bucket := p1.unique_table.filter (fun e => e.1 = h)
    let r := bucket.foldl p1.probe (edge, false)
    if r.2 then (p1.retract, r.1)
    else ({ p1 with unique_table := p1.unique_table ++ [(h, edge)] }, edge)

/-- One complete use of the builder: `start_node(type)`, `add_argument` for each edge of
`args` in order, `finish_node()`. -/
def build (rt : Runtime) (p : Pog) (type : pog_type_t) (args : List Int) : Pog × Int :=
  finish_node rt (args.foldl add_argument (p.start_node type))

/-- The method `build_disjunction`. -/
def build_disjunction (rt : Runtime) (p : Pog) (args : List Int) : Pog × Int :=
  if args.length = 0 then (p, CONFLICT)
  else if args.length = 1 then (p, args.headD 0)
  else
    -- DeMorgan's construction
    let r := build rt p POG_PRODUCT (args.map (fun clit => -clit))
    (r.1, -r.2)

/-- The loop of `simple_kc` over the literals of the stream: the graph, the edges of the
clauses closed so far, and the clause being collected. -/
def simple_kc_scan (rt : Runtime) :
    List Int → Pog × List Int × List Int → Pog × List Int × List Int
  | [], st => st
  | lit :: rest, (p, arguments, clause) =>
    if lit = 0 then
      let r := build_disjunction rt p clause
      simple_kc_scan rt rest (r.1, arguments ++ [r.2], [])
    else simple_kc_scan rt rest (p, arguments, clause ++ [lit])

/-- The method `simple_kc`. -/
def simple_kc (rt : Runtime) (p : Pog) (clause_chunks : List Int) : Pog × Int :=
  let st := simple_kc_scan rt clause_chunks (p, [], [])
  let arguments := st.2.1
  if arguments.length = 0 then (st.1, TAUTOLOGY)
  else if arguments.length = 1 then (st.1, arguments.headD 0)
  else build rt st.1 POG_PRODUCT arguments

/-! ### Traversal, evaluation, subgraphs -/

/-- The method `visit`, with the recursion depth bounded by `fuel`. -/
def visit (p : Pog) : Nat → Int → Finset Int → Finset Int
  | 0, _, visited => visited
  | fuel + 1, edge, visited =>
    if p.is_node edge = false then visited
    else if get_var edge ∈ visited then visited
    else (p.get_arguments edge).foldl (fun vis c => visit p fuel c vis)
      (insert (get_var edge) visited)

/-- The recursion depth that `visit` is given: one more than the number of nodes. -/
def visit_fuel (p : Pog) : Nat := p.nodes.length + 1

/-- The inner loop of `ring_evaluate` over the arguments of node `id`: `none` when a
weight is missing (the source then warns and returns zero). -/
def eval_args (sum : Bool) (eweights : Int → Option ℚ) : List Int → ℚ → Option ℚ
  | [], v => some v
  | cedge :: rest, v =>
    match eweights cedge with
    | none => none
    | some wt => eval_args sum eweights rest (if sum then v + wt else v * wt)

/-- One round of the outer loop of `ring_evaluate`: evaluate node `id` and record the
values of `id` and `-id`. -/
def eval_step (p : Pog) (st : Option (Int → Option ℚ)) (edge : Int) : Option (Int → Option ℚ) :=
  match st with
  | none => none
  | some eweights =>
    let id := get_var edge
    let sum := p.is_sum id
    match eval_args sum eweights (p.get_arguments id) (if sum then 0 else 1) with
    | none => none
    | some v => some (Function.update (Function.update eweights id (some v)) (-id) (some (1 - v)))

/-- The method `ring_evaluate`; the weights are a finite map, here a partial function. -/
def ring_evaluate (p : Pog) (root_edge : Int) (weights : Int → Option ℚ) : ℚ :=
  let visited := p.visit p.visit_fuel root_edge ∅
  match (ascList visited).foldl p.eval_step (some weights) with
  | none => 0
  | some eweights =>
    if root_edge = TAUTOLOGY then 1
    else if root_edge = CONFLICT then 0
    else match eweights root_edge with
      | none => 0
      | some wt => wt

/-- The method `get_subgraph`: the map `node_remap` as the list of its entries in
ascending key order. -/
def get_subgraph (p : Pog) (root_edges : List Int) : List (Int × Int) :=
  let visited := root_edges.foldl (fun vis redge => p.visit p.visit_fuel redge vis) ∅
  (ascList visited).enum.map fun x => (x.2, (p.nvar : Int) + 1 + x.1)

/-- The lookup `node_remap[key]` in a `std::map<int,int>` (zero for a missing key). -/
def remap_get (node_remap : List (Int × Int)) (key : Int) : Int :=
  (node_remap.lookup key).getD 0

/-- The search of `get_decision_variable` over `lits1` and `lits2`: the variable of the
first literal of `lits1` whose negation is in `lits2`. -/
def find_complement (lits2 : List Int) : List Int → Option Int
  | [] => none
  | lit1 :: rest =>
    if lits2.any (fun lit2 => decide (lit1 = -lit2)) then some (get_var lit1)
    else find_complement lits2 rest

/-- The method `get_decision_variable`: `none` is the fatal error "Couldn't get decision
variable". When the second child is no node the source scans two cells (`n2 = 2`)
starting at the local variable `edge2`: the second is the memory cell behind that
local, whose content the language leaves undefined; it is the parameter `stray`. -/
def get_decision_variable (p : Pog) (stray : Int) (edge : Int) : Option Int :=
  if p.is_sum edge = false then some 0
  else
    let edge1 := p.get_argument edge 0
    let lits1 := if p.is_node edge1 then p.get_arguments edge1 else [edge1]
    let edge2 := p.get_argument edge 1
    let lits2 := if p.is_node edge2 then p.get_arguments edge2 else [edge2, stray]
    find_complement lits2 lits1

/-! ### Reference semantics of edges -/

/-- The ring value of an edge: `val(TAUTOLOGY) = 1`, `val(CONFLICT) = 0`, a literal has
its weight, a node the product or sum of its arguments, a negated node one minus the
value of the node. The depth of evaluation is bounded by `fuel`. -/
def val (p : Pog) (w : Int → Option ℚ) : Nat → Int → ℚ
  | 0, _ => 0
  | k + 1, e =>
    if e = TAUTOLOGY then 1
    else if e = CONFLICT then 0
    else if p.is_node e = false then (w e).getD 0
    else
      let vs := (p.get_arguments e).map (val p w k)
      let v := if p.is_sum e then vs.sum else vs.prod
      if e > 0 then v else 1 - v

/-- The Boolean function of an edge under an assignment to the input variables:
Product is AND, Sum is OR, a negative edge is NOT, `TAUTOLOGY` is true, `CONFLICT` is
false. The depth of evaluation is bounded by `fuel`. -/
def beval (p : Pog) (τ : Int → Bool) : Nat → Int → Bool
  | 0, _ => false
  | k + 1, e =>
    if e = TAUTOLOGY then true
    else if e = CONFLICT then false
    else if p.is_node e = false then (if e > 0 then τ e else !τ (-e))
    else
      let vs := (p.get_arguments e).map (beval p τ k)
      let v := if p.is_sum e then vs.any id else vs.all id
      if e > 0 then v else !v

/-- An edge the graph can be given: a constant, a literal of an input variable, or an
edge to a stored node. -/
def edge_ok (p : Pog) (e : Int) : Prop :=
  (1 ≤ IABS e ∧ IABS e ≤ (p.nvar : Int) + p.nodes.length) ∨ IABS e = TAUTOLOGY

instance (p : Pog) (e : Int) : Decidable (p.edge_ok e) := by
  unfold edge_ok; infer_instance

/-- An argument of the stored node of index `i`: a literal of an input variable or an
edge to a node stored before it; never a constant. -/
def child_ok (p : Pog) (i : Nat) (a : Int) : Prop :=
  1 ≤ IABS a ∧ IABS a ≤ (p.nvar : Int) + i

instance (p : Pog) (i : Nat) (a : Int) : Decidable (p.child_ok i a) := by
  unfold child_ok; infer_instance

/-- The invariant of one stored node. -/
structure node_ok (p : Pog) (i : Nat) (n : Node) : Prop where
  type_ok : n.type = POG_PRODUCT ∨ n.type = POG_SUM
  degree_ok : 2 ≤ n.args.length
  children : ∀ a ∈ n.args, p.child_ok i a
  sorted : n.args.Pairwise (fun a b => abs_less b a = false)
  data_flag : n.data_only = n.args.all p.only_data_variables
  proj_flag : n.projection_only = n.args.all p.only_projection_variables

/-- The entry of the unique table made for the node of index `i`. -/
def table_entry (rt : Runtime) (p : Pog) (i : Nat) (n : Node) : Nat × Int :=
  (hash_of rt n.type n.args, (i : Int) + p.nvar + 1)

/-- The invariant of a graph between two uses of the builder. -/
structure WF (rt : Runtime) (p : Pog) : Prop where
  range : (p.nvar : Int) + p.nodes.length < MAX_VARIABLE
  table : p.unique_table = (p.nodes.enum.map fun x => table_entry rt p x.1 x.2)
  nodes_ok : ∀ i n, p.nodes.get? i = some n → p.node_ok i n
  unique : ∀ i j n m, p.nodes.get? i = some n → p.nodes.get? j = some m →
    n.type = m.type → n.args = m.args → i = j

/-- The graphs that the builder produces from the empty graph: each step is one complete
use of the builder on a legal type and on edges of the graph. -/
inductive Reachable (rt : Runtime) : Pog → Prop
  | init (n : Nat) (dvars tvars : Finset Int) : Reachable rt (Pog.init n dvars tvars)
  | build (p : Pog) (type : pog_type_t) (args : List Int) :
      Reachable rt p → (type = POG_PRODUCT ∨ type = POG_SUM) →
      (∀ a ∈ args, p.edge_ok a) → Reachable rt (build rt p type args).1

/-- The edges reachable from `root`: the root, and the arguments of reachable nodes. -/
inductive Reach (p : Pog) (root : Int) : Int → Prop
  | root : Reach p root root
  | child (e c : Int) : Reach p root e → p.is_node e = true → c ∈ p.get_arguments e →
      Reach p root c

end Pog

/-! ## The clausal engine (`compile.hh`, `compile.cpp`) -/

/-- The enumeration `action_t` (without the count `ACTION_NUM`). -/
inductive action_t where
  | ACTION_START_CONTEXT
  | ACTION_CONFLICT
  | ACTION_DEACTIVATE_CLAUSE
  | ACTION_BCP
  | ACTION_ASSERT
  | ACTION_ASSERT_FROM_BCP
  | ACTION_UQUANTIFY
  | ACTION_ACTIVE_CLAUSES
  deriving DecidableEq, Repr

open action_t

/-- The record `action_record`. -/
structure action_record where
  action : action_t
  ele : Int
  deriving DecidableEq, Repr

/-- The record `active_record`: a saved active set and literal index. -/
structure active_record where
  active_clauses : Finset Int
  literal_clauses : Int → Finset Int

/-- The enumeration `var_t` (without the count `VAR_NUM`). -/
inductive var_t where
  | VAR_UNUSED
  | VAR_DATA
  | VAR_NONTSEITIN
  | VAR_TSEITIN_DETECT
  | VAR_TSEITIN_PROMOTE
  | VAR_ELIM
  deriving DecidableEq, Repr

open var_t

/-- The class `Cnf`. Clause `cid` (from 1) is `clauses[cid-1]`, which stands for the
slice `literal_sequence[clause_offset[cid-1] .. clause_offset[cid])`. The map
`literal_clauses` is a function to sets, a missing key being the empty set. The set
pointers `data_variables`, `tseitin_variables` and the map `input_weights` are held by
value. -/
structure Cnf where
  nvar : Nat
  variable_type : Int → var_t
  clauses : List (List Int)
  literal_clauses : Int → Finset Int
  has_conflict : Bool
  action_stack : List action_record
  active_stack : List active_record
  active_clauses : Finset Int
  unit_literals : Finset Int
  bcp_unit_literals : Finset Int
  uquantified_variables : Finset Int
  data_variables : Finset Int
  tseitin_variables : Finset Int
  input_weights : List (Int × ℚ)

namespace Cnf

/-- The method `maximum_clause_id`. -/
def maximum_clause_id (s : Cnf) : Int := s.clauses.length

/-- The literals `get_literal(cid, 0) .. get_literal(cid, clause_length(cid)-1)` of a
clause; an invalid clause id is a fatal error in the source and has no literals here. -/
def clause (s : Cnf) (cid : Int) : List Int :=
  if cid < 1 then [] else s.clauses.getD (cid - 1).toNat []

/-- The method `clause_length`. -/
def clause_length (s : Cnf) (cid : Int) : Nat := (s.clause cid).length

/-- The method `nonunit_clause_count`. -/
def nonunit_clause_count (s : Cnf) : Nat := s.active_clauses.card

/-- The method `current_clause_count`. -/
def current_clause_count (s : Cnf) : Nat := s.active_clauses.card + s.bcp_unit_literals.card

/-- The method `is_data_variable`. -/
def is_data_variable (s : Cnf) (var : Int) : Bool := decide (var ∈ s.data_variables)

/-- The method `set_variable_type`. -/
def set_variable_type (s : Cnf) (var : Int) (type : var_t) : Cnf :=
  { s with variable_type := Function.update s.variable_type var type }

/-- The method `new_context`. -/
def new_context (s : Cnf) : Cnf :=
  { s with action_stack := s.action_stack ++ [⟨ACTION_START_CONTEXT, 0⟩] }

/-- The method `new_clause` for a clause id above zero. -/
def new_clause (s : Cnf) : Cnf :=
  { s with clauses := s.clauses ++ [[]],
           active_clauses := insert ((s.clauses.length : Int) + 1) s.active_clauses }

/-- The method `add_literal`. -/
def add_literal (s : Cnf) (lit : Int) : Cnf :=
  let cid : Int := s.clauses.length
  { s with clauses := s.clauses.dropLast ++ [s.clauses.getLastD [] ++ [lit]],
           literal_clauses :=
             Function.update s.literal_clauses lit (insert cid (s.literal_clauses lit)),
           variable_type :=
             if s.variable_type (IABS lit) = VAR_UNUSED then
               Function.update s.variable_type (IABS lit) VAR_NONTSEITIN
             else s.variable_type }

/-- The constructor `Cnf(input_count)` followed by the replacement of the set of data
variables that `clausify` makes: an empty clause list inside one open context. -/
def init (input_count : Nat) : Cnf :=
  { nvar := input_count, variable_type := fun _ => VAR_UNUSED, clauses := [],
    literal_clauses := fun _ => ∅, has_conflict := false,
    action_stack := [⟨ACTION_START_CONTEXT, 0⟩], active_stack := [],
    active_clauses := ∅, unit_literals := ∅, bcp_unit_literals := ∅,
    uquantified_variables := ∅, data_variables := ∅, tseitin_variables := ∅,
    input_weights := [] }

/-- The method `skip_clause`. -/
def skip_clause (s : Cnf) (cid : Int) : Bool :=
  (s.clause cid).any fun lit => decide (lit ∈ s.unit_literals)

/-- The method `skip_literal`. -/
def skip_literal (s : Cnf) (lit : Int) : Bool :=
  decide (-lit ∈ s.unit_literals) || decide (IABS lit ∈ s.uquantified_variables)

/-- The method `trigger_conflict`. -/
def trigger_conflict (s : Cnf) : Cnf :=
  { s with has_conflict := true, action_stack := s.action_stack ++ [⟨ACTION_CONFLICT, 0⟩] }

/-- The method `assign_literal`, for a literal of a declared variable (any other is a
fatal error in the source). -/
def assign_literal (s : Cnf) (lit : Int) (bcp : Bool) : Cnf :=
  let was_unit := decide (lit ∈ s.unit_literals)
  let was_bcp_unit := decide (lit ∈ s.bcp_unit_literals)
  if -lit ∈ s.unit_literals then s.trigger_conflict
  else if bcp then
    if was_unit then s
    else { s with unit_literals := insert lit s.unit_literals,
                  bcp_unit_literals := insert lit s.bcp_unit_literals,
                  action_stack := s.action_stack ++ [⟨ACTION_BCP, lit⟩] }
  else
    if was_unit && !was_bcp_unit then s
    else if was_bcp_unit then
      { s with bcp_unit_literals := s.bcp_unit_literals.erase lit,
               action_stack := s.action_stack ++ [⟨ACTION_ASSERT_FROM_BCP, lit⟩] }
    else
      { s with unit_literals := insert lit s.unit_literals,
               action_stack := s.action_stack ++ [⟨ACTION_ASSERT, lit⟩] }

/-- The method `uquantify_variable`. -/
def uquantify_variable (s : Cnf) (var : Int) : Cnf :=
  { s with uquantified_variables := insert var s.uquantified_variables,
           action_stack := s.action_stack ++ [⟨ACTION_UQUANTIFY, var⟩] }

/-- The method `activate_clause`. -/
def activate_clause (s : Cnf) (cid : Int) : Cnf :=
  { s with literal_clauses := (s.clause cid).foldl
             (fun lc lit => Function.update lc lit (insert cid (lc lit))) s.literal_clauses,
           active_clauses := insert cid s.active_clauses }

/-- The method `push_active`. -/
def push_active (s : Cnf) (nactive_clauses : Finset Int) : Cnf :=
  { s with active_stack := s.active_stack ++ [⟨s.active_clauses, s.literal_clauses⟩],
           action_stack := s.action_stack ++ [⟨ACTION_ACTIVE_CLAUSES, 0⟩],
           active_clauses := nactive_clauses,
           literal_clauses := (ascList nactive_clauses).foldl
             (fun lc cid => (s.clause cid).foldl
               (fun lc lit => if s.skip_literal lit then lc
                              else Function.update lc lit (insert cid (lc lit))) lc)
             (fun _ => ∅) }

/-- The method `deactivate_clause`. -/
def deactivate_clause (s : Cnf) (cid : Int) : Cnf :=
  { s with literal_clauses := (s.clause cid).foldl
             (fun lc lit => Function.update lc lit ((lc lit).erase cid)) s.literal_clauses,
           active_clauses := s.active_clauses.erase cid,
           action_stack := s.action_stack ++ [⟨ACTION_DEACTIVATE_CLAUSE, cid⟩] }

/-- The method `deactivate_clauses`. -/
def deactivate_clauses (s : Cnf) (remove : List Int) : Cnf :=
  remove.foldl deactivate_clause s

/-- The undoing of one action record in `pop_context`. -/
def undo_action (s : Cnf) (ar : action_record) : Cnf :=
  match ar.action with
  | ACTION_START_CONTEXT => s
  | ACTION_CONFLICT => { s with has_conflict := false }
  | ACTION_DEACTIVATE_CLAUSE => s.activate_clause ar.ele
  | ACTION_BCP =>
    { s with bcp_unit_literals := s.bcp_unit_literals.erase ar.ele,
             unit_literals := s.unit_literals.erase ar.ele }
  | ACTION_ASSERT => { s with unit_literals := s.unit_literals.erase ar.ele }
  | ACTION_ASSERT_FROM_BCP =>
    { s with bcp_unit_literals := insert ar.ele s.bcp_unit_literals }
  | ACTION_UQUANTIFY =>
    { s with uquantified_variables := s.uquantified_variables.erase ar.ele }
  | ACTION_ACTIVE_CLAUSES =>
    match s.active_stack.getLast? with
    | none => s
    | some avr =>
      { s with active_stack := s.active_stack.dropLast,
               active_clauses := avr.active_clauses,
               literal_clauses := avr.literal_clauses }

/-- The loop of `pop_context` over the action stack, given from its top: stop after the
first `ACTION_START_CONTEXT`. The first argument is the part of the stack still to
visit, top first; the state carries the records below the one being undone. Reading
an empty stack, undefined in the source, ends the loop. -/
def pop_loop : List action_record → Cnf → Cnf
  | [], s => { s with action_stack := [] }
  | ar :: below, s =>
    let s1 := { s with action_stack := below.reverse }
    if ar.action = ACTION_START_CONTEXT then s1
    else pop_loop below (undo_action s1 ar)

/-- The method `pop_context`. -/
def pop_context (s : Cnf) : Cnf := pop_loop s.action_stack.reverse s

/-- The method `propagate_clause`, as the scan over the literals of the clause with the
running `result`. -/
def propagate_scan (s : Cnf) : List Int → Int → Int
  | [], result => result
  | lit :: rest, result =>
    if lit ∈ s.unit_literals then TAUTOLOGY
    else if s.skip_literal lit then propagate_scan s rest result
    else if result = CONFLICT then propagate_scan s rest lit
    else propagate_scan s rest 0

/-- The method `propagate_clause`. -/
def propagate_clause (s : Cnf) (cid : Int) : Int :=
  propagate_scan s (s.clause cid) CONFLICT

/-- The method `push` of `unique_queue`: add at the back unless already queued. -/
def queue_push (q : List Int) (val : Int) : List Int :=
  if val ∈ q then q else q ++ [val]

/-- The loop of `bcp`: state, the queue of clause ids and the count of derived units.
The number of rounds is bounded by `fuel`. The two loops of a round over the unordered
sets `literal_clauses[lit]` and `literal_clauses[-lit]` follow the walk `w`, at the
places `[fuel, 0]` and `[fuel, 1]`. -/
def bcp_loop (w : Walk) (preprocess : Bool) : Nat → Cnf → List Int → Nat → Cnf × Nat
  | 0, s, _, count => (s, count)
  | fuel + 1, s, queue, count =>
    if s.has_conflict then (s, count)
    else match queue with
      | [] => (s, count)
      | cid :: rest =>
        if cid ∉ s.active_clauses then bcp_loop w preprocess fuel s rest count
        else
          let rval := s.propagate_clause cid
          if rval = CONFLICT then bcp_loop w preprocess fuel s.trigger_conflict rest count
          else if rval = 0 then bcp_loop w preprocess fuel s rest count
          else if rval = TAUTOLOGY then
            bcp_loop w preprocess fuel (s.deactivate_clause cid) rest count
          else
            let lit := rval
            let s1 := if preprocess then s.set_variable_type (IABS lit) VAR_ELIM else s
            let s2 := s1.assign_literal lit true
            let s3 := s2.deactivate_clause cid
            let remove := (w.order [fuel, 0] (s3.literal_clauses lit)).filter
              fun ocid => decide (ocid ∈ s3.active_clauses)
            let s4 := s3.deactivate_clauses remove
            let queue1 := ((w.order [fuel, 1] (s4.literal_clauses (-lit))).filter
              fun ocid => decide (ocid ∈ s4.active_clauses)).foldl queue_push rest
            bcp_loop w preprocess fuel s4 queue1 (count + 1)

/-- The number of literal occurrences in the clause arena: `literal_sequence.size()`. -/
def literal_count (s : Cnf) : Nat := (s.clauses.map List.length).sum

/-- The number of rounds that `bcp` is given: every round takes a clause id from the
queue, and an id is queued at the start or when one of its literals becomes false. -/
def bcp_fuel (s : Cnf) : Nat := s.active_clauses.card + s.literal_count + 1

/-- The method `bcp`: the new state and the number of units derived. The queue starts
with the active clauses, a `std::set`, in ascending order. -/
def bcp (w : Walk) (s : Cnf) (preprocess : Bool) : Cnf × Nat :=
  bcp_loop w preprocess s.bcp_fuel s (ascList s.active_clauses) 0

end Cnf

namespace Cnf

/-- The inner loop of `check_simple_pkc` over the literals of one clause: the set of
variables seen, the chunks, the count `plen`, and the flag `ok`. -/
def pkc_clause_scan (s : Cnf) :
    List Int → Finset Int × List Int × Nat → (Finset Int × List Int × Nat) × Bool
  | [], st => (st, true)
  | lit :: rest, (vset, chunks, plen) =>
    if s.skip_literal lit then pkc_clause_scan s rest (vset, chunks, plen)
    else if IABS lit ∈ vset then ((vset, chunks, plen), false)
    else pkc_clause_scan s rest (insert (IABS lit) vset, chunks ++ [lit], plen + 1)

/-- The outer loop of `check_simple_pkc` over the active clauses: the chunks and the
flags `ok` and `conflict` at the end of the loop. -/
def pkc_scan (s : Cnf) : List Int → Finset Int × List Int → List Int × Bool × Bool
  | [], (_, chunks) => (chunks, true, false)
  | cid :: rest, (vset, chunks) =>
    if s.skip_clause cid then pkc_scan s rest (vset, chunks)
    else
      let r := pkc_clause_scan s (s.clause cid) (vset, chunks, 0)
      if r.2 then
        if r.1.2.2 = 0 then (r.1.2.1 ++ [0], true, true)
        else pkc_scan s rest (r.1.1, r.1.2.1 ++ [0])
      else (r.1.2.1, false, false)

/-- The method `check_simple_pkc`: the chunks and the returned flag. The last loop, over
the unordered set `bcp_unit_literals`, follows the walk `w`. -/
def check_simple_pkc (w : Walk) (s : Cnf) : List Int × Bool :=
  let r := pkc_scan s (ascList s.active_clauses) (∅, [])
  if r.2.2 then ([0, 0], r.2.1)
  else if r.2.1 then
    (r.1 ++ ((w.order [] s.bcp_unit_literals).filter
        fun lit => s.is_data_variable (IABS lit)).flatMap (fun lit => [lit, 0]), true)
  else (r.1, false)

/-- The set `literals` collected by `find_split`. -/
def split_literals (s : Cnf) : Finset Int :=
  (ascList s.active_clauses).foldl
    (fun lits cid => if s.skip_clause cid then lits
      else (s.clause cid).foldl
        (fun lits lit => if s.skip_literal lit then lits else insert lit lits) lits) ∅

/-- The first loop of `find_split` over the literals in ascending order. -/
def find_bipolar (literals : Finset Int) : List Int → Option Int
  | [] => none
  | lit :: rest =>
    if lit > 0 then none
    else if -lit ∈ literals then some (IABS lit)
    else find_bipolar literals rest

/-- The method `find_split`. -/
def find_split (s : Cnf) (_defer : Bool) : Int :=
  match find_bipolar s.split_literals (ascList s.split_literals) with
  | some v => v
  | none =>
    match ascList s.split_literals with
    | lit :: _ => IABS lit
    | [] => 0

/-- The loop of `resolve` that builds `nlits` from the sorted `mlits`: `none` is a
tautology. -/
def resolve_dedup : List Int → Int → List Int → Option (List Int)
  | [], _, nlits => some nlits
  | lit :: rest, last_lit, nlits =>
    if lit = last_lit then resolve_dedup rest last_lit nlits
    else if lit = -last_lit then none
    else resolve_dedup rest lit (nlits ++ [lit])

/-- The method `resolve`: the new state and the id of the resolvent (zero for a
tautology). -/
def resolve (rt : Runtime) (s : Cnf) (var cid1 cid2 : Int) : Cnf × Int :=
  let keep := fun lit : Int => decide (IABS lit ≠ var) && !s.skip_literal lit
  let mlits := rt.sort ((s.clause cid1).filter keep ++ (s.clause cid2).filter keep)
  match resolve_dedup mlits 0 [] with
  | none => (s, 0)
  | some nlits => (nlits.foldl add_literal s.new_clause, (s.clauses.length : Int) + 1)

/-- The degree of a variable in `bve`: the smaller of the numbers of indexed clauses of
its two literals. -/
def bve_degree (s : Cnf) (var : Int) : Nat :=
  IMIN (s.literal_clauses var).card (s.literal_clauses (-var)).card

/-- The first loop of `bve`, for one literal: the set `proj_variables` and the array
`degree_variables`. -/
def bve_scan_literal (s : Cnf) (maxdegree : Nat)
    (st : Finset Int × (Nat → Finset Int)) (lit : Int) : Finset Int × (Nat → Finset Int) :=
  if s.skip_literal lit then st
  else if s.is_data_variable (IABS lit) then st
  else if IABS lit ∈ st.1 then st
  else
    let degree := IMIN (s.literal_clauses lit).card (s.literal_clauses (-lit)).card
    (insert (IABS lit) st.1,
     if degree ≤ maxdegree then Function.update st.2 degree (insert (IABS lit) (st.2 degree))
     else st.2)

/-- The scan of one bucket `degree_variables[d]` in `bve`, given as the list of its
elements in the order of the loop: the variables dequeued and the variable found, if
any. -/
def bve_scan_bucket (s : Cnf) (eliminated : Finset Int) (d : Nat) :
    List Int → List Int × Option Int
  | [] => ([], none)
  | dvar :: rest =>
    if dvar ∉ eliminated ∧
        ((s.literal_clauses dvar).card = d ∨ (s.literal_clauses (-dvar)).card = d) then
      ([dvar], some dvar)
    else ((dvar :: (bve_scan_bucket s eliminated d rest).1),
          (bve_scan_bucket s eliminated d rest).2)

/-- The search of `bve` for the next variable, over the buckets `d, d+1, ..` (`k` of
them): the array after house cleaning and the variable, its literal of lower degree and
the degree. The loop over the unordered set `degree_variables[d]` follows the walk `w`
at the place `[d]`. -/
def bve_select (w : Walk) (s : Cnf) (eliminated : Finset Int) :
    Nat → Nat → (Nat → Finset Int) → (Nat → Finset Int) × Option (Int × Int × Nat)
  | 0, _, dv => (dv, none)
  | k + 1, d, dv =>
    let r := bve_scan_bucket s eliminated d (w.order [d] (dv d))
    let dv1 := Function.update dv d (r.1.foldl (fun b x => b.erase x) (dv d))
    match r.2 with
    | some var =>
      (dv1, some (var,
        if (s.literal_clauses var).card ≤ (s.literal_clauses (-var)).card then var else -var,
        d))
    | none => bve_select w s eliminated k (d + 1) dv1

/-- The variables that `bve` records in `change_variables` for the clauses of `lit`. -/
def bve_change (s : Cnf) (lit : Int) (cids : List Int) (acc : Finset Int) : Finset Int :=
  cids.foldl (fun acc cid => (s.clause cid).foldl
    (fun acc lit1 =>
      if s.skip_literal lit1 then acc
      else if lit1 = lit then acc
      else if s.is_data_variable (IABS lit1) then acc
      else insert (IABS lit1) acc) acc) acc

/-- The main loop of `bve`; the number of rounds is bounded by `fuel`. The result is the
state and the set `eliminated_variables`. The loops of a round over unordered sets follow
the walk `w`: the buckets at the places `[fuel, 0, d]`, the sets `literal_clauses[lit]`
and `literal_clauses[-lit]`, which stay as they are during the round, at `[fuel, 1]` and
`[fuel, 2]`, and `change_variables` at `[fuel, 3]`. -/
def bve_loop (rt : Runtime) (w : Walk) (preprocess : Bool) (maxdegree : Nat) :
    Nat → Cnf → (Nat → Finset Int) → Finset Int → Cnf × Finset Int
  | 0, s, _, eliminated => (s, eliminated)
  | fuel + 1, s, dv, eliminated =>
    match bve_select ((w.sub fuel).sub 0) s eliminated (maxdegree + 1) 0 dv with
    | (_, none) => (s, eliminated)
    | (dv1, some (var, lit, degree)) =>
      let dpos : Int := (s.literal_clauses var).card
      let dneg : Int := (s.literal_clauses (-var)).card
      let maxadded : Int := (maxdegree : Int) * maxdegree - 2 * maxdegree
      if dpos * dneg - (dpos + dneg) > maxadded then
        -- Skip.  Might generate too many clauses
        bve_loop rt w preprocess maxdegree fuel s dv1 eliminated
      else
        let s1 := if preprocess then s.set_variable_type var VAR_ELIM else s
        let cids1 := w.order [fuel, 1] (s1.literal_clauses lit)
        let cids2 := w.order [fuel, 2] (s1.literal_clauses (-lit))
        let change := bve_change s1 (-lit) cids2 (bve_change s1 lit cids1 ∅)
        let s2 := cids1.foldl
          (fun s cid1 => cids2.foldl (fun s cid2 => (resolve rt s var cid1 cid2).1) s) s1
        let s3 := s2.deactivate_clauses (cids1 ++ cids2)
        let dv2 := (w.order [fuel, 3] change).foldl
          (fun dv ovar =>
            if bve_degree s3 ovar ≤ maxdegree then
              Function.update dv (bve_degree s3 ovar) (insert ovar (dv (bve_degree s3 ovar)))
            else dv) dv1
        let s4 := if degree = 0 ∧ -lit ∉ s3.bcp_unit_literals then
            s3.assign_literal (-lit) true
          else s3
        bve_loop rt w preprocess maxdegree fuel s4 dv2 (insert var eliminated)

/-- The number of rounds that `bve` is given: a round removes a variable from a bucket,
and variables enter the buckets at the start and after each elimination. -/
def bve_fuel (s : Cnf) : Nat := (s.nvar + 1) * (s.nvar + 2) + 1

/-- The method `bve`: the new state and the number of eliminated variables. The first
loop is over the active clauses, a `std::set`, in ascending order. -/
def bve (rt : Runtime) (w : Walk) (s : Cnf) (preprocess : Bool) (maxdegree : Nat) : Cnf × Nat :=
  let st := (ascList s.active_clauses).foldl
    (fun st cid => (s.clause cid).foldl (bve_scan_literal s maxdegree) st)
    ((∅ : Finset Int), fun _ => (∅ : Finset Int))
  let r := bve_loop rt w preprocess maxdegree s.bve_fuel s st.2 ∅
  (r.1, r.2.card)

/-- The clauses that `is_satisfiable` hands to the SAT solver: one unit clause for each
BCP unit (an unordered set, visited along the walk `w`), then each active clause that is
not skipped, without its skipped literals. -/
def solver_clauses (w : Walk) (s : Cnf) : List (List Int) :=
  (w.order [] s.bcp_unit_literals).map (fun lit => [lit]) ++
  ((ascList s.active_clauses).filter fun cid => !s.skip_clause cid).map
    fun cid => (s.clause cid).filter fun lit => !s.skip_literal lit

/-- The method `is_satisfiable`, with the external SAT solver as the function `solver`
of the number of variables and the clause list: the state after BCP and the verdict. -/
def is_satisfiable (w : Walk) (solver : Nat → List (List Int) → Bool) (s : Cnf) : Cnf × Bool :=
  let s1 := (s.bcp (w.sub 0) false).1
  if s1.has_conflict then (s1, false)
  else (s1, solver s1.nvar (s1.solver_clauses (w.sub 1)))

end Cnf

/-! ## The compiler -/

namespace Compiler

/-- The literal of the new CNF for an argument or root `oclit` in `clausify`. -/
def clausify_literal (p : Pog) (node_remap : List (Int × Int)) (oclit : Int) : Int :=
  let ocvar := Pog.get_var oclit
  let ncvar := if p.is_node ocvar then Pog.remap_get node_remap ocvar else ocvar
  if oclit < 0 then -ncvar else ncvar

/-- Record a non-node argument as a data variable of the new CNF. -/
def clausify_data (p : Pog) (cnf : Cnf) (oclit : Int) : Cnf :=
  if p.is_node (Pog.get_var oclit) then cnf
  else { cnf with data_variables := insert (Pog.get_var oclit) cnf.data_variables }

/-- The body of the first loop of `clausify`: the clauses that define one node. -/
def clausify_node (p : Pog) (node_remap : List (Int × Int)) (cnf : Cnf) (kv : Int × Int) :
    Cnf :=
  let onid := kv.1
  let nnid := kv.2
  let is_sum := p.is_sum onid
  let args := p.get_arguments onid
  let c1 := cnf.new_clause.add_literal (if is_sum then -nnid else nnid)
  let c2 := args.foldl (fun c oclit =>
    clausify_data p
      (c.add_literal (if is_sum then clausify_literal p node_remap oclit
                      else -clausify_literal p node_remap oclit)) oclit) c1
  args.foldl (fun c oclit =>
    (c.new_clause.add_literal (if is_sum then nnid else -nnid)).add_literal
      (if is_sum then -clausify_literal p node_remap oclit
       else clausify_literal p node_remap oclit)) c2

/-- The body of the second loop of `clausify`: the unit clause of one root. -/
def clausify_root (p : Pog) (node_remap : List (Int × Int)) (cnf : Cnf) (orid : Int) : Cnf :=
  clausify_data p (cnf.new_clause.add_literal (clausify_literal p node_remap orid)) orid

/-- The method `clausify`. -/
def clausify (p : Pog) (root_literals : List Int) : Cnf :=
  let node_remap := p.get_subgraph root_literals
  let cnf := Cnf.init (p.nvar + node_remap.length)
  let cnf1 := node_remap.foldl (clausify_node p node_remap) cnf
  root_literals.foldl (clausify_root p node_remap) cnf1

/-- The method `builtin_kc`: the graph, the CNF state and the returned edge. The depth
of the recursion is bounded by `fuel`; `none` is a recursion cut short, or the fatal
error of `assign_literal` on a splitting literal that is no declared variable. Each call
made from one activation gets its own part of the walk `w`: `check_simple_pkc` the part
0, the calls of `bcp`, `bve` and `builtin_kc` for the negative phase the parts 1, 2 and
3, and those for the positive phase the parts 4, 5 and 6. -/
def builtin_kc (rt : Runtime) (trim defer : Bool) :
    Walk → Nat → Pog → Cnf → Option (Pog × Cnf × Int)
  | _, 0, _, _ => none
  | w, fuel + 1, p, cnf =>
    if (cnf.check_simple_pkc (w.sub 0)).2 then
      some ((p.simple_kc rt (cnf.check_simple_pkc (w.sub 0)).1).1, cnf,
            (p.simple_kc rt (cnf.check_simple_pkc (w.sub 0)).1).2)
    else
      let svar := cnf.find_split defer
      let is_data := cnf.is_data_variable svar
      if svar = 0 ∨ svar > cnf.nvar then none
      else
        let c0 := ((((cnf.new_context).assign_literal (-svar) false).bcp (w.sub 1) false).1.bve
          rt (w.sub 2) false 0).1
        match builtin_kc rt trim defer (w.sub 3) fuel p c0 with
        | none => none
        | some (p0, c0', cedge0) =>
          let r0 := if is_data || !trim then Pog.build rt p0 POG_PRODUCT [-svar, cedge0]
                    else (p0, cedge0)
          let cnf1 := c0'.pop_context
          let c1 := ((((cnf1.new_context).assign_literal svar false).bcp (w.sub 4) false).1.bve
            rt (w.sub 5) false 0).1
          match builtin_kc rt trim defer (w.sub 6) fuel r0.1 c1 with
          | none => none
          | some (p1, c1', cedge1) =>
            let r1 := if is_data || !trim then Pog.build rt p1 POG_PRODUCT [svar, cedge1]
                      else (p1, cedge1)
            let cnf2 := c1'.pop_context
            let r := Pog.build rt r1.1 POG_SUM [r0.2, r1.2]
            some (r.1, cnf2, r.2)

/-- The recursion depth that `builtin_kc` is given: each level assigns one more
variable. -/
def builtin_kc_fuel (cnf : Cnf) : Nat := cnf.nvar + 1

end Compiler

/-! ## Truth assignments -/

/-- The truth value of a literal under an assignment to the variables. -/
def lit_true (τ : Int → Bool) (lit : Int) : Bool :=
  if lit > 0 then τ lit else !τ (-lit)

/-- A clause is satisfied when one of its literals is true. -/
def clause_true (τ : Int → Bool) (c : List Int) : Bool := c.any (lit_true τ)

/-- All lists of `n` truth values. -/
def all_assignments : Nat → List (List Bool)
  | 0 => [[]]
  | n + 1 => (all_assignments n).flatMap fun a => [false :: a, true :: a]

/-- A SAT solver by enumeration over the variables `1 .. nvar`: a reference for the
external solver. -/
def reference_solver (nvar : Nat) (cls : List (List Int)) : Bool :=
  (all_assignments nvar).any fun a =>
    cls.all (clause_true fun v => a.getD (v.toNat - 1) false)

/-! ## The projector (`project.hh`, `project.cpp`) -/

/-- The external collaborators of the projecting traversal: the SAT solver behind
`Cnf::is_satisfiable`, and `Compiler::compile(cnf, trim, defer)`, which extends the graph
and returns a root edge; and the order `walk` in which `is_satisfiable` visits its
unordered sets, on which only the inputs of these two depend. -/
structure Oracles where
  solver : Nat → List (List Int) → Bool
  compile : Pog → Cnf → Bool → Bool → Pog × Int
  walk : Walk

/-- The class `Project`, without the mode and the debugging support. The map
`result_cache` is a partial function; a null `input_weights` is the empty map. -/
structure Project where
  pog : Pog
  root_literal : Int
  result_cache : Int → Option Int
  input_weights : List (Int × ℚ)
  optlevel : Int

namespace Project

/-- The weights `pwt`, `nwt` and their `sum` that `subgraph_count` takes for one data
variable. -/
def var_weights (pr : Project) (weighted : Bool) (var : Int) : ℚ × ℚ × ℚ :=
  if weighted then
    match pr.input_weights.lookup var, pr.input_weights.lookup (-var) with
    | none, none => (1, 1, 2)
    | none, some nwt => (1 - nwt, nwt, 1)
    | some pwt, none => (pwt, 1 - pwt, 1)
    | some pwt, some nwt => (pwt, nwt, pwt + nwt)
  else (1, 1, 2)

/-- The body of the loop of `subgraph_count` over the data variables: the running
`rescale` and the map `weights`. A zero sum is a fatal error in the source; here its
reciprocal is zero. -/
def count_step (pr : Project) (weighted : Bool) (st : ℚ × (Int → Option ℚ)) (var : Int) :
    ℚ × (Int → Option ℚ) :=
  let w := pr.var_weights weighted var
  if w.2.2 = 1 then
    (st.1, Function.update (Function.update st.2 var (some w.1)) (-var) (some w.2.1))
  else
    (st.1 * w.2.2,
     Function.update (Function.update st.2 var (some (w.1 * w.2.2⁻¹))) (-var)
       (some (w.2.1 * w.2.2⁻¹)))

/-- The method `subgraph_count`; `none` is the null result for a weighted count without
declared weights. The loop over the unordered set `data_variables` is taken in ascending
order: it multiplies into `rescale` and writes map entries under keys of its own
variable, so its result is the same in every order. -/
def subgraph_count (pr : Project) (weighted : Bool) (root_edge : Int) : Option ℚ :=
  if weighted ∧ pr.input_weights.length = 0 then none
  else
    let st := (ascList pr.pog.data_variables).foldl (pr.count_step weighted)
      (1, fun _ => none)
    some (st.1 * pr.pog.ring_evaluate root_edge st.2)

/-- The method `count`. -/
def count (pr : Project) (weighted : Bool) : Option ℚ :=
  pr.subgraph_count weighted pr.root_literal

/-- The method `equal_counts`. -/
def equal_counts (pr : Project) (root_edge1 root_edge2 : Int) : Bool :=
  decide (pr.subgraph_count false root_edge1 = pr.subgraph_count false root_edge2)

/-- The method `sums_to_tautology`. -/
def sums_to_tautology (orc : Oracles) (pr : Project) (root_literals : List Int) : Bool :=
  !(Cnf.is_satisfiable orc.walk orc.solver
      (Compiler.clausify pr.pog (root_literals.map fun root => -root))).2

/-- The method `traverse_product`, over the traversal `trav` of the arguments. -/
def traverse_product (rt : Runtime) (trav : Project → Int → Option (Project × Int))
    (pr : Project) (edge : Int) : Option (Project × Int) :=
  let r := (pr.pog.get_arguments edge).foldl
    (fun (st : Option (Project × List Int)) cedge =>
      match st with
      | none => none
      | some (pr1, ncedge) =>
        match trav pr1 cedge with
        | none => none
        | some (pr2, nedge) => some (pr2, ncedge ++ [nedge]))
    (some (pr, []))
  match r with
  | none => none
  | some (pr1, ncedge) =>
    let b := Pog.build rt pr1.pog POG_PRODUCT ncedge
    some ({ pr1 with pog := b.1 }, b.2)

/-- The method `traverse_sum`, over the traversal `trav` of the arguments; `none` is a
fatal error or a traversal cut short. -/
def traverse_sum (rt : Runtime) (orc : Oracles)
    (trav : Project → Int → Option (Project × Int))
    (pr : Project) (edge : Int) : Option (Project × Int) :=
  let edge1 := pr.pog.get_argument edge 0
  let edge2 := pr.pog.get_argument edge 1
  match pr.pog.get_decision_variable (rt.stray pr.pog edge) edge with
  | none => none
  | some dvar =>
    match trav pr edge1 with
    | none => none
    | some (pr1, nedge1) =>
      if nedge1 = TAUTOLOGY then some (pr1, nedge1)
      else match trav pr1 edge2 with
        | none => none
        | some (pr2, nedge2) =>
          if nedge2 = TAUTOLOGY then some (pr2, nedge2)
          else if nedge1 = nedge2 then some (pr2, nedge1)
          else if sums_to_tautology orc pr2 [nedge1, nedge2] then some (pr2, TAUTOLOGY)
          else
            let plain : Option (Project × Int) :=
              let b := Pog.build rt pr2.pog POG_SUM [nedge1, nedge2]
              some ({ pr2 with pog := b.1 }, b.2)
            if pr2.pog.is_data_variable dvar then plain
            else if pr2.pog.is_tseitin_variable dvar then plain
            else
              let x := Cnf.is_satisfiable orc.walk orc.solver
                (Compiler.clausify pr2.pog [nedge1, nedge2])
              if x.2 = false then plain
              else
                let u := orc.compile pr2.pog x.1 (decide (pr2.optlevel ≥ 2)) false
                if u.2 = CONFLICT then
                  let b := Pog.build rt u.1 POG_SUM [nedge1, nedge2]
                  some ({ pr2 with pog := b.1 }, b.2)
                else match trav { pr2 with pog := u.1 } u.2 with
                  | none => none
                  | some (pr3, xroot) =>
                    -- Subsumption checks
                    if xroot = nedge1 then some (pr3, nedge2)
                    else if xroot = nedge2 then some (pr3, nedge1)
                    else if pr3.optlevel ≥ 4 ∧ pr3.equal_counts xroot nedge1 then
                      some (pr3, nedge2)
                    else if pr3.optlevel ≥ 4 ∧ pr3.equal_counts xroot nedge2 then
                      some (pr3, nedge1)
                    else
                      let m := Pog.build rt pr3.pog POG_SUM [-nedge1, xroot]
                      let b := Pog.build rt m.1 POG_SUM [-m.2, nedge2]
                      some ({ pr3 with pog := b.1 }, b.2)

/-- The method `traverse`; the depth of the recursion is bounded by `fuel`, and `none` is
a fatal error or a recursion cut short. -/
def traverse (rt : Runtime) (orc : Oracles) : Nat → Project → Int → Option (Project × Int)
  | 0, _, _ => none
  | fuel + 1, pr, edge =>
    if pr.pog.is_node edge = false then
      if Pog.get_var edge = TAUTOLOGY then some (pr, edge)
      else if pr.pog.is_data_variable (Pog.get_var edge) then some (pr, edge)
      -- Projected literal satisfied
      else some (pr, TAUTOLOGY)
    else
      match (if pr.optlevel ≥ 1 then pr.result_cache edge else none) with
      | some nedge => some (pr, nedge)
      | none =>
        if pr.optlevel ≥ 2 ∧ pr.pog.only_data_variables edge = true then some (pr, edge)
        else if pr.optlevel ≥ 2 ∧ pr.pog.only_projection_variables edge = true then
          some (pr, TAUTOLOGY)
        else
          match (if pr.pog.is_sum edge then traverse_sum rt orc (traverse rt orc fuel) pr edge
                 else traverse_product rt (traverse rt orc fuel) pr edge) with
          | none => none
          | some (pr1, nedge) =>
            some ({ pr1 with result_cache := Function.update pr1.result_cache edge (some nedge) },
                  nedge)

end Project

namespace Pog

/-- The graph with the prototype `n` at the end of the node list. -/
def push (p : Pog) (n : Node) : Pog := { p with nodes := p.nodes ++ [n] }

/-- The state of the prototype after `add_argument` for each edge of `args`. -/
def proto_of (p : Pog) (type : pog_type_t) (args : List Int) : Node :=
  args.foldl p.add_argument_node ⟨type, [], true, true⟩

end Pog

namespace Pog

/-- The constant that absorbs an operation: `CONFLICT` for a Product, `TAUTOLOGY` for a
Sum. -/
def absorbing (t : pog_type_t) : Int := if t = POG_SUM then TAUTOLOGY else CONFLICT

/-- The constant that an operation drops: `TAUTOLOGY` for a Product, `CONFLICT` for a
Sum. -/
def neutral (t : pog_type_t) : Int := if t = POG_SUM then CONFLICT else TAUTOLOGY

/-- The arguments that one edge contributes to a node of type `t` under construction:
none for the neutral constant, the arguments of a positive Product edge given to a
Product, the edge itself otherwise. -/
def expand_edge (p : Pog) (t : pog_type_t) (e : Int) : List Int :=
  if e = neutral t then []
  else if p.is_node e ∧ t = POG_PRODUCT ∧ p.get_type e = POG_PRODUCT ∧ get_phase e then
    p.get_arguments e
  else [e]

/-- The arguments that a list of edges contributes to a node of type `t`. -/
def expand (p : Pog) (t : pog_type_t) (args : List Int) : List Int :=
  args.flatMap (p.expand_edge t)

end Pog

namespace Pog

/-- The graph after `finish_node` has committed the prototype `m`: the node is stored
and entered in the unique table. -/
def commit (rt : Runtime) (p : Pog) (m : Node) : Pog :=
  { p with nodes := p.nodes ++ [m],
           unique_table := p.unique_table ++ [table_entry rt p p.nodes.length m] }

end Pog

namespace Pog

/-- The invariant of the prototype during a build: it holds the absorbing constant
alone, or arguments that are literals or stored nodes, with flags that agree with
them. -/
def proto_ok (p : Pog) (n : Node) : Prop :=
  n.args = [absorbing n.type] ∨
  ((∀ a ∈ n.args, p.child_ok p.nodes.length a) ∧
   n.data_only = n.args.all p.only_data_variables ∧
   n.projection_only = n.args.all p.only_projection_variables)

end Pog

namespace Pog

/-- What `visit` guarantees for a node id `x` that it adds while visiting `e`, with `S`
the set at the end of the visit: `x` is the id of a stored node, and each argument of
`x` is reachable from `e` and, when it is a node, is in `S` too. -/
def visited_ok (p : Pog) (e : Int) (S : Finset Int) (x : Int) : Prop :=
  p.is_node x = true ∧ (IABS x = x ∧ x ≤ (p.nvar : Int) + p.nodes.length) ∧
  ∀ c ∈ p.get_arguments x, Reach p e c ∧ (p.is_node c = true → IABS c ∈ S)

end Pog

namespace Pog

/-- The invariant of the outer loop of `ring_evaluate`, with `done` the node ids
evaluated so far: the map holds the value of each of them and of its negation, and the
given weight for every edge that is not a node. -/
def eval_inv (p : Pog) (w : Int → Option ℚ) (k : Nat) (done : List Int)
    (eweights : Int → Option ℚ) : Prop :=
  (∀ x ∈ done, eweights x = some (p.val w k x) ∧ eweights (-x) = some (1 - p.val w k x)) ∧
  (∀ e, p.is_node e = false → eweights e = w e)

end Pog

namespace Pog

/-- The graph `q` extends the graph `p`: same variables, and the nodes of `p` followed by
further nodes. -/
def Extends (p q : Pog) : Prop :=
  q.nvar = p.nvar ∧ q.data_variables = p.data_variables ∧
  q.tseitin_variables = p.tseitin_variables ∧ ∃ l, q.nodes = p.nodes ++ l

end Pog

/-- The zero-separated stream that encodes a list of clauses: each clause followed by a
zero, as `check_simple_pkc` emits it. -/
def stream_of (clauses : List (List Int)) : List Int :=
  clauses.flatMap fun c => c ++ [0]

/-- The ring value of the edge that `build_disjunction` makes for a clause, for literal
weights `f`: the weight of the literal for a one-literal clause, and otherwise one minus
the product of the weights of the negated literals. -/
def clause_value (f : Int → ℚ) (c : List Int) : ℚ :=
  if c.length = 1 then f (c.headD 0) else 1 - (c.map fun l => f (-l)).prod

namespace Pog

/-- The loop of `simple_kc` clause by clause: the graph and the edges of the clauses. -/
def kc_clauses (rt : Runtime) (p : Pog) (clauses : List (List Int)) : Pog × List Int :=
  clauses.foldl (fun st c => ((build_disjunction rt st.1 c).1, st.2 ++ [(build_disjunction rt st.1 c).2]))
    (p, [])

/-- An edge that a Product takes as one argument: no constant and no positive edge to a
node. -/
def plain_edge (p : Pog) (e : Int) : Prop :=
  IABS e ≠ TAUTOLOGY ∧ (p.is_node e = false ∨ e < 0)

end Pog

namespace Project

/-- The weight of a literal in the words of the specification: the declared weight; a
missing weight on one side is one minus the other side; both missing, and every literal
of the unweighted count, is 1. -/
def spec_weight (pr : Project) (weighted : Bool) (l : Int) : ℚ :=
  if weighted then
    match pr.input_weights.lookup l, pr.input_weights.lookup (-l) with
    | some x, _ => x
    | none, some y => 1 - y
    | none, none => 1
  else 1

/-- The weight sum `s_v = w(v) + w(-v)` of the specification. -/
def spec_sum (pr : Project) (weighted : Bool) (v : Int) : ℚ :=
  pr.spec_weight weighted v + pr.spec_weight weighted (-v)

/-- The count in the words of the specification: the product of the weight sums of the
data variables, times `ring_evaluate(root, w')` for `w'(l) = w(l) / s_|l|` on the
literals of the data variables. -/
def spec_count (pr : Project) (weighted : Bool) (root_edge : Int) : ℚ :=
  (∏ v in pr.pog.data_variables, pr.spec_sum weighted v) *
    pr.pog.ring_evaluate root_edge (fun l =>
      if IABS l ∈ pr.pog.data_variables then
        some (pr.spec_weight weighted l / pr.spec_sum weighted (IABS l))
      else none)

end Project

open pog_type_t action_t var_t

/-- The assignments to the variables of a list: every choice of truth values for the listed
variables, the other variables being false. -/
def assignments : List Int → List (Int → Bool)
  | [] => [fun _ => false]
  | v :: vs => (assignments vs).flatMap fun τ => [Function.update τ v true, Function.update τ v false]

/-- The model count of a list of clauses over a list of variables: the number of
assignments to the variables that satisfy every clause. -/
def model_count (vars : List Int) (cls : List (List Int)) : Nat :=
  (assignments vars).countP fun τ => cls.all (clause_true τ)

/-- The Boolean function `g` does not depend on the variable `v`. -/
def insensitive (g : (Int → Bool) → Bool) (v : Int) : Prop :=
  ∀ (τ : Int → Bool) (b : Bool), g (Function.update τ v b) = g τ

open pog_type_t action_t var_t
namespace Compiler

/-- The state of `clausify` after its first loop: the clauses that define the nodes. -/
def clausify_nodes (p : Pog) (root_literals : List Int) : Cnf :=
  (p.get_subgraph root_literals).foldl (clausify_node p (p.get_subgraph root_literals))
    (Cnf.init (p.nvar + (p.get_subgraph root_literals).length))

/-- The clauses that the first loop of `clausify` emits for one node: the clause over the
node and all its arguments, then one binary clause for each argument. -/
def node_clauses (p : Pog) (node_remap : List (Int × Int)) (kv : Int × Int) : List (List Int) :=
  [(if p.is_sum kv.1 then -kv.2 else kv.2) ::
    (p.get_arguments kv.1).map fun oclit =>
      if p.is_sum kv.1 then clausify_literal p node_remap oclit
      else -clausify_literal p node_remap oclit] ++
  (p.get_arguments kv.1).map fun oclit =>
    [if p.is_sum kv.1 then kv.2 else -kv.2,
     if p.is_sum kv.1 then -clausify_literal p node_remap oclit
     else clausify_literal p node_remap oclit]

/-- The nodes that `get_subgraph` collects. -/
def subgraph_nodes (p : Pog) (root_edges : List Int) : Finset Int :=
  root_edges.foldl (fun vis redge => p.visit p.visit_fuel redge vis) ∅

/-- The assignment that extends `τ` to the fresh variables of `clausify`: each fresh
variable gets the Boolean value of its node. -/
def tseitin_assignment (p : Pog) (root_literals : List Int) (τ : Int → Bool) (v : Int) : Bool :=
  if (p.nvar : Int) < v ∧ v ≤ (p.nvar : Int) + (p.get_subgraph root_literals).length then
    p.beval τ (p.nodes.length + 1)
      ((ascList (subgraph_nodes p root_literals)).getD (v - p.nvar - 1).toNat 0)
  else τ v

end Compiler

open pog_type_t action_t var_t
namespace Cnf

/-- The literal index is exact: a literal indexes exactly the active clauses that contain
it. This holds after loading, and `activate_clause` and `deactivate_clause` keep it. -/
def index_exact (s : Cnf) : Prop :=
  ∀ (lit cid : Int), cid ∈ s.literal_clauses lit ↔ (cid ∈ s.active_clauses ∧ lit ∈ s.clause cid)

/-- The invariant of the states between operations: the index is exact and every BCP unit
literal is a unit literal. -/
def consistent (s : Cnf) : Prop :=
  s.index_exact ∧ s.bcp_unit_literals ⊆ s.unit_literals

/-- The state `a` is the state `b`, except for the variable types, and except that the
conflict flag of `a` may be cleared where that of `b` is set. -/
def below (a b : Cnf) : Prop :=
  a.nvar = b.nvar ∧ a.clauses = b.clauses ∧ a.literal_clauses = b.literal_clauses ∧
  (a.has_conflict = true → b.has_conflict = true) ∧
  a.action_stack = b.action_stack ∧ a.active_stack = b.active_stack ∧
  a.active_clauses = b.active_clauses ∧ a.unit_literals = b.unit_literals ∧
  a.bcp_unit_literals = b.bcp_unit_literals ∧
  a.uquantified_variables = b.uquantified_variables ∧
  a.data_variables = b.data_variables ∧ a.tseitin_variables = b.tseitin_variables ∧
  a.input_weights = b.input_weights

/-- The operations between a `new_context` and its `pop_context` whose effects the action
stack undoes: `in_context rt s s'` says that `s'` is reached from `s` by assignments,
universal quantification of a variable not yet quantified, deactivation of an active
clause, `push_active` with clauses none of whose literals is skipped, `bcp`, `bve` with
`maxdegree` zero (both for every order of the walks of unordered sets), and nested
contexts that are opened and popped. -/
inductive in_context (rt : Runtime) : Cnf → Cnf → Prop
  | refl (s : Cnf) : in_context rt s s
  | assign {s s' : Cnf} (lit : Int) (bcp : Bool) :
      in_context rt s s' → in_context rt s (s'.assign_literal lit bcp)
  | uquantify {s s' : Cnf} (var : Int) :
      in_context rt s s' → var ∉ s'.uquantified_variables →
      in_context rt s (s'.uquantify_variable var)
  | deactivate {s s' : Cnf} (cid : Int) :
      in_context rt s s' → cid ∈ s'.active_clauses → in_context rt s (s'.deactivate_clause cid)
  | push_active {s s' : Cnf} (nactive_clauses : Finset Int) :
      in_context rt s s' →
      (∀ cid ∈ nactive_clauses, ∀ lit ∈ s'.clause cid, s'.skip_literal lit = false) →
      in_context rt s (s'.push_active nactive_clauses)
  | bcp {s s' : Cnf} (w : Walk) (preprocess : Bool) :
      in_context rt s s' → w.ok → in_context rt s (s'.bcp w preprocess).1
  | bve {s s' : Cnf} (w : Walk) (preprocess : Bool) :
      in_context rt s s' → w.ok → in_context rt s (s'.bve rt w preprocess 0).1
  | nested {s s' s'' : Cnf} :
      in_context rt s s' → in_context rt s'.new_context s'' → in_context rt s s''.pop_context

/-- The effects of the step from `s` to `s'` are undone by `pop_context`: the invariant
holds again, the clauses are the same, and popping from `s'` gives what popping from `s`
gives. -/
def undoable (s s' : Cnf) : Prop :=
  s'.consistent ∧ s'.clauses = s.clauses ∧ s'.pop_context.below s.pop_context

end Cnf

open pog_type_t action_t var_t
namespace Cnf

/-- The invariant of a state while its clauses are loaded with `new_clause` and
`add_literal`: the index is exact, the active clauses have ids from 1 to the number of
clauses, and the clause being written is active. -/
def loaded (s : Cnf) : Prop :=
  s.index_exact ∧ (∀ cid ∈ s.active_clauses, 1 ≤ cid ∧ cid ≤ (s.clauses.length : Int)) ∧
  ((s.clauses.length : Int) ∈ s.active_clauses) ∧ s.clauses ≠ []

end Cnf

namespace Pog

/-- An edge that `add_argument` splices into a Product under construction: a positive
edge to a Product node. -/
def spliced (p : Pog) (e : Int) : Prop :=
  p.is_node e = true ∧ p.get_type e = POG_PRODUCT ∧ get_phase e = true

/-- No stored Product node has a positive edge to a Product node among its arguments. -/
def flat (p : Pog) : Prop :=
  ∀ i n, p.nodes.get? i = some n → n.type = POG_PRODUCT → ∀ a ∈ n.args, ¬ p.spliced a

end Pog

namespace Pog

/-- The method `get_variables`: the set `vset` after the call. -/
def get_variables (p : Pog) (root : Int) (vset : Finset Int) : Finset Int :=
  if p.is_node root = false then insert (get_var root) vset
  else
    let visited := p.visit p.visit_fuel root ∅
    (ascList visited).foldl
      (fun vs edge => (p.get_arguments edge).foldl
        (fun vs c => if p.is_node (get_var c) = false then insert (get_var c) vs else vs) vs)
      vset

end Pog

namespace Cnf

/-- A literal that `find_split` collects: a non-skipped literal of an active clause that
is not satisfied. -/
def occurs (s : Cnf) (lit : Int) : Prop :=
  ∃ cid ∈ s.active_clauses, s.skip_clause cid = false ∧ lit ∈ s.clause cid ∧
    s.skip_literal lit = false

end Cnf

namespace Cnf

/-- The non-skipped literals of a clause, in the order of the clause. -/
def live_literals (s : Cnf) (cid : Int) : List Int :=
  (s.clause cid).filter fun lit => !s.skip_literal lit

/-- The non-skipped literals of the clauses with the ids `cids` that are not satisfied,
clause by clause. -/
def live_clauses (s : Cnf) (cids : List Int) : List (List Int) :=
  (cids.filter fun cid => !s.skip_clause cid).map s.live_literals

/-- The literals that `check_simple_pkc` compares: the non-skipped literals of the active
clauses that are not satisfied, in ascending order of the clause ids, up to the first
such clause that has no non-skipped literal. -/
def scanned_literals (s : Cnf) : List Int :=
  ((s.live_clauses (ascList s.active_clauses)).takeWhile fun c => !c.isEmpty).flatten

end Cnf

namespace Project

/-- The exclusion construction at the end of `traverse_sum`: `mroot` is the Sum of
`-nedge1` and `xroot`, and the result is the Sum of `-mroot` and `nedge2`. -/
def exclusion (rt : Runtime) (pog : Pog) (nedge1 xroot nedge2 : Int) : Pog × Int :=
  let m := Pog.build rt pog POG_SUM [-nedge1, xroot]
  Pog.build rt m.1 POG_SUM [-m.2, nedge2]

end Project

namespace Project

/-- An edge with no projection variable below it: a constant, a literal of a data
variable, or an edge to a node whose flag `data_only` is set. -/
def data_edge (p : Pog) (e : Int) : Prop :=
  IABS e = TAUTOLOGY ∨ p.only_data_variables e = true

/-- The invariant of the result cache at optimisation levels 2 and above: no key is an
edge with the flag `data_only`, and every cached result is an edge of the graph with no
projection variable below it. -/
def cache_ok (pr : Project) : Prop :=
  ∀ k v, pr.result_cache k = some v →
    pr.pog.edge_ok k ∧ pr.pog.only_data_variables k = false ∧ pr.pog.edge_ok v ∧
    data_edge pr.pog v

/-- The contract of the compile oracle: it extends the graph; and when the graph it is
given is well formed and the graph it returns is within the range of node ids, the graph
returned is well formed and the edge returned is an edge of it. -/
def compile_ok (rt : Runtime) (orc : Oracles) : Prop :=
  ∀ (p : Pog) (cnf : Cnf) (trim defer : Bool),
    p.Extends (orc.compile p cnf trim defer).1 ∧
    (p.WF rt →
      ((orc.compile p cnf trim defer).1.nvar : Int) +
        (orc.compile p cnf trim defer).1.nodes.length < MAX_VARIABLE →
      (orc.compile p cnf trim defer).1.WF rt ∧
      (orc.compile p cnf trim defer).1.edge_ok (orc.compile p cnf trim defer).2)

/-- The invariant of the projector between two traversals at optimisation levels 2 and
above. -/
def good (rt : Runtime) (pr : Project) : Prop :=
  pr.pog.WF rt ∧ 2 ≤ pr.optlevel ∧ pr.cache_ok

/-- What a run of the projector from the state `pr`, started for the edge `e`, keeps up
to a later state `pr1` in which the edges `es` have been obtained: the variables and the
level stay and the graph grows; and when the run starts in a good state, for an edge of
the graph, and ends within the range of node ids, then `pr1` is a good state whose graph
extends that of `pr`, and the edges `es` are edges of it with no projection variable
below them. -/
def chain (rt : Runtime) (pr : Project) (e : Int) (pr1 : Project) (es : List Int) : Prop :=
  (pr1.pog.nvar = pr.pog.nvar ∧ pr.pog.nodes.length ≤ pr1.pog.nodes.length ∧
    pr1.optlevel = pr.optlevel) ∧
  (good rt pr → pr.pog.edge_ok e →
    (pr1.pog.nvar : Int) + pr1.pog.nodes.length + 1 < MAX_VARIABLE →
    good rt pr1 ∧ pr.pog.Extends pr1.pog ∧
    ∀ a ∈ es, pr1.pog.edge_ok a ∧ data_edge pr1.pog a)

end Project

namespace Cnf

/-- The state `s1` comes from the state `s` by a run of the elementary updates that `bcp`,
`bve` and `resolve` are made of: `trigger_conflict`, `assign_literal`,
`deactivate_clause`, `set_variable_type`, `new_clause` and `add_literal`. -/
inductive evolves : Cnf → Cnf → Prop
  | refl (s : Cnf) : evolves s s
  | conflict {s s1 : Cnf} : evolves s s1 → evolves s s1.trigger_conflict
  | assign {s s1 : Cnf} (lit : Int) (bcp : Bool) :
      evolves s s1 → evolves s (s1.assign_literal lit bcp)
  | deactivate {s s1 : Cnf} (cid : Int) : evolves s s1 → evolves s (s1.deactivate_clause cid)
  | set_type {s s1 : Cnf} (var : Int) (type : var_t) :
      evolves s s1 → evolves s (s1.set_variable_type var type)
  | new_clause {s s1 : Cnf} : evolves s s1 → evolves s s1.new_clause
  | add_literal {s s1 : Cnf} (lit : Int) : evolves s s1 → evolves s (s1.add_literal lit)

/-- The effect of undoing one action record on the two sets of unit literals. -/
def undo_units (ar : action_record) (ub : Finset Int × Finset Int) : Finset Int × Finset Int :=
  match ar.action with
  | ACTION_BCP => (ub.1.erase ar.ele, ub.2.erase ar.ele)
  | ACTION_ASSERT => (ub.1.erase ar.ele, ub.2)
  | ACTION_ASSERT_FROM_BCP => (ub.1, insert ar.ele ub.2)
  | _ => ub

/-- Every BCP unit literal is a unit literal, now and after undoing any number of
records from the top of the action stack (given top first). -/
def units_ok : List action_record → Finset Int × Finset Int → Prop
  | [], ub => ub.2 ⊆ ub.1
  | ar :: below, ub => ub.2 ⊆ ub.1 ∧ units_ok below (undo_units ar ub)

/-- The states reachable from a state without unit literals, inside its first context,
by `assign_literal`, `bcp`, `bve`, `uquantify_variable`, `new_context` and
`pop_context`; the loops of `bcp` and `bve` over unordered sets may visit them in any
order. -/
inductive unit_reachable (rt : Runtime) : Cnf → Prop
  | start (s : Cnf) : s.unit_literals = ∅ → s.bcp_unit_literals = ∅ →
      s.action_stack = [⟨ACTION_START_CONTEXT, 0⟩] → unit_reachable rt s
  | assign {s : Cnf} (lit : Int) (bcp : Bool) :
      unit_reachable rt s → unit_reachable rt (s.assign_literal lit bcp)
  | bcp {s : Cnf} (w : Walk) (preprocess : Bool) :
      unit_reachable rt s → w.ok → unit_reachable rt (s.bcp w preprocess).1
  | bve {s : Cnf} (w : Walk) (preprocess : Bool) (maxdegree : Nat) :
      unit_reachable rt s → w.ok → unit_reachable rt (s.bve rt w preprocess maxdegree).1
  | uquantify {s : Cnf} (var : Int) :
      unit_reachable rt s → unit_reachable rt (s.uquantify_variable var)
  | new_context {s : Cnf} : unit_reachable rt s → unit_reachable rt s.new_context
  | pop_context {s : Cnf} : unit_reachable rt s → unit_reachable rt s.pop_context

/-- No variable has both its literals among the unit literals. -/
def units_consistent (s : Cnf) : Prop :=
  ∀ l : Int, l ≠ 0 → l ∈ s.unit_literals → -l ∉ s.unit_literals

end Cnf

namespace Cnf

/-- A saved pair of an active set and a literal index is exact for the clauses of `s`,
and its active set names clauses of `s` only. -/
def saved_ok (s : Cnf) (r : active_record) : Prop :=
  (∀ lit cid : Int, cid ∈ r.literal_clauses lit ↔
    (cid ∈ r.active_clauses ∧ lit ∈ s.clause cid)) ∧
  ∀ cid ∈ r.active_clauses, 1 ≤ cid ∧ cid ≤ (s.clauses.length : Int)

/-- The invariant of the literal index without the action stack: the index is exact, the
active clauses are clauses of the state, no literal is assigned or quantified, and the
saved pairs on the stack of active sets are exact. -/
def index_core (s : Cnf) : Prop :=
  s.index_exact ∧ (∀ cid ∈ s.active_clauses, 1 ≤ cid ∧ cid ≤ (s.clauses.length : Int)) ∧
  s.unit_literals = ∅ ∧ s.uquantified_variables = ∅ ∧ ∀ r ∈ s.active_stack, s.saved_ok r

/-- Every deactivation recorded in a list of action records names a clause of `s`. -/
def records_ok (s : Cnf) (l : List action_record) : Prop :=
  ∀ ar ∈ l, ar.action = ACTION_DEACTIVATE_CLAUSE →
    1 ≤ ar.ele ∧ ar.ele ≤ (s.clauses.length : Int)

/-- The states reachable from an empty state by the creation of a clause (`new_clause`
followed by the `add_literal` calls for its literals), by `deactivate_clause`,
`activate_clause` and `push_active` on valid clause ids (any other id is a fatal error in
the source), by `new_context` and by `pop_context`. -/
inductive index_reachable : Cnf → Prop
  | start (s : Cnf) : s.clauses = [] → s.literal_clauses = (fun _ => ∅) →
      s.active_clauses = ∅ → s.unit_literals = ∅ → s.uquantified_variables = ∅ →
      s.active_stack = [] → s.action_stack = [⟨ACTION_START_CONTEXT, 0⟩] → index_reachable s
  | create {s : Cnf} (lits : List Int) :
      index_reachable s → index_reachable (lits.foldl add_literal s.new_clause)
  | deactivate {s : Cnf} (cid : Int) : index_reachable s →
      1 ≤ cid → cid ≤ (s.clauses.length : Int) → index_reachable (s.deactivate_clause cid)
  | activate {s : Cnf} (cid : Int) : index_reachable s →
      1 ≤ cid → cid ≤ (s.clauses.length : Int) → index_reachable (s.activate_clause cid)
  | push_active {s : Cnf} (nactive_clauses : Finset Int) : index_reachable s →
      (∀ cid ∈ nactive_clauses, 1 ≤ cid ∧ cid ≤ (s.clauses.length : Int)) →
      index_reachable (s.push_active nactive_clauses)
  | new_context {s : Cnf} : index_reachable s → index_reachable s.new_context
  | pop_context {s : Cnf} : index_reachable s → index_reachable s.pop_context

end Cnf

namespace Pog

/-- The literal list of a child of a Sum as the specification takes it: the arguments of
the child when it is a node, the child edge itself when it is a leaf. -/
def child_literals (p : Pog) (e : Int) : List Int :=
  if p.is_node e then p.get_arguments e else [e]

end Pog

namespace Compiler

/-- The id `o` is the id of a node reachable from one of the root edges. -/
def reachable_node (p : Pog) (roots : List Int) (o : Int) : Prop :=
  ∃ r ∈ roots, ∃ y, Pog.Reach p r y ∧ p.is_node y = true ∧ IABS y = o

end Compiler

namespace Cnf

/-- The literals that `resolve` merges: the literals of the two clauses that are not
skipped and are not literals of the variable `var`. -/
def resolve_literals (s : Cnf) (var cid1 cid2 : Int) : List Int :=
  (s.clause cid1).filter (fun lit => decide (IABS lit ≠ var) && !s.skip_literal lit) ++
  (s.clause cid2).filter (fun lit => decide (IABS lit ≠ var) && !s.skip_literal lit)

end Cnf

namespace Cnf

/-- The state after one elimination in the loop of `bve`, in the round that has `fuel`
rounds left: the variable type is set when preprocessing, the clauses of `lit` are
resolved with those of `-lit` in the order of the walk `w`, all of them are deactivated,
and a pure literal is asserted. -/
def bve_step (rt : Runtime) (w : Walk) (fuel : Nat) (preprocess : Bool) (s : Cnf)
    (var lit : Int) (degree : Nat) : Cnf :=
  let s1 := if preprocess then s.set_variable_type var VAR_ELIM else s
  let cids1 := w.order [fuel, 1] (s1.literal_clauses lit)
  let cids2 := w.order [fuel, 2] (s1.literal_clauses (-lit))
  let s2 := cids1.foldl
    (fun s cid1 => cids2.foldl (fun s cid2 => (resolve rt s var cid1 cid2).1) s) s1
  let s3 := s2.deactivate_clauses (cids1 ++ cids2)
  if degree = 0 ∧ -lit ∉ s3.bcp_unit_literals then s3.assign_literal (-lit) true else s3

/-- The buckets `degree_variables` that `bve` fills before its main loop. -/
def bve_buckets (s : Cnf) (maxdegree : Nat) : Nat → Finset Int :=
  ((ascList s.active_clauses).foldl
    (fun st cid => (s.clause cid).foldl (bve_scan_literal s maxdegree) st)
    ((∅ : Finset Int), fun _ => (∅ : Finset Int))).2

/-- The set `eliminated_variables` at the end of `bve`. -/
def bve_eliminated (rt : Runtime) (w : Walk) (s : Cnf) (preprocess : Bool) (maxdegree : Nat) :
    Finset Int :=
  (bve_loop rt w preprocess maxdegree s.bve_fuel s (s.bve_buckets maxdegree) ∅).2

end Cnf

namespace Project

/-- The invariant of the result cache at every optimisation level: every cached result
is an edge of the graph with no projection variable below it. -/
def cache_data (pr : Project) : Prop :=
  ∀ k v, pr.result_cache k = some v → pr.pog.edge_ok v ∧ data_edge pr.pog v

/-- The invariant of the projector between two traversals at every optimisation level. -/
def sound (rt : Runtime) (pr : Project) : Prop :=
  pr.pog.WF rt ∧ pr.cache_data

/-- What a run of the projector from the state `pr`, started for the edge `e`, keeps up
to a later state `pr1` in which the edges `es` have been obtained, at every optimisation
level: the variables and the level stay and the graph grows; and when the run starts in
a sound state, for an edge of the graph, and ends within the range of node ids, then
`pr1` is a sound state whose graph extends that of `pr`, and the edges `es` are edges of
it with no projection variable below them. -/
def run (rt : Runtime) (pr : Project) (e : Int) (pr1 : Project) (es : List Int) : Prop :=
  (pr1.pog.nvar = pr.pog.nvar ∧ pr.pog.nodes.length ≤ pr1.pog.nodes.length ∧
    pr1.optlevel = pr.optlevel) ∧
  (sound rt pr → pr.pog.edge_ok e →
    (pr1.pog.nvar : Int) + pr1.pog.nodes.length + 1 < MAX_VARIABLE →
    sound rt pr1 ∧ pr.pog.Extends pr1.pog ∧
    ∀ a ∈ es, pr1.pog.edge_ok a ∧ data_edge pr1.pog a)

end Project

namespace Compiler

/-- The method `compile(cnf, trim, defer)`: the graph, the CNF state and the returned
root. The fields `use_d4v2` and `bkc_limit` of the compiler are parameters; `d4` stands
for the external path (write the CNF file, run D4, load the NNF file), and `none` is a
fatal error. -/
def compile (rt : Runtime) (w : Walk) (use_d4v2 : Bool) (bkc_limit : Int)
    (d4 : Pog → Cnf → Bool → Bool → Pog × Int) (p : Pog) (cnf : Cnf) (trim defer : Bool) :
    Option (Pog × Cnf × Int) :=
  if defer && !use_d4v2 then none
  else if (cnf.nonunit_clause_count : Int) ≤ bkc_limit then
    builtin_kc rt trim defer w (builtin_kc_fuel cnf) p cnf
  else
    let r := d4 p cnf trim defer
    some (r.1, cnf, r.2)

end Compiler

namespace Pog

/-- The new edge for an argument or root `oedge` in `write`: a node edge is renumbered
with `node_remap`, with the sign kept. -/
def write_edge (p : Pog) (node_remap : List (Int × Int)) (oedge : Int) : Int :=
  if p.is_node oedge then
    if oedge > 0 then remap_get node_remap (get_var oedge)
    else -remap_get node_remap (get_var oedge)
  else oedge

/-- The method `write` to an open output file: the lines written, each as its leading
character and the numbers that follow it. -/
def write (p : Pog) (root_edge : Int) : List (Char × List Int) :=
  if p.is_node root_edge = false then
    if get_var root_edge = TAUTOLOGY then
      [('p', [(p.nvar : Int) + 1]),
       ('r', [if root_edge > 0 then (p.nvar : Int) + 1 else -((p.nvar : Int) + 1)])]
    else [('r', [root_edge])]
  else
    ('r', [if root_edge > 0 then remap_get (p.get_subgraph [root_edge]) (get_var root_edge)
           else -remap_get (p.get_subgraph [root_edge]) (get_var root_edge)]) ::
    (p.get_subgraph [root_edge]).map fun kv =>
      (if p.is_sum kv.1 then 's' else 'p',
       kv.2 :: (p.get_arguments kv.1).map (p.write_edge (p.get_subgraph [root_edge])))

end Pog

namespace Cnf

/-- The assignment `τ` satisfies every active clause and every unit literal of `s`. -/
def models (τ : Int → Bool) (s : Cnf) : Prop :=
  (∀ cid ∈ s.active_clauses, clause_true τ (s.clause cid) = true) ∧
  ∀ l ∈ s.unit_literals, lit_true τ l = true

/-- The invariant of the loop of `bcp` for an assignment `τ` that satisfies the state
`s0` at entry: the clauses are those of `s0`, the active clauses are among those of
`s0`, no variable is quantified, every unit literal is true under `τ`, and the conflict
flag is set only if it was set at entry. -/
def bcp_sound_inv (τ : Int → Bool) (s0 s : Cnf) : Prop :=
  s.clauses = s0.clauses ∧ s.active_clauses ⊆ s0.active_clauses ∧
  s.uquantified_variables = ∅ ∧ (∀ l ∈ s.unit_literals, lit_true τ l = true) ∧
  (s.has_conflict = true → s0.has_conflict = true)

end Cnf

namespace Cnf

/-- The state after the loop of `bcp`, in the round that has `fuel` rounds left, has
derived the unit literal `lit` from the clause `cid`: the variable type is set when
preprocessing, the literal is assigned, and the clause and the active clauses indexed
under the literal are deactivated, in the order of the walk `w`. -/
def bcp_assign (w : Walk) (fuel : Nat) (preprocess : Bool) (s : Cnf) (cid lit : Int) : Cnf :=
  let s1 := if preprocess then s.set_variable_type (IABS lit) VAR_ELIM else s
  let s2 := s1.assign_literal lit true
  let s3 := s2.deactivate_clause cid
  s3.deactivate_clauses ((w.order [fuel, 0] (s3.literal_clauses lit)).filter
    fun ocid => decide (ocid ∈ s3.active_clauses))

/-- The literals of a clause that are not yet false: their negation is no unit literal. -/
def open_literals (s : Cnf) (cid : Int) : Finset Int :=
  (s.clause cid).toFinset.filter fun l => -l ∉ s.unit_literals

/-- The number of pairs of an active clause and a literal of it that is not yet false:
a bound on the number of clauses that `bcp` will queue again. -/
def open_count (s : Cnf) : Nat :=
  s.active_clauses.sum fun cid => (s.open_literals cid).card

end Cnf

namespace Cnf

/-- The method `get_literal`; a literal index outside the clause is a fatal error. -/
def get_literal (s : Cnf) (cid : Int) (lid : Nat) : Option Int := (s.clause cid)[lid]?

/-- The method `swap_literals`. -/
def swap_literals (s : Cnf) (cid : Int) (i j : Nat) : Cnf :=
  let tlit := (s.clause cid).getD i 0
  let swapped := ((s.clause cid).set i ((s.clause cid).getD j 0)).set j tlit
  { s with clauses := s.clauses.set (cid - 1).toNat swapped }

/-- The function `increment_indices`: the flag returned and the indices left. -/
def increment_indices : List Nat → List Nat → Bool × List Nat
  | len :: lengths, idx :: indices =>
    if idx + 1 < len then (true, (idx + 1) :: indices)
    else ((increment_indices lengths indices).1, 0 :: (increment_indices lengths indices).2)
  | _, indices => (false, indices)

/-- The inner loop of `blocked_clause_expand` on one clause: the literals that are `lit`
or skipped are swapped behind the others, and the number of the others is returned.
`none` is a fatal error of `get_literal`, or the rounds used up. -/
def expand_partition (lit cid : Int) : Nat → Cnf → Nat → Nat → Option (Cnf × Nat)
  | 0, s, lid, len => if lid < len then none else some (s, len)
  | fuel + 1, s, lid, len =>
    if lid < len then
      match s.get_literal cid lid with
      | none => none
      | some clit =>
        if clit = lit ∨ s.skip_literal clit = true then
          expand_partition lit cid fuel (s.swap_literals cid lid (len - 1)) lid (len - 1)
        else expand_partition lit cid fuel s (lid + 1) len
    else some (s, len)

/-- The first loop of `blocked_clause_expand`: every clause of the list is partitioned
and its length is appended to `clause_lengths`. An invalid clause id is a fatal error of
`clause_length`. -/
def expand_lengths (lit : Int) : List Int → Cnf → List Nat → Option (Cnf × List Nat)
  | [], s, lengths => some (s, lengths)
  | cid :: rest, s, lengths =>
    if cid < 1 ∨ s.maximum_clause_id < cid then none
    else match expand_partition lit cid (s.clause_length cid) s 0 (s.clause_length cid) with
      | none => none
      | some r => expand_lengths lit rest r.1 (lengths ++ [r.2])

/-- The loop of `blocked_clause_expand` over `clause_list` inside one round: the negation
of the selected literal of every clause is added to the new clause. -/
def expand_literals : List Int → List Nat → Cnf → Option Cnf
  | cid :: cids, idx :: indices, s =>
    match s.get_literal cid idx with
    | none => none
    | some clit => expand_literals cids indices (s.add_literal (-clit))
  | _, _, s => some s

/-- The loop `while (running)` of `blocked_clause_expand`. -/
def expand_loop (lit : Int) (clause_list : List Int) (lengths : List Nat) :
    Nat → Cnf → List Nat → Option Cnf
  | 0, _, _ => none
  | fuel + 1, s, indices =>
    match expand_literals clause_list indices (s.new_clause.add_literal (-lit)) with
    | none => none
    | some s1 =>
      if (increment_indices lengths indices).1 then
        expand_loop lit clause_list lengths fuel s1 (increment_indices lengths indices).2
      else some s1

/-- The number of rounds given to the loop of `blocked_clause_expand`: the number of
index vectors is at most the product of the lengths, each counted at least once. -/
def expand_fuel (lengths : List Nat) : Nat := (lengths.map fun len => len + 1).prod

/-- The method `blocked_clause_expand`. -/
def blocked_clause_expand (s : Cnf) (lit : Int) (clause_list : List Int) : Option Cnf :=
  match expand_lengths lit clause_list s [] with
  | none => none
  | some r => expand_loop lit clause_list r.2 (expand_fuel r.2) r.1 (r.2.map fun _ => 0)

/-- Spec: the literals of a clause that a tuple may pick, those that are not `lit` and
not skipped. -/
def other_literals (s : Cnf) (lit : Int) (cid : Int) : List Int :=
  (s.clause cid).filter fun clit => !(decide (clit = lit) || s.skip_literal clit)

/-- Spec: all tuples that pick one element from each list. -/
def tuples : List (List Int) → List (List Int)
  | [] => [[]]
  | c :: cs => (tuples cs).flatMap fun t => c.map fun l => l :: t

/-- Spec: the blocked clause of a tuple, `-lit` followed by the negated picks. -/
def blocked_clause (lit : Int) (t : List Int) : List Int := -lit :: t.map fun l => -l

/-- The index vector number `p` in the order of `increment_indices`. -/
def index_vector : List Nat → Nat → List Nat
  | [], _ => []
  | len :: lengths, p => (p % len) :: index_vector lengths (p / len)

/-- The elements of the lists selected by an index vector. -/
def pick (ls : List (List Int)) (indices : List Nat) : List Int :=
  (ls.zip indices).map fun x => x.1.getD x.2 0

/-- The test of the partition loop, negated: the literal is not `lit` and not skipped. -/
def other_test (s : Cnf) (lit clit : Int) : Bool :=
  !(decide (clit = lit) || s.skip_literal clit)

/-- A clause is partitioned at `n`: its first `n` literals are those that are not `lit` and
not skipped. -/
def parted (s : Cnf) (lit cid : Int) (n : Nat) : Prop :=
  other_literals s lit cid = (s.clause cid).take n ∧ n ≤ (s.clause cid).length

/-- The clause that one round of `blocked_clause_expand` adds for an index vector. -/
def emit (s : Cnf) (lit : Int) (cids : List Int) (indices : List Nat) : List Int :=
  -lit :: (cids.zip indices).map fun x => -(s.clause x.1).getD x.2 0

end Cnf

/-- The macro `NODE_START`: the ids of the NNF nodes start there. -/
def NODE_START : Int := 500 * 1000 * 1000

/-- The value `NNF_TRUE` of the enumeration `nnf_type_t`. -/
def NNF_TRUE : Int := 1

/-- The value `NNF_FALSE` of the enumeration `nnf_type_t`. -/
def NNF_FALSE : Int := 2

/-- The value `NNF_AND` of the enumeration `nnf_type_t`. -/
def NNF_AND : Int := 3

/-- The value `NNF_OR` of the enumeration `nnf_type_t`. -/
def NNF_OR : Int := 4

/-- The result of a recursion that the source may end with a fatal error (`err(true, ..)`)
and that is given a number of rounds here. -/
inductive Outcome (α : Type) where
  | ok : α → Outcome α
  | fatal : Outcome α
  | unfinished : Outcome α

/-- The class `Nnf` after its constructor has parsed the file: the map `nodes` from node
ids to the vectors "type, arguments" as the list of its entries, and `root_id`. -/
structure Nnf where
  nvar : Nat
  nodes : List (Int × List Int)
  root_id : Int

namespace Nnf

/-- The method `Nnf::visit`, on the pair of `ids` and `visited`. -/
def visit (nnf : Nnf) : Nat → Int → List Int × Finset Int → Outcome (List Int × Finset Int)
  | 0, _, _ => Outcome.unfinished
  | fuel + 1, nid, st =>
    if nid < NODE_START then Outcome.ok st
    else if nid ∈ st.2 then Outcome.ok st
    else match nnf.nodes.lookup nid with
      | none => Outcome.fatal
      | some node =>
        match node.tail.foldl (fun acc c =>
            match acc with
            | Outcome.ok st1 => visit nnf fuel c st1
            | Outcome.fatal => Outcome.fatal
            | Outcome.unfinished => Outcome.unfinished)
            (Outcome.ok (st.1, insert nid st.2)) with
        | Outcome.ok st1 => Outcome.ok (st1.1 ++ [nid], st1.2)
        | Outcome.fatal => Outcome.fatal
        | Outcome.unfinished => Outcome.unfinished

/-- The recursion depth that `visit` is given: one more than the number of nodes. -/
def visit_fuel (nnf : Nnf) : Nat := nnf.nodes.length + 1

/-- The method `Nnf::topo_order`. -/
def topo_order (nnf : Nnf) : Outcome (List Int) :=
  match nnf.visit nnf.visit_fuel nnf.root_id ([], ∅) with
  | Outcome.ok st => Outcome.ok st.1
  | Outcome.fatal => Outcome.fatal
  | Outcome.unfinished => Outcome.unfinished

/-- The ids of the nodes of the map. -/
def keys (nnf : Nnf) : Finset Int := (nnf.nodes.map Prod.fst).toFinset

end Nnf

namespace Pog

/-- The translation of one argument of an NNF node in `load_nnf`: the edge recorded for a
node id (a fatal error when there is none), `TAUTOLOGY` for the literal of a variable
outside the supplied set of data variables, and the literal itself otherwise. -/
def nnf_argument (data_variables : Option (Finset Int)) (nnid2edge : List (Int × Int))
    (nnf_arg : Int) : Option Int :=
  if NODE_START ≤ nnf_arg then nnid2edge.lookup nnf_arg
  else match data_variables with
    | some dv => if IABS nnf_arg ∉ dv then some TAUTOLOGY else some nnf_arg
    | none => some nnf_arg

/-- The arguments that the inner loop of `load_nnf` passes to `add_argument`. -/
def nnf_arguments (data_variables : Option (Finset Int)) (nnid2edge : List (Int × Int)) :
    List Int → Option (List Int)
  | [] => some []
  | nnf_arg :: rest =>
    match nnf_argument data_variables nnid2edge nnf_arg with
    | none => none
    | some pog_arg =>
      match nnf_arguments data_variables nnid2edge rest with
      | none => none
      | some args => some (pog_arg :: args)

/-- The loop of `load_nnf` over the ordered node ids: the graph, the map `nnid2edge` as
the list of its assignments, latest first, and the last edge. `none` is a fatal error.
The node of an AND or OR is built by `start_node`, one `add_argument` for each translated
argument and `finish_node`. -/
def load_nnf_loop (rt : Runtime) (nnf : Nnf) (data_variables : Option (Finset Int)) :
    List Int → Pog → List (Int × Int) → Int → Option (Pog × Int)
  | [], p, _, edge => some (p, edge)
  | nnid :: rest, p, nnid2edge, _ =>
    match nnf.nodes.lookup nnid with
    | none => none
    | some node =>
      if node.headD 0 = NNF_TRUE then
        load_nnf_loop rt nnf data_variables rest p ((nnid, TAUTOLOGY) :: nnid2edge) TAUTOLOGY
      else if node.headD 0 = NNF_FALSE then
        load_nnf_loop rt nnf data_variables rest p ((nnid, CONFLICT) :: nnid2edge) CONFLICT
      else if node.headD 0 = NNF_AND ∨ node.headD 0 = NNF_OR then
        match nnf_arguments data_variables nnid2edge node.tail with
        | none => none
        | some args =>
          load_nnf_loop rt nnf data_variables rest
            (build rt p (if node.headD 0 = NNF_AND then POG_PRODUCT else POG_SUM) args).1
            ((nnid, (build rt p (if node.headD 0 = NNF_AND then POG_PRODUCT else POG_SUM)
              args).2) :: nnid2edge)
            (build rt p (if node.headD 0 = NNF_AND then POG_PRODUCT else POG_SUM) args).2
      else none

/-- The method `load_nnf` on a parsed NNF graph. -/
def load_nnf (rt : Runtime) (p : Pog) (nnf : Nnf) (data_variables : Option (Finset Int)) :
    Outcome (Pog × Int) :=
  match nnf.topo_order with
  | Outcome.ok nnf_ids =>
    match load_nnf_loop rt nnf data_variables nnf_ids p [] 0 with
    | some r => Outcome.ok r
    | none => Outcome.fatal
  | Outcome.fatal => Outcome.fatal
  | Outcome.unfinished => Outcome.unfinished

/-- Spec: every input variable reachable from the edge `e` is in the set `dv`. -/
def inputs_in (p : Pog) (dv : Finset Int) (e : Int) : Prop :=
  ∀ c, Reach p e c → 1 ≤ IABS c → IABS c ≤ (p.nvar : Int) → IABS c ∈ dv

end Pog

namespace Cnf

/-- Spec: the assignment `τ` to the data variables extends to an assignment to all
variables that satisfies every active clause and every unit literal of `s`. -/
def projected_model (s : Cnf) (τ : Int → Bool) : Prop :=
  ∃ σ : Int → Bool, (∀ v ∈ s.data_variables, σ v = τ v) ∧ models σ s

/-- The states on which `bve` is run: no variable is quantified, the literal index is
exact, the active clauses are clauses of the state with literals other than zero, and no
active clause holds a unit literal of a projection variable or both literals of a
projection variable. -/
def bve_ready (s : Cnf) : Prop :=
  s.uquantified_variables = ∅ ∧ s.index_exact ∧
  (∀ cid ∈ s.active_clauses, 1 ≤ cid ∧ cid ≤ (s.clauses.length : Int)) ∧
  ∀ cid ∈ s.active_clauses, ∀ l ∈ s.clause cid,
    l ≠ 0 ∧ (IABS l ∉ s.data_variables → l ∉ s.unit_literals ∧ -l ∉ s.clause cid)

/-- A variable that `bve` may select in the state `s`: a projection variable that is not
assigned. -/
def bve_candidate (s : Cnf) (v : Int) : Prop :=
  0 < v ∧ v ∉ s.data_variables ∧ v ∉ s.unit_literals ∧ -v ∉ s.unit_literals

/-- The list has a literal together with its negation. -/
def complementary (c : List Int) : Prop := ∃ l ∈ c, -l ∈ c

/-- The state `s` is the state `s0` after `resolve` has been called for the pairs of
clauses `done`: the assignment is the same, the clauses of `s0` are the same, and the new
active clauses are the resolvents of the pairs whose merged literals are not
complementary. -/
def resolved (s0 s : Cnf) (var : Int) (done : List (Int × Int)) : Prop :=
  (s.unit_literals = s0.unit_literals ∧ s.bcp_unit_literals = s0.bcp_unit_literals ∧
    s.uquantified_variables = s0.uquantified_variables ∧
    s.data_variables = s0.data_variables ∧ s.has_conflict = s0.has_conflict) ∧
  (s0.clauses.length ≤ s.clauses.length ∧
    ∀ cid : Int, 1 ≤ cid → cid ≤ (s0.clauses.length : Int) → s.clause cid = s0.clause cid) ∧
  (s.index_exact ∧ ∀ cid ∈ s.active_clauses, 1 ≤ cid ∧ cid ≤ (s.clauses.length : Int)) ∧
  s0.active_clauses ⊆ s.active_clauses ∧
  (∀ cid ∈ s.active_clauses, cid ∉ s0.active_clauses → (s0.clauses.length : Int) < cid ∧
    ∃ x ∈ done, (∀ l, l ∈ s.clause cid ↔ l ∈ s0.resolve_literals var x.1 x.2) ∧
      ¬ complementary (s0.resolve_literals var x.1 x.2)) ∧
  ∀ x ∈ done, ¬ complementary (s0.resolve_literals var x.1 x.2) →
    ∃ cid ∈ s.active_clauses, (s0.clauses.length : Int) < cid ∧
      ∀ l, l ∈ s.clause cid ↔ l ∈ s0.resolve_literals var x.1 x.2

end Cnf

namespace Cnf

end Cnf

namespace Pog

/-- Decomposability of the node of `x`: its arguments have pairwise disjoint sets of
variables, as `get_variables` collects them. -/
def decomposable (p : Pog) (x : Int) : Prop :=
  (p.get_arguments x).Pairwise fun a b => Disjoint (p.get_variables a ∅) (p.get_variables b ∅)

instance (p : Pog) (x : Int) : Decidable (p.decomposable x) := by
  unfold decomposable; infer_instance

/-- Mutual exclusion at the node of `x`: no assignment to the variables `vars` makes two
of its arguments true. -/
def exclusive (p : Pog) (vars : List Int) (x : Int) : Prop :=
  (p.get_arguments x).Pairwise fun a b =>
    ∀ τ ∈ assignments vars, ¬ (p.beval τ p.visit_fuel a = true ∧ p.beval τ p.visit_fuel b = true)

instance (p : Pog) (vars : List Int) (x : Int) : Decidable (p.exclusive vars x) := by
  unfold exclusive; infer_instance

/-- The subgraph of the edge `e` is a deterministic decomposable form over the data
variables: every variable below `e` is a data variable, every Sum node that `visit`
reaches from `e` has mutually exclusive arguments and every Product node that it reaches
has arguments over disjoint variables. -/
def countable (p : Pog) (e : Int) : Prop :=
  (∀ v ∈ p.get_variables e ∅, v = TAUTOLOGY ∨ v ∈ p.data_variables) ∧
  ∀ x ∈ p.visit p.visit_fuel e ∅,
    if p.is_sum x = true then p.exclusive (ascList p.data_variables) x else p.decomposable x

instance (p : Pog) (e : Int) : Decidable (p.countable e) := by
  unfold countable; infer_instance

end Pog

/-! # Theorems -/

theorem IABS_eq_abs (x : Int) : IABS x = |x| := by
  unfold IABS
  split
  · rw [abs_of_neg ‹_›]
  · rw [abs_of_nonneg (by omega)]

@[simp] theorem IABS_neg (x : Int) : IABS (-x) = IABS x := by
  simp [IABS_eq_abs]

theorem IABS_nonneg (x : Int) : 0 ≤ IABS x := by
  simp [IABS_eq_abs]

@[simp] theorem IABS_IABS (x : Int) : IABS (IABS x) = IABS x := by
  simp [IABS_eq_abs]

theorem IABS_of_nonneg {x : Int} (h : 0 ≤ x) : IABS x = x := by
  unfold IABS; split <;> omega

theorem IABS_TAUTOLOGY : IABS TAUTOLOGY = TAUTOLOGY := by decide
theorem IABS_CONFLICT : IABS CONFLICT = TAUTOLOGY := by decide

theorem IABS_eq_iff {x y : Int} (h : IABS x = IABS y) : x = y ∨ x = -y := by
  unfold IABS at h; split at h <;> split at h <;> omega

namespace Pog

/-- Lookups that do not depend on the nodes list beyond what `e` designates. -/
theorem is_node_congr {p q : Pog} (h : p.nvar = q.nvar) (e : Int) :
    p.is_node e = q.is_node e := by
  simp [is_node, h]

theorem node_index_congr {p q : Pog} (h : p.nvar = q.nvar) (e : Int) :
    p.node_index e = q.node_index e := by
  simp [node_index, is_node_congr h, h]

theorem node_index_lt_iff (p : Pog) (e : Int) :
    p.node_index e < 0 ↔ p.is_node e = false := by
  unfold node_index
  have h1 : p.is_node (get_var e) = p.is_node e := by simp [is_node, get_var]
  rw [h1]
  cases h : p.is_node e
  · simp
  · simp [is_node, get_var] at h ⊢
    omega

theorem node_index_of_is_node {p : Pog} {e : Int} (h : p.is_node e = true) :
    p.node_index e = IABS e - p.nvar - 1 := by
  unfold node_index
  have h1 : p.is_node (get_var e) = p.is_node e := by simp [is_node, get_var]
  rw [h1, h]; simp [get_var]

theorem is_node_iff (p : Pog) (e : Int) :
    p.is_node e = true ↔ (p.nvar : Int) < IABS e ∧ IABS e ≠ TAUTOLOGY := by
  simp [is_node, get_var]

@[simp] theorem is_node_neg (p : Pog) (e : Int) : p.is_node (-e) = p.is_node e := by
  simp [is_node, get_var]

@[simp] theorem node_index_neg (p : Pog) (e : Int) : p.node_index (-e) = p.node_index e := by
  simp [node_index, get_var]

@[simp] theorem get_arguments_neg (p : Pog) (e : Int) : p.get_arguments (-e) = p.get_arguments e := by
  simp [get_arguments]

@[simp] theorem get_type_neg (p : Pog) (e : Int) : p.get_type (-e) = p.get_type e := by
  simp [get_type]

@[simp] theorem is_sum_neg (p : Pog) (e : Int) : p.is_sum (-e) = p.is_sum e := by
  simp [is_sum]

@[simp] theorem only_data_variables_neg (p : Pog) (e : Int) :
    p.only_data_variables (-e) = p.only_data_variables e := by
  simp [only_data_variables, get_var]

@[simp] theorem only_projection_variables_neg (p : Pog) (e : Int) :
    p.only_projection_variables (-e) = p.only_projection_variables e := by
  simp [only_projection_variables, get_var]

/-- The stored node that a node edge designates. -/
theorem nodeAt_of_get? {p : Pog} {e : Int} {i : Nat} {n : Node}
    (he : IABS e = (p.nvar : Int) + i + 1) (hn : p.nodes.get? i = some n) :
    p.nodeAt (IABS e - p.nvar - 1) = n := by
  unfold nodeAt
  have : (IABS e - p.nvar - 1).toNat = i := by omega
  rw [this, List.getD_eq_getElem?_getD]
  simp [List.get?_eq_getElem?] at hn
  simp [hn]

end Pog

namespace Pog

theorem start_node_eq (p : Pog) (t : pog_type_t) : p.start_node t = p.push ⟨t, [], true, true⟩ := rfl

@[simp] theorem push_nvar (p : Pog) (n : Node) : (p.push n).nvar = p.nvar := rfl
@[simp] theorem push_nodes (p : Pog) (n : Node) : (p.push n).nodes = p.nodes ++ [n] := rfl
@[simp] theorem push_table (p : Pog) (n : Node) : (p.push n).unique_table = p.unique_table := rfl
@[simp] theorem push_data (p : Pog) (n : Node) : (p.push n).data_variables = p.data_variables := rfl

@[simp] theorem push_set_proto (p : Pog) (n m : Node) : (p.push n).set_proto m = p.push m := by
  simp [set_proto, push]

@[simp] theorem push_retract (p : Pog) (n : Node) : (p.push n).retract = p := by
  simp [retract, push]

@[simp] theorem push_proto (p : Pog) (n : Node) : (p.push n).nodes.getLastD default = n := by
  simp [push]

@[simp] theorem push_is_node (p : Pog) (n : Node) (e : Int) : (p.push n).is_node e = p.is_node e :=
  is_node_congr rfl e

@[simp] theorem push_node_index (p : Pog) (n : Node) (e : Int) :
    (p.push n).node_index e = p.node_index e :=
  node_index_congr rfl e

theorem push_nodeAt (p : Pog) (n : Node) {idx : Int} (h0 : 0 ≤ idx) (h : idx < p.nodes.length) :
    (p.push n).nodeAt idx = p.nodeAt idx := by
  unfold nodeAt
  simp only [push_nodes]
  rw [List.getD_eq_getElem?_getD, List.getD_eq_getElem?_getD, List.getElem?_append_left]
  omega

theorem node_index_nonneg {p : Pog} {e : Int} (h : p.is_node e = true) : 0 ≤ p.node_index e := by
  by_contra hc
  have := (node_index_lt_iff p e).1 (by omega)
  simp [h] at this

/-- The node index of an edge that does not designate the prototype or beyond. -/
theorem node_index_lt_length {p : Pog} {e : Int}
    (h : IABS e ≤ (p.nvar : Int) + p.nodes.length ∨ IABS e = TAUTOLOGY) :
    p.node_index e < p.nodes.length := by
  cases hn : p.is_node e
  · have := (node_index_lt_iff p e).2 hn; omega
  · rw [node_index_of_is_node hn]
    rw [is_node_iff] at hn
    omega

theorem edge_ok_bound {p : Pog} {e : Int} (h : p.edge_ok e) :
    IABS e ≤ (p.nvar : Int) + p.nodes.length ∨ IABS e = TAUTOLOGY := by
  rcases h with h | h
  · exact Or.inl h.2
  · exact Or.inr h

theorem push_only_data (p : Pog) (n : Node) {e : Int}
    (h : IABS e ≤ (p.nvar : Int) + p.nodes.length ∨ IABS e = TAUTOLOGY) :
    (p.push n).only_data_variables e = p.only_data_variables e := by
  unfold only_data_variables
  cases hn : p.is_node e
  · simp [hn]
  · simp [hn, push_nodeAt p n (node_index_nonneg hn) (node_index_lt_length h)]

theorem push_only_proj (p : Pog) (n : Node) {e : Int}
    (h : IABS e ≤ (p.nvar : Int) + p.nodes.length ∨ IABS e = TAUTOLOGY) :
    (p.push n).only_projection_variables e = p.only_projection_variables e := by
  unfold only_projection_variables
  cases hn : p.is_node e
  · simp [hn]
  · simp [hn, push_nodeAt p n (node_index_nonneg hn) (node_index_lt_length h)]

theorem push_get_type (p : Pog) (n : Node) {e : Int}
    (h : IABS e ≤ (p.nvar : Int) + p.nodes.length ∨ IABS e = TAUTOLOGY) :
    (p.push n).get_type e = p.get_type e := by
  unfold get_type
  cases hn : p.is_node e
  · simp [(node_index_lt_iff p e).2 hn]
  · have h0 := node_index_nonneg hn
    simp [not_lt.2 h0, push_nodeAt p n h0 (node_index_lt_length h)]

theorem push_get_arguments (p : Pog) (n : Node) {e : Int}
    (h : IABS e ≤ (p.nvar : Int) + p.nodes.length ∨ IABS e = TAUTOLOGY) :
    (p.push n).get_arguments e = p.get_arguments e := by
  unfold get_arguments
  cases hn : p.is_node e
  · simp [(node_index_lt_iff p e).2 hn]
  · have h0 := node_index_nonneg hn
    simp [not_lt.2 h0, push_nodeAt p n h0 (node_index_lt_length h)]

theorem push_add_argument_node (p : Pog) (n proto : Node) {e : Int}
    (h : IABS e ≤ (p.nvar : Int) + p.nodes.length ∨ IABS e = TAUTOLOGY) :
    (p.push n).add_argument_node proto e = p.add_argument_node proto e := by
  simp [add_argument_node, push_only_data p n h, push_only_proj p n h, push_get_type p n h,
    push_get_arguments p n h]

theorem push_add_argument (p : Pog) (n : Node) {e : Int}
    (h : IABS e ≤ (p.nvar : Int) + p.nodes.length ∨ IABS e = TAUTOLOGY) :
    (p.push n).add_argument e = p.push (p.add_argument_node n e) := by
  simp [add_argument, push_add_argument_node p n n h]

theorem foldl_add_argument (p : Pog) (args : List Int) :
    ∀ (n : Node), (∀ a ∈ args, IABS a ≤ (p.nvar : Int) + p.nodes.length ∨ IABS a = TAUTOLOGY) →
    args.foldl add_argument (p.push n) = p.push (args.foldl p.add_argument_node n) := by
  induction args with
  | nil => intro n _; rfl
  | cons a rest ih =>
    intro n h
    simp only [List.foldl_cons]
    rw [push_add_argument p n (h a (List.mem_cons_self _ _))]
    exact ih _ (fun b hb => h b (List.mem_cons_of_mem _ hb))

/-- A complete use of the builder, as `finish_node` on the graph with the final
prototype. -/
theorem build_eq (rt : Runtime) (p : Pog) (t : pog_type_t) (args : List Int)
    (h : ∀ a ∈ args, IABS a ≤ (p.nvar : Int) + p.nodes.length ∨ IABS a = TAUTOLOGY) :
    build rt p t args = finish_node rt (p.push (p.proto_of t args)) := by
  unfold build proto_of
  rw [start_node_eq, foldl_add_argument p args _ h]

end Pog

namespace Pog

theorem singleton_iff (l : List Int) (c : Int) : (l.length = 1 ∧ l.headD 0 = c) ↔ l = [c] := by
  constructor
  · rintro ⟨h1, h2⟩
    match l, h1 with
    | [x], _ => simp at h2; simp [h2]
  · rintro rfl; simp

/-- The effect of `add_argument` on a Product under construction, case by case. -/
theorem add_argument_node_product (p : Pog) (n : Node) (e : Int) (ht : n.type = POG_PRODUCT) :
    p.add_argument_node n e =
      if n.args = [CONFLICT] then n
      else if e = TAUTOLOGY then n
      else if e = CONFLICT then { n with args := [CONFLICT] }
      else if p.is_node e ∧ p.get_type e = POG_PRODUCT ∧ get_phase e then
        { n with args := n.args ++ p.get_arguments e,
                 data_only := n.data_only && p.only_data_variables e,
                 projection_only := n.projection_only && p.only_projection_variables e }
      else
        { n with args := n.args ++ [e],
                 data_only := n.data_only && p.only_data_variables e,
                 projection_only := n.projection_only && p.only_projection_variables e } := by
  unfold add_argument_node
  simp only [ht, ← singleton_iff]
  simp
  split_ifs <;> simp_all

/-- The effect of `add_argument` on a Sum under construction, case by case. -/
theorem add_argument_node_sum (p : Pog) (n : Node) (e : Int) (ht : n.type = POG_SUM) :
    p.add_argument_node n e =
      if n.args = [TAUTOLOGY] then n
      else if n.args = [-e] then { n with args := [TAUTOLOGY] }
      else if e = CONFLICT then n
      else if e = TAUTOLOGY then { n with args := [TAUTOLOGY] }
      else
        { n with args := n.args ++ [e],
                 data_only := n.data_only && p.only_data_variables e,
                 projection_only := n.projection_only && p.only_projection_variables e } := by
  unfold add_argument_node
  simp only [ht, ← singleton_iff]
  simp
  split_ifs <;> simp_all

theorem add_argument_node_type (p : Pog) (n : Node) (e : Int) :
    (p.add_argument_node n e).type = n.type := by
  unfold add_argument_node
  simp only []
  split_ifs <;> rfl

theorem proto_fold_type (p : Pog) (args : List Int) :
    ∀ n : Node, (args.foldl p.add_argument_node n).type = n.type := by
  induction args with
  | nil => intro n; rfl
  | cons a rest ih => intro n; simp only [List.foldl_cons]; rw [ih, add_argument_node_type]

theorem proto_of_type (p : Pog) (t : pog_type_t) (args : List Int) :
    (p.proto_of t args).type = t := by
  unfold proto_of; rw [proto_fold_type]

theorem absorbing_product : absorbing POG_PRODUCT = CONFLICT := rfl
theorem absorbing_sum : absorbing POG_SUM = TAUTOLOGY := rfl
theorem neutral_product : neutral POG_PRODUCT = TAUTOLOGY := rfl
theorem neutral_sum : neutral POG_SUM = CONFLICT := rfl
theorem TAUTOLOGY_ne_CONFLICT : TAUTOLOGY ≠ CONFLICT := by decide
theorem neg_CONFLICT : -CONFLICT = TAUTOLOGY := by decide

/-- Once the prototype holds the absorbing constant alone, it keeps it. -/
theorem add_argument_node_absorbed (p : Pog) (n : Node) (e : Int)
    (ht : n.type = POG_PRODUCT ∨ n.type = POG_SUM) (h : n.args = [absorbing n.type]) :
    (p.add_argument_node n e).args = [absorbing n.type] := by
  rcases ht with ht | ht
  · rw [add_argument_node_product p n e ht]
    rw [ht, absorbing_product] at h ⊢
    simp [h]
  · rw [add_argument_node_sum p n e ht]
    rw [ht, absorbing_sum] at h ⊢
    simp [h]

theorem proto_fold_absorbed (p : Pog) (args : List Int) :
    ∀ n : Node, (n.type = POG_PRODUCT ∨ n.type = POG_SUM) → n.args = [absorbing n.type] →
    (args.foldl p.add_argument_node n).args = [absorbing n.type] := by
  induction args with
  | nil => intro n _ h; exact h
  | cons a rest ih =>
    intro n ht h
    simp only [List.foldl_cons]
    have := ih (p.add_argument_node n a) (by rw [add_argument_node_type]; exact ht)
      (by rw [add_argument_node_type]; exact add_argument_node_absorbed p n a ht h)
    rw [add_argument_node_type] at this
    exact this

/-- Adding the absorbing constant leaves it alone in the prototype. -/
theorem add_argument_node_absorbing (p : Pog) (n : Node)
    (ht : n.type = POG_PRODUCT ∨ n.type = POG_SUM) :
    (p.add_argument_node n (absorbing n.type)).args = [absorbing n.type] := by
  rcases ht with ht | ht
  · rw [add_argument_node_product p n _ ht]
    rw [ht, absorbing_product]
    have := TAUTOLOGY_ne_CONFLICT
    split_ifs <;> simp_all
  · rw [add_argument_node_sum p n _ ht]
    rw [ht, absorbing_sum]
    have := TAUTOLOGY_ne_CONFLICT
    split_ifs <;> simp_all

theorem proto_fold_of_absorbing (p : Pog) (args : List Int) :
    ∀ n : Node, (n.type = POG_PRODUCT ∨ n.type = POG_SUM) → absorbing n.type ∈ args →
    (args.foldl p.add_argument_node n).args = [absorbing n.type] := by
  induction args with
  | nil => intro n _ h; simp at h
  | cons a rest ih =>
    intro n ht h
    simp only [List.foldl_cons]
    by_cases ha : a = absorbing n.type
    · subst ha
      have := proto_fold_absorbed p rest (p.add_argument_node n (absorbing n.type))
        (by rw [add_argument_node_type]; exact ht)
        (by rw [add_argument_node_type]; exact add_argument_node_absorbing p n ht)
      rw [add_argument_node_type] at this
      exact this
    · have hm : absorbing n.type ∈ rest := by
        rcases List.mem_cons.1 h with h | h
        · exact absurd h.symm ha
        · exact h
      have := ih (p.add_argument_node n a) (by rw [add_argument_node_type]; exact ht)
        (by rw [add_argument_node_type]; exact hm)
      rw [add_argument_node_type] at this
      exact this

/-- The prototype when the argument list holds the absorbing constant. -/
theorem proto_of_absorbing (p : Pog) (t : pog_type_t) (args : List Int)
    (ht : t = POG_PRODUCT ∨ t = POG_SUM) (h : absorbing t ∈ args) :
    (p.proto_of t args).args = [absorbing t] :=
  proto_fold_of_absorbing p args ⟨t, [], true, true⟩ ht h

/-- The step of `add_argument` when neither the absorbing constant nor a complementary
pair is in play: the prototype gains the arguments that the edge contributes. -/
theorem add_argument_node_regular (p : Pog) (n : Node) (e : Int)
    (ht : n.type = POG_PRODUCT ∨ n.type = POG_SUM)
    (h1 : absorbing n.type ∉ n.args) (h2 : e ≠ absorbing n.type)
    (h3 : n.type = POG_SUM → ∀ a ∈ n.args, a ≠ -e) :
    p.add_argument_node n e =
      { n with args := n.args ++ p.expand_edge n.type e,
               data_only := if e = neutral n.type then n.data_only
                            else n.data_only && p.only_data_variables e,
               projection_only := if e = neutral n.type then n.projection_only
                            else n.projection_only && p.only_projection_variables e } := by
  rcases ht with ht | ht
  · rw [add_argument_node_product p n e ht]
    rw [ht, absorbing_product] at h1 h2
    simp only [ht, neutral_product, expand_edge]
    have hA : n.args ≠ [CONFLICT] := fun h => h1 (by simp [h])
    simp only [hA, if_false, h2]
    by_cases hT : e = TAUTOLOGY
    · simp [hT]
      cases n; simp_all
    · simp only [hT, if_false, true_and]
      split_ifs <;> rfl
  · rw [add_argument_node_sum p n e ht]
    rw [ht, absorbing_sum] at h1 h2
    simp only [ht, neutral_sum, expand_edge]
    have hA : n.args ≠ [TAUTOLOGY] := fun h => h1 (by simp [h])
    have hB : n.args ≠ [-e] := fun h => h3 ht (-e) (by simp [h]) rfl
    simp only [hA, hB, if_false, h2]
    by_cases hT : e = CONFLICT
    · simp [hT]
      cases n; simp_all
    · have : ¬ (POG_SUM = POG_PRODUCT) := by decide
      simp [hT, this]

theorem absorbing_ne_neutral (t : pog_type_t) : absorbing t ≠ neutral t := by
  unfold absorbing neutral; split <;> decide

theorem expand_edge_absorbing (p : Pog) (t : pog_type_t) :
    p.expand_edge t (absorbing t) = [absorbing t] := by
  unfold expand_edge
  have h1 := absorbing_ne_neutral t
  have h2 : p.is_node (absorbing t) = false := by
    unfold absorbing; split <;> simp [is_node, get_var, IABS_TAUTOLOGY, IABS_CONFLICT]
  simp [h1, h2]

theorem expand_edge_sum (p : Pog) (e : Int) (h : e ≠ CONFLICT) :
    p.expand_edge POG_SUM e = [e] := by
  unfold expand_edge
  simp [neutral_sum, h]

/-- The prototype after a run of `add_argument` in which neither the absorbing constant
nor, for a Sum, a complementary pair comes up. -/
theorem proto_fold_regular (p : Pog) (args : List Int) :
    ∀ n : Node, (n.type = POG_PRODUCT ∨ n.type = POG_SUM) →
    absorbing n.type ∉ n.args ++ p.expand n.type args →
    (n.type = POG_SUM → ∀ a ∈ n.args ++ p.expand n.type args,
      ∀ b ∈ n.args ++ p.expand n.type args, a ≠ -b) →
    (args.foldl p.add_argument_node n).args = n.args ++ p.expand n.type args ∧
    (args.foldl p.add_argument_node n).data_only =
      (n.data_only && args.all fun e => decide (e = neutral n.type) || p.only_data_variables e) ∧
    (args.foldl p.add_argument_node n).projection_only =
      (n.projection_only &&
        args.all fun e => decide (e = neutral n.type) || p.only_projection_variables e) := by
  induction args with
  | nil => intro n _ _ _; simp [expand]
  | cons e rest ih =>
    intro n ht h1 h2
    simp only [List.foldl_cons]
    have hex : p.expand n.type (e :: rest) = p.expand_edge n.type e ++ p.expand n.type rest := by
      simp [expand]
    rw [hex] at h1 h2 ⊢
    have hne : e ≠ absorbing n.type := by
      intro he
      apply h1
      rw [he, expand_edge_absorbing]
      simp
    have h3 : n.type = POG_SUM → ∀ a ∈ n.args, a ≠ -e := by
      intro hs a ha
      by_cases hc : e = CONFLICT
      · subst hc
        rw [neg_CONFLICT]
        intro h
        apply h1
        rw [hs, absorbing_sum, ← h]
        simp [ha]
      · have := h2 hs a (by simp [ha]) e (by rw [hs, expand_edge_sum p e hc]; simp)
        exact this
    have hstep := add_argument_node_regular p n e ht (fun h => h1 (by simp [h])) hne h3
    have hty := add_argument_node_type p n e
    have := ih (p.add_argument_node n e) (by rw [hty]; exact ht)
      (by rw [hty, hstep]; simpa using h1)
      (by rw [hty, hstep]; simpa using h2)
    rw [hty] at this
    rw [this.1, this.2.1, this.2.2, hstep]
    simp only [List.append_assoc, List.all_cons, true_and]
    by_cases hn : e = neutral n.type
    · simp [hn]
    · simp [hn, Bool.and_assoc]

/-- The prototype after `add_argument` for each edge of `args`, in the regular case. -/
theorem proto_of_regular (p : Pog) (t : pog_type_t) (args : List Int)
    (ht : t = POG_PRODUCT ∨ t = POG_SUM) (h1 : absorbing t ∉ p.expand t args)
    (h2 : t = POG_SUM → ∀ a ∈ p.expand t args, ∀ b ∈ p.expand t args, a ≠ -b) :
    (p.proto_of t args).args = p.expand t args ∧
    (p.proto_of t args).data_only =
      (args.all fun e => decide (e = neutral t) || p.only_data_variables e) ∧
    (p.proto_of t args).projection_only =
      (args.all fun e => decide (e = neutral t) || p.only_projection_variables e) := by
  have := proto_fold_regular p args ⟨t, [], true, true⟩ ht (by simpa using h1) (by simpa using h2)
  simpa [proto_of] using this

end Pog

namespace Pog

theorem MAX_VARIABLE_lt : MAX_VARIABLE + 1 < TAUTOLOGY := by decide

/-- The edge of the node of index `i` designates that node. -/
theorem node_index_id (p : Pog) (i : Nat) (h : (p.nvar : Int) + i < MAX_VARIABLE) :
    p.is_node ((i : Int) + p.nvar + 1) = true ∧ p.node_index ((i : Int) + p.nvar + 1) = i := by
  have hlt := MAX_VARIABLE_lt
  have habs : IABS ((i : Int) + p.nvar + 1) = (i : Int) + p.nvar + 1 := IABS_of_nonneg (by omega)
  have hn : p.is_node ((i : Int) + p.nvar + 1) = true := by
    rw [is_node_iff, habs]; omega
  refine ⟨hn, ?_⟩
  rw [node_index_of_is_node hn, habs]; omega

theorem nodeAt_nat (p : Pog) (i : Nat) : p.nodeAt (i : Int) = p.nodes.getD i default := by
  simp [nodeAt]

theorem nodeAt_of_some {p : Pog} {i : Nat} {n : Node} (h : p.nodes.get? i = some n) :
    p.nodeAt (i : Int) = n := by
  rw [nodeAt_nat, List.getD_eq_getElem?_getD]
  simp [List.get?_eq_getElem?] at h
  simp [h]

theorem push_nodeAt_last (p : Pog) (m : Node) : (p.push m).nodeAt (p.nodes.length : Int) = m := by
  rw [nodeAt_nat, List.getD_eq_getElem?_getD]
  simp

theorem push_nodeAt_some (p : Pog) (m : Node) {i : Nat} {n : Node}
    (h : p.nodes.get? i = some n) : (p.push m).nodeAt (i : Int) = n := by
  have hi : i < p.nodes.length := by
    rw [List.get?_eq_getElem?] at h
    exact (List.getElem?_eq_some_iff.1 h).1
  rw [push_nodeAt p m (by omega) (by exact_mod_cast hi)]
  exact nodeAt_of_some h

/-- Structural equality of the prototype and a stored node. -/
theorem node_equal_proto (p : Pog) (m : Node) {j : Nat} {n : Node}
    (hr : (p.nvar : Int) + p.nodes.length < MAX_VARIABLE)
    (hj : p.nodes.get? j = some n) :
    (p.push m).node_equal ((p.nodes.length : Int) + p.nvar + 1) ((j : Int) + p.nvar + 1) =
      decide (m.type = n.type ∧ m.args = n.args) := by
  have hjl : j < p.nodes.length := by
    rw [List.get?_eq_getElem?] at hj
    exact (List.getElem?_eq_some_iff.1 hj).1
  have h1 := (node_index_id (p.push m) p.nodes.length (by simpa using hr)).2
  have h2 := (node_index_id (p.push m) j (by simp; omega)).2
  simp only [push_nvar] at h1 h2
  unfold node_equal
  simp only [h1, h2, push_nodeAt_last, push_nodeAt_some p m hj]
  have hne : ¬ ((p.nodes.length : Int) = j) := by omega
  simp only [hne, if_false]
  have hnn : ¬ ((p.nodes.length : Int) < 0 ∨ (j : Int) < 0) := by omega
  simp only [hnn, if_false]
  by_cases ht : m.type = n.type
  · by_cases ha : m.args = n.args
    · simp [ht, ha]
    · simp [ht, ha]
  · simp [ht]

/-- Structural equality of two stored nodes, under the uniqueness invariant. -/
theorem node_equal_stored (p : Pog) (m : Node) {i j : Nat} {n n2 : Node}
    (hr : (p.nvar : Int) + p.nodes.length < MAX_VARIABLE)
    (hu : ∀ i j n m, p.nodes.get? i = some n → p.nodes.get? j = some m →
      n.type = m.type → n.args = m.args → i = j)
    (hi : p.nodes.get? i = some n) (hj : p.nodes.get? j = some n2) :
    (p.push m).node_equal ((i : Int) + p.nvar + 1) ((j : Int) + p.nvar + 1) = decide (i = j) := by
  have hil : i < p.nodes.length := by
    rw [List.get?_eq_getElem?] at hi
    exact (List.getElem?_eq_some_iff.1 hi).1
  have hjl : j < p.nodes.length := by
    rw [List.get?_eq_getElem?] at hj
    exact (List.getElem?_eq_some_iff.1 hj).1
  have h1 := (node_index_id (p.push m) i (by simp; omega)).2
  have h2 := (node_index_id (p.push m) j (by simp; omega)).2
  simp only [push_nvar] at h1 h2
  unfold node_equal
  simp only [h1, h2, push_nodeAt_some p m hi, push_nodeAt_some p m hj]
  by_cases hij : i = j
  · simp [hij]
  · have hne : ¬ ((i : Int) = j) := by omega
    have hnn : ¬ ((i : Int) < 0 ∨ (j : Int) < 0) := by omega
    simp only [hne, if_false, hnn, hij, decide_False]
    by_cases ht : n.type = n2.type
    · by_cases ha : n.args = n2.args
      · exact absurd (hu i j n n2 hi hj ht ha) hij
      · simp [ht, ha]
    · simp [ht]

end Pog

theorem map_inj_of_mem {f : Int → Int} : ∀ (s1 s2 : List Int), s1.map f = s2.map f →
    (∀ a ∈ s1, ∀ b ∈ s2, f a = f b → a = b) → s1 = s2
  | [], [], _, _ => rfl
  | [], _ :: _, h, _ => by simp at h
  | _ :: _, [], h, _ => by simp at h
  | a :: r1, b :: r2, h, hinj => by
    simp only [List.map_cons, List.cons.injEq] at h
    have hab := hinj a (List.mem_cons_self _ _) b (List.mem_cons_self _ _) h.1
    have := map_inj_of_mem r1 r2 h.2 (fun x hx y hy => hinj x (List.mem_cons_of_mem _ hx) y
      (List.mem_cons_of_mem _ hy))
    rw [hab, this]

theorem abs_less_false_iff (a b : Int) : abs_less b a = false ↔ IABS a ≤ IABS b := by
  simp [abs_less]

/-- Two rearrangements of one list, both ordered by magnitude, are equal when no two
distinct elements have the same magnitude. -/
theorem sorted_perm_unique {s1 s2 : List Int} (hp : s1.Perm s2)
    (h1 : s1.Pairwise (fun a b => abs_less b a = false))
    (h2 : s2.Pairwise (fun a b => abs_less b a = false))
    (hinj : ∀ a ∈ s1, ∀ b ∈ s1, IABS a = IABS b → a = b) : s1 = s2 := by
  have hm : s1.map IABS = s2.map IABS := by
    have e1 : (s1.map IABS).Sorted LE.le := by
      rw [List.Sorted, List.pairwise_map]
      exact h1.imp (fun h => (abs_less_false_iff _ _).1 h)
    have e2 : (s2.map IABS).Sorted LE.le := by
      rw [List.Sorted, List.pairwise_map]
      exact h2.imp (fun h => (abs_less_false_iff _ _).1 h)
    exact List.eq_of_perm_of_sorted (hp.map IABS) e1 e2
  exact map_inj_of_mem s1 s2 hm (fun a ha b hb h => hinj a ha b (hp.mem_iff.2 hb) h)

theorem Runtime.sort_perm_eq {rt : Runtime} (hs : rt.sort_ok) {l1 l2 : List Int}
    (hp : l1.Perm l2) (hinj : ∀ a ∈ l1, ∀ b ∈ l1, IABS a = IABS b → a = b) :
    rt.sort l1 = rt.sort l2 := by
  have p1 := (hs l1).1
  have p2 := (hs l2).1
  apply sorted_perm_unique ((p1.trans hp).trans p2.symm) (hs l1).2 (hs l2).2
  intro a ha b hb h
  exact hinj a (p1.mem_iff.1 ha) b (p1.mem_iff.1 hb) h

namespace Pog

theorem push_length_pred (p : Pog) (m : Node) : (p.push m).nodes.length - 1 = p.nodes.length := by
  simp

/-- The method `finish_node` on a graph whose prototype is `m`. -/
theorem finish_node_push (rt : Runtime) (p : Pog) (m : Node) :
    finish_node rt (p.push m) =
      if m.args.length = 0 then (p, if m.type = POG_SUM then CONFLICT else TAUTOLOGY)
      else if m.args.length = 1 then (p, m.args.headD 0)
      else
        let p1 := p.push { m with args := rt.sort m.args }
        let edge : Int := (p.nodes.length : Int) + p.nvar + 1
        let r := (p.unique_table.filter (fun e => e.1 = node_hash rt p1 edge)).foldl p1.probe
          (edge, false)
        if r.2 then (p, r.1)
        else ({ p1 with unique_table := p.unique_table ++ [(node_hash rt p1 edge, edge)] }, edge) := by
  unfold finish_node
  simp only [push_proto, push_length_pred, push_set_proto, push_retract, push_nvar, push_table]

/-- The result of `finish_node` depends on the prototype only through its type, its
flags and, up to the order, its arguments. -/
theorem finish_node_congr (rt : Runtime) (p : Pog) (m1 m2 : Node)
    (ht : m1.type = m2.type) (hl : m1.args.length = m2.args.length)
    (h1 : m1.args.length = 1 → m1.args = m2.args)
    (h2 : 2 ≤ m1.args.length → rt.sort m1.args = rt.sort m2.args ∧
      m1.data_only = m2.data_only ∧ m1.projection_only = m2.projection_only) :
    finish_node rt (p.push m1) = finish_node rt (p.push m2) := by
  rw [finish_node_push, finish_node_push]
  by_cases h0 : m1.args.length = 0
  · have h0' : m2.args.length = 0 := by omega
    simp [h0, h0', ht]
  · have h0' : ¬ m2.args.length = 0 := by omega
    simp only [h0, h0', if_false]
    by_cases h11 : m1.args.length = 1
    · have h11' : m2.args.length = 1 := by omega
      simp [h11, h11', h1 h11]
    · have h11' : ¬ m2.args.length = 1 := by omega
      simp only [h11, h11', if_false]
      obtain ⟨hs, hd, hq⟩ := h2 (by omega)
      have : ({ m1 with args := rt.sort m1.args } : Node) = { m2 with args := rt.sort m2.args } := by
        cases m1; cases m2; simp_all
      rw [this]

theorem perm_expand (p : Pog) (t : pog_type_t) {args args' : List Int} (h : args.Perm args') :
    (p.expand t args).Perm (p.expand t args') := by
  unfold expand
  exact h.flatMap_right _

/-- The arguments of a stored node of a well-formed graph are no constants. -/
theorem WF.get_arguments_ne_const {rt : Runtime} {p : Pog} (hwf : p.WF rt) (e : Int)
    (he : IABS e ≤ (p.nvar : Int) + p.nodes.length ∨ IABS e = TAUTOLOGY) :
    ∀ a ∈ p.get_arguments e, 1 ≤ IABS a ∧ IABS a < (p.nvar : Int) + p.nodes.length := by
  intro a ha
  unfold get_arguments at ha
  split at ha
  · simp at ha
  · rename_i hi
    have hn : p.is_node e = true := by
      by_contra hc
      exact hi ((node_index_lt_iff p e).2 (by simpa using hc))
    have hidx := node_index_of_is_node hn
    rw [is_node_iff] at hn
    have hlt : IABS e ≤ (p.nvar : Int) + p.nodes.length := by
      rcases he with he | he
      · exact he
      · exact absurd he hn.2
    obtain ⟨i, hi'⟩ : ∃ i : Nat, p.node_index e = i := ⟨(p.node_index e).toNat, by omega⟩
    have hil : i < p.nodes.length := by omega
    have hget : p.nodes.get? i = some (p.nodes.get ⟨i, hil⟩) := List.get?_eq_get hil
    rw [hi', nodeAt_of_some hget] at ha
    have := (hwf.nodes_ok i _ hget).children a ha
    unfold child_ok at this
    constructor
    · exact this.1
    · omega

theorem WF.absorbing_not_mem_expand {rt : Runtime} {p : Pog} (hwf : p.WF rt) (t : pog_type_t)
    (args : List Int) (hok : ∀ a ∈ args, p.edge_ok a) (h : absorbing t ∉ args) :
    absorbing t ∉ p.expand t args := by
  intro hm
  unfold expand at hm
  rw [List.mem_flatMap] at hm
  obtain ⟨e, he, hx⟩ := hm
  unfold expand_edge at hx
  split at hx
  · simp at hx
  · split at hx
    · have := hwf.get_arguments_ne_const e (edge_ok_bound (hok e he)) _ hx
      have hr := hwf.range
      have hlt := MAX_VARIABLE_lt
      have hA : IABS (absorbing t) = TAUTOLOGY := by
        unfold absorbing; split
        · exact IABS_TAUTOLOGY
        · exact IABS_CONFLICT
      omega
    · simp at hx
      exact h (hx ▸ he)

end Pog

theorem all_perm {f : Int → Bool} {l1 l2 : List Int} (h : l1.Perm l2) : l1.all f = l2.all f := by
  rw [Bool.eq_iff_iff, List.all_eq_true, List.all_eq_true]
  exact ⟨fun h1 x hx => h1 x (h.mem_iff.2 hx), fun h1 x hx => h1 x (h.mem_iff.1 hx)⟩

namespace Pog

/-- C10 (amended). Building a node is invariant under reordering of the arguments when
no argument occurs together with its negation: in a well-formed graph, for each of the
two node types and every list of edges of the graph whose contributed arguments (the
arguments of spliced Products included) hold no edge together with its negation,
`start_node`, `add_argument` over the list, `finish_node` returns the same edge, and
leaves the same graph, as for any permutation of the list. -/
theorem build_perm_invariant (rt : Runtime) (hs : rt.sort_ok) (p : Pog) (hwf : p.WF rt)
    (t : pog_type_t) (ht : t = POG_PRODUCT ∨ t = POG_SUM) (args args' : List Int)
    (hperm : args.Perm args') (hok : ∀ a ∈ args, p.edge_ok a)
    (hc : ∀ a ∈ p.expand t args, ∀ b ∈ p.expand t args, a ≠ -b) :
    build rt p t args = build rt p t args' := by
  have hok' : ∀ a ∈ args', p.edge_ok a := fun a ha => hok a (hperm.mem_iff.2 ha)
  rw [build_eq rt p t args (fun a ha => edge_ok_bound (hok a ha)),
    build_eq rt p t args' (fun a ha => edge_ok_bound (hok' a ha))]
  by_cases ha : absorbing t ∈ args
  · have e1 := proto_of_absorbing p t args ht ha
    have e2 := proto_of_absorbing p t args' ht (hperm.mem_iff.1 ha)
    apply finish_node_congr
    · rw [proto_of_type, proto_of_type]
    · rw [e1, e2]
    · intro _; rw [e1, e2]
    · intro h; rw [e1] at h; simp at h
  · have hA := hwf.absorbing_not_mem_expand t args hok ha
    have hE := perm_expand p t hperm
    have hA' : absorbing t ∉ p.expand t args' := fun h => hA (hE.mem_iff.2 h)
    have hc' : ∀ a ∈ p.expand t args', ∀ b ∈ p.expand t args', a ≠ -b :=
      fun a ha b hb => hc a (hE.mem_iff.2 ha) b (hE.mem_iff.2 hb)
    obtain ⟨r1, r2, r3⟩ := proto_of_regular p t args ht hA (fun _ => hc)
    obtain ⟨s1, s2, s3⟩ := proto_of_regular p t args' ht hA' (fun _ => hc')
    apply finish_node_congr
    · rw [proto_of_type, proto_of_type]
    · rw [r1, s1]; exact hE.length_eq
    · intro h
      rw [r1, s1]
      rw [r1] at h
      match hx : p.expand t args, h with
      | [x], _ =>
        rw [hx] at hE
        exact List.singleton_perm.1 hE
    · intro _
      refine ⟨?_, ?_, ?_⟩
      · rw [r1, s1]
        apply Runtime.sort_perm_eq hs hE
        intro a ha b hb hab
        rcases IABS_eq_iff hab with h | h
        · exact h
        · exact absurd h (hc a ha b hb)
      · rw [r2, s2]; exact all_perm hperm
      · rw [r3, s3]; exact all_perm hperm

theorem WF_init (rt : Runtime) (n : Nat) (dvars tvars : Finset Int)
    (h : (n : Int) < MAX_VARIABLE) : (Pog.init n dvars tvars).WF rt where
  range := by simpa [Pog.init] using h
  table := by simp [Pog.init]
  nodes_ok := by intro i n h; simp [Pog.init] at h
  unique := by intro i j n m h; simp [Pog.init] at h

end Pog

theorem flipRuntime_sort_ok : flipRuntime.sort_ok := by
  intro l
  have hT : IsTotal Int (fun a b => IABS a ≤ IABS b) := ⟨fun a b => le_total _ _⟩
  have hR : IsTrans Int (fun a b => IABS a ≤ IABS b) := ⟨fun a b c h1 h2 => le_trans h1 h2⟩
  refine ⟨(List.perm_insertionSort _ l.reverse).trans (List.reverse_perm l), ?_⟩
  have := List.sorted_insertionSort (fun a b => IABS a ≤ IABS b) l.reverse
  exact this.imp (fun h => (abs_less_false_iff _ _).2 h)

theorem stdRuntime_sort_ok : stdRuntime.sort_ok := by
  intro l
  have hT : IsTotal Int (fun a b => IABS a ≤ IABS b) := ⟨fun a b => le_total _ _⟩
  have hR : IsTrans Int (fun a b => IABS a ≤ IABS b) := ⟨fun a b c h1 h2 => le_trans h1 h2⟩
  refine ⟨List.perm_insertionSort _ l, ?_⟩
  have := List.sorted_insertionSort (fun a b => IABS a ≤ IABS b) l
  exact this.imp (fun h => (abs_less_false_iff _ _).2 h)

namespace Pog

/-- C10 (witness). The theorem `build_perm_invariant` at a Sum of three literals over
four variables. -/
theorem build_perm_invariant_witness :
    build stdRuntime (Pog.init 4 {1, 2, 3, 4} ∅) POG_SUM [1, 2, -3] =
    build stdRuntime (Pog.init 4 {1, 2, 3, 4} ∅) POG_SUM [-3, 1, 2] :=
  build_perm_invariant stdRuntime stdRuntime_sort_ok (Pog.init 4 {1, 2, 3, 4} ∅)
    (WF_init _ _ _ _ (by decide)) POG_SUM (Or.inr rfl) [1, 2, -3] [-3, 1, 2]
    (by decide) (by decide) (by decide)

/-- C10 (counterexample). A Sum of `x, -x, y` collapses to `TAUTOLOGY` when the
complementary pair comes first, and is stored as a node when `y` comes between. -/
theorem build_reorder_counterexample :
    List.Perm [(1 : Int), -1, 2] [1, 2, -1] ∧
    (build stdRuntime (Pog.init 4 {1, 2, 3, 4} ∅) POG_SUM [1, -1, 2]).2 = TAUTOLOGY ∧
    (build stdRuntime (Pog.init 4 {1, 2, 3, 4} ∅) POG_SUM [1, 2, -1]).2 = 5 ∧
    (build stdRuntime (Pog.init 4 {1, 2, 3, 4} ∅) POG_SUM [1, -1, 2]).2 ≠
      (build stdRuntime (Pog.init 4 {1, 2, 3, 4} ∅) POG_SUM [1, 2, -1]).2 := by
  decide

end Pog

namespace Pog

/-- Probing entries of the unique table once a stored equal node has been found keeps
that node. -/
theorem probe_fold_matched (rt : Runtime) (p : Pog) (m : Node) (c : Nat)
    (hr : (p.nvar : Int) + p.nodes.length < MAX_VARIABLE)
    (hu : ∀ i j n m, p.nodes.get? i = some n → p.nodes.get? j = some m →
      n.type = m.type → n.args = m.args → i = j)
    {i : Nat} {n : Node} (hi : p.nodes.get? i = some n) :
    ∀ L : List (Nat × Node), (∀ x ∈ L, p.nodes.get? x.1 = some x.2) →
    ((L.map fun x => table_entry rt p x.1 x.2).filter (fun e => e.1 = c)).foldl (p.push m).probe
      ((i : Int) + p.nvar + 1, true) = ((i : Int) + p.nvar + 1, true) := by
  intro L
  induction L with
  | nil => intro _; rfl
  | cons x rest ih =>
    intro hL
    have hrest := ih (fun y hy => hL y (List.mem_cons_of_mem _ hy))
    simp only [List.map_cons, List.filter_cons]
    split
    · simp only [List.foldl_cons]
      have hx := hL x (List.mem_cons_self _ _)
      have : (p.push m).probe ((i : Int) + p.nvar + 1, true) (table_entry rt p x.1 x.2) =
          ((i : Int) + p.nvar + 1, true) := by
        unfold probe table_entry
        simp only [node_equal_stored p m hr hu hi hx]
        by_cases hij : i = x.1
        · simp [hij]
        · simp [hij]
      rw [this]; exact hrest
    · exact hrest

/-- Probing the entries of the unique table for the prototype `m`: either a stored node
with the type and arguments of `m` is found, or there is none. -/
theorem probe_fold_unmatched (rt : Runtime) (p : Pog) (m : Node)
    (hr : (p.nvar : Int) + p.nodes.length < MAX_VARIABLE)
    (hu : ∀ i j n m, p.nodes.get? i = some n → p.nodes.get? j = some m →
      n.type = m.type → n.args = m.args → i = j) :
    ∀ L : List (Nat × Node), (∀ x ∈ L, p.nodes.get? x.1 = some x.2) →
    (∃ x ∈ L, x.2.type = m.type ∧ x.2.args = m.args ∧
      ((L.map fun x => table_entry rt p x.1 x.2).filter
        (fun e => e.1 = hash_of rt m.type m.args)).foldl (p.push m).probe
        ((p.nodes.length : Int) + p.nvar + 1, false) = ((x.1 : Int) + p.nvar + 1, true)) ∨
    ((∀ x ∈ L, ¬ (x.2.type = m.type ∧ x.2.args = m.args)) ∧
      ((L.map fun x => table_entry rt p x.1 x.2).filter
        (fun e => e.1 = hash_of rt m.type m.args)).foldl (p.push m).probe
        ((p.nodes.length : Int) + p.nvar + 1, false) =
        ((p.nodes.length : Int) + p.nvar + 1, false)) := by
  intro L
  induction L with
  | nil => intro _; right; simp
  | cons x rest ih =>
    intro hL
    have hx := hL x (List.mem_cons_self _ _)
    have hrest := ih (fun y hy => hL y (List.mem_cons_of_mem _ hy))
    simp only [List.map_cons, List.filter_cons]
    by_cases hm : x.2.type = m.type ∧ x.2.args = m.args
    · left
      refine ⟨x, List.mem_cons_self _ _, hm.1, hm.2, ?_⟩
      have hh : (table_entry rt p x.1 x.2).1 = hash_of rt m.type m.args := by
        simp [table_entry, hm.1, hm.2]
      simp only [hh, decide_True, if_true, List.foldl_cons]
      have : (p.push m).probe ((p.nodes.length : Int) + p.nvar + 1, false)
          (table_entry rt p x.1 x.2) = ((x.1 : Int) + p.nvar + 1, true) := by
        unfold probe table_entry
        simp only [node_equal_proto p m hr hx]
        simp [hm.1, hm.2]
      rw [this]
      exact probe_fold_matched rt p m _ hr hu hx rest (fun y hy => hL y (List.mem_cons_of_mem _ hy))
    · have hstep : ((if decide ((table_entry rt p x.1 x.2).1 = hash_of rt m.type m.args) = true then
            table_entry rt p x.1 x.2 :: List.filter (fun e => decide (e.1 = hash_of rt m.type m.args))
              (List.map (fun x => table_entry rt p x.1 x.2) rest)
          else List.filter (fun e => decide (e.1 = hash_of rt m.type m.args))
              (List.map (fun x => table_entry rt p x.1 x.2) rest)).foldl (p.push m).probe
          ((p.nodes.length : Int) + p.nvar + 1, false)) =
          ((rest.map fun x => table_entry rt p x.1 x.2).filter
            (fun e => e.1 = hash_of rt m.type m.args)).foldl (p.push m).probe
            ((p.nodes.length : Int) + p.nvar + 1, false) := by
        split
        · simp only [List.foldl_cons]
          have : (p.push m).probe ((p.nodes.length : Int) + p.nvar + 1, false)
              (table_entry rt p x.1 x.2) = ((p.nodes.length : Int) + p.nvar + 1, false) := by
            unfold probe table_entry
            simp only [node_equal_proto p m hr hx]
            have : ¬ (m.type = x.2.type ∧ m.args = x.2.args) := fun h => hm ⟨h.1.symm, h.2.symm⟩
            simp [this]
          rw [this]
        · rfl
      rw [hstep]
      rcases hrest with ⟨y, hy, h1, h2, h3⟩ | ⟨h1, h2⟩
      · left; exact ⟨y, List.mem_cons_of_mem _ hy, h1, h2, h3⟩
      · right
        refine ⟨?_, h2⟩
        intro y hy
        rcases List.mem_cons.1 hy with h | h
        · rw [h]; exact hm
        · exact h1 y h

end Pog

namespace Pog

theorem node_hash_proto (rt : Runtime) (p : Pog) (m : Node)
    (hr : (p.nvar : Int) + p.nodes.length < MAX_VARIABLE) :
    node_hash rt (p.push m) ((p.nodes.length : Int) + p.nvar + 1) = hash_of rt m.type m.args := by
  have h1 := (node_index_id (p.push m) p.nodes.length (by simpa using hr)).2
  simp only [push_nvar] at h1
  unfold node_hash
  rw [h1, push_nodeAt_last]
  have : ¬ ((p.nodes.length : Int) < 0) := by omega
  simp [this]

/-- The four outcomes of `finish_node`: the identity element, the single argument, an
equal stored node, or a new node. -/
theorem finish_node_cases (rt : Runtime) (p : Pog) (m : Node)
    (hr : (p.nvar : Int) + p.nodes.length < MAX_VARIABLE)
    (htab : p.unique_table = (p.nodes.enum.map fun x => table_entry rt p x.1 x.2))
    (hu : ∀ i j n m, p.nodes.get? i = some n → p.nodes.get? j = some m →
      n.type = m.type → n.args = m.args → i = j) :
    (m.args.length = 0 ∧
      finish_node rt (p.push m) = (p, if m.type = POG_SUM then CONFLICT else TAUTOLOGY)) ∨
    (m.args.length = 1 ∧ finish_node rt (p.push m) = (p, m.args.headD 0)) ∨
    (2 ≤ m.args.length ∧ ∃ i n, p.nodes.get? i = some n ∧ n.type = m.type ∧
      n.args = rt.sort m.args ∧ finish_node rt (p.push m) = (p, (i : Int) + p.nvar + 1)) ∨
    (2 ≤ m.args.length ∧
      (∀ i n, p.nodes.get? i = some n → ¬ (n.type = m.type ∧ n.args = rt.sort m.args)) ∧
      finish_node rt (p.push m) =
        (p.commit rt { m with args := rt.sort m.args }, (p.nodes.length : Int) + p.nvar + 1)) := by
  rw [finish_node_push]
  by_cases h0 : m.args.length = 0
  · left; simp [h0]
  · by_cases h1 : m.args.length = 1
    · right; left; simp [h1]
    · right; right
      have h2 : 2 ≤ m.args.length := by omega
      simp only [h0, h1, if_false]
      rw [node_hash_proto rt p _ hr]
      simp only []
      have hL : ∀ x ∈ p.nodes.enum, p.nodes.get? x.1 = some x.2 :=
        fun x hx => List.mem_enum_iff_get?.1 hx
      rcases probe_fold_unmatched rt p { m with args := rt.sort m.args } hr hu p.nodes.enum hL with
        ⟨x, hx, t1, t2, t3⟩ | ⟨t1, t2⟩
      · left
        refine ⟨h2, x.1, x.2, hL x hx, t1, t2, ?_⟩
        rw [htab]
        simp only [] at t3
        rw [t3]
        simp
      · right
        refine ⟨h2, ?_, ?_⟩
        · intro i n hn
          have : (i, n) ∈ p.nodes.enum := List.mem_enum_iff_get?.2 hn
          exact t1 (i, n) this
        · rw [htab]
          simp only [] at t2
          rw [t2]
          simp [commit, table_entry, push, htab]

end Pog

namespace Pog

/-- A non-constant edge of the graph is a literal or a stored node. -/
theorem child_ok_of_edge_ok {p : Pog} {e : Int} (h : p.edge_ok e) (h1 : e ≠ TAUTOLOGY)
    (h2 : e ≠ CONFLICT) : p.child_ok p.nodes.length e := by
  rcases h with h | h
  · exact h
  · exfalso
    rcases IABS_eq_iff (h.trans IABS_TAUTOLOGY.symm) with h | h
    · exact h1 h
    · exact h2 h

theorem WF.get_arguments_child_ok {rt : Runtime} {p : Pog} (hwf : p.WF rt) (e : Int)
    (he : p.edge_ok e) : ∀ a ∈ p.get_arguments e, p.child_ok p.nodes.length a := by
  intro a ha
  have := hwf.get_arguments_ne_const e (edge_ok_bound he) a ha
  exact ⟨this.1, by omega⟩

/-- The stored node that a node edge of a well-formed graph designates. -/
theorem WF.node_of_edge {rt : Runtime} {p : Pog} (_hwf : p.WF rt) {e : Int}
    (he : IABS e ≤ (p.nvar : Int) + p.nodes.length ∨ IABS e = TAUTOLOGY)
    (hn : p.is_node e = true) :
    ∃ i : Nat, ∃ n : Node, p.nodes.get? i = some n ∧ p.node_index e = i ∧
      IABS e = (i : Int) + p.nvar + 1 ∧ p.nodeAt (p.node_index e) = n := by
  have hidx := node_index_of_is_node hn
  have hn' := (is_node_iff p e).1 hn
  have hlt : IABS e ≤ (p.nvar : Int) + p.nodes.length := by
    rcases he with he | he
    · exact he
    · exact absurd he hn'.2
  obtain ⟨i, hi'⟩ : ∃ i : Nat, p.node_index e = i := ⟨(p.node_index e).toNat, by omega⟩
  have hil : i < p.nodes.length := by omega
  have hget : p.nodes.get? i = some (p.nodes.get ⟨i, hil⟩) := List.get?_eq_get hil
  refine ⟨i, _, hget, hi', by omega, ?_⟩
  rw [hi']; exact nodeAt_of_some hget

theorem WF.only_data_node {rt : Runtime} {p : Pog} (hwf : p.WF rt) {e : Int}
    (he : p.edge_ok e) (hn : p.is_node e = true) :
    p.only_data_variables e = (p.get_arguments e).all p.only_data_variables := by
  obtain ⟨i, n, hget, hidx, _, hat⟩ := hwf.node_of_edge (edge_ok_bound he) hn
  unfold only_data_variables get_arguments
  have : ¬ (p.node_index e < 0) := by omega
  simp only [hn, if_true, this, if_false, hat]
  exact (hwf.nodes_ok i n hget).data_flag

theorem WF.only_proj_node {rt : Runtime} {p : Pog} (hwf : p.WF rt) {e : Int}
    (he : p.edge_ok e) (hn : p.is_node e = true) :
    p.only_projection_variables e = (p.get_arguments e).all p.only_projection_variables := by
  obtain ⟨i, n, hget, hidx, _, hat⟩ := hwf.node_of_edge (edge_ok_bound he) hn
  unfold only_projection_variables get_arguments
  have : ¬ (p.node_index e < 0) := by omega
  simp only [hn, if_true, this, if_false, hat]
  exact (hwf.nodes_ok i n hget).proj_flag

/-- One `add_argument` keeps the invariant of the prototype. -/
theorem proto_ok_step {rt : Runtime} {p : Pog} (hwf : p.WF rt) (n : Node) (e : Int)
    (ht : n.type = POG_PRODUCT ∨ n.type = POG_SUM) (he : p.edge_ok e) (hn : p.proto_ok n) :
    p.proto_ok (p.add_argument_node n e) := by
  rcases ht with ht | ht
  · rw [add_argument_node_product p n e ht]
    split_ifs with h1 h2 h3 h4
    · exact hn
    · exact hn
    · left; simp [ht, absorbing_product]
    · -- splice
      rcases hn with hn | ⟨c1, c2, c3⟩
      · rw [ht, absorbing_product] at hn; exact absurd hn h1
      · right
        refine ⟨?_, ?_, ?_⟩
        · intro a ha
          rcases List.mem_append.1 ha with ha | ha
          · exact c1 a ha
          · exact hwf.get_arguments_child_ok e he a ha
        · simp only [List.all_append, c2, hwf.only_data_node he h4.1]
        · simp only [List.all_append, c3, hwf.only_proj_node he h4.1]
    · rcases hn with hn | ⟨c1, c2, c3⟩
      · rw [ht, absorbing_product] at hn; exact absurd hn h1
      · right
        refine ⟨?_, ?_, ?_⟩
        · intro a ha
          rcases List.mem_append.1 ha with ha | ha
          · exact c1 a ha
          · simp at ha; rw [ha]; exact child_ok_of_edge_ok he h2 h3
        · simp [List.all_append, c2]
        · simp [List.all_append, c3]
  · rw [add_argument_node_sum p n e ht]
    split_ifs with h1 h2 h3 h4
    · exact hn
    · left; simp [ht, absorbing_sum]
    · exact hn
    · left; simp [ht, absorbing_sum]
    · rcases hn with hn | ⟨c1, c2, c3⟩
      · rw [ht, absorbing_sum] at hn; exact absurd hn h1
      · right
        refine ⟨?_, ?_, ?_⟩
        · intro a ha
          rcases List.mem_append.1 ha with ha | ha
          · exact c1 a ha
          · simp at ha; rw [ha]; exact child_ok_of_edge_ok he h4 h3
        · simp [List.all_append, c2]
        · simp [List.all_append, c3]

theorem proto_ok_fold {rt : Runtime} {p : Pog} (hwf : p.WF rt) (args : List Int) :
    ∀ n : Node, (n.type = POG_PRODUCT ∨ n.type = POG_SUM) → (∀ a ∈ args, p.edge_ok a) →
    p.proto_ok n → p.proto_ok (args.foldl p.add_argument_node n) := by
  induction args with
  | nil => intro n _ _ h; exact h
  | cons a rest ih =>
    intro n ht hok hn
    simp only [List.foldl_cons]
    apply ih
    · rw [add_argument_node_type]; exact ht
    · exact fun b hb => hok b (List.mem_cons_of_mem _ hb)
    · exact proto_ok_step hwf n a ht (hok a (List.mem_cons_self _ _)) hn

/-- The prototype after `add_argument` for edges of a well-formed graph. -/
theorem proto_of_ok {rt : Runtime} {p : Pog} (hwf : p.WF rt) (t : pog_type_t) (args : List Int)
    (ht : t = POG_PRODUCT ∨ t = POG_SUM) (hok : ∀ a ∈ args, p.edge_ok a) :
    p.proto_ok (p.proto_of t args) := by
  apply proto_ok_fold hwf args _ ht hok
  right
  simp

end Pog

namespace Pog

@[simp] theorem commit_nvar (rt : Runtime) (p : Pog) (m : Node) : (p.commit rt m).nvar = p.nvar := rfl
@[simp] theorem commit_nodes (rt : Runtime) (p : Pog) (m : Node) :
    (p.commit rt m).nodes = p.nodes ++ [m] := rfl
@[simp] theorem commit_data (rt : Runtime) (p : Pog) (m : Node) :
    (p.commit rt m).data_variables = p.data_variables := rfl
@[simp] theorem commit_tseitin (rt : Runtime) (p : Pog) (m : Node) :
    (p.commit rt m).tseitin_variables = p.tseitin_variables := rfl

theorem commit_only_data (rt : Runtime) (p : Pog) (m : Node) {e : Int}
    (h : IABS e ≤ (p.nvar : Int) + p.nodes.length ∨ IABS e = TAUTOLOGY) :
    (p.commit rt m).only_data_variables e = p.only_data_variables e :=
  push_only_data p m h

theorem commit_only_proj (rt : Runtime) (p : Pog) (m : Node) {e : Int}
    (h : IABS e ≤ (p.nvar : Int) + p.nodes.length ∨ IABS e = TAUTOLOGY) :
    (p.commit rt m).only_projection_variables e = p.only_projection_variables e :=
  push_only_proj p m h

theorem commit_get_arguments (rt : Runtime) (p : Pog) (m : Node) {e : Int}
    (h : IABS e ≤ (p.nvar : Int) + p.nodes.length ∨ IABS e = TAUTOLOGY) :
    (p.commit rt m).get_arguments e = p.get_arguments e :=
  push_get_arguments p m h

theorem commit_get_type (rt : Runtime) (p : Pog) (m : Node) {e : Int}
    (h : IABS e ≤ (p.nvar : Int) + p.nodes.length ∨ IABS e = TAUTOLOGY) :
    (p.commit rt m).get_type e = p.get_type e :=
  push_get_type p m h

@[simp] theorem commit_is_node (rt : Runtime) (p : Pog) (m : Node) (e : Int) :
    (p.commit rt m).is_node e = p.is_node e :=
  is_node_congr rfl e

theorem all_congr_mem {f g : Int → Bool} {l : List Int} (h : ∀ a ∈ l, f a = g a) :
    l.all f = l.all g := by
  induction l with
  | nil => rfl
  | cons a r ih =>
    simp only [List.all_cons]
    rw [h a (List.mem_cons_self _ _), ih (fun b hb => h b (List.mem_cons_of_mem _ hb))]

/-- The invariant of a stored node survives the commit of a further node. -/
theorem node_ok_commit (rt : Runtime) (p : Pog) (m : Node) {i : Nat} {n : Node}
    (hi : i ≤ p.nodes.length) (h : p.node_ok i n) : (p.commit rt m).node_ok i n where
  type_ok := h.type_ok
  degree_ok := h.degree_ok
  children := h.children
  sorted := h.sorted
  data_flag := by
    rw [h.data_flag]
    apply all_congr_mem
    intro a ha
    have := h.children a ha
    unfold child_ok at this
    exact (commit_only_data rt p m (Or.inl (by omega))).symm
  proj_flag := by
    rw [h.proj_flag]
    apply all_congr_mem
    intro a ha
    have := h.children a ha
    unfold child_ok at this
    exact (commit_only_proj rt p m (Or.inl (by omega))).symm

/-- Committing a prototype that satisfies the node invariant and equals no stored node
keeps the graph well formed. -/
theorem WF.commit {rt : Runtime} {p : Pog} (hwf : p.WF rt) (m : Node)
    (hr : (p.nvar : Int) + p.nodes.length + 1 < MAX_VARIABLE)
    (hm : p.node_ok p.nodes.length m)
    (hnew : ∀ i n, p.nodes.get? i = some n → ¬ (n.type = m.type ∧ n.args = m.args)) :
    (p.commit rt m).WF rt where
  range := by simp; omega
  table := by
    simp only [Pog.commit, List.enum_append, List.map_append, hwf.table]
    simp [table_entry, List.enumFrom_singleton]
  nodes_ok := by
    intro i n hn
    simp only [commit_nodes, List.get?_eq_getElem?] at hn
    by_cases hi : i < p.nodes.length
    · rw [List.getElem?_append_left hi] at hn
      exact node_ok_commit rt p m (by omega) (hwf.nodes_ok i n (by rw [List.get?_eq_getElem?]; exact hn))
    · rw [List.getElem?_append_right (by omega)] at hn
      have hi2 : i = p.nodes.length := by
        by_contra hc
        have : i - p.nodes.length ≥ 1 := by omega
        rw [List.getElem?_eq_none (by simp; omega)] at hn
        simp at hn
      subst hi2
      simp at hn
      subst hn
      exact node_ok_commit rt p m (le_refl _) hm
  unique := by
    intro i j n n2 hi hj ht ha
    simp only [commit_nodes, List.get?_eq_getElem?] at hi hj
    have key : ∀ k : Nat, ∀ x : Node, (p.nodes ++ [m])[k]? = some x →
        (k < p.nodes.length ∧ p.nodes.get? k = some x) ∨ (k = p.nodes.length ∧ x = m) := by
      intro k x hk
      by_cases hkl : k < p.nodes.length
      · left
        rw [List.getElem?_append_left hkl] at hk
        exact ⟨hkl, by rw [List.get?_eq_getElem?]; exact hk⟩
      · right
        rw [List.getElem?_append_right (by omega)] at hk
        have hk2 : k = p.nodes.length := by
          by_contra hc
          rw [List.getElem?_eq_none (by simp; omega)] at hk
          simp at hk
        subst hk2
        simp at hk
        exact ⟨rfl, hk.symm⟩
    rcases key i n hi with ⟨_, h1⟩ | ⟨h1, h1'⟩ <;> rcases key j n2 hj with ⟨_, h2⟩ | ⟨h2, h2'⟩
    · exact hwf.unique i j n n2 h1 h2 ht ha
    · subst h2'; exact absurd ⟨ht, ha⟩ (hnew i n h1)
    · subst h1'; exact absurd ⟨ht.symm, ha.symm⟩ (hnew j n2 h2)
    · omega

end Pog

namespace Pog

/-- The four outcomes of a complete use of the builder on a well-formed graph. -/
theorem build_cases (rt : Runtime) {p : Pog} (hwf : p.WF rt) (t : pog_type_t) (args : List Int)
    (hok : ∀ a ∈ args, p.edge_ok a) :
    ((p.proto_of t args).args.length = 0 ∧
      build rt p t args = (p, if t = POG_SUM then CONFLICT else TAUTOLOGY)) ∨
    ((p.proto_of t args).args.length = 1 ∧
      build rt p t args = (p, (p.proto_of t args).args.headD 0)) ∨
    (2 ≤ (p.proto_of t args).args.length ∧ ∃ i n, p.nodes.get? i = some n ∧ n.type = t ∧
      n.args = rt.sort (p.proto_of t args).args ∧
      build rt p t args = (p, (i : Int) + p.nvar + 1)) ∨
    (2 ≤ (p.proto_of t args).args.length ∧
      (∀ i n, p.nodes.get? i = some n →
        ¬ (n.type = t ∧ n.args = rt.sort (p.proto_of t args).args)) ∧
      build rt p t args =
        (p.commit rt ⟨t, rt.sort (p.proto_of t args).args, (p.proto_of t args).data_only,
            (p.proto_of t args).projection_only⟩,
         (p.nodes.length : Int) + p.nvar + 1)) := by
  rw [build_eq rt p t args (fun a ha => edge_ok_bound (hok a ha))]
  have := finish_node_cases rt p (p.proto_of t args) hwf.range hwf.table hwf.unique
  rw [proto_of_type] at this
  exact this

theorem edge_ok_id (p : Pog) {i : Nat} (h : i < p.nodes.length) :
    p.edge_ok ((i : Int) + p.nvar + 1) := by
  left
  rw [IABS_of_nonneg (by omega)]
  omega

theorem edge_ok_absorbing (p : Pog) (t : pog_type_t) : p.edge_ok (absorbing t) := by
  right
  unfold absorbing; split
  · exact IABS_TAUTOLOGY
  · exact IABS_CONFLICT

/-- The prototype that `finish_node` commits satisfies the node invariant. -/
theorem proto_node_ok {rt : Runtime} (hs : rt.sort_ok) {p : Pog} (hwf : p.WF rt)
    (t : pog_type_t) (args : List Int) (ht : t = POG_PRODUCT ∨ t = POG_SUM)
    (hok : ∀ a ∈ args, p.edge_ok a) (h2 : 2 ≤ (p.proto_of t args).args.length) :
    p.node_ok p.nodes.length
      ⟨t, rt.sort (p.proto_of t args).args, (p.proto_of t args).data_only,
        (p.proto_of t args).projection_only⟩ := by
  have hperm := (hs (p.proto_of t args).args).1
  rcases proto_of_ok hwf t args ht hok with h | ⟨c1, c2, c3⟩
  · rw [h] at h2; simp at h2
  · exact {
      type_ok := ht
      degree_ok := by simpa [hperm.length_eq] using h2
      children := fun a ha => c1 a (hperm.mem_iff.1 ha)
      sorted := (hs _).2
      data_flag := by simp only [c2]; exact (all_perm hperm).symm
      proj_flag := by simp only [c3]; exact (all_perm hperm).symm }

/-- A complete use of the builder keeps the graph well formed, returns an edge of the
new graph, and either leaves the graph as it is or stores one node. -/
theorem build_spec (rt : Runtime) (hs : rt.sort_ok) {p : Pog} (hwf : p.WF rt)
    (t : pog_type_t) (ht : t = POG_PRODUCT ∨ t = POG_SUM) (args : List Int)
    (hok : ∀ a ∈ args, p.edge_ok a)
    (hr : (p.nvar : Int) + p.nodes.length + 1 < MAX_VARIABLE) :
    (build rt p t args).1.WF rt ∧ (build rt p t args).1.edge_ok (build rt p t args).2 ∧
    ((build rt p t args).1 = p ∨
      ∃ m, (build rt p t args).1 = p.commit rt m ∧
        (build rt p t args).2 = (p.nodes.length : Int) + p.nvar + 1) := by
  rcases build_cases rt hwf t args hok with ⟨_, h⟩ | ⟨h1, h⟩ | ⟨_, i, n, hn, _, _, h⟩ | ⟨h2, hnew, h⟩
  · rw [h]
    refine ⟨hwf, ?_, Or.inl rfl⟩
    right
    simp only []
    split
    · exact IABS_CONFLICT
    · exact IABS_TAUTOLOGY
  · rw [h]
    refine ⟨hwf, ?_, Or.inl rfl⟩
    simp only []
    rcases proto_of_ok hwf t args ht hok with hp | ⟨c1, _, _⟩
    · rw [hp]; simp; exact edge_ok_absorbing p _
    · match hx : (p.proto_of t args).args, h1 with
      | [x], _ =>
        have := c1 x (by rw [hx]; simp)
        simp
        exact Or.inl this
  · rw [h]
    refine ⟨hwf, ?_, Or.inl rfl⟩
    have hi : i < p.nodes.length := by
      rw [List.get?_eq_getElem?] at hn
      exact (List.getElem?_eq_some_iff.1 hn).1
    exact edge_ok_id p hi
  · rw [h]
    refine ⟨?_, ?_, Or.inr ⟨_, rfl, rfl⟩⟩
    · apply hwf.commit _ hr (proto_node_ok hs hwf t args ht hok h2)
      intro i n hn
      exact hnew i n hn
    · simp only []
      left
      rw [IABS_of_nonneg (by omega)]
      simp
      omega

end Pog

namespace Pog

theorem add_argument_frame (p : Pog) (e : Int) (h : p.nodes ≠ []) :
    (p.add_argument e).nodes.length = p.nodes.length ∧ (p.add_argument e).nvar = p.nvar := by
  unfold add_argument set_proto
  refine ⟨?_, rfl⟩
  simp
  have := List.length_pos.2 h
  omega

theorem foldl_add_argument_frame (args : List Int) : ∀ (p : Pog), p.nodes ≠ [] →
    (args.foldl add_argument p).nodes.length = p.nodes.length ∧
    (args.foldl add_argument p).nvar = p.nvar := by
  induction args with
  | nil => intro p _; exact ⟨rfl, rfl⟩
  | cons a rest ih =>
    intro p hp
    simp only [List.foldl_cons]
    have h1 := add_argument_frame p a hp
    have hne : (p.add_argument a).nodes ≠ [] := by
      intro h
      have := h1.1
      rw [h] at this
      have := List.length_pos.2 hp
      simp at *
      omega
    have h2 := ih (p.add_argument a) hne
    exact ⟨h2.1.trans h1.1, h2.2.trans h1.2⟩

theorem finish_node_frame (rt : Runtime) (p : Pog) (h : p.nodes ≠ []) :
    ((finish_node rt p).1.nodes.length = p.nodes.length - 1 ∨
      (finish_node rt p).1.nodes.length = p.nodes.length) ∧
    (finish_node rt p).1.nvar = p.nvar := by
  have hl := List.length_pos.2 h
  unfold finish_node
  simp only []
  split_ifs <;> simp [retract, set_proto]
  omega

/-- A use of the builder keeps the number of variables and adds at most one node. -/
theorem build_frame (rt : Runtime) (p : Pog) (t : pog_type_t) (args : List Int) :
    (p.nodes.length = (build rt p t args).1.nodes.length ∨
      p.nodes.length + 1 = (build rt p t args).1.nodes.length) ∧
    (build rt p t args).1.nvar = p.nvar := by
  unfold build
  have hne : (p.start_node t).nodes ≠ [] := by simp [start_node]
  have h1 := foldl_add_argument_frame args (p.start_node t) hne
  have hne2 : (args.foldl add_argument (p.start_node t)).nodes ≠ [] := by
    intro h
    have := h1.1
    rw [h] at this
    simp [start_node] at this
  have h2 := finish_node_frame rt _ hne2
  rw [h1.1, h1.2] at h2
  have h3 : (p.start_node t).nodes.length = p.nodes.length + 1 := by simp [start_node]
  have h4 : (p.start_node t).nvar = p.nvar := rfl
  rw [h3, h4] at h2
  refine ⟨?_, h2.2⟩
  rcases h2.1 with h | h
  · left; omega
  · right; omega

/-- Every graph that the builder produces is well formed. -/
theorem Reachable.wf {rt : Runtime} (hs : rt.sort_ok) {p : Pog} (h : Reachable rt p)
    (hr : (p.nvar : Int) + p.nodes.length + 1 < MAX_VARIABLE) : p.WF rt := by
  induction h with
  | init n dvars tvars =>
    apply WF_init
    simp [Pog.init] at hr
    omega
  | build p t args _ ht hok ih =>
    have hf := build_frame rt p t args
    have hr' : (p.nvar : Int) + p.nodes.length + 1 < MAX_VARIABLE := by
      rw [hf.2] at hr
      rcases hf.1 with h | h <;> omega
    exact (build_spec rt hs (ih hr') t ht args hok hr').1

/-- C3. Hash-consing invariant. In every graph produced by complete uses of the builder
(`start_node`, `add_argument` for each edge, `finish_node`), no two distinct stored nodes
have the same type and the same argument list. Equivalently, for a further use of the
builder: when a stored node has the type and the sorted arguments of the prototype,
`finish_node` leaves the graph as it is and returns the edge of that node; and when
`finish_node` stores a node, no node stored before has its type and arguments. -/
theorem hash_consing_invariant (rt : Runtime) (hs : rt.sort_ok) (p : Pog)
    (h : Reachable rt p) (hr : (p.nvar : Int) + p.nodes.length + 1 < MAX_VARIABLE) :
    (∀ i j n m, p.nodes.get? i = some n → p.nodes.get? j = some m →
      n.type = m.type → n.args = m.args → i = j) ∧
    (∀ t args, (∀ a ∈ args, p.edge_ok a) → 2 ≤ (p.proto_of t args).args.length →
      ∀ i n, p.nodes.get? i = some n → n.type = t →
        n.args = rt.sort (p.proto_of t args).args →
        build rt p t args = (p, (i : Int) + p.nvar + 1)) ∧
    (∀ t args, (∀ a ∈ args, p.edge_ok a) → (build rt p t args).1.nodes ≠ p.nodes →
      (build rt p t args).1.nodes =
        p.nodes ++ [⟨t, rt.sort (p.proto_of t args).args, (p.proto_of t args).data_only,
          (p.proto_of t args).projection_only⟩] ∧
      ∀ i n, p.nodes.get? i = some n →
        ¬ (n.type = t ∧ n.args = rt.sort (p.proto_of t args).args)) := by
  have hwf := h.wf hs hr
  refine ⟨hwf.unique, ?_, ?_⟩
  · intro t args hok h2 i n hn ht ha
    rcases build_cases rt hwf t args hok with ⟨h0, _⟩ | ⟨h1, _⟩ | ⟨_, j, m, hm, hmt, hma, hb⟩ |
      ⟨_, hnew, _⟩
    · omega
    · omega
    · have := hwf.unique i j n m hn hm (ht.trans hmt.symm) (ha.trans hma.symm)
      rw [hb, this]
    · exact absurd ⟨ht, ha⟩ (hnew i n hn)
  · intro t args hok hne
    rcases build_cases rt hwf t args hok with ⟨_, hb⟩ | ⟨_, hb⟩ | ⟨_, j, m, _, _, _, hb⟩ |
      ⟨_, hnew, hb⟩
    · rw [hb] at hne; exact absurd rfl hne
    · rw [hb] at hne; exact absurd rfl hne
    · rw [hb] at hne; exact absurd rfl hne
    · rw [hb]
      exact ⟨rfl, hnew⟩

/-- C3 (witness). The theorem `hash_consing_invariant` at the graph made by one Product
of two literals over four variables. -/
theorem hash_consing_invariant_witness :
    build stdRuntime (build stdRuntime (Pog.init 4 {1, 2, 3, 4} ∅) POG_PRODUCT [1, 2]).1
      POG_PRODUCT [2, 1] =
    ((build stdRuntime (Pog.init 4 {1, 2, 3, 4} ∅) POG_PRODUCT [1, 2]).1, 5) :=
  (hash_consing_invariant stdRuntime stdRuntime_sort_ok
    (build stdRuntime (Pog.init 4 {1, 2, 3, 4} ∅) POG_PRODUCT [1, 2]).1
    (Reachable.build _ _ _ (Reachable.init 4 {1, 2, 3, 4} ∅) (Or.inl rfl) (by decide))
    (by decide)).2.1 POG_PRODUCT [2, 1] (by decide) (by decide) 0
    ⟨POG_PRODUCT, [1, 2], true, false⟩ (by decide) rfl (by decide)

end Pog

theorem ascList_coe {α : Type} [LinearOrder α] (s : Finset α) :
    ((ascList s : List α) : Multiset α) = s.val := by
  rcases s with ⟨v, hv⟩
  induction v using Quotient.inductionOn with
  | _ l => exact Quotient.sound (List.perm_insertionSort _ l)

theorem ascList_sorted_le {α : Type} [LinearOrder α] (s : Finset α) :
    (ascList s).Sorted (· ≤ ·) := by
  rcases s with ⟨v, hv⟩
  induction v using Quotient.inductionOn with
  | _ l => exact List.sorted_insertionSort _ l

theorem ascList_eq_sort {α : Type} [LinearOrder α] (s : Finset α) :
    ascList s = s.sort (· ≤ ·) := by
  apply List.eq_of_perm_of_sorted (r := (· ≤ ·))
  · exact Multiset.coe_eq_coe.1 ((ascList_coe s).trans (Finset.sort_eq _ s).symm)
  · exact ascList_sorted_le s
  · exact Finset.sort_sorted _ s

@[simp] theorem mem_ascList {α : Type} [LinearOrder α] (s : Finset α) (a : α) :
    a ∈ ascList s ↔ a ∈ s := by
  rw [ascList_eq_sort]; exact Finset.mem_sort _

theorem ascList_sorted {α : Type} [LinearOrder α] (s : Finset α) :
    (ascList s).Pairwise (· < ·) := by
  rw [ascList_eq_sort]; exact Finset.sort_sorted_lt s

theorem ascList_nodup {α : Type} [LinearOrder α] (s : Finset α) : (ascList s).Nodup := by
  rw [ascList_eq_sort]; exact Finset.sort_nodup _ s

theorem ascList_length {α : Type} [LinearOrder α] (s : Finset α) :
    (ascList s).length = s.card := by
  rw [ascList_eq_sort]; exact Finset.length_sort _

@[simp] theorem ascList_empty {α : Type} [LinearOrder α] : ascList (∅ : Finset α) = [] := by
  rw [ascList_eq_sort]; exact Finset.sort_empty _

/-! ### Walks of unordered sets -/

/-- A walk visits exactly the elements of the set. -/
theorem Walk.ok.mem {w : Walk} (hw : w.ok) (key : List Nat) (s : Finset Int) (a : Int) :
    a ∈ w.order key s ↔ a ∈ s :=
  ((hw key s).mem_iff).trans (mem_ascList s a)

/-- A walk visits no element twice. -/
theorem Walk.ok.nodup {w : Walk} (hw : w.ok) (key : List Nat) (s : Finset Int) :
    (w.order key s).Nodup :=
  (hw key s).nodup_iff.2 (ascList_nodup s)

/-- A walk makes as many visits as the set has elements. -/
theorem Walk.ok.length {w : Walk} (hw : w.ok) (key : List Nat) (s : Finset Int) :
    (w.order key s).length = s.card :=
  (hw key s).length_eq.trans (ascList_length s)

/-- The walk of the empty set. -/
theorem Walk.ok.empty {w : Walk} (hw : w.ok) (key : List Nat) : w.order key ∅ = [] :=
  List.length_eq_zero.1 (by rw [hw.length]; rfl)

/-- The walk of a set with one element. -/
theorem Walk.ok.singleton {w : Walk} (hw : w.ok) (key : List Nat) (a : Int) :
    w.order key {a} = [a] := by
  have h := hw key {a}
  have e : ascList ({a} : Finset Int) = [a] := by
    rw [ascList_eq_sort]; exact Finset.sort_singleton _ a
  rw [e] at h
  exact List.perm_singleton.1 h

/-- A part of a walk is a walk. -/
theorem Walk.ok.sub {w : Walk} (hw : w.ok) (k : Nat) : (w.sub k).ok :=
  fun key s => hw (k :: key) s

/-- The set of the elements that a walk visits. -/
theorem Walk.ok.toFinset {w : Walk} (hw : w.ok) (key : List Nat) (s : Finset Int) :
    (w.order key s).toFinset = s := by
  ext x
  rw [List.mem_toFinset, hw.mem]

theorem stdWalk_ok : stdWalk.ok := fun _ _ => List.Perm.refl _

theorem revWalk_ok : revWalk.ok := fun _ s => List.reverse_perm (ascList s)

namespace Pog

theorem Reach.lift {p : Pog} {e c x : Int} (hn : p.is_node e = true)
    (hc : c ∈ p.get_arguments e) (h : Reach p c x) : Reach p e x := by
  induction h with
  | root => exact Reach.child e c Reach.root hn hc
  | child e' c' _ hn' hc' ih => exact Reach.child e' c' ih hn' hc'

@[simp] theorem is_node_IABS (p : Pog) (e : Int) : p.is_node (IABS e) = p.is_node e := by
  simp [is_node, get_var]

@[simp] theorem node_index_IABS (p : Pog) (e : Int) : p.node_index (IABS e) = p.node_index e := by
  simp [node_index, get_var]

@[simp] theorem get_arguments_IABS (p : Pog) (e : Int) :
    p.get_arguments (IABS e) = p.get_arguments e := by
  simp [get_arguments]

@[simp] theorem is_sum_IABS (p : Pog) (e : Int) : p.is_sum (IABS e) = p.is_sum e := by
  simp [is_sum, get_type]

theorem visited_ok_mono {p : Pog} {e : Int} {S S' : Finset Int} {x : Int} (hS : S ⊆ S')
    (h : p.visited_ok e S x) : p.visited_ok e S' x :=
  ⟨h.1, h.2.1, fun c hc => ⟨(h.2.2 c hc).1, fun hn => hS ((h.2.2 c hc).2 hn)⟩⟩

theorem visited_ok_lift {p : Pog} {e c : Int} {S : Finset Int} {x : Int}
    (hn : p.is_node e = true) (hc : c ∈ p.get_arguments e)
    (h : p.visited_ok c S x) : p.visited_ok e S x :=
  ⟨h.1, h.2.1, fun d hd => ⟨Reach.lift hn hc (h.2.2 d hd).1, (h.2.2 d hd).2⟩⟩

/-- The arguments of a node of a well-formed graph, with the index of the node. -/
theorem WF.children_of_node {rt : Runtime} {p : Pog} (hwf : p.WF rt) {e : Int}
    (he : IABS e ≤ (p.nvar : Int) + p.nodes.length ∨ IABS e = TAUTOLOGY)
    (hn : p.is_node e = true) :
    ∃ i : Nat, i < p.nodes.length ∧ IABS e = (i : Int) + p.nvar + 1 ∧
      (p.get_type e = POG_PRODUCT ∨ p.get_type e = POG_SUM) ∧
      2 ≤ (p.get_arguments e).length ∧
      ∀ c ∈ p.get_arguments e, 1 ≤ IABS c ∧ IABS c ≤ (p.nvar : Int) + i := by
  obtain ⟨i, n, hget, hidx, hie, hat⟩ := hwf.node_of_edge he hn
  have hil : i < p.nodes.length := by
    rw [List.get?_eq_getElem?] at hget
    exact (List.getElem?_eq_some_iff.1 hget).1
  have hok := hwf.nodes_ok i n hget
  have hneg : ¬ (p.node_index e < 0) := by omega
  refine ⟨i, hil, hie, ?_, ?_, ?_⟩
  · unfold get_type; simp only [hneg, if_false, hat]; exact hok.type_ok
  · unfold get_arguments; simp only [hneg, if_false, hat]; exact hok.degree_ok
  · unfold get_arguments; simp only [hneg, if_false, hat]; exact hok.children

theorem visit_fold_spec {p : Pog} (fuel : Nat)
    (ih : ∀ (e : Int) (S : Finset Int),
      (IABS e ≤ (p.nvar : Int) + p.nodes.length ∨ IABS e = TAUTOLOGY) →
      (p.is_node e = true → IABS e ≤ (p.nvar : Int) + fuel) →
      S ⊆ p.visit fuel e S ∧ (p.is_node e = true → IABS e ∈ p.visit fuel e S) ∧
      ∀ x ∈ p.visit fuel e S, x ∉ S → p.visited_ok e (p.visit fuel e S) x) :
    ∀ (cs : List Int) (S0 : Finset Int),
      (∀ c ∈ cs, (IABS c ≤ (p.nvar : Int) + p.nodes.length ∨ IABS c = TAUTOLOGY) ∧
        (p.is_node c = true → IABS c ≤ (p.nvar : Int) + fuel)) →
      S0 ⊆ cs.foldl (fun vis c => p.visit fuel c vis) S0 ∧
      (∀ c ∈ cs, p.is_node c = true → IABS c ∈ cs.foldl (fun vis c => p.visit fuel c vis) S0) ∧
      ∀ x ∈ cs.foldl (fun vis c => p.visit fuel c vis) S0, x ∉ S0 →
        ∃ c ∈ cs, p.visited_ok c (cs.foldl (fun vis c => p.visit fuel c vis) S0) x := by
  intro cs
  induction cs with
  | nil => intro S0 _; simp
  | cons c rest ihr =>
    intro S0 hcs
    simp only [List.foldl_cons]
    obtain ⟨a1, a2, a3⟩ := ih c S0 (hcs c (List.mem_cons_self _ _)).1 (hcs c (List.mem_cons_self _ _)).2
    obtain ⟨b1, b2, b3⟩ := ihr (p.visit fuel c S0) (fun d hd => hcs d (List.mem_cons_of_mem _ hd))
    refine ⟨a1.trans b1, ?_, ?_⟩
    · intro d hd hn
      rcases List.mem_cons.1 hd with h | h
      · rw [h]; exact b1 (a2 (h ▸ hn))
      · exact b2 d h hn
    · intro x hx hx0
      by_cases hx1 : x ∈ p.visit fuel c S0
      · exact ⟨c, List.mem_cons_self _ _, visited_ok_mono b1 (a3 x hx1 hx0)⟩
      · obtain ⟨d, hd, hok⟩ := b3 x hx hx1
        exact ⟨d, List.mem_cons_of_mem _ hd, hok⟩

theorem visit_not_node (p : Pog) (fuel : Nat) (e : Int) (S : Finset Int)
    (h : p.is_node e = false) : p.visit fuel e S = S := by
  cases fuel with
  | zero => rfl
  | succ f => unfold visit; simp [h]

theorem visit_succ_mem (p : Pog) (fuel : Nat) (e : Int) (S : Finset Int)
    (h : IABS e ∈ S) : p.visit (fuel + 1) e S = S := by
  unfold visit
  split
  · rfl
  · simp [get_var, h]

theorem visit_succ_new (p : Pog) (fuel : Nat) (e : Int) (S : Finset Int)
    (hn : p.is_node e = true) (h : IABS e ∉ S) :
    p.visit (fuel + 1) e S =
      (p.get_arguments e).foldl (fun vis c => p.visit fuel c vis) (insert (IABS e) S) := by
  rw [visit]
  simp [get_var, h, hn]

/-- The method `visit` on a well-formed graph, given enough depth: the set grows, holds
the node of the edge, and every node added has its node arguments in the set. -/
theorem visit_spec {rt : Runtime} {p : Pog} (hwf : p.WF rt) :
    ∀ (fuel : Nat) (e : Int) (S : Finset Int),
      (IABS e ≤ (p.nvar : Int) + p.nodes.length ∨ IABS e = TAUTOLOGY) →
      (p.is_node e = true → IABS e ≤ (p.nvar : Int) + fuel) →
      S ⊆ p.visit fuel e S ∧ (p.is_node e = true → IABS e ∈ p.visit fuel e S) ∧
      ∀ x ∈ p.visit fuel e S, x ∉ S → p.visited_ok e (p.visit fuel e S) x := by
  intro fuel
  induction fuel with
  | zero =>
    intro e S _ hf
    refine ⟨by simp [visit], ?_, ?_⟩
    · intro hn
      have := hf hn
      rw [is_node_iff] at hn
      omega
    · intro x hx hx0; simp [visit] at hx; exact absurd hx hx0
  | succ fuel ih =>
    intro e S he hf
    by_cases hn : p.is_node e = true
    · by_cases hm : IABS e ∈ S
      · rw [visit_succ_mem p fuel e S hm]
        exact ⟨Finset.Subset.refl _, fun _ => hm, fun x hx hx0 => absurd hx hx0⟩
      · rw [visit_succ_new p fuel e S hn hm]
        obtain ⟨i, hil, hie, _, _, hch⟩ := hwf.children_of_node he hn
        have hf' := hf hn
        obtain ⟨b1, b2, b3⟩ := visit_fold_spec fuel ih (p.get_arguments e) (insert (IABS e) S)
          (fun c hc => ⟨Or.inl (by have := hch c hc; omega), fun _ => by have := hch c hc; omega⟩)
        refine ⟨(Finset.subset_insert _ _).trans b1, fun _ => b1 (Finset.mem_insert_self _ _), ?_⟩
        intro x hx hx0
        by_cases hxe : x = IABS e
        · subst hxe
          refine ⟨by simpa using hn, ⟨by simp, by omega⟩, ?_⟩
          intro c hc
          rw [get_arguments_IABS] at hc
          exact ⟨Reach.child e c Reach.root hn hc, fun hcn => b2 c hc hcn⟩
        · have hx1 : x ∉ insert (IABS e) S := by
            simp [hxe, hx0]
          obtain ⟨c, hc, hok⟩ := b3 x hx hx1
          exact visited_ok_lift hn hc hok
    · have hn' : p.is_node e = false := by simpa using hn
      rw [visit_not_node p _ e S hn']
      exact ⟨Finset.Subset.refl _, fun h => absurd h hn, fun x hx hx0 => absurd hx hx0⟩

end Pog

namespace Pog

theorem val_const (p : Pog) (w : Int → Option ℚ) (k : Nat) :
    p.val w (k + 1) TAUTOLOGY = 1 ∧ p.val w (k + 1) CONFLICT = 0 := by
  constructor
  · simp [val]
  · simp [val, TAUTOLOGY_ne_CONFLICT.symm]

theorem ne_const_of_IABS {e : Int} (h : IABS e ≠ TAUTOLOGY) : e ≠ TAUTOLOGY ∧ e ≠ CONFLICT := by
  constructor
  · intro h1; rw [h1] at h; exact h IABS_TAUTOLOGY
  · intro h1; rw [h1] at h; exact h IABS_CONFLICT

theorem val_leaf (p : Pog) (w : Int → Option ℚ) (k : Nat) {e : Int}
    (h1 : IABS e ≠ TAUTOLOGY) (h2 : p.is_node e = false) :
    p.val w (k + 1) e = (w e).getD 0 := by
  have := ne_const_of_IABS h1
  simp [val, this.1, this.2, h2]

theorem val_node (p : Pog) (w : Int → Option ℚ) (k : Nat) {e : Int}
    (h2 : p.is_node e = true) :
    p.val w (k + 1) e =
      if e > 0 then
        (if p.is_sum e then ((p.get_arguments e).map (p.val w k)).sum
         else ((p.get_arguments e).map (p.val w k)).prod)
      else 1 - (if p.is_sum e then ((p.get_arguments e).map (p.val w k)).sum
         else ((p.get_arguments e).map (p.val w k)).prod) := by
  have h1 := ((is_node_iff p e).1 h2).2
  have := ne_const_of_IABS h1
  simp [val, this.1, this.2, h2]

/-- The value of an edge of a well-formed graph does not depend on the depth bound, once
the bound exceeds the index of the node. -/
theorem WF.val_stable {rt : Runtime} {p : Pog} (hwf : p.WF rt) (w : Int → Option ℚ) :
    ∀ (k k' : Nat) (e : Int),
      (IABS e ≤ (p.nvar : Int) + p.nodes.length ∨ IABS e = TAUTOLOGY) →
      1 ≤ k → 1 ≤ k' →
      (p.is_node e = true → IABS e + 1 ≤ (p.nvar : Int) + k ∧ IABS e + 1 ≤ (p.nvar : Int) + k') →
      p.val w k e = p.val w k' e := by
  intro k
  induction k with
  | zero => intro k' e _ h; omega
  | succ k ih =>
    intro k' e he _ hk' hn
    obtain ⟨j, rfl⟩ : ∃ j, k' = j + 1 := ⟨k' - 1, by omega⟩
    by_cases hnode : p.is_node e = true
    · rw [val_node p w k hnode, val_node p w j hnode]
      obtain ⟨i, hil, hie, _, _, hch⟩ := hwf.children_of_node he hnode
      have hb := hn hnode
      have : (p.get_arguments e).map (p.val w k) = (p.get_arguments e).map (p.val w j) := by
        apply List.map_congr_left
        intro c hc
        have hc' := hch c hc
        apply ih j c (Or.inl (by omega)) (by omega) (by omega)
        intro _
        constructor <;> omega
      rw [this]
    · have hnode' : p.is_node e = false := by simpa using hnode
      by_cases hT : IABS e = TAUTOLOGY
      · rcases IABS_eq_iff (hT.trans IABS_TAUTOLOGY.symm) with h | h
        · rw [h, (val_const p w k).1, (val_const p w j).1]
        · have : e = CONFLICT := h
          rw [this, (val_const p w k).2, (val_const p w j).2]
      · rw [val_leaf p w k hT hnode', val_leaf p w j hT hnode']

/-- The value of the negation of a node. -/
theorem val_neg_node (p : Pog) (w : Int → Option ℚ) (k : Nat) {x : Int}
    (hx : p.is_node x = true) (hpos : 0 < x) :
    p.val w (k + 1) (-x) = 1 - p.val w (k + 1) x := by
  rw [val_node p w k (by simpa using hx), val_node p w k hx]
  have h1 : ¬ (-x > 0) := by omega
  simp [h1, hpos]

theorem eval_args_eq (sum : Bool) (ew : Int → Option ℚ) (f : Int → ℚ) :
    ∀ (cs : List Int) (v : ℚ), (∀ c ∈ cs, ew c = some (f c)) →
    eval_args sum ew cs v =
      some (if sum then v + (cs.map f).sum else v * (cs.map f).prod) := by
  intro cs
  induction cs with
  | nil => intro v _; cases sum <;> simp [eval_args]
  | cons c rest ih =>
    intro v h
    rw [eval_args, h c (List.mem_cons_self _ _)]
    simp only []
    rw [ih _ (fun d hd => h d (List.mem_cons_of_mem _ hd))]
    cases sum
    · simp [mul_assoc]
    · simp [add_assoc]

end Pog

namespace Pog

theorem IABS_cases (c : Int) : c = IABS c ∨ c = -IABS c := by
  unfold IABS; split <;> omega

/-- The value that the loop of `ring_evaluate` finds for an argument `c` of a node whose
node arguments have been evaluated. -/
theorem eval_inv_child {rt : Runtime} {p : Pog} (hwf : p.WF rt) (w : Int → Option ℚ) (k : Nat)
    {done : List Int} {ew : Int → Option ℚ} (hinv : p.eval_inv w (k + 1) done ew) {c : Int}
    (hc1 : 1 ≤ IABS c) (hc2 : IABS c ≤ (p.nvar : Int) + p.nodes.length)
    (hnode : p.is_node c = true → IABS c ∈ done)
    (hleaf : p.is_node c = false → (w c).isSome) :
    ew c = some (p.val w (k + 1) c) := by
  have hr := hwf.range
  have hlt := MAX_VARIABLE_lt
  by_cases hn : p.is_node c = true
  · obtain ⟨h1, h2⟩ := hinv.1 (IABS c) (hnode hn)
    rcases IABS_cases c with h | h
    · rw [← h] at h1; exact h1
    · have hv := val_neg_node p w k (x := IABS c) (by simpa using hn) (by omega)
      rw [← h] at h2 hv
      rw [h2, hv]
  · have hn' : p.is_node c = false := by simpa using hn
    rw [hinv.2 c hn', val_leaf p w k (by omega) hn']
    have := hleaf hn'
    cases hw : w c with
    | none => rw [hw] at this; simp at this
    | some v => simp

/-- The outer loop of `ring_evaluate` over the visited node ids in ascending order. -/
theorem eval_loop {rt : Runtime} {p : Pog} (hwf : p.WF rt) (w : Int → Option ℚ) (root : Int)
    (k : Nat) (hk : p.nodes.length ≤ k)
    (hw : ∀ l, Reach p root l → p.is_node l = false → IABS l ≠ TAUTOLOGY → (w l).isSome)
    (S : Finset Int) (hS : ∀ x ∈ S, p.visited_ok root S x) :
    ∀ (suf pre : List Int), (pre ++ suf).Pairwise (· < ·) → (∀ x, x ∈ pre ++ suf ↔ x ∈ S) →
    ∀ ew, p.eval_inv w (k + 1) pre ew →
    ∃ ew', suf.foldl p.eval_step (some ew) = some ew' ∧ p.eval_inv w (k + 1) (pre ++ suf) ew' := by
  intro suf
  induction suf with
  | nil => intro pre _ _ ew h; exact ⟨ew, rfl, by simpa using h⟩
  | cons x rest ih =>
    intro pre hsorted hmem ew hinv
    have hr := hwf.range
    have hlt := MAX_VARIABLE_lt
    have hxS : x ∈ S := (hmem x).1 (by simp)
    obtain ⟨hxn, ⟨hxa, hxb⟩, hxc⟩ := hS x hxS
    obtain ⟨i, hil, hie, _, _, hch⟩ := hwf.children_of_node (e := x) (Or.inl (by omega)) hxn
    rw [hxa] at hie
    have hxpos : 0 < x := by omega
    -- every argument has its value in the map
    have hargs : ∀ c ∈ p.get_arguments x, ew c = some (p.val w (k + 1) c) := by
      intro c hc
      have hc' := hch c hc
      apply eval_inv_child hwf w k hinv hc'.1 (by omega)
      · intro hcn
        have hcS := (hxc c hc).2 hcn
        have hcm := (hmem (IABS c)).2 hcS
        rcases List.mem_append.1 hcm with h | h
        · exact h
        · exfalso
          rcases List.mem_cons.1 h with h | h
          · omega
          · have h2 := (List.pairwise_append.1 hsorted).2.1
            have := (List.pairwise_cons.1 h2).1 (IABS c) h
            omega
      · intro hcn
        exact hw c (hxc c hc).1 hcn (by omega)
    have hval : p.val w (k + 1) x =
        if p.is_sum x then ((p.get_arguments x).map (p.val w (k + 1))).sum
        else ((p.get_arguments x).map (p.val w (k + 1))).prod := by
      rw [val_node p w k hxn]
      have : (p.get_arguments x).map (p.val w k) = (p.get_arguments x).map (p.val w (k + 1)) := by
        apply List.map_congr_left
        intro c hc
        have hc' := hch c hc
        apply hwf.val_stable w k (k + 1) c (Or.inl (by omega)) (by omega) (by omega)
        intro _
        constructor <;> omega
      rw [this]
      simp [hxpos]
    have hstep : p.eval_step (some ew) x =
        some (Function.update (Function.update ew x (some (p.val w (k + 1) x))) (-x)
          (some (1 - p.val w (k + 1) x))) := by
      unfold eval_step
      simp only [get_var, hxa]
      rw [eval_args_eq (p.is_sum x) ew (p.val w (k + 1)) _ _ hargs, hval]
      cases p.is_sum x <;> simp
    simp only [List.foldl_cons, hstep]
    have hxpre : x ∉ pre := by
      intro h
      have := (List.pairwise_append.1 hsorted).2.2 x h x (by simp)
      omega
    have hinv' : p.eval_inv w (k + 1) (pre ++ [x])
        (Function.update (Function.update ew x (some (p.val w (k + 1) x))) (-x)
          (some (1 - p.val w (k + 1) x))) := by
      constructor
      · intro y hy
        rcases List.mem_append.1 hy with hy | hy
        · have hyS : y ∈ S := (hmem y).1 (by simp [hy])
          obtain ⟨hyn, ⟨hya, _⟩, _⟩ := hS y hyS
          have hypos : 0 ≤ y := by rw [← hya]; exact IABS_nonneg y
          have hyx : y ≠ x := fun h => hxpre (h ▸ hy)
          have e1 : y ≠ -x := by omega
          have e2 : -y ≠ -x := by omega
          have e3 : -y ≠ x := by omega
          simp only [Function.update, e1, e2, e3, hyx, dite_false, eq_rec_constant]
          exact hinv.1 y hy
        · simp at hy
          subst hy
          have e1 : y ≠ -y := by omega
          simp [Function.update, e1]
      · intro e he
        have e1 : e ≠ -x := by
          intro h; rw [h] at he; simp [hxn] at he
        have e2 : e ≠ x := by
          intro h; rw [h] at he; simp [hxn] at he
        simp only [Function.update, e1, e2, dite_false]
        exact hinv.2 e he
    obtain ⟨ew', h1, h2⟩ := ih (pre ++ [x]) (by simpa using hsorted)
      (by intro y; rw [← hmem y]; simp) _ hinv'
    exact ⟨ew', h1, by simpa using h2⟩

end Pog

namespace Pog

/-- The set of node ids that `ring_evaluate` evaluates. -/
theorem visited_all_ok {rt : Runtime} {p : Pog} (hwf : p.WF rt) {root : Int} (hroot : p.edge_ok root) :
    (p.is_node root = true → IABS root ∈ p.visit p.visit_fuel root ∅) ∧
    ∀ x ∈ p.visit p.visit_fuel root ∅, p.visited_ok root (p.visit p.visit_fuel root ∅) x := by
  have hb := edge_ok_bound hroot
  obtain ⟨_, h2, h3⟩ := visit_spec hwf p.visit_fuel root ∅ hb (by
    intro hn
    rw [is_node_iff] at hn
    unfold visit_fuel
    rcases hb with h | h
    · push_cast; omega
    · exact absurd h hn.2)
  exact ⟨h2, fun x hx => h3 x hx (by simp)⟩

/-- C2. For every root edge of a well-formed graph and every weight map that gives a
weight to each leaf literal reachable from the root, `ring_evaluate` returns `val(root)`,
where `val(TAUTOLOGY) = 1`, `val(CONFLICT) = 0`, `val(l) = weights[l]` for a variable
literal, `val(n)` is the product (Product node) or the sum (Sum node) of `val` over the
arguments of node `n`, and `val(-n) = 1 - val(n)` for a node `n`. The depth bound of
`val` is any number above the number of nodes. -/
theorem ring_evaluate_eq_val (rt : Runtime) (p : Pog) (hwf : p.WF rt) (root : Int)
    (hroot : p.edge_ok root) (w : Int → Option ℚ)
    (hw : ∀ l, Reach p root l → p.is_node l = false → IABS l ≠ TAUTOLOGY → (w l).isSome)
    (k : Nat) (hk : p.nodes.length < k) :
    p.ring_evaluate root w = p.val w k root := by
  obtain ⟨j, rfl⟩ : ∃ j, k = j + 1 := ⟨k - 1, by omega⟩
  have hr := hwf.range
  have hlt := MAX_VARIABLE_lt
  obtain ⟨hv1, hv2⟩ := visited_all_ok hwf hroot
  obtain ⟨ew, hfold, hinv⟩ := eval_loop hwf w root j (by omega) hw _ hv2
    (ascList (p.visit p.visit_fuel root ∅)) [] (by simpa using ascList_sorted _)
    (by intro x; simp) w ⟨by simp, fun _ _ => rfl⟩
  unfold ring_evaluate
  simp only [hfold]
  by_cases hT : root = TAUTOLOGY
  · simp [hT, (val_const p w j).1]
  · by_cases hC : root = CONFLICT
    · simp [hC, (val_const p w j).2, TAUTOLOGY_ne_CONFLICT.symm]
    · simp only [hT, hC, if_false]
      have hne : IABS root ≠ TAUTOLOGY := by
        intro h
        rcases IABS_eq_iff (h.trans IABS_TAUTOLOGY.symm) with h | h
        · exact hT h
        · exact hC h
      have hb : 1 ≤ IABS root ∧ IABS root ≤ (p.nvar : Int) + p.nodes.length := by
        rcases hroot with h | h
        · exact h
        · exact absurd h hne
      have := eval_inv_child hwf w j hinv hb.1 hb.2
        (fun hn => by simpa using hv1 hn)
        (fun hn => hw root Reach.root hn hne)
      rw [this]

/-- C2 (witness). The theorem `ring_evaluate_eq_val` at the graph made by one Product of
two literals, with weight one half for every literal. -/
theorem ring_evaluate_eq_val_witness :
    (build stdRuntime (Pog.init 4 {1, 2, 3, 4} ∅) POG_PRODUCT [1, -2]).1.ring_evaluate 5
      (fun _ => some (1 / 2)) =
    (build stdRuntime (Pog.init 4 {1, 2, 3, 4} ∅) POG_PRODUCT [1, -2]).1.val
      (fun _ => some (1 / 2)) 2 5 :=
  ring_evaluate_eq_val stdRuntime _
    (Reachable.wf stdRuntime_sort_ok
      (Reachable.build _ _ _ (Reachable.init 4 {1, 2, 3, 4} ∅) (Or.inl rfl) (by decide))
      (by decide))
    5 (by decide) (fun _ => some (1 / 2)) (fun _ _ _ _ => rfl) 2 (by decide)

end Pog

namespace Pog

theorem Extends.refl (p : Pog) : p.Extends p := ⟨rfl, rfl, rfl, [], by simp⟩

theorem Extends.trans {p q r : Pog} (h1 : p.Extends q) (h2 : q.Extends r) : p.Extends r := by
  obtain ⟨a1, a2, a3, l1, a4⟩ := h1
  obtain ⟨b1, b2, b3, l2, b4⟩ := h2
  exact ⟨b1.trans a1, b2.trans a2, b3.trans a3, l1 ++ l2, by rw [b4, a4, List.append_assoc]⟩

theorem Extends.push_commit (rt : Runtime) (p : Pog) (m : Node) : p.Extends (p.commit rt m) :=
  ⟨rfl, rfl, rfl, [m], rfl⟩

theorem Extends.length_le {p q : Pog} (h : p.Extends q) : p.nodes.length ≤ q.nodes.length := by
  obtain ⟨_, _, _, l, h4⟩ := h
  rw [h4]; simp

theorem Extends.is_node {p q : Pog} (h : p.Extends q) (e : Int) : q.is_node e = p.is_node e :=
  is_node_congr h.1 e

theorem Extends.node_index {p q : Pog} (h : p.Extends q) (e : Int) :
    q.node_index e = p.node_index e :=
  node_index_congr h.1 e

theorem Extends.nodeAt {p q : Pog} (h : p.Extends q) {idx : Int} (h0 : 0 ≤ idx)
    (h1 : idx < p.nodes.length) : q.nodeAt idx = p.nodeAt idx := by
  obtain ⟨_, _, _, l, h4⟩ := h
  unfold Pog.nodeAt
  rw [h4, List.getD_eq_getElem?_getD, List.getD_eq_getElem?_getD, List.getElem?_append_left]
  omega

theorem Extends.get_arguments {p q : Pog} (h : p.Extends q) {e : Int}
    (he : IABS e ≤ (p.nvar : Int) + p.nodes.length ∨ IABS e = TAUTOLOGY) :
    q.get_arguments e = p.get_arguments e := by
  unfold Pog.get_arguments
  rw [h.node_index]
  cases hn : p.is_node e
  · simp [(node_index_lt_iff p e).2 hn]
  · have h0 := node_index_nonneg hn
    simp [not_lt.2 h0, h.nodeAt h0 (node_index_lt_length he)]

theorem Extends.get_type {p q : Pog} (h : p.Extends q) {e : Int}
    (he : IABS e ≤ (p.nvar : Int) + p.nodes.length ∨ IABS e = TAUTOLOGY) :
    q.get_type e = p.get_type e := by
  unfold Pog.get_type
  rw [h.node_index]
  cases hn : p.is_node e
  · simp [(node_index_lt_iff p e).2 hn]
  · have h0 := node_index_nonneg hn
    simp [not_lt.2 h0, h.nodeAt h0 (node_index_lt_length he)]

theorem Extends.is_sum {p q : Pog} (h : p.Extends q) {e : Int}
    (he : IABS e ≤ (p.nvar : Int) + p.nodes.length ∨ IABS e = TAUTOLOGY) :
    q.is_sum e = p.is_sum e := by
  unfold Pog.is_sum; rw [h.get_type he]

theorem Extends.only_data {p q : Pog} (h : p.Extends q) {e : Int}
    (he : IABS e ≤ (p.nvar : Int) + p.nodes.length ∨ IABS e = TAUTOLOGY) :
    q.only_data_variables e = p.only_data_variables e := by
  unfold Pog.only_data_variables
  rw [h.is_node, h.node_index, h.2.1]
  cases hn : p.is_node e
  · simp
  · simp [h.nodeAt (node_index_nonneg hn) (node_index_lt_length he)]

theorem Extends.edge_ok {p q : Pog} (h : p.Extends q) {e : Int} (he : p.edge_ok e) :
    q.edge_ok e := by
  have := h.length_le
  rcases he with he | he
  · left; rw [h.1]; omega
  · right; exact he

/-- The value of an edge of a well-formed graph is the same in every extension. -/
theorem Extends.val {rt : Runtime} {p q : Pog} (h : p.Extends q) (hwf : p.WF rt)
    (w : Int → Option ℚ) : ∀ (k : Nat) (e : Int),
    (IABS e ≤ (p.nvar : Int) + p.nodes.length ∨ IABS e = TAUTOLOGY) →
    q.val w k e = p.val w k e := by
  intro k
  induction k with
  | zero => intro e _; rfl
  | succ k ih =>
    intro e he
    unfold Pog.val
    rw [h.is_node, h.get_arguments he, h.is_sum he]
    by_cases hn : p.is_node e = true
    · obtain ⟨i, hil, hie, _, _, hch⟩ := hwf.children_of_node he hn
      have : (p.get_arguments e).map (q.val w k) = (p.get_arguments e).map (p.val w k) := by
        apply List.map_congr_left
        intro c hc
        have := hch c hc
        exact ih c (Or.inl (by omega))
      rw [this]
    · have hn' : p.is_node e = false := by simpa using hn
      simp [hn']

/-- The Boolean function of an edge of a well-formed graph is the same in every
extension. -/
theorem Extends.beval {rt : Runtime} {p q : Pog} (h : p.Extends q) (hwf : p.WF rt)
    (τ : Int → Bool) : ∀ (k : Nat) (e : Int),
    (IABS e ≤ (p.nvar : Int) + p.nodes.length ∨ IABS e = TAUTOLOGY) →
    q.beval τ k e = p.beval τ k e := by
  intro k
  induction k with
  | zero => intro e _; rfl
  | succ k ih =>
    intro e he
    unfold Pog.beval
    rw [h.is_node, h.get_arguments he, h.is_sum he]
    by_cases hn : p.is_node e = true
    · obtain ⟨i, hil, hie, _, _, hch⟩ := hwf.children_of_node he hn
      have : (p.get_arguments e).map (q.beval τ k) = (p.get_arguments e).map (p.beval τ k) := by
        apply List.map_congr_left
        intro c hc
        have := hch c hc
        exact ih c (Or.inl (by omega))
      rw [this]
    · have hn' : p.is_node e = false := by simpa using hn
      simp [hn']

/-- A use of the builder extends the graph. -/
theorem build_extends (rt : Runtime) (hs : rt.sort_ok) {p : Pog} (hwf : p.WF rt)
    (t : pog_type_t) (ht : t = POG_PRODUCT ∨ t = POG_SUM) (args : List Int)
    (hok : ∀ a ∈ args, p.edge_ok a)
    (hr : (p.nvar : Int) + p.nodes.length + 1 < MAX_VARIABLE) :
    p.Extends (build rt p t args).1 := by
  rcases (build_spec rt hs hwf t ht args hok hr).2.2 with h | ⟨m, h, _⟩
  · rw [h]; exact Extends.refl p
  · rw [h]; exact Extends.push_commit rt p m

end Pog

namespace Pog

/-- The edge of a stored node gives access to its type and arguments. -/
theorem node_lookup (q : Pog) {i : Nat} {n : Node} (hn : q.nodes.get? i = some n)
    (hr : (q.nvar : Int) + q.nodes.length < MAX_VARIABLE) :
    q.is_node ((i : Int) + q.nvar + 1) = true ∧ q.get_type ((i : Int) + q.nvar + 1) = n.type ∧
    q.get_arguments ((i : Int) + q.nvar + 1) = n.args := by
  have hil : i < q.nodes.length := by
    rw [List.get?_eq_getElem?] at hn
    exact (List.getElem?_eq_some_iff.1 hn).1
  obtain ⟨h1, h2⟩ := node_index_id q i (by omega)
  have hneg : ¬ ((i : Int) < 0) := by omega
  refine ⟨h1, ?_, ?_⟩
  · unfold get_type; rw [h2]; simp only [hneg, if_false]; rw [nodeAt_of_some hn]
  · unfold get_arguments; rw [h2]; simp only [hneg, if_false]; rw [nodeAt_of_some hn]

/-- A use of the builder that neither meets the absorbing constant nor, for a Sum, a
complementary pair, and that contributes at least two arguments, returns a positive edge
to a node of the given type whose arguments are the contributed ones, up to order. -/
theorem build_node (rt : Runtime) (hs : rt.sort_ok) {p : Pog} (hwf : p.WF rt)
    (t : pog_type_t) (ht : t = POG_PRODUCT ∨ t = POG_SUM) (args : List Int)
    (hok : ∀ a ∈ args, p.edge_ok a)
    (hr : (p.nvar : Int) + p.nodes.length + 1 < MAX_VARIABLE)
    (hA : absorbing t ∉ p.expand t args)
    (hC : t = POG_SUM → ∀ a ∈ p.expand t args, ∀ b ∈ p.expand t args, a ≠ -b)
    (h2 : 2 ≤ (p.expand t args).length) :
    (build rt p t args).1.WF rt ∧ p.Extends (build rt p t args).1 ∧
    (build rt p t args).1.is_node (build rt p t args).2 = true ∧
    0 < (build rt p t args).2 ∧
    (build rt p t args).2 ≤ ((build rt p t args).1.nvar : Int) + (build rt p t args).1.nodes.length ∧
    (build rt p t args).1.get_type (build rt p t args).2 = t ∧
    ((build rt p t args).1.get_arguments (build rt p t args).2).Perm (p.expand t args) := by
  obtain ⟨hwf', _, _⟩ := build_spec rt hs hwf t ht args hok hr
  have hext := build_extends rt hs hwf t ht args hok hr
  obtain ⟨r1, _, _⟩ := proto_of_regular p t args ht hA hC
  refine ⟨hwf', hext, ?_⟩
  rcases build_cases rt hwf t args hok with ⟨h0, _⟩ | ⟨h1, _⟩ | ⟨_, i, n, hn, hnt, hna, hb⟩ |
    ⟨_, _, hb⟩
  · rw [r1] at h0; omega
  · rw [r1] at h1; omega
  · rw [hb]
    simp only []
    have hil : i < p.nodes.length := by
      rw [List.get?_eq_getElem?] at hn
      exact (List.getElem?_eq_some_iff.1 hn).1
    obtain ⟨l1, l2, l3⟩ := node_lookup p hn hwf.range
    refine ⟨l1, by omega, by omega, by rw [l2, hnt], ?_⟩
    rw [l3, hna, r1]
    exact (hs _).1
  · rw [hb]
    simp only []
    have hn : (p.commit rt ⟨t, rt.sort (p.proto_of t args).args, (p.proto_of t args).data_only,
        (p.proto_of t args).projection_only⟩).nodes.get? p.nodes.length =
        some ⟨t, rt.sort (p.proto_of t args).args, (p.proto_of t args).data_only,
          (p.proto_of t args).projection_only⟩ := by
      simp [List.get?_eq_getElem?]
    obtain ⟨l1, l2, l3⟩ := node_lookup _ hn (by simp; omega)
    simp only [commit_nvar] at l1 l2 l3
    refine ⟨l1, by omega, by simp; omega, l2, ?_⟩
    rw [l3, r1]
    exact (hs _).1

end Pog

namespace Pog

theorem simple_kc_scan_clause (rt : Runtime) (rest : List Int) :
    ∀ (c : List Int) (p : Pog) (arguments acc : List Int), (0 : Int) ∉ c →
    simple_kc_scan rt (c ++ 0 :: rest) (p, arguments, acc) =
      simple_kc_scan rt rest ((build_disjunction rt p (acc ++ c)).1,
        arguments ++ [(build_disjunction rt p (acc ++ c)).2], []) := by
  intro c
  induction c with
  | nil => intro p arguments acc _; simp [simple_kc_scan]
  | cons l c ih =>
    intro p arguments acc h0
    have hl : l ≠ 0 := fun h => h0 (by simp [h])
    have e1 : simple_kc_scan rt ((l :: c) ++ 0 :: rest) (p, arguments, acc) =
        simple_kc_scan rt (c ++ 0 :: rest) (p, arguments, acc ++ [l]) := by
      simp only [List.cons_append]
      rw [simple_kc_scan]
      simp [hl]
    rw [e1, ih p arguments (acc ++ [l]) (fun h => h0 (List.mem_cons_of_mem _ h))]
    simp

theorem simple_kc_scan_stream (rt : Runtime) :
    ∀ (clauses : List (List Int)) (p : Pog) (arguments : List Int),
    (∀ c ∈ clauses, (0 : Int) ∉ c) →
    simple_kc_scan rt (stream_of clauses) (p, arguments, []) =
      ((clauses.foldl (fun st c => ((build_disjunction rt st.1 c).1,
          st.2 ++ [(build_disjunction rt st.1 c).2])) (p, arguments)).1,
       (clauses.foldl (fun st c => ((build_disjunction rt st.1 c).1,
          st.2 ++ [(build_disjunction rt st.1 c).2])) (p, arguments)).2, []) := by
  intro clauses
  induction clauses with
  | nil => intro p arguments _; simp [stream_of, simple_kc_scan]
  | cons c rest ih =>
    intro p arguments h0
    have : stream_of (c :: rest) = c ++ 0 :: stream_of rest := by
      simp [stream_of]
    rw [this, simple_kc_scan_clause rt _ c p arguments [] (h0 c (List.mem_cons_self _ _))]
    simp only [List.nil_append, List.foldl_cons]
    exact ih _ _ (fun d hd => h0 d (List.mem_cons_of_mem _ hd))

/-- The method `simple_kc` on the stream of a list of clauses without zero literals. -/
theorem simple_kc_stream (rt : Runtime) (p : Pog) (clauses : List (List Int))
    (h0 : ∀ c ∈ clauses, (0 : Int) ∉ c) :
    simple_kc rt p (stream_of clauses) =
      if (kc_clauses rt p clauses).2.length = 0 then ((kc_clauses rt p clauses).1, TAUTOLOGY)
      else if (kc_clauses rt p clauses).2.length = 1 then
        ((kc_clauses rt p clauses).1, (kc_clauses rt p clauses).2.headD 0)
      else build rt (kc_clauses rt p clauses).1 POG_PRODUCT (kc_clauses rt p clauses).2 := by
  unfold simple_kc
  rw [simple_kc_scan_stream rt clauses p [] h0]
  rfl

theorem expand_edge_plain (p : Pog) {e : Int} (h : p.plain_edge e) :
    p.expand_edge POG_PRODUCT e = [e] := by
  unfold expand_edge
  have h1 := (ne_const_of_IABS h.1).1
  simp only [neutral_product, h1, if_false]
  rcases h.2 with h2 | h2
  · simp [h2]
  · have : get_phase e = false := by simp [get_phase]; omega
    simp [this]

theorem expand_plain (p : Pog) : ∀ (args : List Int), (∀ a ∈ args, p.plain_edge a) →
    p.expand POG_PRODUCT args = args := by
  intro args
  induction args with
  | nil => intro _; rfl
  | cons a rest ih =>
    intro h
    have := ih (fun b hb => h b (List.mem_cons_of_mem _ hb))
    unfold expand at this ⊢
    simp only [List.flatMap_cons, this, expand_edge_plain p (h a (List.mem_cons_self _ _))]
    rfl

theorem plain_edge_literal (p : Pog) {l : Int} (h2 : IABS l ≤ p.nvar)
    (hr : (p.nvar : Int) < MAX_VARIABLE) : p.plain_edge l := by
  have hlt := MAX_VARIABLE_lt
  refine ⟨by omega, Or.inl ?_⟩
  by_contra hc
  have : p.is_node l = true := by simpa using hc
  rw [is_node_iff] at this
  omega

theorem Extends.plain_edge {p q : Pog} (h : p.Extends q) {e : Int} (he : p.plain_edge e) :
    q.plain_edge e :=
  ⟨he.1, by rw [h.is_node]; exact he.2⟩

end Pog

namespace Pog

theorem beval_const (p : Pog) (τ : Int → Bool) (k : Nat) :
    p.beval τ (k + 1) TAUTOLOGY = true ∧ p.beval τ (k + 1) CONFLICT = false := by
  constructor
  · simp [beval]
  · simp [beval, TAUTOLOGY_ne_CONFLICT.symm]

theorem beval_leaf (p : Pog) (τ : Int → Bool) (k : Nat) {e : Int}
    (h1 : IABS e ≠ TAUTOLOGY) (h2 : p.is_node e = false) :
    p.beval τ (k + 1) e = lit_true τ e := by
  have := ne_const_of_IABS h1
  simp [beval, this.1, this.2, h2, lit_true]

theorem beval_node (p : Pog) (τ : Int → Bool) (k : Nat) {e : Int}
    (h2 : p.is_node e = true) :
    p.beval τ (k + 1) e =
      if e > 0 then
        (if p.is_sum e then ((p.get_arguments e).map (p.beval τ k)).any id
         else ((p.get_arguments e).map (p.beval τ k)).all id)
      else !(if p.is_sum e then ((p.get_arguments e).map (p.beval τ k)).any id
         else ((p.get_arguments e).map (p.beval τ k)).all id) := by
  have h1 := ((is_node_iff p e).1 h2).2
  have := ne_const_of_IABS h1
  simp [beval, this.1, this.2, h2]

theorem beval_neg_node (p : Pog) (τ : Int → Bool) (k : Nat) {x : Int}
    (hx : p.is_node x = true) (hpos : 0 < x) :
    p.beval τ (k + 1) (-x) = !p.beval τ (k + 1) x := by
  rw [beval_node p τ k (by simpa using hx), beval_node p τ k hx]
  have h1 : ¬ (-x > 0) := by omega
  simp [h1, hpos]

theorem is_node_literal (p : Pog) {l : Int} (h : IABS l ≤ p.nvar) : p.is_node l = false := by
  by_contra hc
  have : p.is_node l = true := by simpa using hc
  rw [is_node_iff] at this
  omega

theorem lit_true_neg (τ : Int → Bool) {l : Int} (h : l ≠ 0) : lit_true τ (-l) = !lit_true τ l := by
  unfold lit_true
  by_cases hl : l > 0
  · have : ¬ (-l > 0) := by omega
    simp [hl, this]
  · have : -l > 0 := by omega
    simp [hl, this]

theorem all_map_not_any (τ : Int → Bool) : ∀ c : List Int, (∀ l ∈ c, l ≠ 0) →
    ((c.map fun l => lit_true τ (-l)).all id) = !c.any (lit_true τ) := by
  intro c
  induction c with
  | nil => intro _; rfl
  | cons l r ih =>
    intro h
    simp only [List.map_cons, List.all_cons, List.any_cons, id]
    rw [ih (fun x hx => h x (List.mem_cons_of_mem _ hx)),
      lit_true_neg τ (h l (List.mem_cons_self _ _))]
    simp

theorem all_id_perm {l1 l2 : List Bool} (h : l1.Perm l2) : l1.all id = l2.all id := by
  rw [Bool.eq_iff_iff, List.all_eq_true, List.all_eq_true]
  exact ⟨fun h1 x hx => h1 x (h.mem_iff.2 hx), fun h1 x hx => h1 x (h.mem_iff.1 hx)⟩

theorem any_id_perm {l1 l2 : List Bool} (h : l1.Perm l2) : l1.any id = l2.any id := by
  rw [Bool.eq_iff_iff, List.any_eq_true, List.any_eq_true]
  exact ⟨fun ⟨x, hx, h1⟩ => ⟨x, h.mem_iff.1 hx, h1⟩, fun ⟨x, hx, h1⟩ => ⟨x, h.mem_iff.2 hx, h1⟩⟩

/-- The method `build_disjunction` on a non-empty clause of literals of input variables:
the edge it returns has the ring value and the Boolean function of the clause. -/
theorem build_disjunction_spec (rt : Runtime) (hs : rt.sort_ok) {p : Pog} (hwf : p.WF rt)
    (c : List Int) (hc : ∀ l ∈ c, 1 ≤ IABS l ∧ IABS l ≤ p.nvar) (hne : c ≠ [])
    (hr : (p.nvar : Int) + p.nodes.length + 1 < MAX_VARIABLE) :
    (build_disjunction rt p c).1.WF rt ∧ p.Extends (build_disjunction rt p c).1 ∧
    (build_disjunction rt p c).1.edge_ok (build_disjunction rt p c).2 ∧
    (build_disjunction rt p c).1.plain_edge (build_disjunction rt p c).2 ∧
    (build_disjunction rt p c).1.nodes.length ≤ p.nodes.length + 1 ∧
    (∀ (w : Int → Option ℚ) (f : Int → ℚ),
      (∀ l ∈ c, w l = some (f l) ∧ w (-l) = some (f (-l))) →
      ∀ k, (build_disjunction rt p c).1.nodes.length < k →
        (build_disjunction rt p c).1.val w k (build_disjunction rt p c).2 = clause_value f c) ∧
    (∀ (τ : Int → Bool) k, (build_disjunction rt p c).1.nodes.length < k →
        (build_disjunction rt p c).1.beval τ k (build_disjunction rt p c).2 = clause_true τ c) := by
  have hlt := MAX_VARIABLE_lt
  have hnz : ∀ l ∈ c, l ≠ 0 := by
    intro l hl h
    have := (hc l hl).1
    rw [h] at this
    simp [IABS] at this
  unfold build_disjunction
  have h0 : ¬ c.length = 0 := by
    intro h; exact hne (List.length_eq_zero.1 h)
  simp only [h0, if_false]
  by_cases h1 : c.length = 1
  · simp only [h1, if_true]
    match c, h1 with
    | [l], _ =>
      have hl := hc l (by simp)
      simp only [List.headD_cons]
      have hnode := is_node_literal p hl.2
      refine ⟨hwf, Extends.refl p, Or.inl ⟨hl.1, by omega⟩,
        plain_edge_literal p hl.2 (by omega), by omega, ?_, ?_⟩
      · intro w f hw k hk
        obtain ⟨j, rfl⟩ : ∃ j, k = j + 1 := ⟨k - 1, by omega⟩
        rw [val_leaf p w j (by omega) hnode, (hw l (by simp)).1]
        simp [clause_value]
      · intro τ k hk
        obtain ⟨j, rfl⟩ : ∃ j, k = j + 1 := ⟨k - 1, by omega⟩
        rw [beval_leaf p τ j (by omega) hnode]
        simp [clause_true]
  · simp only [h1, if_false]
    have hplain : ∀ a ∈ c.map (fun clit => -clit), p.plain_edge a := by
      intro a ha
      obtain ⟨l, hl, rfl⟩ := List.mem_map.1 ha
      exact plain_edge_literal p (by simpa using (hc l hl).2) (by omega)
    have hexp := expand_plain p _ hplain
    have hok : ∀ a ∈ c.map (fun clit => -clit), p.edge_ok a := by
      intro a ha
      obtain ⟨l, hl, rfl⟩ := List.mem_map.1 ha
      have := hc l hl
      exact Or.inl ⟨by simpa using this.1, by simp; omega⟩
    have hA : absorbing POG_PRODUCT ∉ p.expand POG_PRODUCT (c.map fun clit => -clit) := by
      rw [hexp, absorbing_product]
      intro h
      have := (hplain _ h).1
      exact this IABS_CONFLICT
    obtain ⟨b1, b2, b3, b4, b5, b6, b7⟩ := build_node rt hs hwf POG_PRODUCT (Or.inl rfl) _ hok hr hA
      (fun h => by cases h) (by rw [hexp]; simp; omega)
    rw [hexp] at b7
    have bf := build_frame rt p POG_PRODUCT (c.map fun clit => -clit)
    set r := build rt p POG_PRODUCT (c.map fun clit => -clit) with hrdef
    have hlen : 1 ≤ r.1.nodes.length := by
      rw [is_node_iff] at b3
      have : IABS r.2 = r.2 := IABS_of_nonneg (by omega)
      omega
    have hsum : r.1.is_sum r.2 = false := by simp [is_sum, b6]
    refine ⟨b1, b2, ?_, ⟨?_, Or.inr (by omega)⟩, ?_, ?_, ?_⟩
    · left
      rw [IABS_neg, IABS_of_nonneg (by omega)]
      omega
    · rw [IABS_neg]
      exact ((is_node_iff _ _).1 b3).2
    · rcases bf.1 with h | h <;> omega
    · intro w f hw k hk
      obtain ⟨j, rfl⟩ : ∃ j, k = j + 1 := ⟨k - 1, by omega⟩
      obtain ⟨i, rfl⟩ : ∃ i, j = i + 1 := ⟨j - 1, by omega⟩
      rw [val_neg_node r.1 w _ b3 b4, val_node r.1 w _ b3]
      simp only [gt_iff_lt, b4, if_true, hsum, Bool.false_eq_true, if_false]
      rw [(b7.map _).prod_eq]
      have : (c.map fun clit => -clit).map (r.1.val w (i + 1)) = c.map fun l => f (-l) := by
        rw [List.map_map]
        apply List.map_congr_left
        intro l hl
        have hl' := hc l hl
        simp only [Function.comp]
        rw [val_leaf r.1 w i (by rw [IABS_neg]; omega)
          (is_node_literal r.1 (by rw [IABS_neg, b2.1]; exact hl'.2)), (hw l hl).2]
        rfl
      rw [this]
      simp [clause_value, h1]
    · intro τ k hk
      obtain ⟨j, rfl⟩ : ∃ j, k = j + 1 := ⟨k - 1, by omega⟩
      obtain ⟨i, rfl⟩ : ∃ i, j = i + 1 := ⟨j - 1, by omega⟩
      rw [beval_neg_node r.1 τ _ b3 b4, beval_node r.1 τ _ b3]
      simp only [gt_iff_lt, b4, if_true, hsum, Bool.false_eq_true, if_false]
      rw [all_id_perm (b7.map _)]
      have : (c.map fun clit => -clit).map (r.1.beval τ (i + 1)) =
          c.map fun l => lit_true τ (-l) := by
        rw [List.map_map]
        apply List.map_congr_left
        intro l hl
        have hl' := hc l hl
        simp only [Function.comp]
        rw [beval_leaf r.1 τ i (by rw [IABS_neg]; omega)
          (is_node_literal r.1 (by rw [IABS_neg, b2.1]; exact hl'.2))]
      rw [this, all_map_not_any τ c hnz]
      simp [clause_true]

end Pog

namespace Pog

theorem kc_clauses_snoc (rt : Runtime) (p : Pog) (cs : List (List Int)) (c : List Int) :
    kc_clauses rt p (cs ++ [c]) =
      ((build_disjunction rt (kc_clauses rt p cs).1 c).1,
       (kc_clauses rt p cs).2 ++ [(build_disjunction rt (kc_clauses rt p cs).1 c).2]) := by
  simp [kc_clauses, List.foldl_append]

theorem all_map_id {α : Type} (f : α → Bool) (l : List α) : (l.map f).all id = l.all f := by
  induction l with
  | nil => rfl
  | cons a r ih => simp only [List.map_cons, List.all_cons, id, ih]

theorem WF.beval_stable {rt : Runtime} {p : Pog} (hwf : p.WF rt) (τ : Int → Bool) :
    ∀ (k k' : Nat) (e : Int),
      (IABS e ≤ (p.nvar : Int) + p.nodes.length ∨ IABS e = TAUTOLOGY) →
      1 ≤ k → 1 ≤ k' →
      (p.is_node e = true → IABS e + 1 ≤ (p.nvar : Int) + k ∧ IABS e + 1 ≤ (p.nvar : Int) + k') →
      p.beval τ k e = p.beval τ k' e := by
  intro k
  induction k with
  | zero => intro k' e _ h; omega
  | succ k ih =>
    intro k' e he _ hk' hn
    obtain ⟨j, rfl⟩ : ∃ j, k' = j + 1 := ⟨k' - 1, by omega⟩
    by_cases hnode : p.is_node e = true
    · rw [beval_node p τ k hnode, beval_node p τ j hnode]
      obtain ⟨i, hil, hie, _, _, hch⟩ := hwf.children_of_node he hnode
      have hb := hn hnode
      have : (p.get_arguments e).map (p.beval τ k) = (p.get_arguments e).map (p.beval τ j) := by
        apply List.map_congr_left
        intro c hc
        have hc' := hch c hc
        apply ih j c (Or.inl (by omega)) (by omega) (by omega)
        intro _
        constructor <;> omega
      rw [this]
    · have hnode' : p.is_node e = false := by simpa using hnode
      by_cases hT : IABS e = TAUTOLOGY
      · rcases IABS_eq_iff (hT.trans IABS_TAUTOLOGY.symm) with h | h
        · rw [h, (beval_const p τ k).1, (beval_const p τ j).1]
        · have : e = CONFLICT := h
          rw [this, (beval_const p τ k).2, (beval_const p τ j).2]
      · rw [beval_leaf p τ k hT hnode', beval_leaf p τ j hT hnode']

/-- With a depth bound above the number of nodes, the value of a node is computed from
the values of its arguments at the same bound. -/
theorem WF.val_node_full {rt : Runtime} {p : Pog} (hwf : p.WF rt) (w : Int → Option ℚ)
    {e : Int} (he : IABS e ≤ (p.nvar : Int) + p.nodes.length ∨ IABS e = TAUTOLOGY)
    (hn : p.is_node e = true) (k : Nat) (hk : p.nodes.length < k) :
    p.val w k e =
      if e > 0 then
        (if p.is_sum e then ((p.get_arguments e).map (p.val w k)).sum
         else ((p.get_arguments e).map (p.val w k)).prod)
      else 1 - (if p.is_sum e then ((p.get_arguments e).map (p.val w k)).sum
         else ((p.get_arguments e).map (p.val w k)).prod) := by
  obtain ⟨j, rfl⟩ : ∃ j, k = j + 1 := ⟨k - 1, by omega⟩
  obtain ⟨i, hil, hie, _, _, hch⟩ := hwf.children_of_node he hn
  rw [val_node p w j hn]
  have : (p.get_arguments e).map (p.val w j) = (p.get_arguments e).map (p.val w (j + 1)) := by
    apply List.map_congr_left
    intro c hc
    have hc' := hch c hc
    apply hwf.val_stable w j (j + 1) c (Or.inl (by omega)) (by omega) (by omega)
    intro _
    constructor <;> omega
  rw [this]

theorem WF.beval_node_full {rt : Runtime} {p : Pog} (hwf : p.WF rt) (τ : Int → Bool)
    {e : Int} (he : IABS e ≤ (p.nvar : Int) + p.nodes.length ∨ IABS e = TAUTOLOGY)
    (hn : p.is_node e = true) (k : Nat) (hk : p.nodes.length < k) :
    p.beval τ k e =
      if e > 0 then
        (if p.is_sum e then ((p.get_arguments e).map (p.beval τ k)).any id
         else ((p.get_arguments e).map (p.beval τ k)).all id)
      else !(if p.is_sum e then ((p.get_arguments e).map (p.beval τ k)).any id
         else ((p.get_arguments e).map (p.beval τ k)).all id) := by
  obtain ⟨j, rfl⟩ : ∃ j, k = j + 1 := ⟨k - 1, by omega⟩
  obtain ⟨i, hil, hie, _, _, hch⟩ := hwf.children_of_node he hn
  rw [beval_node p τ j hn]
  have : (p.get_arguments e).map (p.beval τ j) = (p.get_arguments e).map (p.beval τ (j + 1)) := by
    apply List.map_congr_left
    intro c hc
    have hc' := hch c hc
    apply hwf.beval_stable τ j (j + 1) c (Or.inl (by omega)) (by omega) (by omega)
    intro _
    constructor <;> omega
  rw [this]

/-- The loop of `simple_kc` over clauses of literals of input variables: one edge per
clause, each with the ring value and the Boolean function of its clause. -/
theorem kc_clauses_spec (rt : Runtime) (hs : rt.sort_ok) {p : Pog} (hwf : p.WF rt) :
    ∀ (clauses : List (List Int)),
    (∀ c ∈ clauses, c ≠ [] ∧ ∀ l ∈ c, 1 ≤ IABS l ∧ IABS l ≤ p.nvar) →
    (p.nvar : Int) + p.nodes.length + clauses.length < MAX_VARIABLE →
    (kc_clauses rt p clauses).1.WF rt ∧ p.Extends (kc_clauses rt p clauses).1 ∧
    (kc_clauses rt p clauses).1.nodes.length ≤ p.nodes.length + clauses.length ∧
    (kc_clauses rt p clauses).2.length = clauses.length ∧
    (∀ e ∈ (kc_clauses rt p clauses).2,
      (kc_clauses rt p clauses).1.edge_ok e ∧ (kc_clauses rt p clauses).1.plain_edge e) ∧
    (∀ (w : Int → Option ℚ) (f : Int → ℚ),
      (∀ c ∈ clauses, ∀ l ∈ c, w l = some (f l) ∧ w (-l) = some (f (-l))) →
      ∀ k, (kc_clauses rt p clauses).1.nodes.length < k →
        (kc_clauses rt p clauses).2.map ((kc_clauses rt p clauses).1.val w k) =
          clauses.map (clause_value f)) ∧
    (∀ (τ : Int → Bool) k, (kc_clauses rt p clauses).1.nodes.length < k →
        (kc_clauses rt p clauses).2.map ((kc_clauses rt p clauses).1.beval τ k) =
          clauses.map (clause_true τ)) := by
  intro clauses
  induction clauses using List.reverseRecOn with
  | nil =>
    intro _ _
    refine ⟨hwf, Extends.refl p, by simp [kc_clauses], by simp [kc_clauses], ?_, ?_, ?_⟩
    · intro e he; simp [kc_clauses] at he
    · intro w f _ k _; simp [kc_clauses]
    · intro τ k _; simp [kc_clauses]
  | append_singleton cs c ih =>
    intro hc hr
    have hlen : (cs ++ [c]).length = cs.length + 1 := by simp
    rw [hlen] at hr ⊢
    push_cast at hr
    obtain ⟨a1, a2, a3, a4, a5, a6, a7⟩ := ih
      (fun c hc' => hc c (List.mem_append_left _ hc')) (by omega)
    rw [kc_clauses_snoc]
    set q := (kc_clauses rt p cs).1 with hq
    set es := (kc_clauses rt p cs).2 with hes
    have hcc := hc c (by simp)
    obtain ⟨b1, b2, b3, b4, b5, b6, b7⟩ := build_disjunction_spec rt hs a1 c
      (by rw [a2.1]; exact hcc.2) hcc.1 (by rw [a2.1]; omega)
    set r := build_disjunction rt q c with hrd
    refine ⟨b1, a2.trans b2, by simp only; omega, by simp [a4], ?_, ?_, ?_⟩
    · intro e he
      simp only [List.mem_append, List.mem_singleton] at he
      rcases he with he | rfl
      · exact ⟨b2.edge_ok (a5 e he).1, b2.plain_edge (a5 e he).2⟩
      · exact ⟨b3, b4⟩
    · intro w f hw k hk
      simp only [List.map_append, List.map_cons, List.map_nil]
      rw [b6 w f (fun l hl => hw c (by simp) l hl) k hk,
        ← a6 w f (fun c' hc' => hw c' (List.mem_append_left _ hc')) k
          (lt_of_le_of_lt b2.length_le hk)]
      congr 1
      apply List.map_congr_left
      intro e he
      exact b2.val a1 w k e (edge_ok_bound (a5 e he).1)
    · intro τ k hk
      simp only [List.map_append, List.map_cons, List.map_nil]
      rw [b7 τ k hk, ← a7 τ k (lt_of_le_of_lt b2.length_le hk)]
      congr 1
      apply List.map_congr_left
      intro e he
      exact b2.beval a1 τ k e (edge_ok_bound (a5 e he).1)

/-- The method `simple_kc` on the stream of a list of non-empty clauses over input
variables: the edge it returns has, for every weight function, the product of the clause
values as ring value, and the conjunction of the clauses as Boolean function. -/
theorem simple_kc_spec (rt : Runtime) (hs : rt.sort_ok) {p : Pog} (hwf : p.WF rt)
    (clauses : List (List Int))
    (hc : ∀ c ∈ clauses, c ≠ [] ∧ ∀ l ∈ c, 1 ≤ IABS l ∧ IABS l ≤ p.nvar)
    (hr : (p.nvar : Int) + p.nodes.length + clauses.length + 1 < MAX_VARIABLE) :
    (simple_kc rt p (stream_of clauses)).1.WF rt ∧
    p.Extends (simple_kc rt p (stream_of clauses)).1 ∧
    (simple_kc rt p (stream_of clauses)).1.edge_ok (simple_kc rt p (stream_of clauses)).2 ∧
    (∀ (w : Int → Option ℚ) (f : Int → ℚ),
      (∀ c ∈ clauses, ∀ l ∈ c, w l = some (f l) ∧ w (-l) = some (f (-l))) →
      ∀ k, (simple_kc rt p (stream_of clauses)).1.nodes.length < k →
        (simple_kc rt p (stream_of clauses)).1.val w k (simple_kc rt p (stream_of clauses)).2 =
          (clauses.map (clause_value f)).prod) ∧
    (∀ (τ : Int → Bool) k, (simple_kc rt p (stream_of clauses)).1.nodes.length < k →
        (simple_kc rt p (stream_of clauses)).1.beval τ k (simple_kc rt p (stream_of clauses)).2 =
          clauses.all (clause_true τ)) := by
  have h0 : ∀ c ∈ clauses, (0 : Int) ∉ c := by
    intro c hcm h
    have := ((hc c hcm).2 0 h).1
    simp [IABS] at this
  obtain ⟨a1, a2, a3, a4, a5, a6, a7⟩ := kc_clauses_spec rt hs hwf clauses hc (by omega)
  rw [simple_kc_stream rt p clauses h0]
  set q := (kc_clauses rt p clauses).1 with hq
  set es := (kc_clauses rt p clauses).2 with hes
  by_cases e0 : es.length = 0
  · simp only [e0, if_true]
    have hcl : clauses = [] := List.length_eq_zero.1 (by omega)
    refine ⟨a1, a2, Or.inr IABS_TAUTOLOGY, ?_, ?_⟩
    · intro w f _ k hk
      obtain ⟨j, rfl⟩ : ∃ j, k = j + 1 := ⟨k - 1, by omega⟩
      rw [(val_const q w j).1, hcl]; simp
    · intro τ k hk
      obtain ⟨j, rfl⟩ : ∃ j, k = j + 1 := ⟨k - 1, by omega⟩
      rw [(beval_const q τ j).1, hcl]; simp
  · simp only [e0, if_false]
    by_cases e1 : es.length = 1
    · simp only [e1, if_true]
      obtain ⟨e, he⟩ := List.length_eq_one.1 e1
      obtain ⟨c, hcl⟩ := List.length_eq_one.1 (a4.symm.trans e1)
      rw [he] at a5 a6 a7 ⊢
      simp only [List.headD_cons]
      refine ⟨a1, a2, (a5 e (by simp)).1, ?_, ?_⟩
      · intro w f hw k hk
        have := a6 w f hw k hk
        rw [hcl] at this ⊢
        simpa using this
      · intro τ k hk
        have := a7 τ k hk
        rw [hcl] at this ⊢
        simpa using this
    · simp only [e1, if_false]
      have hexp := expand_plain q es (fun a ha => (a5 a ha).2)
      have hA : absorbing POG_PRODUCT ∉ q.expand POG_PRODUCT es := by
        rw [hexp, absorbing_product]
        intro h
        exact (a5 _ h).2.1 IABS_CONFLICT
      have hr' : (q.nvar : Int) + q.nodes.length + 1 < MAX_VARIABLE := by
        rw [a2.1]; omega
      obtain ⟨b1, b2, b3, b4, b5, b6, b7⟩ := build_node rt hs a1 POG_PRODUCT (Or.inl rfl) es
        (fun a ha => (a5 a ha).1) hr' hA (fun h => by cases h) (by rw [hexp]; omega)
      rw [hexp] at b7
      set r := build rt q POG_PRODUCT es with hrd
      have hsum : r.1.is_sum r.2 = false := by simp [is_sum, b6]
      have hre : IABS r.2 ≤ (r.1.nvar : Int) + r.1.nodes.length ∨ IABS r.2 = TAUTOLOGY :=
        Or.inl (by rw [IABS_of_nonneg (by omega)]; exact b5)
      refine ⟨b1, a2.trans b2, Or.inl ⟨by rw [IABS_of_nonneg (by omega)]; omega,
        by rw [IABS_of_nonneg (by omega)]; exact b5⟩, ?_, ?_⟩
      · intro w f hw k hk
        rw [b1.val_node_full w hre b3 k hk]
        simp only [gt_iff_lt, b4, if_true, hsum, Bool.false_eq_true, if_false]
        rw [(b7.map _).prod_eq, ← a6 w f hw k (lt_of_le_of_lt b2.length_le hk)]
        congr 1
        apply List.map_congr_left
        intro e he
        exact b2.val a1 w k e (edge_ok_bound (a5 e he).1)
      · intro τ k hk
        rw [b1.beval_node_full τ hre b3 k hk]
        simp only [gt_iff_lt, b4, if_true, hsum, Bool.false_eq_true, if_false]
        have e2 := (all_map_id (clause_true τ) clauses).symm
        rw [all_id_perm (b7.map _), e2, ← a7 τ k (lt_of_le_of_lt b2.length_le hk)]
        congr 1
        apply List.map_congr_left
        intro e he
        exact b2.beval a1 τ k e (edge_ok_bound (a5 e he).1)

end Pog

namespace Pog

theorem WF.reach_edge_ok {rt : Runtime} {p : Pog} (hwf : p.WF rt) {root l : Int}
    (hroot : p.edge_ok root) (h : Reach p root l) : p.edge_ok l := by
  induction h with
  | root => exact hroot
  | child e c _ hn hc ih =>
    obtain ⟨i, hil, _, _, _, hch⟩ := hwf.children_of_node (edge_ok_bound ih) hn
    have := hch c hc
    exact Or.inl ⟨this.1, by omega⟩

theorem leaf_literal {p : Pog} {l : Int} (h : p.edge_ok l) (hn : p.is_node l = false)
    (hT : IABS l ≠ TAUTOLOGY) : 1 ≤ IABS l ∧ IABS l ≤ p.nvar := by
  rcases h with h | h
  · refine ⟨h.1, ?_⟩
    by_contra hc
    have : p.is_node l = true := (is_node_iff p l).2 ⟨by omega, hT⟩
    rw [hn] at this
    cases this
  · exact absurd h hT

/-- The value that `ring_evaluate` returns for the edge of `simple_kc`, for weights that
are defined on all literals of input variables. -/
theorem simple_kc_ring_formula (rt : Runtime) (hs : rt.sort_ok) (p : Pog) (hwf : p.WF rt)
    (clauses : List (List Int))
    (hc : ∀ c ∈ clauses, c ≠ [] ∧ ∀ l ∈ c, 1 ≤ IABS l ∧ IABS l ≤ p.nvar)
    (hr : (p.nvar : Int) + p.nodes.length + clauses.length + 1 < MAX_VARIABLE)
    (w : Int → Option ℚ) (f : Int → ℚ)
    (hw : ∀ l, 1 ≤ IABS l → IABS l ≤ p.nvar → w l = some (f l)) :
    (simple_kc rt p (stream_of clauses)).1.ring_evaluate
        (simple_kc rt p (stream_of clauses)).2 w =
      (clauses.map (clause_value f)).prod := by
  obtain ⟨a1, a2, a3, a4, _⟩ := simple_kc_spec rt hs hwf clauses hc hr
  have hlit : ∀ c ∈ clauses, ∀ l ∈ c, w l = some (f l) ∧ w (-l) = some (f (-l)) := by
    intro c hcm l hl
    have := (hc c hcm).2 l hl
    exact ⟨hw l this.1 this.2, hw (-l) (by simpa using this.1) (by simpa using this.2)⟩
  rw [ring_evaluate_eq_val rt _ a1 _ a3 w ?_ _ (Nat.lt_succ_self _)]
  · exact a4 w f hlit _ (Nat.lt_succ_self _)
  · intro l hl hn hT
    have h1 := leaf_literal (a1.reach_edge_ok a3 hl) hn hT
    rw [a2.1] at h1
    rw [hw l h1.1 h1.2]
    rfl

theorem clause_value_sum (f : Int → ℚ) (c : List Int) (hne : c ≠ [])
    (hf : ∀ l ∈ c, f l + f (-l) = 1) :
    clause_value f c = 1 - (c.map fun l => f (-l)).prod := by
  unfold clause_value
  split_ifs with h
  · obtain ⟨l, rfl⟩ := List.length_eq_one.1 h
    have := hf l (by simp)
    simp only [List.headD_cons, List.map_cons, List.map_nil, List.prod_cons, List.prod_nil,
      mul_one]
    linarith
  · rfl

end Pog

namespace Project

theorem count_step_eq (pr : Project) (weighted : Bool) (st : ℚ × (Int → Option ℚ)) (var : Int) :
    pr.count_step weighted st var =
      (st.1 * (pr.var_weights weighted var).2.2,
       Function.update (Function.update st.2 var
          (some ((pr.var_weights weighted var).1 * ((pr.var_weights weighted var).2.2)⁻¹)))
         (-var) (some ((pr.var_weights weighted var).2.1 * ((pr.var_weights weighted var).2.2)⁻¹))) := by
  unfold count_step
  by_cases h : (pr.var_weights weighted var).2.2 = 1
  · simp [h]
  · simp [h]

theorem IABS_eq_pos {l v : Int} (hv : 0 < v) : IABS l = v ↔ l = v ∨ l = -v := by
  unfold IABS
  split_ifs <;> omega

/-- The loop of `subgraph_count` over a list of positive variables: the rescaling factor
is the product of the weight sums, and each literal of a listed variable gets its weight
divided by the sum of its variable. -/
theorem count_fold (pr : Project) (weighted : Bool) : ∀ (L : List Int), (∀ v ∈ L, 0 < v) →
    ∀ (st : ℚ × (Int → Option ℚ)),
    (L.foldl (pr.count_step weighted) st).1 =
      st.1 * (L.map fun v => (pr.var_weights weighted v).2.2).prod ∧
    ∀ l, (L.foldl (pr.count_step weighted) st).2 l =
      if IABS l ∈ L then
        some ((if 0 < l then (pr.var_weights weighted (IABS l)).1
               else (pr.var_weights weighted (IABS l)).2.1) *
              ((pr.var_weights weighted (IABS l)).2.2)⁻¹)
      else st.2 l := by
  intro L
  induction L with
  | nil => intro _ st; simp
  | cons v L ih =>
    intro hpos st
    have hv := hpos v (List.mem_cons_self _ _)
    obtain ⟨h1, h2⟩ := ih (fun x hx => hpos x (List.mem_cons_of_mem _ hx))
      (pr.count_step weighted st v)
    rw [List.foldl_cons]
    constructor
    · rw [h1, count_step_eq]; simp [mul_assoc]
    · intro l
      rw [h2 l]
      by_cases hl : IABS l ∈ L
      · simp [hl]
      · simp only [hl, if_false, List.mem_cons, or_false]
        rw [count_step_eq]
        by_cases hlv : IABS l = v
        · simp only [hlv, if_true]
          rcases (IABS_eq_pos hv).1 hlv with h | h
          · subst h
            have : l ≠ -l := by omega
            simp [Function.update, this, hv]
          · subst h
            have : ¬ (0 < -v) := by omega
            simp [Function.update, this]
        · have h3 : l ≠ v := fun h => hlv ((IABS_eq_pos hv).2 (Or.inl h))
          have h4 : l ≠ -v := fun h => hlv ((IABS_eq_pos hv).2 (Or.inr h))
          simp [Function.update, h3, h4, hlv]

end Project

namespace Pog

/-- C7. For every stream that encodes non-empty clauses `C_1..C_m` over the input variables
of a well-formed graph, and every weight map with `weights[x] + weights[-x] = 1` for each
variable, `ring_evaluate(simple_kc(stream), weights)` is the product over `i` of
`1 - product over l in C_i of weights[-l]` (the clauses need not be variable-disjoint for
this); and the unweighted count of `(x1 or x2) and (x3 or x4)` over four data variables,
as `Project::count` computes it from the edge of `simple_kc`, is 9. -/
theorem simple_kc_ring_value :
    (∀ (rt : Runtime), rt.sort_ok → ∀ (p : Pog), p.WF rt → ∀ (clauses : List (List Int)),
      (∀ c ∈ clauses, c ≠ [] ∧ ∀ l ∈ c, 1 ≤ IABS l ∧ IABS l ≤ p.nvar) →
      (p.nvar : Int) + p.nodes.length + clauses.length + 1 < MAX_VARIABLE →
      ∀ (w : Int → Option ℚ) (f : Int → ℚ),
      (∀ l, 1 ≤ IABS l → IABS l ≤ p.nvar → w l = some (f l) ∧ f l + f (-l) = 1) →
      (simple_kc rt p (stream_of clauses)).1.ring_evaluate
          (simple_kc rt p (stream_of clauses)).2 w =
        (clauses.map fun c => 1 - (c.map fun l => f (-l)).prod).prod) ∧
    Project.count
      { pog := (simple_kc stdRuntime (Pog.init 4 {1, 2, 3, 4} ∅) [1, 2, 0, 3, 4, 0]).1,
        root_literal := (simple_kc stdRuntime (Pog.init 4 {1, 2, 3, 4} ∅) [1, 2, 0, 3, 4, 0]).2,
        result_cache := fun _ => none, input_weights := [], optlevel := 0 } false = some 9 := by
  have gen : ∀ (rt : Runtime), rt.sort_ok → ∀ (p : Pog), p.WF rt → ∀ (clauses : List (List Int)),
      (∀ c ∈ clauses, c ≠ [] ∧ ∀ l ∈ c, 1 ≤ IABS l ∧ IABS l ≤ p.nvar) →
      (p.nvar : Int) + p.nodes.length + clauses.length + 1 < MAX_VARIABLE →
      ∀ (w : Int → Option ℚ) (f : Int → ℚ),
      (∀ l, 1 ≤ IABS l → IABS l ≤ p.nvar → w l = some (f l) ∧ f l + f (-l) = 1) →
      (simple_kc rt p (stream_of clauses)).1.ring_evaluate
          (simple_kc rt p (stream_of clauses)).2 w =
        (clauses.map fun c => 1 - (c.map fun l => f (-l)).prod).prod := by
    intro rt hs p hwf clauses hc hr w f hw
    rw [simple_kc_ring_formula rt hs p hwf clauses hc hr w f (fun l h1 h2 => (hw l h1 h2).1)]
    congr 1
    apply List.map_congr_left
    intro c hcm
    exact clause_value_sum f c (hc c hcm).1
      (fun l hl => (hw l ((hc c hcm).2 l hl).1 ((hc c hcm).2 l hl).2).2)
  refine ⟨gen, ?_⟩
  have hstream : ([1, 2, 0, 3, 4, 0] : List Int) = stream_of [[1, 2], [3, 4]] := by decide
  have hsame : (simple_kc stdRuntime (Pog.init 4 {1, 2, 3, 4} ∅) [1, 2, 0, 3, 4, 0]).1.data_variables
      = {1, 2, 3, 4} := by decide
  have hasc : ascList ({1, 2, 3, 4} : Finset Int) = [1, 2, 3, 4] := by decide
  unfold Project.count Project.subgraph_count
  simp only [Bool.false_eq_true, false_and, if_false, hsame, hasc]
  set pr : Project :=
    { pog := (simple_kc stdRuntime (Pog.init 4 {1, 2, 3, 4} ∅) [1, 2, 0, 3, 4, 0]).1,
      root_literal := (simple_kc stdRuntime (Pog.init 4 {1, 2, 3, 4} ∅) [1, 2, 0, 3, 4, 0]).2,
      result_cache := fun _ => none, input_weights := [], optlevel := 0 } with hpr
  obtain ⟨c1, c2⟩ := Project.count_fold pr false [1, 2, 3, 4] (by decide) (1, fun _ => none)
  have hval := gen stdRuntime stdRuntime_sort_ok (Pog.init 4 {1, 2, 3, 4} ∅)
    (WF_init _ 4 _ _ (by decide)) [[1, 2], [3, 4]] (by decide) (by decide)
    (([1, 2, 3, 4] : List Int).foldl (pr.count_step false) (1, fun _ => none)).2
    (fun _ => 1 / 2) (by
      intro l h1 h2
      refine ⟨?_, by norm_num⟩
      rw [c2 l]
      have hm : IABS l ∈ ([1, 2, 3, 4] : List Int) := by
        simp only [Pog.init] at h2
        simp only [List.mem_cons, List.mem_singleton, List.not_mem_nil, or_false]
        push_cast at h2
        omega
      simp only [hm, if_true, Project.var_weights, Bool.false_eq_true, if_false, ite_self]
      norm_num)
  rw [← hstream] at hval
  rw [hval, c1]
  simp only [Project.var_weights, Bool.false_eq_true, if_false]
  norm_num

/-- C7 (witness). The formula of `simple_kc_ring_value` at the clauses `(x1 or x2)` and
`(x3 or x4)` with every weight one half. -/
theorem simple_kc_ring_value_witness :
    (simple_kc stdRuntime (Pog.init 4 {1, 2, 3, 4} ∅) (stream_of [[1, 2], [3, 4]])).1.ring_evaluate
        (simple_kc stdRuntime (Pog.init 4 {1, 2, 3, 4} ∅) (stream_of [[1, 2], [3, 4]])).2
        (fun _ => some (1 / 2)) =
      ([[1, 2], [3, 4]].map fun c => 1 - (c.map fun l => (fun _ => (1 / 2 : ℚ)) (-l)).prod).prod :=
  simple_kc_ring_value.1 stdRuntime stdRuntime_sort_ok (Pog.init 4 {1, 2, 3, 4} ∅)
    (WF_init _ 4 _ _ (by decide)) [[1, 2], [3, 4]] (by decide) (by decide)
    (fun _ => some (1 / 2)) (fun _ => 1 / 2) (fun _ _ _ => ⟨rfl, by norm_num⟩)

end Pog

theorem ascList_map_prod {α : Type} [LinearOrder α] (s : Finset α) (f : α → ℚ) :
    ((ascList s).map f).prod = ∏ v in s, f v := by
  unfold Finset.prod
  rw [← ascList_coe s, Multiset.map_coe, Multiset.prod_coe]

namespace Project

theorem var_weights_spec (pr : Project) (weighted : Bool) (v : Int) :
    (pr.var_weights weighted v).1 = pr.spec_weight weighted v ∧
    (pr.var_weights weighted v).2.1 = pr.spec_weight weighted (-v) ∧
    (pr.var_weights weighted v).2.2 = pr.spec_sum weighted v := by
  unfold spec_sum spec_weight var_weights
  cases weighted
  · simp; norm_num
  · simp only [if_true, neg_neg]
    cases h1 : pr.input_weights.lookup v <;> cases h2 : pr.input_weights.lookup (-v) <;> simp
    norm_num

/-- The method `subgraph_count` in terms of the specification: unless a weighted count is
asked for without declared weights, the result is `spec_count`. -/
theorem subgraph_count_spec (pr : Project) (weighted : Bool) (root : Int)
    (hD : ∀ v ∈ pr.pog.data_variables, 0 < v)
    (hg : weighted = true → pr.input_weights ≠ []) :
    pr.subgraph_count weighted root = some (pr.spec_count weighted root) := by
  unfold subgraph_count spec_count
  have hg' : ¬ (weighted = true ∧ pr.input_weights.length = 0) := by
    rintro ⟨h1, h2⟩
    exact hg h1 (List.length_eq_zero.1 h2)
  simp only [hg', if_false]
  obtain ⟨c1, c2⟩ := count_fold pr weighted (ascList pr.pog.data_variables)
    (fun v hv => hD v ((mem_ascList _ _).1 hv)) (1, fun _ => none)
  have hw : ((ascList pr.pog.data_variables).foldl (pr.count_step weighted)
      (1, fun _ => none)).2 = fun l =>
      if IABS l ∈ pr.pog.data_variables then
        some (pr.spec_weight weighted l / pr.spec_sum weighted (IABS l))
      else none := by
    funext l
    rw [c2 l]
    simp only [mem_ascList]
    by_cases hm : IABS l ∈ pr.pog.data_variables
    · simp only [hm, if_true]
      have hv := var_weights_spec pr weighted (IABS l)
      rw [hv.1, hv.2.1, hv.2.2, div_eq_mul_inv]
      by_cases hl : 0 < l
      · have : IABS l = l := IABS_of_nonneg (by omega)
        simp [hl, this]
      · have hl0 : l ≠ 0 := by
          intro h; rw [h] at hm
          exact absurd (hD _ hm) (by decide)
        have : -IABS l = l := by unfold IABS; split_ifs <;> omega
        simp [hl, this]
    · simp [hm]
  rw [hw, c1, one_mul]
  have : (fun v => (pr.var_weights weighted v).2.2) = fun v => pr.spec_sum weighted v := by
    funext v; exact (var_weights_spec pr weighted v).2.2
  rw [this, ascList_map_prod]

end Project

theorem Pog.Reach.of_leaf {p : Pog} {root l : Int} (hr : p.is_node root = false)
    (h : Pog.Reach p root l) : l = root := by
  induction h with
  | root => rfl
  | child e c _ hn _ ih => rw [ih, hr] at hn; cases hn

namespace Project

/-- C8 (counterexample). A weighted count without declared weights: every weight sum is
2, and `subgraph_count` returns the null result instead of the claimed product. -/
theorem subgraph_count_null_counterexample :
    (∀ v ∈ (Pog.init 1 {1} ∅).data_variables,
      spec_sum ⟨Pog.init 1 {1} ∅, 1, fun _ => none, [], 0⟩ true v ≠ 0) ∧
    subgraph_count ⟨Pog.init 1 {1} ∅, 1, fun _ => none, [], 0⟩ true 1 = none ∧
    subgraph_count ⟨Pog.init 1 {1} ∅, 1, fun _ => none, [], 0⟩ true 1 ≠
      some (spec_count ⟨Pog.init 1 {1} ∅, 1, fun _ => none, [], 0⟩ true 1) := by
  refine ⟨?_, ?_, ?_⟩
  · intro v _
    simp [spec_sum, spec_weight]
  · simp [subgraph_count]
  · simp [subgraph_count]

/-- C8 (amended). Unless a weighted count is asked for without declared weights (then the
result is null), for every root edge and every set `D` of (positive) data variables with
nonzero weight sums `s_v = w(v) + w(-v)`, `subgraph_count` returns the product over `v`
in `D` of `s_v` times `ring_evaluate(root, w')` with `w'(l) = w(l) / s_|l|`; and for the
formula `(x)` with weights 3/10 for `x` and 7/10 for `-x` the weighted count is 3/10. -/
theorem subgraph_count_weighted :
    (∀ (pr : Project) (weighted : Bool) (root : Int),
      (∀ v ∈ pr.pog.data_variables, 0 < v) →
      (∀ v ∈ pr.pog.data_variables, pr.spec_sum weighted v ≠ 0) →
      (weighted = true → pr.input_weights ≠ []) →
      pr.subgraph_count weighted root =
        some ((∏ v in pr.pog.data_variables, pr.spec_sum weighted v) *
          pr.pog.ring_evaluate root (fun l =>
            if IABS l ∈ pr.pog.data_variables then
              some (pr.spec_weight weighted l / pr.spec_sum weighted (IABS l))
            else none))) ∧
    Project.count
      { pog := (Pog.simple_kc stdRuntime (Pog.init 1 {1} ∅) [1, 0]).1,
        root_literal := (Pog.simple_kc stdRuntime (Pog.init 1 {1} ∅) [1, 0]).2,
        result_cache := fun _ => none, input_weights := [(1, 3 / 10), (-1, 7 / 10)],
        optlevel := 0 } true = some (3 / 10) := by
  refine ⟨fun pr weighted root hD _ hg => subgraph_count_spec pr weighted root hD hg, ?_⟩
  have hk : Pog.simple_kc stdRuntime (Pog.init 1 {1} ∅) [1, 0] = (Pog.init 1 {1} ∅, 1) := rfl
  rw [hk]
  unfold Project.count
  rw [subgraph_count_spec _ true 1 (by decide) (by simp)]
  unfold spec_count
  rw [Pog.ring_evaluate_eq_val stdRuntime _ (Pog.WF_init _ 1 _ _ (by decide)) 1 (by decide) _ ?_ 1
    (by decide)]
  · rw [Pog.val_leaf _ _ 0 (by decide) (by decide)]
    have h1 : List.lookup (-1 : Int) [((1 : Int), (3 / 10 : ℚ)), (-1, 7 / 10)] =
        some (7 / 10) := rfl
    simp [spec_sum, spec_weight, Pog.init, IABS, h1]
    norm_num
  · intro l hl _ _
    rw [Pog.Reach.of_leaf (by decide) hl]
    simp [Pog.init, IABS]

/-- C8 (witness). The formula of `subgraph_count_weighted` for the unweighted count of the
literal `x1` among two data variables. -/
theorem subgraph_count_weighted_witness :
    subgraph_count ⟨Pog.init 2 {1, 2} ∅, 1, fun _ => none, [], 0⟩ false 1 =
      some ((∏ v in ({1, 2} : Finset Int),
          spec_sum ⟨Pog.init 2 {1, 2} ∅, 1, fun _ => none, [], 0⟩ false v) *
        (Pog.init 2 {1, 2} ∅).ring_evaluate 1 (fun l =>
          if IABS l ∈ ({1, 2} : Finset Int) then
            some (spec_weight ⟨Pog.init 2 {1, 2} ∅, 1, fun _ => none, [], 0⟩ false l /
              spec_sum ⟨Pog.init 2 {1, 2} ∅, 1, fun _ => none, [], 0⟩ false (IABS l))
          else none)) :=
  subgraph_count_weighted.1 ⟨Pog.init 2 {1, 2} ∅, 1, fun _ => none, [], 0⟩ false 1
    (by decide) (by intro v _; simp [spec_sum, spec_weight]) (by simp)

end Project

open pog_type_t action_t var_t

theorem countP_flatMap_pair {α : Type} (p : α → Bool) (f1 f2 : α → α) : ∀ l : List α,
    (l.flatMap fun a => [f1 a, f2 a]).countP p =
      l.countP (fun a => p (f1 a)) + l.countP (fun a => p (f2 a)) := by
  intro l
  induction l with
  | nil => rfl
  | cons a l ih =>
    simp only [List.flatMap_cons, List.countP_append, ih, List.countP_cons, List.countP_nil]
    omega

theorem count_assignments_cons (g : (Int → Bool) → Bool) (v : Int) (vs : List Int) :
    (assignments (v :: vs)).countP g =
      (assignments vs).countP (fun τ => g (Function.update τ v true)) +
      (assignments vs).countP (fun τ => g (Function.update τ v false)) := by
  simp only [assignments]
  exact countP_flatMap_pair g _ _ _

theorem length_assignments : ∀ vs : List Int, (assignments vs).length = 2 ^ vs.length := by
  intro vs
  induction vs with
  | nil => rfl
  | cons v vs ih =>
    have h := countP_flatMap_pair (fun _ => true)
      (fun τ : Int → Bool => Function.update τ v true)
      (fun τ : Int → Bool => Function.update τ v false) (assignments vs)
    simp only [List.countP_true] at h
    simp only [assignments, List.length_cons, h, ih, pow_succ]
    omega

theorem insensitive_update {g : (Int → Bool) → Bool} {w : Int} (h : insensitive g w)
    (v : Int) (b : Bool) : insensitive (fun τ => g (Function.update τ v b)) w := by
  intro τ c
  simp only
  by_cases hwv : w = v
  · subst hwv
    rw [Function.update_idem]
  · rw [Function.update_comm hwv, h]

theorem insensitive_eq {g : (Int → Bool) → Bool} {v : Int} (h : insensitive g v) (b : Bool) :
    (fun τ => g (Function.update τ v b)) = g := by
  funext τ; exact h τ b

/-- Independence: when every listed variable is irrelevant to one of two Boolean
functions, the number of assignments that satisfy both, times the number of assignments,
is the product of the two counts. -/
theorem count_and : ∀ (vs : List Int) (g1 g2 : (Int → Bool) → Bool),
    (∀ v ∈ vs, insensitive g1 v ∨ insensitive g2 v) →
    (assignments vs).countP (fun τ => g1 τ && g2 τ) * 2 ^ vs.length =
      (assignments vs).countP g1 * (assignments vs).countP g2 := by
  intro vs
  induction vs with
  | nil =>
    intro g1 g2 _
    simp only [assignments, List.countP_cons, List.countP_nil, List.length_nil, pow_zero]
    cases g1 (fun _ => false) <;> cases g2 (fun _ => false) <;> rfl
  | cons v vs ih =>
    intro g1 g2 h
    have hT := ih (fun τ => g1 (Function.update τ v true)) (fun τ => g2 (Function.update τ v true))
      (fun w hw => (h w (List.mem_cons_of_mem _ hw)).imp
        (fun h' => insensitive_update h' v true) (fun h' => insensitive_update h' v true))
    have hF := ih (fun τ => g1 (Function.update τ v false)) (fun τ => g2 (Function.update τ v false))
      (fun w hw => (h w (List.mem_cons_of_mem _ hw)).imp
        (fun h' => insensitive_update h' v false) (fun h' => insensitive_update h' v false))
    rw [count_assignments_cons, count_assignments_cons g1, count_assignments_cons g2,
      List.length_cons, pow_succ]
    rcases h v (List.mem_cons_self _ _) with h1 | h2
    · have h1' : ∀ τ b, g1 (Function.update τ v b) = g1 τ := h1
      simp only [h1'] at hT hF ⊢
      linarith [hT, hF]
    · have h2' : ∀ τ b, g2 (Function.update τ v b) = g2 τ := h2
      simp only [h2'] at hT hF ⊢
      linarith [hT, hF]

theorem count_not : ∀ (vs : List Int) (g : (Int → Bool) → Bool),
    (assignments vs).countP g + (assignments vs).countP (fun τ => !g τ) = 2 ^ vs.length := by
  intro vs g
  rw [← length_assignments vs]
  generalize assignments vs = l
  induction l with
  | nil => rfl
  | cons a l ih =>
    simp only [List.countP_cons, List.length_cons]
    cases g a <;> simp <;> omega

open pog_type_t action_t var_t

theorem lit_insensitive {l v : Int} (h : IABS l ≠ v) :
    insensitive (fun τ => lit_true τ l) v := by
  intro τ b
  simp only [lit_true]
  by_cases hpos : l > 0
  · have h1 : l ≠ v := by
      intro e; apply h; unfold IABS; split_ifs <;> omega
    simp only [hpos, if_true, Function.update_noteq h1]
  · have h2 : -l ≠ v := by
      intro e; apply h; unfold IABS; split_ifs <;> omega
    simp only [hpos, if_false, Function.update_noteq h2]

theorem clause_insensitive {c : List Int} {v : Int} (h : ∀ l ∈ c, IABS l ≠ v) :
    insensitive (fun τ => clause_true τ c) v := by
  intro τ b
  simp only [clause_true]
  induction c with
  | nil => rfl
  | cons l c ih =>
    simp only [List.any_cons]
    have e : lit_true (Function.update τ v b) l = lit_true τ l :=
      lit_insensitive (h l (List.mem_cons_self _ _)) τ b
    rw [ih (fun m hm => h m (List.mem_cons_of_mem _ hm)), e]

theorem all_insensitive {cs : List (List Int)} {v : Int} (h : ∀ c ∈ cs, ∀ l ∈ c, IABS l ≠ v) :
    insensitive (fun τ => cs.all (clause_true τ)) v := by
  intro τ b
  simp only
  induction cs with
  | nil => rfl
  | cons c cs ih =>
    simp only [List.all_cons]
    have e : clause_true (Function.update τ v b) c = clause_true τ c :=
      clause_insensitive (h c (List.mem_cons_self _ _)) τ b
    rw [ih (fun d hd => h d (List.mem_cons_of_mem _ hd)), e]

theorem insensitive_not {g : (Int → Bool) → Bool} {v : Int} (h : insensitive g v) :
    insensitive (fun τ => !g τ) v := by
  intro τ b
  simp only [h τ b]

theorem count_true (vs : List Int) :
    (assignments vs).countP (fun _ => true) = 2 ^ vs.length := by
  rw [List.countP_true, length_assignments]

theorem count_false (vs : List Int) : (assignments vs).countP (fun _ => false) = 0 := by
  rw [List.countP_false]; rfl

/-- A literal of a listed variable is true in half of the assignments. -/
theorem count_lit (l : Int) : ∀ vs : List Int, IABS l ∈ vs →
    2 * (assignments vs).countP (fun τ => lit_true τ l) = 2 ^ vs.length := by
  intro vs
  induction vs with
  | nil => intro h; cases h
  | cons v vs ih =>
    intro h
    rw [count_assignments_cons, List.length_cons, pow_succ]
    by_cases hv : IABS l = v
    · by_cases hpos : l > 0
      · have e : l = v := by rw [← hv]; unfold IABS; split_ifs <;> omega
        subst e
        simp only [lit_true, hpos, if_true, Function.update_same]
        rw [count_true, count_false]; omega
      · have e : -l = v := by rw [← hv]; unfold IABS; split_ifs <;> omega
        subst e
        simp only [lit_true, hpos, if_false, Function.update_same, Bool.not_true, Bool.not_false]
        rw [count_true, count_false]; omega
    · have hm : IABS l ∈ vs := by
        rcases List.mem_cons.1 h with h | h
        · exact absurd h hv
        · exact h
      have hi : ∀ τ b, lit_true (Function.update τ v b) l = lit_true τ l := lit_insensitive hv
      simp only [hi]
      have := ih hm
      omega

/-- A clause without repeated variable, over listed variables, is false in the fraction
`2 ^ (-length)` of the assignments. -/
theorem count_negclause (vs : List Int) : ∀ c : List Int, (∀ l ∈ c, IABS l ∈ vs) →
    (c.map IABS).Nodup →
    (assignments vs).countP (fun τ => !clause_true τ c) * 2 ^ c.length = 2 ^ vs.length := by
  intro c
  induction c with
  | nil =>
    intro _ _
    simp only [clause_true, List.any_nil, Bool.not_false, List.length_nil, pow_zero, mul_one]
    exact count_true vs
  | cons l c ih =>
    intro h hnd
    have hl := h l (List.mem_cons_self _ _)
    rw [List.map_cons, List.nodup_cons] at hnd
    have h2 := ih (fun m hm => h m (List.mem_cons_of_mem _ hm)) hnd.2
    have e : (fun τ => !clause_true τ (l :: c)) =
        fun τ => (fun τ => !lit_true τ l) τ && (fun τ => !clause_true τ c) τ := by
      funext τ
      simp [clause_true]
    rw [e]
    have hand := count_and vs (fun τ => !lit_true τ l) (fun τ => !clause_true τ c) (by
      intro v _
      by_cases hv : IABS l = v
      · right
        apply insensitive_not (g := fun τ => clause_true τ c)
        apply clause_insensitive
        intro m hm hmv
        exact hnd.1 (List.mem_map.2 ⟨m, hm, hmv.trans hv.symm⟩)
      · left
        exact insensitive_not (g := fun τ => lit_true τ l) (lit_insensitive hv))
    have h1 := count_lit l vs hl
    have h3 := count_not vs (fun τ => lit_true τ l)
    have hpos : 0 < 2 ^ vs.length := by positivity
    apply Nat.eq_of_mul_eq_mul_left hpos
    rw [List.length_cons, pow_succ]
    have h4 : 2 * (assignments vs).countP (fun τ => !lit_true τ l) = 2 ^ vs.length := by
      simp only at h3; omega
    calc 2 ^ vs.length * ((assignments vs).countP
            (fun τ => (fun τ => !lit_true τ l) τ && (fun τ => !clause_true τ c) τ) *
            (2 ^ c.length * 2))
        = ((assignments vs).countP
            (fun τ => (fun τ => !lit_true τ l) τ && (fun τ => !clause_true τ c) τ) *
            2 ^ vs.length) * (2 ^ c.length * 2) := by ring
      _ = (2 * (assignments vs).countP (fun τ => !lit_true τ l)) *
            ((assignments vs).countP (fun τ => !clause_true τ c) * 2 ^ c.length) := by
          rw [hand]; ring
      _ = 2 ^ vs.length * 2 ^ vs.length := by rw [h4, h2]

/-- The model count of pairwise variable-disjoint clauses without repeated variable, over
listed variables. -/
theorem model_count_disjoint (vs : List Int) : ∀ cs : List (List Int),
    (∀ c ∈ cs, ∀ l ∈ c, IABS l ∈ vs) → (∀ c ∈ cs, (c.map IABS).Nodup) →
    cs.Pairwise (fun c d => ∀ l ∈ c, ∀ m ∈ d, IABS l ≠ IABS m) →
    (model_count vs cs : ℚ) =
      2 ^ vs.length * (cs.map fun c => 1 - (c.map fun _ => (1 / 2 : ℚ)).prod).prod := by
  intro cs
  induction cs with
  | nil =>
    intro _ _ _
    simp only [model_count, List.all_nil, List.map_nil, List.prod_nil, mul_one]
    rw [count_true]; push_cast; rfl
  | cons c cs ih =>
    intro h hnd hp
    rw [List.pairwise_cons] at hp
    have h2 := ih (fun d hd => h d (List.mem_cons_of_mem _ hd))
      (fun d hd => hnd d (List.mem_cons_of_mem _ hd)) hp.2
    have hand := count_and vs (fun τ => clause_true τ c) (fun τ => cs.all (clause_true τ)) (by
      intro v _
      by_cases hv : ∃ l ∈ c, IABS l = v
      · right
        obtain ⟨l, hl, hlv⟩ := hv
        apply all_insensitive
        intro d hd m hm hmv
        exact hp.1 d hd l hl m hm (hlv.trans hmv.symm)
      · left
        apply clause_insensitive
        intro l hl hlv
        exact hv ⟨l, hl, hlv⟩)
    have h1 := count_negclause vs c (h c (List.mem_cons_self _ _)) (hnd c (List.mem_cons_self _ _))
    have h3 := count_not vs (fun τ => clause_true τ c)
    have e : model_count vs (c :: cs) =
        (assignments vs).countP (fun τ => (fun τ => clause_true τ c) τ &&
          (fun τ => cs.all (clause_true τ)) τ) := by
      simp only [model_count, List.all_cons]
    have hq : ((assignments vs).countP (fun τ => !clause_true τ c) : ℚ) * 2 ^ c.length =
        2 ^ vs.length := by exact_mod_cast h1
    have hq3 : ((assignments vs).countP (fun τ => clause_true τ c) : ℚ) +
        ((assignments vs).countP (fun τ => !clause_true τ c) : ℚ) = 2 ^ vs.length := by
      exact_mod_cast h3
    have hqa : (model_count vs (c :: cs) : ℚ) * 2 ^ vs.length =
        ((assignments vs).countP (fun τ => clause_true τ c) : ℚ) * (model_count vs cs : ℚ) := by
      rw [e]; unfold model_count; exact_mod_cast hand
    have hprod : (c.map fun _ => (1 / 2 : ℚ)).prod = (1 / 2) ^ c.length := by
      rw [List.map_const', List.prod_replicate]
    have hpos : (2 : ℚ) ^ vs.length ≠ 0 := by positivity
    have hposc : (2 : ℚ) ^ c.length ≠ 0 := by positivity
    rw [List.map_cons, List.prod_cons, hprod]
    apply mul_right_cancel₀ hpos
    rw [hqa, h2]
    have hc1 : ((assignments vs).countP (fun τ => clause_true τ c) : ℚ) =
        2 ^ vs.length * (1 - (1 / 2) ^ c.length) := by
      have : ((assignments vs).countP (fun τ => !clause_true τ c) : ℚ) =
          2 ^ vs.length * (1 / 2) ^ c.length := by
        rw [one_div, inv_pow]
        field_simp
        exact hq
      linarith
    rw [hc1]
    ring

open pog_type_t action_t var_t
namespace Pog

/-- C6 (counterexample). The edge of `simple_kc` for the clause `(x1 or x2)` over two data
variables: `ring_evaluate` with weight 1 for every literal returns 0, and the clause has 3
models. -/
theorem ring_evaluate_ones_counterexample :
    (simple_kc stdRuntime (Pog.init 2 {1, 2} ∅) [1, 2, 0]).1.ring_evaluate
      (simple_kc stdRuntime (Pog.init 2 {1, 2} ∅) [1, 2, 0]).2 (fun _ => some 1) = 0 ∧
    model_count [1, 2] [[1, 2]] = 3 := by
  constructor
  · have h := simple_kc_ring_formula stdRuntime stdRuntime_sort_ok (Pog.init 2 {1, 2} ∅)
      (WF_init _ 2 _ _ (by decide)) [[1, 2]] (by decide) (by decide) (fun _ => some 1)
      (fun _ => 1) (fun _ _ _ => rfl)
    have e : stream_of [[1, 2]] = [1, 2, 0] := rfl
    rw [e] at h
    rw [h]
    simp [clause_value]
  · decide

/-- The count of the edge of `simple_kc`. For the edge `e` that `simple_kc` returns for
non-empty, pairwise variable-disjoint clauses without repeated variable, in a well-formed
graph whose input variables are all data variables: `2 ^ |D|` times
`ring_evaluate(e, weights)` with weight one half for every literal is the number of
assignments to the data variables `D` that satisfy the clauses, and this is the value that
the unweighted `Project::subgraph_count` returns for `e`. -/
theorem simple_kc_model_count (rt : Runtime) (hs : rt.sort_ok) (p : Pog) (hwf : p.WF rt)
    (clauses : List (List Int))
    (hD : ∀ v, v ∈ p.data_variables ↔ 1 ≤ v ∧ v ≤ p.nvar)
    (hc : ∀ c ∈ clauses, c ≠ [] ∧ ∀ l ∈ c, 1 ≤ IABS l ∧ IABS l ≤ p.nvar)
    (hr : (p.nvar : Int) + p.nodes.length + clauses.length + 1 < MAX_VARIABLE)
    (hnd : ∀ c ∈ clauses, (c.map IABS).Nodup)
    (hp : clauses.Pairwise (fun c d => ∀ l ∈ c, ∀ m ∈ d, IABS l ≠ IABS m))
    (cache : Int → Option Int) (wts : List (Int × ℚ)) (lvl : Int) :
    (2 : ℚ) ^ p.data_variables.card *
      (simple_kc rt p (stream_of clauses)).1.ring_evaluate
        (simple_kc rt p (stream_of clauses)).2 (fun _ => some (1 / 2)) =
      model_count (ascList p.data_variables) clauses ∧
    Project.subgraph_count
      ⟨(simple_kc rt p (stream_of clauses)).1, (simple_kc rt p (stream_of clauses)).2,
        cache, wts, lvl⟩ false (simple_kc rt p (stream_of clauses)).2 =
      some (model_count (ascList p.data_variables) clauses : ℚ) := by
  have hmc := model_count_disjoint (ascList p.data_variables) clauses
    (fun c hcm l hl => (mem_ascList _ _).2 ((hD _).2 ((hc c hcm).2 l hl))) hnd hp
  rw [ascList_length] at hmc
  have hval : ∀ (w : Int → Option ℚ),
      (∀ l, 1 ≤ IABS l → IABS l ≤ p.nvar → w l = some (1 / 2)) →
      (2 : ℚ) ^ p.data_variables.card *
        (simple_kc rt p (stream_of clauses)).1.ring_evaluate
          (simple_kc rt p (stream_of clauses)).2 w =
        model_count (ascList p.data_variables) clauses := by
    intro w hw
    rw [simple_kc_ring_formula rt hs p hwf clauses hc hr w (fun _ => 1 / 2) hw, hmc]
    congr 2
    apply List.map_congr_left
    intro c hcm
    exact clause_value_sum _ c (hc c hcm).1 (fun _ _ => by norm_num)
  refine ⟨hval _ (fun _ _ _ => rfl), ?_⟩
  obtain ⟨_, a2, _⟩ := simple_kc_spec rt hs hwf clauses hc hr
  have hdv : (simple_kc rt p (stream_of clauses)).1.data_variables = p.data_variables := a2.2.1
  rw [Project.subgraph_count_spec _ false _ (by
    intro v hv
    simp only [hdv] at hv
    have := (hD v).1 hv
    omega) (by simp)]
  unfold Project.spec_count
  simp only [hdv, Project.spec_sum, Project.spec_weight, Bool.false_eq_true, if_false]
  rw [← hval (fun l => if IABS l ∈ p.data_variables then some ((1 : ℚ) / (1 + 1)) else none) (by
    intro l h1 h2
    have : IABS l ∈ p.data_variables := (hD _).2 ⟨h1, h2⟩
    simp only [this, if_true]
    norm_num)]
  congr 2
  rw [Finset.prod_const]
  norm_num

/-- An example of `simple_kc_model_count`: the clauses `(x1 or x2)` and `(x3 or x4)` over
four data variables. -/
theorem simple_kc_model_count_witness :
    (2 : ℚ) ^ (Pog.init 4 {1, 2, 3, 4} ∅).data_variables.card *
      (simple_kc stdRuntime (Pog.init 4 {1, 2, 3, 4} ∅)
        (stream_of [[1, 2], [3, 4]])).1.ring_evaluate
        (simple_kc stdRuntime (Pog.init 4 {1, 2, 3, 4} ∅) (stream_of [[1, 2], [3, 4]])).2
        (fun _ => some (1 / 2)) =
      model_count (ascList (Pog.init 4 {1, 2, 3, 4} ∅).data_variables) [[1, 2], [3, 4]] :=
  (simple_kc_model_count stdRuntime stdRuntime_sort_ok (Pog.init 4 {1, 2, 3, 4} ∅)
    (WF_init _ 4 _ _ (by decide)) [[1, 2], [3, 4]]
    (by intro v; simp only [Pog.init, Finset.mem_insert, Finset.mem_singleton]; omega)
    (by decide) (by decide) (by decide) (by decide) (fun _ => none) [] 0).1

end Pog

open pog_type_t action_t var_t
namespace Compiler

theorem new_clause_clauses (s : Cnf) : s.new_clause.clauses = s.clauses ++ [[]] := rfl

theorem add_literal_clauses (s : Cnf) (l : Int) (cs : List (List Int)) (c : List Int)
    (h : s.clauses = cs ++ [c]) : (s.add_literal l).clauses = cs ++ [c ++ [l]] := by
  simp [Cnf.add_literal, h]

theorem clausify_data_clauses (p : Pog) (s : Cnf) (o : Int) :
    (clausify_data p s o).clauses = s.clauses := by
  unfold clausify_data
  split_ifs <;> rfl

theorem add_lits_clauses (p : Pog) (f : Int → Int) : ∀ (lits : List Int) (s : Cnf)
    (cs : List (List Int)) (c : List Int), s.clauses = cs ++ [c] →
    (lits.foldl (fun c' o => clausify_data p (c'.add_literal (f o)) o) s).clauses =
      cs ++ [c ++ lits.map f] := by
  intro lits
  induction lits with
  | nil => intro s cs c h; simpa using h
  | cons o lits ih =>
    intro s cs c h
    rw [List.foldl_cons, ih _ cs (c ++ [f o])]
    · simp
    · rw [clausify_data_clauses]
      exact add_literal_clauses s _ cs c h

theorem binary_clauses (x : Int) (g : Int → Int) : ∀ (args : List Int) (s : Cnf),
    (args.foldl (fun c o => (c.new_clause.add_literal x).add_literal (g o)) s).clauses =
      s.clauses ++ args.map fun o => [x, g o] := by
  intro args
  induction args with
  | nil => intro s; simp
  | cons o args ih =>
    intro s
    rw [List.foldl_cons, ih]
    rw [add_literal_clauses _ (g o) s.clauses [x]
      (add_literal_clauses _ x s.clauses [] (new_clause_clauses s))]
    simp

theorem clausify_node_clauses (p : Pog) (node_remap : List (Int × Int)) (cnf : Cnf)
    (kv : Int × Int) :
    (clausify_node p node_remap cnf kv).clauses = cnf.clauses ++ node_clauses p node_remap kv := by
  unfold clausify_node node_clauses
  simp only
  rw [binary_clauses, add_lits_clauses p _ _ _ cnf.clauses
    [if p.is_sum kv.1 then -kv.2 else kv.2]
    (add_literal_clauses _ _ cnf.clauses [] (new_clause_clauses cnf))]
  simp

theorem clausify_nodes_fold (p : Pog) (node_remap : List (Int × Int)) :
    ∀ (l : List (Int × Int)) (cnf : Cnf),
    (l.foldl (clausify_node p node_remap) cnf).clauses =
      cnf.clauses ++ l.flatMap (node_clauses p node_remap) := by
  intro l
  induction l with
  | nil => intro cnf; simp
  | cons kv l ih =>
    intro cnf
    rw [List.foldl_cons, ih, clausify_node_clauses]
    simp

theorem clausify_nodes_clauses (p : Pog) (roots : List Int) :
    (clausify_nodes p roots).clauses =
      (p.get_subgraph roots).flatMap (node_clauses p (p.get_subgraph roots)) := by
  unfold clausify_nodes
  rw [clausify_nodes_fold]
  simp [Cnf.init]

theorem clausify_roots_fold (p : Pog) (node_remap : List (Int × Int)) :
    ∀ (roots : List Int) (cnf : Cnf),
    (roots.foldl (clausify_root p node_remap) cnf).clauses =
      cnf.clauses ++ roots.map fun r => [clausify_literal p node_remap r] := by
  intro roots
  induction roots with
  | nil => intro cnf; simp
  | cons r roots ih =>
    intro cnf
    rw [List.foldl_cons, ih]
    unfold clausify_root
    rw [clausify_data_clauses, add_literal_clauses _ _ cnf.clauses [] (new_clause_clauses cnf)]
    simp

theorem clausify_clauses (p : Pog) (roots : List Int) :
    (clausify p roots).clauses =
      (clausify_nodes p roots).clauses ++
        roots.map fun r => [clausify_literal p (p.get_subgraph roots) r] := by
  have : clausify p roots =
      roots.foldl (clausify_root p (p.get_subgraph roots)) (clausify_nodes p roots) := rfl
  rw [this, clausify_roots_fold]

end Compiler

open pog_type_t action_t var_t
namespace Pog

theorem WF.beval_fuel {rt : Runtime} {p : Pog} (hwf : p.WF rt) (τ : Int → Bool) {e : Int}
    (he : IABS e ≤ (p.nvar : Int) + p.nodes.length ∨ IABS e = TAUTOLOGY)
    (k k' : Nat) (hk : p.nodes.length < k) (hk' : p.nodes.length < k') :
    p.beval τ k e = p.beval τ k' e := by
  apply hwf.beval_stable τ k k' e he (by omega) (by omega)
  intro hn
  rw [is_node_iff] at hn
  rcases he with he | he
  · constructor <;> omega
  · exact absurd he hn.2

/-- The Boolean value of an edge depends only on the values of the input variables. -/
theorem WF.beval_congr {rt : Runtime} {p : Pog} (hwf : p.WF rt) (σ τ : Int → Bool)
    (h : ∀ v, 1 ≤ v → v ≤ (p.nvar : Int) → σ v = τ v) :
    ∀ (k : Nat) (e : Int), (1 ≤ IABS e ∧ IABS e ≤ (p.nvar : Int) + p.nodes.length) →
      p.beval σ k e = p.beval τ k e := by
  intro k
  induction k with
  | zero => intro e _; rfl
  | succ k ih =>
    intro e he
    by_cases hn : p.is_node e = true
    · rw [beval_node p σ k hn, beval_node p τ k hn]
      obtain ⟨i, hil, hie, _, _, hch⟩ := hwf.children_of_node (Or.inl he.2) hn
      have : (p.get_arguments e).map (p.beval σ k) = (p.get_arguments e).map (p.beval τ k) := by
        apply List.map_congr_left
        intro c hc
        have := hch c hc
        exact ih c ⟨this.1, by omega⟩
      rw [this]
    · have hn' : p.is_node e = false := by simpa using hn
      have hlt := MAX_VARIABLE_lt
      have hr := hwf.range
      have hT : IABS e ≠ TAUTOLOGY := by
        intro hT
        have : TAUTOLOGY = 2147483647 := rfl
        have : MAX_VARIABLE + 1 < TAUTOLOGY := hlt
        omega
      rw [beval_leaf p σ k hT hn', beval_leaf p τ k hT hn']
      have hv := leaf_literal (Or.inl he) hn' hT
      unfold lit_true
      by_cases hpos : e > 0
      · have : IABS e = e := IABS_of_nonneg (by omega)
        simp only [hpos, if_true]
        exact h e (by omega) (by omega)
      · have : IABS e = -e := by unfold IABS; split_ifs <;> omega
        simp only [hpos, if_false]
        rw [h (-e) (by omega) (by omega)]

end Pog

namespace Compiler

/-- The nodes that `get_subgraph` collects: every root that is a node; each one is the
positive id of a node, and the node arguments of each one are collected as well. -/
theorem subgraph_nodes_spec {rt : Runtime} {p : Pog} (hwf : p.WF rt) (roots : List Int)
    (hroots : ∀ r ∈ roots, IABS r ≤ (p.nvar : Int) + p.nodes.length ∨ IABS r = TAUTOLOGY) :
    (∀ r ∈ roots, p.is_node r = true → IABS r ∈ subgraph_nodes p roots) ∧
    ∀ x ∈ subgraph_nodes p roots, p.is_node x = true ∧ IABS x = x ∧
      x ≤ (p.nvar : Int) + p.nodes.length ∧
      ∀ c ∈ p.get_arguments x, p.is_node c = true → IABS c ∈ subgraph_nodes p roots := by
  obtain ⟨_, h2, h3⟩ := Pog.visit_fold_spec p.visit_fuel (Pog.visit_spec hwf p.visit_fuel) roots ∅
    (by
      intro c hc
      refine ⟨hroots c hc, ?_⟩
      intro hn
      rw [Pog.is_node_iff] at hn
      unfold Pog.visit_fuel
      rcases hroots c hc with h | h
      · push_cast; omega
      · exact absurd h hn.2)
  refine ⟨h2, ?_⟩
  intro x hx
  obtain ⟨c, _, hv⟩ := h3 x hx (by simp)
  exact ⟨hv.1, hv.2.1.1, hv.2.1.2, fun c hc hn => (hv.2.2 c hc).2 hn⟩

theorem get_subgraph_eq (p : Pog) (roots : List Int) :
    p.get_subgraph roots =
      (ascList (subgraph_nodes p roots)).enum.map fun x => (x.2, (p.nvar : Int) + 1 + x.1) := rfl

theorem get_subgraph_length (p : Pog) (roots : List Int) :
    (p.get_subgraph roots).length = (ascList (subgraph_nodes p roots)).length := by
  rw [get_subgraph_eq]; simp

theorem mem_get_subgraph (p : Pog) (roots : List Int) (o n : Int) :
    (o, n) ∈ p.get_subgraph roots ↔
      ∃ i : Nat, (ascList (subgraph_nodes p roots))[i]? = some o ∧ n = (p.nvar : Int) + 1 + i := by
  rw [get_subgraph_eq, List.mem_map]
  constructor
  · rintro ⟨⟨i, x⟩, hm, he⟩
    rw [List.mem_enum_iff_getElem?] at hm
    simp only [Prod.mk.injEq] at he
    exact ⟨i, by rw [← he.1]; exact hm, he.2.symm⟩
  · rintro ⟨i, hi, hn⟩
    exact ⟨(i, o), List.mem_enum_iff_getElem?.2 hi, by simp [hn]⟩

theorem lookup_mem {α : Type} : ∀ (l : List (Int × α)) (k : Int) (d : α),
    k ∈ l.map Prod.fst → (k, (l.lookup k).getD d) ∈ l := by
  intro l
  induction l with
  | nil => intro k d h; cases h
  | cons x l ih =>
    intro k d h
    obtain ⟨a, b⟩ := x
    by_cases hk : k = a
    · subst hk
      simp [List.lookup]
    · have : (k == a) = false := by simpa using hk
      simp only [List.lookup, this]
      simp only [List.map_cons, List.mem_cons] at h
      rcases h with h | h
      · exact absurd h hk
      · exact List.mem_cons_of_mem _ (ih k d h)

theorem remap_get_mem (p : Pog) (roots : List Int) {o : Int} (h : o ∈ subgraph_nodes p roots) :
    (o, Pog.remap_get (p.get_subgraph roots) o) ∈ p.get_subgraph roots := by
  unfold Pog.remap_get
  apply lookup_mem
  obtain ⟨i, hi⟩ := List.getElem?_of_mem ((mem_ascList _ _).2 h)
  exact List.mem_map.2 ⟨(o, (p.nvar : Int) + 1 + i), (mem_get_subgraph p roots o _).2 ⟨i, hi, rfl⟩, rfl⟩

theorem mem_get_subgraph_node (p : Pog) (roots : List Int) {o n : Int}
    (h : (o, n) ∈ p.get_subgraph roots) :
    o ∈ subgraph_nodes p roots ∧ (p.nvar : Int) < n ∧
      n ≤ (p.nvar : Int) + (p.get_subgraph roots).length ∧
      (ascList (subgraph_nodes p roots)).getD (n - p.nvar - 1).toNat 0 = o := by
  obtain ⟨i, hi, hn⟩ := (mem_get_subgraph p roots o n).1 h
  have hlt : i < (ascList (subgraph_nodes p roots)).length := by
    by_contra hc
    rw [List.getElem?_eq_none (by omega)] at hi
    cases hi
  refine ⟨(mem_ascList _ _).1 (List.mem_iff_getElem?.2 ⟨i, hi⟩), by omega, ?_, ?_⟩
  · rw [get_subgraph_length]; omega
  · have : (n - p.nvar - 1).toNat = i := by omega
    rw [this, List.getD_eq_getElem?_getD, hi]
    rfl

end Compiler

open pog_type_t action_t var_t
namespace Compiler

theorem lit_true_pos (σ : Int → Bool) {n : Int} (h : 0 < n) : lit_true σ n = σ n := by
  simp [lit_true, h]

theorem any_not_iff (f : Int → Bool) (l : List Int) :
    (l.any fun a => !f a) = !(l.all f) := by
  induction l with
  | nil => rfl
  | cons a l ih => simp only [List.any_cons, List.all_cons, ih]; cases f a <;> simp

theorem any_map_id {α : Type} (f : α → Bool) (l : List α) : (l.map f).any id = l.any f := by
  induction l with
  | nil => rfl
  | cons a r ih => simp only [List.map_cons, List.any_cons, id, ih]

/-- The clauses of one node hold exactly when the node variable has the value of the
operation on the literals of the arguments. -/
theorem node_clauses_sat (p : Pog) (node_remap : List (Int × Int)) (σ : Int → Bool)
    (kv : Int × Int) (hn : 0 < kv.2)
    (hL : ∀ a ∈ p.get_arguments kv.1, clausify_literal p node_remap a ≠ 0) :
    (∀ c ∈ node_clauses p node_remap kv, clause_true σ c = true) ↔
      σ kv.2 =
        if p.is_sum kv.1 then
          ((p.get_arguments kv.1).map fun a => lit_true σ (clausify_literal p node_remap a)).any id
        else
          ((p.get_arguments kv.1).map fun a => lit_true σ (clausify_literal p node_remap a)).all id := by
  have hnn : kv.2 ≠ 0 := by omega
  unfold node_clauses
  simp only [List.mem_append, List.mem_singleton, List.mem_map, or_imp, forall_and, forall_eq,
    forall_exists_index, and_imp, forall_apply_eq_imp_iff₂]
  cases hs : p.is_sum kv.1
  · simp only [Bool.false_eq_true, if_false, clause_true, List.any_cons, List.any_nil,
      Bool.or_false, List.any_map]
    have e1 : ∀ a ∈ p.get_arguments kv.1,
        lit_true σ (-clausify_literal p node_remap a) =
          !lit_true σ (clausify_literal p node_remap a) := fun a ha => Pog.lit_true_neg σ (hL a ha)
    rw [Pog.lit_true_neg σ hnn, lit_true_pos σ hn]
    have e2 : ((p.get_arguments kv.1).any ((lit_true σ) ∘ fun oclit => -clausify_literal p node_remap oclit)) =
        !((p.get_arguments kv.1).all fun a => lit_true σ (clausify_literal p node_remap a)) := by
      rw [← any_not_iff]
      rw [Bool.eq_iff_iff, List.any_eq_true, List.any_eq_true]
      constructor
      · rintro ⟨a, ha, h⟩; exact ⟨a, ha, by rw [← e1 a ha]; exact h⟩
      · rintro ⟨a, ha, h⟩; exact ⟨a, ha, by simp only [Function.comp]; rw [e1 a ha]; exact h⟩
    rw [e2]
    rw [Pog.all_map_id]
    cases hσ : σ kv.2
    · simp only [Bool.false_or, Bool.not_eq_true', Bool.not_false, Bool.true_or, implies_true,
        and_true]
      constructor
      · intro h; exact h.symm
      · intro h; exact h.symm
    · simp only [Bool.true_or, Bool.not_true, Bool.false_or, true_and]
      constructor
      · intro h
        symm
        rw [List.all_eq_true]
        exact h
      · intro h
        rw [← List.all_eq_true]
        exact h.symm
  · simp only [if_true, clause_true, List.any_cons, List.any_nil,
      Bool.or_false]
    have e1 : ∀ a ∈ p.get_arguments kv.1,
        lit_true σ (-clausify_literal p node_remap a) =
          !lit_true σ (clausify_literal p node_remap a) := fun a ha => Pog.lit_true_neg σ (hL a ha)
    rw [Pog.lit_true_neg σ hnn, lit_true_pos σ hn]
    have e4 : ((p.get_arguments kv.1).map fun oclit => clausify_literal p node_remap oclit).any
          (lit_true σ) =
        ((p.get_arguments kv.1).any fun a => lit_true σ (clausify_literal p node_remap a)) := by
      rw [List.any_map]; rfl
    rw [any_map_id, e4]
    cases hσ : σ kv.2
    · simp only [Bool.not_false, Bool.true_or, true_and, Bool.false_or]
      constructor
      · intro h
        symm
        rw [Bool.eq_false_iff]
        intro hc
        rw [List.any_eq_true] at hc
        obtain ⟨a, ha, hc⟩ := hc
        have := h a ha
        rw [e1 a ha, hc] at this
        cases this
      · intro h a ha
        rw [e1 a ha]
        have h' := h.symm
        rw [Bool.eq_false_iff] at h'
        cases hl : lit_true σ (clausify_literal p node_remap a)
        · rfl
        · exact absurd (List.any_eq_true.2 ⟨a, ha, hl⟩) h'
    · simp only [Bool.not_true, Bool.false_or, Bool.true_or, implies_true, and_true]
      constructor
      · intro h; exact h.symm
      · intro h; exact h.symm

end Compiler

open pog_type_t action_t var_t
namespace Compiler

theorem IABS_ne_TAUTOLOGY {rt : Runtime} {p : Pog} (hwf : p.WF rt) {a : Int}
    (ha : IABS a ≤ (p.nvar : Int) + p.nodes.length) : IABS a ≠ TAUTOLOGY := by
  intro hT
  have hlt := Pog.MAX_VARIABLE_lt
  have hr := hwf.range
  omega

/-- The literal that `clausify` writes for an argument or a root has the Boolean value of
the edge, once the variable of a node edge has the value of the node. -/
theorem clausify_literal_value {rt : Runtime} {p : Pog} (hwf : p.WF rt) (roots : List Int)
    (σ : Int → Bool) (k : Nat) (hk : p.nodes.length < k) {a : Int}
    (ha : 1 ≤ IABS a ∧ IABS a ≤ (p.nvar : Int) + p.nodes.length)
    (hmem : p.is_node a = true → IABS a ∈ subgraph_nodes p roots)
    (hσ : p.is_node a = true →
      σ (Pog.remap_get (p.get_subgraph roots) (IABS a)) = p.beval σ k (IABS a)) :
    clausify_literal p (p.get_subgraph roots) a ≠ 0 ∧
    lit_true σ (clausify_literal p (p.get_subgraph roots) a) = p.beval σ k a := by
  obtain ⟨j, rfl⟩ : ∃ j, k = j + 1 := ⟨k - 1, by omega⟩
  have hT := IABS_ne_TAUTOLOGY hwf ha.2
  unfold clausify_literal
  simp only [Pog.get_var, Pog.is_node_IABS]
  by_cases hn : p.is_node a = true
  · simp only [hn, if_true]
    have hm := mem_get_subgraph_node p roots (remap_get_mem p roots (hmem hn))
    have hpos : 0 < Pog.remap_get (p.get_subgraph roots) (IABS a) := by omega
    have hnI : p.is_node (IABS a) = true := by rw [Pog.is_node_IABS]; exact hn
    by_cases hneg : a < 0
    · simp only [hneg, if_true]
      refine ⟨by omega, ?_⟩
      rw [Pog.lit_true_neg σ (by omega), lit_true_pos σ hpos, hσ hn]
      have e : a = -IABS a := by unfold IABS; split_ifs <;> omega
      have hx : 0 < IABS a := by omega
      conv_rhs => rw [e]
      rw [Pog.beval_neg_node p σ j hnI hx]
    · simp only [hneg, if_false]
      refine ⟨by omega, ?_⟩
      rw [lit_true_pos σ hpos, hσ hn, IABS_of_nonneg (by omega)]
  · have hn' : p.is_node a = false := by simpa using hn
    simp only [hn', Bool.false_eq_true, if_false]
    have e : (if a < 0 then -IABS a else IABS a) = a := by unfold IABS; split_ifs <;> omega
    rw [e]
    refine ⟨?_, ?_⟩
    · intro h0; rw [h0] at ha; simp [IABS] at ha
    · rw [Pog.beval_leaf p σ j hT hn']

/-- The clauses of the first loop of `clausify` hold under an assignment exactly when
every fresh variable has the Boolean value of its node. -/
theorem clausify_nodes_sat {rt : Runtime} {p : Pog} (hwf : p.WF rt) (roots : List Int)
    (hroots : ∀ r ∈ roots, 1 ≤ IABS r ∧ IABS r ≤ (p.nvar : Int) + p.nodes.length)
    (σ : Int → Bool) (k : Nat) (hk : p.nodes.length < k) :
    (∀ c ∈ (clausify_nodes p roots).clauses, clause_true σ c = true) ↔
      ∀ kv ∈ p.get_subgraph roots, σ kv.2 = p.beval σ k kv.1 := by
  obtain ⟨_, hS⟩ := subgraph_nodes_spec hwf roots (fun r hr => Or.inl (hroots r hr).2)
  rw [clausify_nodes_clauses]
  simp only [List.mem_flatMap, forall_exists_index, and_imp]
  -- facts about one entry of the map
  have hentry : ∀ kv ∈ p.get_subgraph roots,
      0 < kv.2 ∧ p.is_node kv.1 = true ∧ 0 < kv.1 ∧
      kv.1 ≤ (p.nvar : Int) + p.nodes.length ∧
      ∀ a ∈ p.get_arguments kv.1, (1 ≤ IABS a ∧ IABS a ≤ (p.nvar : Int) + p.nodes.length) ∧
        IABS a < kv.1 ∧ (p.is_node a = true → IABS a ∈ subgraph_nodes p roots) := by
    intro kv hkv
    obtain ⟨h1, h2, _, _⟩ := mem_get_subgraph_node p roots (o := kv.1) (n := kv.2) hkv
    obtain ⟨s1, s2, s3, s4⟩ := hS kv.1 h1
    have hpos : 0 < kv.1 := by
      rw [Pog.is_node_iff] at s1
      omega
    obtain ⟨i, hil, hie, _, _, hch⟩ := hwf.children_of_node (Or.inl (by rw [s2]; exact s3)) s1
    refine ⟨by omega, s1, hpos, s3, ?_⟩
    intro a ha
    have := hch a ha
    exact ⟨⟨this.1, by omega⟩, by omega, s4 a ha⟩
  -- the value of a node from the values of the literals of its arguments
  have hnode : ∀ kv ∈ p.get_subgraph roots,
      (∀ a ∈ p.get_arguments kv.1, p.is_node a = true →
        σ (Pog.remap_get (p.get_subgraph roots) (IABS a)) = p.beval σ k (IABS a)) →
      ((∀ c ∈ node_clauses p (p.get_subgraph roots) kv, clause_true σ c = true) ↔
        σ kv.2 = p.beval σ k kv.1) := by
    intro kv hkv hargs
    obtain ⟨e1, e2, e3, e4, e5⟩ := hentry kv hkv
    have hv : ∀ a ∈ p.get_arguments kv.1,
        clausify_literal p (p.get_subgraph roots) a ≠ 0 ∧
        lit_true σ (clausify_literal p (p.get_subgraph roots) a) = p.beval σ k a :=
      fun a ha => clausify_literal_value hwf roots σ k hk (e5 a ha).1 (e5 a ha).2.2 (hargs a ha)
    rw [node_clauses_sat p _ σ kv e1 (fun a ha => (hv a ha).1),
      hwf.beval_node_full σ (Or.inl (by rw [IABS_of_nonneg (by omega)]; exact e4)) e2 k hk]
    have : ((p.get_arguments kv.1).map fun a =>
        lit_true σ (clausify_literal p (p.get_subgraph roots) a)) =
        (p.get_arguments kv.1).map (p.beval σ k) :=
      List.map_congr_left (fun a ha => (hv a ha).2)
    rw [this]
    simp only [gt_iff_lt, e3, if_true]
  constructor
  · intro h
    -- by induction on the id of the node
    have key : ∀ (n : Nat) (kv : Int × Int), kv ∈ p.get_subgraph roots → kv.1.toNat < n →
        σ kv.2 = p.beval σ k kv.1 := by
      intro n
      induction n with
      | zero => intro kv _ h0; omega
      | succ n ih =>
        intro kv hkv hlt
        obtain ⟨e1, e2, e3, e4, e5⟩ := hentry kv hkv
        apply (hnode kv hkv ?_).1 (fun c hc => h c kv hkv hc)
        intro a ha hna
        have ha' := e5 a ha
        have hm := remap_get_mem p roots (ha'.2.2 hna)
        exact ih _ hm (by
          have := IABS_nonneg a
          simp only
          omega)
    intro kv hkv
    exact key (kv.1.toNat + 1) kv hkv (Nat.lt_succ_self _)
  · intro h c kv hkv hc
    refine (hnode kv hkv ?_).2 (h kv hkv) c hc
    intro a ha hna
    have ha' := (hentry kv hkv).2.2.2.2 a ha
    exact h _ (remap_get_mem p roots (ha'.2.2 hna))

end Compiler

open pog_type_t action_t var_t
namespace Compiler

theorem tseitin_assignment_fresh (p : Pog) (roots : List Int) (τ : Int → Bool) {v : Int}
    (h : (p.nvar : Int) < v ∧ v ≤ (p.nvar : Int) + (p.get_subgraph roots).length) :
    tseitin_assignment p roots τ v =
      p.beval τ (p.nodes.length + 1)
        ((ascList (subgraph_nodes p roots)).getD (v - p.nvar - 1).toNat 0) := by
  unfold tseitin_assignment
  rw [if_pos h]

theorem tseitin_assignment_input (p : Pog) (roots : List Int) (τ : Int → Bool) {v : Int}
    (h : v ≤ (p.nvar : Int)) : tseitin_assignment p roots τ v = τ v := by
  unfold tseitin_assignment
  rw [if_neg (by omega)]

theorem fresh_entry (p : Pog) (roots : List Int) {v : Int}
    (h : (p.nvar : Int) < v ∧ v ≤ (p.nvar : Int) + (p.get_subgraph roots).length) :
    ((ascList (subgraph_nodes p roots)).getD (v - p.nvar - 1).toNat 0, v) ∈ p.get_subgraph roots := by
  rw [mem_get_subgraph]
  have hl := get_subgraph_length p roots
  refine ⟨(v - p.nvar - 1).toNat, ?_, by omega⟩
  rw [List.getD_eq_getElem?_getD, List.getElem?_eq_getElem (by omega)]
  rfl

/-- The defining clauses hold exactly when every fresh variable has the value that
`tseitin_assignment` gives it. -/
theorem clausify_nodes_sat_iff {rt : Runtime} {p : Pog} (hwf : p.WF rt) (roots : List Int)
    (hroots : ∀ r ∈ roots, 1 ≤ IABS r ∧ IABS r ≤ (p.nvar : Int) + p.nodes.length)
    (σ : Int → Bool) :
    (∀ c ∈ (clausify_nodes p roots).clauses, clause_true σ c = true) ↔
      ∀ v, (p.nvar : Int) < v → v ≤ (p.nvar : Int) + (p.get_subgraph roots).length →
        σ v = tseitin_assignment p roots σ v := by
  rw [clausify_nodes_sat hwf roots hroots σ (p.nodes.length + 1) (Nat.lt_succ_self _)]
  constructor
  · intro h v h1 h2
    rw [tseitin_assignment_fresh p roots σ ⟨h1, h2⟩]
    exact h _ (fresh_entry p roots ⟨h1, h2⟩)
  · intro h kv hkv
    obtain ⟨_, h1, h2, h3⟩ := mem_get_subgraph_node p roots (o := kv.1) (n := kv.2) hkv
    rw [h kv.2 h1 h2, tseitin_assignment_fresh p roots σ ⟨h1, h2⟩, h3]

theorem tseitin_assignment_congr {rt : Runtime} {p : Pog} (hwf : p.WF rt) (roots : List Int)
    (hroots : ∀ r ∈ roots, 1 ≤ IABS r ∧ IABS r ≤ (p.nvar : Int) + p.nodes.length)
    (σ τ : Int → Bool) (h : ∀ v, 1 ≤ v → v ≤ (p.nvar : Int) → σ v = τ v) {v : Int}
    (hv : (p.nvar : Int) < v ∧ v ≤ (p.nvar : Int) + (p.get_subgraph roots).length) :
    tseitin_assignment p roots σ v = tseitin_assignment p roots τ v := by
  rw [tseitin_assignment_fresh p roots σ hv, tseitin_assignment_fresh p roots τ hv]
  obtain ⟨hm, _⟩ := mem_get_subgraph_node p roots (fresh_entry p roots hv)
  obtain ⟨s1, s2, s3, _⟩ := (subgraph_nodes_spec hwf roots
    (fun r hr => Or.inl (hroots r hr).2)).2 _ hm
  rw [Pog.is_node_iff] at s1
  exact hwf.beval_congr σ τ h _ _ ⟨by omega, by rw [s2]; exact s3⟩

/-- C9. For every list of non-constant root edges of a well-formed graph, the CNF that
`clausify` builds is the node-defining clauses followed by one unit clause for each root;
the defining clauses hold under an assignment exactly when every fresh node variable has
the Boolean value of its node (Product = AND, Sum = OR) under the values of the input
variables; so each assignment to the input variables extends to a satisfying assignment,
two satisfying assignments that agree on the input variables agree on the fresh
variables, and the whole CNF is satisfiable if and only if some assignment to the input
variables makes every root edge true. -/
theorem clausify_tseitin (rt : Runtime) (p : Pog) (hwf : p.WF rt) (roots : List Int)
    (hroots : ∀ r ∈ roots, 1 ≤ IABS r ∧ IABS r ≤ (p.nvar : Int) + p.nodes.length) :
    (clausify p roots).clauses =
      (clausify_nodes p roots).clauses ++
        roots.map (fun r => [clausify_literal p (p.get_subgraph roots) r]) ∧
    (∀ σ : Int → Bool, (∀ c ∈ (clausify_nodes p roots).clauses, clause_true σ c = true) ↔
      ∀ v, (p.nvar : Int) < v → v ≤ (p.nvar : Int) + (p.get_subgraph roots).length →
        σ v = p.beval σ (p.nodes.length + 1)
          ((ascList (subgraph_nodes p roots)).getD (v - p.nvar - 1).toNat 0)) ∧
    (∀ τ : Int → Bool, (∀ v, v ≤ (p.nvar : Int) → tseitin_assignment p roots τ v = τ v) ∧
      ∀ c ∈ (clausify_nodes p roots).clauses,
        clause_true (tseitin_assignment p roots τ) c = true) ∧
    (∀ σ σ' : Int → Bool, (∀ v, 1 ≤ v → v ≤ (p.nvar : Int) → σ v = σ' v) →
      (∀ c ∈ (clausify_nodes p roots).clauses, clause_true σ c = true) →
      (∀ c ∈ (clausify_nodes p roots).clauses, clause_true σ' c = true) →
      ∀ v, (p.nvar : Int) < v → v ≤ (p.nvar : Int) + (p.get_subgraph roots).length →
        σ v = σ' v) ∧
    ((∃ σ : Int → Bool, ∀ c ∈ (clausify p roots).clauses, clause_true σ c = true) ↔
      ∃ τ : Int → Bool, ∀ r ∈ roots, p.beval τ (p.nodes.length + 1) r = true) := by
  have hB : ∀ τ : Int → Bool, (∀ v, v ≤ (p.nvar : Int) → tseitin_assignment p roots τ v = τ v) ∧
      ∀ c ∈ (clausify_nodes p roots).clauses,
        clause_true (tseitin_assignment p roots τ) c = true := by
    intro τ
    refine ⟨fun v hv => tseitin_assignment_input p roots τ hv, ?_⟩
    rw [clausify_nodes_sat_iff hwf roots hroots]
    intro v h1 h2
    exact (tseitin_assignment_congr hwf roots hroots _ τ
      (fun u _ hu => tseitin_assignment_input p roots τ hu) ⟨h1, h2⟩).symm
  have hroot : ∀ σ : Int → Bool,
      (∀ c ∈ (clausify_nodes p roots).clauses, clause_true σ c = true) → ∀ r ∈ roots,
      clause_true σ [clausify_literal p (p.get_subgraph roots) r] =
        p.beval σ (p.nodes.length + 1) r := by
    intro σ hσ r hr
    have hkv := (clausify_nodes_sat hwf roots hroots σ (p.nodes.length + 1)
      (Nat.lt_succ_self _)).1 hσ
    have hS := (subgraph_nodes_spec hwf roots (fun r hr => Or.inl (hroots r hr).2)).1 r hr
    have := (clausify_literal_value hwf roots σ (p.nodes.length + 1) (Nat.lt_succ_self _)
      (hroots r hr) hS (fun hn => hkv _ (remap_get_mem p roots (hS hn)))).2
    rw [← this]
    simp [clause_true]
  refine ⟨clausify_clauses p roots, ?_, hB, ?_, ?_⟩
  · intro σ
    rw [clausify_nodes_sat_iff hwf roots hroots]
    constructor
    · intro h v h1 h2
      rw [h v h1 h2, tseitin_assignment_fresh p roots σ ⟨h1, h2⟩]
    · intro h v h1 h2
      rw [tseitin_assignment_fresh p roots σ ⟨h1, h2⟩]
      exact h v h1 h2
  · intro σ σ' hag h1 h2 v hv1 hv2
    rw [(clausify_nodes_sat_iff hwf roots hroots σ).1 h1 v hv1 hv2,
      (clausify_nodes_sat_iff hwf roots hroots σ').1 h2 v hv1 hv2]
    exact tseitin_assignment_congr hwf roots hroots σ σ' hag ⟨hv1, hv2⟩
  · rw [clausify_clauses]
    constructor
    · rintro ⟨σ, hσ⟩
      refine ⟨σ, fun r hr => ?_⟩
      have hd : ∀ c ∈ (clausify_nodes p roots).clauses, clause_true σ c = true :=
        fun c hc => hσ c (List.mem_append_left _ hc)
      rw [← hroot σ hd r hr]
      exact hσ _ (List.mem_append_right _ (List.mem_map.2 ⟨r, hr, rfl⟩))
    · rintro ⟨τ, hτ⟩
      refine ⟨tseitin_assignment p roots τ, fun c hc => ?_⟩
      rcases List.mem_append.1 hc with hc | hc
      · exact (hB τ).2 c hc
      · obtain ⟨r, hr, rfl⟩ := List.mem_map.1 hc
        rw [hroot _ (hB τ).2 r hr, ← hτ r hr]
        exact hwf.beval_congr _ τ (fun u _ hu => tseitin_assignment_input p roots τ hu) _ _
          (hroots r hr)

/-- C9 (witness). The theorem `clausify_tseitin` at the root `x1 and x2`, the node 3 of a
graph over two variables. -/
theorem clausify_tseitin_witness :
    (∃ σ : Int → Bool,
      ∀ c ∈ (clausify (Pog.build stdRuntime (Pog.init 2 {1, 2} ∅) POG_PRODUCT [1, 2]).1
        [3]).clauses, clause_true σ c = true) ↔
    ∃ τ : Int → Bool, ∀ r ∈ [(3 : Int)],
      (Pog.build stdRuntime (Pog.init 2 {1, 2} ∅) POG_PRODUCT [1, 2]).1.beval τ
        ((Pog.build stdRuntime (Pog.init 2 {1, 2} ∅) POG_PRODUCT [1, 2]).1.nodes.length + 1) r
        = true :=
  (clausify_tseitin stdRuntime _
    (Pog.Reachable.wf stdRuntime_sort_ok
      (Pog.Reachable.build _ _ _ (Pog.Reachable.init 2 {1, 2} ∅) (Or.inl rfl) (by decide))
      (by decide))
    [3] (by decide)).2.2.2.2

end Compiler

open pog_type_t action_t var_t
namespace Cnf

theorem fold_update_apply (f : Finset Int → Finset Int) (hf : ∀ x, f (f x) = f x) :
    ∀ (lits : List Int) (lc : Int → Finset Int) (l : Int),
    (lits.foldl (fun lc lit => Function.update lc lit (f (lc lit))) lc) l =
      if l ∈ lits then f (lc l) else lc l := by
  intro lits
  induction lits with
  | nil => intro lc l; simp
  | cons a r ih =>
    intro lc l
    rw [List.foldl_cons, ih]
    by_cases hla : l = a
    · subst hla
      by_cases hr : l ∈ r
      · simp [hr, hf]
      · simp [hr]
    · by_cases hr : l ∈ r
      · simp [hr, hla, Function.update_noteq hla]
      · simp [hr, hla, Function.update_noteq hla]

theorem activate_clause_index (s : Cnf) (cid l : Int) :
    (s.activate_clause cid).literal_clauses l =
      if l ∈ s.clause cid then insert cid (s.literal_clauses l) else s.literal_clauses l :=
  fold_update_apply (fun x => insert cid x) (fun x => by simp) _ _ _

theorem deactivate_clause_index (s : Cnf) (cid l : Int) :
    (s.deactivate_clause cid).literal_clauses l =
      if l ∈ s.clause cid then (s.literal_clauses l).erase cid else s.literal_clauses l :=
  fold_update_apply (fun x => x.erase cid) (fun x => by simp) _ _ _

theorem clause_congr {a b : Cnf} (h : a.clauses = b.clauses) (cid : Int) :
    a.clause cid = b.clause cid := by
  unfold clause; rw [h]

theorem below_refl (a : Cnf) : a.below a :=
  ⟨rfl, rfl, rfl, id, rfl, rfl, rfl, rfl, rfl, rfl, rfl, rfl, rfl⟩

theorem below_trans {a b c : Cnf} (h1 : a.below b) (h2 : b.below c) : a.below c := by
  obtain ⟨a1, a2, a3, a4, a5, a6, a7, a8, a9, a10, a11, a12, a13⟩ := h1
  obtain ⟨b1, b2, b3, b4, b5, b6, b7, b8, b9, b10, b11, b12, b13⟩ := h2
  exact ⟨a1.trans b1, a2.trans b2, a3.trans b3, fun h => b4 (a4 h), a5.trans b5, a6.trans b6,
    a7.trans b7, a8.trans b8, a9.trans b9, a10.trans b10, a11.trans b11, a12.trans b12,
    a13.trans b13⟩

theorem below_set_stack {a b : Cnf} (h : a.below b) (l : List action_record) :
    below { a with action_stack := l } { b with action_stack := l } := by
  obtain ⟨a1, a2, a3, a4, a5, a6, a7, a8, a9, a10, a11, a12, a13⟩ := h
  exact ⟨a1, a2, a3, a4, rfl, a6, a7, a8, a9, a10, a11, a12, a13⟩

theorem below_undo {a b : Cnf} (h : a.below b) (ar : action_record) :
    (a.undo_action ar).below (b.undo_action ar) := by
  obtain ⟨a1, a2, a3, a4, a5, a6, a7, a8, a9, a10, a11, a12, a13⟩ := h
  unfold undo_action below
  cases har : ar.action <;> dsimp only
  · exact ⟨a1, a2, a3, a4, a5, a6, a7, a8, a9, a10, a11, a12, a13⟩
  · exact ⟨a1, a2, a3, (fun h => absurd h (by decide)), a5, a6, a7, a8, a9, a10, a11, a12, a13⟩
  · refine ⟨a1, a2, ?_, a4, a5, a6, ?_, a8, a9, a10, a11, a12, a13⟩
    · funext l
      rw [activate_clause_index, activate_clause_index, clause_congr a2, a3]
    · simp [activate_clause, a7]
  · exact ⟨a1, a2, a3, a4, a5, a6, a7, by simp [a8], by simp [a9], a10, a11, a12, a13⟩
  · exact ⟨a1, a2, a3, a4, a5, a6, a7, by simp [a8], a9, a10, a11, a12, a13⟩
  · exact ⟨a1, a2, a3, a4, a5, a6, a7, a8, by simp [a9], a10, a11, a12, a13⟩
  · exact ⟨a1, a2, a3, a4, a5, a6, a7, a8, a9, by simp [a10], a11, a12, a13⟩
  · simp only [a6]
    cases hl : b.active_stack.getLast? with
    | none => exact ⟨a1, a2, a3, a4, a5, a6, a7, a8, a9, a10, a11, a12, a13⟩
    | some avr => exact ⟨a1, a2, rfl, a4, a5, by simp [a6], rfl, a8, a9, a10, a11, a12, a13⟩

theorem below_pop_loop : ∀ (l : List action_record) {a b : Cnf}, a.below b →
    (pop_loop l a).below (pop_loop l b) := by
  intro l
  induction l with
  | nil =>
    intro a b h
    exact below_set_stack h []
  | cons ar below ih =>
    intro a b h
    simp only [pop_loop]
    split_ifs with hs
    · exact below_set_stack h _
    · exact ih (below_undo (below_set_stack h _) ar)

theorem below_pop_context {a b : Cnf} (h : a.below b) : a.pop_context.below b.pop_context := by
  unfold pop_context
  rw [h.2.2.2.2.1]
  exact below_pop_loop _ h

theorem pop_context_new_context (s : Cnf) : s.new_context.pop_context = s := by
  unfold pop_context new_context
  simp [pop_loop]

/-- Popping after an operation that pushed the record `ar` undoes `ar` and goes on with the
stack as it was before. -/
theorem pop_context_push (s t : Cnf) (ar : action_record)
    (h : t.action_stack = s.action_stack ++ [ar]) (hs : ar.action ≠ ACTION_START_CONTEXT) :
    t.pop_context =
      pop_loop s.action_stack.reverse
        (undo_action { t with action_stack := s.action_stack } ar) := by
  unfold pop_context
  rw [h, List.reverse_append, List.reverse_singleton, List.singleton_append]
  simp only [pop_loop, hs, if_false, List.reverse_reverse]

theorem consistent_of_below {a b : Cnf} (h : a.below b) (hb : b.consistent) : a.consistent := by
  obtain ⟨a1, a2, a3, a4, a5, a6, a7, a8, a9, a10, a11, a12, a13⟩ := h
  constructor
  · intro lit cid
    rw [a3, a7, clause_congr a2]
    exact hb.1 lit cid
  · rw [a8, a9]; exact hb.2

theorem undoable_refl {s : Cnf} (h : s.consistent) : undoable s s :=
  ⟨h, rfl, below_refl _⟩

theorem undoable_trans {a b c : Cnf} (h1 : undoable a b) (h2 : undoable b c) : undoable a c :=
  ⟨h2.1, h2.2.1.trans h1.2.1, below_trans h2.2.2 h1.2.2⟩

/-- A step that pushes one record is undoable when undoing the record gives the state
before the step. -/
theorem undoable_of_push (s t : Cnf) (ar : action_record) (ht : t.consistent)
    (hc : t.clauses = s.clauses)
    (h : t.action_stack = s.action_stack ++ [ar]) (hs : ar.action ≠ ACTION_START_CONTEXT)
    (hu : (undo_action { t with action_stack := s.action_stack } ar).below s) :
    undoable s t := by
  refine ⟨ht, hc, ?_⟩
  rw [pop_context_push s t ar h hs]
  exact below_pop_loop _ hu

end Cnf

open pog_type_t action_t var_t
namespace Cnf

theorem undoable_trigger_conflict {s : Cnf} (h : s.consistent) : undoable s s.trigger_conflict := by
  refine undoable_of_push s _ ⟨ACTION_CONFLICT, 0⟩ h ?_ ?_ ?_ ?_
  · rfl
  · rfl
  · intro hh; cases hh
  · exact ⟨rfl, rfl, rfl, fun h => Bool.noConfusion h, rfl, rfl, rfl, rfl, rfl, rfl, rfl, rfl, rfl⟩

theorem undoable_assign_literal {s : Cnf} (h : s.consistent) (lit : Int) (bcp : Bool) :
    undoable s (s.assign_literal lit bcp) := by
  unfold assign_literal
  dsimp only
  split_ifs with h1 h2 h3 h4 h5
  · exact undoable_trigger_conflict h
  · exact undoable_refl h
  · -- derived by BCP
    have h3' : lit ∉ s.unit_literals := by simpa using h3
    have hb : lit ∉ s.bcp_unit_literals := fun hb => h3' (h.2 hb)
    refine undoable_of_push s _ ⟨ACTION_BCP, lit⟩ ?_ ?_ ?_ ?_ ?_
    · exact ⟨h.1, Finset.insert_subset_insert _ h.2⟩
    · rfl
    · rfl
    · intro hh; cases hh
    · exact ⟨rfl, rfl, rfl, id, rfl, rfl, rfl, by simp [undo_action, Finset.erase_insert h3'],
        by simp [undo_action, Finset.erase_insert hb], rfl, rfl, rfl, rfl⟩
  · exact undoable_refl h
  · -- converted from a BCP unit
    have hb : lit ∈ s.bcp_unit_literals := by simpa using h5
    refine undoable_of_push s _ ⟨ACTION_ASSERT_FROM_BCP, lit⟩ ?_ ?_ ?_ ?_ ?_
    · exact ⟨h.1, (Finset.erase_subset _ _).trans h.2⟩
    · rfl
    · rfl
    · intro hh; cases hh
    · exact ⟨rfl, rfl, rfl, id, rfl, rfl, rfl, rfl,
        by simp [undo_action, Finset.insert_erase hb], rfl, rfl, rfl, rfl⟩
  · -- asserted
    have hb : lit ∉ s.bcp_unit_literals := by simpa using h5
    have hu : lit ∉ s.unit_literals := by
      intro hu
      apply h4
      simp [hu, hb]
    refine undoable_of_push s _ ⟨ACTION_ASSERT, lit⟩ ?_ ?_ ?_ ?_ ?_
    · exact ⟨h.1, h.2.trans (Finset.subset_insert _ _)⟩
    · rfl
    · rfl
    · intro hh; cases hh
    · exact ⟨rfl, rfl, rfl, id, rfl, rfl, rfl, by simp [undo_action, Finset.erase_insert hu],
        rfl, rfl, rfl, rfl, rfl⟩

theorem undoable_uquantify {s : Cnf} (h : s.consistent) (var : Int)
    (hv : var ∉ s.uquantified_variables) : undoable s (s.uquantify_variable var) := by
  refine undoable_of_push s _ ⟨ACTION_UQUANTIFY, var⟩ ?_ ?_ ?_ ?_ ?_
  · exact ⟨h.1, h.2⟩
  · rfl
  · rfl
  · intro hh; cases hh
  · exact ⟨rfl, rfl, rfl, id, rfl, rfl, rfl, rfl, rfl,
      by simp [undo_action, uquantify_variable, Finset.erase_insert hv], rfl, rfl, rfl⟩

theorem index_exact_deactivate {s : Cnf} (h : s.index_exact) (cid : Int) :
    (s.deactivate_clause cid).index_exact := by
  intro l c
  rw [deactivate_clause_index]
  have hcl : (s.deactivate_clause cid).clause c = s.clause c := rfl
  have hac : (s.deactivate_clause cid).active_clauses = s.active_clauses.erase cid := rfl
  rw [hcl, hac, Finset.mem_erase]
  by_cases hl : l ∈ s.clause cid
  · simp only [hl, if_true, Finset.mem_erase, h l c]
    tauto
  · simp only [hl, if_false, h l c]
    constructor
    · rintro ⟨h1, h2⟩
      refine ⟨⟨?_, h1⟩, h2⟩
      intro hc; rw [hc] at h2; exact hl h2
    · rintro ⟨⟨_, h1⟩, h2⟩
      exact ⟨h1, h2⟩

theorem undoable_deactivate {s : Cnf} (h : s.consistent) (cid : Int)
    (hc : cid ∈ s.active_clauses) : undoable s (s.deactivate_clause cid) := by
  refine undoable_of_push s _ ⟨ACTION_DEACTIVATE_CLAUSE, cid⟩ ?_ ?_ ?_ ?_ ?_
  · exact ⟨index_exact_deactivate h.1 cid, h.2⟩
  · rfl
  · rfl
  · intro hh; cases hh
  · refine ⟨rfl, rfl, ?_, id, rfl, rfl, ?_, rfl, rfl, rfl, rfl, rfl, rfl⟩
    · funext l
      show (activate_clause _ cid).literal_clauses l = _
      rw [activate_clause_index]
      have e1 : (({ s.deactivate_clause cid with action_stack := s.action_stack } : Cnf).clause cid)
          = s.clause cid := rfl
      have e2 : (({ s.deactivate_clause cid with action_stack := s.action_stack } : Cnf).literal_clauses l)
          = (s.deactivate_clause cid).literal_clauses l := rfl
      rw [e1, e2, deactivate_clause_index]
      by_cases hl : l ∈ s.clause cid
      · simp only [hl, if_true]
        exact Finset.insert_erase ((h.1 l cid).2 ⟨hc, hl⟩)
      · simp only [hl, if_false]
    · show insert cid (s.active_clauses.erase cid) = s.active_clauses
      exact Finset.insert_erase hc

theorem undoable_set_variable_type {s : Cnf} (h : s.consistent) (var : Int) (type : var_t) :
    undoable s (s.set_variable_type var type) := by
  refine ⟨⟨h.1, h.2⟩, rfl, ?_⟩
  apply below_pop_context
  exact ⟨rfl, rfl, rfl, id, rfl, rfl, rfl, rfl, rfl, rfl, rfl, rfl, rfl⟩

/-- Deactivating a list of distinct active clauses. -/
theorem undoable_deactivate_clauses : ∀ (remove : List Int) {s : Cnf}, s.consistent →
    remove.Nodup → (∀ cid ∈ remove, cid ∈ s.active_clauses) →
    undoable s (s.deactivate_clauses remove) := by
  intro remove
  induction remove with
  | nil => intro s h _ _; exact undoable_refl h
  | cons cid rest ih =>
    intro s h hnd hact
    rw [List.nodup_cons] at hnd
    have h1 := undoable_deactivate h cid (hact cid (List.mem_cons_self _ _))
    have h2 := ih (s := s.deactivate_clause cid) h1.1 hnd.2 (by
      intro c hc
      show c ∈ s.active_clauses.erase cid
      rw [Finset.mem_erase]
      refine ⟨?_, hact c (List.mem_cons_of_mem _ hc)⟩
      intro e; rw [e] at hc; exact hnd.1 hc)
    exact undoable_trans h1 h2

end Cnf

open pog_type_t action_t var_t
namespace Cnf

theorem inner_push_eq (s : Cnf) (cid : Int) : ∀ (lits : List Int) (lc : Int → Finset Int),
    (∀ lit ∈ lits, s.skip_literal lit = false) →
    lits.foldl (fun lc lit => if s.skip_literal lit then lc
        else Function.update lc lit (insert cid (lc lit))) lc =
      lits.foldl (fun lc lit => Function.update lc lit ((fun x => insert cid x) (lc lit))) lc := by
  intro lits
  induction lits with
  | nil => intro lc _; rfl
  | cons a r ih =>
    intro lc h
    rw [List.foldl_cons, List.foldl_cons, h a (List.mem_cons_self _ _)]
    exact ih _ (fun l hl => h l (List.mem_cons_of_mem _ hl))

theorem push_index (s : Cnf) : ∀ (cids : List Int) (lc : Int → Finset Int),
    (∀ cid ∈ cids, ∀ lit ∈ s.clause cid, s.skip_literal lit = false) →
    ∀ (l c : Int),
    c ∈ (cids.foldl (fun lc cid => (s.clause cid).foldl
        (fun lc lit => if s.skip_literal lit then lc
          else Function.update lc lit (insert cid (lc lit))) lc) lc) l ↔
      c ∈ lc l ∨ (c ∈ cids ∧ l ∈ s.clause c) := by
  intro cids
  induction cids with
  | nil => intro lc _ l c; simp
  | cons cid rest ih =>
    intro lc hg l c
    rw [List.foldl_cons, ih _ (fun c hc => hg c (List.mem_cons_of_mem _ hc)),
      inner_push_eq s cid _ lc (hg cid (List.mem_cons_self _ _)),
      fold_update_apply (fun x => insert cid x) (fun x => by simp)]
    by_cases hl : l ∈ s.clause cid
    · simp only [hl, if_true, Finset.mem_insert, List.mem_cons]
      constructor
      · rintro ((h | h) | h)
        · right; exact ⟨Or.inl h, by rw [h]; exact hl⟩
        · left; exact h
        · right; exact ⟨Or.inr h.1, h.2⟩
      · rintro (h | ⟨h | h, h2⟩)
        · left; right; exact h
        · left; left; exact h
        · right; exact ⟨h, h2⟩
    · simp only [hl, if_false, List.mem_cons]
      constructor
      · rintro (h | h)
        · left; exact h
        · right; exact ⟨Or.inr h.1, h.2⟩
      · rintro (h | ⟨h | h, h2⟩)
        · left; exact h
        · rw [h] at h2; exact absurd h2 hl
        · right; exact ⟨h, h2⟩

theorem undoable_push_active {s : Cnf} (h : s.consistent) (nac : Finset Int)
    (hg : ∀ cid ∈ nac, ∀ lit ∈ s.clause cid, s.skip_literal lit = false) :
    undoable s (s.push_active nac) := by
  refine undoable_of_push s _ ⟨ACTION_ACTIVE_CLAUSES, 0⟩ ?_ ?_ ?_ ?_ ?_
  · refine ⟨?_, h.2⟩
    intro l c
    have := push_index s (ascList nac) (fun _ => ∅)
      (fun cid hc => hg cid ((mem_ascList _ _).1 hc)) l c
    simp only [Finset.not_mem_empty, false_or, mem_ascList] at this
    exact this
  · rfl
  · rfl
  · intro hh; cases hh
  · have e1 : (s.active_stack ++ [(⟨s.active_clauses, s.literal_clauses⟩ : active_record)]).getLast?
        = some ⟨s.active_clauses, s.literal_clauses⟩ := by simp
    simp only [undo_action, push_active, e1, List.dropLast_concat]
    exact ⟨rfl, rfl, rfl, id, rfl, rfl, rfl, rfl, rfl, rfl, rfl, rfl, rfl⟩

/-- The loop of `bcp` is undone by `pop_context`, for every bound on its rounds. -/
theorem undoable_bcp_loop (w : Walk) (hw : w.ok) (preprocess : Bool) : ∀ (fuel : Nat) (s : Cnf) (queue : List Int)
    (count : Nat), s.consistent → undoable s (bcp_loop w preprocess fuel s queue count).1 := by
  intro fuel
  induction fuel with
  | zero => intro s queue count h; exact undoable_refl h
  | succ fuel ih =>
    intro s queue count h
    unfold bcp_loop
    by_cases hc : s.has_conflict = true
    · simp only [hc, if_true]; exact undoable_refl h
    · simp only [hc, Bool.false_eq_true, if_false]
      cases queue with
      | nil => exact undoable_refl h
      | cons cid rest =>
        simp only
        by_cases ha : cid ∈ s.active_clauses
        · simp only [ha, not_true_eq_false, if_false]
          by_cases h1 : s.propagate_clause cid = CONFLICT
          · simp only [h1, if_true]
            have hs := undoable_trigger_conflict h
            exact undoable_trans hs (ih _ rest count hs.1)
          · simp only [h1, if_false]
            by_cases h2 : s.propagate_clause cid = 0
            · simp only [h2, if_true]
              exact ih _ rest count h
            · simp only [h2, if_false]
              by_cases h3 : s.propagate_clause cid = TAUTOLOGY
              · simp only [h3, if_true]
                have hs := undoable_deactivate h cid ha
                exact undoable_trans hs (ih _ rest count hs.1)
              · simp only [h3, if_false]
                -- a derived unit literal
                have u1 : undoable s
                    (if preprocess then
                      s.set_variable_type (IABS (s.propagate_clause cid)) VAR_ELIM else s) := by
                  split_ifs
                  · exact undoable_set_variable_type h _ _
                  · exact undoable_refl h
                have u2 := undoable_assign_literal u1.1 (s.propagate_clause cid) true
                have ha2 : cid ∈ ((if preprocess then
                      s.set_variable_type (IABS (s.propagate_clause cid)) VAR_ELIM
                      else s).assign_literal (s.propagate_clause cid) true).active_clauses := by
                  have e : ∀ (t : Cnf) (l : Int) (b : Bool),
                      (t.assign_literal l b).active_clauses = t.active_clauses := by
                    intro t l b
                    unfold assign_literal trigger_conflict
                    dsimp only
                    split_ifs <;> rfl
                  rw [e]
                  split_ifs
                  · exact ha
                  · exact ha
                have u3 := undoable_deactivate u2.1 cid ha2
                have u4 := undoable_deactivate_clauses
                  ((w.order [fuel, 0] ((((if preprocess then
                      s.set_variable_type (IABS (s.propagate_clause cid)) VAR_ELIM
                      else s).assign_literal (s.propagate_clause cid) true).deactivate_clause
                      cid).literal_clauses (s.propagate_clause cid))).filter fun ocid =>
                    decide (ocid ∈ (((if preprocess then
                      s.set_variable_type (IABS (s.propagate_clause cid)) VAR_ELIM
                      else s).assign_literal (s.propagate_clause cid) true).deactivate_clause
                      cid).active_clauses)) u3.1
                  ((hw.nodup _ _).filter _)
                  (fun c hc => by simpa using (List.mem_filter.1 hc).2)
                exact undoable_trans (undoable_trans (undoable_trans (undoable_trans u1 u2) u3) u4)
                  (ih _ _ _ u4.1)
        · simp only [ha, not_false_eq_true, if_true]
          exact ih _ rest count h

theorem undoable_bcp {w : Walk} (hw : w.ok) {s : Cnf} (h : s.consistent) (preprocess : Bool) :
    undoable s (s.bcp w preprocess).1 :=
  undoable_bcp_loop w hw preprocess _ s _ 0 h

end Cnf

open pog_type_t action_t var_t
namespace Cnf

theorem bve_scan_bucket_spec (s : Cnf) (eliminated : Finset Int) (d : Nat) :
    ∀ (l : List Int) (v : Int), (bve_scan_bucket s eliminated d l).2 = some v →
      v ∉ eliminated ∧
      ((s.literal_clauses v).card = d ∨ (s.literal_clauses (-v)).card = d) := by
  intro l
  induction l with
  | nil => intro v h; simp [bve_scan_bucket] at h
  | cons dvar rest ih =>
    intro v h
    unfold bve_scan_bucket at h
    split_ifs at h with hc
    · simp only [Option.some.injEq] at h
      rw [← h]; exact hc
    · exact ih v h

/-- With `maxdegree` zero, the literal that `bve` selects is in no indexed clause. -/
theorem bve_select_zero (w : Walk) (s : Cnf) (eliminated : Finset Int) (dv dv1 : Nat → Finset Int)
    (var lit : Int) (degree : Nat)
    (h : bve_select w s eliminated 1 0 dv = (dv1, some (var, lit, degree))) :
    s.literal_clauses lit = ∅ ∧ degree = 0 := by
  unfold bve_select at h
  dsimp only at h
  cases hr : (bve_scan_bucket s eliminated 0 (w.order [0] (dv 0))).2 with
  | none =>
    rw [hr] at h
    simp [bve_select] at h
  | some v =>
    rw [hr] at h
    simp only [Prod.mk.injEq, Option.some.injEq] at h
    obtain ⟨_, hv, hl, hd⟩ := h
    have hs := (bve_scan_bucket_spec s eliminated 0 _ v hr).2
    refine ⟨?_, hd.symm⟩
    rw [← hl]
    split_ifs with hle
    · rcases hs with h0 | h0
      · exact Finset.card_eq_zero.1 h0
      · rw [h0] at hle
        exact Finset.card_eq_zero.1 (Nat.le_zero.1 hle)
    · rcases hs with h0 | h0
      · rw [h0] at hle
        exact absurd (Nat.zero_le _) hle
      · exact Finset.card_eq_zero.1 h0

/-- The loop of `bve` with `maxdegree` zero is undone by `pop_context`, for every bound on
its rounds. -/
theorem undoable_bve_loop (rt : Runtime) (w : Walk) (hw : w.ok) (preprocess : Bool) : ∀ (fuel : Nat) (s : Cnf)
    (dv : Nat → Finset Int) (eliminated : Finset Int), s.consistent →
    undoable s (bve_loop rt w preprocess 0 fuel s dv eliminated).1 := by
  intro fuel
  induction fuel with
  | zero => intro s dv el h; exact undoable_refl h
  | succ fuel ih =>
    intro s dv el h
    unfold bve_loop
    rcases hsel : bve_select ((w.sub fuel).sub 0) s el (0 + 1) 0 dv with ⟨dv1, _ | ⟨var, lit, degree⟩⟩
    · exact undoable_refl h
    · obtain ⟨hidx, hdeg⟩ := bve_select_zero _ s el dv dv1 var lit degree hsel
      dsimp only
      -- the state after the variable type is set
      have u1 : undoable s (if preprocess then s.set_variable_type var VAR_ELIM else s) := by
        split_ifs
        · exact undoable_set_variable_type h _ _
        · exact undoable_refl h
      have hidx1 : (if preprocess then s.set_variable_type var VAR_ELIM else s).literal_clauses
          = s.literal_clauses := by split_ifs <;> rfl
      have hc1 : w.order [fuel, 1] ((if preprocess then s.set_variable_type var VAR_ELIM
          else s).literal_clauses lit) = [] := by
        rw [hidx1, hidx]; exact hw.empty _
      generalize hs1 : (if preprocess then s.set_variable_type var VAR_ELIM else s) = s1
        at u1 hidx1 hc1
      simp only [hc1, List.foldl_nil, List.nil_append]
      have u3 := undoable_deactivate_clauses (w.order [fuel, 2] (s1.literal_clauses (-lit))) u1.1
        (hw.nodup _ _) (fun c hc => ((u1.1.1 (-lit) c).1 ((hw.mem _ _ _).1 hc)).1)
      split_ifs with hskip h4
      · exact ih _ _ _ h
      · have u4 := undoable_assign_literal u3.1 (-lit) true
        exact undoable_trans (undoable_trans (undoable_trans u1 u3) u4) (ih _ _ _ u4.1)
      · exact undoable_trans (undoable_trans u1 u3) (ih _ _ _ u3.1)

theorem undoable_bve (rt : Runtime) {w : Walk} (hw : w.ok) {s : Cnf} (h : s.consistent)
    (preprocess : Bool) : undoable s (s.bve rt w preprocess 0).1 :=
  undoable_bve_loop rt w hw preprocess _ s _ ∅ h

end Cnf

open pog_type_t action_t var_t
namespace Cnf

theorem consistent_new_context {s : Cnf} (h : s.consistent) : s.new_context.consistent := h

/-- Every run of operations inside a context is undone by `pop_context`. -/
theorem in_context_undoable (rt : Runtime) {s s' : Cnf} (h : in_context rt s s')
    (hs : s.consistent) : undoable s s' := by
  induction h with
  | refl s => exact undoable_refl hs
  | assign lit bcp _ ih => exact undoable_trans (ih hs) (undoable_assign_literal (ih hs).1 lit bcp)
  | uquantify var _ hv ih => exact undoable_trans (ih hs) (undoable_uquantify (ih hs).1 var hv)
  | deactivate cid _ hc ih => exact undoable_trans (ih hs) (undoable_deactivate (ih hs).1 cid hc)
  | push_active nac _ hg ih =>
    exact undoable_trans (ih hs) (undoable_push_active (ih hs).1 nac hg)
  | bcp w preprocess _ hw ih => exact undoable_trans (ih hs) (undoable_bcp hw (ih hs).1 preprocess)
  | bve w preprocess _ hw ih =>
    exact undoable_trans (ih hs) (undoable_bve rt hw (ih hs).1 preprocess)
  | @nested s s' s'' _ _ ih1 ih2 =>
    have h1 := ih1 hs
    have h2 := ih2 (consistent_new_context h1.1)
    have hb : s''.pop_context.below s' := by
      have := h2.2.2
      rw [pop_context_new_context] at this
      exact this
    exact ⟨consistent_of_below hb h1.1, hb.2.1.trans h1.2.1,
      below_trans (below_pop_context hb) h1.2.2⟩

/-- The state with no clause has an exact index. -/
theorem index_exact_init (n : Nat) : (Cnf.init n).index_exact := by
  intro lit cid
  simp [Cnf.init]

/-- The invariant of loading: the index is exact, the active clauses have ids from 1 to the
number of clauses, and the last clause is active. -/
theorem loading_new_clause {s : Cnf}
    (h : s.index_exact ∧ (∀ cid ∈ s.active_clauses, 1 ≤ cid ∧ cid ≤ (s.clauses.length : Int))) :
    s.new_clause.index_exact ∧
    (∀ cid ∈ s.new_clause.active_clauses, 1 ≤ cid ∧ cid ≤ (s.new_clause.clauses.length : Int)) ∧
    ((s.new_clause.clauses.length : Int) ∈ s.new_clause.active_clauses) ∧
    s.new_clause.clauses ≠ [] := by
  obtain ⟨h1, h2⟩ := h
  have hlen : s.new_clause.clauses.length = s.clauses.length + 1 := by simp [new_clause]
  refine ⟨?_, ?_, ?_, ?_⟩
  · intro lit cid
    have hidx : s.new_clause.literal_clauses = s.literal_clauses := rfl
    have hact : s.new_clause.active_clauses = insert ((s.clauses.length : Int) + 1) s.active_clauses := rfl
    rw [hidx, hact, h1 lit cid, Finset.mem_insert]
    constructor
    · rintro ⟨ha, hl⟩
      refine ⟨Or.inr ha, ?_⟩
      have hb := h2 cid ha
      unfold clause at hl ⊢
      have h0 : ¬ cid < 1 := by omega
      simp only [h0, if_false] at hl ⊢
      have : s.new_clause.clauses = s.clauses ++ [[]] := rfl
      rw [this, List.getD_eq_getElem?_getD, List.getElem?_append_left (by omega)]
      rw [List.getD_eq_getElem?_getD] at hl
      exact hl
    · rintro ⟨ha | ha, hl⟩
      · exfalso
        unfold clause at hl
        have h0 : ¬ cid < 1 := by omega
        simp only [h0, if_false] at hl
        have : s.new_clause.clauses = s.clauses ++ [[]] := rfl
        rw [this, List.getD_eq_getElem?_getD, List.getElem?_append_right (by omega)] at hl
        have e : (cid - 1).toNat - s.clauses.length = 0 := by omega
        rw [e] at hl
        simp at hl
      · refine ⟨ha, ?_⟩
        have hb := h2 cid ha
        unfold clause at hl ⊢
        have h0 : ¬ cid < 1 := by omega
        simp only [h0, if_false] at hl ⊢
        have : s.new_clause.clauses = s.clauses ++ [[]] := rfl
        rw [this, List.getD_eq_getElem?_getD, List.getElem?_append_left (by omega)] at hl
        rw [List.getD_eq_getElem?_getD]
        exact hl
  · intro cid hc
    have hact : s.new_clause.active_clauses = insert ((s.clauses.length : Int) + 1) s.active_clauses := rfl
    rw [hact, Finset.mem_insert] at hc
    rw [hlen]
    rcases hc with hc | hc
    · push_cast; omega
    · have := h2 cid hc
      push_cast; omega
  · rw [hlen]
    have hact : s.new_clause.active_clauses = insert ((s.clauses.length : Int) + 1) s.active_clauses := rfl
    rw [hact]
    push_cast
    exact Finset.mem_insert_self _ _
  · intro h; rw [h] at hlen; simp at hlen

theorem loading_add_literal {s : Cnf} (lit : Int)
    (h : s.index_exact ∧
      (∀ cid ∈ s.active_clauses, 1 ≤ cid ∧ cid ≤ (s.clauses.length : Int)) ∧
      ((s.clauses.length : Int) ∈ s.active_clauses) ∧ s.clauses ≠ []) :
    (s.add_literal lit).index_exact ∧
    (∀ cid ∈ (s.add_literal lit).active_clauses,
      1 ≤ cid ∧ cid ≤ ((s.add_literal lit).clauses.length : Int)) ∧
    (((s.add_literal lit).clauses.length : Int) ∈ (s.add_literal lit).active_clauses) ∧
    (s.add_literal lit).clauses ≠ [] := by
  obtain ⟨h1, h2, h3, h4⟩ := h
  have hcl : (s.add_literal lit).clauses = s.clauses.dropLast ++ [s.clauses.getLastD [] ++ [lit]] := rfl
  have hlen : (s.add_literal lit).clauses.length = s.clauses.length := by
    rw [hcl]
    have : 0 < s.clauses.length := List.length_pos.2 h4
    simp; omega
  have hact : (s.add_literal lit).active_clauses = s.active_clauses := rfl
  have hpos : 0 < s.clauses.length := List.length_pos.2 h4
  obtain ⟨D, x, hL⟩ : ∃ D x, s.clauses = D ++ [x] :=
    ⟨s.clauses.dropLast, s.clauses.getLast h4, (List.dropLast_append_getLast h4).symm⟩
  have hcl' : (s.add_literal lit).clauses = D ++ [x ++ [lit]] := by
    rw [hcl, hL]; simp
  have hLlen : s.clauses.length = D.length + 1 := by rw [hL]; simp
  -- the clauses after the step
  have hclause : ∀ cid : Int, 1 ≤ cid → cid ≤ (s.clauses.length : Int) →
      (s.add_literal lit).clause cid =
        if cid = s.clauses.length then s.clause cid ++ [lit] else s.clause cid := by
    intro cid c1 c2
    unfold clause
    have h0 : ¬ cid < 1 := by omega
    simp only [h0, if_false]
    rw [hcl']
    by_cases hc : cid = s.clauses.length
    · rw [if_pos hc]
      have e : (cid - 1).toNat = D.length := by omega
      rw [e, hL, List.getD_eq_getElem?_getD, List.getD_eq_getElem?_getD,
        List.getElem?_append_right (le_refl _), List.getElem?_append_right (le_refl _)]
      simp
    · rw [if_neg hc]
      have e : (cid - 1).toNat < D.length := by omega
      rw [hL, List.getD_eq_getElem?_getD, List.getD_eq_getElem?_getD,
        List.getElem?_append_left e, List.getElem?_append_left e]
  refine ⟨?_, ?_, ?_, ?_⟩
  · intro l cid
    have hidx : (s.add_literal lit).literal_clauses =
        Function.update s.literal_clauses lit
          (insert (s.clauses.length : Int) (s.literal_clauses lit)) := rfl
    rw [hidx, hact]
    by_cases hl : l = lit
    · subst hl
      rw [Function.update_same, Finset.mem_insert, h1 l cid]
      constructor
      · rintro (hc | ⟨ha, hm⟩)
        · rw [hc]
          refine ⟨h3, ?_⟩
          rw [hclause _ (by omega) (le_refl _)]
          simp
        · refine ⟨ha, ?_⟩
          have hb := h2 cid ha
          rw [hclause cid hb.1 hb.2]
          split_ifs
          · exact List.mem_append_left _ hm
          · exact hm
      · rintro ⟨ha, hm⟩
        have hb := h2 cid ha
        rw [hclause cid hb.1 hb.2] at hm
        by_cases hc : cid = s.clauses.length
        · left; exact hc
        · right
          simp only [hc, if_false] at hm
          exact ⟨ha, hm⟩
    · rw [Function.update_noteq hl, h1 l cid]
      constructor
      · rintro ⟨ha, hm⟩
        refine ⟨ha, ?_⟩
        have hb := h2 cid ha
        rw [hclause cid hb.1 hb.2]
        split_ifs
        · exact List.mem_append_left _ hm
        · exact hm
      · rintro ⟨ha, hm⟩
        refine ⟨ha, ?_⟩
        have hb := h2 cid ha
        rw [hclause cid hb.1 hb.2] at hm
        split_ifs at hm
        · rcases List.mem_append.1 hm with hm | hm
          · exact hm
          · simp at hm; exact absurd hm hl
        · exact hm
  · intro cid hc
    rw [hlen]; exact h2 cid hc
  · rw [hlen, hact]; exact h3
  · intro h; rw [h] at hlen; simp at hlen; omega

end Cnf

open pog_type_t action_t var_t
namespace Cnf

theorem loaded_first (n : Nat) (dvars : Finset Int) :
    ({ Cnf.init n with data_variables := dvars } : Cnf).new_clause.loaded :=
  loading_new_clause ⟨by intro lit cid; simp [Cnf.init], by intro cid hc; simp [Cnf.init] at hc⟩

theorem loaded_new_clause {s : Cnf} (h : s.loaded) : s.new_clause.loaded :=
  loading_new_clause ⟨h.1, h.2.1⟩

theorem loaded_add_literal {s : Cnf} (h : s.loaded) (lit : Int) : (s.add_literal lit).loaded :=
  loading_add_literal lit h

/-- C4 (counterexample). Two clauses `(x3 or x1)` and `(-x3 or x2)` with data variables 1
and 2: `bve` with `maxdegree` 1 inside a context adds the resolvent as clause 3, and
`pop_context` leaves it active. -/
theorem bve_resolvent_counterexample :
    ((((((({ Cnf.init 3 with data_variables := {1, 2} } : Cnf).new_clause.add_literal
      3).add_literal 1).new_clause.add_literal (-3)).add_literal 2).new_context.bve
      stdRuntime stdWalk false 1).1.pop_context).active_clauses = {1, 2, 3} ∧
    ((((({ Cnf.init 3 with data_variables := {1, 2} } : Cnf).new_clause.add_literal
      3).add_literal 1).new_clause.add_literal (-3)).add_literal 2).active_clauses = {1, 2} := by
  decide

/-- C4 (amended). For every state whose literal index is exact and whose BCP unit literals
are unit literals, and every run of operations after `new_context` made of `assign_literal`,
`uquantify_variable` of a variable not yet quantified, `bcp`, `bve` with `maxdegree` zero,
deactivation of active clauses, `push_active` with clauses that have no skipped literal,
and nested `new_context`/`pop_context` pairs, the matching `pop_context` restores
`unit_literals`, `bcp_unit_literals`, `active_clauses`, the literal index,
`uquantified_variables` and the action stack to their values at `new_context`, and
`has_conflict` as well when it was not set at `new_context`. -/
theorem pop_context_restores (rt : Runtime) (s0 s : Cnf) (h1 : s0.index_exact)
    (h2 : s0.bcp_unit_literals ⊆ s0.unit_literals) (hrun : in_context rt s0.new_context s) :
    s.pop_context.unit_literals = s0.unit_literals ∧
    s.pop_context.bcp_unit_literals = s0.bcp_unit_literals ∧
    s.pop_context.active_clauses = s0.active_clauses ∧
    s.pop_context.literal_clauses = s0.literal_clauses ∧
    s.pop_context.uquantified_variables = s0.uquantified_variables ∧
    s.pop_context.action_stack = s0.action_stack ∧
    (s0.has_conflict = false → s.pop_context.has_conflict = false) := by
  have h := (in_context_undoable rt hrun (consistent_new_context ⟨h1, h2⟩)).2.2
  rw [pop_context_new_context] at h
  obtain ⟨_, _, a3, a4, a5, _, a7, a8, a9, a10, _, _, _⟩ := h
  refine ⟨a8, a9, a7, a3, a10, a5, ?_⟩
  intro hc
  cases hp : s.pop_context.has_conflict
  · rfl
  · rw [a4 hp] at hc; cases hc

/-- C4 (witness). The theorem `pop_context_restores` at the clauses `(x3 or x1)` and
`(-x3 or x2)`, for the run that asserts `-x3` and then calls `bcp` and `bve`. -/
theorem pop_context_restores_witness :
    (((((((({ Cnf.init 3 with data_variables := {1, 2} } : Cnf).new_clause.add_literal
      3).add_literal 1).new_clause.add_literal (-3)).add_literal 2).new_context.assign_literal
      (-3) false).bcp stdWalk false).1.bve stdRuntime stdWalk false 0).1.pop_context.active_clauses =
    ((((({ Cnf.init 3 with data_variables := {1, 2} } : Cnf).new_clause.add_literal
      3).add_literal 1).new_clause.add_literal (-3)).add_literal 2).active_clauses :=
  (pop_context_restores stdRuntime _ _
    (loaded_add_literal (loaded_add_literal (loaded_new_clause (loaded_add_literal
      (loaded_add_literal (loaded_first 3 {1, 2}) 3) 1)) (-3)) 2).1
    (by decide)
    (in_context.bve stdWalk false (in_context.bcp stdWalk false (in_context.assign (-3) false
      (in_context.refl _)) stdWalk_ok) stdWalk_ok)).2.2.1

end Cnf

open pog_type_t action_t var_t

namespace Pog

/-- C11 (counterexample). The builder keeps an argument that is given twice, and keeps a
literal together with its negation: the Product of `x1, x1` is stored with the argument
list `[1, 1]`, and the Sum of `x1, x2, -x1` with the argument list `[1, -1, 2]`. In both
lists the second argument has the absolute value of the first. -/
theorem args_strict_counterexample :
    (build stdRuntime (Pog.init 2 {1, 2} ∅) POG_PRODUCT [1, 1]).1.nodes.map (fun n => n.args) =
      [[1, 1]] ∧
    (build stdRuntime (Pog.init 2 {1, 2} ∅) POG_SUM [1, 2, -1]).1.nodes.map (fun n => n.args) =
      [[1, -1, 2]] ∧
    ¬ List.Pairwise (fun a b => IABS a < IABS b) [(1 : Int), 1] ∧
    ¬ List.Pairwise (fun a b => IABS a < IABS b) [(1 : Int), -1, 2] := by
  decide

/-- C11 (amended). In every graph produced by complete uses of the builder, the argument
list of every stored node is sorted by |edge| in the weak sense: each argument has an
absolute value at least that of every argument before it. -/
theorem args_sorted (rt : Runtime) (hs : rt.sort_ok) (p : Pog)
    (h : Reachable rt p) (hr : (p.nvar : Int) + p.nodes.length + 1 < MAX_VARIABLE) :
    ∀ i n, p.nodes.get? i = some n → n.args.Pairwise (fun a b => IABS a ≤ IABS b) := by
  intro i n hn
  exact ((h.wf hs hr).nodes_ok i n hn).sorted.imp (fun h => (abs_less_false_iff _ _).1 h)

/-- C11 (witness). The theorem `args_sorted` at the node stored for the Sum of
`x1, x2, -x1`. -/
theorem args_sorted_witness :
    List.Pairwise (fun a b => IABS a ≤ IABS b) [(1 : Int), -1, 2] :=
  args_sorted stdRuntime stdRuntime_sort_ok
    (build stdRuntime (Pog.init 2 {1, 2} ∅) POG_SUM [1, 2, -1]).1
    (Reachable.build _ _ _ (Reachable.init 2 {1, 2} ∅) (Or.inr rfl) (by decide))
    (by decide) 0 ⟨POG_SUM, [1, -1, 2], true, false⟩ (by decide)

end Pog

open pog_type_t action_t var_t

namespace Pog

/-- A use of the builder whose arguments hold the absorbing constant returns that
constant and leaves the graph as it is. -/
theorem build_of_absorbing (rt : Runtime) (p : Pog) (t : pog_type_t)
    (ht : t = POG_PRODUCT ∨ t = POG_SUM) (args : List Int)
    (hok : ∀ a ∈ args, p.edge_ok a) (h : absorbing t ∈ args) :
    build rt p t args = (p, absorbing t) := by
  rw [build_eq rt p t args (fun a ha => edge_ok_bound (hok a ha)), finish_node_push,
    proto_of_absorbing p t args ht h]
  simp

/-- C14. For every graph and all lists `xs`, `ys` of edges of the graph: the Product built
from `xs`, `CONFLICT`, `ys` is `CONFLICT`, the Sum built from `xs`, `TAUTOLOGY`, `ys` is
`TAUTOLOGY`, and in both cases the graph after `finish_node` is the graph before
`start_node`: no node is stored. -/
theorem build_absorbing_constant (rt : Runtime) (p : Pog) (xs ys : List Int)
    (hxs : ∀ a ∈ xs, p.edge_ok a) (hys : ∀ a ∈ ys, p.edge_ok a) :
    build rt p POG_PRODUCT (xs ++ CONFLICT :: ys) = (p, CONFLICT) ∧
    build rt p POG_SUM (xs ++ TAUTOLOGY :: ys) = (p, TAUTOLOGY) := by
  constructor
  · apply build_of_absorbing rt p POG_PRODUCT (Or.inl rfl)
    · intro a ha
      rcases List.mem_append.1 ha with h | h
      · exact hxs a h
      · rcases List.mem_cons.1 h with h | h
        · rw [h]; exact Or.inr IABS_CONFLICT
        · exact hys a h
    · simp [absorbing_product]
  · apply build_of_absorbing rt p POG_SUM (Or.inr rfl)
    · intro a ha
      rcases List.mem_append.1 ha with h | h
      · exact hxs a h
      · rcases List.mem_cons.1 h with h | h
        · rw [h]; exact Or.inr IABS_TAUTOLOGY
        · exact hys a h
    · simp [absorbing_sum]

/-- C14 (witness). The theorem `build_absorbing_constant` with a literal and a stored node
before the constant and a literal after it. -/
theorem build_absorbing_constant_witness :
    build stdRuntime (build stdRuntime (Pog.init 3 {1, 2, 3} ∅) POG_SUM [1, 2]).1 POG_PRODUCT
        ([3, 4] ++ CONFLICT :: [-1]) =
      ((build stdRuntime (Pog.init 3 {1, 2, 3} ∅) POG_SUM [1, 2]).1, CONFLICT) ∧
    build stdRuntime (build stdRuntime (Pog.init 3 {1, 2, 3} ∅) POG_SUM [1, 2]).1 POG_SUM
        ([3, 4] ++ TAUTOLOGY :: [-1]) =
      ((build stdRuntime (Pog.init 3 {1, 2, 3} ∅) POG_SUM [1, 2]).1, TAUTOLOGY) :=
  build_absorbing_constant stdRuntime
    (build stdRuntime (Pog.init 3 {1, 2, 3} ∅) POG_SUM [1, 2]).1 [3, 4] [-1]
    (by decide) (by decide)

/-- C15 (counterexample). The Sum of `x1, x2, -x1` holds the complementary pair `x1, -x1`,
and `finish_node` returns the edge 3 of a stored Sum node with the three arguments, not
`TAUTOLOGY`. -/
theorem sum_complement_counterexample :
    (1 : Int) ∈ [(1 : Int), 2, -1] ∧ (-1 : Int) ∈ [(1 : Int), 2, -1] ∧
    (build stdRuntime (Pog.init 2 {1, 2} ∅) POG_SUM [1, 2, -1]).2 = 3 ∧
    (build stdRuntime (Pog.init 2 {1, 2} ∅) POG_SUM [1, 2, -1]).2 ≠ TAUTOLOGY ∧
    (build stdRuntime (Pog.init 2 {1, 2} ∅) POG_SUM [1, 2, -1]).1.nodes =
      [⟨POG_SUM, [1, -1, 2], true, false⟩] := by
  decide

/-- C15 (amended). For every Sum under construction, when the negation `-l` of an edge is
added while `l` is the sole argument added so far, the Sum collapses to `TAUTOLOGY`:
`finish_node` returns `TAUTOLOGY` for every argument sequence that starts with `l, -l`,
whatever follows, and stores no node. -/
theorem sum_complement_first (rt : Runtime) (p : Pog) (l : Int) (rest : List Int)
    (hl : p.edge_ok l) (hrest : ∀ a ∈ rest, p.edge_ok a) :
    build rt p POG_SUM (l :: -l :: rest) = (p, TAUTOLOGY) := by
  have hnl : p.edge_ok (-l) := by
    unfold edge_ok at hl ⊢
    have : IABS (-l) = IABS l := by unfold IABS; split_ifs <;> omega
    rw [this]; exact hl
  have hok : ∀ a ∈ l :: -l :: rest, p.edge_ok a := by
    intro a ha
    rcases List.mem_cons.1 ha with h | h
    · rw [h]; exact hl
    · rcases List.mem_cons.1 h with h | h
      · rw [h]; exact hnl
      · exact hrest a h
  rw [build_eq rt p POG_SUM _ (fun a ha => edge_ok_bound (hok a ha)), finish_node_push]
  have h2 : (p.add_argument_node (p.add_argument_node ⟨POG_SUM, [], true, true⟩ l) (-l)).args =
      [TAUTOLOGY] ∧
      (p.add_argument_node (p.add_argument_node ⟨POG_SUM, [], true, true⟩ l) (-l)).type =
        POG_SUM := by
    refine ⟨?_, by simp [add_argument_node_type]⟩
    rw [add_argument_node_sum p _ (-l) (by simp [add_argument_node_type]),
      add_argument_node_sum p _ l rfl]
    have hT : (-TAUTOLOGY : Int) = CONFLICT := rfl
    by_cases h1 : l = CONFLICT
    · subst h1
      simp [neg_CONFLICT, TAUTOLOGY_ne_CONFLICT]
    · by_cases h3 : l = TAUTOLOGY
      · subst h3
        simp [TAUTOLOGY_ne_CONFLICT]
      · have h4 : ([] : List Int) ≠ [-l] := by simp
        simp [h1, h3]
  have h3 : (p.proto_of POG_SUM (l :: -l :: rest)).args = [TAUTOLOGY] := by
    unfold proto_of
    simp only [List.foldl_cons]
    have := proto_fold_absorbed p rest _ (Or.inr h2.2) (by rw [h2.2, absorbing_sum]; exact h2.1)
    rw [h2.2, absorbing_sum] at this
    exact this
  rw [h3]
  simp

/-- C15 (witness). The theorem `sum_complement_first` at the Sum of `x1, -x1, x2`. -/
theorem sum_complement_first_witness :
    build stdRuntime (Pog.init 2 {1, 2} ∅) POG_SUM [1, -1, 2] = (Pog.init 2 {1, 2} ∅, TAUTOLOGY) :=
  sum_complement_first stdRuntime (Pog.init 2 {1, 2} ∅) 1 [2] (by decide) (by decide)

end Pog

open pog_type_t action_t var_t

/-- A list that is sorted by |edge| and holds no edge together with its negation is left
as it is by every sort. -/
theorem Runtime.sort_fixed {rt : Runtime} (hs : rt.sort_ok) {l : List Int}
    (h1 : l.Pairwise (fun a b => abs_less b a = false))
    (hinj : ∀ a ∈ l, ∀ b ∈ l, IABS a = IABS b → a = b) : rt.sort l = l :=
  (sorted_perm_unique (hs l).1.symm h1 (hs l).2 hinj).symm

namespace Pog

/-- The prototype after `start_node(t)` and `add_argument(e)` for an edge `e` that is not
a constant: it holds what the edge contributes. -/
theorem proto_of_single (p : Pog) (t : pog_type_t) (ht : t = POG_PRODUCT ∨ t = POG_SUM)
    (e : Int) (h1 : e ≠ TAUTOLOGY) (h2 : e ≠ CONFLICT) :
    (p.proto_of t [e]).args =
      if p.is_node e ∧ t = POG_PRODUCT ∧ p.get_type e = POG_PRODUCT ∧ get_phase e then
        p.get_arguments e
      else [e] := by
  have hne : e ≠ neutral t := by
    rcases ht with ht | ht <;> simp [ht, neutral, h1, h2]
  have hab : e ≠ absorbing t := by
    rcases ht with ht | ht <;> simp [ht, absorbing, h1, h2]
  unfold proto_of
  simp only [List.foldl_cons, List.foldl_nil]
  rw [add_argument_node_regular p _ e ht (by simp) hab (by simp)]
  simp [expand_edge, hne]

/-- C13 (counterexample). With a `std::sort` that leaves equivalent elements in the
reverse of the order in which it finds them, the Product of `x1` and `-x1` over one
variable is stored as the node 2 with the arguments `-x1, x1`. A Product that is given
the positive edge 2 alone splices these two arguments and sorts them again into
`x1, -x1`; no stored node is equal to that, so the new node 3 is stored and returned:
the builder does not return the edge 2, and the stored nodes grow from one to two. -/
theorem build_single_counterexample :
    flipRuntime.sort_ok ∧
    (build flipRuntime (Pog.init 1 {1} ∅) POG_PRODUCT [1, -1]).2 = 2 ∧
    (build flipRuntime (Pog.init 1 {1} ∅) POG_PRODUCT [1, -1]).1.nodes.map (fun n => n.args) =
      [[-1, 1]] ∧
    (build flipRuntime (build flipRuntime (Pog.init 1 {1} ∅) POG_PRODUCT [1, -1]).1
      POG_PRODUCT [2]).2 = 3 ∧
    (build flipRuntime (build flipRuntime (Pog.init 1 {1} ∅) POG_PRODUCT [1, -1]).1
      POG_PRODUCT [2]).1.nodes.map (fun n => n.args) = [[-1, 1], [1, -1]] :=
  ⟨flipRuntime_sort_ok, by decide, by decide, by decide, by decide⟩

/-- C13 (amended). In a well-formed graph, for both node types and every edge `e` of the
graph that is not a constant (a literal of an input variable or an edge to a stored node,
of either sign), `start_node`, `add_argument(e)`, `finish_node` returns `e` and leaves the
graph, hence the stored nodes, as it is; when `e` is a positive edge to a Product node
and the node under construction is a Product, so that the arguments of `e` are spliced
and sorted again, this holds provided `std::sort` leaves the stored (sorted) argument
list of `e` as it is, which every sort does when no two arguments of `e` have the same
absolute value with opposite signs (`Runtime.sort_fixed`). -/
theorem build_single (rt : Runtime) (p : Pog) (hwf : p.WF rt) (t : pog_type_t)
    (ht : t = POG_PRODUCT ∨ t = POG_SUM) (e : Int)
    (he1 : 1 ≤ IABS e) (he2 : IABS e ≤ (p.nvar : Int) + p.nodes.length)
    (hsort : t = POG_PRODUCT → p.is_node e = true → p.get_type e = POG_PRODUCT → 0 < e →
      rt.sort (p.get_arguments e) = p.get_arguments e) :
    build rt p t [e] = (p, e) := by
  have hr := hwf.range
  have hM := MAX_VARIABLE_lt
  have hc := ne_const_of_IABS (e := e) (by omega)
  have hok : ∀ a ∈ [e], p.edge_ok a := by
    intro a ha
    rw [List.mem_singleton.1 ha]
    exact Or.inl ⟨he1, he2⟩
  have hargs := proto_of_single p t ht e hc.1 hc.2
  by_cases hsp : p.is_node e ∧ t = POG_PRODUCT ∧ p.get_type e = POG_PRODUCT ∧ get_phase e
  · rw [if_pos hsp] at hargs
    obtain ⟨hn, htp, hty, hph⟩ := hsp
    have hpos : 0 < e := by simpa [get_phase] using hph
    obtain ⟨i, n, hget, hidx, hie, hat⟩ := hwf.node_of_edge (Or.inl he2) hn
    have hek : e = (i : Int) + p.nvar + 1 := by rw [← hie, IABS_of_nonneg (le_of_lt hpos)]
    have hl := node_lookup p hget hr
    rw [← hek] at hl
    have hdeg := (hwf.nodes_ok i n hget).degree_ok
    have hso := hsort htp hn hty hpos
    rw [hl.2.2] at hso hargs
    have hnt : n.type = t := by rw [← hl.2.1, hty, htp]
    rcases build_cases rt hwf t [e] hok with ⟨h0, _⟩ | ⟨h1, _⟩ | ⟨_, j, m, hm, hmt, hma, hb⟩ |
      ⟨_, hnew, _⟩
    · rw [hargs] at h0; omega
    · rw [hargs] at h1; omega
    · rw [hargs, hso] at hma
      have hij := hwf.unique i j n m hget hm (by rw [hnt, hmt]) hma.symm
      rw [hb, hek, hij]
    · exact absurd ⟨hnt, by rw [hargs, hso]⟩ (hnew i n hget)
  · rw [if_neg hsp] at hargs
    rw [build_eq rt p t [e] (fun a ha => edge_ok_bound (hok a ha)), finish_node_push, hargs]
    simp

/-- C13 (witness). The theorem `build_single` at the positive edge 4 of the stored Product
of `x1, -x2, x3`, given alone to a Product: the three arguments are spliced, found in the
unique table, and the edge 4 is returned. -/
theorem build_single_witness :
    build stdRuntime (build stdRuntime (Pog.init 3 {1, 2} ∅) POG_PRODUCT [3, 1, -2]).1
        POG_PRODUCT [4] =
      ((build stdRuntime (Pog.init 3 {1, 2} ∅) POG_PRODUCT [3, 1, -2]).1, 4) :=
  build_single stdRuntime (build stdRuntime (Pog.init 3 {1, 2} ∅) POG_PRODUCT [3, 1, -2]).1
    (Reachable.wf stdRuntime_sort_ok
      (Reachable.build _ _ _ (Reachable.init 3 {1, 2} ∅) (Or.inl rfl) (by decide)) (by decide))
    POG_PRODUCT (Or.inl rfl) 4 (by decide) (by decide) (by decide)

end Pog

namespace Pog

theorem flat_get_arguments {rt : Runtime} {p : Pog} (hwf : p.WF rt) (hf : p.flat) {e : Int}
    (he : p.edge_ok e) (hn : p.is_node e = true) (hty : p.get_type e = POG_PRODUCT) :
    ∀ a ∈ p.get_arguments e, ¬ p.spliced a := by
  obtain ⟨i, n, hget, hidx, _, hat⟩ := hwf.node_of_edge (edge_ok_bound he) hn
  have hneg : ¬ (p.node_index e < 0) := by omega
  have h1 : p.get_arguments e = n.args := by
    unfold get_arguments; simp only [hneg, if_false, hat]
  have h2 : n.type = POG_PRODUCT := by
    rw [← hty]; unfold get_type; simp only [hneg, if_false, hat]
  rw [h1]
  exact hf i n hget h2

/-- One `add_argument` to a Product under construction keeps its arguments free of
positive Product edges. -/
theorem flat_proto_step {rt : Runtime} {p : Pog} (hwf : p.WF rt) (hf : p.flat) (n : Node)
    (e : Int) (ht : n.type = POG_PRODUCT) (he : p.edge_ok e)
    (hn : ∀ a ∈ n.args, ¬ p.spliced a) :
    ∀ a ∈ (p.add_argument_node n e).args, ¬ p.spliced a := by
  rw [add_argument_node_product p n e ht]
  split_ifs with h1 h2 h3 h4
  · exact hn
  · exact hn
  · intro a ha
    simp only [List.mem_singleton] at ha
    rw [ha]
    intro hs
    have := hs.1
    rw [is_node_iff] at this
    exact this.2 IABS_CONFLICT
  · intro a ha
    simp only [List.mem_append] at ha
    rcases ha with ha | ha
    · exact hn a ha
    · exact flat_get_arguments hwf hf he h4.1 h4.2.1 a ha
  · intro a ha
    simp only [List.mem_append, List.mem_singleton] at ha
    rcases ha with ha | ha
    · exact hn a ha
    · rw [ha]
      intro hs
      exact h4 ⟨hs.1, hs.2.1, hs.2.2⟩

theorem flat_proto_fold {rt : Runtime} {p : Pog} (hwf : p.WF rt) (hf : p.flat)
    (args : List Int) : ∀ n : Node, n.type = POG_PRODUCT → (∀ a ∈ args, p.edge_ok a) →
    (∀ a ∈ n.args, ¬ p.spliced a) →
    ∀ a ∈ (args.foldl p.add_argument_node n).args, ¬ p.spliced a := by
  induction args with
  | nil => intro n _ _ h; exact h
  | cons e rest ih =>
    intro n ht hok hn
    simp only [List.foldl_cons]
    exact ih _ (by rw [add_argument_node_type]; exact ht)
      (fun a ha => hok a (List.mem_cons_of_mem _ ha))
      (flat_proto_step hwf hf n e ht (hok e (List.mem_cons_self _ _)) hn)

theorem spliced_commit (rt : Runtime) (p : Pog) (m : Node) {a : Int}
    (h : IABS a ≤ (p.nvar : Int) + p.nodes.length ∨ IABS a = TAUTOLOGY) :
    (p.commit rt m).spliced a ↔ p.spliced a := by
  unfold spliced
  rw [commit_is_node, commit_get_type rt p m h]

/-- Storing a node whose arguments are free of positive Product edges keeps the graph
flat. -/
theorem flat_commit {rt : Runtime} {p : Pog} (hwf : p.WF rt) (hf : p.flat) (m : Node)
    (hm : p.node_ok p.nodes.length m)
    (hfm : m.type = POG_PRODUCT → ∀ a ∈ m.args, ¬ p.spliced a) : (p.commit rt m).flat := by
  intro i n hget hty a ha
  rw [commit_nodes, List.get?_eq_getElem?] at hget
  by_cases hi : i < p.nodes.length
  · rw [List.getElem?_append_left hi, ← List.get?_eq_getElem?] at hget
    have hc := (hwf.nodes_ok i n hget).children a ha
    unfold child_ok at hc
    rw [spliced_commit rt p m (Or.inl (by omega))]
    exact hf i n hget hty a ha
  · have hlen : i = p.nodes.length := by
      have := (List.getElem?_eq_some_iff.1 hget).1
      simp at this
      omega
    subst hlen
    simp at hget
    subst hget
    have hc := hm.children a ha
    unfold child_ok at hc
    rw [spliced_commit rt p m (Or.inl (by omega))]
    exact hfm hty a ha

/-- The graphs that the builder produces are flat. -/
theorem Reachable.flat {rt : Runtime} (hs : rt.sort_ok) {p : Pog} (h : Reachable rt p)
    (hr : (p.nvar : Int) + p.nodes.length + 1 < MAX_VARIABLE) : p.flat := by
  induction h with
  | init n dvars tvars =>
    intro i m hget
    simp [Pog.init] at hget
  | build p t args hp ht hok ih =>
    have hfr := build_frame rt p t args
    have hr' : (p.nvar : Int) + p.nodes.length + 1 < MAX_VARIABLE := by
      rw [hfr.2] at hr
      rcases hfr.1 with h | h <;> omega
    have hwf := hp.wf hs hr'
    have hf := ih hr'
    rcases build_cases rt hwf t args hok with ⟨_, h⟩ | ⟨_, h⟩ | ⟨_, i, n, _, _, _, h⟩ | ⟨h2, hnew, h⟩
    · rw [h]; exact hf
    · rw [h]; exact hf
    · rw [h]; exact hf
    · rw [h]
      apply flat_commit hwf hf
      · exact proto_node_ok hs hwf t args ht hok h2
      · intro hty a ha
        simp only at hty ha
        have ha' : a ∈ (p.proto_of t args).args := ((hs _).1.mem_iff).1 ha
        exact flat_proto_fold hwf hf args ⟨t, [], true, true⟩ hty hok (by simp) a ha'

/-- Adding edges that are neither constants nor spliced to a Product under construction
that has not collapsed appends them. -/
theorem proto_fold_plain (p : Pog) (A : List Int) :
    ∀ n : Node, n.type = POG_PRODUCT → n.args ≠ [CONFLICT] →
    (∀ a ∈ A, a ≠ TAUTOLOGY ∧ a ≠ CONFLICT ∧ ¬ p.spliced a) →
    A.foldl p.add_argument_node n =
      { n with args := n.args ++ A,
               data_only := n.data_only && A.all p.only_data_variables,
               projection_only := n.projection_only && A.all p.only_projection_variables } := by
  induction A with
  | nil => intro n _ _ _; cases n; simp
  | cons e rest ih =>
    intro n ht hc hA
    obtain ⟨h1, h2, h3⟩ := hA e (List.mem_cons_self _ _)
    simp only [List.foldl_cons]
    have hstep : p.add_argument_node n e =
        { n with args := n.args ++ [e],
                 data_only := n.data_only && p.only_data_variables e,
                 projection_only := n.projection_only && p.only_projection_variables e } := by
      rw [add_argument_node_product p n e ht]
      have h4 : ¬ (p.is_node e = true ∧ p.get_type e = POG_PRODUCT ∧ get_phase e = true) := h3
      simp only [hc, h1, h2, h4, if_false]
    have hne : n.args ++ [e] ≠ [CONFLICT] := by
      intro h
      cases hna : n.args with
      | nil => rw [hna] at h; simp at h; exact h2 h
      | cons x r => rw [hna] at h; simp at h
    rw [hstep, ih ⟨n.type, n.args ++ [e], n.data_only && p.only_data_variables e,
      n.projection_only && p.only_projection_variables e⟩ ht hne
      (fun a ha => hA a (List.mem_cons_of_mem _ ha))]
    simp [Bool.and_assoc]

/-- Adding an edge to a Product that has collapsed to `CONFLICT` changes nothing. -/
theorem proto_fold_conflict (p : Pog) (A : List Int) :
    ∀ n : Node, n.type = POG_PRODUCT → n.args = [CONFLICT] →
    A.foldl p.add_argument_node n = n := by
  induction A with
  | nil => intro n _ _; rfl
  | cons e rest ih =>
    intro n ht hc
    simp only [List.foldl_cons]
    have : p.add_argument_node n e = n := by
      rw [add_argument_node_product p n e ht]; simp [hc]
    rw [this]
    exact ih n ht hc

/-- C16. Product is associative under construction: in every graph produced by complete
uses of the builder, for every positive edge `P` to a stored Product node and all lists
`xs`, `ys` of edges of the graph, building a Product from `xs`, `P`, `ys` gives the same
result (the same edge and the same graph) as building it from `xs`, the arguments of `P`,
`ys`. -/
theorem product_assoc (rt : Runtime) (hs : rt.sort_ok) (p : Pog) (h : Reachable rt p)
    (hr : (p.nvar : Int) + p.nodes.length + 1 < MAX_VARIABLE) (P : Int)
    (hP : p.is_node P = true) (hpos : 0 < P) (hle : P ≤ (p.nvar : Int) + p.nodes.length)
    (hty : p.get_type P = POG_PRODUCT) (xs ys : List Int)
    (hxs : ∀ a ∈ xs, p.edge_ok a) (hys : ∀ a ∈ ys, p.edge_ok a) :
    build rt p POG_PRODUCT (xs ++ P :: ys) =
      build rt p POG_PRODUCT (xs ++ p.get_arguments P ++ ys) := by
  have hwf := h.wf hs hr
  have hf := h.flat hs hr
  have hPok : p.edge_ok P := Or.inl (by rw [IABS_of_nonneg (le_of_lt hpos)]; omega)
  have hch := hwf.get_arguments_child_ok P hPok
  have hM := MAX_VARIABLE_lt
  have hb1 : ∀ a ∈ xs ++ P :: ys,
      IABS a ≤ (p.nvar : Int) + p.nodes.length ∨ IABS a = TAUTOLOGY := by
    intro a ha
    rcases List.mem_append.1 ha with h | h
    · exact edge_ok_bound (hxs a h)
    · rcases List.mem_cons.1 h with h | h
      · rw [h]; exact edge_ok_bound hPok
      · exact edge_ok_bound (hys a h)
  have hb2 : ∀ a ∈ xs ++ p.get_arguments P ++ ys,
      IABS a ≤ (p.nvar : Int) + p.nodes.length ∨ IABS a = TAUTOLOGY := by
    intro a ha
    rcases List.mem_append.1 ha with h | h
    · rcases List.mem_append.1 h with h | h
      · exact edge_ok_bound (hxs a h)
      · exact Or.inl (hch a h).2
    · exact edge_ok_bound (hys a h)
  rw [build_eq rt p _ _ hb1, build_eq rt p _ _ hb2]
  congr 2
  unfold proto_of
  rw [List.foldl_append, List.foldl_append, List.foldl_append, List.foldl_cons]
  congr 1
  generalize hn : xs.foldl p.add_argument_node ⟨POG_PRODUCT, [], true, true⟩ = n
  have hnt : n.type = POG_PRODUCT := by rw [← hn, proto_fold_type]
  by_cases hc : n.args = [CONFLICT]
  · rw [proto_fold_conflict p _ n hnt hc, add_argument_node_product p n P hnt]
    simp [hc]
  · have hplain : ∀ a ∈ p.get_arguments P, a ≠ TAUTOLOGY ∧ a ≠ CONFLICT ∧ ¬ p.spliced a := by
      intro a ha
      have hc := hch a ha
      unfold child_ok at hc
      have := ne_const_of_IABS (e := a) (by have := hwf.range; omega)
      exact ⟨this.1, this.2, flat_get_arguments hwf hf hPok hP hty a ha⟩
    rw [proto_fold_plain p _ n hnt hc hplain, add_argument_node_product p n P hnt]
    have hc1 := ne_const_of_IABS (e := P) (by
      rw [IABS_of_nonneg (le_of_lt hpos)]; have := hwf.range; omega)
    have hph : get_phase P = true := by simp [get_phase, hpos]
    have hsp : p.is_node P = true ∧ p.get_type P = POG_PRODUCT ∧ get_phase P = true :=
      ⟨hP, hty, hph⟩
    simp only [hc, hc1.1, hc1.2, hsp, if_false, if_true, and_self]
    rw [hwf.only_data_node hPok hP, hwf.only_proj_node hPok hP]

/-- C16 (witness). The theorem `product_assoc` at the stored Product 4 of `x1, x2`,
between the literal `x3` and the literal `-x1`. -/
theorem product_assoc_witness :
    build stdRuntime (build stdRuntime (Pog.init 3 {1, 2} ∅) POG_PRODUCT [1, 2]).1 POG_PRODUCT
        ([3] ++ 4 :: [-1]) =
      build stdRuntime (build stdRuntime (Pog.init 3 {1, 2} ∅) POG_PRODUCT [1, 2]).1 POG_PRODUCT
        ([3] ++ (build stdRuntime (Pog.init 3 {1, 2} ∅) POG_PRODUCT [1, 2]).1.get_arguments 4 ++
          [-1]) :=
  product_assoc stdRuntime stdRuntime_sort_ok
    (build stdRuntime (Pog.init 3 {1, 2} ∅) POG_PRODUCT [1, 2]).1
    (Reachable.build _ _ _ (Reachable.init 3 {1, 2} ∅) (Or.inl rfl) (by decide)) (by decide)
    4 (by decide) (by decide) (by decide) (by decide) [3] [-1] (by decide) (by decide)

end Pog

namespace Pog

theorem get_variables_inner (p : Pog) (v : Int) : ∀ (L : List Int) (S : Finset Int),
    v ∈ L.foldl (fun vs c => if p.is_node (get_var c) = false then insert (get_var c) vs else vs) S ↔
      v ∈ S ∨ ∃ c ∈ L, p.is_node c = false ∧ v = IABS c := by
  intro L
  induction L with
  | nil => intro S; simp
  | cons c rest ih =>
    intro S
    simp only [List.foldl_cons]
    rw [ih]
    have hg : p.is_node (get_var c) = p.is_node c := is_node_IABS p c
    rw [hg]
    by_cases hn : p.is_node c = false
    · simp only [hn, if_true, Finset.mem_insert, List.mem_cons, get_var]
      constructor
      · rintro ((h | h) | ⟨d, hd, h⟩)
        · exact Or.inr ⟨c, Or.inl rfl, hn, h⟩
        · exact Or.inl h
        · exact Or.inr ⟨d, Or.inr hd, h⟩
      · rintro (h | ⟨d, hd | hd, h⟩)
        · exact Or.inl (Or.inr h)
        · rw [hd] at h; exact Or.inl (Or.inl h.2)
        · exact Or.inr ⟨d, hd, h⟩
    · simp only [hn, if_false, List.mem_cons]
      constructor
      · rintro (h | ⟨d, hd, h⟩)
        · exact Or.inl h
        · exact Or.inr ⟨d, Or.inr hd, h⟩
      · rintro (h | ⟨d, hd | hd, h⟩)
        · exact Or.inl h
        · rw [hd] at h; exact absurd h.1 hn
        · exact Or.inr ⟨d, hd, h⟩

theorem get_variables_outer (p : Pog) (v : Int) : ∀ (N : List Int) (S : Finset Int),
    v ∈ N.foldl (fun vs edge => (p.get_arguments edge).foldl
        (fun vs c => if p.is_node (get_var c) = false then insert (get_var c) vs else vs) vs) S ↔
      v ∈ S ∨ ∃ x ∈ N, ∃ c ∈ p.get_arguments x, p.is_node c = false ∧ v = IABS c := by
  intro N
  induction N with
  | nil => intro S; simp
  | cons x rest ih =>
    intro S
    simp only [List.foldl_cons]
    rw [ih, get_variables_inner]
    simp only [List.mem_cons]
    constructor
    · rintro ((h | ⟨c, hc, h⟩) | ⟨y, hy, h⟩)
      · exact Or.inl h
      · exact Or.inr ⟨x, Or.inl rfl, c, hc, h⟩
      · exact Or.inr ⟨y, Or.inr hy, h⟩
    · rintro (h | ⟨y, hy | hy, c, hc, h⟩)
      · exact Or.inl (Or.inl h)
      · rw [hy] at hc; exact Or.inl (Or.inr ⟨c, hc, h⟩)
      · exact Or.inr ⟨y, hy, c, hc, h⟩

/-- An edge reachable from `e` is `e` or is reachable from an argument of `e`. -/
theorem Reach.cases_root {p : Pog} {e c : Int} (h : Reach p e c) :
    c = e ∨ ∃ a ∈ p.get_arguments e, Reach p a c := by
  induction h with
  | root => exact Or.inl rfl
  | child x c _ hn hc ih =>
    rcases ih with ih | ⟨a, ha, hr⟩
    · rw [ih] at hc
      exact Or.inr ⟨c, hc, Reach.root⟩
    · exact Or.inr ⟨a, ha, Reach.child x c hr hn hc⟩

/-- An edge reachable from `e` is `e` or an argument of a reachable node. -/
theorem Reach.cases_last {p : Pog} {e c : Int} (h : Reach p e c) :
    c = e ∨ ∃ x, Reach p e x ∧ p.is_node x = true ∧ c ∈ p.get_arguments x := by
  cases h with
  | root => exact Or.inl rfl
  | child x c hr hn hc => exact Or.inr ⟨x, hr, hn, hc⟩

/-- Every node reachable from the root is in the set that `visit` returns. -/
theorem visit_complete {rt : Runtime} {p : Pog} (hwf : p.WF rt) {root : Int}
    (hroot : p.edge_ok root) {x : Int} (h : Reach p root x) :
    p.is_node x = true → IABS x ∈ p.visit p.visit_fuel root ∅ := by
  obtain ⟨h1, h2⟩ := visited_all_ok hwf hroot
  induction h with
  | root => exact h1
  | child e c _ hn hc ih =>
    intro hcn
    have := (h2 (IABS e) (ih hn)).2.2 c (by rw [get_arguments_IABS]; exact hc)
    exact this.2 hcn

/-- The variables that `get_variables` collects from a node: the variables of the
literals reachable from it. -/
theorem mem_get_variables {rt : Runtime} {p : Pog} (hwf : p.WF rt) {e : Int}
    (he : p.edge_ok e) (hn : p.is_node e = true) (v : Int) :
    v ∈ p.get_variables e ∅ ↔ ∃ c, Reach p e c ∧ p.is_node c = false ∧ v = IABS c := by
  unfold get_variables
  simp only [hn, Bool.true_eq_false, if_false]
  rw [get_variables_outer]
  simp only [Finset.not_mem_empty, false_or, mem_ascList]
  obtain ⟨_, h2⟩ := visited_all_ok hwf he
  constructor
  · rintro ⟨x, hx, c, hc, hl, hv⟩
    exact ⟨c, ((h2 x hx).2.2 c hc).1, hl, hv⟩
  · rintro ⟨c, hr, hl, hv⟩
    rcases hr.cases_last with h | ⟨x, hrx, hnx, hcx⟩
    · rw [h, hn] at hl; cases hl
    · exact ⟨IABS x, visit_complete hwf he hrx hnx, c, by rw [get_arguments_IABS]; exact hcx,
        hl, hv⟩

/-- A flag of edges that is computed at the literals from their variable and at a node
as the conjunction over its arguments holds of an edge exactly when it holds of the
variable of every literal reachable from it. -/
theorem flag_reach {rt : Runtime} {p : Pog} (hwf : p.WF rt) (F : Int → Bool) (Q : Int → Prop)
    (hleaf : ∀ e, p.is_node e = false → (F e = true ↔ Q (IABS e)))
    (hnode : ∀ e, p.edge_ok e → p.is_node e = true → F e = (p.get_arguments e).all F) :
    ∀ (k : Nat) (e : Int), 1 ≤ IABS e → IABS e ≤ (p.nvar : Int) + k → k ≤ p.nodes.length →
      (F e = true ↔ ∀ c, Reach p e c → p.is_node c = false → Q (IABS c)) := by
  intro k
  induction k using Nat.strong_induction_on with
  | _ k ih =>
    intro e h1 h2 hk
    by_cases hn : p.is_node e = true
    · have hek : p.edge_ok e := Or.inl ⟨h1, by omega⟩
      obtain ⟨i, hil, hie, _, _, hch⟩ := hwf.children_of_node (edge_ok_bound hek) hn
      rw [hnode e hek hn, List.all_eq_true]
      constructor
      · intro hall c hr hl
        rcases hr.cases_root with h | ⟨a, ha, hra⟩
        · rw [h, hn] at hl; cases hl
        · exact (ih i (by omega) a (hch a ha).1 (hch a ha).2 (by omega)).1 (hall a ha) c hra hl
      · intro hall a ha
        apply (ih i (by omega) a (hch a ha).1 (hch a ha).2 (by omega)).2
        intro c hr hl
        exact hall c (Reach.lift hn ha hr) hl
    · have hn' : p.is_node e = false := by simpa using hn
      rw [hleaf e hn']
      constructor
      · intro hq c hr _
        rw [Reach.of_leaf hn' hr]; exact hq
      · intro hall
        exact hall e Reach.root hn'

/-- The flags of a stored node of a graph that satisfies the invariant of the builder,
against the variables that `get_variables` collects. -/
theorem flags_of_wf (rt : Runtime) (p : Pog) (hwf : p.WF rt) (i : Nat) (n : Node)
    (hn : p.nodes.get? i = some n) :
    (n.data_only = true ↔
      ∀ v ∈ p.get_variables ((i : Int) + p.nvar + 1) ∅, p.is_data_variable v = true) ∧
    (n.projection_only = true ↔
      ∀ v ∈ p.get_variables ((i : Int) + p.nvar + 1) ∅, p.is_data_variable v = false) := by
  have hil : i < p.nodes.length := by
    rw [List.get?_eq_getElem?] at hn
    exact (List.getElem?_eq_some_iff.1 hn).1
  have hr := hwf.range
  obtain ⟨hnode, hidx⟩ := node_index_id p i (by omega)
  have hat : p.nodeAt (p.node_index ((i : Int) + p.nvar + 1)) = n := by
    rw [hidx]; exact nodeAt_of_some hn
  have habs : IABS ((i : Int) + p.nvar + 1) = (i : Int) + p.nvar + 1 := IABS_of_nonneg (by omega)
  have hek : p.edge_ok ((i : Int) + p.nvar + 1) := Or.inl (by rw [habs]; omega)
  have hd : p.only_data_variables ((i : Int) + p.nvar + 1) = n.data_only := by
    unfold only_data_variables; simp only [hnode, if_true, hat]
  have hq : p.only_projection_variables ((i : Int) + p.nvar + 1) = n.projection_only := by
    unfold only_projection_variables; simp only [hnode, if_true, hat]
  constructor
  · rw [← hd, flag_reach hwf p.only_data_variables (fun v => v ∈ p.data_variables)
      (fun e he => by simp [only_data_variables, he, get_var])
      (fun e he hn => hwf.only_data_node he hn) p.nodes.length _ (by rw [habs]; omega)
      (by rw [habs]; omega) le_rfl]
    constructor
    · intro h v hv
      obtain ⟨c, hc, hl, hvc⟩ := (mem_get_variables hwf hek hnode v).1 hv
      rw [hvc]
      simpa [is_data_variable] using h c hc hl
    · intro h c hc hl
      simpa [is_data_variable] using h (IABS c) ((mem_get_variables hwf hek hnode _).2 ⟨c, hc, hl, rfl⟩)
  · rw [← hq, flag_reach hwf p.only_projection_variables (fun v => v ∉ p.data_variables)
      (fun e he => by simp [only_projection_variables, he, get_var])
      (fun e he hn => hwf.only_proj_node he hn) p.nodes.length _ (by rw [habs]; omega)
      (by rw [habs]; omega) le_rfl]
    constructor
    · intro h v hv
      obtain ⟨c, hc, hl, hvc⟩ := (mem_get_variables hwf hek hnode v).1 hv
      rw [hvc]
      simpa [is_data_variable] using h c hc hl
    · intro h c hc hl
      simpa [is_data_variable] using h (IABS c) ((mem_get_variables hwf hek hnode _).2 ⟨c, hc, hl, rfl⟩)

/-- C12. In every graph that the builder produces from the empty graph (by complete uses
of `start_node`, `add_argument`, `finish_node` on edges of the graph, within the range of
node ids), for every stored node `n` (of index `i`, hence of edge `i + nvar + 1`): the
flag `data_only` of `n` is true if and only if every variable that `get_variables`
collects from `n` is a data variable, and the flag `projection_only` of `n` is true if
and only if none of them is a data variable. The flags are those that `start_node` and
`add_argument` have computed. -/
theorem flags_spec (rt : Runtime) (hs : rt.sort_ok) (p : Pog) (h : Reachable rt p)
    (hr : (p.nvar : Int) + p.nodes.length + 1 < MAX_VARIABLE) (i : Nat) (n : Node)
    (hn : p.nodes.get? i = some n) :
    (n.data_only = true ↔
      ∀ v ∈ p.get_variables ((i : Int) + p.nvar + 1) ∅, p.is_data_variable v = true) ∧
    (n.projection_only = true ↔
      ∀ v ∈ p.get_variables ((i : Int) + p.nvar + 1) ∅, p.is_data_variable v = false) :=
  flags_of_wf rt p (h.wf hs hr) i n hn

/-- C12 (witness). The theorem `flags_spec` at the graph built from the Product of the
data variables `x1, x2` and the Sum of that Product and the literal `-x3` of a projection
variable: the stored node of index 1 is the Sum with the arguments `-x3` and 5, and
neither of its flags is set. -/
theorem flags_spec_witness :
    (build stdRuntime (build stdRuntime (Pog.init 4 {1, 2} ∅) POG_PRODUCT [1, 2]).1
      POG_SUM [5, -3]).1.nodes.get? 1 = some ⟨POG_SUM, [-3, 5], false, false⟩ ∧
    (((⟨POG_SUM, [-3, 5], false, false⟩ : Node).data_only = true ↔
      ∀ v ∈ (build stdRuntime (build stdRuntime (Pog.init 4 {1, 2} ∅) POG_PRODUCT [1, 2]).1
          POG_SUM [5, -3]).1.get_variables
          (((1 : Nat) : Int) + (build stdRuntime (build stdRuntime (Pog.init 4 {1, 2} ∅) POG_PRODUCT
            [1, 2]).1 POG_SUM [5, -3]).1.nvar + 1) ∅,
        (build stdRuntime (build stdRuntime (Pog.init 4 {1, 2} ∅) POG_PRODUCT [1, 2]).1
          POG_SUM [5, -3]).1.is_data_variable v = true) ∧
    ((⟨POG_SUM, [-3, 5], false, false⟩ : Node).projection_only = true ↔
      ∀ v ∈ (build stdRuntime (build stdRuntime (Pog.init 4 {1, 2} ∅) POG_PRODUCT [1, 2]).1
          POG_SUM [5, -3]).1.get_variables
          (((1 : Nat) : Int) + (build stdRuntime (build stdRuntime (Pog.init 4 {1, 2} ∅) POG_PRODUCT
            [1, 2]).1 POG_SUM [5, -3]).1.nvar + 1) ∅,
        (build stdRuntime (build stdRuntime (Pog.init 4 {1, 2} ∅) POG_PRODUCT [1, 2]).1
          POG_SUM [5, -3]).1.is_data_variable v = false)) :=
  ⟨by decide, flags_spec stdRuntime stdRuntime_sort_ok
    (build stdRuntime (build stdRuntime (Pog.init 4 {1, 2} ∅) POG_PRODUCT [1, 2]).1
      POG_SUM [5, -3]).1
    (Reachable.build _ _ _
      (Reachable.build _ _ _ (Reachable.init 4 {1, 2} ∅) (Or.inl rfl) (by decide))
      (Or.inr rfl) (by decide)) (by decide)
    1 ⟨POG_SUM, [-3, 5], false, false⟩ (by decide)⟩

end Pog

namespace Cnf

theorem split_literals_inner (s : Cnf) (l : Int) : ∀ (L : List Int) (S : Finset Int),
    l ∈ L.foldl (fun lits lit => if s.skip_literal lit then lits else insert lit lits) S ↔
      l ∈ S ∨ (l ∈ L ∧ s.skip_literal l = false) := by
  intro L
  induction L with
  | nil => intro S; simp
  | cons c rest ih =>
    intro S
    simp only [List.foldl_cons]
    rw [ih]
    by_cases hn : s.skip_literal c = true
    · simp only [hn, if_true, List.mem_cons]
      constructor
      · rintro (h | h)
        · exact Or.inl h
        · exact Or.inr ⟨Or.inr h.1, h.2⟩
      · rintro (h | ⟨h | h, h2⟩)
        · exact Or.inl h
        · rw [h, hn] at h2; cases h2
        · exact Or.inr ⟨h, h2⟩
    · have hn' : s.skip_literal c = false := by simpa using hn
      simp only [hn', Bool.false_eq_true, if_false, Finset.mem_insert, List.mem_cons]
      constructor
      · rintro ((h | h) | h)
        · exact Or.inr ⟨Or.inl h, by rw [h]; exact hn'⟩
        · exact Or.inl h
        · exact Or.inr ⟨Or.inr h.1, h.2⟩
      · rintro (h | ⟨h | h, h2⟩)
        · exact Or.inl (Or.inr h)
        · exact Or.inl (Or.inl h)
        · exact Or.inr ⟨h, h2⟩

theorem split_literals_outer (s : Cnf) (l : Int) : ∀ (N : List Int) (S : Finset Int),
    l ∈ N.foldl (fun lits cid => if s.skip_clause cid then lits
        else (s.clause cid).foldl
          (fun lits lit => if s.skip_literal lit then lits else insert lit lits) lits) S ↔
      l ∈ S ∨ ∃ cid ∈ N, s.skip_clause cid = false ∧ l ∈ s.clause cid ∧
        s.skip_literal l = false := by
  intro N
  induction N with
  | nil => intro S; simp
  | cons x rest ih =>
    intro S
    simp only [List.foldl_cons]
    rw [ih]
    by_cases hn : s.skip_clause x = true
    · simp only [hn, if_true, List.mem_cons]
      constructor
      · rintro (h | ⟨y, hy, h⟩)
        · exact Or.inl h
        · exact Or.inr ⟨y, Or.inr hy, h⟩
      · rintro (h | ⟨y, hy | hy, h⟩)
        · exact Or.inl h
        · rw [hy, hn] at h; cases h.1
        · exact Or.inr ⟨y, hy, h⟩
    · have hn' : s.skip_clause x = false := by simpa using hn
      simp only [hn', Bool.false_eq_true, if_false, List.mem_cons]
      rw [split_literals_inner]
      constructor
      · rintro ((h | h) | ⟨y, hy, h⟩)
        · exact Or.inl h
        · exact Or.inr ⟨x, Or.inl rfl, hn', h⟩
        · exact Or.inr ⟨y, Or.inr hy, h⟩
      · rintro (h | ⟨y, hy | hy, h⟩)
        · exact Or.inl (Or.inl h)
        · rw [hy] at h; exact Or.inl (Or.inr h.2)
        · exact Or.inr ⟨y, hy, h⟩

/-- The set that `find_split` collects holds the non-skipped literals of the active
clauses that are not satisfied. -/
theorem mem_split_literals (s : Cnf) (l : Int) : l ∈ s.split_literals ↔ s.occurs l := by
  unfold split_literals occurs
  rw [split_literals_outer]
  simp only [Finset.not_mem_empty, false_or, mem_ascList]

/-- The first loop of `find_split` over an ascending list of literals: it stops at the
first literal that is not positive and whose negation is in the set. -/
theorem find_bipolar_spec (S : Finset Int) : ∀ (L : List Int), L.Pairwise (· < ·) →
    (∀ r, find_bipolar S L = some r →
      ∃ x ∈ L, x ≤ 0 ∧ -x ∈ S ∧ r = IABS x ∧ ∀ y ∈ L, y < x → -y ∉ S) ∧
    (find_bipolar S L = none → ∀ x ∈ L, x ≤ 0 → -x ∉ S) := by
  intro L
  induction L with
  | nil => intro _; simp [find_bipolar]
  | cons a rest ih =>
    intro hs
    rw [List.pairwise_cons] at hs
    obtain ⟨ih1, ih2⟩ := ih hs.2
    unfold find_bipolar
    by_cases h1 : a > 0
    · simp only [h1, if_true]
      refine ⟨(fun r h => Option.noConfusion h), ?_⟩
      intro _ x hx hx0
      rcases List.mem_cons.1 hx with h | h
      · omega
      · have := hs.1 x h; omega
    · simp only [h1, if_false]
      by_cases h2 : -a ∈ S
      · simp only [h2, if_true]
        refine ⟨?_, by intro h; cases h⟩
        intro r hr
        simp only [Option.some.injEq] at hr
        refine ⟨a, List.mem_cons_self _ _, by omega, h2, hr.symm, ?_⟩
        intro y hy hya
        rcases List.mem_cons.1 hy with h | h
        · omega
        · have := hs.1 y h; omega
      · simp only [h2, if_false]
        constructor
        · intro r hr
          obtain ⟨x, hx, hx0, hxS, hrx, hmin⟩ := ih1 r hr
          refine ⟨x, List.mem_cons_of_mem _ hx, hx0, hxS, hrx, ?_⟩
          intro y hy hyx
          rcases List.mem_cons.1 hy with h | h
          · rw [h]; exact h2
          · exact hmin y h hyx
        · intro hn x hx hx0
          rcases List.mem_cons.1 hx with h | h
          · rw [h]; exact h2
          · exact ih2 hn x h hx0

/-- C17 (counterexample). For the clauses `(x1 ∨ x2)` and `(-x1 ∨ -x2)` both variables
occur in both phases among the literals that `find_split` collects, and `find_split`
returns the variable 2, not the lowest bipolar variable 1. -/
theorem find_split_lowest_counterexample :
    (1 : Int) ∈ ((((((Cnf.init 2).new_clause.add_literal 1).add_literal 2).new_clause.add_literal
      (-1)).add_literal (-2))).split_literals ∧
    (-1 : Int) ∈ ((((((Cnf.init 2).new_clause.add_literal 1).add_literal 2).new_clause.add_literal
      (-1)).add_literal (-2))).split_literals ∧
    ((((((Cnf.init 2).new_clause.add_literal 1).add_literal 2).new_clause.add_literal
      (-1)).add_literal (-2))).find_split false = 2 := by
  decide

/-- C17 (amended). For every Cnf state in which some variable occurs in both phases among
the non-skipped literals of the active, non-satisfied clauses, `find_split` returns the
highest variable id among those bipolar variables; and in every state in which some
such literal remains (whether or not a variable is bipolar) it returns the variable of one
of these literals. -/
theorem find_split_spec (s : Cnf) (defer : Bool) :
    (∀ v : Int, 0 < v → s.occurs v → s.occurs (-v) →
      0 < s.find_split defer ∧ s.occurs (s.find_split defer) ∧
      s.occurs (-s.find_split defer) ∧ v ≤ s.find_split defer) ∧
    (∀ l : Int, s.occurs l → ∃ x : Int, s.occurs x ∧ s.find_split defer = IABS x) := by
  obtain ⟨h1, h2⟩ := find_bipolar_spec s.split_literals (ascList s.split_literals)
    (ascList_sorted _)
  constructor
  · intro v hv hp hn
    rw [← mem_split_literals] at hp hn
    unfold find_split
    cases hfb : find_bipolar s.split_literals (ascList s.split_literals) with
    | none =>
      exact absurd (by simpa using hp)
        (h2 hfb (-v) ((mem_ascList _ _).2 hn) (by omega))
    | some r =>
      obtain ⟨x, hx, hx0, hxS, hrx, hmin⟩ := h1 r hfb
      simp only []
      have hxm := (mem_ascList _ _).1 hx
      have hvx : ¬ (-v < x) := fun hlt =>
        hmin (-v) ((mem_ascList _ _).2 hn) hlt (by simpa using hp)
      have hr : r = -x := by rw [hrx]; unfold IABS; split_ifs <;> omega
      rw [← mem_split_literals, ← mem_split_literals, hr]
      refine ⟨by omega, hxS, by simpa using hxm, by omega⟩
  · intro l hl
    rw [← mem_split_literals] at hl
    unfold find_split
    cases hfb : find_bipolar s.split_literals (ascList s.split_literals) with
    | none =>
      simp only []
      cases hL : ascList s.split_literals with
      | nil =>
        have := (mem_ascList _ _).2 hl
        rw [hL] at this; cases this
      | cons a rest =>
        simp only []
        refine ⟨a, ?_, rfl⟩
        rw [← mem_split_literals, ← mem_ascList, hL]
        exact List.mem_cons_self _ _
    | some r =>
      obtain ⟨x, hx, _, _, hrx, _⟩ := h1 r hfb
      simp only []
      exact ⟨x, (mem_split_literals _ _).1 ((mem_ascList _ _).1 hx), hrx⟩

/-- C17 (witness). The theorem `find_split_spec` at the clauses `(x1 ∨ x2 ∨ x3)` and
`(-x1 ∨ -x2)` and the bipolar variable 1: the variable returned is bipolar and at least
1. -/
theorem find_split_spec_witness :
    0 < (((((((Cnf.init 3).new_clause.add_literal 1).add_literal 2).add_literal
      3).new_clause.add_literal (-1)).add_literal (-2))).find_split false ∧
    (((((((Cnf.init 3).new_clause.add_literal 1).add_literal 2).add_literal
      3).new_clause.add_literal (-1)).add_literal (-2))).occurs
      ((((((((Cnf.init 3).new_clause.add_literal 1).add_literal 2).add_literal
        3).new_clause.add_literal (-1)).add_literal (-2))).find_split false) ∧
    (((((((Cnf.init 3).new_clause.add_literal 1).add_literal 2).add_literal
      3).new_clause.add_literal (-1)).add_literal (-2))).occurs
      (-(((((((Cnf.init 3).new_clause.add_literal 1).add_literal 2).add_literal
        3).new_clause.add_literal (-1)).add_literal (-2))).find_split false) ∧
    1 ≤ (((((((Cnf.init 3).new_clause.add_literal 1).add_literal 2).add_literal
      3).new_clause.add_literal (-1)).add_literal (-2))).find_split false :=
  (find_split_spec (((((((Cnf.init 3).new_clause.add_literal 1).add_literal 2).add_literal
      3).new_clause.add_literal (-1)).add_literal (-2))) false).1 1 (by decide)
    ((mem_split_literals _ _).1 (by decide)) ((mem_split_literals _ _).1 (by decide))

end Cnf

namespace Cnf

/-- The inner loop of `check_simple_pkc`: it succeeds exactly when the non-skipped
literals of the clause have distinct variables, none of them seen before; it then adds
these literals to the chunks and their variables to the set. -/
theorem pkc_clause_scan_spec (s : Cnf) : ∀ (L : List Int) (vset : Finset Int)
    (chunks : List Int) (plen : Nat),
    ((pkc_clause_scan s L (vset, chunks, plen)).2 = true ↔
      ((L.filter fun lit => !s.skip_literal lit).map IABS).Nodup ∧
      ∀ l ∈ L.filter (fun lit => !s.skip_literal lit), IABS l ∉ vset) ∧
    ((pkc_clause_scan s L (vset, chunks, plen)).2 = true →
      (∀ v, v ∈ (pkc_clause_scan s L (vset, chunks, plen)).1.1 ↔
        v ∈ vset ∨ v ∈ (L.filter fun lit => !s.skip_literal lit).map IABS) ∧
      (pkc_clause_scan s L (vset, chunks, plen)).1.2.1 =
        chunks ++ L.filter (fun lit => !s.skip_literal lit) ∧
      (pkc_clause_scan s L (vset, chunks, plen)).1.2.2 =
        plen + (L.filter fun lit => !s.skip_literal lit).length) := by
  intro L
  induction L with
  | nil => intro vset chunks plen; simp [pkc_clause_scan]
  | cons lit rest ih =>
    intro vset chunks plen
    unfold pkc_clause_scan
    by_cases hsk : s.skip_literal lit = true
    · simp only [hsk, if_true]
      have hf : (lit :: rest).filter (fun lit => !s.skip_literal lit) =
          rest.filter (fun lit => !s.skip_literal lit) := by simp [hsk]
      rw [hf]
      exact ih vset chunks plen
    · have hsk' : s.skip_literal lit = false := by simpa using hsk
      have hf : (lit :: rest).filter (fun lit => !s.skip_literal lit) =
          lit :: rest.filter (fun lit => !s.skip_literal lit) := by simp [hsk']
      rw [hf]
      simp only [hsk', Bool.false_eq_true, if_false]
      by_cases hin : IABS lit ∈ vset
      · simp only [hin, if_true]
        refine ⟨⟨(fun h => Bool.noConfusion h), fun h => absurd hin (h.2 lit (List.mem_cons_self _ _))⟩,
          (fun h => Bool.noConfusion h)⟩
      · simp only [hin, if_false]
        obtain ⟨ih1, ih2⟩ := ih (insert (IABS lit) vset) (chunks ++ [lit]) (plen + 1)
        constructor
        · rw [ih1]
          simp only [List.map_cons, List.nodup_cons, List.mem_cons, Finset.mem_insert,
            List.mem_map, not_or, forall_eq_or_imp]
          constructor
          · rintro ⟨h1, h2⟩
            refine ⟨⟨?_, h1⟩, hin, fun l hl => (h2 l hl).2⟩
            rintro ⟨a, ha, hal⟩
            exact (h2 a ha).1 hal
          · rintro ⟨⟨h1, h2⟩, _, h4⟩
            exact ⟨h2, fun l hl => ⟨fun hal => h1 ⟨l, hl, hal⟩, h4 l hl⟩⟩
        · intro hok
          obtain ⟨e1, e2, e3⟩ := ih2 hok
          refine ⟨?_, ?_, ?_⟩
          · intro v
            rw [e1 v]
            simp only [Finset.mem_insert, List.map_cons, List.mem_cons]
            tauto
          · rw [e2]; simp
          · rw [e3]; simp; omega

/-- The outer loop of `check_simple_pkc`: `ok` says that the literals scanned up to the
first clause left without a literal have distinct variables, none of them seen before;
`conflict` says that moreover there is such a clause. -/
theorem pkc_scan_spec (s : Cnf) : ∀ (N : List Int) (vset : Finset Int) (chunks : List Int),
    ((pkc_scan s N (vset, chunks)).2.1 = true ↔
      ((((s.live_clauses N).takeWhile fun c => !c.isEmpty).flatten).map IABS).Nodup ∧
      ∀ l ∈ ((s.live_clauses N).takeWhile fun c => !c.isEmpty).flatten, IABS l ∉ vset) ∧
    ((pkc_scan s N (vset, chunks)).2.2 = true ↔
      (pkc_scan s N (vset, chunks)).2.1 = true ∧ [] ∈ s.live_clauses N) := by
  intro N
  induction N with
  | nil => intro vset chunks; simp [pkc_scan, live_clauses]
  | cons cid rest ih =>
    intro vset chunks
    unfold pkc_scan
    by_cases hsk : s.skip_clause cid = true
    · simp only [hsk, if_true]
      have hf : s.live_clauses (cid :: rest) = s.live_clauses rest := by
        simp [live_clauses, hsk]
      rw [hf]
      exact ih vset chunks
    · have hsk' : s.skip_clause cid = false := by simpa using hsk
      have hf : s.live_clauses (cid :: rest) = s.live_literals cid :: s.live_clauses rest := by
        simp [live_clauses, hsk']
      rw [hf]
      simp only [hsk', Bool.false_eq_true, if_false]
      obtain ⟨c1, c2⟩ := pkc_clause_scan_spec s (s.clause cid) vset chunks 0
      change (_ ↔ ((s.live_literals cid).map IABS).Nodup ∧
        ∀ l ∈ s.live_literals cid, IABS l ∉ vset) at c1
      by_cases hr : (pkc_clause_scan s (s.clause cid) (vset, chunks, 0)).2 = true
      · obtain ⟨e1, _, e3⟩ := c2 hr
        change (∀ v, _ ↔ v ∈ vset ∨ v ∈ (s.live_literals cid).map IABS) at e1
        change _ = 0 + (s.live_literals cid).length at e3
        obtain ⟨n1, n2⟩ := c1.1 hr
        simp only [hr, if_true]
        by_cases hz : (pkc_clause_scan s (s.clause cid) (vset, chunks, 0)).1.2.2 = 0
        · have hnil : s.live_literals cid = [] := List.length_eq_zero.1 (by omega)
          simp [hz, hnil]
        · have hne : s.live_literals cid ≠ [] := by
            intro h; rw [h] at e3; simp at e3; exact hz e3
          have htw : ((s.live_literals cid :: s.live_clauses rest).takeWhile fun c => !c.isEmpty) =
              s.live_literals cid :: (s.live_clauses rest).takeWhile fun c => !c.isEmpty := by
            rw [List.takeWhile_cons]
            simp [hne]
          simp only [hz, if_false]
          obtain ⟨i1, i2⟩ := ih (pkc_clause_scan s (s.clause cid) (vset, chunks, 0)).1.1
            ((pkc_clause_scan s (s.clause cid) (vset, chunks, 0)).1.2.1 ++ [0])
          rw [htw, List.flatten_cons, List.map_append, List.nodup_append]
          constructor
          · rw [i1]
            constructor
            · rintro ⟨h1, h2⟩
              refine ⟨⟨n1, h1, ?_⟩, ?_⟩
              · intro v hv1 hv2
                obtain ⟨l, hl, hlv⟩ := List.mem_map.1 hv2
                exact h2 l hl ((e1 _).2 (Or.inr (hlv ▸ hv1)))
              · intro l hl
                rcases List.mem_append.1 hl with h | h
                · exact n2 l h
                · exact fun hv => h2 l h ((e1 _).2 (Or.inl hv))
            · rintro ⟨⟨_, h1, h3⟩, h2⟩
              refine ⟨h1, ?_⟩
              intro l hl hv
              rcases (e1 _).1 hv with h | h
              · exact h2 l (List.mem_append_right _ hl) h
              · exact h3 h (List.mem_map_of_mem _ hl)
          · rw [i2]
            simp only [List.mem_cons]
            constructor
            · rintro ⟨h1, h2⟩; exact ⟨h1, Or.inr h2⟩
            · rintro ⟨h1, h2 | h2⟩
              · exact absurd h2.symm hne
              · exact ⟨h1, h2⟩
      · have hr' : (pkc_clause_scan s (s.clause cid) (vset, chunks, 0)).2 = false := by
          simpa using hr
        simp only [hr', Bool.false_eq_true, if_false]
        have hne : s.live_literals cid ≠ [] := by
          intro h
          apply hr
          rw [c1, h]
          simp
        have htw : ((s.live_literals cid :: s.live_clauses rest).takeWhile fun c => !c.isEmpty) =
            s.live_literals cid :: (s.live_clauses rest).takeWhile fun c => !c.isEmpty := by
          rw [List.takeWhile_cons]
          simp [hne]
        rw [htw, List.flatten_cons, List.map_append, List.nodup_append]
        refine ⟨⟨(fun h => False.elim h), ?_⟩,
          ⟨(fun h => False.elim h), (fun h => False.elim h.1)⟩⟩
        rintro ⟨⟨h1, _, _⟩, h2⟩
        exact hr (c1.2 ⟨h1, fun l hl => h2 l (List.mem_append_left _ hl)⟩)

/-- The flag that `check_simple_pkc` returns is the flag `ok` of its loop. -/
theorem check_simple_pkc_ok (w : Walk) (s : Cnf) :
    (check_simple_pkc w s).2 = (pkc_scan s (ascList s.active_clauses) (∅, [])).2.1 := by
  unfold check_simple_pkc
  simp only []
  split_ifs with h1 h2
  · rfl
  · exact h2.symm
  · simpa using h2

/-- C18 (counterexample). Three states. With the clauses `(x1 ∨ x2 ∨ x3)`, `(x1 ∨ x4 ∨ x5)`
and `x1` assigned false, the two active clauses share the variable 1 and
`check_simple_pkc` returns true. With the single clause `(x1 ∨ -x1)` there is one active
clause and `check_simple_pkc` returns false. With the clauses `(x1)`, `(x2 ∨ x3)`,
`(x2 ∨ x4)` and `x1` assigned false, the active clauses 2 and 3 share the variable 2 and
`check_simple_pkc` returns true. -/
theorem check_simple_pkc_disjoint_counterexample :
    ((check_simple_pkc stdWalk ((((((((Cnf.init 5).new_clause.add_literal 1).add_literal 2).add_literal 3).new_clause.add_literal
      1).add_literal 4).add_literal 5).assign_literal (-1) false)).2 = true ∧
      ((((((((Cnf.init 5).new_clause.add_literal 1).add_literal 2).add_literal 3).new_clause.add_literal
      1).add_literal 4).add_literal 5).assign_literal (-1) false).active_clauses = {1, 2} ∧
      (1 : Int) ∈ (((((((((Cnf.init 5).new_clause.add_literal 1).add_literal 2).add_literal 3).new_clause.add_literal
      1).add_literal 4).add_literal 5).assign_literal (-1) false).clause 1).map IABS ∧
      (1 : Int) ∈ (((((((((Cnf.init 5).new_clause.add_literal 1).add_literal 2).add_literal 3).new_clause.add_literal
      1).add_literal 4).add_literal 5).assign_literal (-1) false).clause 2).map IABS) ∧
    ((check_simple_pkc stdWalk (((Cnf.init 1).new_clause.add_literal 1).add_literal (-1))).2 = false ∧
      (((Cnf.init 1).new_clause.add_literal 1).add_literal (-1)).active_clauses = {1}) ∧
    ((check_simple_pkc stdWalk (((((((Cnf.init 4).new_clause.add_literal 1).new_clause.add_literal 2).add_literal
      3).new_clause.add_literal 2).add_literal 4).assign_literal (-1) false)).2 = true ∧
      (((((((Cnf.init 4).new_clause.add_literal 1).new_clause.add_literal 2).add_literal
      3).new_clause.add_literal 2).add_literal 4).assign_literal (-1) false).active_clauses = {1, 2, 3} ∧
      (2 : Int) ∈ ((((((((Cnf.init 4).new_clause.add_literal 1).new_clause.add_literal 2).add_literal
      3).new_clause.add_literal 2).add_literal 4).assign_literal (-1) false).clause 2).map IABS ∧
      (2 : Int) ∈ ((((((((Cnf.init 4).new_clause.add_literal 1).new_clause.add_literal 2).add_literal
      3).new_clause.add_literal 2).add_literal 4).assign_literal (-1) false).clause 3).map IABS) := by
  decide

/-- C18 (amended). For every Cnf state, `check_simple_pkc` returns true if and only if no
variable occurs twice among the literals that it scans: the non-skipped literals of the
active clauses that are not satisfied, taken in ascending order of the clause ids up to
the first such clause that has no non-skipped literal (all of them when there is none);
two occurrences in one clause count as well. -/
theorem check_simple_pkc_iff (w : Walk) (s : Cnf) :
    (check_simple_pkc w s).2 = true ↔ (s.scanned_literals.map IABS).Nodup := by
  rw [check_simple_pkc_ok, (pkc_scan_spec s (ascList s.active_clauses) ∅ []).1]
  unfold scanned_literals
  simp

/-- The stream `[0, 0]` of two empty clauses compiles to `CONFLICT` and stores no node. -/
theorem simple_kc_conflict_stream (rt : Runtime) (p : Pog) :
    Pog.simple_kc rt p [0, 0] = (p, CONFLICT) := by
  have hb : Pog.build rt p POG_PRODUCT [CONFLICT, CONFLICT] = (p, CONFLICT) :=
    Pog.build_of_absorbing rt p POG_PRODUCT (Or.inl rfl) [CONFLICT, CONFLICT]
      (fun a ha => by
        simp only [List.mem_cons, List.mem_singleton, or_self, List.not_mem_nil, or_false] at ha
        rw [ha]; exact Or.inr IABS_CONFLICT)
      (by simp [Pog.absorbing_product])
  simp [Pog.simple_kc, Pog.simple_kc_scan, Pog.build_disjunction, hb]

/-- C19 (counterexample). With the clauses `(x2 ∨ x3)`, `(x2 ∨ x4)`, `(x1)` and `x1`
assigned false, the active clause 3 is not satisfied and its only literal is skipped, yet
`check_simple_pkc` stops at the repeated variable 2 of clause 2: it returns false and
leaves the chunk stream `[2, 3, 0]`. -/
theorem check_simple_pkc_stream_counterexample :
    (3 : Int) ∈ (((((((Cnf.init 4).new_clause.add_literal 2).add_literal 3).new_clause.add_literal
      2).add_literal 4).new_clause.add_literal 1).assign_literal (-1) false).active_clauses ∧
    (((((((Cnf.init 4).new_clause.add_literal 2).add_literal 3).new_clause.add_literal
      2).add_literal 4).new_clause.add_literal 1).assign_literal (-1) false).skip_clause 3 = false ∧
    (∀ l ∈ (((((((Cnf.init 4).new_clause.add_literal 2).add_literal 3).new_clause.add_literal
      2).add_literal 4).new_clause.add_literal 1).assign_literal (-1) false).clause 3, (((((((Cnf.init 4).new_clause.add_literal 2).add_literal 3).new_clause.add_literal
      2).add_literal 4).new_clause.add_literal 1).assign_literal (-1) false).skip_literal l = true) ∧
    check_simple_pkc stdWalk (((((((Cnf.init 4).new_clause.add_literal 2).add_literal 3).new_clause.add_literal
      2).add_literal 4).new_clause.add_literal 1).assign_literal (-1) false) = ([2, 3, 0], false) ∧
    (check_simple_pkc stdWalk (((((((Cnf.init 4).new_clause.add_literal 2).add_literal 3).new_clause.add_literal
      2).add_literal 4).new_clause.add_literal 1).assign_literal (-1) false)).1 ≠ [0, 0] := by
  decide

/-- C19 (amended). For every Cnf state in which some active clause that is not satisfied
has all of its literals skipped and in which `check_simple_pkc` returns true,
`check_simple_pkc` sets the chunk stream to exactly `[0, 0]`, and `simple_kc` applied to
that stream returns `CONFLICT` and stores no node. -/
theorem check_simple_pkc_conflict (rt : Runtime) (w : Walk) (p : Pog) (s : Cnf) (cid : Int)
    (h1 : cid ∈ s.active_clauses) (h2 : s.skip_clause cid = false)
    (h3 : ∀ l ∈ s.clause cid, s.skip_literal l = true)
    (hok : (check_simple_pkc w s).2 = true) :
    (check_simple_pkc w s).1 = [0, 0] ∧
    Pog.simple_kc rt p (check_simple_pkc w s).1 = (p, CONFLICT) := by
  have hmem : [] ∈ s.live_clauses (ascList s.active_clauses) := by
    unfold live_clauses
    rw [List.mem_map]
    refine ⟨cid, ?_, ?_⟩
    · rw [List.mem_filter]
      exact ⟨(mem_ascList _ _).2 h1, by simp [h2]⟩
    · unfold live_literals
      rw [List.filter_eq_nil_iff]
      intro l hl
      simp [h3 l hl]
  have hc : (pkc_scan s (ascList s.active_clauses) (∅, [])).2.2 = true :=
    ((pkc_scan_spec s (ascList s.active_clauses) ∅ []).2).2
      ⟨by rw [← check_simple_pkc_ok]; exact hok, hmem⟩
  have h0 : (check_simple_pkc w s).1 = [0, 0] := by
    unfold check_simple_pkc
    simp only [hc, if_true]
  rw [h0]
  exact ⟨rfl, simple_kc_conflict_stream rt p⟩

/-- C19 (witness). The theorem `check_simple_pkc_conflict` at the clauses `(x2 ∨ x3)`,
`(x1)` with `x1` assigned false. -/
theorem check_simple_pkc_conflict_witness :
    (check_simple_pkc stdWalk (((((Cnf.init 3).new_clause.add_literal 2).add_literal 3).new_clause.add_literal
      1).assign_literal (-1) false)).1 = [0, 0] ∧
    Pog.simple_kc stdRuntime (Pog.init 3 {1, 2, 3} ∅) (check_simple_pkc stdWalk (((((Cnf.init 3).new_clause.add_literal 2).add_literal 3).new_clause.add_literal
      1).assign_literal (-1) false)).1 =
      (Pog.init 3 {1, 2, 3} ∅, CONFLICT) :=
  check_simple_pkc_conflict stdRuntime stdWalk (Pog.init 3 {1, 2, 3} ∅) (((((Cnf.init 3).new_clause.add_literal 2).add_literal 3).new_clause.add_literal
      1).assign_literal (-1) false) 2
    (by decide) (by decide) (by decide) (by decide)

end Cnf

namespace Pog

theorem edge_ok_neg {p : Pog} {e : Int} (h : p.edge_ok e) : p.edge_ok (-e) := by
  unfold edge_ok at h ⊢
  rw [IABS_neg]; exact h

/-- With weights of complementary literals that sum to one, the value of the negation of
an edge is one minus the value of the edge. -/
theorem val_neg (p : Pog) (w : Int → Option ℚ)
    (hw : ∀ l, 1 ≤ IABS l → IABS l ≤ p.nvar → (w l).getD 0 + (w (-l)).getD 0 = 1)
    (k : Nat) {e : Int} (he : p.edge_ok e) :
    p.val w (k + 1) (-e) = 1 - p.val w (k + 1) e := by
  by_cases hT : IABS e = TAUTOLOGY
  · have : e = TAUTOLOGY ∨ e = CONFLICT := by
      rcases IABS_eq_iff (hT.trans IABS_TAUTOLOGY.symm) with h | h
      · exact Or.inl h
      · exact Or.inr h
    rcases this with h | h
    · rw [h]
      have : (-TAUTOLOGY : Int) = CONFLICT := rfl
      rw [this, (val_const p w k).1, (val_const p w k).2]; norm_num
    · rw [h, neg_CONFLICT, (val_const p w k).1, (val_const p w k).2]; norm_num
  · by_cases hn : p.is_node e = true
    · have hne : e ≠ 0 := by
        intro h0
        rw [is_node_iff, h0] at hn
        have : IABS 0 = 0 := rfl
        rw [this] at hn
        omega
      by_cases hpos : 0 < e
      · exact val_neg_node p w k hn hpos
      · have hx : p.is_node (-e) = true := by
          rw [← is_node_IABS, IABS_neg, is_node_IABS]; exact hn
        have := val_neg_node p w k hx (by omega)
        rw [neg_neg] at this
        rw [this]; ring
    · have hn' : p.is_node e = false := by simpa using hn
      have hn2 : p.is_node (-e) = false := by
        rw [← is_node_IABS, IABS_neg, is_node_IABS]; exact hn'
      rw [val_leaf p w k (by rw [IABS_neg]; exact hT) hn2, val_leaf p w k hT hn']
      have hl := leaf_literal he hn' hT
      have := hw e hl.1 hl.2
      linarith

/-- The prototype of a Sum of two edges, neither of them `TAUTOLOGY`. -/
theorem proto_sum_pair (p : Pog) (a b : Int) (haT : a ≠ TAUTOLOGY) (hbT : b ≠ TAUTOLOGY) :
    (p.proto_of POG_SUM [a, b]).args =
      if a = CONFLICT then (if b = CONFLICT then [] else [b])
      else if a = -b then [TAUTOLOGY]
      else if b = CONFLICT then [a]
      else [a, b] := by
  unfold proto_of
  simp only [List.foldl_cons, List.foldl_nil]
  rw [add_argument_node_sum p _ b (by simp [add_argument_node_type]),
    add_argument_node_sum p _ a rfl]
  by_cases h1 : a = CONFLICT <;> by_cases h4 : b = CONFLICT <;> by_cases h3 : a = -b <;>
    simp_all [neg_CONFLICT, TAUTOLOGY_ne_CONFLICT]

/-- The Sum of two edges, neither of them `TAUTOLOGY`: the value of the edge returned is
the sum of the values of the two edges, and the edge returned is `CONFLICT` only when
both edges are. -/
theorem build_sum_pair (rt : Runtime) (hs : rt.sort_ok) {p : Pog} (hwf : p.WF rt)
    (a b : Int) (ha : p.edge_ok a) (hb : p.edge_ok b)
    (hr : (p.nvar : Int) + p.nodes.length + 1 < MAX_VARIABLE)
    (haT : a ≠ TAUTOLOGY) (hbT : b ≠ TAUTOLOGY) (w : Int → Option ℚ)
    (hw : ∀ l, 1 ≤ IABS l → IABS l ≤ p.nvar → (w l).getD 0 + (w (-l)).getD 0 = 1) :
    (build rt p POG_SUM [a, b]).1.WF rt ∧ p.Extends (build rt p POG_SUM [a, b]).1 ∧
    (build rt p POG_SUM [a, b]).1.edge_ok (build rt p POG_SUM [a, b]).2 ∧
    ((build rt p POG_SUM [a, b]).2 = CONFLICT → a = CONFLICT ∧ b = CONFLICT) ∧
    ∀ k, (build rt p POG_SUM [a, b]).1.nodes.length < k →
      (build rt p POG_SUM [a, b]).1.val w k (build rt p POG_SUM [a, b]).2 =
        p.val w k a + p.val w k b := by
  have hok : ∀ x ∈ [a, b], p.edge_ok x := by
    intro x hx
    simp only [List.mem_cons, List.mem_singleton, List.not_mem_nil, or_false] at hx
    rcases hx with h | h <;> rw [h] <;> assumption
  obtain ⟨hwf', hek, _⟩ := build_spec rt hs hwf POG_SUM (Or.inr rfl) [a, b] hok hr
  have hext := build_extends rt hs hwf POG_SUM (Or.inr rfl) [a, b] hok hr
  refine ⟨hwf', hext, hek, ?_⟩
  have hargs := proto_sum_pair p a b haT hbT
  have hbe := build_eq rt p POG_SUM [a, b] (fun x hx => edge_ok_bound (hok x hx))
  rw [finish_node_push] at hbe
  have hty := proto_of_type p POG_SUM [a, b]
  by_cases h1 : a = CONFLICT
  · by_cases h2 : b = CONFLICT
    · have e : (p.proto_of POG_SUM [a, b]).args = [] := by rw [hargs, if_pos h1, if_pos h2]
      rw [e] at hbe
      simp [hty] at hbe
      rw [hbe]
      refine ⟨fun _ => ⟨h1, h2⟩, ?_⟩
      intro k hk
      obtain ⟨j, rfl⟩ : ∃ j, k = j + 1 := ⟨k - 1, by omega⟩
      rw [h1, h2, (val_const p w j).2]; norm_num
    · have e : (p.proto_of POG_SUM [a, b]).args = [b] := by rw [hargs, if_pos h1, if_neg h2]
      rw [e] at hbe
      simp at hbe
      rw [hbe]
      refine ⟨fun h => absurd h h2, ?_⟩
      intro k hk
      obtain ⟨j, rfl⟩ : ∃ j, k = j + 1 := ⟨k - 1, by omega⟩
      rw [h1, (val_const p w j).2]; norm_num
  · by_cases h3 : a = -b
    · have e : (p.proto_of POG_SUM [a, b]).args = [TAUTOLOGY] := by
        rw [hargs, if_neg h1, if_pos h3]
      rw [e] at hbe
      simp at hbe
      rw [hbe]
      refine ⟨fun h => absurd h TAUTOLOGY_ne_CONFLICT, ?_⟩
      intro k hk
      obtain ⟨j, rfl⟩ : ∃ j, k = j + 1 := ⟨k - 1, by omega⟩
      rw [h3, val_neg p w hw j hb, (val_const p w j).1]; ring
    · by_cases h4 : b = CONFLICT
      · have e : (p.proto_of POG_SUM [a, b]).args = [a] := by
          rw [hargs, if_neg h1, if_neg h3, if_pos h4]
        rw [e] at hbe
        simp at hbe
        rw [hbe]
        refine ⟨fun h => absurd h h1, ?_⟩
        intro k hk
        obtain ⟨j, rfl⟩ : ∃ j, k = j + 1 := ⟨k - 1, by omega⟩
        rw [h4, (val_const p w j).2]; norm_num
      · have hexp : p.expand POG_SUM [a, b] = [a, b] := by
          simp [expand, expand_edge_sum p a h1, expand_edge_sum p b h4]
        have ha0 : a ≠ 0 := by
          intro h0
          rcases ha with h | h
          · rw [h0] at h; have : IABS 0 = 0 := rfl; omega
          · rw [h0] at h; exact absurd h (by decide)
        have hb0 : b ≠ 0 := by
          intro h0
          rcases hb with h | h
          · rw [h0] at h; have : IABS 0 = 0 := rfl; omega
          · rw [h0] at h; exact absurd h (by decide)
        obtain ⟨_, _, hn, hpos, hle, hgt, hperm⟩ := build_node rt hs hwf POG_SUM (Or.inr rfl)
          [a, b] hok hr (by rw [hexp, absorbing_sum]; simp [haT.symm, hbT.symm])
          (by
            intro _ x hx y hy
            rw [hexp] at hx hy
            simp only [List.mem_cons, List.mem_singleton, List.not_mem_nil, or_false] at hx hy
            rcases hx with hx | hx <;> rcases hy with hy | hy <;> rw [hx, hy]
            · omega
            · exact h3
            · intro h; exact h3 (by omega)
            · omega)
          (by rw [hexp]; simp)
        rw [hexp] at hperm
        refine ⟨?_, ?_⟩
        · intro h
          have : CONFLICT < 0 := by decide
          omega
        · intro k hk
          have hlen := hext.length_le
          rw [hwf'.val_node_full w (Or.inl (by rw [IABS_of_nonneg (le_of_lt hpos)]; exact hle))
            hn k hk]
          have hsum : (build rt p POG_SUM [a, b]).1.is_sum (build rt p POG_SUM [a, b]).2 = true := by
            simp [is_sum, hgt]
          simp only [hpos, gt_iff_lt, if_true, hsum]
          rw [(hperm.map _).sum_eq]
          simp only [List.map_cons, List.map_nil, List.sum_cons, List.sum_nil, add_zero]
          rw [hext.val hwf w k a (edge_ok_bound ha), hext.val hwf w k b (edge_ok_bound hb)]

/-- The value that `ring_evaluate` returns for an edge of a well-formed graph, for
weights defined on all literals. -/
theorem ring_evaluate_val {rt : Runtime} {p : Pog} (hwf : p.WF rt) {e : Int} (he : p.edge_ok e)
    (w : Int → Option ℚ)
    (hw : ∀ l, 1 ≤ IABS l → IABS l ≤ p.nvar → (w l).isSome) (k : Nat)
    (hk : p.nodes.length < k) : p.ring_evaluate e w = p.val w k e :=
  ring_evaluate_eq_val rt p hwf e he w
    (fun l hl hn hT => by
      have := leaf_literal (hwf.reach_edge_ok he hl) hn hT
      exact hw l this.1 this.2) k hk

end Pog

namespace Project

/-- C20 (counterexample). Two instances over the variables `x1, x2` with weight one half
for every literal. With `n1 = x1`, `x = TAUTOLOGY`, `n2 = x2`, and with `n1 = CONFLICT`,
`x = x1`, `n2 = x2`, the exclusion construction returns the edge `x2`, of value 1/2, while
`ring_evaluate(n1) - ring_evaluate(x) + ring_evaluate(n2)` is 0. -/
theorem exclusion_counterexample :
    exclusion stdRuntime (Pog.init 2 {1, 2} ∅) 1 TAUTOLOGY 2 = (Pog.init 2 {1, 2} ∅, 2) ∧
    exclusion stdRuntime (Pog.init 2 {1, 2} ∅) CONFLICT 1 2 = (Pog.init 2 {1, 2} ∅, 2) ∧
    (Pog.init 2 {1, 2} ∅).ring_evaluate 2 (fun _ => some (1 / 2)) = 1 / 2 ∧
    (Pog.init 2 {1, 2} ∅).ring_evaluate 1 (fun _ => some (1 / 2)) -
      (Pog.init 2 {1, 2} ∅).ring_evaluate TAUTOLOGY (fun _ => some (1 / 2)) +
      (Pog.init 2 {1, 2} ∅).ring_evaluate 2 (fun _ => some (1 / 2)) = 0 ∧
    (Pog.init 2 {1, 2} ∅).ring_evaluate CONFLICT (fun _ => some (1 / 2)) -
      (Pog.init 2 {1, 2} ∅).ring_evaluate 1 (fun _ => some (1 / 2)) +
      (Pog.init 2 {1, 2} ∅).ring_evaluate 2 (fun _ => some (1 / 2)) = 0 := by
  have hv : ∀ e, (Pog.init 2 {1, 2} ∅).edge_ok e →
      (Pog.init 2 {1, 2} ∅).ring_evaluate e (fun _ => some (1 / 2)) =
        (Pog.init 2 {1, 2} ∅).val (fun _ => some (1 / 2)) 1 e := fun e he =>
    Pog.ring_evaluate_val (Pog.WF_init stdRuntime 2 _ _ (by decide)) he (fun _ => some (1 / 2))
      (fun _ _ _ => rfl) 1
      (by decide)
  have e1 : (Pog.init 2 {1, 2} ∅).val (fun _ => some (1 / 2)) 1 1 = 1 / 2 := by
    rw [Pog.val_leaf _ _ 0 (by decide) (by decide)]; rfl
  have e2 : (Pog.init 2 {1, 2} ∅).val (fun _ => some (1 / 2)) 1 2 = 1 / 2 := by
    rw [Pog.val_leaf _ _ 0 (by decide) (by decide)]; rfl
  refine ⟨rfl, rfl, ?_, ?_, ?_⟩
  · rw [hv 2 (by decide), e2]
  · rw [hv 1 (by decide), hv 2 (by decide), hv TAUTOLOGY (by decide), e1, e2,
      (Pog.val_const _ _ 0).1]
    norm_num
  · rw [hv 1 (by decide), hv 2 (by decide), hv CONFLICT (by decide), e1, e2,
      (Pog.val_const _ _ 0).2]
    norm_num

/-- C20 (amended). In a well-formed graph, for all edges `n1`, `n2`, `x` of the graph with
`n1`, `n2` and `x` different from `TAUTOLOGY` and `n1` different from `CONFLICT`, and
every weight map with `weights[l] + weights[-l] = 1` on the literals of the input
variables, the edge built by the exclusion construction (`m = Sum(-n1, x)`,
`result = Sum(-m, n2)`) satisfies, in the graph after the construction,
`ring_evaluate(result) = ring_evaluate(n1) - ring_evaluate(x) + ring_evaluate(n2)`. -/
theorem exclusion_value (rt : Runtime) (hs : rt.sort_ok) (p : Pog) (hwf : p.WF rt)
    (hr : (p.nvar : Int) + p.nodes.length + 2 < MAX_VARIABLE)
    (n1 x n2 : Int) (h1 : p.edge_ok n1) (hx : p.edge_ok x) (h2 : p.edge_ok n2)
    (hn1T : n1 ≠ TAUTOLOGY) (hn1C : n1 ≠ CONFLICT) (hxT : x ≠ TAUTOLOGY)
    (hn2T : n2 ≠ TAUTOLOGY) (w : Int → Option ℚ)
    (hw : ∀ l, 1 ≤ IABS l → IABS l ≤ p.nvar →
      ∃ a b, w l = some a ∧ w (-l) = some b ∧ a + b = 1) :
    (exclusion rt p n1 x n2).1.ring_evaluate (exclusion rt p n1 x n2).2 w =
      (exclusion rt p n1 x n2).1.ring_evaluate n1 w -
      (exclusion rt p n1 x n2).1.ring_evaluate x w +
      (exclusion rt p n1 x n2).1.ring_evaluate n2 w := by
  have hw1 : ∀ l, 1 ≤ IABS l → IABS l ≤ p.nvar → (w l).getD 0 + (w (-l)).getD 0 = 1 := by
    intro l hl1 hl2
    obtain ⟨a, b, ha, hb, hab⟩ := hw l hl1 hl2
    rw [ha, hb]; exact hab
  have hw2 : ∀ l, 1 ≤ IABS l → IABS l ≤ p.nvar → (w l).isSome := by
    intro l hl1 hl2
    obtain ⟨a, b, ha, _, _⟩ := hw l hl1 hl2
    rw [ha]; rfl
  have hnT : -n1 ≠ TAUTOLOGY := by
    intro h
    apply hn1C
    have : n1 = -TAUTOLOGY := by omega
    rw [this]; rfl
  obtain ⟨mwf, mext, mok, mC, mval⟩ := Pog.build_sum_pair rt hs hwf (-n1) x (Pog.edge_ok_neg h1) hx
    (by omega) hnT hxT w hw1
  have hfr := Pog.build_frame rt p POG_SUM [-n1, x]
  have hex : exclusion rt p n1 x n2 =
      Pog.build rt (Pog.build rt p POG_SUM [-n1, x]).1 POG_SUM
        [-(Pog.build rt p POG_SUM [-n1, x]).2, n2] := rfl
  rw [hex]
  generalize Pog.build rt p POG_SUM [-n1, x] = m at mwf mext mok mC mval hfr ⊢
  have hmT : -m.2 ≠ TAUTOLOGY := by
    intro h
    have hc : m.2 = CONFLICT := by
      have : m.2 = -TAUTOLOGY := by omega
      rw [this]; rfl
    have := (mC hc).1
    apply hn1T
    have h3 : n1 = -CONFLICT := by omega
    rw [h3, Pog.neg_CONFLICT]
  have hw1' : ∀ l, 1 ≤ IABS l → IABS l ≤ m.1.nvar → (w l).getD 0 + (w (-l)).getD 0 = 1 := by
    intro l hl1 hl2
    rw [hfr.2] at hl2
    exact hw1 l hl1 hl2
  obtain ⟨bwf, bext, bok, _, bval⟩ := Pog.build_sum_pair rt hs mwf (-m.2) n2
    (Pog.edge_ok_neg mok) (mext.edge_ok h2)
    (by rw [hfr.2]; rcases hfr.1 with h | h <;> omega) hmT hn2T w hw1'
  generalize Pog.build rt m.1 POG_SUM [-m.2, n2] = b at bwf bext bok bval ⊢
  have hpb := mext.trans bext
  have hw2' : ∀ l, 1 ≤ IABS l → IABS l ≤ b.1.nvar → (w l).isSome := by
    intro l hl1 hl2
    rw [hpb.1] at hl2
    exact hw2 l hl1 hl2
  have hk : b.1.nodes.length < b.1.nodes.length + 1 := by omega
  have hmlen : m.1.nodes.length < b.1.nodes.length + 1 := by
    have := bext.length_le
    omega
  rw [Pog.ring_evaluate_val bwf bok w hw2' _ hk,
    Pog.ring_evaluate_val bwf (hpb.edge_ok h1) w hw2' _ hk,
    Pog.ring_evaluate_val bwf (hpb.edge_ok hx) w hw2' _ hk,
    Pog.ring_evaluate_val bwf (hpb.edge_ok h2) w hw2' _ hk,
    hpb.val hwf w _ n1 (Pog.edge_ok_bound h1),
    hpb.val hwf w _ x (Pog.edge_ok_bound hx),
    hpb.val hwf w _ n2 (Pog.edge_ok_bound h2),
    bval _ hk, Pog.val_neg _ w hw1' _ mok, mval _ hmlen, Pog.val_neg p w hw1 _ h1,
    mext.val hwf w _ n2 (Pog.edge_ok_bound h2)]
  ring

/-- C20 (witness). The theorem `exclusion_value` at the literals `n1 = x1`, `x = x3`,
`n2 = x2` with weight one half for every literal. -/
theorem exclusion_value_witness :
    (exclusion stdRuntime (Pog.init 3 {1, 2, 3} ∅) 1 3 2).1.ring_evaluate
        (exclusion stdRuntime (Pog.init 3 {1, 2, 3} ∅) 1 3 2).2 (fun _ => some (1 / 2)) =
      (exclusion stdRuntime (Pog.init 3 {1, 2, 3} ∅) 1 3 2).1.ring_evaluate 1
        (fun _ => some (1 / 2)) -
      (exclusion stdRuntime (Pog.init 3 {1, 2, 3} ∅) 1 3 2).1.ring_evaluate 3
        (fun _ => some (1 / 2)) +
      (exclusion stdRuntime (Pog.init 3 {1, 2, 3} ∅) 1 3 2).1.ring_evaluate 2
        (fun _ => some (1 / 2)) :=
  exclusion_value stdRuntime stdRuntime_sort_ok (Pog.init 3 {1, 2, 3} ∅)
    (Pog.WF_init _ 3 _ _ (by decide)) (by decide) 1 3 2 (by decide) (by decide) (by decide)
    (by decide) (by decide) (by decide) (by decide) (fun _ => some (1 / 2))
    (fun _ _ _ => ⟨1 / 2, 1 / 2, rfl, rfl, by norm_num⟩)

end Project

namespace Project

theorem data_edge_extends {p q : Pog} (h : p.Extends q) {e : Int} (he : p.edge_ok e)
    (hd : data_edge p e) : data_edge q e := by
  rcases hd with hd | hd
  · exact Or.inl hd
  · exact Or.inr (by rw [h.only_data (Pog.edge_ok_bound he)]; exact hd)

theorem data_edge_neg {p : Pog} {e : Int} (hd : data_edge p e) : data_edge p (-e) := by
  unfold data_edge at hd ⊢
  rw [IABS_neg, Pog.only_data_variables_neg]
  exact hd

theorem data_edge_const (p : Pog) : data_edge p TAUTOLOGY ∧ data_edge p CONFLICT :=
  ⟨Or.inl IABS_TAUTOLOGY, Or.inl IABS_CONFLICT⟩

/-- One `add_argument` of an edge with no projection variable below it keeps the
arguments of the prototype free of projection variables. -/
theorem data_proto_step {rt : Runtime} {p : Pog} (hwf : p.WF rt) (n : Node) (e : Int)
    (ht : n.type = POG_PRODUCT ∨ n.type = POG_SUM) (he : p.edge_ok e) (hd : data_edge p e)
    (hn : ∀ a ∈ n.args, data_edge p a) :
    ∀ a ∈ (p.add_argument_node n e).args, data_edge p a := by
  have happ : ∀ a ∈ n.args ++ [e], data_edge p a := by
    intro a ha
    rcases List.mem_append.1 ha with ha | ha
    · exact hn a ha
    · rw [List.mem_singleton.1 ha]; exact hd
  rcases ht with ht | ht
  · rw [Pog.add_argument_node_product p n e ht]
    split_ifs with h1 h2 h3 h4
    · exact hn
    · exact hn
    · intro a ha
      rw [List.mem_singleton.1 ha]; exact (data_edge_const p).2
    · intro a ha
      rcases List.mem_append.1 ha with ha | ha
      · exact hn a ha
      · rcases hd with hd | hd
        · exact absurd hd ((Pog.is_node_iff p e).1 h4.1).2
        · rw [hwf.only_data_node he h4.1, List.all_eq_true] at hd
          exact Or.inr (hd a ha)
    · exact happ
  · rw [Pog.add_argument_node_sum p n e ht]
    split_ifs with h1 h2 h3 h4
    · exact hn
    · intro a ha
      rw [List.mem_singleton.1 ha]; exact (data_edge_const p).1
    · exact hn
    · intro a ha
      rw [List.mem_singleton.1 ha]; exact (data_edge_const p).1
    · exact happ

theorem data_proto_fold {rt : Runtime} {p : Pog} (hwf : p.WF rt) (args : List Int) :
    ∀ n : Node, (n.type = POG_PRODUCT ∨ n.type = POG_SUM) →
    (∀ a ∈ args, p.edge_ok a ∧ data_edge p a) → (∀ a ∈ n.args, data_edge p a) →
    ∀ a ∈ (args.foldl p.add_argument_node n).args, data_edge p a := by
  induction args with
  | nil => intro n _ _ h; exact h
  | cons e rest ih =>
    intro n ht hok hn
    simp only [List.foldl_cons]
    exact ih _ (by rw [Pog.add_argument_node_type]; exact ht)
      (fun a ha => hok a (List.mem_cons_of_mem _ ha))
      (data_proto_step hwf n e ht (hok e (List.mem_cons_self _ _)).1
        (hok e (List.mem_cons_self _ _)).2 hn)

/-- A node built from edges with no projection variable below them has none below it. -/
theorem build_data_edge (rt : Runtime) (hs : rt.sort_ok) {p : Pog} (hwf : p.WF rt)
    (t : pog_type_t) (ht : t = POG_PRODUCT ∨ t = POG_SUM) (args : List Int)
    (hok : ∀ a ∈ args, p.edge_ok a ∧ data_edge p a)
    (hr : (p.nvar : Int) + p.nodes.length + 1 < MAX_VARIABLE) :
    data_edge (Pog.build rt p t args).1 (Pog.build rt p t args).2 := by
  have hok1 : ∀ a ∈ args, p.edge_ok a := fun a ha => (hok a ha).1
  have hpa : ∀ a ∈ (p.proto_of t args).args, data_edge p a :=
    data_proto_fold hwf args ⟨t, [], true, true⟩ ht hok (by simp)
  have hpo := Pog.proto_of_ok hwf t args ht hok1
  have hM := Pog.MAX_VARIABLE_lt
  rcases Pog.build_cases rt hwf t args hok1 with ⟨_, h⟩ | ⟨h1, h⟩ | ⟨h2, i, n, hn, _, hna, h⟩ |
    ⟨h2, _, h⟩
  · rw [h]
    simp only []
    split
    · exact (data_edge_const p).2
    · exact (data_edge_const p).1
  · rw [h]
    simp only []
    cases hargs : (p.proto_of t args).args with
    | nil => rw [hargs] at h1; simp at h1
    | cons a rest =>
      rw [hargs] at hpa
      exact hpa a (List.mem_cons_self _ _)
  · rw [h]
    right
    simp only []
    have hl := Pog.node_lookup p hn hwf.range
    have hok' := hwf.nodes_ok i n hn
    have hil : i < p.nodes.length := by
      rw [List.get?_eq_getElem?] at hn
      exact (List.getElem?_eq_some_iff.1 hn).1
    have hek : p.edge_ok ((i : Int) + p.nvar + 1) := by
      left
      rw [IABS_of_nonneg (by omega)]
      constructor <;> omega
    rw [hwf.only_data_node hek hl.1, hl.2.2, List.all_eq_true]
    intro a ha
    have hc := hok'.children a ha
    unfold Pog.child_ok at hc
    rw [hna] at ha
    rcases hpa a (((hs _).1.mem_iff).1 ha) with hd | hd
    · have := hwf.range; omega
    · exact hd
  · rw [h]
    right
    simp only []
    rcases hpo with hp | ⟨c1, c2, _⟩
    · rw [hp] at h2; simp at h2
    · have hflag : (p.proto_of t args).data_only = true := by
        rw [c2, List.all_eq_true]
        intro a ha
        rcases hpa a ha with hd | hd
        · have := c1 a ha
          unfold Pog.child_ok at this
          have := hwf.range; omega
        · exact hd
      have hget : (p.commit rt ⟨t, rt.sort (p.proto_of t args).args,
          (p.proto_of t args).data_only, (p.proto_of t args).projection_only⟩).nodes.get?
            p.nodes.length = some ⟨t, rt.sort (p.proto_of t args).args,
          (p.proto_of t args).data_only, (p.proto_of t args).projection_only⟩ := by
        simp [List.get?_eq_getElem?]
      obtain ⟨hnode, hidx⟩ := Pog.node_index_id (p.commit rt ⟨t, rt.sort (p.proto_of t args).args,
          (p.proto_of t args).data_only, (p.proto_of t args).projection_only⟩) p.nodes.length
          (by simp; omega)
      simp only [Pog.commit_nvar] at hnode hidx
      unfold Pog.only_data_variables
      rw [if_pos hnode, hidx, Pog.nodeAt_of_some hget]
      exact hflag

theorem good_extend {rt : Runtime} {pr : Project} (hg : good rt pr) {q : Pog}
    (hext : pr.pog.Extends q) (hwf : q.WF rt) : good rt { pr with pog := q } := by
  refine ⟨hwf, hg.2.1, ?_⟩
  intro k v hkv
  obtain ⟨c1, c2, c3, c4⟩ := hg.2.2 k v hkv
  exact ⟨hext.edge_ok c1, by
    show q.only_data_variables k = false
    rw [hext.only_data (Pog.edge_ok_bound c1)]; exact c2, hext.edge_ok c3,
    data_edge_extends hext c3 c4⟩

theorem chain_refl (rt : Runtime) (pr : Project) (e : Int) (es : List Int)
    (h : good rt pr → pr.pog.edge_ok e → ∀ a ∈ es, pr.pog.edge_ok a ∧ data_edge pr.pog a) :
    chain rt pr e pr es :=
  ⟨⟨rfl, le_rfl, rfl⟩, fun hg he _ => ⟨hg, Pog.Extends.refl _, h hg he⟩⟩

theorem chain_weaken {rt : Runtime} {pr : Project} {e : Int} {pr1 : Project} {es es1 : List Int}
    (h : chain rt pr e pr1 es) (hsub : ∀ a ∈ es1, a ∈ es) : chain rt pr e pr1 es1 :=
  ⟨h.1, fun hg he hr => ⟨(h.2 hg he hr).1, (h.2 hg he hr).2.1,
    fun a ha => (h.2 hg he hr).2.2 a (hsub a ha)⟩⟩

/-- A run continued by the traversal of a further edge. -/
theorem chain_step {rt : Runtime} {pr : Project} {e : Int} {pr1 : Project} {es : List Int}
    (h : chain rt pr e pr1 es) {e2 : Int} {pr2 : Project} {r : Int}
    (he2 : good rt pr → pr.pog.edge_ok e →
      (pr1.pog.nvar : Int) + pr1.pog.nodes.length + 1 < MAX_VARIABLE → pr1.pog.edge_ok e2)
    (hs : chain rt pr1 e2 pr2 [r]) : chain rt pr e pr2 (r :: es) := by
  obtain ⟨⟨a1, a2, a3⟩, hc⟩ := h
  obtain ⟨⟨b1, b2, b3⟩, hd⟩ := hs
  refine ⟨⟨b1.trans a1, le_trans a2 b2, b3.trans a3⟩, ?_⟩
  intro hg he hr
  have hr1 : (pr1.pog.nvar : Int) + pr1.pog.nodes.length + 1 < MAX_VARIABLE := by
    rw [← b1]; omega
  obtain ⟨g1, x1, f1⟩ := hc hg he hr1
  obtain ⟨g2, x2, f2⟩ := hd g1 (he2 hg he hr1) hr
  refine ⟨g2, x1.trans x2, ?_⟩
  intro a ha
  rcases List.mem_cons.1 ha with ha | ha
  · rw [ha]; exact f2 r (List.mem_singleton_self _)
  · exact ⟨x2.edge_ok (f1 a ha).1, data_edge_extends x2 (f1 a ha).1 (f1 a ha).2⟩

/-- A run continued by a use of the builder on edges obtained so far, on their
negations, or on constants. -/
theorem chain_build {rt : Runtime} (hs : rt.sort_ok) {pr : Project} {e : Int} {pr1 : Project}
    {es : List Int} (h : chain rt pr e pr1 es) (t : pog_type_t)
    (ht : t = POG_PRODUCT ∨ t = POG_SUM) (args : List Int)
    (hargs : ∀ a ∈ args, a ∈ es ∨ -a ∈ es) :
    chain rt pr e { pr1 with pog := (Pog.build rt pr1.pog t args).1 }
      ((Pog.build rt pr1.pog t args).2 :: es) := by
  obtain ⟨⟨a1, a2, a3⟩, hc⟩ := h
  have hfr := Pog.build_frame rt pr1.pog t args
  refine ⟨⟨hfr.2.trans a1, ?_, a3⟩, ?_⟩
  · show pr.pog.nodes.length ≤ (Pog.build rt pr1.pog t args).1.nodes.length
    rcases hfr.1 with h | h <;> omega
  · intro hg he hr
    have hr' : ((Pog.build rt pr1.pog t args).1.nvar : Int) +
        (Pog.build rt pr1.pog t args).1.nodes.length + 1 < MAX_VARIABLE := hr
    have hr1 : (pr1.pog.nvar : Int) + pr1.pog.nodes.length + 1 < MAX_VARIABLE := by
      rw [hfr.2] at hr'
      rcases hfr.1 with h | h <;> omega
    obtain ⟨g1, x1, f1⟩ := hc hg he hr1
    have hok : ∀ a ∈ args, pr1.pog.edge_ok a ∧ data_edge pr1.pog a := by
      intro a ha
      rcases hargs a ha with h | h
      · exact f1 a h
      · have := f1 (-a) h
        have e1 := Pog.edge_ok_neg this.1
        have e2 := data_edge_neg this.2
        rw [neg_neg] at e1 e2
        exact ⟨e1, e2⟩
    obtain ⟨w1, w2, _⟩ := Pog.build_spec rt hs g1.1 t ht args (fun a ha => (hok a ha).1) hr1
    have x2 := Pog.build_extends rt hs g1.1 t ht args (fun a ha => (hok a ha).1) hr1
    refine ⟨good_extend g1 x2 w1, x1.trans x2, ?_⟩
    intro a ha
    rcases List.mem_cons.1 ha with ha | ha
    · rw [ha]; exact ⟨w2, build_data_edge rt hs g1.1 t ht args hok hr1⟩
    · exact ⟨x2.edge_ok (f1 a ha).1, data_edge_extends x2 (f1 a ha).1 (f1 a ha).2⟩

/-- A run continued by a call of the compile oracle. -/
theorem chain_compile {rt : Runtime} {orc : Oracles} (horc : compile_ok rt orc) {pr : Project}
    {e : Int} {pr1 : Project} {es : List Int} (h : chain rt pr e pr1 es) (cnf : Cnf)
    (trim defer : Bool) :
    chain rt pr e { pr1 with pog := (orc.compile pr1.pog cnf trim defer).1 } es ∧
    (good rt pr → pr.pog.edge_ok e →
      (((orc.compile pr1.pog cnf trim defer).1.nvar : Int) +
        (orc.compile pr1.pog cnf trim defer).1.nodes.length + 1 < MAX_VARIABLE) →
      (orc.compile pr1.pog cnf trim defer).1.edge_ok (orc.compile pr1.pog cnf trim defer).2) := by
  obtain ⟨⟨a1, a2, a3⟩, hc⟩ := h
  obtain ⟨x2, hw⟩ := horc pr1.pog cnf trim defer
  have hlen := x2.length_le
  have key : good rt pr → pr.pog.edge_ok e →
      (((orc.compile pr1.pog cnf trim defer).1.nvar : Int) +
        (orc.compile pr1.pog cnf trim defer).1.nodes.length + 1 < MAX_VARIABLE) →
      (good rt pr1 ∧ pr.pog.Extends pr1.pog ∧
        ∀ a ∈ es, pr1.pog.edge_ok a ∧ data_edge pr1.pog a) ∧
      (orc.compile pr1.pog cnf trim defer).1.WF rt ∧
      (orc.compile pr1.pog cnf trim defer).1.edge_ok (orc.compile pr1.pog cnf trim defer).2 := by
    intro hg he hr
    have hr1 : (pr1.pog.nvar : Int) + pr1.pog.nodes.length + 1 < MAX_VARIABLE := by
      rw [x2.1] at hr; omega
    have c := hc hg he hr1
    exact ⟨c, hw c.1.1 (by omega)⟩
  refine ⟨⟨⟨x2.1.trans a1, le_trans a2 hlen, a3⟩, ?_⟩, fun hg he hr => (key hg he hr).2.2⟩
  intro hg he hr
  obtain ⟨⟨g1, x1, f1⟩, w1, _⟩ := key hg he hr
  exact ⟨good_extend g1 x2 w1, x1.trans x2,
    fun a ha => ⟨x2.edge_ok (f1 a ha).1, data_edge_extends x2 (f1 a ha).1 (f1 a ha).2⟩⟩

/-- A run continued by an entry in the result cache for the edge it started from. -/
theorem chain_cache {rt : Runtime} {pr : Project} {e : Int} {pr1 : Project} {r : Int}
    (h : chain rt pr e pr1 [r]) (hd : good rt pr → pr.pog.only_data_variables e = false) :
    chain rt pr e { pr1 with result_cache := Function.update pr1.result_cache e (some r) } [r] := by
  obtain ⟨hm, hc⟩ := h
  refine ⟨hm, ?_⟩
  intro hg he hr
  obtain ⟨g1, x1, f1⟩ := hc hg he hr
  refine ⟨⟨g1.1, g1.2.1, ?_⟩, x1, f1⟩
  intro k v hkv
  by_cases hk : k = e
  · subst hk
    have hv : v = r := by
      have : (Function.update pr1.result_cache k (some r)) k = some v := hkv
      rw [Function.update_same] at this
      exact (Option.some.inj this).symm
    subst hv
    have f := f1 v (List.mem_singleton_self _)
    exact ⟨x1.edge_ok he, by
      show pr1.pog.only_data_variables k = false
      rw [x1.only_data (Pog.edge_ok_bound he)]; exact hd hg, f.1, f.2⟩
  · have : pr1.result_cache k = some v := by
      have h2 : (Function.update pr1.result_cache e (some r)) k = some v := hkv
      rw [Function.update_noteq hk] at h2
      exact h2
    exact g1.2.2 k v this

/-- The first two arguments of a stored node are edges of the graph. -/
theorem get_argument_ok {rt : Runtime} {p : Pog} (hwf : p.WF rt) {e : Int} (he : p.edge_ok e)
    (hn : p.is_node e = true) (i : Nat) (hi : i < 2) : p.edge_ok (p.get_argument e i) := by
  obtain ⟨j, hjl, _, _, hdeg, hch⟩ := hwf.children_of_node (Pog.edge_ok_bound he) hn
  have hidx := Pog.node_index_nonneg hn
  have hneg : ¬ (p.node_index e < 0) := by omega
  have h1 : p.get_argument e i = (p.get_arguments e).getD i 0 := by
    unfold Pog.get_argument Pog.get_arguments
    simp only [hneg, if_false]
  have hil : i < (p.get_arguments e).length := by omega
  have hm : p.get_argument e i ∈ p.get_arguments e := by
    rw [h1, List.getD_eq_getElem _ _ hil]
    exact List.getElem_mem _
  have := hch _ hm
  exact Or.inl ⟨this.1, by omega⟩

/-- The loop of `traverse_product` over the arguments, for any step function that acts
as the loop body does. -/
theorem product_fold_chain {rt : Runtime} (trav : Project → Int → Option (Project × Int))
    (htrav : ∀ pr e pr1 r, trav pr e = some (pr1, r) → chain rt pr e pr1 [r])
    (F : Option (Project × List Int) → Int → Option (Project × List Int))
    (hF0 : ∀ a, F none a = none)
    (hF1 : ∀ pr nc a, trav pr a = none → F (some (pr, nc)) a = none)
    (hF2 : ∀ pr nc a pr2 n, trav pr a = some (pr2, n) →
      F (some (pr, nc)) a = some (pr2, nc ++ [n]))
    (pr : Project) (e : Int) :
    ∀ (args : List Int) (pr0 : Project) (nc0 : List Int) (prN : Project) (ncN : List Int),
      chain rt pr e pr0 nc0 →
      (good rt pr → pr.pog.edge_ok e → ∀ a ∈ args, pr.pog.edge_ok a) →
      args.foldl F (some (pr0, nc0)) = some (prN, ncN) → chain rt pr e prN ncN := by
  have hnone : ∀ l : List Int, l.foldl F none = none := by
    intro l
    induction l with
    | nil => rfl
    | cons a rest ih => simp only [List.foldl_cons, hF0, ih]
  intro args
  induction args with
  | nil =>
    intro pr0 nc0 prN ncN hc _ h
    simp only [List.foldl_nil, Option.some.injEq, Prod.mk.injEq] at h
    obtain ⟨rfl, rfl⟩ := h
    exact hc
  | cons a rest ih =>
    intro pr0 nc0 prN ncN hc hargs h
    simp only [List.foldl_cons] at h
    cases ht : trav pr0 a with
    | none =>
      rw [hF1 pr0 nc0 a ht, hnone] at h
      cases h
    | some x =>
      obtain ⟨pr1, n⟩ := x
      rw [hF2 pr0 nc0 a pr1 n ht] at h
      have hc1 : chain rt pr e pr1 (n :: nc0) :=
        chain_step hc (fun hg he hr => ((hc.2 hg he hr).2.1).edge_ok
          (hargs hg he a (List.mem_cons_self _ _))) (htrav pr0 a pr1 n ht)
      exact ih pr1 (nc0 ++ [n]) prN ncN
        (chain_weaken hc1 (fun x hx => by
          rcases List.mem_append.1 hx with hx | hx
          · exact List.mem_cons_of_mem _ hx
          · rw [List.mem_singleton.1 hx]; exact List.mem_cons_self _ _))
        (fun hg he x hx => hargs hg he x (List.mem_cons_of_mem _ hx)) h

/-- The method `traverse_product` keeps the invariant of the projector when the traversal
of the arguments does. -/
theorem traverse_product_chain {rt : Runtime} (hs : rt.sort_ok)
    (trav : Project → Int → Option (Project × Int))
    (htrav : ∀ pr e pr1 r, trav pr e = some (pr1, r) → chain rt pr e pr1 [r])
    (pr : Project) (edge : Int) (pr1 : Project) (r : Int)
    (h : traverse_product rt trav pr edge = some (pr1, r)) : chain rt pr edge pr1 [r] := by
  unfold traverse_product at h
  simp only [] at h
  split at h
  · cases h
  · rename_i prN ncN hfold
    simp only [Option.some.injEq, Prod.mk.injEq] at h
    obtain ⟨rfl, rfl⟩ := h
    have hc := product_fold_chain trav htrav _ (fun a => rfl)
      (fun pr nc a ht => by simp only [ht])
      (fun pr nc a pr2 n ht => by simp only [ht])
      pr edge (pr.pog.get_arguments edge) pr [] prN ncN
      (chain_refl rt pr edge [] (fun _ _ a ha => by cases ha))
      (fun hg he a ha => by
        have := hg.1.get_arguments_child_ok edge he a ha
        unfold Pog.child_ok at this
        exact Or.inl this) hfold
    exact chain_weaken (chain_build hs hc POG_PRODUCT (Or.inl rfl) ncN (fun a ha => Or.inl ha))
      (fun a ha => by rw [List.mem_singleton.1 ha]; exact List.mem_cons_self _ _)

/-- The method `traverse_sum` keeps the invariant of the projector when the traversal of
the arguments does and the compile oracle keeps its contract. -/
theorem traverse_sum_chain {rt : Runtime} (hs : rt.sort_ok) {orc : Oracles}
    (horc : compile_ok rt orc) (trav : Project → Int → Option (Project × Int))
    (htrav : ∀ pr e pr1 r, trav pr e = some (pr1, r) → chain rt pr e pr1 [r])
    (pr : Project) (edge : Int) (hnode : pr.pog.is_node edge = true) (pr9 : Project) (r : Int)
    (h : traverse_sum rt orc trav pr edge = some (pr9, r)) : chain rt pr edge pr9 [r] := by
  unfold traverse_sum at h
  simp only [] at h
  cases hdv : pr.pog.get_decision_variable (rt.stray pr.pog edge) edge with
  | none => rw [hdv] at h; cases h
  | some dvar =>
  rw [hdv] at h
  simp only [] at h
  cases h1 : trav pr (pr.pog.get_argument edge 0) with
  | none => rw [h1] at h; cases h
  | some x1 =>
  obtain ⟨pr1, n1⟩ := x1
  rw [h1] at h
  simp only [] at h
  have c0 : chain rt pr edge pr [] := chain_refl rt pr edge [] (fun _ _ a ha => by cases ha)
  have c1 : chain rt pr edge pr1 [n1] :=
    chain_step c0 (fun hg he _ => get_argument_ok hg.1 he hnode 0 (by omega)) (htrav _ _ _ _ h1)
  by_cases hn1 : n1 = TAUTOLOGY
  · rw [if_pos hn1] at h
    simp only [Option.some.injEq, Prod.mk.injEq] at h
    obtain ⟨rfl, rfl⟩ := h
    exact c1
  rw [if_neg hn1] at h
  cases h2 : trav pr1 (pr.pog.get_argument edge 1) with
  | none => rw [h2] at h; cases h
  | some x2 =>
  obtain ⟨pr2, n2⟩ := x2
  rw [h2] at h
  simp only [] at h
  have c2 : chain rt pr edge pr2 [n2, n1] :=
    chain_step c1 (fun hg he hr => ((c1.2 hg he hr).2.1).edge_ok
      (get_argument_ok hg.1 he hnode 1 (by omega))) (htrav _ _ _ _ h2)
  by_cases hn2 : n2 = TAUTOLOGY
  · rw [if_pos hn2] at h
    simp only [Option.some.injEq, Prod.mk.injEq] at h
    obtain ⟨rfl, rfl⟩ := h
    exact chain_weaken c2 (fun a ha => by rw [List.mem_singleton.1 ha]; simp)
  rw [if_neg hn2] at h
  by_cases hn12 : n1 = n2
  · rw [if_pos hn12] at h
    simp only [Option.some.injEq, Prod.mk.injEq] at h
    obtain ⟨rfl, rfl⟩ := h
    exact chain_weaken c2 (fun a ha => by rw [List.mem_singleton.1 ha]; simp)
  rw [if_neg hn12] at h
  by_cases hst : sums_to_tautology orc pr2 [n1, n2] = true
  · rw [if_pos hst] at h
    simp only [Option.some.injEq, Prod.mk.injEq] at h
    obtain ⟨rfl, rfl⟩ := h
    refine ⟨c2.1, fun hg he hr => ⟨(c2.2 hg he hr).1, (c2.2 hg he hr).2.1, ?_⟩⟩
    intro a ha
    rw [List.mem_singleton.1 ha]
    exact ⟨Or.inr IABS_TAUTOLOGY, (data_edge_const _).1⟩
  rw [if_neg hst] at h
  have hplain : chain rt pr edge { pr2 with pog := (Pog.build rt pr2.pog POG_SUM [n1, n2]).1 }
      [(Pog.build rt pr2.pog POG_SUM [n1, n2]).2] :=
    chain_weaken (chain_build hs c2 POG_SUM (Or.inr rfl) [n1, n2]
      (fun a ha => Or.inl (by
        simp only [List.mem_cons, List.mem_singleton, List.not_mem_nil, or_false] at ha ⊢
        tauto)))
      (fun a ha => by rw [List.mem_singleton.1 ha]; exact List.mem_cons_self _ _)
  by_cases hd : pr2.pog.is_data_variable dvar = true
  · rw [if_pos hd] at h
    simp only [Option.some.injEq, Prod.mk.injEq] at h
    obtain ⟨rfl, rfl⟩ := h
    exact hplain
  rw [if_neg hd] at h
  by_cases htv : pr2.pog.is_tseitin_variable dvar = true
  · rw [if_pos htv] at h
    simp only [Option.some.injEq, Prod.mk.injEq] at h
    obtain ⟨rfl, rfl⟩ := h
    exact hplain
  rw [if_neg htv] at h
  by_cases hsat : (Cnf.is_satisfiable orc.walk orc.solver
      (Compiler.clausify pr2.pog [n1, n2])).2 = false
  · rw [if_pos hsat] at h
    simp only [Option.some.injEq, Prod.mk.injEq] at h
    obtain ⟨rfl, rfl⟩ := h
    exact hplain
  rw [if_neg hsat] at h
  obtain ⟨cc, hu⟩ := chain_compile horc c2
    (Cnf.is_satisfiable orc.walk orc.solver (Compiler.clausify pr2.pog [n1, n2])).1
    (decide (pr2.optlevel ≥ 2)) false
  by_cases huc : (orc.compile pr2.pog
      (Cnf.is_satisfiable orc.walk orc.solver (Compiler.clausify pr2.pog [n1, n2])).1
      (decide (pr2.optlevel ≥ 2)) false).2 = CONFLICT
  · rw [if_pos huc] at h
    simp only [Option.some.injEq, Prod.mk.injEq] at h
    obtain ⟨rfl, rfl⟩ := h
    exact chain_weaken (chain_build hs cc POG_SUM (Or.inr rfl) [n1, n2]
      (fun a ha => Or.inl (by
        simp only [List.mem_cons, List.mem_singleton, List.not_mem_nil, or_false] at ha ⊢
        tauto)))
      (fun a ha => by rw [List.mem_singleton.1 ha]; exact List.mem_cons_self _ _)
  rw [if_neg huc] at h
  cases h3 : trav { pr2 with pog := (orc.compile pr2.pog
      (Cnf.is_satisfiable orc.walk orc.solver (Compiler.clausify pr2.pog [n1, n2])).1
      (decide (pr2.optlevel ≥ 2)) false).1 } (orc.compile pr2.pog
      (Cnf.is_satisfiable orc.walk orc.solver (Compiler.clausify pr2.pog [n1, n2])).1
      (decide (pr2.optlevel ≥ 2)) false).2 with
  | none => rw [h3] at h; cases h
  | some x3 =>
  obtain ⟨pr3, xroot⟩ := x3
  rw [h3] at h
  simp only [] at h
  have c3 : chain rt pr edge pr3 [xroot, n2, n1] := chain_step cc hu (htrav _ _ _ _ h3)
  have w1 : chain rt pr edge pr3 [n1] :=
    chain_weaken c3 (fun a ha => by rw [List.mem_singleton.1 ha]; simp)
  have w2 : chain rt pr edge pr3 [n2] :=
    chain_weaken c3 (fun a ha => by rw [List.mem_singleton.1 ha]; simp)
  split_ifs at h
  · simp only [Option.some.injEq, Prod.mk.injEq] at h
    obtain ⟨rfl, rfl⟩ := h
    exact w2
  · simp only [Option.some.injEq, Prod.mk.injEq] at h
    obtain ⟨rfl, rfl⟩ := h
    exact w1
  · simp only [Option.some.injEq, Prod.mk.injEq] at h
    obtain ⟨rfl, rfl⟩ := h
    exact w2
  · simp only [Option.some.injEq, Prod.mk.injEq] at h
    obtain ⟨rfl, rfl⟩ := h
    exact w1
  · simp only [Option.some.injEq, Prod.mk.injEq] at h
    obtain ⟨rfl, rfl⟩ := h
    have cm := chain_build hs c3 POG_SUM (Or.inr rfl) [-n1, xroot] (fun a ha => by
      simp only [List.mem_cons, List.mem_singleton, List.not_mem_nil, or_false] at ha
      rcases ha with ha | ha
      · right; rw [ha, neg_neg]; simp
      · left; rw [ha]; simp)
    exact chain_weaken (chain_build hs cm POG_SUM (Or.inr rfl)
      [-(Pog.build rt pr3.pog POG_SUM [-n1, xroot]).2, n2] (fun a ha => by
        simp only [List.mem_cons, List.mem_singleton, List.not_mem_nil, or_false] at ha
        rcases ha with ha | ha
        · right; rw [ha, neg_neg]; simp
        · left; rw [ha]; simp))
      (fun a ha => by rw [List.mem_singleton.1 ha]; exact List.mem_cons_self _ _)

theorem traverse_zero (rt : Runtime) (orc : Oracles) (pr : Project) (edge : Int) :
    traverse rt orc 0 pr edge = none := rfl

theorem traverse_succ (rt : Runtime) (orc : Oracles) (fuel : Nat) (pr : Project) (edge : Int) :
    traverse rt orc (fuel + 1) pr edge =
      if pr.pog.is_node edge = false then
        if Pog.get_var edge = TAUTOLOGY then some (pr, edge)
        else if pr.pog.is_data_variable (Pog.get_var edge) then some (pr, edge)
        else some (pr, TAUTOLOGY)
      else
        match (if pr.optlevel ≥ 1 then pr.result_cache edge else none) with
        | some nedge => some (pr, nedge)
        | none =>
          if pr.optlevel ≥ 2 ∧ pr.pog.only_data_variables edge = true then some (pr, edge)
          else if pr.optlevel ≥ 2 ∧ pr.pog.only_projection_variables edge = true then
            some (pr, TAUTOLOGY)
          else
            match (if pr.pog.is_sum edge then
                    traverse_sum rt orc (traverse rt orc fuel) pr edge
                   else traverse_product rt (traverse rt orc fuel) pr edge) with
            | none => none
            | some (pr1, nedge) =>
              some ({ pr1 with result_cache :=
                        Function.update pr1.result_cache edge (some nedge) }, nedge) := rfl

/-- The method `traverse` keeps the invariant of the projector, and returns an edge with
no projection variable below it. -/
theorem traverse_chain {rt : Runtime} (hs : rt.sort_ok) {orc : Oracles}
    (horc : compile_ok rt orc) : ∀ (fuel : Nat) (pr : Project) (e : Int) (pr1 : Project)
    (r : Int), traverse rt orc fuel pr e = some (pr1, r) → chain rt pr e pr1 [r] := by
  intro fuel
  induction fuel with
  | zero => intro pr e pr1 r h; rw [traverse_zero] at h; cases h
  | succ fuel ih =>
    intro pr e pr1 r h
    rw [traverse_succ] at h
    by_cases hn : pr.pog.is_node e = false
    · rw [if_pos hn] at h
      split_ifs at h with h1 h2
      · simp only [Option.some.injEq, Prod.mk.injEq] at h
        obtain ⟨rfl, rfl⟩ := h
        exact chain_refl rt _ _ _ (fun _ he a ha => by
          rw [List.mem_singleton.1 ha]; exact ⟨he, Or.inl h1⟩)
      · simp only [Option.some.injEq, Prod.mk.injEq] at h
        obtain ⟨rfl, rfl⟩ := h
        exact chain_refl rt _ _ _ (fun _ he a ha => by
          rw [List.mem_singleton.1 ha]
          refine ⟨he, Or.inr ?_⟩
          unfold Pog.only_data_variables
          rw [hn]
          simpa [Pog.is_data_variable] using h2)
      · simp only [Option.some.injEq, Prod.mk.injEq] at h
        obtain ⟨rfl, rfl⟩ := h
        exact chain_refl rt _ _ _ (fun _ _ a ha => by
          rw [List.mem_singleton.1 ha]
          exact ⟨Or.inr IABS_TAUTOLOGY, (data_edge_const _).1⟩)
    · rw [if_neg hn] at h
      have hn' : pr.pog.is_node e = true := by simpa using hn
      cases hcache : (if pr.optlevel ≥ 1 then pr.result_cache e else none) with
      | some nedge =>
        rw [hcache] at h
        simp only [Option.some.injEq, Prod.mk.injEq] at h
        obtain ⟨rfl, rfl⟩ := h
        have hce : pr.result_cache e = some nedge := by
          split_ifs at hcache
          exact hcache
        exact chain_refl rt _ _ _ (fun hg _ a ha => by
          rw [List.mem_singleton.1 ha]
          exact ⟨(hg.2.2 e nedge hce).2.2.1, (hg.2.2 e nedge hce).2.2.2⟩)
      | none =>
        rw [hcache] at h
        simp only [] at h
        by_cases hdo : pr.optlevel ≥ 2 ∧ pr.pog.only_data_variables e = true
        · rw [if_pos hdo] at h
          simp only [Option.some.injEq, Prod.mk.injEq] at h
          obtain ⟨rfl, rfl⟩ := h
          exact chain_refl rt _ _ _ (fun _ he a ha => by
            rw [List.mem_singleton.1 ha]; exact ⟨he, Or.inr hdo.2⟩)
        rw [if_neg hdo] at h
        by_cases hpo : pr.optlevel ≥ 2 ∧ pr.pog.only_projection_variables e = true
        · rw [if_pos hpo] at h
          simp only [Option.some.injEq, Prod.mk.injEq] at h
          obtain ⟨rfl, rfl⟩ := h
          exact chain_refl rt _ _ _ (fun _ _ a ha => by
            rw [List.mem_singleton.1 ha]
            exact ⟨Or.inr IABS_TAUTOLOGY, (data_edge_const _).1⟩)
        rw [if_neg hpo] at h
        have hfalse : good rt pr → pr.pog.only_data_variables e = false := by
          intro hg
          cases hv : pr.pog.only_data_variables e with
          | false => rfl
          | true => exact absurd ⟨hg.2.1, hv⟩ hdo
        cases hsub : (if pr.pog.is_sum e then traverse_sum rt orc (traverse rt orc fuel) pr e
            else traverse_product rt (traverse rt orc fuel) pr e) with
        | none => rw [hsub] at h; cases h
        | some x =>
          obtain ⟨pr2, nedge⟩ := x
          rw [hsub] at h
          simp only [Option.some.injEq, Prod.mk.injEq] at h
          obtain ⟨rfl, rfl⟩ := h
          apply chain_cache _ hfalse
          split_ifs at hsub
          · exact traverse_sum_chain hs horc _ ih pr e hn' pr2 _ hsub
          · exact traverse_product_chain hs _ ih pr e pr2 _ hsub

/-- In a good state, the traversal of an edge of the graph with no projection variable
below it returns the edge and leaves the state as it is. -/
theorem traverse_data_edge {rt : Runtime} (orc : Oracles) {pr : Project} (hg : good rt pr)
    {r : Int} (hd : data_edge pr.pog r) (k : Nat) :
    traverse rt orc (k + 1) pr r = some (pr, r) := by
  rw [traverse_succ]
  by_cases hn : pr.pog.is_node r = false
  · rw [if_pos hn]
    by_cases h1 : Pog.get_var r = TAUTOLOGY
    · rw [if_pos h1]
    · rw [if_neg h1]
      rcases hd with hd | hd
      · exact absurd hd h1
      · unfold Pog.only_data_variables at hd
        rw [hn] at hd
        have : pr.pog.is_data_variable (Pog.get_var r) = true := by
          simpa [Pog.is_data_variable] using hd
        rw [if_pos this]
  · rw [if_neg hn]
    have hn' : pr.pog.is_node r = true := by simpa using hn
    have hdo : pr.pog.only_data_variables r = true := by
      rcases hd with hd | hd
      · exact absurd hd ((Pog.is_node_iff pr.pog r).1 hn').2
      · exact hd
    have hcache : (if pr.optlevel ≥ 1 then pr.result_cache r else none) = none := by
      have h1 : pr.optlevel ≥ 1 := by have := hg.2.1; omega
      rw [if_pos h1]
      cases hc : pr.result_cache r with
      | none => rfl
      | some v =>
        have := (hg.2.2 r v hc).2.1
        rw [hdo] at this
        cases this
    rw [hcache]
    simp only []
    rw [if_pos ⟨hg.2.1, hdo⟩]

end Project

namespace Project

set_option maxRecDepth 1000000 in
set_option maxHeartbeats 4000000 in
/-- The two traversals of the counterexample at the optimisation level 0. -/
theorem traverse_twice_level_zero :
    ((traverse stdRuntime ⟨reference_solver, fun p _ _ _ => (p, TAUTOLOGY), stdWalk⟩ 4
      ⟨(Pog.build stdRuntime (Pog.build stdRuntime (Pog.build stdRuntime (Pog.init 4 {1, 2, 3} {4})
        POG_PRODUCT [4, 1]).1 POG_PRODUCT [-4, 2, 3]).1 POG_SUM [5, 6]).1,
        7, fun _ => none, [], 0⟩ 7).map fun x => x.2) = some 9 ∧
    ((traverse stdRuntime ⟨reference_solver, fun p _ _ _ => (p, TAUTOLOGY), stdWalk⟩ 4
      ⟨(Pog.build stdRuntime (Pog.build stdRuntime (Pog.build stdRuntime (Pog.init 4 {1, 2, 3} {4})
        POG_PRODUCT [4, 1]).1 POG_PRODUCT [-4, 2, 3]).1 POG_SUM [5, 6]).1,
        7, fun _ => none, [], 0⟩ 7).bind fun x =>
      traverse stdRuntime ⟨reference_solver, fun p _ _ _ => (p, TAUTOLOGY), stdWalk⟩ 4 x.1 x.2).isSome = false := by
  decide

set_option maxRecDepth 1000000 in
set_option maxHeartbeats 4000000 in
/-- The two traversals of the counterexample at the optimisation level 1. -/
theorem traverse_twice_level_one :
    ((traverse stdRuntime ⟨reference_solver, fun p _ _ _ => (p, TAUTOLOGY), stdWalk⟩ 4
      ⟨(Pog.build stdRuntime (Pog.build stdRuntime (Pog.build stdRuntime (Pog.init 4 {1, 2, 3} {4})
        POG_PRODUCT [4, 1]).1 POG_PRODUCT [-4, 2, 3]).1 POG_SUM [5, 6]).1,
        7, fun _ => none, [], 1⟩ 7).map fun x => x.2) = some 9 ∧
    ((traverse stdRuntime ⟨reference_solver, fun p _ _ _ => (p, TAUTOLOGY), stdWalk⟩ 4
      ⟨(Pog.build stdRuntime (Pog.build stdRuntime (Pog.build stdRuntime (Pog.init 4 {1, 2, 3} {4})
        POG_PRODUCT [4, 1]).1 POG_PRODUCT [-4, 2, 3]).1 POG_SUM [5, 6]).1,
        7, fun _ => none, [], 1⟩ 7).bind fun x =>
      traverse stdRuntime ⟨reference_solver, fun p _ _ _ => (p, TAUTOLOGY), stdWalk⟩ 4 x.1 x.2).isSome = false := by
  decide

/-- C5 (counterexample). The graph holds the Sum 7 of the Products 5 = `x4 ∧ x1` and
6 = `-x4 ∧ x2 ∧ x3`, with data variables 1, 2, 3. At the optimisation levels 0 and 1,
`traverse(7)` returns the edge 9 of a new Sum of `x1` and the Product of `x2, x3`, and
`traverse(9)` has no result: the new Sum has no decision variable, which is a fatal
error of `get_decision_variable`. -/
theorem traverse_twice_counterexample :
    (((traverse stdRuntime ⟨reference_solver, fun p _ _ _ => (p, TAUTOLOGY), stdWalk⟩ 4
      ⟨(Pog.build stdRuntime (Pog.build stdRuntime (Pog.build stdRuntime (Pog.init 4 {1, 2, 3} {4})
        POG_PRODUCT [4, 1]).1 POG_PRODUCT [-4, 2, 3]).1 POG_SUM [5, 6]).1,
        7, fun _ => none, [], 0⟩ 7).map fun x => x.2) = some 9 ∧
    ((traverse stdRuntime ⟨reference_solver, fun p _ _ _ => (p, TAUTOLOGY), stdWalk⟩ 4
      ⟨(Pog.build stdRuntime (Pog.build stdRuntime (Pog.build stdRuntime (Pog.init 4 {1, 2, 3} {4})
        POG_PRODUCT [4, 1]).1 POG_PRODUCT [-4, 2, 3]).1 POG_SUM [5, 6]).1,
        7, fun _ => none, [], 0⟩ 7).bind fun x =>
      traverse stdRuntime ⟨reference_solver, fun p _ _ _ => (p, TAUTOLOGY), stdWalk⟩ 4 x.1 x.2).isSome = false) ∧
    (((traverse stdRuntime ⟨reference_solver, fun p _ _ _ => (p, TAUTOLOGY), stdWalk⟩ 4
      ⟨(Pog.build stdRuntime (Pog.build stdRuntime (Pog.build stdRuntime (Pog.init 4 {1, 2, 3} {4})
        POG_PRODUCT [4, 1]).1 POG_PRODUCT [-4, 2, 3]).1 POG_SUM [5, 6]).1,
        7, fun _ => none, [], 1⟩ 7).map fun x => x.2) = some 9 ∧
    ((traverse stdRuntime ⟨reference_solver, fun p _ _ _ => (p, TAUTOLOGY), stdWalk⟩ 4
      ⟨(Pog.build stdRuntime (Pog.build stdRuntime (Pog.build stdRuntime (Pog.init 4 {1, 2, 3} {4})
        POG_PRODUCT [4, 1]).1 POG_PRODUCT [-4, 2, 3]).1 POG_SUM [5, 6]).1,
        7, fun _ => none, [], 1⟩ 7).bind fun x =>
      traverse stdRuntime ⟨reference_solver, fun p _ _ _ => (p, TAUTOLOGY), stdWalk⟩ 4 x.1 x.2).isSome = false) :=
  ⟨traverse_twice_level_zero, traverse_twice_level_one⟩


/-- C5 (amended). At the optimisation levels 2 and above `traverse` is idempotent on its
results. For every well-formed graph, every result cache that has no entry for an edge
with the flag `data_only` and holds only results with no projection variable below them
(the empty cache is one), every compile oracle that extends the graph, and every edge `e`
of the graph: when `traverse(e)` returns the edge `r`, within the range of node ids, then
`traverse(r)` returns `r` and leaves the graph and the cache as they are, for every
positive depth bound. -/
theorem traverse_idempotent (rt : Runtime) (hs : rt.sort_ok) (orc : Oracles)
    (horc : compile_ok rt orc) (fuel : Nat) (pr : Project) (e : Int) (hwf : pr.pog.WF rt)
    (hopt : 2 ≤ pr.optlevel) (hc : pr.cache_ok) (he : pr.pog.edge_ok e) (pr1 : Project)
    (r : Int) (hrun : traverse rt orc fuel pr e = some (pr1, r))
    (hr : (pr1.pog.nvar : Int) + pr1.pog.nodes.length + 1 < MAX_VARIABLE) :
    ∀ k, traverse rt orc (k + 1) pr1 r = some (pr1, r) := by
  intro k
  obtain ⟨hg, _, hf⟩ := (traverse_chain hs horc fuel pr e pr1 r hrun).2 ⟨hwf, hopt, hc⟩ he hr
  exact traverse_data_edge orc hg (hf r (List.mem_singleton_self _)).2 k

/-- C5 (witness). The theorem `traverse_idempotent` at the Product 5 = `x4 ∧ x1` of the
projection variable 4 and the data variable 1, at the optimisation level 2 with the empty
cache: `traverse(5)` returns the literal `x1` and enters it in the cache, and
`traverse(x1)` returns `x1`. -/
theorem traverse_idempotent_witness :
    traverse stdRuntime ⟨reference_solver, fun p _ _ _ => (p, TAUTOLOGY), stdWalk⟩ 1
      ⟨(Pog.build stdRuntime (Pog.init 4 {1, 2, 3} {4}) POG_PRODUCT [4, 1]).1, 5,
        Function.update (fun _ => none) 5 (some 1), [], 2⟩ 1 =
    some (⟨(Pog.build stdRuntime (Pog.init 4 {1, 2, 3} {4}) POG_PRODUCT [4, 1]).1, 5,
        Function.update (fun _ => none) 5 (some 1), [], 2⟩, 1) := by
  have hwf : Pog.WF stdRuntime (Pog.build stdRuntime (Pog.init 4 {1, 2, 3} {4}) POG_PRODUCT [4, 1]).1 :=
    Pog.Reachable.wf stdRuntime_sort_ok
      (Pog.Reachable.build (Pog.init 4 {1, 2, 3} {4}) POG_PRODUCT [4, 1]
        (Pog.Reachable.init 4 {1, 2, 3} {4}) (Or.inl rfl) (by decide)) (by decide)
  have he : Pog.edge_ok (Pog.build stdRuntime (Pog.init 4 {1, 2, 3} {4}) POG_PRODUCT [4, 1]).1 5 := by decide
  have hr : (((Pog.build stdRuntime (Pog.init 4 {1, 2, 3} {4}) POG_PRODUCT [4, 1]).1).nvar : Int) +
      ((Pog.build stdRuntime (Pog.init 4 {1, 2, 3} {4}) POG_PRODUCT [4, 1]).1).nodes.length + 1 < MAX_VARIABLE := by
    decide
  exact traverse_idempotent stdRuntime stdRuntime_sort_ok ⟨reference_solver, fun p _ _ _ => (p, TAUTOLOGY), stdWalk⟩
    (fun p _ _ _ => ⟨Pog.Extends.refl p, fun hwf _ => ⟨hwf, Or.inr IABS_TAUTOLOGY⟩⟩) 2
    ⟨(Pog.build stdRuntime (Pog.init 4 {1, 2, 3} {4}) POG_PRODUCT [4, 1]).1, 5, fun _ => none, [], 2⟩ 5
    hwf (le_refl 2) (fun k v h => Option.noConfusion h) he
    ⟨(Pog.build stdRuntime (Pog.init 4 {1, 2, 3} {4}) POG_PRODUCT [4, 1]).1, 5,
        Function.update (fun _ => none) 5 (some 1), [], 2⟩ 1 rfl hr 0


end Project

namespace Pog

/-- The method `add_argument` changes the prototype only. -/
theorem add_argument_stored (p : Pog) (e : Int) :
    (p.add_argument e).nodes.dropLast = p.nodes.dropLast ∧ (p.add_argument e).nodes ≠ [] ∧
    (p.add_argument e).nvar = p.nvar := by
  unfold add_argument set_proto
  simp

theorem foldl_add_argument_stored (args : List Int) : ∀ (p : Pog), p.nodes ≠ [] →
    (args.foldl add_argument p).nodes.dropLast = p.nodes.dropLast ∧
    (args.foldl add_argument p).nodes ≠ [] ∧ (args.foldl add_argument p).nvar = p.nvar := by
  induction args with
  | nil => intro p hp; exact ⟨rfl, hp, rfl⟩
  | cons a rest ih =>
    intro p _
    simp only [List.foldl_cons]
    obtain ⟨h1, h2, h3⟩ := add_argument_stored p a
    obtain ⟨i1, i2, i3⟩ := ih (p.add_argument a) h2
    exact ⟨i1.trans h1, i2, i3.trans h3⟩

/-- The method `finish_node` drops the prototype or replaces it by the node stored. -/
theorem finish_node_stored (rt : Runtime) (p : Pog) :
    ((finish_node rt p).1.nodes = p.nodes.dropLast ∨
      ∃ n, (finish_node rt p).1.nodes = p.nodes.dropLast ++ [n]) ∧
    (finish_node rt p).1.nvar = p.nvar := by
  unfold finish_node
  simp only []
  split_ifs
  · exact ⟨Or.inl rfl, rfl⟩
  · exact ⟨Or.inl rfl, rfl⟩
  · exact ⟨Or.inl rfl, rfl⟩
  · refine ⟨Or.inl ?_, rfl⟩
    simp [retract, set_proto]
  · exact ⟨Or.inr ⟨_, rfl⟩, rfl⟩

/-- C26. The graph is append-only. For every graph, every type and every argument
list: at every moment of `start_node`, `add_argument` for each argument, `finish_node`,
the nodes before the prototype are the nodes stored before the build, in the same
positions (an id is the position plus `nvar + 1`, and `nvar` stays); and after
`finish_node` the node list is the list before the build, followed by at most one new
node. So every stored node keeps its id, type and argument list, whether the build is
retracted or not. -/
theorem build_append_only (rt : Runtime) (p : Pog) (t : pog_type_t) (args : List Int) :
    (p.start_node t).nodes.dropLast = p.nodes ∧
    (∀ k : Nat, ((args.take k).foldl add_argument (p.start_node t)).nodes.dropLast = p.nodes ∧
      ((args.take k).foldl add_argument (p.start_node t)).nvar = p.nvar) ∧
    (build rt p t args).1.nvar = p.nvar ∧
    ((build rt p t args).1.nodes = p.nodes ∨
      ∃ n, (build rt p t args).1.nodes = p.nodes ++ [n]) ∧
    (∀ i n, p.nodes.get? i = some n → (build rt p t args).1.nodes.get? i = some n) := by
  have h0 : (p.start_node t).nodes.dropLast = p.nodes := by simp [start_node]
  have hne : (p.start_node t).nodes ≠ [] := by simp [start_node]
  have hk : ∀ l : List Int, (l.foldl add_argument (p.start_node t)).nodes.dropLast = p.nodes ∧
      (l.foldl add_argument (p.start_node t)).nvar = p.nvar := by
    intro l
    obtain ⟨a1, _, a3⟩ := foldl_add_argument_stored l (p.start_node t) hne
    exact ⟨a1.trans h0, a3⟩
  have hf := finish_node_stored rt (args.foldl add_argument (p.start_node t))
  rw [(hk args).1] at hf
  have hb : (build rt p t args).1.nodes = p.nodes ∨
      ∃ n, (build rt p t args).1.nodes = p.nodes ++ [n] := hf.1
  refine ⟨h0, fun k => hk _, hf.2.trans (hk args).2, hb, ?_⟩
  intro i n hn
  rcases hb with h | ⟨m, h⟩
  · rw [h]; exact hn
  · rw [h, List.get?_eq_getElem?] at *
    rw [List.getElem?_append_left (List.getElem?_eq_some_iff.1 hn).1]
    exact hn

/-- C26 (witness). The theorem `build_append_only` at the graph that holds the Product of
`x1, x2`, for a further build of the Sum of `x1, x3`: the node at position 0 stays. -/
theorem build_append_only_witness :
    (build stdRuntime (build stdRuntime (Pog.init 3 {1, 2} ∅) POG_PRODUCT [1, 2]).1 POG_SUM
      [1, 3]).1.nodes.get? 0 = some ⟨POG_PRODUCT, [1, 2], true, false⟩ :=
  (build_append_only stdRuntime (build stdRuntime (Pog.init 3 {1, 2} ∅) POG_PRODUCT [1, 2]).1
    POG_SUM [1, 3]).2.2.2.2 0 ⟨POG_PRODUCT, [1, 2], true, false⟩ (by decide)

end Pog

namespace Cnf

theorem propagate_scan_unit (s : Cnf) : ∀ (L : List Int) (result : Int),
    (∃ l ∈ L, l ∈ s.unit_literals) → propagate_scan s L result = TAUTOLOGY := by
  intro L
  induction L with
  | nil => intro _ h; simp at h
  | cons a rest ih =>
    intro result h
    unfold propagate_scan
    by_cases ha : a ∈ s.unit_literals
    · simp [ha]
    · have hr : ∃ l ∈ rest, l ∈ s.unit_literals := by
        obtain ⟨l, hl, hu⟩ := h
        rcases List.mem_cons.1 hl with h1 | h1
        · rw [h1] at hu; exact absurd hu ha
        · exact ⟨l, h1, hu⟩
      simp only [ha, if_false]
      split_ifs
      · exact ih _ hr
      · exact ih _ hr
      · exact ih _ hr

/-- The scan of `propagate_clause` over literals none of which is a unit literal: the
result stays when every literal is skipped; otherwise it is the single non-skipped
literal when the scan starts from `CONFLICT` and there is one, and zero in all other
cases. -/
theorem propagate_scan_spec (s : Cnf) : ∀ (L : List Int) (result : Int),
    (∀ l ∈ L, l ∉ s.unit_literals) → (∀ l ∈ L, l ≠ CONFLICT) →
    propagate_scan s L result =
      match L.filter (fun lit => !s.skip_literal lit) with
      | [] => result
      | [l] => if result = CONFLICT then l else 0
      | _ :: _ :: _ => 0 := by
  intro L
  induction L with
  | nil => intro result _ _; rfl
  | cons a rest ih =>
    intro result hu hc
    have hu' : ∀ l ∈ rest, l ∉ s.unit_literals := fun l hl => hu l (List.mem_cons_of_mem _ hl)
    have hc' : ∀ l ∈ rest, l ≠ CONFLICT := fun l hl => hc l (List.mem_cons_of_mem _ hl)
    have ha := hu a (List.mem_cons_self _ _)
    have hac := hc a (List.mem_cons_self _ _)
    unfold propagate_scan
    simp only [ha, if_false]
    by_cases hsk : s.skip_literal a = true
    · simp only [hsk, if_true, List.filter_cons, Bool.not_true, Bool.false_eq_true, if_false]
      exact ih result hu' hc'
    · have hsk' : s.skip_literal a = false := by simpa using hsk
      simp only [hsk', Bool.false_eq_true, if_false, List.filter_cons, Bool.not_false, if_true]
      by_cases hr : result = CONFLICT
      · simp only [hr, if_true]
        rw [ih a hu' hc']
        cases hR : rest.filter (fun lit => !s.skip_literal lit) with
        | nil => rfl
        | cons b t =>
          cases t with
          | nil => simp [hac]
          | cons c t2 => rfl
      · simp only [hr, if_false]
        rw [ih 0 hu' hc']
        have h0 : (0 : Int) ≠ CONFLICT := by decide
        cases hR : rest.filter (fun lit => !s.skip_literal lit) with
        | nil => rfl
        | cons b t =>
          cases t with
          | nil => simp [h0]
          | cons c t2 => rfl

/-- C27. For every clause id and state in which the literals of the clause are literals
of variables (not zero, not a constant): `propagate_clause` returns `TAUTOLOGY` if and
only if some literal of the clause is in `unit_literals`; it returns `CONFLICT` if and
only if no literal is a unit literal and every literal is skipped; it returns the literal
`l` if and only if no literal is a unit literal and `l` is the one non-skipped literal
occurrence; and it returns 0 if and only if no literal is a unit literal and at least two
non-skipped literal occurrences remain. -/
theorem propagate_clause_spec (s : Cnf) (cid : Int)
    (hlit : ∀ l ∈ s.clause cid, l ≠ 0 ∧ IABS l ≠ TAUTOLOGY) :
    (s.propagate_clause cid = TAUTOLOGY ↔ ∃ l ∈ s.clause cid, l ∈ s.unit_literals) ∧
    (s.propagate_clause cid = CONFLICT ↔
      (∀ l ∈ s.clause cid, l ∉ s.unit_literals) ∧
      ∀ l ∈ s.clause cid, s.skip_literal l = true) ∧
    (∀ l : Int, l ≠ 0 → IABS l ≠ TAUTOLOGY →
      (s.propagate_clause cid = l ↔
        (∀ l ∈ s.clause cid, l ∉ s.unit_literals) ∧
        (s.clause cid).filter (fun lit => !s.skip_literal lit) = [l])) ∧
    (s.propagate_clause cid = 0 ↔
      (∀ l ∈ s.clause cid, l ∉ s.unit_literals) ∧
      2 ≤ ((s.clause cid).filter fun lit => !s.skip_literal lit).length) := by
  have hT0 : TAUTOLOGY ≠ (0 : Int) := by decide
  have hC0 : CONFLICT ≠ (0 : Int) := by decide
  have hc : ∀ l ∈ s.clause cid, l ≠ CONFLICT := fun l hl =>
    (Pog.ne_const_of_IABS (hlit l hl).2).2
  by_cases hu : ∃ l ∈ s.clause cid, l ∈ s.unit_literals
  · have hp : s.propagate_clause cid = TAUTOLOGY := propagate_scan_unit s _ _ hu
    have hnu : ¬ ∀ l ∈ s.clause cid, l ∉ s.unit_literals := by
      intro h; obtain ⟨l, hl, hlu⟩ := hu; exact h l hl hlu
    rw [hp]
    refine ⟨⟨fun _ => hu, fun _ => rfl⟩, ⟨fun h => absurd h Pog.TAUTOLOGY_ne_CONFLICT,
      fun h => absurd h.1 hnu⟩, ?_, ⟨fun h => absurd h hT0, fun h => absurd h.1 hnu⟩⟩
    intro l _ hl2
    exact ⟨fun h => absurd h.symm (Pog.ne_const_of_IABS hl2).1, fun h => absurd h.1 hnu⟩
  · have hnu : ∀ l ∈ s.clause cid, l ∉ s.unit_literals := by
      intro l hl hlu; exact hu ⟨l, hl, hlu⟩
    have hp : s.propagate_clause cid = _ := propagate_scan_spec s (s.clause cid) CONFLICT hnu hc
    have hmem : ∀ x ∈ (s.clause cid).filter (fun lit => !s.skip_literal lit),
        x ∈ s.clause cid := fun x hx => (List.mem_filter.1 hx).1
    have hall : (∀ l ∈ s.clause cid, s.skip_literal l = true) ↔
        (s.clause cid).filter (fun lit => !s.skip_literal lit) = [] := by
      rw [List.filter_eq_nil_iff]
      constructor
      · intro h l hl; simp [h l hl]
      · intro h l hl; simpa using h l hl
    rw [hall]
    cases hR : (s.clause cid).filter (fun lit => !s.skip_literal lit) with
    | nil =>
      rw [hR] at hp
      simp only [] at hp
      rw [hp]
      refine ⟨⟨fun h => absurd h.symm Pog.TAUTOLOGY_ne_CONFLICT, fun h => absurd h hu⟩,
        ⟨fun _ => ⟨hnu, rfl⟩, fun _ => rfl⟩, ?_, ⟨fun h => absurd h hC0, fun h => by
          simp at h⟩⟩
      intro l _ hl2
      exact ⟨fun h => absurd h.symm (Pog.ne_const_of_IABS hl2).2, fun h => by simp at h⟩
    | cons b t =>
      cases t with
      | nil =>
        rw [hR] at hp hmem
        simp only [if_true] at hp
        have hb := hlit b (hmem b (List.mem_singleton_self _))
        have hbc := Pog.ne_const_of_IABS hb.2
        rw [hp]
        refine ⟨⟨fun h => absurd h hbc.1, fun h => absurd h hu⟩,
          ⟨fun h => absurd h hbc.2, fun h => by simp at h⟩, ?_,
          ⟨fun h => absurd h hb.1, fun h => by simp at h⟩⟩
        intro l _ _
        constructor
        · intro h; rw [h]; exact ⟨hnu, rfl⟩
        · intro h
          have := h.2
          simp only [List.cons.injEq, and_true] at this
          exact this
      | cons c t2 =>
        rw [hR] at hp
        simp only [] at hp
        rw [hp]
        refine ⟨⟨fun h => absurd h.symm hT0, fun h => absurd h hu⟩,
          ⟨fun h => absurd h.symm hC0, fun h => by simp at h⟩, ?_,
          ⟨fun _ => ⟨hnu, by simp⟩, fun _ => rfl⟩⟩
        intro l hl1 _
        exact ⟨fun h => absurd h.symm hl1, fun h => by simp at h⟩

/-- C27 (witness). The theorem `propagate_clause_spec` at the clause `(x1 ∨ x2 ∨ x3)` with
`x1` assigned false: two non-skipped literals remain and the result is 0. -/
theorem propagate_clause_spec_witness :
    (((((Cnf.init 3).new_clause.add_literal 1).add_literal 2).add_literal 3).assign_literal
      (-1) false).propagate_clause 1 = 0 :=
  ((propagate_clause_spec (((((Cnf.init 3).new_clause.add_literal 1).add_literal 2).add_literal
    3).assign_literal (-1) false) 1 (by decide)).2.2.2).2 ⟨by decide, by decide⟩

end Cnf

namespace Cnf

theorem evolves_trans {s s1 s2 : Cnf} (h1 : evolves s s1) (h2 : evolves s1 s2) :
    evolves s s2 := by
  induction h2 with
  | refl => exact h1
  | conflict _ ih => exact evolves.conflict ih
  | assign lit b _ ih => exact evolves.assign lit b ih
  | deactivate cid _ ih => exact evolves.deactivate cid ih
  | set_type v t _ ih => exact evolves.set_type v t ih
  | new_clause _ ih => exact evolves.new_clause ih
  | add_literal lit _ ih => exact evolves.add_literal lit ih

theorem evolves_deactivate_clauses (remove : List Int) : ∀ s : Cnf,
    evolves s (s.deactivate_clauses remove) := by
  induction remove with
  | nil => intro s; exact evolves.refl s
  | cons c rest ih =>
    intro s
    unfold deactivate_clauses
    simp only [List.foldl_cons]
    exact evolves_trans (evolves.deactivate c (evolves.refl s)) (ih _)

theorem evolves_add_literals (lits : List Int) : ∀ s : Cnf,
    evolves s (lits.foldl add_literal s) := by
  induction lits with
  | nil => intro s; exact evolves.refl s
  | cons c rest ih =>
    intro s
    simp only [List.foldl_cons]
    exact evolves_trans (evolves.add_literal c (evolves.refl s)) (ih _)

theorem evolves_resolve (rt : Runtime) (s : Cnf) (var cid1 cid2 : Int) :
    evolves s (resolve rt s var cid1 cid2).1 := by
  unfold resolve
  simp only []
  split
  · exact evolves.refl s
  · exact evolves_trans (evolves.new_clause (evolves.refl s)) (evolves_add_literals _ _)

theorem evolves_resolve_fold (rt : Runtime) (var : Int) (cids2 : List Int) (cid1 : Int) :
    ∀ s : Cnf, evolves s (cids2.foldl (fun s cid2 => (resolve rt s var cid1 cid2).1) s) := by
  induction cids2 with
  | nil => intro s; exact evolves.refl s
  | cons c rest ih =>
    intro s
    simp only [List.foldl_cons]
    exact evolves_trans (evolves_resolve rt s var cid1 c) (ih _)

theorem evolves_resolve_all (rt : Runtime) (var : Int) (cids1 cids2 : List Int) :
    ∀ s : Cnf, evolves s (cids1.foldl
      (fun s cid1 => cids2.foldl (fun s cid2 => (resolve rt s var cid1 cid2).1) s) s) := by
  induction cids1 with
  | nil => intro s; exact evolves.refl s
  | cons c rest ih =>
    intro s
    simp only [List.foldl_cons]
    exact evolves_trans (evolves_resolve_fold rt var cids2 c s) (ih _)

/-- The method `bcp` is a run of elementary updates. -/
theorem evolves_bcp_loop (w : Walk) (preprocess : Bool) : ∀ (fuel : Nat) (s : Cnf) (queue : List Int)
    (count : Nat), evolves s (bcp_loop w preprocess fuel s queue count).1 := by
  intro fuel
  induction fuel with
  | zero => intro s q c; exact evolves.refl s
  | succ fuel ih =>
    intro s queue count
    unfold bcp_loop
    by_cases hc : s.has_conflict = true
    · simp only [hc, if_true]; exact evolves.refl s
    · simp only [hc, Bool.false_eq_true, if_false]
      cases queue with
      | nil => exact evolves.refl s
      | cons cid rest =>
        simp only
        by_cases ha : cid ∈ s.active_clauses
        · simp only [ha, not_true_eq_false, if_false]
          by_cases h1 : s.propagate_clause cid = CONFLICT
          · simp only [h1, if_true]
            exact evolves_trans (evolves.conflict (evolves.refl s)) (ih _ _ _)
          · simp only [h1, if_false]
            by_cases h2 : s.propagate_clause cid = 0
            · simp only [h2, if_true]
              exact ih _ _ _
            · simp only [h2, if_false]
              by_cases h3 : s.propagate_clause cid = TAUTOLOGY
              · simp only [h3, if_true]
                exact evolves_trans (evolves.deactivate cid (evolves.refl s)) (ih _ _ _)
              · simp only [h3, if_false]
                have u1 : evolves s (if preprocess then
                    s.set_variable_type (IABS (s.propagate_clause cid)) VAR_ELIM else s) := by
                  split_ifs
                  · exact evolves.set_type _ _ (evolves.refl s)
                  · exact evolves.refl s
                generalize (if preprocess then
                    s.set_variable_type (IABS (s.propagate_clause cid)) VAR_ELIM else s) = s1
                  at u1 ⊢
                refine evolves_trans ?_ (ih _ _ _)
                exact evolves_trans
                  (evolves.deactivate cid (evolves.assign _ true u1))
                  (evolves_deactivate_clauses _ _)
        · simp only [ha, not_false_eq_true, if_true]
          exact ih _ _ _

theorem evolves_bcp (w : Walk) (s : Cnf) (preprocess : Bool) :
    evolves s (s.bcp w preprocess).1 :=
  evolves_bcp_loop w preprocess _ s _ 0

/-- The method `bve` is a run of elementary updates. -/
theorem evolves_bve_loop (rt : Runtime) (w : Walk) (preprocess : Bool) (maxdegree : Nat) :
    ∀ (fuel : Nat) (s : Cnf) (dv : Nat → Finset Int) (eliminated : Finset Int),
    evolves s (bve_loop rt w preprocess maxdegree fuel s dv eliminated).1 := by
  intro fuel
  induction fuel with
  | zero => intro s dv e; exact evolves.refl s
  | succ fuel ih =>
    intro s dv el
    unfold bve_loop
    rcases hsel : bve_select ((w.sub fuel).sub 0) s el (maxdegree + 1) 0 dv with ⟨dv1, _ | ⟨var, lit, degree⟩⟩
    · exact evolves.refl s
    · dsimp only
      have u1 : evolves s (if preprocess then s.set_variable_type var VAR_ELIM else s) := by
        split_ifs
        · exact evolves.set_type _ _ (evolves.refl s)
        · exact evolves.refl s
      generalize (if preprocess then s.set_variable_type var VAR_ELIM else s) = s1 at u1 ⊢
      have u3 := evolves_trans (evolves_trans u1 (evolves_resolve_all rt var
        (w.order [fuel, 1] (s1.literal_clauses lit))
        (w.order [fuel, 2] (s1.literal_clauses (-lit))) s1))
        (evolves_deactivate_clauses (w.order [fuel, 1] (s1.literal_clauses lit) ++
          w.order [fuel, 2] (s1.literal_clauses (-lit))) _)
      split_ifs with hskip h4
      · exact ih _ _ _
      · exact evolves_trans (evolves.assign (-lit) true u3) (ih _ _ _)
      · exact evolves_trans u3 (ih _ _ _)

theorem evolves_bve (rt : Runtime) (w : Walk) (s : Cnf) (preprocess : Bool) (maxdegree : Nat) :
    evolves s (s.bve rt w preprocess maxdegree).1 :=
  evolves_bve_loop rt w preprocess maxdegree _ s _ ∅

theorem undo_action_units (s : Cnf) (ar : action_record) :
    ((undo_action s ar).unit_literals, (undo_action s ar).bcp_unit_literals) =
      undo_units ar (s.unit_literals, s.bcp_unit_literals) := by
  unfold undo_action undo_units
  cases har : ar.action <;> simp only []
  all_goals first | rfl | (cases s.active_stack.getLast? <;> rfl)

theorem units_ok_top : ∀ (l : List action_record) (ub : Finset Int × Finset Int),
    units_ok l ub → ub.2 ⊆ ub.1 := by
  intro l ub h
  cases l with
  | nil => exact h
  | cons a r => exact h.1

/-- Undoing records up to the start of the context keeps the invariant of the unit
sets. -/
theorem units_ok_pop_loop : ∀ (l : List action_record) (s : Cnf),
    units_ok l (s.unit_literals, s.bcp_unit_literals) →
    units_ok (pop_loop l s).action_stack.reverse
      ((pop_loop l s).unit_literals, (pop_loop l s).bcp_unit_literals) := by
  intro l
  induction l with
  | nil =>
    intro s h
    simp only [pop_loop, List.reverse_nil]
    exact h
  | cons ar below ih =>
    intro s h
    unfold pop_loop
    simp only []
    by_cases hst : ar.action = ACTION_START_CONTEXT
    · simp only [hst, if_true, List.reverse_reverse]
      have := h.2
      unfold undo_units at this
      rw [hst] at this
      exact this
    · simp only [hst, if_false]
      apply ih
      rw [undo_action_units]
      exact h.2

/-- An update that pushes one record whose undoing gives back the unit sets keeps the
invariant of the unit sets. -/
theorem units_ok_push {st : List action_record} {ub ub1 : Finset Int × Finset Int}
    (h : units_ok st.reverse ub) (r : action_record) (h1 : ub1.2 ⊆ ub1.1)
    (h2 : undo_units r ub1 = ub) : units_ok (st ++ [r]).reverse ub1 := by
  rw [List.reverse_append]
  simp only [List.reverse_cons, List.reverse_nil, List.nil_append, List.singleton_append]
  exact ⟨h1, by rw [h2]; exact h⟩

theorem units_ok_assign {s : Cnf}
    (h : units_ok s.action_stack.reverse (s.unit_literals, s.bcp_unit_literals)) (lit : Int)
    (bcp : Bool) :
    units_ok (s.assign_literal lit bcp).action_stack.reverse
      ((s.assign_literal lit bcp).unit_literals, (s.assign_literal lit bcp).bcp_unit_literals) := by
  have hsub := units_ok_top _ _ h
  simp only at hsub
  unfold assign_literal trigger_conflict
  simp only []
  by_cases hn : -lit ∈ s.unit_literals
  · simp only [hn, if_true]
    exact units_ok_push h _ hsub rfl
  · simp only [hn, if_false]
    by_cases hu : lit ∈ s.unit_literals
    · by_cases hb : lit ∈ s.bcp_unit_literals
      · cases bcp
        · simp only [hu, hb, decide_True, Bool.not_true, Bool.and_false, Bool.false_eq_true,
            if_false, if_true]
          refine units_ok_push h _ ?_ ?_
          · exact fun x hx => hsub (Finset.mem_of_mem_erase hx)
          · simp only [undo_units]
            rw [Finset.insert_erase hb]
        · simp only [hu, decide_True, if_true]
          exact h
      · cases bcp
        · simp only [hu, hb, decide_True, decide_False, Bool.not_false, Bool.and_true,
            if_true, Bool.false_eq_true, if_false]
          exact h
        · simp only [hu, decide_True, if_true]
          exact h
    · have hb : lit ∉ s.bcp_unit_literals := fun hb => hu (hsub hb)
      cases bcp
      · simp only [hu, hb, decide_False, Bool.false_and, Bool.false_eq_true, if_false]
        refine units_ok_push h _ ?_ ?_
        · exact fun x hx => Finset.mem_insert_of_mem (hsub hx)
        · simp only [undo_units]
          rw [Finset.erase_insert hu]
      · simp only [hu, decide_False, Bool.false_eq_true, if_false, if_true]
        refine units_ok_push h _ ?_ ?_
        · exact Finset.insert_subset_insert _ hsub
        · simp only [undo_units]
          rw [Finset.erase_insert hu, Finset.erase_insert hb]

/-- The elementary updates keep the invariant of the unit sets. -/
theorem units_ok_evolves {s s1 : Cnf} (he : evolves s s1)
    (h : units_ok s.action_stack.reverse (s.unit_literals, s.bcp_unit_literals)) :
    units_ok s1.action_stack.reverse (s1.unit_literals, s1.bcp_unit_literals) := by
  induction he with
  | refl => exact h
  | conflict _ ih => exact units_ok_push ih _ (units_ok_top _ _ ih) rfl
  | assign lit b _ ih => exact units_ok_assign ih lit b
  | deactivate cid _ ih => exact units_ok_push ih _ (units_ok_top _ _ ih) rfl
  | set_type v t _ ih => exact ih
  | new_clause _ ih => exact ih
  | add_literal lit _ ih => exact ih

theorem units_ok_reachable {rt : Runtime} {s : Cnf} (h : unit_reachable rt s) :
    units_ok s.action_stack.reverse (s.unit_literals, s.bcp_unit_literals) := by
  induction h with
  | start s h1 h2 h3 =>
    rw [h1, h2, h3]
    simp [units_ok, undo_units]
  | assign lit b _ ih => exact units_ok_assign ih lit b
  | bcp w pre _ _ ih => exact units_ok_evolves (evolves_bcp w _ pre) ih
  | bve w pre md _ _ ih => exact units_ok_evolves (evolves_bve rt w _ pre md) ih
  | uquantify var _ ih => exact units_ok_push ih _ (units_ok_top _ _ ih) rfl
  | new_context _ ih => exact units_ok_push ih _ (units_ok_top _ _ ih) rfl
  | pop_context _ ih => exact units_ok_pop_loop _ _ ih

/-- C30. In every state reachable from a state without unit literals (the state after
initialisation and loading) by `assign_literal`, `bcp`, `bve` with any `maxdegree`,
`uquantify_variable`, `new_context` and `pop_context`, every BCP unit literal is a unit
literal. The loops of `bcp` and `bve` over unordered sets may visit them in any order
(the relation `unit_reachable` has a step for every walk). -/
theorem bcp_units_subset (rt : Runtime) (s : Cnf) (h : unit_reachable rt s) :
    s.bcp_unit_literals ⊆ s.unit_literals :=
  units_ok_top _ _ (units_ok_reachable h)

/-- C30 (witness). The theorem `bcp_units_subset` after loading the clauses `(x1)` and
`(-x1 ∨ x2)`, opening a context, `bcp` (walking its sets in descending order), the
assertion of `x2` and `pop_context`. -/
theorem bcp_units_subset_witness :
    (((((((Cnf.init 2).new_clause.add_literal 1).new_clause.add_literal (-1)).add_literal
      2).new_context.bcp revWalk false).1.assign_literal 2 false).pop_context).bcp_unit_literals ⊆
    (((((((Cnf.init 2).new_clause.add_literal 1).new_clause.add_literal (-1)).add_literal
      2).new_context.bcp revWalk false).1.assign_literal 2 false).pop_context).unit_literals :=
  bcp_units_subset stdRuntime _
    (unit_reachable.pop_context (unit_reachable.assign 2 false (unit_reachable.bcp revWalk false
      (unit_reachable.new_context (unit_reachable.start
        ((((Cnf.init 2).new_clause.add_literal 1).new_clause.add_literal (-1)).add_literal 2)
        rfl rfl rfl)) revWalk_ok)))

theorem undo_action_unit_subset (s : Cnf) (ar : action_record) :
    (undo_action s ar).unit_literals ⊆ s.unit_literals := by
  have := congrArg Prod.fst (undo_action_units s ar)
  simp only at this
  rw [this]
  unfold undo_units
  cases ar.action <;> simp only [] <;>
    first | exact Finset.Subset.refl _ | exact Finset.erase_subset _ _

theorem pop_loop_unit_subset : ∀ (l : List action_record) (s : Cnf),
    (pop_loop l s).unit_literals ⊆ s.unit_literals := by
  intro l
  induction l with
  | nil => intro s; exact Finset.Subset.refl _
  | cons ar below ih =>
    intro s
    unfold pop_loop
    simp only []
    split_ifs
    · exact Finset.Subset.refl _
    · exact (ih _).trans (undo_action_unit_subset _ ar)

theorem units_consistent_assign {s : Cnf} (h : s.units_consistent) (lit : Int) (bcp : Bool) :
    (s.assign_literal lit bcp).units_consistent := by
  have key : (∀ l : Int, l ≠ 0 → l ∈ insert lit s.unit_literals →
      -l ∉ insert lit s.unit_literals) ∨ -lit ∈ s.unit_literals := by
    by_cases hn : -lit ∈ s.unit_literals
    · exact Or.inr hn
    · left
      intro l hl0 hl hnl
      rcases Finset.mem_insert.1 hl with h1 | h1 <;> rcases Finset.mem_insert.1 hnl with h2 | h2
      · omega
      · rw [h1] at h2; exact hn h2
      · have : l = -lit := by omega
        rw [this] at h1; exact hn h1
      · exact h l hl0 h1 h2
  unfold assign_literal trigger_conflict units_consistent
  simp only []
  by_cases hn : -lit ∈ s.unit_literals
  · simp only [hn, if_true]; exact h
  · rcases key with key | key
    · simp only [hn, if_false]
      split_ifs <;> first | exact h | exact key
    · exact absurd key hn

theorem units_consistent_evolves {s s1 : Cnf} (he : evolves s s1) (h : s.units_consistent) :
    s1.units_consistent := by
  induction he with
  | refl => exact h
  | conflict _ ih => exact ih
  | assign lit b _ ih => exact units_consistent_assign ih lit b
  | deactivate cid _ ih => exact ih
  | set_type v t _ ih => exact ih
  | new_clause _ ih => exact ih
  | add_literal lit _ ih => exact ih

/-- C31. In every state reachable from a state without unit literals by
`assign_literal`, `bcp`, `bve`, `uquantify_variable`, `new_context` and `pop_context`
(`bcp` and `bve` walking their unordered sets in any order),
`unit_literals` never holds both literals of a variable; and in every state, an attempt to
assign the literal `lit` while `-lit` is a unit literal sets `has_conflict` and leaves
`unit_literals` and `bcp_unit_literals` as they are. -/
theorem units_never_complementary (rt : Runtime) (s : Cnf) (h : unit_reachable rt s) :
    (∀ l : Int, l ≠ 0 → l ∈ s.unit_literals → -l ∉ s.unit_literals) ∧
    (∀ (lit : Int) (bcp : Bool), -lit ∈ s.unit_literals →
      (s.assign_literal lit bcp).has_conflict = true ∧
      (s.assign_literal lit bcp).unit_literals = s.unit_literals ∧
      (s.assign_literal lit bcp).bcp_unit_literals = s.bcp_unit_literals) := by
  constructor
  · induction h with
    | start s h1 _ _ => intro l _ hl; rw [h1] at hl; simp at hl
    | assign lit b _ ih => exact units_consistent_assign ih lit b
    | bcp w pre _ _ ih => exact units_consistent_evolves (evolves_bcp w _ pre) ih
    | bve w pre md _ _ ih => exact units_consistent_evolves (evolves_bve rt w _ pre md) ih
    | uquantify var _ ih => exact ih
    | new_context _ ih => exact ih
    | pop_context _ ih =>
      intro l hl0 hl hnl
      exact ih l hl0 (pop_loop_unit_subset _ _ hl) (pop_loop_unit_subset _ _ hnl)
  · intro lit bcp hn
    unfold assign_literal trigger_conflict
    simp only [hn, if_true, and_self]

/-- C31 (witness). The theorem `units_never_complementary` after the assertion of `x1`:
`-x1` is not a unit literal, and the attempt to assert `-x1` sets the conflict flag. -/
theorem units_never_complementary_witness :
    (-1 : Int) ∉ ((Cnf.init 2).assign_literal 1 false).unit_literals ∧
    (((Cnf.init 2).assign_literal 1 false).assign_literal (-1) false).has_conflict = true :=
  ⟨(units_never_complementary stdRuntime ((Cnf.init 2).assign_literal 1 false)
      (unit_reachable.assign 1 false (unit_reachable.start (Cnf.init 2) rfl rfl rfl))).1 1
      (by decide) (by decide),
   ((units_never_complementary stdRuntime ((Cnf.init 2).assign_literal 1 false)
      (unit_reachable.assign 1 false (unit_reachable.start (Cnf.init 2) rfl rfl rfl))).2 (-1) false
      (by decide)).1⟩

end Cnf

namespace Cnf

theorem index_exact_activate {s : Cnf} (h : s.index_exact) (cid : Int) :
    (s.activate_clause cid).index_exact := by
  intro l c
  rw [activate_clause_index]
  have hcl : (s.activate_clause cid).clause c = s.clause c := rfl
  have hac : (s.activate_clause cid).active_clauses = insert cid s.active_clauses := rfl
  rw [hcl, hac, Finset.mem_insert]
  by_cases hl : l ∈ s.clause cid
  · simp only [hl, if_true, Finset.mem_insert, h l c]
    constructor
    · rintro (h1 | h1)
      · exact ⟨Or.inl h1, by rw [h1]; exact hl⟩
      · exact ⟨Or.inr h1.1, h1.2⟩
    · rintro ⟨h1 | h1, h2⟩
      · exact Or.inl h1
      · exact Or.inr ⟨h1, h2⟩
  · simp only [hl, if_false, h l c]
    constructor
    · rintro ⟨h1, h2⟩
      exact ⟨Or.inr h1, h2⟩
    · rintro ⟨h1 | h1, h2⟩
      · rw [h1] at h2; exact absurd h2 hl
      · exact ⟨h1, h2⟩

theorem saved_ok_congr {a b : Cnf} (h : a.clauses = b.clauses) {r : active_record}
    (hr : a.saved_ok r) : b.saved_ok r := by
  refine ⟨fun lit cid => ?_, fun cid hc => ?_⟩
  · rw [← clause_congr h cid]; exact hr.1 lit cid
  · rw [← h]; exact hr.2 cid hc

theorem fold_add_literal_fields (lits : List Int) : ∀ s : Cnf,
    (lits.foldl add_literal s).unit_literals = s.unit_literals ∧
    (lits.foldl add_literal s).uquantified_variables = s.uquantified_variables ∧
    (lits.foldl add_literal s).active_stack = s.active_stack ∧
    (lits.foldl add_literal s).action_stack = s.action_stack := by
  induction lits with
  | nil => intro s; exact ⟨rfl, rfl, rfl, rfl⟩
  | cons a r ih => intro s; rw [List.foldl_cons]; exact ih _

theorem fold_add_literal_clauses (lits : List Int) : ∀ (s : Cnf) (base : List (List Int))
    (c : List Int), s.clauses = base ++ [c] →
    (lits.foldl add_literal s).clauses = base ++ [c ++ lits] := by
  induction lits with
  | nil => intro s base c h; simpa using h
  | cons a r ih =>
    intro s base c h
    rw [List.foldl_cons]
    have : (s.add_literal a).clauses = base ++ [c ++ [a]] := by
      simp only [add_literal, h, List.dropLast_concat, List.getLastD_concat]
    rw [ih _ base (c ++ [a]) this, List.append_assoc]
    rfl

theorem create_clauses (s : Cnf) (lits : List Int) :
    (lits.foldl add_literal s.new_clause).clauses = s.clauses ++ [lits] := by
  have := fold_add_literal_clauses lits s.new_clause s.clauses [] rfl
  simpa using this

theorem create_clause_old (s : Cnf) (lits : List Int) (cid : Int) (h1 : 1 ≤ cid)
    (h2 : cid ≤ (s.clauses.length : Int)) :
    (lits.foldl add_literal s.new_clause).clause cid = s.clause cid := by
  unfold clause
  rw [create_clauses]
  have h3 : ¬ cid < 1 := by omega
  simp only [h3, if_false]
  have h4 : (cid - 1).toNat < s.clauses.length := by omega
  simp only [List.getD_eq_getElem?_getD, List.getElem?_append_left h4]

theorem loaded_fold_add_literal (lits : List Int) : ∀ {s : Cnf}, s.loaded →
    (lits.foldl add_literal s).loaded := by
  induction lits with
  | nil => intro s h; exact h
  | cons a r ih => intro s h; rw [List.foldl_cons]; exact ih (loaded_add_literal h a)

theorem saved_ok_create {s : Cnf} (lits : List Int) {r : active_record} (hr : s.saved_ok r) :
    (lits.foldl add_literal s.new_clause).saved_ok r := by
  refine ⟨fun lit cid => ?_, fun cid hc => ?_⟩
  · rw [hr.1 lit cid]
    constructor
    · rintro ⟨h1, h2⟩
      exact ⟨h1, by rw [create_clause_old s lits cid (hr.2 cid h1).1 (hr.2 cid h1).2]; exact h2⟩
    · rintro ⟨h1, h2⟩
      exact ⟨h1, by rw [create_clause_old s lits cid (hr.2 cid h1).1 (hr.2 cid h1).2] at h2; exact h2⟩
  · have := hr.2 cid hc
    rw [create_clauses, List.length_append]
    simp only [List.length_singleton, Nat.cast_add, Nat.cast_one]
    omega

theorem index_core_create {s : Cnf} (h : s.index_core) (lits : List Int) :
    (lits.foldl add_literal s.new_clause).index_core := by
  obtain ⟨h1, h2, h3, h4, h5⟩ := h
  have hl := loaded_fold_add_literal lits (loading_new_clause ⟨h1, h2⟩)
  have hf := fold_add_literal_fields lits s.new_clause
  refine ⟨hl.1, hl.2.1, ?_, ?_, ?_⟩
  · rw [hf.1]; exact h3
  · rw [hf.2.1]; exact h4
  · rw [hf.2.2.1]
    intro r hr
    exact saved_ok_create lits (h5 r hr)

theorem index_core_deactivate {s : Cnf} (h : s.index_core) (cid : Int) :
    (s.deactivate_clause cid).index_core := by
  obtain ⟨h1, h2, h3, h4, h5⟩ := h
  refine ⟨index_exact_deactivate h1 cid, ?_, h3, h4, ?_⟩
  · intro c hc
    exact h2 c (Finset.mem_of_mem_erase hc)
  · intro r hr
    exact saved_ok_congr rfl (h5 r hr)

theorem index_core_activate {s : Cnf} (h : s.index_core) (cid : Int) (hc1 : 1 ≤ cid)
    (hc2 : cid ≤ (s.clauses.length : Int)) : (s.activate_clause cid).index_core := by
  obtain ⟨h1, h2, h3, h4, h5⟩ := h
  refine ⟨index_exact_activate h1 cid, ?_, h3, h4, ?_⟩
  · intro c hc
    rcases Finset.mem_insert.1 hc with hc | hc
    · rw [hc]; exact ⟨hc1, hc2⟩
    · exact h2 c hc
  · intro r hr
    exact saved_ok_congr rfl (h5 r hr)

theorem index_core_push_active {s : Cnf} (h : s.index_core) (nac : Finset Int)
    (hv : ∀ cid ∈ nac, 1 ≤ cid ∧ cid ≤ (s.clauses.length : Int)) :
    (s.push_active nac).index_core := by
  obtain ⟨h1, h2, h3, h4, h5⟩ := h
  have hskip : ∀ lit, s.skip_literal lit = false := by
    intro lit
    simp [skip_literal, h3, h4]
  refine ⟨?_, hv, h3, h4, ?_⟩
  · intro l c
    have := push_index s (ascList nac) (fun _ => ∅) (fun cid _ lit _ => hskip lit) l c
    simp only [Finset.not_mem_empty, false_or, mem_ascList] at this
    exact this
  · intro r hr
    have hr1 : r ∈ s.active_stack ++ [(⟨s.active_clauses, s.literal_clauses⟩ : active_record)] := hr
    rcases List.mem_append.1 hr1 with hr2 | hr2
    · exact saved_ok_congr rfl (h5 r hr2)
    · rw [List.mem_singleton.1 hr2]
      exact ⟨fun lit cid => h1 lit cid, h2⟩

theorem index_core_set_stack {s : Cnf} (h : s.index_core) (l : List action_record) :
    ({ s with action_stack := l } : Cnf).index_core := h

theorem index_core_undo {s : Cnf} (h : s.index_core) (ar : action_record)
    (hv : ar.action = ACTION_DEACTIVATE_CLAUSE →
      1 ≤ ar.ele ∧ ar.ele ≤ (s.clauses.length : Int)) :
    (undo_action s ar).index_core := by
  obtain ⟨h1, h2, h3, h4, h5⟩ := h
  unfold undo_action
  cases har : ar.action <;> simp only []
  · exact ⟨h1, h2, h3, h4, h5⟩
  · exact ⟨h1, h2, h3, h4, h5⟩
  · exact index_core_activate ⟨h1, h2, h3, h4, h5⟩ _ (hv har).1 (hv har).2
  · refine ⟨h1, h2, ?_, h4, h5⟩
    show s.unit_literals.erase ar.ele = ∅
    rw [h3]; rfl
  · refine ⟨h1, h2, ?_, h4, h5⟩
    show s.unit_literals.erase ar.ele = ∅
    rw [h3]; rfl
  · exact ⟨h1, h2, h3, h4, h5⟩
  · refine ⟨h1, h2, h3, ?_, h5⟩
    show s.uquantified_variables.erase ar.ele = ∅
    rw [h4]; rfl
  · cases hg : s.active_stack.getLast? with
    | none => exact ⟨h1, h2, h3, h4, h5⟩
    | some avr =>
      have hmem : avr ∈ s.active_stack := List.mem_of_getLast?_eq_some hg
      have hs := h5 avr hmem
      refine ⟨fun l c => hs.1 l c, hs.2, h3, h4, ?_⟩
      intro r hr
      exact saved_ok_congr rfl (h5 r (List.dropLast_subset _ hr))

theorem undo_action_clauses (s : Cnf) (ar : action_record) :
    (undo_action s ar).clauses = s.clauses := by
  unfold undo_action
  cases ar.action <;> simp only []
  all_goals first | rfl | (cases s.active_stack.getLast? <;> rfl)

theorem index_pop_loop : ∀ (l : List action_record) (s : Cnf), s.index_core →
    s.records_ok l →
    (pop_loop l s).index_core ∧ (pop_loop l s).records_ok (pop_loop l s).action_stack := by
  intro l
  induction l with
  | nil =>
    intro s h _
    exact ⟨h, fun ar har => by cases har⟩
  | cons ar below ih =>
    intro s h hl
    unfold pop_loop
    simp only []
    by_cases hst : ar.action = ACTION_START_CONTEXT
    · simp only [hst, if_true]
      refine ⟨h, ?_⟩
      intro a ha
      exact hl a (List.mem_cons_of_mem _ (List.mem_reverse.1 ha))
    · simp only [hst, if_false]
      apply ih
      · exact index_core_undo (index_core_set_stack h _) ar (hl ar (List.mem_cons_self _ _))
      · intro a ha hd
        have := hl a (List.mem_cons_of_mem _ ha) hd
        rw [undo_action_clauses]
        exact this

theorem records_ok_push {s t : Cnf} (h : s.records_ok s.action_stack) (ar : action_record)
    (hst : t.action_stack = s.action_stack ++ [ar]) (hc : t.clauses = s.clauses)
    (hv : ar.action = ACTION_DEACTIVATE_CLAUSE →
      1 ≤ ar.ele ∧ ar.ele ≤ (s.clauses.length : Int)) : t.records_ok t.action_stack := by
  intro a ha hd
  rw [hst] at ha
  rw [hc]
  rcases List.mem_append.1 ha with ha | ha
  · exact h a ha hd
  · rw [List.mem_singleton.1 ha] at hd ⊢
    exact hv hd

theorem index_reachable_inv {s : Cnf} (h : index_reachable s) :
    s.index_core ∧ s.records_ok s.action_stack := by
  induction h with
  | start s h1 h2 h3 h4 h5 h6 h7 =>
    refine ⟨⟨?_, ?_, h4, h5, ?_⟩, ?_⟩
    · intro l c; rw [h2, h3]; simp
    · intro c hc; rw [h3] at hc; simp at hc
    · intro r hr; rw [h6] at hr; simp at hr
    · intro a ha hd
      rw [h7] at ha
      rw [List.mem_singleton.1 ha] at hd
      cases hd
  | create lits _ ih =>
    refine ⟨index_core_create ih.1 lits, ?_⟩
    intro a ha hd
    rw [(fold_add_literal_fields lits _).2.2.2] at ha
    have := ih.2 a ha hd
    rw [create_clauses, List.length_append]
    simp only [List.length_singleton, Nat.cast_add, Nat.cast_one]
    omega
  | deactivate cid _ h1 h2 ih =>
    exact ⟨index_core_deactivate ih.1 cid,
      records_ok_push ih.2 ⟨ACTION_DEACTIVATE_CLAUSE, cid⟩ rfl rfl (fun _ => ⟨h1, h2⟩)⟩
  | activate cid _ h1 h2 ih =>
    exact ⟨index_core_activate ih.1 cid h1 h2, ih.2⟩
  | push_active nac _ hv ih =>
    exact ⟨index_core_push_active ih.1 nac hv,
      records_ok_push ih.2 ⟨ACTION_ACTIVE_CLAUSES, 0⟩ rfl rfl (fun h => by cases h)⟩
  | new_context _ ih =>
    exact ⟨ih.1, records_ok_push ih.2 ⟨ACTION_START_CONTEXT, 0⟩ rfl rfl (fun h => by cases h)⟩
  | pop_context _ ih =>
    exact index_pop_loop _ _ ih.1 (fun a ha => ih.2 a (List.mem_reverse.1 ha))

/-- C32. In every state reachable from the empty state by the creation of clauses, by
`deactivate_clause`, `activate_clause` and `push_active` on ids of existing clauses, by
`new_context` and by `pop_context`, the literal index agrees with the active set: an
active clause is indexed under each of its literals, and the index of a literal holds
only ids of active clauses that contain the literal. -/
theorem index_consistent (s : Cnf) (h : index_reachable s) :
    (∀ cid ∈ s.active_clauses, ∀ l ∈ s.clause cid, cid ∈ s.literal_clauses l) ∧
    (∀ (l : Int), ∀ cid ∈ s.literal_clauses l, cid ∈ s.active_clauses ∧ l ∈ s.clause cid) :=
  ⟨fun cid hc l hl => ((index_reachable_inv h).1.1 l cid).2 ⟨hc, hl⟩,
   fun l cid hc => ((index_reachable_inv h).1.1 l cid).1 hc⟩

/-- C32 (witness). The theorem `index_consistent` after the creation of the clauses
`(x1 ∨ x2)` and `(-x1 ∨ x3)`, a new context, the deactivation of clause 1, `push_active`
with clause 2 alone, and `pop_context`: clause 1 is active again and indexed under `x1`. -/
theorem index_consistent_witness :
    (1 : Int) ∈ (((([-1, 3].foldl add_literal ([1, 2].foldl add_literal
      (Cnf.init 3).new_clause).new_clause).new_context.deactivate_clause 1).push_active
      {2}).pop_context).active_clauses ∧
    (1 : Int) ∈ (((([-1, 3].foldl add_literal ([1, 2].foldl add_literal
      (Cnf.init 3).new_clause).new_clause).new_context.deactivate_clause 1).push_active
      {2}).pop_context).literal_clauses 1 := by
  have h := index_consistent _
    (index_reachable.pop_context (index_reachable.push_active {2}
      (index_reachable.deactivate 1 (index_reachable.new_context
        (index_reachable.create [-1, 3] (index_reachable.create [1, 2]
          (index_reachable.start (Cnf.init 3) rfl rfl rfl rfl rfl rfl rfl))))
        (by decide) (by decide)) (by decide)))
  have ha : (1 : Int) ∈ (((([-1, 3].foldl add_literal ([1, 2].foldl add_literal
      (Cnf.init 3).new_clause).new_clause).new_context.deactivate_clause 1).push_active
      {2}).pop_context).active_clauses := by decide
  exact ⟨ha, h.1 1 ha 1 (by decide)⟩

end Cnf

namespace Pog

theorem find_complement_some (lits2 : List Int) : ∀ (lits1 : List Int) (v : Int),
    find_complement lits2 lits1 = some v → ∃ l ∈ lits1, get_var l = v ∧ -l ∈ lits2 := by
  intro lits1
  induction lits1 with
  | nil => intro v h; cases h
  | cons a r ih =>
    intro v h
    unfold find_complement at h
    by_cases hc : lits2.any (fun lit2 => decide (a = -lit2)) = true
    · rw [if_pos hc] at h
      obtain ⟨l2, hl2, he⟩ := List.any_eq_true.1 hc
      have he1 : a = -l2 := of_decide_eq_true he
      refine ⟨a, List.mem_cons_self _ _, Option.some.inj h, ?_⟩
      rw [he1, neg_neg]; exact hl2
    · rw [if_neg hc] at h
      obtain ⟨l, hl, h1, h2⟩ := ih v h
      exact ⟨l, List.mem_cons_of_mem _ hl, h1, h2⟩

theorem find_complement_none (lits2 : List Int) : ∀ (lits1 : List Int),
    find_complement lits2 lits1 = none → ∀ l ∈ lits1, -l ∉ lits2 := by
  intro lits1
  induction lits1 with
  | nil => intro _ l hl; cases hl
  | cons a r ih =>
    intro h l hl
    unfold find_complement at h
    by_cases hc : lits2.any (fun lit2 => decide (a = -lit2)) = true
    · rw [if_pos hc] at h; cases h
    · rw [if_neg hc] at h
      rcases List.mem_cons.1 hl with hl | hl
      · intro hm
        apply hc
        refine List.any_eq_true.2 ⟨-l, hm, ?_⟩
        rw [hl]
        simp
      · exact ih h l hl

/-- When the second child of a Sum is a node, `get_decision_variable` does not read the
cell behind `edge2`. -/
theorem get_decision_variable_node (p : Pog) (stray stray1 : Int) (edge : Int)
    (h : p.is_node (p.get_argument edge 1) = true) :
    p.get_decision_variable stray edge = p.get_decision_variable stray1 edge := by
  unfold get_decision_variable
  simp only [h, if_true]

/-- C39 (counterexample). The Sum of the Products `x1 ∧ x2` and `x3 ∧ x4` has two
children whose literal lists hold no complementary pair: `get_decision_variable` returns
no variable for it but stops with the fatal error, whatever the memory holds. -/
theorem decision_variable_counterexample :
    (build stdRuntime (build stdRuntime (build stdRuntime (Pog.init 4 {1, 2, 3, 4} ∅)
      POG_PRODUCT [1, 2]).1 POG_PRODUCT [3, 4]).1 POG_SUM [5, 6]).2 = 7 ∧
    (build stdRuntime (build stdRuntime (build stdRuntime (Pog.init 4 {1, 2, 3, 4} ∅)
      POG_PRODUCT [1, 2]).1 POG_PRODUCT [3, 4]).1 POG_SUM [5, 6]).1.is_sum 7 = true ∧
    (build stdRuntime (build stdRuntime (build stdRuntime (Pog.init 4 {1, 2, 3, 4} ∅)
      POG_PRODUCT [1, 2]).1 POG_PRODUCT [3, 4]).1 POG_SUM [5, 6]).1.get_arguments 7 = [5, 6] ∧
    (fun stray : Int => (build stdRuntime (build stdRuntime (build stdRuntime
      (Pog.init 4 {1, 2, 3, 4} ∅) POG_PRODUCT [1, 2]).1 POG_PRODUCT [3, 4]).1
      POG_SUM [5, 6]).1.get_decision_variable stray 7) = fun _ => none := by
  refine ⟨by decide, by decide, by decide, ?_⟩
  funext stray
  rw [get_decision_variable_node _ stray 0 7 (by decide)]
  decide

/-- C39 (amended). For every edge, `get_decision_variable` returns 0 when the edge is not
a Sum. For a Sum whose second child is a node, with the literal list of a child being its
arguments when it is a node and the child edge itself when it is a leaf: a returned
variable `v` is the variable of a literal of the first child's list whose opposite
literal is in the second child's list; and a variable is returned exactly when the two
lists hold such a pair, the fatal error being raised otherwise. This holds whatever the
memory cell behind the local `edge2` holds (`stray`); for a Sum whose second child is a
leaf, where the source reads that cell, nothing is stated. -/
theorem decision_variable_spec (p : Pog) (stray : Int) (edge : Int) :
    (p.is_sum edge = false → p.get_decision_variable stray edge = some 0) ∧
    (p.is_sum edge = true → p.is_node (p.get_argument edge 1) = true →
      ∀ v, p.get_decision_variable stray edge = some v →
        ∃ l ∈ p.child_literals (p.get_argument edge 0),
          get_var l = v ∧ -l ∈ p.child_literals (p.get_argument edge 1)) ∧
    (p.is_sum edge = true → p.is_node (p.get_argument edge 1) = true →
      ((∃ v, p.get_decision_variable stray edge = some v) ↔
        ∃ l ∈ p.child_literals (p.get_argument edge 0),
          -l ∈ p.child_literals (p.get_argument edge 1))) := by
  refine ⟨?_, ?_, ?_⟩
  · intro h
    unfold get_decision_variable
    rw [if_pos h]
  · intro h hn v hv
    unfold get_decision_variable at hv
    rw [if_neg (by rw [h]; exact Bool.noConfusion)] at hv
    simp only [hn, if_true] at hv
    have := find_complement_some _ _ v hv
    unfold child_literals
    simp only [hn, if_true]
    exact this
  · intro h hn
    unfold get_decision_variable
    rw [if_neg (by rw [h]; exact Bool.noConfusion)]
    unfold child_literals
    simp only [hn, if_true]
    constructor
    · rintro ⟨v, hv⟩
      obtain ⟨l, hl, _, h2⟩ := find_complement_some _ _ v hv
      exact ⟨l, hl, h2⟩
    · rintro ⟨l, hl, h2⟩
      cases hf : find_complement (p.get_arguments (p.get_argument edge 1))
          (if p.is_node (p.get_argument edge 0) then p.get_arguments (p.get_argument edge 0)
            else [p.get_argument edge 0]) with
      | none => exact absurd h2 (find_complement_none _ _ hf l hl)
      | some v => exact ⟨v, rfl⟩

/-- C39 (witness). The theorem `decision_variable_spec` at the Sum of `-x1 ∧ x2` and
`x1 ∧ x3`, whose second child is a node: the decision variable is `x1`. -/
theorem decision_variable_spec_witness :
    (build stdRuntime (build stdRuntime (build stdRuntime (Pog.init 3 {1, 2, 3} ∅)
      POG_PRODUCT [-1, 2]).1 POG_PRODUCT [1, 3]).1 POG_SUM [4, 5]).1.get_decision_variable 0 6 =
      some 1 ∧
    ∃ l ∈ (build stdRuntime (build stdRuntime (build stdRuntime (Pog.init 3 {1, 2, 3} ∅)
        POG_PRODUCT [-1, 2]).1 POG_PRODUCT [1, 3]).1 POG_SUM [4, 5]).1.child_literals
        ((build stdRuntime (build stdRuntime (build stdRuntime (Pog.init 3 {1, 2, 3} ∅)
        POG_PRODUCT [-1, 2]).1 POG_PRODUCT [1, 3]).1 POG_SUM [4, 5]).1.get_argument 6 0),
      get_var l = 1 ∧ -l ∈ (build stdRuntime (build stdRuntime (build stdRuntime
        (Pog.init 3 {1, 2, 3} ∅) POG_PRODUCT [-1, 2]).1 POG_PRODUCT [1, 3]).1
        POG_SUM [4, 5]).1.child_literals
        ((build stdRuntime (build stdRuntime (build stdRuntime (Pog.init 3 {1, 2, 3} ∅)
        POG_PRODUCT [-1, 2]).1 POG_PRODUCT [1, 3]).1 POG_SUM [4, 5]).1.get_argument 6 1) := by
  have h1 : (build stdRuntime (build stdRuntime (build stdRuntime (Pog.init 3 {1, 2, 3} ∅)
      POG_PRODUCT [-1, 2]).1 POG_PRODUCT [1, 3]).1 POG_SUM [4, 5]).1.get_decision_variable 0 6 =
      some 1 := by decide
  exact ⟨h1, (decision_variable_spec _ 0 6).2.1 (by decide) (by decide) 1 h1⟩

end Pog

namespace Pog

theorem eval_args_missing (sum : Bool) (ew : Int → Option ℚ) (l : Int) (hl : ew l = none) :
    ∀ (args : List Int) (v : ℚ), l ∈ args → eval_args sum ew args v = none := by
  intro args
  induction args with
  | nil => intro v h; cases h
  | cons a r ih =>
    intro v h
    unfold eval_args
    cases ha : ew a with
    | none => rfl
    | some wt =>
      simp only []
      rcases List.mem_cons.1 h with h1 | h1
      · rw [h1, ha] at hl; cases hl
      · exact ih _ h1

theorem eval_fold_none (p : Pog) : ∀ xs : List Int, xs.foldl p.eval_step none = none := by
  intro xs
  induction xs with
  | nil => rfl
  | cons a r ih => rw [List.foldl_cons]; exact ih

/-- The outer loop of `ring_evaluate` fails when it meets a node with an argument that
is no node and has no weight. -/
theorem eval_fold_missing (p : Pog) (l n : Int) (hl : p.is_node l = false)
    (hn : l ∈ p.get_arguments n) : ∀ (xs : List Int) (ew : Int → Option ℚ),
    (∀ x ∈ xs, p.is_node x = true) → ew l = none → IABS n ∈ xs →
    xs.foldl p.eval_step (some ew) = none := by
  intro xs
  induction xs with
  | nil => intro ew _ _ h; cases h
  | cons a r ih =>
    intro ew hx hew hmem
    rw [List.foldl_cons]
    cases hst : p.eval_step (some ew) a with
    | none => exact eval_fold_none p r
    | some ew1 =>
      have hne : a ≠ IABS n := by
        intro ha
        have : p.eval_step (some ew) a = none := by
          unfold eval_step
          simp only [ha, get_var, IABS_IABS, is_sum_IABS, get_arguments_IABS,
            fun s v => eval_args_missing s ew l hew _ v hn]
        rw [this] at hst; cases hst
      have hmem1 : IABS n ∈ r := by
        rcases List.mem_cons.1 hmem with h | h
        · exact absurd h.symm hne
        · exact h
      apply ih ew1 (fun x hx1 => hx x (List.mem_cons_of_mem _ hx1)) _ hmem1
      unfold eval_step at hst
      simp only [] at hst
      cases hev : eval_args (p.is_sum (get_var a)) ew (p.get_arguments (get_var a))
          (if p.is_sum (get_var a) = true then 0 else 1) with
      | none => rw [hev] at hst; cases hst
      | some v =>
        rw [hev] at hst
        have hst1 := Option.some.inj hst
        have han : p.is_node a = true := hx a (List.mem_cons_self _ _)
        have h1 : l ≠ get_var a := by
          intro h
          rw [h] at hl
          simp only [get_var, is_node_IABS] at hl
          rw [han] at hl; cases hl
        have h2 : l ≠ -get_var a := by
          intro h
          rw [h] at hl
          simp only [get_var, is_node_neg, is_node_IABS] at hl
          rw [han] at hl; cases hl
        rw [← hst1, Function.update_noteq h2, Function.update_noteq h1]
        exact hew

/-- C24. For every well-formed graph and root edge, if a variable literal that is the
root itself or an argument of a node reachable from the root has no entry in the weight
map, `ring_evaluate` returns 0. -/
theorem ring_evaluate_missing_weight (rt : Runtime) (p : Pog) (hwf : p.WF rt) (root : Int)
    (hroot : p.edge_ok root) (w : Int → Option ℚ) (l : Int) (hreach : Reach p root l)
    (hleaf : p.is_node l = false) (hlit : IABS l ≠ TAUTOLOGY) (hw : w l = none) :
    p.ring_evaluate root w = 0 := by
  rcases Reach.cases_last hreach with h | ⟨x, hx, hxn, hc⟩
  · subst h
    unfold ring_evaluate
    simp only []
    rw [visit_not_node p _ l ∅ hleaf]
    have e1 : ascList (∅ : Finset Int) = [] := by
      apply List.eq_nil_iff_forall_not_mem.2
      intro a ha
      simp at ha
    rw [e1]
    simp only [List.foldl_nil]
    have h1 : l ≠ TAUTOLOGY := by
      intro h
      rw [h] at hlit
      exact hlit (by decide)
    simp only [h1, if_false, hw]
    split_ifs <;> rfl
  · have hv := visit_complete hwf hroot hx hxn
    have hall := (visited_all_ok hwf hroot).2
    unfold ring_evaluate
    simp only []
    rw [eval_fold_missing p l x hleaf hc _ w
      (fun y hy => (hall y ((mem_ascList _ _).1 hy)).1) hw ((mem_ascList _ _).2 hv)]

/-- C24 (witness). The theorem `ring_evaluate_missing_weight` at the Product of `x1` and
`x2` with a weight for `x1` only. -/
theorem ring_evaluate_missing_weight_witness :
    (build stdRuntime (Pog.init 2 {1, 2} ∅) POG_PRODUCT [1, 2]).1.ring_evaluate 3
      (fun l => if l = 1 then some 1 else none) = 0 :=
  ring_evaluate_missing_weight stdRuntime _
    (Reachable.wf stdRuntime_sort_ok (Reachable.build _ POG_PRODUCT [1, 2]
      (Reachable.init 2 {1, 2} ∅) (Or.inl rfl) (by decide)) (by decide))
    3 (by decide) _ 2
    (Reach.child 3 2 Reach.root (by decide) (by decide)) (by decide) (by decide) (by decide)

end Pog

namespace Compiler

theorem Reach_trans {p : Pog} {a b c : Int} (h1 : Pog.Reach p a b) (h2 : Pog.Reach p b c) :
    Pog.Reach p a c := by
  induction h2 with
  | root => exact h1
  | child e c _ hn hc ih => exact Pog.Reach.child e c ih hn hc

/-- Every id that `visit` adds is the id of a node reachable from the visited edge. -/
theorem visit_sound (p : Pog) : ∀ (fuel : Nat) (e : Int) (S : Finset Int) (x : Int),
    x ∈ p.visit fuel e S → x ∈ S ∨ ∃ y, Pog.Reach p e y ∧ p.is_node y = true ∧ IABS y = x := by
  intro fuel
  induction fuel with
  | zero => intro e S x h; exact Or.inl h
  | succ fuel ih =>
    intro e S x h
    by_cases hn : p.is_node e = true
    · by_cases hm : IABS e ∈ S
      · rw [Pog.visit_succ_mem p fuel e S hm] at h
        exact Or.inl h
      · rw [Pog.visit_succ_new p fuel e S hn hm] at h
        have key : ∀ (cs : List Int) (S0 : Finset Int),
            x ∈ cs.foldl (fun vis c => p.visit fuel c vis) S0 →
            x ∈ S0 ∨ ∃ c ∈ cs, ∃ y, Pog.Reach p c y ∧ p.is_node y = true ∧ IABS y = x := by
          intro cs
          induction cs with
          | nil => intro S0 h0; exact Or.inl h0
          | cons c rest ihr =>
            intro S0 h0
            rw [List.foldl_cons] at h0
            rcases ihr _ h0 with h1 | ⟨d, hd, y, hy⟩
            · rcases ih c S0 x h1 with h2 | ⟨y, hy⟩
              · exact Or.inl h2
              · exact Or.inr ⟨c, List.mem_cons_self _ _, y, hy⟩
            · exact Or.inr ⟨d, List.mem_cons_of_mem _ hd, y, hy⟩
        rcases key _ _ h with h1 | ⟨c, hc, y, hy1, hy2, hy3⟩
        · rcases Finset.mem_insert.1 h1 with h2 | h2
          · exact Or.inr ⟨e, Pog.Reach.root, hn, h2.symm⟩
          · exact Or.inl h2
        · exact Or.inr ⟨y, Reach_trans (Pog.Reach.child e c Pog.Reach.root hn hc) hy1, hy2, hy3⟩
    · have hn1 : p.is_node e = false := by simpa using hn
      rw [Pog.visit_not_node p _ e S hn1] at h
      exact Or.inl h

theorem subgraph_nodes_sound (p : Pog) (roots : List Int) (x : Int)
    (h : x ∈ subgraph_nodes p roots) : reachable_node p roots x := by
  have key : ∀ (cs : List Int) (S0 : Finset Int),
      x ∈ cs.foldl (fun vis c => p.visit p.visit_fuel c vis) S0 →
      x ∈ S0 ∨ reachable_node p cs x := by
    intro cs
    induction cs with
    | nil => intro S0 h0; exact Or.inl h0
    | cons c rest ihr =>
      intro S0 h0
      rw [List.foldl_cons] at h0
      rcases ihr _ h0 with h1 | ⟨d, hd, y, hy⟩
      · rcases visit_sound p _ c S0 x h1 with h2 | ⟨y, hy⟩
        · exact Or.inl h2
        · exact Or.inr ⟨c, List.mem_cons_self _ _, y, hy⟩
      · exact Or.inr ⟨d, List.mem_cons_of_mem _ hd, y, hy⟩
  rcases key roots ∅ h with h1 | h1
  · simp at h1
  · exact h1

theorem subgraph_nodes_complete {rt : Runtime} {p : Pog} (hwf : p.WF rt) (roots : List Int)
    (hroots : ∀ r ∈ roots, p.edge_ok r) (x : Int) (h : reachable_node p roots x) :
    x ∈ subgraph_nodes p roots := by
  obtain ⟨h1, h2⟩ := subgraph_nodes_spec hwf roots (fun r hr => Pog.edge_ok_bound (hroots r hr))
  obtain ⟨r, hr, y, hy, hn, rfl⟩ := h
  have key : ∀ z, Pog.Reach p r z → p.is_node z = true → IABS z ∈ subgraph_nodes p roots := by
    intro z hz
    induction hz with
    | root => exact h1 r hr
    | child e c _ hen hc ih =>
      intro hcn
      exact (h2 _ (ih hen)).2.2.2 c (by rw [Pog.get_arguments_IABS]; exact hc) hcn
  exact key y hy hn

theorem ascList_index_lt {L : List Int} (hL : L.Pairwise (· < ·)) {i j : Nat} {a b : Int}
    (hi : L[i]? = some a) (hj : L[j]? = some b) : (a < b ↔ i < j) ∧ (a = b ↔ i = j) := by
  have hil : i < L.length := by
    by_contra hc
    rw [List.getElem?_eq_none (by omega)] at hi
    cases hi
  have hjl : j < L.length := by
    by_contra hc
    rw [List.getElem?_eq_none (by omega)] at hj
    cases hj
  rw [List.getElem?_eq_getElem hil] at hi
  rw [List.getElem?_eq_getElem hjl] at hj
  have ha := Option.some.inj hi
  have hb := Option.some.inj hj
  have hp := List.pairwise_iff_getElem.1 hL
  rcases Nat.lt_trichotomy i j with h | h | h
  · have := hp i j hil hjl h
    rw [ha, hb] at this
    exact ⟨⟨fun _ => h, fun _ => this⟩, ⟨fun e => by omega, fun e => by omega⟩⟩
  · subst h
    have : a = b := by rw [← ha, ← hb]
    exact ⟨⟨fun e => by omega, fun e => by omega⟩, ⟨fun _ => rfl, fun _ => this⟩⟩
  · have := hp j i hjl hil h
    rw [ha, hb] at this
    exact ⟨⟨fun e => by omega, fun e => by omega⟩, ⟨fun e => by omega, fun e => by omega⟩⟩

/-- C22. For every well-formed graph and list of root edges, the map that `get_subgraph`
produces is an order-preserving bijection from the ids of the nodes reachable from the
roots onto the range `nvar+1 .. nvar+k`, with `k` the number of its entries: its keys
are the reachable node ids, its values are the numbers of the range, the value grows
with the key, `remap_get` returns the value of a key, and every argument of a key that
is a node has an entry with a smaller new id. -/
theorem get_subgraph_bijection (rt : Runtime) (p : Pog) (hwf : p.WF rt) (roots : List Int)
    (hroots : ∀ r ∈ roots, p.edge_ok r) :
    (∀ o, (∃ n, (o, n) ∈ p.get_subgraph roots) ↔ reachable_node p roots o) ∧
    (∀ n, (∃ o, (o, n) ∈ p.get_subgraph roots) ↔
      ((p.nvar : Int) < n ∧ n ≤ (p.nvar : Int) + (p.get_subgraph roots).length)) ∧
    (∀ o n o1 n1, (o, n) ∈ p.get_subgraph roots → (o1, n1) ∈ p.get_subgraph roots →
      ((o < o1 ↔ n < n1) ∧ (o = o1 ↔ n = n1))) ∧
    (∀ o n, (o, n) ∈ p.get_subgraph roots → Pog.remap_get (p.get_subgraph roots) o = n) ∧
    (∀ o n, (o, n) ∈ p.get_subgraph roots → ∀ c ∈ p.get_arguments o, p.is_node c = true →
      ∃ n1, (IABS c, n1) ∈ p.get_subgraph roots ∧ n1 < n) := by
  have hord : ∀ o n o1 n1, (o, n) ∈ p.get_subgraph roots → (o1, n1) ∈ p.get_subgraph roots →
      ((o < o1 ↔ n < n1) ∧ (o = o1 ↔ n = n1)) := by
    intro o n o1 n1 h1 h2
    obtain ⟨i, hi, hn⟩ := (mem_get_subgraph p roots o n).1 h1
    obtain ⟨j, hj, hn1⟩ := (mem_get_subgraph p roots o1 n1).1 h2
    have := ascList_index_lt (ascList_sorted _) hi hj
    rw [this.1, this.2, hn, hn1]
    constructor <;> constructor <;> intro h <;> omega
  have hS := (subgraph_nodes_spec hwf roots (fun r hr => Pog.edge_ok_bound (hroots r hr))).2
  refine ⟨?_, ?_, hord, ?_, ?_⟩
  · intro o
    constructor
    · rintro ⟨n, hn⟩
      exact subgraph_nodes_sound p roots o (mem_get_subgraph_node p roots hn).1
    · intro h
      exact ⟨_, remap_get_mem p roots (subgraph_nodes_complete hwf roots hroots o h)⟩
  · intro n
    constructor
    · rintro ⟨o, ho⟩
      have := mem_get_subgraph_node p roots ho
      exact ⟨this.2.1, this.2.2.1⟩
    · intro h
      exact ⟨_, fresh_entry p roots h⟩
  · intro o n h
    have h1 := remap_get_mem p roots (mem_get_subgraph_node p roots h).1
    exact ((hord _ _ _ _ h1 h).2.1 rfl)
  · intro o n h c hc hcn
    obtain ⟨s1, s2, s3, s4⟩ := hS o (mem_get_subgraph_node p roots h).1
    have hmem := remap_get_mem p roots (s4 c hc hcn)
    refine ⟨_, hmem, ?_⟩
    obtain ⟨i, hil, hie, _, _, hch⟩ := hwf.children_of_node (Or.inl (by rw [s2]; exact s3)) s1
    have hlt : IABS c < o := by
      have := (hch c hc).2
      omega
    exact ((hord _ _ _ _ hmem h).1.1 hlt)

/-- C22 (witness). The theorem `get_subgraph_bijection` at the graph with the nodes
`5 = x1 ∧ x2`, `6 = x3 ∨ x4` and `7 = -x1 ∧ 6`, for the root 7: the reachable nodes 6
and 7 get the new ids 5 and 6. -/
theorem get_subgraph_bijection_witness :
    Pog.remap_get ((Pog.build stdRuntime (Pog.build stdRuntime (Pog.build stdRuntime
      (Pog.init 4 {1, 2, 3, 4} ∅) POG_PRODUCT [1, 2]).1 POG_SUM [3, 4]).1
      POG_PRODUCT [6, -1]).1.get_subgraph [7]) 6 = 5 ∧
    ∃ n1, (IABS 6, n1) ∈ (Pog.build stdRuntime (Pog.build stdRuntime (Pog.build stdRuntime
      (Pog.init 4 {1, 2, 3, 4} ∅) POG_PRODUCT [1, 2]).1 POG_SUM [3, 4]).1
      POG_PRODUCT [6, -1]).1.get_subgraph [7] ∧ n1 < 6 := by
  have h1 : Pog.Reachable stdRuntime (Pog.build stdRuntime (Pog.init 4 {1, 2, 3, 4} ∅)
      POG_PRODUCT [1, 2]).1 :=
    Pog.Reachable.build _ POG_PRODUCT [1, 2] (Pog.Reachable.init 4 {1, 2, 3, 4} ∅)
      (Or.inl rfl) (by decide)
  have h2 : Pog.Reachable stdRuntime (Pog.build stdRuntime (Pog.build stdRuntime
      (Pog.init 4 {1, 2, 3, 4} ∅) POG_PRODUCT [1, 2]).1 POG_SUM [3, 4]).1 :=
    Pog.Reachable.build _ POG_SUM [3, 4] h1 (Or.inr rfl) (by decide)
  have h3 : Pog.Reachable stdRuntime (Pog.build stdRuntime (Pog.build stdRuntime
      (Pog.build stdRuntime (Pog.init 4 {1, 2, 3, 4} ∅) POG_PRODUCT [1, 2]).1
      POG_SUM [3, 4]).1 POG_PRODUCT [6, -1]).1 :=
    Pog.Reachable.build _ POG_PRODUCT [6, -1] h2 (Or.inl rfl) (by decide)
  have hwf := Pog.Reachable.wf stdRuntime_sort_ok h3 (by decide)
  have hm : ((6 : Int), (5 : Int)) ∈ (Pog.build stdRuntime (Pog.build stdRuntime
      (Pog.build stdRuntime (Pog.init 4 {1, 2, 3, 4} ∅) POG_PRODUCT [1, 2]).1
      POG_SUM [3, 4]).1 POG_PRODUCT [6, -1]).1.get_subgraph [7] := by decide
  have hm7 : ((7 : Int), (6 : Int)) ∈ (Pog.build stdRuntime (Pog.build stdRuntime
      (Pog.build stdRuntime (Pog.init 4 {1, 2, 3, 4} ∅) POG_PRODUCT [1, 2]).1
      POG_SUM [3, 4]).1 POG_PRODUCT [6, -1]).1.get_subgraph [7] := by decide
  have h := get_subgraph_bijection stdRuntime _ hwf [7] (by decide)
  exact ⟨h.2.2.2.1 6 5 hm, h.2.2.2.2 7 6 hm7 6 (by decide) (by decide)⟩

end Compiler

namespace Cnf

theorem IABS_eq_cases {a b : Int} (h : IABS a = IABS b) : a = b ∨ a = -b := by
  unfold IABS at h
  split_ifs at h <;> omega

/-- The loop of `resolve` over a list sorted by variable: it finds a tautology exactly
when the literals hold a complementary pair, and otherwise removes the duplicates. -/
theorem resolve_dedup_spec : ∀ (R : List Int) (last : Int) (nlits P : List Int),
    (∀ r ∈ R, r ≠ 0) → R.Pairwise (fun a b => IABS a ≤ IABS b) →
    (∀ r ∈ R, IABS last ≤ IABS r) →
    (∀ p ∈ P, IABS p ≤ IABS last ∧ (IABS p = IABS last → p = last)) →
    (last = 0 ∨ last ∈ P) →
    nlits.Nodup → (∀ l, l ∈ nlits ↔ l ∈ P) → (∀ l ∈ P, -l ∉ P) →
    match resolve_dedup R last nlits with
    | none => ∃ l ∈ P ++ R, -l ∈ P ++ R
    | some out => out.Nodup ∧ (∀ l, l ∈ out ↔ l ∈ P ++ R) ∧ ∀ l ∈ P ++ R, -l ∉ P ++ R := by
  intro R
  induction R with
  | nil =>
    intro last nlits P _ _ _ _ _ hnd hmem hcomp
    simp only [resolve_dedup, List.append_nil]
    exact ⟨hnd, hmem, hcomp⟩
  | cons lit rest ih =>
    intro last nlits P hnz hsort hlast hJ hL hnd hmem hcomp
    have hlit0 : lit ≠ 0 := hnz lit (List.mem_cons_self _ _)
    have hsort1 := List.pairwise_cons.1 hsort
    have hPR : P ++ lit :: rest = (P ++ [lit]) ++ rest := by simp
    unfold resolve_dedup
    by_cases h1 : lit = last
    · subst h1
      simp only [if_true]
      have hlP : lit ∈ P := by
        rcases hL with h | h
        · exact absurd h hlit0
        · exact h
      have := ih lit nlits (P ++ [lit]) (fun r hr => hnz r (List.mem_cons_of_mem _ hr))
        hsort1.2 (fun r hr => hlast r (List.mem_cons_of_mem _ hr))
        (by
          intro p hp
          rcases List.mem_append.1 hp with hp | hp
          · exact hJ p hp
          · rw [List.mem_singleton.1 hp]; exact ⟨le_refl _, fun _ => rfl⟩)
        (Or.inr (List.mem_append_left _ hlP)) hnd
        (by
          intro l
          rw [hmem l, List.mem_append, List.mem_singleton]
          constructor
          · exact Or.inl
          · rintro (h | h)
            · exact h
            · rw [h]; exact hlP)
        (by
          intro l hl hn
          have hl1 : l ∈ P := by
            rcases List.mem_append.1 hl with h | h
            · exact h
            · rw [List.mem_singleton.1 h]; exact hlP
          have hn1 : -l ∈ P := by
            rcases List.mem_append.1 hn with h | h
            · exact h
            · rw [List.mem_singleton.1 h]; exact hlP
          exact hcomp l hl1 hn1)
      rw [hPR]
      exact this
    · simp only [h1, if_false]
      by_cases h2 : lit = -last
      · simp only [h2, if_true]
        have hl0 : last ≠ 0 := by
          intro h; rw [h] at h2; exact hlit0 (by simpa using h2)
        have hlP : last ∈ P := by
          rcases hL with h | h
          · exact absurd h hl0
          · exact h
        refine ⟨last, List.mem_append_left _ hlP, ?_⟩
        exact List.mem_append_right _ (List.mem_cons_self _ _)
      · simp only [h2, if_false]
        have hgt : IABS last < IABS lit := by
          have h3 := hlast lit (List.mem_cons_self _ _)
          rcases lt_or_eq_of_le h3 with h | h
          · exact h
          · rcases IABS_eq_cases h.symm with h4 | h4
            · exact absurd h4 h1
            · exact absurd h4 h2
        have hnP : ∀ p ∈ P, IABS p < IABS lit := fun p hp => lt_of_le_of_lt (hJ p hp).1 hgt
        have := ih lit (nlits ++ [lit]) (P ++ [lit])
          (fun r hr => hnz r (List.mem_cons_of_mem _ hr)) hsort1.2
          (fun r hr => hsort1.1 r hr)
          (by
            intro p hp
            rcases List.mem_append.1 hp with hp | hp
            · exact ⟨le_of_lt (hnP p hp), fun h => absurd h (ne_of_lt (hnP p hp))⟩
            · rw [List.mem_singleton.1 hp]; exact ⟨le_refl _, fun _ => rfl⟩)
          (Or.inr (List.mem_append_right _ (List.mem_singleton_self _)))
          (by
            rw [List.nodup_append]
            refine ⟨hnd, List.nodup_singleton _, ?_⟩
            intro a ha hb
            rw [List.mem_singleton.1 hb] at ha
            exact absurd rfl (ne_of_lt (hnP lit ((hmem lit).1 ha))))
          (by
            intro l
            simp only [List.mem_append, List.mem_singleton, hmem l])
          (by
            intro l hl hn
            rcases List.mem_append.1 hl with hl | hl <;>
              rcases List.mem_append.1 hn with hn | hn
            · exact hcomp l hl hn
            · have := hnP l hl
              rw [← List.mem_singleton.1 hn, IABS_neg] at this
              exact absurd rfl (ne_of_lt this)
            · have := hnP (-l) hn
              rw [IABS_neg, List.mem_singleton.1 hl] at this
              exact absurd rfl (ne_of_lt this)
            · have h5 := List.mem_singleton.1 hl
              have h6 := List.mem_singleton.1 hn
              omega)
        rw [hPR]
        exact this

theorem fold_add_literal_active (lits : List Int) : ∀ s : Cnf,
    (lits.foldl add_literal s).active_clauses = s.active_clauses := by
  induction lits with
  | nil => intro s; rfl
  | cons a r ih => intro s; rw [List.foldl_cons]; exact ih _

theorem create_clause_new (s : Cnf) (lits : List Int) :
    (lits.foldl add_literal s.new_clause).clause ((s.clauses.length : Int) + 1) = lits := by
  unfold clause
  rw [create_clauses]
  have h3 : ¬ ((s.clauses.length : Int) + 1 < 1) := by omega
  simp only [h3, if_false]
  have h4 : ((s.clauses.length : Int) + 1 - 1).toNat = s.clauses.length := by omega
  rw [h4]
  simp [List.getD_eq_getElem?_getD]

/-- C33. For every state, variable `var` and clauses `cid1` and `cid2` whose literals to
merge are not zero, with `std::sort` any sort by variable: `resolve` returns 0 and leaves
the state as it is if and only if the literals that are not skipped and are not literals
of `var` hold a complementary pair; otherwise it adds one clause, which is active, has
as its id the new maximum clause id, which is returned, and has as its literals those
literals without duplicates. -/
theorem resolve_spec (rt : Runtime) (hs : rt.sort_ok) (s : Cnf) (var cid1 cid2 : Int)
    (hnz : ∀ l ∈ s.resolve_literals var cid1 cid2, l ≠ 0) :
    (((s.resolve rt var cid1 cid2).2 = 0 ∧ (s.resolve rt var cid1 cid2).1 = s) ↔
      ∃ l ∈ s.resolve_literals var cid1 cid2, -l ∈ s.resolve_literals var cid1 cid2) ∧
    ((¬ ∃ l ∈ s.resolve_literals var cid1 cid2, -l ∈ s.resolve_literals var cid1 cid2) →
      (s.resolve rt var cid1 cid2).2 = (s.clauses.length : Int) + 1 ∧
      (s.resolve rt var cid1 cid2).1.clauses.length = s.clauses.length + 1 ∧
      (s.resolve rt var cid1 cid2).1.active_clauses =
        insert ((s.clauses.length : Int) + 1) s.active_clauses ∧
      ((s.resolve rt var cid1 cid2).1.clause (s.resolve rt var cid1 cid2).2).Nodup ∧
      (∀ l, l ∈ (s.resolve rt var cid1 cid2).1.clause (s.resolve rt var cid1 cid2).2 ↔
        l ∈ s.resolve_literals var cid1 cid2) ∧
      (∀ l ∈ (s.resolve rt var cid1 cid2).1.clause (s.resolve rt var cid1 cid2).2,
        IABS l ≠ var) ∧
      ∀ cid, 1 ≤ cid → cid ≤ (s.clauses.length : Int) →
        (s.resolve rt var cid1 cid2).1.clause cid = s.clause cid) := by
  have hperm := (hs (s.resolve_literals var cid1 cid2)).1
  have hsorted := (hs (s.resolve_literals var cid1 cid2)).2
  have hmemS : ∀ l, l ∈ rt.sort (s.resolve_literals var cid1 cid2) ↔
      l ∈ s.resolve_literals var cid1 cid2 := fun l => hperm.mem_iff
  have hspec := resolve_dedup_spec (rt.sort (s.resolve_literals var cid1 cid2)) 0 [] []
    (fun r hr => hnz r ((hmemS r).1 hr))
    (hsorted.imp (by
      intro a b h
      unfold abs_less at h
      simpa using h))
    (fun r _ => by rw [show IABS 0 = 0 from rfl]; exact IABS_nonneg r)
    (fun p hp => by cases hp) (Or.inl rfl) List.nodup_nil (fun l => Iff.rfl)
    (fun l hl => by cases hl)
  have hres : s.resolve rt var cid1 cid2 =
      match resolve_dedup (rt.sort (s.resolve_literals var cid1 cid2)) 0 [] with
      | none => (s, 0)
      | some nlits => (nlits.foldl add_literal s.new_clause, (s.clauses.length : Int) + 1) := rfl
  rw [hres]
  cases hd : resolve_dedup (rt.sort (s.resolve_literals var cid1 cid2)) 0 [] with
  | none =>
    rw [hd] at hspec
    simp only [List.nil_append] at hspec
    obtain ⟨l, hl, hn⟩ := hspec
    have hex : ∃ l ∈ s.resolve_literals var cid1 cid2, -l ∈ s.resolve_literals var cid1 cid2 :=
      ⟨l, (hmemS l).1 hl, (hmemS _).1 hn⟩
    exact ⟨⟨fun _ => hex, fun _ => ⟨rfl, rfl⟩⟩, fun h => absurd hex h⟩
  | some nlits =>
    rw [hd] at hspec
    simp only [List.nil_append] at hspec
    obtain ⟨hnd, hmem, hcomp⟩ := hspec
    have hno : ¬ ∃ l ∈ s.resolve_literals var cid1 cid2,
        -l ∈ s.resolve_literals var cid1 cid2 := by
      rintro ⟨l, hl, hn⟩
      exact hcomp l ((hmemS l).2 hl) ((hmemS _).2 hn)
    have hcl := create_clause_new s nlits
    refine ⟨⟨fun h => ?_, fun h => absurd h hno⟩, fun _ => ⟨rfl, ?_, ?_, ?_, ?_, ?_, ?_⟩⟩
    · have h1 : (s.clauses.length : Int) + 1 = 0 := h.1
      omega
    · show (nlits.foldl add_literal s.new_clause).clauses.length = s.clauses.length + 1
      rw [create_clauses]; simp
    · show (nlits.foldl add_literal s.new_clause).active_clauses = _
      rw [fold_add_literal_active]; rfl
    · show ((nlits.foldl add_literal s.new_clause).clause ((s.clauses.length : Int) + 1)).Nodup
      rw [hcl]; exact hnd
    · intro l
      show l ∈ (nlits.foldl add_literal s.new_clause).clause ((s.clauses.length : Int) + 1) ↔ _
      rw [hcl]; exact (hmem l).trans (hmemS l)
    · intro l hl
      have hl1 : l ∈ (nlits.foldl add_literal s.new_clause).clause
          ((s.clauses.length : Int) + 1) := hl
      rw [hcl] at hl1
      have := (hmemS l).1 ((hmem l).1 hl1)
      unfold resolve_literals at this
      rcases List.mem_append.1 this with h | h
      · have := (List.mem_filter.1 h).2
        simp only [Bool.and_eq_true, decide_eq_true_eq] at this
        exact this.1
      · have := (List.mem_filter.1 h).2
        simp only [Bool.and_eq_true, decide_eq_true_eq] at this
        exact this.1
    · intro cid h1 h2
      exact create_clause_old s nlits cid h1 h2

/-- C33 (witness). The theorem `resolve_spec` at the clauses `(x3 ∨ x1 ∨ x2)` and
`(-x3 ∨ x2)`: the resolvent on `x3` is the new clause 3 with the literals `x1` and `x2`. -/
theorem resolve_spec_witness :
    (([-3, 2].foldl add_literal ([3, 1, 2].foldl add_literal
      (Cnf.init 3).new_clause).new_clause).resolve stdRuntime 3 1 2).2 = 3 ∧
    ((([-3, 2].foldl add_literal ([3, 1, 2].foldl add_literal
      (Cnf.init 3).new_clause).new_clause).resolve stdRuntime 3 1 2).1.clause 3).Nodup := by
  have h := (resolve_spec stdRuntime stdRuntime_sort_ok
    ([-3, 2].foldl add_literal ([3, 1, 2].foldl add_literal (Cnf.init 3).new_clause).new_clause)
    3 1 2 (by decide)).2 (by decide)
  exact ⟨h.1, h.2.2.2.1⟩

end Cnf

namespace Cnf

theorem bve_eq (rt : Runtime) (w : Walk) (s : Cnf) (preprocess : Bool) (maxdegree : Nat) :
    s.bve rt w preprocess maxdegree =
      ((bve_loop rt w preprocess maxdegree s.bve_fuel s (s.bve_buckets maxdegree) ∅).1,
       (s.bve_eliminated rt w preprocess maxdegree).card) := rfl

theorem bve_select_lit (w : Walk) (s : Cnf) (eliminated : Finset Int) : ∀ (k d : Nat)
    (dv dv1 : Nat → Finset Int) (var lit : Int) (degree : Nat),
    bve_select w s eliminated k d dv = (dv1, some (var, lit, degree)) →
    lit = var ∨ lit = -var := by
  intro k
  induction k with
  | zero => intro d dv dv1 var lit degree h; simp [bve_select] at h
  | succ k ih =>
    intro d dv dv1 var lit degree h
    unfold bve_select at h
    dsimp only at h
    cases hr : (bve_scan_bucket s eliminated d (w.order [d] (dv d))).2 with
    | none =>
      rw [hr] at h
      exact ih _ _ _ _ _ _ h
    | some v =>
      rw [hr] at h
      simp only [Prod.mk.injEq, Option.some.injEq] at h
      obtain ⟨_, hv, hl, _⟩ := h
      rw [← hl, ← hv]
      split_ifs
      · exact Or.inl rfl
      · exact Or.inr rfl

/-- One round of the loop of `bve` after the selection of a variable: the round is
skipped when the bound on the added clauses is exceeded, and performs the elimination
otherwise. -/
theorem bve_loop_round (rt : Runtime) (w : Walk) (preprocess : Bool) (maxdegree fuel : Nat) (s : Cnf)
    (dv dv1 : Nat → Finset Int) (eliminated : Finset Int) (var lit : Int) (degree : Nat)
    (hsel : bve_select ((w.sub fuel).sub 0) s eliminated (maxdegree + 1) 0 dv = (dv1, some (var, lit, degree))) :
    (((s.literal_clauses var).card : Int) * (s.literal_clauses (-var)).card -
        (((s.literal_clauses var).card : Int) + (s.literal_clauses (-var)).card) >
        (maxdegree : Int) * maxdegree - 2 * maxdegree →
      bve_loop rt w preprocess maxdegree (fuel + 1) s dv eliminated =
        bve_loop rt w preprocess maxdegree fuel s dv1 eliminated) ∧
    (¬ (((s.literal_clauses var).card : Int) * (s.literal_clauses (-var)).card -
        (((s.literal_clauses var).card : Int) + (s.literal_clauses (-var)).card) >
        (maxdegree : Int) * maxdegree - 2 * maxdegree) →
      ∃ dv2, bve_loop rt w preprocess maxdegree (fuel + 1) s dv eliminated =
        bve_loop rt w preprocess maxdegree fuel (bve_step rt w fuel preprocess s var lit degree) dv2
          (insert var eliminated)) := by
  constructor
  · intro h
    rw [bve_loop, hsel]
    simp only [h, if_true]
  · intro h
    rw [bve_loop, hsel]
    simp only [h, if_false]
    exact ⟨_, rfl⟩

theorem resolve_active (rt : Runtime) (s : Cnf) (var cid1 cid2 : Int) :
    s.active_clauses ⊆ (s.resolve rt var cid1 cid2).1.active_clauses ∧
    (s.resolve rt var cid1 cid2).1.active_clauses.card ≤ s.active_clauses.card + 1 := by
  unfold resolve
  dsimp only
  cases resolve_dedup _ 0 [] with
  | none => exact ⟨Finset.Subset.refl _, Nat.le_succ _⟩
  | some nlits =>
    simp only [fold_add_literal_active]
    exact ⟨Finset.subset_insert _ _, Finset.card_insert_le _ _⟩

theorem resolve_inner_active (rt : Runtime) (var cid1 : Int) : ∀ (cids2 : List Int) (s : Cnf),
    s.active_clauses ⊆
      (cids2.foldl (fun s cid2 => (resolve rt s var cid1 cid2).1) s).active_clauses ∧
    (cids2.foldl (fun s cid2 => (resolve rt s var cid1 cid2).1) s).active_clauses.card ≤
      s.active_clauses.card + cids2.length := by
  intro cids2
  induction cids2 with
  | nil => intro s; exact ⟨Finset.Subset.refl _, Nat.le_refl _⟩
  | cons c rest ih =>
    intro s
    rw [List.foldl_cons]
    have h1 := resolve_active rt s var cid1 c
    have h2 := ih (s.resolve rt var cid1 c).1
    refine ⟨h1.1.trans h2.1, ?_⟩
    rw [List.length_cons]
    omega

theorem resolve_outer_active (rt : Runtime) (var : Int) (cids2 : List Int) :
    ∀ (cids1 : List Int) (s : Cnf),
    s.active_clauses ⊆ (cids1.foldl (fun s cid1 =>
      cids2.foldl (fun s cid2 => (resolve rt s var cid1 cid2).1) s) s).active_clauses ∧
    (cids1.foldl (fun s cid1 =>
      cids2.foldl (fun s cid2 => (resolve rt s var cid1 cid2).1) s) s).active_clauses.card ≤
      s.active_clauses.card + cids1.length * cids2.length := by
  intro cids1
  induction cids1 with
  | nil => intro s; exact ⟨Finset.Subset.refl _, by simp⟩
  | cons c rest ih =>
    intro s
    rw [List.foldl_cons]
    have h1 := resolve_inner_active rt var c cids2 s
    have h2 := ih (cids2.foldl (fun s cid2 => (resolve rt s var c cid2).1) s)
    refine ⟨h1.1.trans h2.1, ?_⟩
    rw [List.length_cons, Nat.succ_mul]
    omega

theorem deactivate_clauses_active : ∀ (remove : List Int) (s : Cnf),
    (s.deactivate_clauses remove).active_clauses = s.active_clauses \ remove.toFinset := by
  intro remove
  induction remove with
  | nil => intro s; simp [deactivate_clauses]
  | cons c rest ih =>
    intro s
    have h := ih (s.deactivate_clause c)
    unfold deactivate_clauses at h ⊢
    rw [List.foldl_cons, h]
    have : (s.deactivate_clause c).active_clauses = s.active_clauses.erase c := rfl
    rw [this]
    ext x
    simp only [Finset.mem_sdiff, Finset.mem_erase, List.toFinset_cons, Finset.mem_insert,
      List.mem_toFinset]
    tauto

theorem assign_literal_fields (s : Cnf) (lit : Int) (bcp : Bool) :
    (s.assign_literal lit bcp).active_clauses = s.active_clauses ∧
    (s.assign_literal lit bcp).literal_clauses = s.literal_clauses ∧
    (s.assign_literal lit bcp).clauses = s.clauses := by
  unfold assign_literal trigger_conflict
  dsimp only
  split_ifs <;> exact ⟨rfl, rfl, rfl⟩

theorem ascList_toFinset {α : Type} [LinearOrder α] (s : Finset α) :
    (ascList s).toFinset = s := by
  ext x
  simp

/-- The number of active clauses after one elimination, when the clauses indexed under
the two literals of the variable are active and no clause is indexed under both. -/
theorem bve_step_card (rt : Runtime) (w : Walk) (fuel : Nat) (hw : w.ok) (preprocess : Bool)
    (s : Cnf) (var lit : Int) (degree : Nat) (hlit : lit = var ∨ lit = -var)
    (hact : ∀ cid ∈ s.literal_clauses var ∪ s.literal_clauses (-var), cid ∈ s.active_clauses)
    (hdis : Disjoint (s.literal_clauses var) (s.literal_clauses (-var))) :
    ((bve_step rt w fuel preprocess s var lit degree).active_clauses.card : Int) ≤
      s.active_clauses.card +
        (((s.literal_clauses var).card : Int) * (s.literal_clauses (-var)).card -
          (((s.literal_clauses var).card : Int) + (s.literal_clauses (-var)).card)) := by
  have hact1 : ∀ cid ∈ s.literal_clauses lit ∪ s.literal_clauses (-lit),
      cid ∈ s.active_clauses := by
    rcases hlit with h | h
    · rw [h]; exact hact
    · rw [h, neg_neg, Finset.union_comm]; exact hact
  have hdis1 : Disjoint (s.literal_clauses lit) (s.literal_clauses (-lit)) := by
    rcases hlit with h | h
    · rw [h]; exact hdis
    · rw [h, neg_neg]; exact hdis.symm
  have hprod : ((s.literal_clauses var).card : Int) * (s.literal_clauses (-var)).card -
      (((s.literal_clauses var).card : Int) + (s.literal_clauses (-var)).card) =
      ((s.literal_clauses lit).card : Int) * (s.literal_clauses (-lit)).card -
      (((s.literal_clauses lit).card : Int) + (s.literal_clauses (-lit)).card) := by
    rcases hlit with h | h
    · rw [h]
    · rw [h, neg_neg]; ring
  rw [hprod]
  have hs1i : (if preprocess then s.set_variable_type var VAR_ELIM else s).literal_clauses =
      s.literal_clauses := by split_ifs <;> rfl
  have hs1a : (if preprocess then s.set_variable_type var VAR_ELIM else s).active_clauses =
      s.active_clauses := by split_ifs <;> rfl
  unfold bve_step
  dsimp only
  generalize (if preprocess then s.set_variable_type var VAR_ELIM else s) = s1 at hs1i hs1a
  rw [hs1i]
  have hres := resolve_outer_active rt var (w.order [fuel, 2] (s.literal_clauses (-lit)))
    (w.order [fuel, 1] (s.literal_clauses lit)) s1
  rw [hs1a, hw.length, hw.length] at hres
  generalize (w.order [fuel, 1] (s.literal_clauses lit)).foldl (fun t cid1 =>
    (w.order [fuel, 2] (s.literal_clauses (-lit))).foldl
      (fun t cid2 => (resolve rt t var cid1 cid2).1) t) s1 = s2 at hres ⊢
  have hd := deactivate_clauses_active
    (w.order [fuel, 1] (s.literal_clauses lit) ++ w.order [fuel, 2] (s.literal_clauses (-lit))) s2
  rw [List.toFinset_append, hw.toFinset, hw.toFinset] at hd
  have hsub : s.literal_clauses lit ∪ s.literal_clauses (-lit) ⊆ s2.active_clauses :=
    fun c hc => hres.1 (hact1 c hc)
  have hcard : (s2.active_clauses \ (s.literal_clauses lit ∪ s.literal_clauses (-lit))).card =
      s2.active_clauses.card -
        ((s.literal_clauses lit).card + (s.literal_clauses (-lit)).card) := by
    rw [Finset.card_sdiff hsub, Finset.card_union_of_disjoint hdis1]
  have hle : (s.literal_clauses lit).card + (s.literal_clauses (-lit)).card ≤
      s2.active_clauses.card := by
    rw [← Finset.card_union_of_disjoint hdis1]
    exact Finset.card_le_card hsub
  have hfin : ((s2.deactivate_clauses (w.order [fuel, 1] (s.literal_clauses lit) ++
      w.order [fuel, 2] (s.literal_clauses (-lit)))).active_clauses.card : Int) ≤
      s.active_clauses.card + (((s.literal_clauses lit).card : Int) *
        (s.literal_clauses (-lit)).card -
        (((s.literal_clauses lit).card : Int) + (s.literal_clauses (-lit)).card)) := by
    rw [hd, hcard]
    have h2 := hres.2
    have h3 : ((s2.active_clauses.card : Nat) : Int) ≤
        (s.active_clauses.card : Int) +
          ((s.literal_clauses lit).card : Int) * (s.literal_clauses (-lit)).card := by
      exact_mod_cast h2
    rw [Nat.cast_sub hle]
    push_cast
    linarith
  split_ifs
  · rw [(assign_literal_fields _ _ _).1]; exact hfin
  · exact hfin

/-- The guard and the growth bound of one round of the loop of `bve` with `max_degree`
`d`, in every state and for every walk: when the selected variable `v` has
`occ(v) * occ(-v) - (occ(v) + occ(-v))` above `d*d - 2*d`, with `occ` the size of the
literal index at that moment, the round changes neither the state nor the set of
eliminated variables; otherwise it eliminates `v`, and when the clauses indexed under `v`
and `-v` are active and none is indexed under both (no clause holds `v` and `-v`), the
number of active clauses grows by at most `d*d - 2*d`. -/
theorem bve_elimination_bound (rt : Runtime) (w : Walk) (hw : w.ok) (preprocess : Bool)
    (d fuel : Nat) (s : Cnf)
    (dv dv1 : Nat → Finset Int) (eliminated : Finset Int) (var lit : Int) (degree : Nat)
    (hsel : bve_select ((w.sub fuel).sub 0) s eliminated (d + 1) 0 dv =
      (dv1, some (var, lit, degree))) :
    (((s.literal_clauses var).card : Int) * (s.literal_clauses (-var)).card -
        (((s.literal_clauses var).card : Int) + (s.literal_clauses (-var)).card) >
        (d : Int) * d - 2 * d →
      bve_loop rt w preprocess d (fuel + 1) s dv eliminated =
        bve_loop rt w preprocess d fuel s dv1 eliminated) ∧
    (((s.literal_clauses var).card : Int) * (s.literal_clauses (-var)).card -
        (((s.literal_clauses var).card : Int) + (s.literal_clauses (-var)).card) ≤
        (d : Int) * d - 2 * d →
      (∃ dv2, bve_loop rt w preprocess d (fuel + 1) s dv eliminated =
        bve_loop rt w preprocess d fuel (bve_step rt w fuel preprocess s var lit degree) dv2
          (insert var eliminated)) ∧
      ((∀ cid ∈ s.literal_clauses var ∪ s.literal_clauses (-var), cid ∈ s.active_clauses) →
        Disjoint (s.literal_clauses var) (s.literal_clauses (-var)) →
        ((bve_step rt w fuel preprocess s var lit degree).active_clauses.card : Int) ≤
          s.active_clauses.card + ((d : Int) * d - 2 * d))) := by
  have hr := bve_loop_round rt w preprocess d fuel s dv dv1 eliminated var lit degree hsel
  refine ⟨hr.1, fun hle => ⟨hr.2 (not_lt.2 hle), fun hact hdis => ?_⟩⟩
  have := bve_step_card rt w fuel hw preprocess s var lit degree
    (bve_select_lit _ s eliminated _ _ _ _ _ _ _ hsel) hact hdis
  linarith

end Cnf

namespace Cnf

theorem deactivate_clauses_clauses : ∀ (remove : List Int) (s : Cnf),
    (s.deactivate_clauses remove).clauses = s.clauses := by
  intro remove
  induction remove with
  | nil => intro s; rfl
  | cons c rest ih =>
    intro s
    have h := ih (s.deactivate_clause c)
    unfold deactivate_clauses at h ⊢
    rw [List.foldl_cons, h]
    rfl

theorem index_exact_deactivate_clauses : ∀ (remove : List Int) {s : Cnf}, s.index_exact →
    (s.deactivate_clauses remove).index_exact := by
  intro remove
  induction remove with
  | nil => intro s h; exact h
  | cons c rest ih =>
    intro s h
    have := ih (index_exact_deactivate h c)
    unfold deactivate_clauses at this ⊢
    rw [List.foldl_cons]
    exact this

theorem index_exact_of_fields {a b : Cnf} (h1 : a.literal_clauses = b.literal_clauses)
    (h2 : a.active_clauses = b.active_clauses) (h3 : a.clauses = b.clauses)
    (hb : b.index_exact) : a.index_exact := by
  intro l c
  rw [h1, h2, clause_congr h3]
  exact hb l c

/-- The loop of `bve` with `max_degree` zero: the clause list is unchanged, and when the
index is exact no active clause holds an eliminated variable. -/
theorem bve_loop_zero (rt : Runtime) (w : Walk) (hw : w.ok) (preprocess : Bool) : ∀ (fuel : Nat) (s : Cnf)
    (dv : Nat → Finset Int) (el : Finset Int),
    (bve_loop rt w preprocess 0 fuel s dv el).1.clauses = s.clauses ∧
    (s.index_exact →
      (∀ v ∈ el, ∀ cid ∈ s.active_clauses, ∀ l ∈ s.clause cid, IABS l ≠ v) →
      ∀ v ∈ (bve_loop rt w preprocess 0 fuel s dv el).2,
        ∀ cid ∈ (bve_loop rt w preprocess 0 fuel s dv el).1.active_clauses,
        ∀ l ∈ (bve_loop rt w preprocess 0 fuel s dv el).1.clause cid, IABS l ≠ v) := by
  intro fuel
  induction fuel with
  | zero => intro s dv el; exact ⟨rfl, fun _ h => h⟩
  | succ fuel ih =>
    intro s dv el
    unfold bve_loop
    rcases hsel : bve_select ((w.sub fuel).sub 0) s el (0 + 1) 0 dv with ⟨dv1, _ | ⟨var, lit, degree⟩⟩
    · exact ⟨rfl, fun _ h => h⟩
    · obtain ⟨hidx, hdeg⟩ := bve_select_zero _ s el dv dv1 var lit degree hsel
      have hlit := bve_select_lit _ s el _ _ _ _ _ _ _ hsel
      dsimp only
      have hs1i : (if preprocess then s.set_variable_type var VAR_ELIM else s).literal_clauses
          = s.literal_clauses := by split_ifs <;> rfl
      have hs1a : (if preprocess then s.set_variable_type var VAR_ELIM else s).active_clauses
          = s.active_clauses := by split_ifs <;> rfl
      have hs1c : (if preprocess then s.set_variable_type var VAR_ELIM else s).clauses
          = s.clauses := by split_ifs <;> rfl
      have hc1 : w.order [fuel, 1] ((if preprocess then s.set_variable_type var VAR_ELIM
          else s).literal_clauses lit) = [] := by
        rw [hs1i, hidx]; exact hw.empty _
      generalize hs1 : (if preprocess then s.set_variable_type var VAR_ELIM else s) = s1
        at hs1i hs1a hs1c hc1
      simp only [hc1, List.foldl_nil, List.nil_append]
      -- the state after the deactivation
      have h3c : (s1.deactivate_clauses (w.order [fuel, 2] (s1.literal_clauses (-lit)))).clauses =
          s.clauses := by rw [deactivate_clauses_clauses, hs1c]
      have h3a : (s1.deactivate_clauses (w.order [fuel, 2] (s1.literal_clauses (-lit)))).active_clauses =
          s.active_clauses \ s.literal_clauses (-lit) := by
        rw [deactivate_clauses_active, hw.toFinset, hs1a, hs1i]
      have h3e : s.index_exact →
          (s1.deactivate_clauses (w.order [fuel, 2] (s1.literal_clauses (-lit)))).index_exact :=
        fun h => index_exact_deactivate_clauses _ (index_exact_of_fields hs1i hs1a hs1c h)
      have helim : ∀ (t : Cnf), t.clauses = s.clauses →
          t.active_clauses = s.active_clauses \ s.literal_clauses (-lit) → s.index_exact →
          (∀ v ∈ el, ∀ cid ∈ s.active_clauses, ∀ l ∈ s.clause cid, IABS l ≠ v) →
          ∀ v ∈ insert var el, ∀ cid ∈ t.active_clauses, ∀ l ∈ t.clause cid, IABS l ≠ v := by
        intro t htc hta hex hel v hv cid hcid l hl
        rw [hta, Finset.mem_sdiff] at hcid
        rw [clause_congr htc] at hl
        rcases Finset.mem_insert.1 hv with hv | hv
        · intro habs
          have hvar : l = var ∨ l = -var := by
            apply IABS_eq_cases
            rw [habs, hv]
            have := IABS_nonneg l
            rw [habs, hv] at this
            exact (IABS_of_nonneg this).symm
          have hl2 : l = lit ∨ l = -lit := by
            rcases hvar with h | h <;> rcases hlit with h' | h'
            · left; rw [h, h']
            · right; rw [h, h', neg_neg]
            · right; rw [h, h']
            · left; rw [h, h']
          have hmem := (hex l cid).2 ⟨hcid.1, hl⟩
          rcases hl2 with h | h
          · rw [h, hidx] at hmem
            simp at hmem
          · rw [h] at hmem
            exact hcid.2 hmem
        · exact hel v hv cid hcid.1 l hl
      split_ifs with hskip h4
      · exact ih s dv1 el
      · have ha := assign_literal_fields
          (s1.deactivate_clauses (w.order [fuel, 2] (s1.literal_clauses (-lit)))) (-lit) true
        obtain ⟨i1, i2⟩ := ih ((s1.deactivate_clauses
          (w.order [fuel, 2] (s1.literal_clauses (-lit)))).assign_literal (-lit) true)
          (List.foldl (fun dv ovar =>
            if bve_degree (s1.deactivate_clauses (w.order [fuel, 2] (s1.literal_clauses (-lit)))) ovar ≤ 0
            then Function.update dv
              (bve_degree (s1.deactivate_clauses (w.order [fuel, 2] (s1.literal_clauses (-lit)))) ovar)
              (insert ovar (dv (bve_degree
                (s1.deactivate_clauses (w.order [fuel, 2] (s1.literal_clauses (-lit)))) ovar)))
            else dv) dv1
            (w.order [fuel, 3] (bve_change s1 (-lit) (w.order [fuel, 2] (s1.literal_clauses (-lit)))
              (bve_change s1 lit [] ∅)))) (insert var el)
        refine ⟨i1.trans (ha.2.2.trans h3c), fun hex hel => ?_⟩
        exact i2 (index_exact_of_fields ha.2.1 ha.1 ha.2.2 (h3e hex))
          (helim _ (ha.2.2.trans h3c) (ha.1.trans h3a) hex hel)
      · obtain ⟨i1, i2⟩ := ih (s1.deactivate_clauses (w.order [fuel, 2] (s1.literal_clauses (-lit))))
          (List.foldl (fun dv ovar =>
            if bve_degree (s1.deactivate_clauses (w.order [fuel, 2] (s1.literal_clauses (-lit)))) ovar ≤ 0
            then Function.update dv
              (bve_degree (s1.deactivate_clauses (w.order [fuel, 2] (s1.literal_clauses (-lit)))) ovar)
              (insert ovar (dv (bve_degree
                (s1.deactivate_clauses (w.order [fuel, 2] (s1.literal_clauses (-lit)))) ovar)))
            else dv) dv1
            (w.order [fuel, 3] (bve_change s1 (-lit) (w.order [fuel, 2] (s1.literal_clauses (-lit)))
              (bve_change s1 lit [] ∅)))) (insert var el)
        refine ⟨i1.trans h3c, fun hex hel => ?_⟩
        exact i2 (h3e hex) (helim _ h3c h3a hex hel)

/-- C36. For every state and every order in which the unordered sets are walked, `bve`
with `max_degree` zero leaves the clause list, and with it the maximum clause id,
unchanged; the variable that a round of its loop selects has no indexed clause for one of
its two literals; and when the literal index is exact at the call, no active clause after
the call holds a literal of an eliminated variable. -/
theorem bve_pure_literal (rt : Runtime) (w : Walk) (hw : w.ok) (preprocess : Bool) (s : Cnf) :
    ((s.bve rt w preprocess 0).1.clauses = s.clauses ∧
      (s.bve rt w preprocess 0).1.maximum_clause_id = s.maximum_clause_id) ∧
    (∀ (t : Cnf) (el : Finset Int) (dv dv1 : Nat → Finset Int) (var lit : Int) (degree : Nat)
      (fuel : Nat),
      bve_select ((w.sub fuel).sub 0) t el (0 + 1) 0 dv = (dv1, some (var, lit, degree)) →
      (t.literal_clauses var).card = 0 ∨ (t.literal_clauses (-var)).card = 0) ∧
    (s.index_exact → ∀ v ∈ s.bve_eliminated rt w preprocess 0,
      ∀ cid ∈ (s.bve rt w preprocess 0).1.active_clauses,
      ∀ l ∈ (s.bve rt w preprocess 0).1.clause cid, IABS l ≠ v) := by
  have h := bve_loop_zero rt w hw preprocess s.bve_fuel s (s.bve_buckets 0) ∅
  rw [bve_eq]
  refine ⟨⟨h.1, ?_⟩, ?_, ?_⟩
  · unfold maximum_clause_id
    show ((bve_loop rt w preprocess 0 s.bve_fuel s (s.bve_buckets 0) ∅).1.clauses.length : Int) = _
    rw [h.1]
  · intro t el dv dv1 var lit degree fuel hsel
    have h1 := (bve_select_zero _ t el dv dv1 var lit degree hsel).1
    rcases bve_select_lit _ t el _ _ _ _ _ _ _ hsel with h2 | h2
    · left; rw [← h2, h1]; rfl
    · right; rw [← h2, h1]; rfl
  · intro hex
    exact h.2 hex (fun v hv => by simp at hv)

/-- C36 (witness). The theorem `bve_pure_literal` at the clauses `(x3 ∨ x1)` and
`(x3 ∨ x2)` with the data variables 1 and 2, the sets being walked in descending order:
`x3` is eliminated as a pure literal, no clause is added, and no active clause holds `x3`
afterwards. -/
theorem bve_pure_literal_witness :
    (([3, 2].foldl add_literal ([3, 1].foldl add_literal
      ({ Cnf.init 3 with data_variables := {1, 2} } : Cnf).new_clause).new_clause).bve
      stdRuntime revWalk false 0).1.clauses = [[3, 1], [3, 2]] ∧
    ∀ cid ∈ (([3, 2].foldl add_literal ([3, 1].foldl add_literal
      ({ Cnf.init 3 with data_variables := {1, 2} } : Cnf).new_clause).new_clause).bve
      stdRuntime revWalk false 0).1.active_clauses,
    ∀ l ∈ (([3, 2].foldl add_literal ([3, 1].foldl add_literal
      ({ Cnf.init 3 with data_variables := {1, 2} } : Cnf).new_clause).new_clause).bve
      stdRuntime revWalk false 0).1.clause cid, IABS l ≠ 3 := by
  have h := bve_pure_literal stdRuntime revWalk revWalk_ok false ([3, 2].foldl add_literal
    ([3, 1].foldl
    add_literal ({ Cnf.init 3 with data_variables := {1, 2} } : Cnf).new_clause).new_clause)
  have hex := (index_reachable_inv (index_reachable.create [3, 2] (index_reachable.create [3, 1]
    (index_reachable.start ({ Cnf.init 3 with data_variables := {1, 2} } : Cnf)
      rfl rfl rfl rfl rfl rfl rfl)))).1.1
  exact ⟨h.1.1.trans (by decide), h.2.2 hex 3 (by decide)⟩

end Cnf

namespace Compiler

theorem builtin_kc_succ (rt : Runtime) (trim defer : Bool) (w : Walk) (fuel : Nat) (p : Pog)
    (cnf : Cnf) :
    builtin_kc rt trim defer w (fuel + 1) p cnf =
    if (cnf.check_simple_pkc (w.sub 0)).2 then
      some ((p.simple_kc rt (cnf.check_simple_pkc (w.sub 0)).1).1, cnf,
            (p.simple_kc rt (cnf.check_simple_pkc (w.sub 0)).1).2)
    else
      if cnf.find_split defer = 0 ∨ cnf.find_split defer > cnf.nvar then none
      else
        match builtin_kc rt trim defer (w.sub 3) fuel p
          ((((cnf.new_context).assign_literal (-cnf.find_split defer) false).bcp (w.sub 1)
            false).1.bve rt (w.sub 2) false 0).1 with
        | none => none
        | some (p0, c0', cedge0) =>
          match builtin_kc rt trim defer (w.sub 6) fuel
            (if cnf.is_data_variable (cnf.find_split defer) || !trim then
              Pog.build rt p0 POG_PRODUCT [-cnf.find_split defer, cedge0]
              else (p0, cedge0)).1
            (((((c0'.pop_context).new_context).assign_literal (cnf.find_split defer)
              false).bcp (w.sub 4) false).1.bve rt (w.sub 5) false 0).1 with
          | none => none
          | some (p1, c1', cedge1) =>
            some ((Pog.build rt
              (if cnf.is_data_variable (cnf.find_split defer) || !trim then
                Pog.build rt p1 POG_PRODUCT [cnf.find_split defer, cedge1]
                else (p1, cedge1)).1 POG_SUM
              [(if cnf.is_data_variable (cnf.find_split defer) || !trim then
                  Pog.build rt p0 POG_PRODUCT [-cnf.find_split defer, cedge0]
                  else (p0, cedge0)).2,
               (if cnf.is_data_variable (cnf.find_split defer) || !trim then
                  Pog.build rt p1 POG_PRODUCT [cnf.find_split defer, cedge1]
                  else (p1, cedge1)).2]).1, c1'.pop_context,
              (Pog.build rt
              (if cnf.is_data_variable (cnf.find_split defer) || !trim then
                Pog.build rt p1 POG_PRODUCT [cnf.find_split defer, cedge1]
                else (p1, cedge1)).1 POG_SUM
              [(if cnf.is_data_variable (cnf.find_split defer) || !trim then
                  Pog.build rt p0 POG_PRODUCT [-cnf.find_split defer, cedge0]
                  else (p0, cedge0)).2,
               (if cnf.is_data_variable (cnf.find_split defer) || !trim then
                  Pog.build rt p1 POG_PRODUCT [cnf.find_split defer, cedge1]
                  else (p1, cedge1)).2]).2) := rfl

/-- One branch of `builtin_kc`: after `new_context`, the assertion of a literal, `bcp`
and `bve` with `max_degree` zero, the state is consistent and its `pop_context` gives
the state before the branch. -/
theorem branch_undoable (rt : Runtime) {w1 w2 : Walk} (hw1 : w1.ok) (hw2 : w2.ok) {cnf : Cnf}
    (h : cnf.consistent) (lit : Int) :
    ((((cnf.new_context).assign_literal lit false).bcp w1 false).1.bve rt w2 false
      0).1.consistent ∧
    ((((cnf.new_context).assign_literal lit false).bcp w1 false).1.bve rt w2 false
      0).1.pop_context.below cnf := by
  have hu := Cnf.in_context_undoable rt
    (Cnf.in_context.bve w2 false (Cnf.in_context.bcp w1 false (Cnf.in_context.assign lit false
      (Cnf.in_context.refl cnf.new_context)) hw1) hw2) (Cnf.consistent_new_context h)
  have := hu.2.2
  rw [Cnf.pop_context_new_context] at this
  exact ⟨hu.1, this⟩

/-- The state that `builtin_kc` returns is the state at entry, except for the variable
types and a conflict flag that may be cleared. -/
theorem builtin_kc_below (rt : Runtime) (trim defer : Bool) : ∀ (fuel : Nat) (w : Walk)
    (p : Pog) (cnf : Cnf) (r : Pog × Cnf × Int), w.ok →
    builtin_kc rt trim defer w fuel p cnf = some r →
    cnf.consistent → r.2.1.below cnf := by
  intro fuel
  induction fuel with
  | zero => intro w p cnf r _ h; cases h
  | succ fuel ih =>
    intro w p cnf r hw h hc
    rw [builtin_kc_succ] at h
    by_cases hpkc : (cnf.check_simple_pkc (w.sub 0)).2 = true
    · rw [if_pos hpkc] at h
      rw [← Option.some.inj h]
      exact Cnf.below_refl cnf
    · rw [if_neg hpkc] at h
      by_cases hsv : cnf.find_split defer = 0 ∨ cnf.find_split defer > cnf.nvar
      · rw [if_pos hsv] at h; cases h
      · rw [if_neg hsv] at h
        obtain ⟨hc0, hb0⟩ := branch_undoable rt (hw.sub 1) (hw.sub 2) hc (-cnf.find_split defer)
        cases h0 : builtin_kc rt trim defer (w.sub 3) fuel p
            ((((cnf.new_context).assign_literal (-cnf.find_split defer) false).bcp (w.sub 1)
              false).1.bve rt (w.sub 2) false 0).1 with
        | none => rw [h0] at h; cases h
        | some r0 =>
          obtain ⟨p0, c0', cedge0⟩ := r0
          rw [h0] at h
          simp only [] at h
          have hb1 : c0'.pop_context.below cnf :=
            Cnf.below_trans (Cnf.below_pop_context (ih _ _ _ _ (hw.sub 3) h0 hc0)) hb0
          have hc1 := Cnf.consistent_of_below hb1 hc
          obtain ⟨hc2, hb2⟩ := branch_undoable rt (hw.sub 4) (hw.sub 5) hc1 (cnf.find_split defer)
          cases h1 : builtin_kc rt trim defer (w.sub 6) fuel
              (if cnf.is_data_variable (cnf.find_split defer) || !trim then
                Pog.build rt p0 POG_PRODUCT [-cnf.find_split defer, cedge0]
                else (p0, cedge0)).1
              (((((c0'.pop_context).new_context).assign_literal (cnf.find_split defer)
                false).bcp (w.sub 4) false).1.bve rt (w.sub 5) false 0).1 with
          | none => rw [h1] at h; cases h
          | some r1 =>
            obtain ⟨p1, c1', cedge1⟩ := r1
            rw [h1] at h
            simp only [] at h
            rw [← Option.some.inj h]
            exact Cnf.below_trans
              (Cnf.below_trans (Cnf.below_pop_context (ih _ _ _ _ (hw.sub 6) h1 hc2)) hb2) hb1

/-- C38 (counterexample). The clauses `(x2 ∨ x1)` and `(-x2 ∨ x3)` without data
variables, in a state whose conflict flag is set: inside the branch that asserts `x2`,
`bve` asserts the pure literal `-x2` and triggers a second conflict, and the
`pop_context` of the branch clears the flag. This is so when the unordered sets are
walked in ascending order and when they are walked in descending order. -/
theorem builtin_kc_conflict_counterexample :
    ([-2, 3].foldl Cnf.add_literal ([2, 1].foldl Cnf.add_literal
      (Cnf.init 3).new_clause).new_clause).trigger_conflict.has_conflict = true ∧
    (builtin_kc stdRuntime true false stdWalk 4 (Pog.init 3 ∅ ∅)
      ([-2, 3].foldl Cnf.add_literal ([2, 1].foldl Cnf.add_literal
        (Cnf.init 3).new_clause).new_clause).trigger_conflict).map
      (fun r => r.2.1.has_conflict) = some false ∧
    (builtin_kc stdRuntime true false revWalk 4 (Pog.init 3 ∅ ∅)
      ([-2, 3].foldl Cnf.add_literal ([2, 1].foldl Cnf.add_literal
        (Cnf.init 3).new_clause).new_clause).trigger_conflict).map
      (fun r => r.2.1.has_conflict) = some false := by
  decide!

/-- C38 (amended). For every state whose literal index is exact and whose BCP unit
literals are unit literals, both values of `trim`, every recursion bound and every order
in which `bcp`, `bve` and `check_simple_pkc` walk their unordered sets: when
`builtin_kc` returns, the state's `unit_literals`, `bcp_unit_literals`,
`active_clauses`, literal index and action stack are those at entry, and so is the
conflict flag when it was not set at entry. -/
theorem builtin_kc_restores (rt : Runtime) (trim defer : Bool) (w : Walk) (hw : w.ok)
    (fuel : Nat) (p : Pog)
    (cnf : Cnf) (h1 : cnf.index_exact) (h2 : cnf.bcp_unit_literals ⊆ cnf.unit_literals)
    (r : Pog × Cnf × Int) (hrun : builtin_kc rt trim defer w fuel p cnf = some r) :
    r.2.1.unit_literals = cnf.unit_literals ∧
    r.2.1.bcp_unit_literals = cnf.bcp_unit_literals ∧
    r.2.1.active_clauses = cnf.active_clauses ∧
    r.2.1.literal_clauses = cnf.literal_clauses ∧
    r.2.1.action_stack = cnf.action_stack ∧
    r.2.1.action_stack.length = cnf.action_stack.length ∧
    (cnf.has_conflict = false → r.2.1.has_conflict = false) := by
  obtain ⟨_, _, a3, a4, a5, _, a7, a8, a9, _, _, _, _⟩ :=
    builtin_kc_below rt trim defer fuel w p cnf r hw hrun ⟨h1, h2⟩
  refine ⟨a8, a9, a7, a3, a5, by rw [a5], ?_⟩
  intro hc
  cases hp : r.2.1.has_conflict
  · rfl
  · rw [a4 hp] at hc; cases hc

/-- C38 (witness). The theorem `builtin_kc_restores` at the clauses `(x3 ∨ x1)` and
`(-x3 ∨ x2)` with the data variables 1 and 2, the unordered sets being walked in
descending order: `builtin_kc` returns, and the active clauses are those at entry. -/
theorem builtin_kc_restores_witness :
    ∃ r, builtin_kc stdRuntime true false revWalk 4 (Pog.init 3 {1, 2} ∅)
      ([-3, 2].foldl Cnf.add_literal ([3, 1].foldl Cnf.add_literal
        ({ Cnf.init 3 with data_variables := {1, 2} } : Cnf).new_clause).new_clause) = some r ∧
      r.2.1.active_clauses = {1, 2} ∧ r.2.1.has_conflict = false := by
  have hsome : (builtin_kc stdRuntime true false revWalk 4 (Pog.init 3 {1, 2} ∅)
      ([-3, 2].foldl Cnf.add_literal ([3, 1].foldl Cnf.add_literal
        ({ Cnf.init 3 with data_variables := {1, 2} } : Cnf).new_clause).new_clause)).isSome =
      true := by decide!
  obtain ⟨r, hr⟩ := Option.isSome_iff_exists.1 hsome
  have hex := (Cnf.index_reachable_inv (Cnf.index_reachable.create [-3, 2]
    (Cnf.index_reachable.create [3, 1]
      (Cnf.index_reachable.start ({ Cnf.init 3 with data_variables := {1, 2} } : Cnf)
        rfl rfl rfl rfl rfl rfl rfl)))).1.1
  have h := builtin_kc_restores stdRuntime true false revWalk revWalk_ok 4 _ _ hex (by decide)
    r hr
  exact ⟨r, hr, h.2.2.1.trans (by decide), h.2.2.2.2.2.2 (by decide)⟩

end Compiler

namespace Project

theorem sound_extend {rt : Runtime} {pr : Project} (hg : sound rt pr) {q : Pog}
    (hext : pr.pog.Extends q) (hwf : q.WF rt) : sound rt { pr with pog := q } := by
  refine ⟨hwf, ?_⟩
  intro k v hkv
  obtain ⟨c3, c4⟩ := hg.2 k v hkv
  exact ⟨hext.edge_ok c3, data_edge_extends hext c3 c4⟩

theorem run_refl (rt : Runtime) (pr : Project) (e : Int) (es : List Int)
    (h : sound rt pr → pr.pog.edge_ok e → ∀ a ∈ es, pr.pog.edge_ok a ∧ data_edge pr.pog a) :
    run rt pr e pr es :=
  ⟨⟨rfl, le_rfl, rfl⟩, fun hg he _ => ⟨hg, Pog.Extends.refl _, h hg he⟩⟩

theorem run_weaken {rt : Runtime} {pr : Project} {e : Int} {pr1 : Project} {es es1 : List Int}
    (h : run rt pr e pr1 es) (hsub : ∀ a ∈ es1, a ∈ es) : run rt pr e pr1 es1 :=
  ⟨h.1, fun hg he hr => ⟨(h.2 hg he hr).1, (h.2 hg he hr).2.1,
    fun a ha => (h.2 hg he hr).2.2 a (hsub a ha)⟩⟩

/-- A run continued by the traversal of a further edge. -/
theorem run_step {rt : Runtime} {pr : Project} {e : Int} {pr1 : Project} {es : List Int}
    (h : run rt pr e pr1 es) {e2 : Int} {pr2 : Project} {r : Int}
    (he2 : sound rt pr → pr.pog.edge_ok e →
      (pr1.pog.nvar : Int) + pr1.pog.nodes.length + 1 < MAX_VARIABLE → pr1.pog.edge_ok e2)
    (hs : run rt pr1 e2 pr2 [r]) : run rt pr e pr2 (r :: es) := by
  obtain ⟨⟨a1, a2, a3⟩, hc⟩ := h
  obtain ⟨⟨b1, b2, b3⟩, hd⟩ := hs
  refine ⟨⟨b1.trans a1, le_trans a2 b2, b3.trans a3⟩, ?_⟩
  intro hg he hr
  have hr1 : (pr1.pog.nvar : Int) + pr1.pog.nodes.length + 1 < MAX_VARIABLE := by
    rw [← b1]; omega
  obtain ⟨g1, x1, f1⟩ := hc hg he hr1
  obtain ⟨g2, x2, f2⟩ := hd g1 (he2 hg he hr1) hr
  refine ⟨g2, x1.trans x2, ?_⟩
  intro a ha
  rcases List.mem_cons.1 ha with ha | ha
  · rw [ha]; exact f2 r (List.mem_singleton_self _)
  · exact ⟨x2.edge_ok (f1 a ha).1, data_edge_extends x2 (f1 a ha).1 (f1 a ha).2⟩

/-- A run continued by a use of the builder on edges obtained so far, on their
negations, or on constants. -/
theorem run_build {rt : Runtime} (hs : rt.sort_ok) {pr : Project} {e : Int} {pr1 : Project}
    {es : List Int} (h : run rt pr e pr1 es) (t : pog_type_t)
    (ht : t = POG_PRODUCT ∨ t = POG_SUM) (args : List Int)
    (hargs : ∀ a ∈ args, a ∈ es ∨ -a ∈ es) :
    run rt pr e { pr1 with pog := (Pog.build rt pr1.pog t args).1 }
      ((Pog.build rt pr1.pog t args).2 :: es) := by
  obtain ⟨⟨a1, a2, a3⟩, hc⟩ := h
  have hfr := Pog.build_frame rt pr1.pog t args
  refine ⟨⟨hfr.2.trans a1, ?_, a3⟩, ?_⟩
  · show pr.pog.nodes.length ≤ (Pog.build rt pr1.pog t args).1.nodes.length
    rcases hfr.1 with h | h <;> omega
  · intro hg he hr
    have hr' : ((Pog.build rt pr1.pog t args).1.nvar : Int) +
        (Pog.build rt pr1.pog t args).1.nodes.length + 1 < MAX_VARIABLE := hr
    have hr1 : (pr1.pog.nvar : Int) + pr1.pog.nodes.length + 1 < MAX_VARIABLE := by
      rw [hfr.2] at hr'
      rcases hfr.1 with h | h <;> omega
    obtain ⟨g1, x1, f1⟩ := hc hg he hr1
    have hok : ∀ a ∈ args, pr1.pog.edge_ok a ∧ data_edge pr1.pog a := by
      intro a ha
      rcases hargs a ha with h | h
      · exact f1 a h
      · have := f1 (-a) h
        have e1 := Pog.edge_ok_neg this.1
        have e2 := data_edge_neg this.2
        rw [neg_neg] at e1 e2
        exact ⟨e1, e2⟩
    obtain ⟨w1, w2, _⟩ := Pog.build_spec rt hs g1.1 t ht args (fun a ha => (hok a ha).1) hr1
    have x2 := Pog.build_extends rt hs g1.1 t ht args (fun a ha => (hok a ha).1) hr1
    refine ⟨sound_extend g1 x2 w1, x1.trans x2, ?_⟩
    intro a ha
    rcases List.mem_cons.1 ha with ha | ha
    · rw [ha]; exact ⟨w2, build_data_edge rt hs g1.1 t ht args hok hr1⟩
    · exact ⟨x2.edge_ok (f1 a ha).1, data_edge_extends x2 (f1 a ha).1 (f1 a ha).2⟩

/-- A run continued by a call of the compile oracle. -/
theorem run_compile {rt : Runtime} {orc : Oracles} (horc : compile_ok rt orc) {pr : Project}
    {e : Int} {pr1 : Project} {es : List Int} (h : run rt pr e pr1 es) (cnf : Cnf)
    (trim defer : Bool) :
    run rt pr e { pr1 with pog := (orc.compile pr1.pog cnf trim defer).1 } es ∧
    (sound rt pr → pr.pog.edge_ok e →
      (((orc.compile pr1.pog cnf trim defer).1.nvar : Int) +
        (orc.compile pr1.pog cnf trim defer).1.nodes.length + 1 < MAX_VARIABLE) →
      (orc.compile pr1.pog cnf trim defer).1.edge_ok (orc.compile pr1.pog cnf trim defer).2) := by
  obtain ⟨⟨a1, a2, a3⟩, hc⟩ := h
  obtain ⟨x2, hw⟩ := horc pr1.pog cnf trim defer
  have hlen := x2.length_le
  have key : sound rt pr → pr.pog.edge_ok e →
      (((orc.compile pr1.pog cnf trim defer).1.nvar : Int) +
        (orc.compile pr1.pog cnf trim defer).1.nodes.length + 1 < MAX_VARIABLE) →
      (sound rt pr1 ∧ pr.pog.Extends pr1.pog ∧
        ∀ a ∈ es, pr1.pog.edge_ok a ∧ data_edge pr1.pog a) ∧
      (orc.compile pr1.pog cnf trim defer).1.WF rt ∧
      (orc.compile pr1.pog cnf trim defer).1.edge_ok (orc.compile pr1.pog cnf trim defer).2 := by
    intro hg he hr
    have hr1 : (pr1.pog.nvar : Int) + pr1.pog.nodes.length + 1 < MAX_VARIABLE := by
      rw [x2.1] at hr; omega
    have c := hc hg he hr1
    exact ⟨c, hw c.1.1 (by omega)⟩
  refine ⟨⟨⟨x2.1.trans a1, le_trans a2 hlen, a3⟩, ?_⟩, fun hg he hr => (key hg he hr).2.2⟩
  intro hg he hr
  obtain ⟨⟨g1, x1, f1⟩, w1, _⟩ := key hg he hr
  exact ⟨sound_extend g1 x2 w1, x1.trans x2,
    fun a ha => ⟨x2.edge_ok (f1 a ha).1, data_edge_extends x2 (f1 a ha).1 (f1 a ha).2⟩⟩

/-- A run continued by an entry in the result cache for the edge it started from. -/
theorem run_cache {rt : Runtime} {pr : Project} {e : Int} {pr1 : Project} {r : Int}
    (h : run rt pr e pr1 [r]) :
    run rt pr e { pr1 with result_cache := Function.update pr1.result_cache e (some r) } [r] := by
  obtain ⟨hm, hc⟩ := h
  refine ⟨hm, ?_⟩
  intro hg he hr
  obtain ⟨g1, x1, f1⟩ := hc hg he hr
  refine ⟨⟨g1.1, ?_⟩, x1, f1⟩
  intro k v hkv
  by_cases hk : k = e
  · subst hk
    have hv : v = r := by
      have : (Function.update pr1.result_cache k (some r)) k = some v := hkv
      rw [Function.update_same] at this
      exact (Option.some.inj this).symm
    subst hv
    have f := f1 v (List.mem_singleton_self _)
    exact ⟨f.1, f.2⟩
  · have : pr1.result_cache k = some v := by
      have h2 : (Function.update pr1.result_cache e (some r)) k = some v := hkv
      rw [Function.update_noteq hk] at h2
      exact h2
    exact g1.2 k v this

/-- The loop of `traverse_product` over the arguments, for any step function that acts
as the loop body does. -/
theorem product_fold_run {rt : Runtime} (trav : Project → Int → Option (Project × Int))
    (htrav : ∀ pr e pr1 r, trav pr e = some (pr1, r) → run rt pr e pr1 [r])
    (F : Option (Project × List Int) → Int → Option (Project × List Int))
    (hF0 : ∀ a, F none a = none)
    (hF1 : ∀ pr nc a, trav pr a = none → F (some (pr, nc)) a = none)
    (hF2 : ∀ pr nc a pr2 n, trav pr a = some (pr2, n) →
      F (some (pr, nc)) a = some (pr2, nc ++ [n]))
    (pr : Project) (e : Int) :
    ∀ (args : List Int) (pr0 : Project) (nc0 : List Int) (prN : Project) (ncN : List Int),
      run rt pr e pr0 nc0 →
      (sound rt pr → pr.pog.edge_ok e → ∀ a ∈ args, pr.pog.edge_ok a) →
      args.foldl F (some (pr0, nc0)) = some (prN, ncN) → run rt pr e prN ncN := by
  have hnone : ∀ l : List Int, l.foldl F none = none := by
    intro l
    induction l with
    | nil => rfl
    | cons a rest ih => simp only [List.foldl_cons, hF0, ih]
  intro args
  induction args with
  | nil =>
    intro pr0 nc0 prN ncN hc _ h
    simp only [List.foldl_nil, Option.some.injEq, Prod.mk.injEq] at h
    obtain ⟨rfl, rfl⟩ := h
    exact hc
  | cons a rest ih =>
    intro pr0 nc0 prN ncN hc hargs h
    simp only [List.foldl_cons] at h
    cases ht : trav pr0 a with
    | none =>
      rw [hF1 pr0 nc0 a ht, hnone] at h
      cases h
    | some x =>
      obtain ⟨pr1, n⟩ := x
      rw [hF2 pr0 nc0 a pr1 n ht] at h
      have hc1 : run rt pr e pr1 (n :: nc0) :=
        run_step hc (fun hg he hr => ((hc.2 hg he hr).2.1).edge_ok
          (hargs hg he a (List.mem_cons_self _ _))) (htrav pr0 a pr1 n ht)
      exact ih pr1 (nc0 ++ [n]) prN ncN
        (run_weaken hc1 (fun x hx => by
          rcases List.mem_append.1 hx with hx | hx
          · exact List.mem_cons_of_mem _ hx
          · rw [List.mem_singleton.1 hx]; exact List.mem_cons_self _ _))
        (fun hg he x hx => hargs hg he x (List.mem_cons_of_mem _ hx)) h

/-- The method `traverse_product` keeps the invariant of the projector when the traversal
of the arguments does. -/
theorem traverse_product_run {rt : Runtime} (hs : rt.sort_ok)
    (trav : Project → Int → Option (Project × Int))
    (htrav : ∀ pr e pr1 r, trav pr e = some (pr1, r) → run rt pr e pr1 [r])
    (pr : Project) (edge : Int) (pr1 : Project) (r : Int)
    (h : traverse_product rt trav pr edge = some (pr1, r)) : run rt pr edge pr1 [r] := by
  unfold traverse_product at h
  simp only [] at h
  split at h
  · cases h
  · rename_i prN ncN hfold
    simp only [Option.some.injEq, Prod.mk.injEq] at h
    obtain ⟨rfl, rfl⟩ := h
    have hc := product_fold_run trav htrav _ (fun a => rfl)
      (fun pr nc a ht => by simp only [ht])
      (fun pr nc a pr2 n ht => by simp only [ht])
      pr edge (pr.pog.get_arguments edge) pr [] prN ncN
      (run_refl rt pr edge [] (fun _ _ a ha => by cases ha))
      (fun hg he a ha => by
        have := hg.1.get_arguments_child_ok edge he a ha
        unfold Pog.child_ok at this
        exact Or.inl this) hfold
    exact run_weaken (run_build hs hc POG_PRODUCT (Or.inl rfl) ncN (fun a ha => Or.inl ha))
      (fun a ha => by rw [List.mem_singleton.1 ha]; exact List.mem_cons_self _ _)

/-- The method `traverse_sum` keeps the invariant of the projector when the traversal of
the arguments does and the compile oracle keeps its contract. -/
theorem traverse_sum_run {rt : Runtime} (hs : rt.sort_ok) {orc : Oracles}
    (horc : compile_ok rt orc) (trav : Project → Int → Option (Project × Int))
    (htrav : ∀ pr e pr1 r, trav pr e = some (pr1, r) → run rt pr e pr1 [r])
    (pr : Project) (edge : Int) (hnode : pr.pog.is_node edge = true) (pr9 : Project) (r : Int)
    (h : traverse_sum rt orc trav pr edge = some (pr9, r)) : run rt pr edge pr9 [r] := by
  unfold traverse_sum at h
  simp only [] at h
  cases hdv : pr.pog.get_decision_variable (rt.stray pr.pog edge) edge with
  | none => rw [hdv] at h; cases h
  | some dvar =>
  rw [hdv] at h
  simp only [] at h
  cases h1 : trav pr (pr.pog.get_argument edge 0) with
  | none => rw [h1] at h; cases h
  | some x1 =>
  obtain ⟨pr1, n1⟩ := x1
  rw [h1] at h
  simp only [] at h
  have c0 : run rt pr edge pr [] := run_refl rt pr edge [] (fun _ _ a ha => by cases ha)
  have c1 : run rt pr edge pr1 [n1] :=
    run_step c0 (fun hg he _ => get_argument_ok hg.1 he hnode 0 (by omega)) (htrav _ _ _ _ h1)
  by_cases hn1 : n1 = TAUTOLOGY
  · rw [if_pos hn1] at h
    simp only [Option.some.injEq, Prod.mk.injEq] at h
    obtain ⟨rfl, rfl⟩ := h
    exact c1
  rw [if_neg hn1] at h
  cases h2 : trav pr1 (pr.pog.get_argument edge 1) with
  | none => rw [h2] at h; cases h
  | some x2 =>
  obtain ⟨pr2, n2⟩ := x2
  rw [h2] at h
  simp only [] at h
  have c2 : run rt pr edge pr2 [n2, n1] :=
    run_step c1 (fun hg he hr => ((c1.2 hg he hr).2.1).edge_ok
      (get_argument_ok hg.1 he hnode 1 (by omega))) (htrav _ _ _ _ h2)
  by_cases hn2 : n2 = TAUTOLOGY
  · rw [if_pos hn2] at h
    simp only [Option.some.injEq, Prod.mk.injEq] at h
    obtain ⟨rfl, rfl⟩ := h
    exact run_weaken c2 (fun a ha => by rw [List.mem_singleton.1 ha]; simp)
  rw [if_neg hn2] at h
  by_cases hn12 : n1 = n2
  · rw [if_pos hn12] at h
    simp only [Option.some.injEq, Prod.mk.injEq] at h
    obtain ⟨rfl, rfl⟩ := h
    exact run_weaken c2 (fun a ha => by rw [List.mem_singleton.1 ha]; simp)
  rw [if_neg hn12] at h
  by_cases hst : sums_to_tautology orc pr2 [n1, n2] = true
  · rw [if_pos hst] at h
    simp only [Option.some.injEq, Prod.mk.injEq] at h
    obtain ⟨rfl, rfl⟩ := h
    refine ⟨c2.1, fun hg he hr => ⟨(c2.2 hg he hr).1, (c2.2 hg he hr).2.1, ?_⟩⟩
    intro a ha
    rw [List.mem_singleton.1 ha]
    exact ⟨Or.inr IABS_TAUTOLOGY, (data_edge_const _).1⟩
  rw [if_neg hst] at h
  have hplain : run rt pr edge { pr2 with pog := (Pog.build rt pr2.pog POG_SUM [n1, n2]).1 }
      [(Pog.build rt pr2.pog POG_SUM [n1, n2]).2] :=
    run_weaken (run_build hs c2 POG_SUM (Or.inr rfl) [n1, n2]
      (fun a ha => Or.inl (by
        simp only [List.mem_cons, List.mem_singleton, List.not_mem_nil, or_false] at ha ⊢
        tauto)))
      (fun a ha => by rw [List.mem_singleton.1 ha]; exact List.mem_cons_self _ _)
  by_cases hd : pr2.pog.is_data_variable dvar = true
  · rw [if_pos hd] at h
    simp only [Option.some.injEq, Prod.mk.injEq] at h
    obtain ⟨rfl, rfl⟩ := h
    exact hplain
  rw [if_neg hd] at h
  by_cases htv : pr2.pog.is_tseitin_variable dvar = true
  · rw [if_pos htv] at h
    simp only [Option.some.injEq, Prod.mk.injEq] at h
    obtain ⟨rfl, rfl⟩ := h
    exact hplain
  rw [if_neg htv] at h
  by_cases hsat : (Cnf.is_satisfiable orc.walk orc.solver
      (Compiler.clausify pr2.pog [n1, n2])).2 = false
  · rw [if_pos hsat] at h
    simp only [Option.some.injEq, Prod.mk.injEq] at h
    obtain ⟨rfl, rfl⟩ := h
    exact hplain
  rw [if_neg hsat] at h
  obtain ⟨cc, hu⟩ := run_compile horc c2
    (Cnf.is_satisfiable orc.walk orc.solver (Compiler.clausify pr2.pog [n1, n2])).1
    (decide (pr2.optlevel ≥ 2)) false
  by_cases huc : (orc.compile pr2.pog
      (Cnf.is_satisfiable orc.walk orc.solver (Compiler.clausify pr2.pog [n1, n2])).1
      (decide (pr2.optlevel ≥ 2)) false).2 = CONFLICT
  · rw [if_pos huc] at h
    simp only [Option.some.injEq, Prod.mk.injEq] at h
    obtain ⟨rfl, rfl⟩ := h
    exact run_weaken (run_build hs cc POG_SUM (Or.inr rfl) [n1, n2]
      (fun a ha => Or.inl (by
        simp only [List.mem_cons, List.mem_singleton, List.not_mem_nil, or_false] at ha ⊢
        tauto)))
      (fun a ha => by rw [List.mem_singleton.1 ha]; exact List.mem_cons_self _ _)
  rw [if_neg huc] at h
  cases h3 : trav { pr2 with pog := (orc.compile pr2.pog
      (Cnf.is_satisfiable orc.walk orc.solver (Compiler.clausify pr2.pog [n1, n2])).1
      (decide (pr2.optlevel ≥ 2)) false).1 } (orc.compile pr2.pog
      (Cnf.is_satisfiable orc.walk orc.solver (Compiler.clausify pr2.pog [n1, n2])).1
      (decide (pr2.optlevel ≥ 2)) false).2 with
  | none => rw [h3] at h; cases h
  | some x3 =>
  obtain ⟨pr3, xroot⟩ := x3
  rw [h3] at h
  simp only [] at h
  have c3 : run rt pr edge pr3 [xroot, n2, n1] := run_step cc hu (htrav _ _ _ _ h3)
  have w1 : run rt pr edge pr3 [n1] :=
    run_weaken c3 (fun a ha => by rw [List.mem_singleton.1 ha]; simp)
  have w2 : run rt pr edge pr3 [n2] :=
    run_weaken c3 (fun a ha => by rw [List.mem_singleton.1 ha]; simp)
  split_ifs at h
  · simp only [Option.some.injEq, Prod.mk.injEq] at h
    obtain ⟨rfl, rfl⟩ := h
    exact w2
  · simp only [Option.some.injEq, Prod.mk.injEq] at h
    obtain ⟨rfl, rfl⟩ := h
    exact w1
  · simp only [Option.some.injEq, Prod.mk.injEq] at h
    obtain ⟨rfl, rfl⟩ := h
    exact w2
  · simp only [Option.some.injEq, Prod.mk.injEq] at h
    obtain ⟨rfl, rfl⟩ := h
    exact w1
  · simp only [Option.some.injEq, Prod.mk.injEq] at h
    obtain ⟨rfl, rfl⟩ := h
    have cm := run_build hs c3 POG_SUM (Or.inr rfl) [-n1, xroot] (fun a ha => by
      simp only [List.mem_cons, List.mem_singleton, List.not_mem_nil, or_false] at ha
      rcases ha with ha | ha
      · right; rw [ha, neg_neg]; simp
      · left; rw [ha]; simp)
    exact run_weaken (run_build hs cm POG_SUM (Or.inr rfl)
      [-(Pog.build rt pr3.pog POG_SUM [-n1, xroot]).2, n2] (fun a ha => by
        simp only [List.mem_cons, List.mem_singleton, List.not_mem_nil, or_false] at ha
        rcases ha with ha | ha
        · right; rw [ha, neg_neg]; simp
        · left; rw [ha]; simp))
      (fun a ha => by rw [List.mem_singleton.1 ha]; exact List.mem_cons_self _ _)

/-- The method `traverse` keeps the invariant of the projector, and returns an edge with
no projection variable below it. -/
theorem traverse_run {rt : Runtime} (hs : rt.sort_ok) {orc : Oracles}
    (horc : compile_ok rt orc) : ∀ (fuel : Nat) (pr : Project) (e : Int) (pr1 : Project)
    (r : Int), traverse rt orc fuel pr e = some (pr1, r) → run rt pr e pr1 [r] := by
  intro fuel
  induction fuel with
  | zero => intro pr e pr1 r h; rw [traverse_zero] at h; cases h
  | succ fuel ih =>
    intro pr e pr1 r h
    rw [traverse_succ] at h
    by_cases hn : pr.pog.is_node e = false
    · rw [if_pos hn] at h
      split_ifs at h with h1 h2
      · simp only [Option.some.injEq, Prod.mk.injEq] at h
        obtain ⟨rfl, rfl⟩ := h
        exact run_refl rt _ _ _ (fun _ he a ha => by
          rw [List.mem_singleton.1 ha]; exact ⟨he, Or.inl h1⟩)
      · simp only [Option.some.injEq, Prod.mk.injEq] at h
        obtain ⟨rfl, rfl⟩ := h
        exact run_refl rt _ _ _ (fun _ he a ha => by
          rw [List.mem_singleton.1 ha]
          refine ⟨he, Or.inr ?_⟩
          unfold Pog.only_data_variables
          rw [hn]
          simpa [Pog.is_data_variable] using h2)
      · simp only [Option.some.injEq, Prod.mk.injEq] at h
        obtain ⟨rfl, rfl⟩ := h
        exact run_refl rt _ _ _ (fun _ _ a ha => by
          rw [List.mem_singleton.1 ha]
          exact ⟨Or.inr IABS_TAUTOLOGY, (data_edge_const _).1⟩)
    · rw [if_neg hn] at h
      have hn' : pr.pog.is_node e = true := by simpa using hn
      cases hcache : (if pr.optlevel ≥ 1 then pr.result_cache e else none) with
      | some nedge =>
        rw [hcache] at h
        simp only [Option.some.injEq, Prod.mk.injEq] at h
        obtain ⟨rfl, rfl⟩ := h
        have hce : pr.result_cache e = some nedge := by
          split_ifs at hcache
          exact hcache
        exact run_refl rt _ _ _ (fun hg _ a ha => by
          rw [List.mem_singleton.1 ha]
          exact ⟨(hg.2 e nedge hce).1, (hg.2 e nedge hce).2⟩)
      | none =>
        rw [hcache] at h
        simp only [] at h
        by_cases hdo : pr.optlevel ≥ 2 ∧ pr.pog.only_data_variables e = true
        · rw [if_pos hdo] at h
          simp only [Option.some.injEq, Prod.mk.injEq] at h
          obtain ⟨rfl, rfl⟩ := h
          exact run_refl rt _ _ _ (fun _ he a ha => by
            rw [List.mem_singleton.1 ha]; exact ⟨he, Or.inr hdo.2⟩)
        rw [if_neg hdo] at h
        by_cases hpo : pr.optlevel ≥ 2 ∧ pr.pog.only_projection_variables e = true
        · rw [if_pos hpo] at h
          simp only [Option.some.injEq, Prod.mk.injEq] at h
          obtain ⟨rfl, rfl⟩ := h
          exact run_refl rt _ _ _ (fun _ _ a ha => by
            rw [List.mem_singleton.1 ha]
            exact ⟨Or.inr IABS_TAUTOLOGY, (data_edge_const _).1⟩)
        rw [if_neg hpo] at h
        cases hsub : (if pr.pog.is_sum e then traverse_sum rt orc (traverse rt orc fuel) pr e
            else traverse_product rt (traverse rt orc fuel) pr e) with
        | none => rw [hsub] at h; cases h
        | some x =>
          obtain ⟨pr2, nedge⟩ := x
          rw [hsub] at h
          simp only [Option.some.injEq, Prod.mk.injEq] at h
          obtain ⟨rfl, rfl⟩ := h
          apply run_cache
          split_ifs at hsub
          · exact traverse_sum_run hs horc _ ih pr e hn' pr2 _ hsub
          · exact traverse_product_run hs _ ih pr e pr2 _ hsub


/-- C40. At every optimization level, with the compile oracle any function that keeps
its contract and the SAT solver any function: when `traverse` returns for an edge of a
well-formed graph, in a state whose cached results have no projection variable below
them, the edge returned is TAUTOLOGY, CONFLICT, or an edge of the graph from which only
literals of data variables are reachable. -/
theorem traverse_projects (rt : Runtime) (hs : rt.sort_ok) (orc : Oracles)
    (horc : compile_ok rt orc) (fuel : Nat) (pr : Project) (e : Int) (hwf : pr.pog.WF rt)
    (hc : pr.cache_data) (he : pr.pog.edge_ok e) (pr1 : Project) (r : Int)
    (hrun : traverse rt orc fuel pr e = some (pr1, r))
    (hr : (pr1.pog.nvar : Int) + pr1.pog.nodes.length + 1 < MAX_VARIABLE) :
    r = TAUTOLOGY ∨ r = CONFLICT ∨
      (pr1.pog.edge_ok r ∧ ∀ c, Pog.Reach pr1.pog r c → pr1.pog.is_node c = false →
        IABS c ∈ pr1.pog.data_variables) := by
  obtain ⟨hg, _, hf⟩ := (traverse_run hs horc fuel pr e pr1 r hrun).2 ⟨hwf, hc⟩ he hr
  obtain ⟨hok, hde⟩ := hf r (List.mem_singleton_self _)
  have hconst : IABS r = TAUTOLOGY → r = TAUTOLOGY ∨ r = CONFLICT := by
    intro h
    unfold IABS at h
    unfold CONFLICT
    split_ifs at h
    · right; omega
    · left; exact h
  rcases hde with h | h
  · rcases hconst h with h1 | h1
    · exact Or.inl h1
    · exact Or.inr (Or.inl h1)
  · rcases hok with hb | hb
    · refine Or.inr (Or.inr ⟨Or.inl hb, ?_⟩)
      exact (Pog.flag_reach hg.1 pr1.pog.only_data_variables (fun v => v ∈ pr1.pog.data_variables)
        (fun e he => by simp [Pog.only_data_variables, he, Pog.get_var])
        (fun e he hn => hg.1.only_data_node he hn) pr1.pog.nodes.length r hb.1 hb.2
        (le_refl _)).1 h
    · rcases hconst hb with h1 | h1
      · exact Or.inl h1
      · exact Or.inr (Or.inl h1)

/-- C40 (witness). The theorem `traverse_projects` at the Product 5 = `x4 ∧ x1` of the
projection variable 4 and the data variable 1, at the optimization level 0 with the
empty cache: `traverse(5)` returns the literal `x1`. -/
theorem traverse_projects_witness :
    (1 : Int) = TAUTOLOGY ∨ (1 : Int) = CONFLICT ∨
      ((Pog.build stdRuntime (Pog.init 4 {1, 2, 3} {4}) POG_PRODUCT [4, 1]).1.edge_ok 1 ∧
        ∀ c, Pog.Reach (Pog.build stdRuntime (Pog.init 4 {1, 2, 3} {4}) POG_PRODUCT [4, 1]).1 1 c →
          (Pog.build stdRuntime (Pog.init 4 {1, 2, 3} {4}) POG_PRODUCT [4, 1]).1.is_node c = false →
          IABS c ∈ (Pog.build stdRuntime (Pog.init 4 {1, 2, 3} {4}) POG_PRODUCT
            [4, 1]).1.data_variables) := by
  have hwf : Pog.WF stdRuntime (Pog.build stdRuntime (Pog.init 4 {1, 2, 3} {4}) POG_PRODUCT [4, 1]).1 :=
    Pog.Reachable.wf stdRuntime_sort_ok
      (Pog.Reachable.build (Pog.init 4 {1, 2, 3} {4}) POG_PRODUCT [4, 1]
        (Pog.Reachable.init 4 {1, 2, 3} {4}) (Or.inl rfl) (by decide)) (by decide)
  have he : Pog.edge_ok (Pog.build stdRuntime (Pog.init 4 {1, 2, 3} {4}) POG_PRODUCT [4, 1]).1 5 := by
    decide
  have hr : (((Pog.build stdRuntime (Pog.init 4 {1, 2, 3} {4}) POG_PRODUCT [4, 1]).1).nvar : Int) +
      ((Pog.build stdRuntime (Pog.init 4 {1, 2, 3} {4}) POG_PRODUCT [4, 1]).1).nodes.length + 1 <
      MAX_VARIABLE := by
    decide
  exact traverse_projects stdRuntime stdRuntime_sort_ok
    ⟨reference_solver, fun p _ _ _ => (p, TAUTOLOGY), stdWalk⟩
    (fun p _ _ _ => ⟨Pog.Extends.refl p, fun hwf _ => ⟨hwf, Or.inr IABS_TAUTOLOGY⟩⟩) 2
    ⟨(Pog.build stdRuntime (Pog.init 4 {1, 2, 3} {4}) POG_PRODUCT [4, 1]).1, 5, fun _ => none, [], 0⟩ 5
    hwf (fun k v h => Option.noConfusion h) he
    ⟨(Pog.build stdRuntime (Pog.init 4 {1, 2, 3} {4}) POG_PRODUCT [4, 1]).1, 5,
        Function.update (fun _ => none) 5 (some 1), [], 0⟩ 1 rfl hr

end Project

namespace Compiler

/-- C25 (counterexample). With the original D4 and the deferred mode, `compile` stops
with a fatal error on the empty CNF. -/
theorem compile_empty_counterexample :
    (Cnf.init 0).active_clauses = ∅ ∧ (Cnf.init 0).unit_literals = ∅ ∧
    compile stdRuntime stdWalk false 0 (fun p _ _ _ => (p, CONFLICT)) (Pog.init 0 ∅ ∅) (Cnf.init 0)
      true true = none ∧
    compile stdRuntime stdWalk false 0 (fun p _ _ _ => (p, CONFLICT)) (Pog.init 0 ∅ ∅) (Cnf.init 0)
      false true = none :=
  ⟨rfl, rfl, rfl, rfl⟩

/-- C25 (amended). For every Cnf state without active clauses and without unit
literals, every `bkc_limit` that is not negative, both values of `trim`, and `defer`
not set or D4 version 2 in use, `compile` leaves the graph and the state as they are
and returns TAUTOLOGY (whatever the order of the walks of unordered sets, all of which
are empty here). -/
theorem compile_empty (rt : Runtime) (w : Walk) (hw : w.ok) (use_d4v2 : Bool) (bkc_limit : Int)
    (d4 : Pog → Cnf → Bool → Bool → Pog × Int) (p : Pog) (cnf : Cnf) (trim defer : Bool)
    (hact : cnf.active_clauses = ∅) (hunit : cnf.unit_literals = ∅)
    (hbcp : cnf.bcp_unit_literals = ∅) (hlim : 0 ≤ bkc_limit)
    (hdefer : defer = false ∨ use_d4v2 = true) :
    compile rt w use_d4v2 bkc_limit d4 p cnf trim defer = some (p, cnf, TAUTOLOGY) := by
  have h1 : (defer && !use_d4v2) = false := by
    rcases hdefer with h | h <;> simp [h]
  have h2 : (cnf.nonunit_clause_count : Int) ≤ bkc_limit := by
    unfold Cnf.nonunit_clause_count
    rw [hact]
    simpa using hlim
  have h3 : cnf.check_simple_pkc (w.sub 0) = ([], true) := by
    unfold Cnf.check_simple_pkc
    rw [hact, hbcp, (hw.sub 0).empty]
    simp [ascList_empty, Cnf.pkc_scan]
  unfold compile
  rw [h1]
  simp only [Bool.false_eq_true, if_false, h2, if_true]
  unfold builtin_kc_fuel
  rw [builtin_kc_succ, h3]
  simp only [if_true]
  rfl

/-- C25 (witness). The theorem `compile_empty` at the empty CNF over three variables with
the default limit 70. -/
theorem compile_empty_witness :
    compile stdRuntime stdWalk true 70 (fun p _ _ _ => (p, CONFLICT)) (Pog.init 3 {1, 2} ∅)
      (Cnf.init 3) true false = some (Pog.init 3 {1, 2} ∅, Cnf.init 3, TAUTOLOGY) :=
  compile_empty stdRuntime stdWalk stdWalk_ok true 70 (fun p _ _ _ => (p, CONFLICT))
    (Pog.init 3 {1, 2} ∅)
    (Cnf.init 3) true false rfl rfl rfl (by decide) (Or.inl rfl)

end Compiler

namespace Pog

/-- C23 (counterexample). For the roots TAUTOLOGY and CONFLICT over two variables,
`write` emits two lines: the line `p 3` of a Product without arguments, and the root
line `r 3` or `r -3`. -/
theorem write_constant_counterexample :
    (Pog.init 2 ∅ ∅).write TAUTOLOGY = [('p', [3]), ('r', [3])] ∧
    (Pog.init 2 ∅ ∅).write CONFLICT = [('p', [3]), ('r', [-3])] := by
  decide

/-- C23 (amended). For every root edge that is a bare variable literal, `write` to an
output file emits exactly one line, the root line `r <edge>`, and no node line; for the
roots TAUTOLOGY and CONFLICT it emits two lines, the node line `p <nvar+1>` and the root
line `r <nvar+1>` or `r -<nvar+1>`. -/
theorem write_trivial (p : Pog) :
    (∀ e : Int, p.is_node e = false → IABS e ≠ TAUTOLOGY → p.write e = [('r', [e])]) ∧
    p.write TAUTOLOGY = [('p', [(p.nvar : Int) + 1]), ('r', [(p.nvar : Int) + 1])] ∧
    p.write CONFLICT = [('p', [(p.nvar : Int) + 1]), ('r', [-((p.nvar : Int) + 1)])] := by
  refine ⟨?_, ?_, ?_⟩
  · intro e hn hT
    unfold write
    rw [if_pos hn, if_neg (by simpa [get_var] using hT)]
  · unfold write
    have h1 : p.is_node TAUTOLOGY = false := by
      simp [is_node, get_var, show IABS TAUTOLOGY = TAUTOLOGY from rfl]
    rw [if_pos h1, if_pos (show get_var TAUTOLOGY = TAUTOLOGY from rfl),
      if_pos (show TAUTOLOGY > 0 by decide)]
  · unfold write
    have h1 : p.is_node CONFLICT = false := by
      simp [is_node, get_var, show IABS CONFLICT = TAUTOLOGY from rfl]
    rw [if_pos h1, if_pos (show get_var CONFLICT = TAUTOLOGY from rfl),
      if_neg (show ¬ CONFLICT > 0 by decide)]

/-- C23 (witness). The theorem `write_trivial` at the literal `-x2`: one line `r -2`. -/
theorem write_trivial_witness : (Pog.init 2 ∅ ∅).write (-2) = [('r', [-2])] :=
  (write_trivial (Pog.init 2 ∅ ∅)).1 (-2) (by decide) (by decide)

end Pog

namespace Cnf

theorem bcp_sound_inv_deactivate {τ : Int → Bool} {s0 s : Cnf} (h : bcp_sound_inv τ s0 s)
    (cid : Int) : bcp_sound_inv τ s0 (s.deactivate_clause cid) :=
  ⟨h.1, fun c hc => h.2.1 (Finset.mem_of_mem_erase hc), h.2.2.1, h.2.2.2.1, h.2.2.2.2⟩

theorem bcp_sound_inv_deactivate_clauses {τ : Int → Bool} {s0 : Cnf} :
    ∀ (remove : List Int) {s : Cnf}, bcp_sound_inv τ s0 s →
    bcp_sound_inv τ s0 (s.deactivate_clauses remove) := by
  intro remove
  induction remove with
  | nil => intro s h; exact h
  | cons c rest ih =>
    intro s h
    have := ih (bcp_sound_inv_deactivate h c)
    unfold deactivate_clauses at this ⊢
    rw [List.foldl_cons]
    exact this

/-- A skipped literal of a clause is false under an assignment that makes the unit
literals true, when no variable is quantified. -/
theorem skipped_false {τ : Int → Bool} {s : Cnf} (huq : s.uquantified_variables = ∅)
    (hu : ∀ l ∈ s.unit_literals, lit_true τ l = true) {l : Int} (hl0 : l ≠ 0)
    (hs : s.skip_literal l = true) : lit_true τ l = false := by
  unfold skip_literal at hs
  rw [huq] at hs
  simp only [Finset.not_mem_empty, decide_False, Bool.or_false, decide_eq_true_eq] at hs
  have := hu _ hs
  rw [Pog.lit_true_neg τ hl0] at this
  simpa using this

/-- A true clause has a true literal that is not skipped. -/
theorem true_literal_not_skipped {τ : Int → Bool} {s : Cnf}
    (huq : s.uquantified_variables = ∅) (hu : ∀ l ∈ s.unit_literals, lit_true τ l = true)
    {c : List Int} (hc0 : ∀ l ∈ c, l ≠ 0) (ht : clause_true τ c = true) :
    ∃ l ∈ c, lit_true τ l = true ∧ s.skip_literal l = false := by
  unfold clause_true at ht
  obtain ⟨l, hl, hlt⟩ := List.any_eq_true.1 ht
  refine ⟨l, hl, hlt, ?_⟩
  cases hs : s.skip_literal l with
  | false => rfl
  | true =>
    rw [skipped_false huq hu (hc0 l hl) hs] at hlt
    cases hlt

theorem bcp_loop_sound (w : Walk) (preprocess : Bool) (τ : Int → Bool) (s0 : Cnf)
    (hm : ∀ cid ∈ s0.active_clauses, clause_true τ (s0.clause cid) = true)
    (hlit : ∀ cid ∈ s0.active_clauses, ∀ l ∈ s0.clause cid, l ≠ 0 ∧ IABS l ≠ TAUTOLOGY) :
    ∀ (fuel : Nat) (s : Cnf) (queue : List Int) (count : Nat), bcp_sound_inv τ s0 s →
    bcp_sound_inv τ s0 (bcp_loop w preprocess fuel s queue count).1 := by
  intro fuel
  induction fuel with
  | zero => intro s queue count h; exact h
  | succ fuel ih =>
    intro s queue count h
    unfold bcp_loop
    by_cases hcf : s.has_conflict = true
    · simp only [hcf, if_true]; exact h
    · simp only [hcf, Bool.false_eq_true, if_false]
      cases queue with
      | nil => exact h
      | cons cid rest =>
        simp only []
        by_cases hact : cid ∉ s.active_clauses
        · simp only [hact, not_false_eq_true, if_true]
          exact ih s rest count h
        · simp only [hact, if_false]
          have hact1 : cid ∈ s.active_clauses := by simpa using hact
          have hact0 := h.2.1 hact1
          have hcl : s.clause cid = s0.clause cid := clause_congr h.1 cid
          have hlitc : ∀ l ∈ s.clause cid, l ≠ 0 ∧ IABS l ≠ TAUTOLOGY := by
            rw [hcl]; exact hlit cid hact0
          have htrue : clause_true τ (s.clause cid) = true := by
            rw [hcl]; exact hm cid hact0
          obtain ⟨l, hl, hlt, hls⟩ := true_literal_not_skipped h.2.2.1 h.2.2.2.1
            (fun l hl => (hlitc l hl).1) htrue
          have hspec := propagate_clause_spec s cid hlitc
          by_cases hc1 : s.propagate_clause cid = CONFLICT
          · have := (hspec.2.1.1 hc1).2 l hl
            rw [hls] at this
            cases this
          · simp only [hc1, if_false]
            by_cases hc2 : s.propagate_clause cid = 0
            · simp only [hc2, if_true]
              exact ih s rest count h
            · simp only [hc2, if_false]
              by_cases hc3 : s.propagate_clause cid = TAUTOLOGY
              · simp only [hc3, if_true]
                exact ih _ rest count (bcp_sound_inv_deactivate h cid)
              · simp only [hc3, if_false]
                have habs : IABS (s.propagate_clause cid) ≠ TAUTOLOGY := by
                  intro ha
                  rcases IABS_eq_cases (ha.trans IABS_TAUTOLOGY.symm) with h1 | h1
                  · exact hc3 h1
                  · exact hc1 h1
                have hfil := ((hspec.2.2.1 _ hc2 habs).1 rfl).2
                have hlmem : l ∈ (s.clause cid).filter (fun lit => !s.skip_literal lit) :=
                  List.mem_filter.2 ⟨hl, by simp [hls]⟩
                rw [hfil, List.mem_singleton] at hlmem
                have hrt : lit_true τ (s.propagate_clause cid) = true := by
                  rw [← hlmem]; exact hlt
                have hrs : s.skip_literal (s.propagate_clause cid) = false := by
                  rw [← hlmem]; exact hls
                have hnn : -s.propagate_clause cid ∉ s.unit_literals := by
                  intro hn
                  unfold skip_literal at hrs
                  simp [hn] at hrs
                apply ih
                apply bcp_sound_inv_deactivate_clauses
                apply bcp_sound_inv_deactivate
                have h1 : bcp_sound_inv τ s0
                    (if preprocess then s.set_variable_type (IABS (s.propagate_clause cid)) VAR_ELIM
                      else s) := by
                  split_ifs
                  · exact h
                  · exact h
                have h1n : -s.propagate_clause cid ∉
                    (if preprocess then s.set_variable_type (IABS (s.propagate_clause cid)) VAR_ELIM
                      else s).unit_literals := by
                  split_ifs
                  · exact hnn
                  · exact hnn
                generalize (if preprocess then
                  s.set_variable_type (IABS (s.propagate_clause cid)) VAR_ELIM else s) = s1
                  at h1 h1n
                unfold assign_literal
                simp only [h1n, if_false, if_true]
                split_ifs
                · exact h1
                · refine ⟨h1.1, h1.2.1, h1.2.2.1, ?_, h1.2.2.2.2⟩
                  intro x hx
                  rcases Finset.mem_insert.1 hx with hx | hx
                  · rw [hx]; exact hrt
                  · exact h1.2.2.2.1 x hx

/-- The order of the walks decides which units `bcp` derives before it meets a conflict:
on the clauses `(-x1 ∨ x2)`, `(-x2 ∨ -x1)`, `(x1)`, the ascending walk ends with the
units `x1, x2` and the active clause 2, the descending walk with the units `x1, -x2` and
the active clause 1; both end in a conflict. -/
theorem bcp_walk_example :
    ((([1].foldl add_literal ([-2, -1].foldl add_literal ([-1, 2].foldl add_literal
      (Cnf.init 2).new_clause).new_clause).new_clause).bcp stdWalk false).1.unit_literals =
      {1, 2} ∧
    (([1].foldl add_literal ([-2, -1].foldl add_literal ([-1, 2].foldl add_literal
      (Cnf.init 2).new_clause).new_clause).new_clause).bcp stdWalk false).1.active_clauses =
      {2} ∧
    (([1].foldl add_literal ([-2, -1].foldl add_literal ([-1, 2].foldl add_literal
      (Cnf.init 2).new_clause).new_clause).new_clause).bcp stdWalk false).1.has_conflict =
      true) ∧
    ((([1].foldl add_literal ([-2, -1].foldl add_literal ([-1, 2].foldl add_literal
      (Cnf.init 2).new_clause).new_clause).new_clause).bcp revWalk false).1.unit_literals =
      {1, -2} ∧
    (([1].foldl add_literal ([-2, -1].foldl add_literal ([-1, 2].foldl add_literal
      (Cnf.init 2).new_clause).new_clause).new_clause).bcp revWalk false).1.active_clauses =
      {1} ∧
    (([1].foldl add_literal ([-2, -1].foldl add_literal ([-1, 2].foldl add_literal
      (Cnf.init 2).new_clause).new_clause).new_clause).bcp revWalk false).1.has_conflict =
      true) := by
  decide!

/-- C29. For every state without universally quantified variables whose active clauses
hold literals of variables, every order in which `bcp` walks the unordered sets of the
literal index, and every assignment that satisfies all clauses active at
entry and all unit literals at entry: every unit literal after `bcp`, hence every
literal that `bcp` adds to `unit_literals`, is true under the assignment, and `bcp` does
not set `has_conflict`. So when `bcp` sets `has_conflict`, no such assignment exists. -/
theorem bcp_sound (w : Walk) (s : Cnf) (preprocess : Bool) (huq : s.uquantified_variables = ∅)
    (hlit : ∀ cid ∈ s.active_clauses, ∀ l ∈ s.clause cid, l ≠ 0 ∧ IABS l ≠ TAUTOLOGY)
    (τ : Int → Bool) (hτ : models τ s) :
    (∀ l ∈ (s.bcp w preprocess).1.unit_literals, lit_true τ l = true) ∧
    ((s.bcp w preprocess).1.has_conflict = true → s.has_conflict = true) := by
  have h := bcp_loop_sound w preprocess τ s hτ.1 hlit s.bcp_fuel s (ascList s.active_clauses) 0
    ⟨rfl, Finset.Subset.refl _, huq, hτ.2, id⟩
  exact ⟨h.2.2.2.1, h.2.2.2.2⟩

/-- C29 (witness). The theorem `bcp_sound` at the clauses `(x1)` and `(-x1 ∨ x2)` and the
assignment that makes every variable true, for the descending walk: `bcp` derives the
units `x1` and `x2`. -/
theorem bcp_sound_witness :
    (([-1, 2].foldl add_literal ([1].foldl add_literal
      (Cnf.init 2).new_clause).new_clause).bcp revWalk false).1.unit_literals = {1, 2} ∧
    ∀ l ∈ (([-1, 2].foldl add_literal ([1].foldl add_literal
      (Cnf.init 2).new_clause).new_clause).bcp revWalk false).1.unit_literals,
      lit_true (fun _ => true) l = true :=
  ⟨by decide, (bcp_sound revWalk ([-1, 2].foldl add_literal ([1].foldl add_literal
      (Cnf.init 2).new_clause).new_clause) false rfl (by decide) (fun _ => true)
      ⟨by decide, by decide⟩).1⟩

end Cnf

namespace Cnf

theorem bcp_loop_unit (w : Walk) (preprocess : Bool) (fuel : Nat) (s : Cnf) (cid : Int) (rest : List Int)
    (count : Nat) (h0 : s.has_conflict = false) (h1 : cid ∈ s.active_clauses)
    (h2 : s.propagate_clause cid ≠ CONFLICT) (h3 : s.propagate_clause cid ≠ 0)
    (h4 : s.propagate_clause cid ≠ TAUTOLOGY) :
    bcp_loop w preprocess (fuel + 1) s (cid :: rest) count =
      bcp_loop w preprocess fuel (bcp_assign w fuel preprocess s cid (s.propagate_clause cid))
        (((w.order [fuel, 1] ((bcp_assign w fuel preprocess s cid
            (s.propagate_clause cid)).literal_clauses
            (-s.propagate_clause cid))).filter
          fun ocid => decide (ocid ∈
            (bcp_assign w fuel preprocess s cid (s.propagate_clause cid)).active_clauses)).foldl
          queue_push rest) (count + 1) := by
  rw [bcp_loop]
  simp only [h0, Bool.false_eq_true, if_false, h1, not_true_eq_false, h2, h3, h4]
  rfl

theorem deactivate_clauses_fields : ∀ (remove : List Int) (s : Cnf),
    (s.deactivate_clauses remove).unit_literals = s.unit_literals ∧
    (s.deactivate_clauses remove).bcp_unit_literals = s.bcp_unit_literals ∧
    (s.deactivate_clauses remove).uquantified_variables = s.uquantified_variables ∧
    (s.deactivate_clauses remove).has_conflict = s.has_conflict := by
  intro remove
  induction remove with
  | nil => intro s; exact ⟨rfl, rfl, rfl, rfl⟩
  | cons c rest ih =>
    intro s
    have h := ih (s.deactivate_clause c)
    unfold deactivate_clauses at h ⊢
    rw [List.foldl_cons]
    exact h

/-- The fields of the state after a unit literal is derived, when neither the literal nor
its negation was a unit literal. -/
theorem bcp_assign_fields (w : Walk) (hw : w.ok) (fuel : Nat) (preprocess : Bool) (s : Cnf) (cid lit : Int)
    (hn : -lit ∉ s.unit_literals) (hu : lit ∉ s.unit_literals) (hex : s.index_exact) :
    (bcp_assign w fuel preprocess s cid lit).clauses = s.clauses ∧
    (bcp_assign w fuel preprocess s cid lit).unit_literals = insert lit s.unit_literals ∧
    (bcp_assign w fuel preprocess s cid lit).bcp_unit_literals = insert lit s.bcp_unit_literals ∧
    (bcp_assign w fuel preprocess s cid lit).uquantified_variables = s.uquantified_variables ∧
    (bcp_assign w fuel preprocess s cid lit).has_conflict = s.has_conflict ∧
    (bcp_assign w fuel preprocess s cid lit).index_exact ∧
    (∀ c, c ∈ (bcp_assign w fuel preprocess s cid lit).active_clauses ↔
      (c ∈ s.active_clauses ∧ c ≠ cid ∧ lit ∉ s.clause c)) := by
  have hs1 : ∀ s1 : Cnf, s1 = (if preprocess then s.set_variable_type (IABS lit) VAR_ELIM
      else s) → s1.clauses = s.clauses ∧ s1.unit_literals = s.unit_literals ∧
      s1.bcp_unit_literals = s.bcp_unit_literals ∧
      s1.uquantified_variables = s.uquantified_variables ∧
      s1.has_conflict = s.has_conflict ∧ s1.literal_clauses = s.literal_clauses ∧
      s1.active_clauses = s.active_clauses := by
    intro s1 h
    rw [h]
    split_ifs <;> exact ⟨rfl, rfl, rfl, rfl, rfl, rfl, rfl⟩
  unfold bcp_assign
  dsimp only
  obtain ⟨a1, a2, a3, a4, a5, a6, a7⟩ := hs1 _ rfl
  generalize (if preprocess then s.set_variable_type (IABS lit) VAR_ELIM else s) = s1
    at a1 a2 a3 a4 a5 a6 a7
  have hex1 : s1.index_exact := index_exact_of_fields a6 a7 a1 hex
  have hn1 : -lit ∉ s1.unit_literals := by rw [a2]; exact hn
  have hu1 : lit ∉ s1.unit_literals := by rw [a2]; exact hu
  have hs2 : (s1.assign_literal lit true).clauses = s1.clauses ∧
      (s1.assign_literal lit true).unit_literals = insert lit s1.unit_literals ∧
      (s1.assign_literal lit true).bcp_unit_literals = insert lit s1.bcp_unit_literals ∧
      (s1.assign_literal lit true).uquantified_variables = s1.uquantified_variables ∧
      (s1.assign_literal lit true).has_conflict = s1.has_conflict ∧
      (s1.assign_literal lit true).literal_clauses = s1.literal_clauses ∧
      (s1.assign_literal lit true).active_clauses = s1.active_clauses := by
    unfold assign_literal
    simp only [hn1, hu1, if_false, if_true, decide_False, Bool.false_eq_true, and_self]
  obtain ⟨b1, b2, b3, b4, b5, b6, b7⟩ := hs2
  generalize s1.assign_literal lit true = s2 at b1 b2 b3 b4 b5 b6 b7 ⊢
  have hex2 : s2.index_exact := index_exact_of_fields b6 b7 b1 hex1
  have hex3 := index_exact_deactivate hex2 cid
  have hf := deactivate_clauses_fields ((w.order [fuel, 0]
    ((s2.deactivate_clause cid).literal_clauses
    lit)).filter fun ocid => decide (ocid ∈ (s2.deactivate_clause cid).active_clauses))
    (s2.deactivate_clause cid)
  refine ⟨?_, ?_, ?_, ?_, ?_, index_exact_deactivate_clauses _ hex3, ?_⟩
  · rw [deactivate_clauses_clauses]; exact b1.trans a1
  · rw [hf.1]; exact b2.trans (by rw [a2])
  · rw [hf.2.1]; exact b3.trans (by rw [a3])
  · rw [hf.2.2.1]; exact b4.trans a4
  · rw [hf.2.2.2]; exact b5.trans a5
  · intro c
    rw [deactivate_clauses_active]
    have hact3 : (s2.deactivate_clause cid).active_clauses = s.active_clauses.erase cid := by
      show s2.active_clauses.erase cid = _
      rw [b7, a7]
    have hcl3 : (s2.deactivate_clause cid).clause c = s.clause c :=
      clause_congr (b1.trans a1) c
    simp only [Finset.mem_sdiff, List.mem_toFinset, List.mem_filter, hw.mem,
      decide_eq_true_eq]
    rw [hex3 lit c, hact3, hcl3, Finset.mem_erase]
    tauto

theorem propagate_scan_congr (s s1 : Cnf) : ∀ (L : List Int) (r : Int),
    (∀ l ∈ L, (l ∈ s1.unit_literals ↔ l ∈ s.unit_literals) ∧
      s1.skip_literal l = s.skip_literal l) →
    propagate_scan s1 L r = propagate_scan s L r := by
  intro L
  induction L with
  | nil => intro r _; rfl
  | cons a rest ih =>
    intro r h
    have ha := h a (List.mem_cons_self _ _)
    have hr : ∀ l ∈ rest, (l ∈ s1.unit_literals ↔ l ∈ s.unit_literals) ∧
        s1.skip_literal l = s.skip_literal l := fun l hl => h l (List.mem_cons_of_mem _ hl)
    unfold propagate_scan
    by_cases hu : a ∈ s.unit_literals
    · simp only [hu, ha.1.2 hu, if_true]
    · have hu1 : a ∉ s1.unit_literals := fun h1 => hu (ha.1.1 h1)
      simp only [hu, hu1, if_false, ha.2, ih _ hr]

theorem propagate_clause_congr {s s1 : Cnf} (cid : Int) (hc : s1.clause cid = s.clause cid)
    (h : ∀ l ∈ s.clause cid, (l ∈ s1.unit_literals ↔ l ∈ s.unit_literals) ∧
      s1.skip_literal l = s.skip_literal l) :
    s1.propagate_clause cid = s.propagate_clause cid := by
  unfold propagate_clause
  rw [hc]
  exact propagate_scan_congr s s1 _ _ h

theorem queue_push_fold (L : List Int) : ∀ q : List Int,
    (L.foldl queue_push q).length ≤ q.length + L.length ∧
    (∀ x ∈ q, x ∈ L.foldl queue_push q) ∧ (∀ x ∈ L, x ∈ L.foldl queue_push q) := by
  induction L with
  | nil => intro q; exact ⟨by simp, fun x hx => hx, fun x hx => by cases hx⟩
  | cons a rest ih =>
    intro q
    rw [List.foldl_cons]
    obtain ⟨i1, i2, i3⟩ := ih (queue_push q a)
    have hq : (queue_push q a).length ≤ q.length + 1 ∧ (∀ x ∈ q, x ∈ queue_push q a) ∧
        a ∈ queue_push q a := by
      unfold queue_push
      split_ifs with hm
      · exact ⟨Nat.le_succ _, fun x hx => hx, hm⟩
      · exact ⟨by simp, fun x hx => List.mem_append_left _ hx,
          List.mem_append_right _ (List.mem_singleton_self _)⟩
    refine ⟨?_, fun x hx => i2 x (hq.2.1 x hx), ?_⟩
    · rw [List.length_cons]; omega
    · intro x hx
      rcases List.mem_cons.1 hx with hx | hx
      · rw [hx]; exact i2 a hq.2.2
      · exact i3 x hx

/-- The count of open literals does not grow when clauses are deactivated and unit
literals are added. -/
theorem open_count_mono {s s1 : Cnf} (hc : s1.clauses = s.clauses)
    (ha : s1.active_clauses ⊆ s.active_clauses) (hu : s.unit_literals ⊆ s1.unit_literals) :
    s1.open_count ≤ s.open_count := by
  unfold open_count
  refine le_trans (Finset.sum_le_sum fun c _ => ?_)
    (Finset.sum_le_sum_of_subset (f := fun cid => (s.open_literals cid).card) ha)
  apply Finset.card_le_card
  intro l hl
  unfold open_literals at hl ⊢
  rw [Finset.mem_filter] at hl ⊢
  rw [clause_congr hc c] at hl
  exact ⟨hl.1, fun h => hl.2 (hu h)⟩

/-- When the literal `lit` becomes a unit literal, the count of open literals drops by
at least the number of active clauses that hold `-lit`. -/
theorem open_count_unit {s s1 : Cnf} (lit : Int) (hc : s1.clauses = s.clauses)
    (ha : s1.active_clauses ⊆ s.active_clauses)
    (hu : s1.unit_literals = insert lit s.unit_literals) (hlit : lit ∉ s.unit_literals)
    (K : Finset Int) (hK : ∀ c ∈ K, c ∈ s1.active_clauses ∧ -lit ∈ s.clause c) :
    s1.open_count + K.card ≤ s.open_count := by
  unfold open_count
  have h1 : K.card = s1.active_clauses.sum fun c => if c ∈ K then 1 else 0 := by
    rw [Finset.sum_ite_mem, Finset.sum_const, smul_eq_mul, mul_one]
    congr 1
    ext c
    simp only [Finset.mem_inter]
    exact ⟨fun h => ⟨(hK c h).1, h⟩, fun h => h.2⟩
  rw [h1, ← Finset.sum_add_distrib]
  refine le_trans (Finset.sum_le_sum fun c _ => ?_)
    (Finset.sum_le_sum_of_subset (f := fun cid => (s.open_literals cid).card) ha)
  have hsub : s1.open_literals c ⊆ s.open_literals c := by
    intro l hl
    unfold open_literals at hl ⊢
    rw [Finset.mem_filter] at hl ⊢
    rw [clause_congr hc c] at hl
    exact ⟨hl.1, fun h => hl.2 (by rw [hu]; exact Finset.mem_insert_of_mem h)⟩
  by_cases hcK : c ∈ K
  · simp only [hcK, if_true]
    have hin : -lit ∈ s.open_literals c := by
      unfold open_literals
      rw [Finset.mem_filter, List.mem_toFinset, neg_neg]
      exact ⟨(hK c hcK).2, hlit⟩
    have hout : -lit ∉ s1.open_literals c := by
      unfold open_literals
      rw [Finset.mem_filter, neg_neg, hu]
      intro h
      exact h.2 (Finset.mem_insert_self _ _)
    have hss : s1.open_literals c ⊆ (s.open_literals c).erase (-lit) := by
      intro l hl
      rw [Finset.mem_erase]
      exact ⟨fun h => hout (h ▸ hl), hsub hl⟩
    have := Finset.card_le_card hss
    rw [Finset.card_erase_of_mem hin] at this
    have hpos : 0 < (s.open_literals c).card := Finset.card_pos.2 ⟨_, hin⟩
    omega
  · simp only [hcK, if_false, add_zero]
    exact Finset.card_le_card hsub

theorem sum_map_length_range (l : List (List Int)) :
    (l.map List.length).sum = (Finset.range l.length).sum fun i => (l.getD i []).length := by
  induction l with
  | nil => simp
  | cons a rest ih =>
    rw [List.map_cons, List.sum_cons, List.length_cons, Finset.sum_range_succ', ih]
    simp only [List.getD_cons_succ, List.getD_cons_zero]
    omega

/-- The count of open literals is at most the number of literal occurrences. -/
theorem open_count_le (s : Cnf) : s.open_count ≤ s.literal_count := by
  unfold open_count literal_count
  have h1 : ∀ cid ∈ s.active_clauses, (s.open_literals cid).card ≤
      if 1 ≤ cid then (s.clauses.getD (cid - 1).toNat []).length else 0 := by
    intro cid _
    unfold open_literals
    refine le_trans (Finset.card_filter_le _ _) (le_trans (List.toFinset_card_le _) ?_)
    unfold clause
    by_cases h : cid < 1
    · simp [h]
    · have h2 : 1 ≤ cid := by omega
      simp [h, h2]
  refine le_trans (Finset.sum_le_sum h1) ?_
  rw [sum_map_length_range, ← Finset.sum_filter]
  have hinj : Set.InjOn (fun cid : Int => (cid - 1).toNat)
      ((s.active_clauses.filter fun cid => 1 ≤ cid) : Finset Int) := by
    intro a ha b hb hab
    simp only [Finset.coe_filter, Set.mem_setOf_eq] at ha hb
    simp only at hab
    omega
  rw [← Finset.sum_image (f := fun i => (s.clauses.getD i []).length)
    (g := fun cid : Int => (cid - 1).toNat) hinj]
  have hz : ∀ i, s.clauses.length ≤ i → (s.clauses.getD i []).length = 0 := by
    intro i hi
    rw [List.getD_eq_default _ _ hi]
    rfl
  calc ((s.active_clauses.filter fun cid => 1 ≤ cid).image
          fun cid : Int => (cid - 1).toNat).sum (fun i => (s.clauses.getD i []).length)
      ≤ (((s.active_clauses.filter fun cid => 1 ≤ cid).image
          fun cid : Int => (cid - 1).toNat) ∪ Finset.range s.clauses.length).sum
            (fun i => (s.clauses.getD i []).length) :=
        Finset.sum_le_sum_of_subset Finset.subset_union_left
    _ = (Finset.range s.clauses.length).sum (fun i => (s.clauses.getD i []).length) := by
        symm
        apply Finset.sum_subset Finset.subset_union_right
        intro i _ hi
        exact hz i (by simpa using hi)

theorem bcp_loop_has_conflict (w : Walk) (preprocess : Bool) (fuel : Nat) (s : Cnf) (queue : List Int)
    (count : Nat) (h : s.has_conflict = true) :
    bcp_loop w preprocess fuel s queue count = (s, count) := by
  cases fuel with
  | zero => rfl
  | succ f => unfold bcp_loop; simp only [h, if_true]

theorem bcp_loop_skip (w : Walk) (preprocess : Bool) (fuel : Nat) (s : Cnf) (cid : Int) (rest : List Int)
    (count : Nat) (h0 : s.has_conflict = false) (h1 : cid ∈ s.active_clauses)
    (h2 : s.propagate_clause cid ≠ CONFLICT) (h3 : s.propagate_clause cid = 0) :
    bcp_loop w preprocess (fuel + 1) s (cid :: rest) count =
      bcp_loop w preprocess fuel s rest count := by
  rw [bcp_loop]
  simp only [h0, Bool.false_eq_true, if_false, h1, not_true_eq_false]
  rw [if_neg h2, if_pos h3]

theorem bcp_loop_tautology (w : Walk) (preprocess : Bool) (fuel : Nat) (s : Cnf) (cid : Int)
    (rest : List Int) (count : Nat) (h0 : s.has_conflict = false) (h1 : cid ∈ s.active_clauses)
    (h2 : s.propagate_clause cid ≠ CONFLICT) (h3 : s.propagate_clause cid ≠ 0)
    (h4 : s.propagate_clause cid = TAUTOLOGY) :
    bcp_loop w preprocess (fuel + 1) s (cid :: rest) count =
      bcp_loop w preprocess fuel (s.deactivate_clause cid) rest count := by
  rw [bcp_loop]
  simp only [h0, Bool.false_eq_true, if_false, h1, not_true_eq_false]
  rw [if_neg h2, if_neg h3, if_pos h4]

theorem bcp_loop_conflict (w : Walk) (preprocess : Bool) (fuel : Nat) (s : Cnf) (cid : Int)
    (rest : List Int) (count : Nat) (h0 : s.has_conflict = false) (h1 : cid ∈ s.active_clauses)
    (h2 : s.propagate_clause cid = CONFLICT) :
    bcp_loop w preprocess (fuel + 1) s (cid :: rest) count = (s.trigger_conflict, count) := by
  rw [bcp_loop]
  simp only [h0, Bool.false_eq_true, if_false, h1, not_true_eq_false]
  rw [if_pos h2]
  exact bcp_loop_has_conflict w preprocess fuel _ rest count rfl

/-- The loop of `bcp` with enough rounds: when it ends without a conflict, no active
clause is left to propagate, and the count has grown by the number of BCP unit
literals added. -/
theorem bcp_loop_fix (w : Walk) (hw : w.ok) (preprocess : Bool) : ∀ (fuel : Nat) (s : Cnf) (queue : List Int)
    (count : Nat), s.index_exact → s.bcp_unit_literals ⊆ s.unit_literals →
    (∀ cid ∈ s.active_clauses, ∀ l ∈ s.clause cid, l ≠ 0 ∧ IABS l ≠ TAUTOLOGY) →
    (s.has_conflict = false →
      ∀ cid ∈ s.active_clauses, cid ∉ queue → s.propagate_clause cid = 0) →
    queue.length + s.open_count < fuel →
    (bcp_loop w preprocess fuel s queue count).1.has_conflict = false →
    (∀ cid ∈ (bcp_loop w preprocess fuel s queue count).1.active_clauses,
      (bcp_loop w preprocess fuel s queue count).1.propagate_clause cid = 0) ∧
    (bcp_loop w preprocess fuel s queue count).1.bcp_unit_literals.card + count =
      s.bcp_unit_literals.card + (bcp_loop w preprocess fuel s queue count).2 ∧
    s.bcp_unit_literals ⊆ (bcp_loop w preprocess fuel s queue count).1.bcp_unit_literals ∧
    (bcp_loop w preprocess fuel s queue count).1.clauses = s.clauses ∧
    (bcp_loop w preprocess fuel s queue count).1.active_clauses ⊆ s.active_clauses := by
  intro fuel
  induction fuel with
  | zero => intro s queue count _ _ _ _ hf; omega
  | succ fuel ih =>
    intro s queue count hex hb hlit hfix hf
    by_cases hcf : s.has_conflict = true
    · rw [bcp_loop_has_conflict w preprocess _ s queue count hcf]
      intro h
      rw [hcf] at h; cases h
    · have hcf0 : s.has_conflict = false := by simpa using hcf
      cases queue with
      | nil =>
        have : bcp_loop w preprocess (fuel + 1) s [] count = (s, count) := by
          rw [bcp_loop]; simp only [hcf0, Bool.false_eq_true, if_false]
        rw [this]
        intro _
        exact ⟨fun cid hc => hfix hcf0 cid hc (List.not_mem_nil _), rfl,
          Finset.Subset.refl _, rfl, Finset.Subset.refl _⟩
      | cons cid rest =>
        have hlen : rest.length + s.open_count < fuel := by
          rw [List.length_cons] at hf; omega
        by_cases hact : cid ∈ s.active_clauses
        · by_cases hc1 : s.propagate_clause cid = CONFLICT
          · rw [bcp_loop_conflict w preprocess fuel s cid rest count hcf0 hact hc1]
            intro h
            cases h
          · by_cases hc2 : s.propagate_clause cid = 0
            · rw [bcp_loop_skip w preprocess fuel s cid rest count hcf0 hact hc1 hc2]
              refine ih s rest count hex hb hlit ?_ hlen
              intro _ c hc hcr
              by_cases hcc : c = cid
              · rw [hcc]; exact hc2
              · exact hfix hcf0 c hc (by
                  intro hm
                  rcases List.mem_cons.1 hm with h | h
                  · exact hcc h
                  · exact hcr h)
            · by_cases hc3 : s.propagate_clause cid = TAUTOLOGY
              · rw [bcp_loop_tautology w preprocess fuel s cid rest count hcf0 hact hc1 hc2 hc3]
                have hsub : (s.deactivate_clause cid).active_clauses ⊆ s.active_clauses :=
                  fun c hc => Finset.mem_of_mem_erase hc
                intro hfin
                have hres := ih (s.deactivate_clause cid) rest count
                  (index_exact_deactivate hex cid) hb
                  (fun c hc l hl => hlit c (hsub hc) l hl)
                  (by
                    intro _ c hc hcr
                    have hc0 : c ∈ s.active_clauses.erase cid := hc
                    rw [Finset.mem_erase] at hc0
                    have := hfix hcf0 c hc0.2 (by
                      intro hm
                      rcases List.mem_cons.1 hm with h | h
                      · exact hc0.1 h
                      · exact hcr h)
                    rw [← this]
                    exact propagate_clause_congr c rfl (fun l _ => ⟨Iff.rfl, rfl⟩))
                  (lt_of_le_of_lt (Nat.add_le_add_left
                    (@open_count_mono s (s.deactivate_clause cid) rfl hsub
                      (Finset.Subset.refl _)) _) hlen) hfin
                exact ⟨hres.1, hres.2.1, hres.2.2.1, hres.2.2.2.1, hres.2.2.2.2.trans hsub⟩
              · rw [bcp_loop_unit w preprocess fuel s cid rest count hcf0 hact hc1 hc2 hc3]
                have hlitc := hlit cid hact
                have hspec := propagate_clause_spec s cid hlitc
                have habs : IABS (s.propagate_clause cid) ≠ TAUTOLOGY := by
                  intro ha
                  rcases IABS_eq_cases (ha.trans IABS_TAUTOLOGY.symm) with h1 | h1
                  · exact hc3 h1
                  · exact hc1 h1
                obtain ⟨hnu, hfil⟩ := (hspec.2.2.1 _ hc2 habs).1 rfl
                have hmemf : s.propagate_clause cid ∈
                    (s.clause cid).filter (fun lit => !s.skip_literal lit) := by
                  rw [hfil]; exact List.mem_singleton_self _
                have hmem := (List.mem_filter.1 hmemf).1
                have hskip : s.skip_literal (s.propagate_clause cid) = false := by
                  simpa using (List.mem_filter.1 hmemf).2
                have hn : -s.propagate_clause cid ∉ s.unit_literals := by
                  intro h
                  unfold skip_literal at hskip
                  simp [h] at hskip
                have hu : s.propagate_clause cid ∉ s.unit_literals := hnu _ hmem
                obtain ⟨f1, f2, f3, f4, f5, f6, f7⟩ :=
                  bcp_assign_fields w hw fuel preprocess s cid _ hn hu hex
                generalize bcp_assign w fuel preprocess s cid (s.propagate_clause cid) = s4
                  at f1 f2 f3 f4 f5 f6 f7 ⊢
                generalize hlitdef : s.propagate_clause cid = lit
                  at f2 f3 f7 hn hu hmem hc1 hc2 hc3 ⊢
                have hsub : s4.active_clauses ⊆ s.active_clauses :=
                  fun c hc => ((f7 c).1 hc).1
                have hq := queue_push_fold ((w.order [fuel, 1] (s4.literal_clauses (-lit))).filter
                  fun ocid => decide (ocid ∈ s4.active_clauses)) rest
                have hKcard : ((w.order [fuel, 1] (s4.literal_clauses (-lit))).filter
                    fun ocid => decide (ocid ∈ s4.active_clauses)).length ≤
                    ((s4.literal_clauses (-lit)).filter fun c => c ∈ s4.active_clauses).card := by
                  have hnd : ((w.order [fuel, 1] (s4.literal_clauses (-lit))).filter
                      fun ocid => decide (ocid ∈ s4.active_clauses)).Nodup :=
                    (hw.nodup _ _).filter _
                  rw [← List.toFinset_card_of_nodup hnd]
                  apply Finset.card_le_card
                  intro c hc
                  simp only [List.mem_toFinset, List.mem_filter, hw.mem,
                    decide_eq_true_eq] at hc
                  exact Finset.mem_filter.2 hc
                have hpot := @open_count_unit s s4 lit f1 hsub f2 hu
                  ((s4.literal_clauses (-lit)).filter fun c => c ∈ s4.active_clauses) (by
                    intro c hc
                    rw [Finset.mem_filter] at hc
                    have := (f6 (-lit) c).1 hc.1
                    rw [clause_congr f1 c] at this
                    exact ⟨hc.2, this.2⟩)
                intro hfin
                have hres := ih s4 _ (count + 1) f6
                  (by rw [f2, f3]; exact Finset.insert_subset_insert _ hb)
                  (fun c hc l hl => hlit c (hsub hc) l (by rw [← clause_congr f1 c]; exact hl))
                  (by
                    intro _ c hc hcq
                    obtain ⟨hca, hcne, hcl⟩ := (f7 c).1 hc
                    have hcr : c ∉ rest := fun h => hcq (hq.2.1 c h)
                    have hcn : -lit ∉ s.clause c := by
                      intro h
                      apply hcq
                      apply hq.2.2
                      rw [List.mem_filter, hw.mem]
                      refine ⟨(f6 (-lit) c).2 ⟨hc, by rw [clause_congr f1 c]; exact h⟩, ?_⟩
                      simpa using hc
                    have := hfix hcf0 c hca (by
                      intro hm
                      rcases List.mem_cons.1 hm with h | h
                      · exact hcne h
                      · exact hcr h)
                    rw [← this]
                    apply propagate_clause_congr c (clause_congr f1 c)
                    intro l hl
                    have hl1 : l ≠ lit := fun h => hcl (h ▸ hl)
                    have hl2 : l ≠ -lit := fun h => hcn (h ▸ hl)
                    refine ⟨?_, ?_⟩
                    · rw [f2, Finset.mem_insert]
                      exact ⟨fun h => h.resolve_left hl1, Or.inr⟩
                    · unfold skip_literal
                      rw [f2, f4]
                      have : -l ≠ lit := fun h => hl2 (by omega)
                      simp [Finset.mem_insert, this])
                  (by omega) hfin
                have hcard : s4.bcp_unit_literals.card = s.bcp_unit_literals.card + 1 := by
                  rw [f3, Finset.card_insert_of_not_mem (fun h => hu (hb h))]
                refine ⟨hres.1, ?_, ?_, hres.2.2.2.1.trans f1, hres.2.2.2.2.trans hsub⟩
                · have := hres.2.1
                  omega
                · exact (by rw [f3]; exact Finset.subset_insert _ _ : s.bcp_unit_literals ⊆
                    s4.bcp_unit_literals).trans hres.2.2.1
        · have : bcp_loop w preprocess (fuel + 1) s (cid :: rest) count =
              bcp_loop w preprocess fuel s rest count := by
            rw [bcp_loop]
            simp only [hcf0, Bool.false_eq_true, if_false, hact, not_false_eq_true, if_true]
          rw [this]
          refine ih s rest count hex hb hlit ?_ hlen
          intro _ c hc hcr
          exact hfix hcf0 c hc (by
            intro hm
            rcases List.mem_cons.1 hm with h | h
            · exact hact (h ▸ hc)
            · exact hcr h)

/-- C28. For every state whose literal index is exact, whose BCP unit literals are unit
literals and whose active clauses hold literals of variables, and for every order in
which `bcp` walks the unordered sets of the literal index: when `bcp` returns without
`has_conflict` set, `propagate_clause` returns 0 for every clause still active, no
literal of such a clause is in `unit_literals`, at least two of its literal occurrences
are not skipped, and the returned count is the number of literals added to
`bcp_unit_literals`. -/
theorem bcp_fixpoint (w : Walk) (hw : w.ok) (s : Cnf) (preprocess : Bool) (hex : s.index_exact)
    (hb : s.bcp_unit_literals ⊆ s.unit_literals)
    (hlit : ∀ cid ∈ s.active_clauses, ∀ l ∈ s.clause cid, l ≠ 0 ∧ IABS l ≠ TAUTOLOGY)
    (hnc : (s.bcp w preprocess).1.has_conflict = false) :
    (∀ cid ∈ (s.bcp w preprocess).1.active_clauses,
      (s.bcp w preprocess).1.propagate_clause cid = 0 ∧
      (∀ l ∈ (s.bcp w preprocess).1.clause cid, l ∉ (s.bcp w preprocess).1.unit_literals) ∧
      2 ≤ (((s.bcp w preprocess).1.clause cid).filter
        fun lit => !(s.bcp w preprocess).1.skip_literal lit).length) ∧
    (s.bcp w preprocess).2 =
      ((s.bcp w preprocess).1.bcp_unit_literals \ s.bcp_unit_literals).card := by
  have hfuel : (ascList s.active_clauses).length + s.open_count < s.bcp_fuel := by
    rw [ascList_length]
    have := open_count_le s
    unfold bcp_fuel
    omega
  obtain ⟨r1, r2, r3, r4, r5⟩ := bcp_loop_fix w hw preprocess s.bcp_fuel s
    (ascList s.active_clauses) 0 hex hb hlit (fun _ cid hc hq => absurd ((mem_ascList _ _).2 hc) hq) hfuel hnc
  refine ⟨fun cid hc => ?_, ?_⟩
  · have h0 := r1 cid hc
    have hl : ∀ l ∈ (s.bcp w preprocess).1.clause cid, l ≠ 0 ∧ IABS l ≠ TAUTOLOGY := by
      intro l hl
      have hl1 : l ∈ (bcp_loop w preprocess s.bcp_fuel s (ascList s.active_clauses) 0).1.clause
          cid := hl
      rw [clause_congr r4 cid] at hl1
      exact hlit cid (r5 hc) l hl1
    have := ((propagate_clause_spec _ cid hl).2.2.2).1 h0
    exact ⟨h0, this.1, this.2⟩
  · have h1 : (s.bcp w preprocess).2 + s.bcp_unit_literals.card =
        (s.bcp w preprocess).1.bcp_unit_literals.card := by
      have : (bcp_loop w preprocess s.bcp_fuel s (ascList s.active_clauses) 0).1.bcp_unit_literals.card
          + 0 = s.bcp_unit_literals.card +
          (bcp_loop w preprocess s.bcp_fuel s (ascList s.active_clauses) 0).2 := r2
      show (bcp_loop w preprocess s.bcp_fuel s (ascList s.active_clauses) 0).2 + _ =
        (bcp_loop w preprocess s.bcp_fuel s (ascList s.active_clauses) 0).1.bcp_unit_literals.card
      omega
    have h2 : ((s.bcp w preprocess).1.bcp_unit_literals \ s.bcp_unit_literals).card =
        (s.bcp w preprocess).1.bcp_unit_literals.card - s.bcp_unit_literals.card :=
      Finset.card_sdiff r3
    rw [h2]
    omega

/-- C28 (witness). The theorem `bcp_fixpoint` at the clauses `(x1)`, `(-x1 ∨ x2)` and
`(x3 ∨ x4)`, for the descending walk: `bcp` derives two units and leaves the third clause
active. -/
theorem bcp_fixpoint_witness :
    (([3, 4].foldl add_literal ([-1, 2].foldl add_literal ([1].foldl add_literal
      (Cnf.init 4).new_clause).new_clause).new_clause).bcp revWalk false).2 = 2 ∧
    ∀ cid ∈ (([3, 4].foldl add_literal ([-1, 2].foldl add_literal ([1].foldl add_literal
      (Cnf.init 4).new_clause).new_clause).new_clause).bcp revWalk false).1.active_clauses,
      (([3, 4].foldl add_literal ([-1, 2].foldl add_literal ([1].foldl add_literal
      (Cnf.init 4).new_clause).new_clause).new_clause).bcp revWalk false).1.propagate_clause cid = 0 := by
  have h := bcp_fixpoint revWalk revWalk_ok ([3, 4].foldl add_literal ([-1, 2].foldl add_literal ([1].foldl
    add_literal (Cnf.init 4).new_clause).new_clause).new_clause) false
    (index_reachable_inv (index_reachable.create [3, 4] (index_reachable.create [-1, 2]
      (index_reachable.create [1] (index_reachable.start (Cnf.init 4)
        rfl rfl rfl rfl rfl rfl rfl))))).1.1
    (by decide) (by decide) (by decide)
  exact ⟨h.2.trans (by decide), fun cid hc => (h.1 cid hc).1⟩

end Cnf

namespace Cnf

theorem index_vector_zero : ∀ lengths : List Nat,
    index_vector lengths 0 = lengths.map fun _ => 0 := by
  intro lengths
  induction lengths with
  | nil => rfl
  | cons len ls ih =>
    show (0 % len) :: index_vector ls (0 / len) = 0 :: ls.map fun _ => 0
    rw [Nat.zero_mod, Nat.zero_div, ih]

theorem index_vector_lt : ∀ (lengths : List Nat) (p : Nat), (∀ len ∈ lengths, 1 ≤ len) →
    List.Forall₂ (fun idx len => idx < len) (index_vector lengths p) lengths := by
  intro lengths
  induction lengths with
  | nil => intro p _; exact List.Forall₂.nil
  | cons len ls ih =>
    intro p h
    exact List.Forall₂.cons (Nat.mod_lt _ (h len (List.mem_cons_self _ _)))
      (ih _ fun l hl => h l (List.mem_cons_of_mem _ hl))

theorem increment_index_vector : ∀ (lengths : List Nat) (p : Nat),
    (∀ len ∈ lengths, 1 ≤ len) → p < lengths.prod →
    increment_indices lengths (index_vector lengths p) =
      (decide (p + 1 < lengths.prod), index_vector lengths (p + 1)) := by
  intro lengths
  induction lengths with
  | nil =>
    intro p _ hp
    have : p = 0 := by simpa using hp
    subst this
    rfl
  | cons len ls ih =>
    intro p h hp
    have hlen : 1 ≤ len := h len (List.mem_cons_self _ _)
    have hls : ∀ l ∈ ls, 1 ≤ l := fun l hl => h l (List.mem_cons_of_mem _ hl)
    rw [List.prod_cons] at hp ⊢
    have hq : p / len < ls.prod := by
      rw [Nat.div_lt_iff_lt_mul (by omega)]
      rw [Nat.mul_comm]; exact hp
    have hdm := Nat.div_add_mod p len
    have hr : p % len < len := Nat.mod_lt _ (by omega)
    show increment_indices (len :: ls) ((p % len) :: index_vector ls (p / len)) =
      (decide (p + 1 < len * ls.prod),
        ((p + 1) % len) :: index_vector ls ((p + 1) / len))
    unfold increment_indices
    by_cases hc : p % len + 1 < len
    · simp only [hc, if_true]
      have e1 : p + 1 = len * (p / len) + (p % len + 1) := by omega
      have e2 : (p + 1) % len = p % len + 1 := by
        rw [e1, Nat.mul_add_mod, Nat.mod_eq_of_lt hc]
      have e3 : (p + 1) / len = p / len := by
        rw [e1, Nat.mul_add_div (by omega), Nat.div_eq_of_lt hc, Nat.add_zero]
      have e4 : p + 1 < len * ls.prod := by
        have : len * (p / len + 1) ≤ len * ls.prod := Nat.mul_le_mul_left _ hq
        rw [Nat.mul_add, Nat.mul_one] at this
        omega
      rw [e2, e3]
      simp only [e4, decide_True]
    · simp only [hc, if_false]
      rw [ih (p / len) hls hq]
      have e1 : p + 1 = len * (p / len + 1) := by
        rw [Nat.mul_add, Nat.mul_one]; omega
      have e2 : (p + 1) % len = 0 := by
        rw [e1]; exact Nat.mul_mod_right _ _
      have e3 : (p + 1) / len = p / len + 1 := by
        rw [e1]; exact Nat.mul_div_cancel_left _ (by omega)
      rw [e2, e3]
      have e4 : (p / len + 1 < ls.prod) ↔ (p + 1 < len * ls.prod) := by
        rw [e1]
        exact (Nat.mul_lt_mul_left (by omega : 0 < len)).symm
      simp only [e4]

theorem range_mul_map {α : Type} (g : Nat → Nat → α) (a : Nat) (ha : 0 < a) : ∀ b : Nat,
    (List.range (a * b)).map (fun p => g (p % a) (p / a)) =
      (List.range b).flatMap fun q => (List.range a).map fun r => g r q := by
  intro b
  induction b with
  | zero => simp
  | succ b ih =>
    rw [Nat.mul_succ, List.range_add, List.map_append, ih, List.range_succ,
      List.flatMap_append]
    congr 1
    rw [List.map_map]
    simp only [List.flatMap_cons, List.flatMap_nil, List.append_nil]
    apply List.map_congr_left
    intro r hr
    have hr1 : r < a := List.mem_range.1 hr
    show g ((a * b + r) % a) ((a * b + r) / a) = g r b
    rw [Nat.mul_add_mod, Nat.mod_eq_of_lt hr1, Nat.mul_add_div ha, Nat.div_eq_of_lt hr1,
      Nat.add_zero]

theorem map_range_getD (l : List Int) {α : Type} (f : Int → α) :
    (List.range l.length).map (fun r => f (l.getD r 0)) = l.map f := by
  apply List.ext_getElem
  · simp
  · intro n h1 h2
    simp only [List.getElem_map, List.getElem_range]
    have : n < l.length := by simpa using h2
    rw [List.getD_eq_getElem _ _ this]

theorem tuples_eq_pick : ∀ ls : List (List Int), (∀ l ∈ ls, l ≠ []) →
    (List.range (ls.map List.length).prod).map
      (fun p => pick ls (index_vector (ls.map List.length) p)) = tuples ls := by
  intro ls
  induction ls with
  | nil => intro _; rfl
  | cons l ls ih =>
    intro h
    have hl : 0 < l.length := List.length_pos.2 (h l (List.mem_cons_self _ _))
    rw [List.map_cons, List.prod_cons]
    have := range_mul_map (fun r q => l.getD r 0 :: pick ls (index_vector (ls.map List.length) q))
      l.length hl (ls.map List.length).prod
    show (List.range (l.length * (ls.map List.length).prod)).map
      (fun p => l.getD (p % l.length) 0 ::
        pick ls (index_vector (ls.map List.length) (p / l.length))) = _
    rw [this]
    show _ = (tuples ls).flatMap fun t => l.map fun x => x :: t
    rw [← ih fun x hx => h x (List.mem_cons_of_mem _ hx), List.flatMap_map]
    apply List.flatMap_congr
    intro q _
    exact map_range_getD l fun x => x :: pick ls (index_vector (ls.map List.length) q)

theorem tuples_perm : ∀ {ls ms : List (List Int)}, List.Forall₂ List.Perm ls ms →
    List.Perm (tuples ls) (tuples ms) := by
  intro ls ms h
  induction h with
  | nil => exact List.Perm.refl _
  | cons hp _ ih =>
    show List.Perm (List.flatMap _ _) (List.flatMap _ _)
    refine (List.Perm.flatMap_right _ ih).trans (List.Perm.flatMap_left _ fun t _ => ?_)
    exact hp.map _

theorem expand_fuel_le : ∀ lengths : List Nat, lengths.prod ≤ expand_fuel lengths := by
  intro lengths
  induction lengths with
  | nil => exact le_refl _
  | cons len ls ih =>
    unfold expand_fuel at ih ⊢
    rw [List.map_cons, List.prod_cons, List.prod_cons]
    exact Nat.mul_le_mul (by omega) ih

theorem filter_eq_take (q : Int → Bool) : ∀ (l : List Int) (n : Nat), n ≤ l.length →
    (∀ i, i < n → q (l.getD i 0) = true) →
    (∀ i, n ≤ i → i < l.length → q (l.getD i 0) = false) → l.filter q = l.take n := by
  intro l
  induction l with
  | nil => intro n _ _ _; simp
  | cons x xs ih =>
    intro n hn h1 h2
    cases n with
    | zero =>
      rw [List.take_zero, List.filter_eq_nil_iff]
      intro a ha
      obtain ⟨i, hi, rfl⟩ := List.mem_iff_getElem.1 ha
      have := h2 i (Nat.zero_le _) hi
      rw [List.getD_eq_getElem _ _ hi] at this
      simp [this]
    | succ m =>
      have hx : q x = true := h1 0 (Nat.succ_pos _)
      rw [List.filter_cons_of_pos hx, List.take_succ_cons]
      congr 1
      apply ih m (by simpa using hn)
      · intro i hi
        exact h1 (i + 1) (by omega)
      · intro i hi hl
        exact h2 (i + 1) (by omega) (by simpa using hl)

theorem swap_getD (l : List Int) (i j k : Nat) (hi : i < l.length) (hj : j < l.length) :
    ((l.set i (l.getD j 0)).set j (l.getD i 0)).getD k 0 =
      if k = j then l.getD i 0 else if k = i then l.getD j 0 else l.getD k 0 := by
  simp only [List.getD_eq_getElem?_getD, List.getElem?_set, List.length_set]
  by_cases h1 : j = k
  · subst h1
    simp [hj]
  · have h1' : ¬ k = j := fun h => h1 h.symm
    simp only [h1, h1', if_false]
    by_cases h2 : i = k
    · subst h2
      simp [hi]
    · have h2' : ¬ k = i := fun h => h2 h.symm
      simp only [h2, h2', if_false]

theorem swap_perm (l : List Int) (i j : Nat) (hi : i < l.length) (hj : j < l.length) :
    List.Perm ((l.set i (l.getD j 0)).set j (l.getD i 0)) l := by
  have e1 : l.getD j 0 = l[j] := List.getD_eq_getElem _ _ hj
  have e2 : l.getD i 0 = l[i] := List.getD_eq_getElem _ _ hi
  rw [e1, e2, List.perm_iff_count]
  intro b
  have hj1 : j < (l.set i l[j]).length := by simpa using hj
  rw [List.count_set _ _ _ _ hj1, List.count_set _ _ _ _ hi]
  have ci : (if (l[i] == b) = true then 1 else 0) ≤ l.count b := by
    by_cases h : l[i] = b
    · simp only [h, beq_self_eq_true, if_true]
      exact List.count_pos_iff.2 (h ▸ List.getElem_mem hi)
    · have : (l[i] == b) = false := by simpa using h
      simp [this]
  by_cases hij : i = j
  · subst hij
    simp only [List.getElem_set_self]
    omega
  · rw [List.getElem_set_ne hij]
    omega

theorem swap_literals_clause (s : Cnf) (cid : Int) (i j : Nat) (h1 : 1 ≤ cid)
    (h2 : cid ≤ (s.clauses.length : Int)) :
    (s.swap_literals cid i j).clause cid =
      ((s.clause cid).set i ((s.clause cid).getD j 0)).set j ((s.clause cid).getD i 0) := by
  have h3 : ¬ cid < 1 := by omega
  have h4 : (cid - 1).toNat < s.clauses.length := by omega
  unfold swap_literals
  simp only []
  generalize (((s.clause cid).set i ((s.clause cid).getD j 0)).set j
    ((s.clause cid).getD i 0)) = x
  unfold clause
  simp only [h3, if_false, List.getD_eq_getElem?_getD, List.getElem?_set, h4, if_true]
  rfl

theorem swap_literals_clause_ne (s : Cnf) (cid c : Int) (i j : Nat) (h1 : 1 ≤ cid)
    (hc : c ≠ cid) : (s.swap_literals cid i j).clause c = s.clause c := by
  unfold swap_literals
  simp only []
  generalize (((s.clause cid).set i ((s.clause cid).getD j 0)).set j
    ((s.clause cid).getD i 0)) = x
  unfold clause
  by_cases h3 : c < 1
  · simp only [h3, if_true]
  · have h5 : (cid - 1).toNat ≠ (c - 1).toNat := by omega
    simp only [h3, if_false, List.getD_eq_getElem?_getD, List.getElem?_set, h5]

theorem other_test_congr {r s : Cnf} (h1 : r.unit_literals = s.unit_literals)
    (h2 : r.uquantified_variables = s.uquantified_variables) (lit : Int) :
    other_test r lit = other_test s lit := by
  funext clit
  unfold other_test skip_literal
  rw [h1, h2]

/-- The partition loop on one clause: it ends with the literals that are not `lit` and not
skipped in front, the clause permuted and every other clause untouched. -/
theorem expand_partition_spec (lit cid : Int) (h1 : 1 ≤ cid) : ∀ (fuel : Nat) (s : Cnf)
    (lid len : Nat), cid ≤ (s.clauses.length : Int) → lid ≤ len →
    len ≤ (s.clause cid).length → len - lid ≤ fuel →
    (∀ i, i < lid → other_test s lit ((s.clause cid).getD i 0) = true) →
    (∀ i, len ≤ i → i < (s.clause cid).length →
      other_test s lit ((s.clause cid).getD i 0) = false) →
    ∃ r n, expand_partition lit cid fuel s lid len = some (r, n) ∧
      r.unit_literals = s.unit_literals ∧
      r.uquantified_variables = s.uquantified_variables ∧
      r.clauses.length = s.clauses.length ∧
      (∀ c, c ≠ cid → r.clause c = s.clause c) ∧
      List.Perm (r.clause cid) (s.clause cid) ∧
      n ≤ (r.clause cid).length ∧
      (∀ i, i < n → other_test s lit ((r.clause cid).getD i 0) = true) ∧
      (∀ i, n ≤ i → i < (r.clause cid).length →
        other_test s lit ((r.clause cid).getD i 0) = false) := by
  intro fuel
  induction fuel with
  | zero =>
    intro s lid len _ h3 h4 h5 h6 h7
    have : ¬ lid < len := by omega
    have e : lid = len := by omega
    unfold expand_partition
    simp only [this, if_false]
    exact ⟨s, len, rfl, rfl, rfl, rfl, fun _ _ => rfl, List.Perm.refl _, h4,
      fun i hi => h6 i (by omega), h7⟩
  | succ fuel ih =>
    intro s lid len h2 h3 h4 h5 h6 h7
    unfold expand_partition
    by_cases hl : lid < len
    · simp only [hl, if_true]
      have hlt : lid < (s.clause cid).length := by omega
      have hget : s.get_literal cid lid = some ((s.clause cid).getD lid 0) := by
        unfold get_literal
        rw [List.getD_eq_getElem _ _ hlt]
        exact List.getElem?_eq_getElem hlt
      rw [hget]
      simp only []
      by_cases hc : (s.clause cid).getD lid 0 = lit ∨
          s.skip_literal ((s.clause cid).getD lid 0) = true
      · simp only [hc, if_true]
        have hun : other_test s lit ((s.clause cid).getD lid 0) = false := by
          unfold other_test
          rcases hc with h | h
          · rw [h]; simp
          · rw [h]; simp
        have hj : len - 1 < (s.clause cid).length := by omega
        have hcl := swap_literals_clause s cid lid (len - 1) h1 h2
        have hlen : (s.swap_literals cid lid (len - 1)).clauses.length = s.clauses.length := by
          unfold swap_literals
          simp only [List.length_set]
        have hot : other_test (s.swap_literals cid lid (len - 1)) lit = other_test s lit :=
          other_test_congr rfl rfl lit
        obtain ⟨r, n, e1, e2, e3, e4, e5, e6, e7, e8, e9⟩ :=
          ih (s.swap_literals cid lid (len - 1)) lid (len - 1) (by rw [hlen]; exact h2)
            (by omega) (by rw [hcl]; simp only [List.length_set]; omega) (by omega)
            (by
              intro i hi
              rw [hot, hcl, swap_getD _ _ _ _ hlt hj]
              have a1 : ¬ i = len - 1 := by omega
              have a2 : ¬ i = lid := by omega
              simp only [a1, a2, if_false]
              exact h6 i hi)
            (by
              intro i hi hi2
              rw [hcl] at hi2
              simp only [List.length_set] at hi2
              rw [hot, hcl, swap_getD _ _ _ _ hlt hj]
              by_cases a1 : i = len - 1
              · simp only [a1, if_true]
                exact hun
              · have a2 : ¬ i = lid := by omega
                simp only [a1, a2, if_false]
                exact h7 i (by omega) hi2)
        refine ⟨r, n, e1, e2, e3, e4.trans hlen, ?_, ?_, e7, ?_, ?_⟩
        · intro c hc
          rw [e5 c hc]
          exact swap_literals_clause_ne s cid c lid (len - 1) h1 hc
        · refine e6.trans ?_
          rw [hcl]
          exact swap_perm _ _ _ hlt hj
        · intro i hi
          have := e8 i hi
          rw [hot] at this
          exact this
        · intro i hi hi2
          have := e9 i hi hi2
          rw [hot] at this
          exact this
      · simp only [hc, if_false]
        have hot : other_test s lit ((s.clause cid).getD lid 0) = true := by
          unfold other_test
          have a1 : ¬ (s.clause cid).getD lid 0 = lit := fun h => hc (Or.inl h)
          have a2 : s.skip_literal ((s.clause cid).getD lid 0) = false := by
            cases h : s.skip_literal ((s.clause cid).getD lid 0)
            · rfl
            · exact absurd (Or.inr h) hc
          rw [a2, decide_eq_false a1]
          rfl
        exact ih s (lid + 1) len h2 (by omega) h4 (by omega)
          (by
            intro i hi
            by_cases a : i = lid
            · rw [a]; exact hot
            · exact h6 i (by omega))
          h7
    · simp only [hl, if_false]
      have e : lid = len := by omega
      exact ⟨s, len, rfl, rfl, rfl, rfl, fun _ _ => rfl, List.Perm.refl _, h4,
        fun i hi => h6 i (by omega), h7⟩

theorem other_literals_eq (s : Cnf) (lit cid : Int) :
    other_literals s lit cid = (s.clause cid).filter (other_test s lit) := rfl

theorem parted_length {s : Cnf} {lit cid : Int} {n : Nat} (h : parted s lit cid n) :
    n = (other_literals s lit cid).length := by
  rw [h.1, List.length_take]
  exact (Nat.min_eq_left h.2).symm

theorem expand_lengths_spec (lit : Int) : ∀ (cids : List Int) (s : Cnf) (done : List Int)
    (lengths : List Nat), (∀ cid ∈ cids, 1 ≤ cid ∧ cid ≤ (s.clauses.length : Int)) →
    List.Forall₂ (parted s lit) done lengths →
    ∃ r lens, expand_lengths lit cids s lengths = some (r, lens) ∧
      r.unit_literals = s.unit_literals ∧
      r.uquantified_variables = s.uquantified_variables ∧
      r.clauses.length = s.clauses.length ∧
      (∀ c, List.Perm (r.clause c) (s.clause c)) ∧
      List.Forall₂ (parted r lit) (done ++ cids) lens := by
  intro cids
  induction cids with
  | nil =>
    intro s done lengths _ hd
    refine ⟨s, lengths, rfl, rfl, rfl, rfl, fun _ => List.Perm.refl _, ?_⟩
    rw [List.append_nil]
    exact hd
  | cons cid rest ih =>
    intro s done lengths hv hd
    obtain ⟨v1, v2⟩ := hv cid (List.mem_cons_self _ _)
    obtain ⟨r1, n, e1, e2, e3, e4, e5, e6, e7, e8, e9⟩ :=
      expand_partition_spec lit cid v1 (s.clause_length cid) s 0 (s.clause_length cid) v2
        (Nat.zero_le _) (le_refl _) (by omega) (fun i hi => absurd hi (Nat.not_lt_zero _))
        (fun i hi hi2 => absurd hi (by unfold clause_length; omega))
    have hot : other_test r1 lit = other_test s lit := other_test_congr e2 e3 lit
    have hp1 : parted r1 lit cid n := by
      refine ⟨?_, e7⟩
      rw [other_literals_eq, hot]
      exact filter_eq_take _ _ n e7 e8 e9
    have hperm : ∀ c, List.Perm (r1.clause c) (s.clause c) := by
      intro c
      by_cases hc : c = cid
      · rw [hc]; exact e6
      · rw [e5 c hc]
    have hpres : ∀ c m, parted s lit c m → parted r1 lit c m := by
      intro c m hm
      by_cases hc : c = cid
      · subst hc
        have a1 := parted_length hm
        have a2 := parted_length hp1
        have a3 : (other_literals r1 lit c).length = (other_literals s lit c).length := by
          rw [other_literals_eq, other_literals_eq, hot]
          exact (e6.filter _).length_eq
        have : m = n := by omega
        rw [this]
        exact hp1
      · unfold parted at hm ⊢
        rw [other_literals_eq, hot, e5 c hc]
        exact hm
    have hd1 : List.Forall₂ (parted r1 lit) (done ++ [cid]) (lengths ++ [n]) :=
      List.rel_append (hd.imp fun c m hx => hpres c m hx)
        (List.Forall₂.cons hp1 List.Forall₂.nil)
    obtain ⟨r, lens, f1, f2, f3, f4, f5, f6⟩ := ih r1 (done ++ [cid]) (lengths ++ [n])
      (fun c hc => by
        rw [e4]
        exact hv c (List.mem_cons_of_mem _ hc)) hd1
    refine ⟨r, lens, ?_, f2.trans e2, f3.trans e3, f4.trans e4,
      fun c => (f5 c).trans (hperm c), ?_⟩
    · unfold expand_lengths
      have hvalid : ¬ (cid < 1 ∨ s.maximum_clause_id < cid) := by
        unfold maximum_clause_id
        omega
      simp only [hvalid, if_false, e1]
      exact f1
    · rw [List.append_assoc] at f6
      exact f6

theorem clause_of_length {a b : Cnf} (hlen : b.clauses.length ≤ a.clauses.length)
    (h : ∀ cid : Int, 1 ≤ cid → cid ≤ (b.clauses.length : Int) → a.clause cid = b.clause cid)
    (lits : List Int) :
    (lits.foldl add_literal a.new_clause).clauses.length = a.clauses.length + 1 ∧
    ∀ cid : Int, 1 ≤ cid → cid ≤ (b.clauses.length : Int) →
      (lits.foldl add_literal a.new_clause).clause cid = b.clause cid := by
  refine ⟨by rw [create_clauses]; simp, fun cid h1 h2 => ?_⟩
  rw [create_clause_old a lits cid h1 (by omega)]
  exact h cid h1 h2

theorem expand_literals_eq (s0 : Cnf) : ∀ (cids : List Int) (indices : List Nat)
    (pre : List Int),
    (∀ x ∈ cids.zip indices, 1 ≤ x.1 ∧ x.1 ≤ (s0.clauses.length : Int) ∧
      x.2 < (s0.clause x.1).length) →
    expand_literals cids indices (pre.foldl add_literal s0.new_clause) =
      some ((pre ++ (cids.zip indices).map fun x => -(s0.clause x.1).getD x.2 0).foldl
        add_literal s0.new_clause) := by
  intro cids
  induction cids with
  | nil =>
    intro indices pre _
    simp [expand_literals]
  | cons cid rest ih =>
    intro indices pre h
    cases indices with
    | nil => simp [expand_literals]
    | cons idx indices =>
      obtain ⟨h1, h2, h3⟩ := h (cid, idx) (by simp)
      have hget : (pre.foldl add_literal s0.new_clause).get_literal cid idx =
          some ((s0.clause cid).getD idx 0) := by
        unfold get_literal
        rw [create_clause_old s0 pre cid h1 h2, List.getD_eq_getElem _ _ h3]
        exact List.getElem?_eq_getElem h3
      unfold expand_literals
      rw [hget]
      simp only []
      have := ih indices (pre ++ [-(s0.clause cid).getD idx 0]) (fun x hx => h x (by
        rw [List.zip_cons_cons]
        exact List.mem_cons_of_mem _ hx))
      rw [List.foldl_append] at this
      rw [show (List.foldl add_literal s0.new_clause pre).add_literal
        (-(s0.clause cid).getD idx 0) = List.foldl add_literal
          (List.foldl add_literal s0.new_clause pre) [-(s0.clause cid).getD idx 0] from rfl,
        this]
      simp

theorem zip_bounds {α : Type} {R : α → Nat → Prop} : ∀ {cids : List α} {lengths : List Nat},
    List.Forall₂ R cids lengths → ∀ {indices : List Nat},
    List.Forall₂ (fun idx len => idx < len) indices lengths →
    ∀ x ∈ cids.zip indices, ∃ len, R x.1 len ∧ x.2 < len := by
  intro cids lengths h
  induction h with
  | nil =>
    intro indices _ x hx
    simp at hx
  | cons hr _ ih =>
    intro indices hi x hx
    cases hi with
    | cons hlt hrest =>
      rw [List.zip_cons_cons, List.mem_cons] at hx
      rcases hx with hx | hx
      · rw [hx]; exact ⟨_, hr, hlt⟩
      · exact ih hrest x hx

theorem expand_loop_eq (lit : Int) (cids : List Int) (lengths : List Nat) (s1 : Cnf)
    (hpos : ∀ len ∈ lengths, 1 ≤ len)
    (hvalid : ∀ cid ∈ cids, 1 ≤ cid ∧ cid ≤ (s1.clauses.length : Int))
    (hv : List.Forall₂ (fun cid len => len ≤ (s1.clause cid).length) cids lengths) :
    ∀ (fuel p : Nat) (s : Cnf), p < lengths.prod → lengths.prod - p ≤ fuel →
    s1.clauses.length ≤ s.clauses.length →
    (∀ cid : Int, 1 ≤ cid → cid ≤ (s1.clauses.length : Int) → s.clause cid = s1.clause cid) →
    ∃ r, expand_loop lit cids lengths fuel s (index_vector lengths p) = some r ∧
      r.clauses = s.clauses ++ (List.range' p (lengths.prod - p)).map
        fun q => emit s1 lit cids (index_vector lengths q) := by
  intro fuel
  induction fuel with
  | zero => intro p s h1 h2; omega
  | succ fuel ih =>
    intro p s h1 h2 h3 h4
    have hb := zip_bounds hv (index_vector_lt lengths p hpos)
    have hlits := expand_literals_eq s cids (index_vector lengths p) [-lit] (by
      intro x hx
      obtain ⟨len, a3, a4⟩ := hb x hx
      obtain ⟨a1, a2⟩ := hvalid x.1 (List.of_mem_zip hx).1
      refine ⟨a1, by omega, ?_⟩
      rw [h4 x.1 a1 a2]
      omega)
    have hsel : ((cids.zip (index_vector lengths p)).map
        fun x => -(s.clause x.1).getD x.2 0) =
        (cids.zip (index_vector lengths p)).map fun x => -(s1.clause x.1).getD x.2 0 := by
      apply List.map_congr_left
      intro x hx
      obtain ⟨a1, a2⟩ := hvalid x.1 (List.of_mem_zip hx).1
      rw [h4 x.1 a1 a2]
    rw [hsel] at hlits
    have hnew := clause_of_length h3 h4
      ([-lit] ++ (cids.zip (index_vector lengths p)).map fun x => -(s1.clause x.1).getD x.2 0)
    have hcl := create_clauses s
      ([-lit] ++ (cids.zip (index_vector lengths p)).map fun x => -(s1.clause x.1).getD x.2 0)
    unfold expand_loop
    rw [show s.new_clause.add_literal (-lit) = [-lit].foldl add_literal s.new_clause from rfl,
      hlits]
    simp only []
    rw [increment_index_vector lengths p hpos h1]
    have hr : List.range' p (lengths.prod - p) =
        p :: List.range' (p + 1) (lengths.prod - (p + 1)) := by
      have : lengths.prod - p = (lengths.prod - (p + 1)) + 1 := by omega
      rw [this, List.range'_succ]
    by_cases hlast : p + 1 < lengths.prod
    · simp only [hlast, decide_True, if_true]
      obtain ⟨r, e1, e2⟩ := ih (p + 1) _ hlast (by omega) (by rw [hnew.1]; omega) hnew.2
      refine ⟨r, e1, ?_⟩
      rw [e2, hcl, hr, List.map_cons, List.append_assoc]
      rfl
    · simp only [hlast, decide_False, Bool.false_eq_true, if_false]
      refine ⟨_, rfl, ?_⟩
      have : lengths.prod - (p + 1) = 0 := by omega
      rw [hcl, hr, this]
      rfl

theorem emit_eq (s : Cnf) (lit : Int) : ∀ {cids : List Int} {lengths : List Nat},
    List.Forall₂ (parted s lit) cids lengths → ∀ {indices : List Nat},
    List.Forall₂ (fun idx len => idx < len) indices lengths →
    emit s lit cids indices =
      blocked_clause lit (pick (cids.map (other_literals s lit)) indices) := by
  intro cids lengths h
  induction h with
  | nil => intro indices _; rfl
  | cons hr _ ih =>
    intro indices hi
    cases hi with
    | cons hlt hrest =>
      have := ih hrest
      unfold emit blocked_clause pick at this ⊢
      rw [List.cons.injEq] at this
      rw [List.map_cons, List.zip_cons_cons, List.zip_cons_cons, List.map_cons, List.map_cons,
        List.map_cons, this.2]
      congr 2
      show -(List.getD _ _ 0) = -(List.getD _ _ 0)
      rw [hr.1, List.getD_eq_getElem?_getD, List.getD_eq_getElem?_getD,
        List.getElem?_take_of_lt hlt]

theorem parted_lengths (s : Cnf) (lit : Int) : ∀ {cids : List Int} {lengths : List Nat},
    List.Forall₂ (parted s lit) cids lengths →
    lengths = (cids.map (other_literals s lit)).map List.length := by
  intro cids lengths h
  induction h with
  | nil => rfl
  | cons hr _ ih => rw [List.map_cons, List.map_cons, ← ih, ← parted_length hr]

theorem clause_valid (s : Cnf) (cid : Int) (h : s.clause cid ≠ []) :
    1 ≤ cid ∧ cid ≤ (s.clauses.length : Int) := by
  unfold clause at h
  by_cases h1 : cid < 1
  · simp only [h1, if_true] at h
    exact absurd rfl h
  · simp only [h1, if_false] at h
    refine ⟨by omega, ?_⟩
    by_contra h2
    apply h
    rw [List.getD_eq_getElem?_getD, List.getElem?_eq_none (by omega)]
    rfl

theorem clauses_perm {a b : Cnf} (hlen : a.clauses.length = b.clauses.length)
    (h : ∀ c, List.Perm (a.clause c) (b.clause c)) : List.Forall₂ List.Perm a.clauses b.clauses := by
  rw [List.forall₂_iff_get]
  refine ⟨hlen, fun i h1 h2 => ?_⟩
  have := h ((i : Int) + 1)
  unfold clause at this
  have h3 : ¬ ((i : Int) + 1 < 1) := by omega
  have h4 : ((i : Int) + 1 - 1).toNat = i := by omega
  simp only [h3, if_false, h4, List.getD_eq_getElem?_getD, List.getElem?_eq_getElem h1,
    List.getElem?_eq_getElem h2, Option.getD_some] at this
  exact this

theorem tuples_length (ls : List (List Int)) (h : ∀ l ∈ ls, l ≠ []) :
    (tuples ls).length = (ls.map List.length).prod := by
  rw [← tuples_eq_pick ls h, List.length_map, List.length_range]

/-- C37 (counterexample). For the single clause `[1]` and the literal 1 there is no
literal to pick, so there is no tuple and the product of the numbers is 0, but
`blocked_clause_expand` adds the clause `[-1, -1]`. -/
theorem blocked_clause_expand_counterexample :
    ((([1].foldl add_literal (Cnf.init 1).new_clause).blocked_clause_expand 1 [1]).map
      fun r => r.clauses.drop 1) = some [[-1, -1]] ∧
    tuples ([1].map (other_literals ([1].foldl add_literal (Cnf.init 1).new_clause) 1)) = [] ∧
    ([1].map fun cid =>
      (other_literals ([1].foldl add_literal (Cnf.init 1).new_clause) 1 cid).length).prod
        = 0 := by
  decide

/-- C37. For every state, literal `lit` and clause list in which every clause has at
least one literal that is not `lit` and not skipped: `blocked_clause_expand` returns, the
clauses that were there are kept up to the order of their literals, the clauses added are,
with multiplicity, the clauses `-lit, -l_1, .., -l_k` of the tuples that pick one such
literal from each clause of the list, and their number is the product of the numbers of
such literals. -/
theorem blocked_clause_expand_spec (s : Cnf) (lit : Int) (clause_list : List Int)
    (h : ∀ cid ∈ clause_list, other_literals s lit cid ≠ []) :
    ∃ r, s.blocked_clause_expand lit clause_list = some r ∧
      List.Forall₂ List.Perm (r.clauses.take s.clauses.length) s.clauses ∧
      List.Perm (r.clauses.drop s.clauses.length)
        ((tuples (clause_list.map (other_literals s lit))).map (blocked_clause lit)) ∧
      (r.clauses.drop s.clauses.length).length =
        (clause_list.map fun cid => (other_literals s lit cid).length).prod := by
  have hvalid : ∀ cid ∈ clause_list, 1 ≤ cid ∧ cid ≤ (s.clauses.length : Int) := by
    intro cid hc
    apply clause_valid
    intro he
    apply h cid hc
    unfold other_literals
    rw [he]
    rfl
  obtain ⟨r1, lens, e1, e2, e3, e4, e5, e6⟩ :=
    expand_lengths_spec lit clause_list s [] [] hvalid List.Forall₂.nil
  rw [List.nil_append] at e6
  have hot : other_test r1 lit = other_test s lit := other_test_congr e2 e3 lit
  have hoperm : ∀ cid, List.Perm (other_literals r1 lit cid) (other_literals s lit cid) := by
    intro cid
    rw [other_literals_eq, other_literals_eq, hot]
    exact (e5 cid).filter _
  have hne1 : ∀ l ∈ clause_list.map (other_literals r1 lit), l ≠ [] := by
    intro l hl
    obtain ⟨cid, hc, rfl⟩ := List.mem_map.1 hl
    intro he
    apply h cid hc
    have := (hoperm cid).length_eq
    rw [he] at this
    exact List.length_eq_zero.1 this.symm
  have hlens := parted_lengths r1 lit e6
  have hpos : ∀ len ∈ lens, 1 ≤ len := by
    intro len hl
    rw [hlens] at hl
    obtain ⟨l, hl1, rfl⟩ := List.mem_map.1 hl
    exact List.length_pos.2 (hne1 l hl1)
  have hprod : 0 < lens.prod := by
    apply Nat.pos_of_ne_zero
    intro h0
    rw [List.prod_eq_zero_iff] at h0
    have := hpos 0 h0
    omega
  obtain ⟨r, f1, f2⟩ := expand_loop_eq lit clause_list lens r1 hpos
    (fun cid hc => by rw [e4]; exact hvalid cid hc) (e6.imp fun _ _ hx => hx.2)
    (expand_fuel lens) 0 r1 hprod (by have := expand_fuel_le lens; omega) (le_refl _)
    (fun _ _ _ => rfl)
  have hadd : (List.range' 0 (lens.prod - 0)).map
      (fun q => emit r1 lit clause_list (index_vector lens q)) =
      (tuples (clause_list.map (other_literals r1 lit))).map (blocked_clause lit) := by
    rw [Nat.sub_zero, ← List.range_eq_range', ← tuples_eq_pick _ hne1, List.map_map, ← hlens]
    apply List.map_congr_left
    intro q _
    exact emit_eq r1 lit e6 (index_vector_lt lens q hpos)
  rw [hadd] at f2
  have htup : List.Perm (tuples (clause_list.map (other_literals r1 lit)))
      (tuples (clause_list.map (other_literals s lit))) := by
    apply tuples_perm
    rw [List.forall₂_map_left_iff, List.forall₂_map_right_iff]
    exact List.forall₂_same.2 fun cid _ => hoperm cid
  have hdrop : r.clauses.drop s.clauses.length =
      (tuples (clause_list.map (other_literals r1 lit))).map (blocked_clause lit) := by
    rw [f2, ← e4]
    exact List.drop_left _ _
  have htake : r.clauses.take s.clauses.length = r1.clauses := by
    rw [f2, ← e4]
    exact List.take_left _ _
  refine ⟨r, ?_, ?_, ?_, ?_⟩
  · unfold blocked_clause_expand
    rw [e1]
    simp only []
    rw [← index_vector_zero]
    exact f1
  · rw [htake]
    exact clauses_perm e4 e5
  · rw [hdrop]
    exact htup.map _
  · rw [hdrop, List.length_map, htup.length_eq, tuples_length _ (by
      intro l hl
      obtain ⟨cid, hc, rfl⟩ := List.mem_map.1 hl
      exact h cid hc), List.map_map]
    rfl

/-- C37 (witness). The theorem `blocked_clause_expand_spec` at the clauses `(1 ∨ 4 ∨ 5)`
and `(-1 ∨ 2 ∨ 3)`, the literal 1 and the clause list `[1, 2, 1]`: twelve clauses are
added. -/
theorem blocked_clause_expand_spec_witness :
    ∃ r, ([-1, 2, 3].foldl add_literal ([1, 4, 5].foldl add_literal
      (Cnf.init 5).new_clause).new_clause).blocked_clause_expand 1 [1, 2, 1] = some r ∧
      (r.clauses.drop 2).length = 12 := by
  obtain ⟨r, h1, _, _, h4⟩ := blocked_clause_expand_spec ([-1, 2, 3].foldl add_literal
    ([1, 4, 5].foldl add_literal (Cnf.init 5).new_clause).new_clause) 1 [1, 2, 1] (by decide)
  exact ⟨r, h1, h4.trans (by decide)⟩

end Cnf

namespace Pog

theorem inputs_in_leaf {p : Pog} {dv : Finset Int} {e : Int} (hn : p.is_node e = false)
    (h : 1 ≤ IABS e → IABS e ≤ (p.nvar : Int) → IABS e ∈ dv) : inputs_in p dv e := by
  intro c hr h1 h2
  have := Pog.Reach.of_leaf hn hr
  rw [this] at h1 h2 ⊢
  exact h h1 h2

theorem inputs_in_const {rt : Runtime} {p : Pog} (hwf : p.WF rt) (dv : Finset Int) :
    inputs_in p dv TAUTOLOGY ∧ inputs_in p dv CONFLICT := by
  have hM := MAX_VARIABLE_lt
  have hr := hwf.range
  constructor
  · apply inputs_in_leaf
    · cases h : p.is_node TAUTOLOGY
      · rfl
      · exact absurd IABS_TAUTOLOGY ((is_node_iff p _).1 h).2
    · intro _ h2
      rw [IABS_TAUTOLOGY] at h2
      omega
  · apply inputs_in_leaf
    · cases h : p.is_node CONFLICT
      · rfl
      · exact absurd IABS_CONFLICT ((is_node_iff p _).1 h).2
    · intro _ h2
      rw [IABS_CONFLICT] at h2
      omega

theorem inputs_in_node {p : Pog} {dv : Finset Int} {e : Int} (hn : p.is_node e = true)
    (h : ∀ a ∈ p.get_arguments e, inputs_in p dv a) : inputs_in p dv e := by
  intro c hr h1 h2
  rcases Reach.cases_root hr with hc | ⟨a, ha, hra⟩
  · rw [hc] at h2
    have := ((is_node_iff p e).1 hn).1
    omega
  · exact h a ha c hra h1 h2

theorem inputs_in_child {p : Pog} {dv : Finset Int} {e a : Int} (h : inputs_in p dv e)
    (hn : p.is_node e = true) (ha : a ∈ p.get_arguments e) : inputs_in p dv a :=
  fun c hr h1 h2 => h c (Reach.lift hn ha hr) h1 h2

theorem inputs_in_neg {p : Pog} {dv : Finset Int} {e : Int} (h : inputs_in p dv e) :
    inputs_in p dv (-e) := by
  cases hn : p.is_node e
  · apply inputs_in_leaf (by rw [is_node_neg]; exact hn)
    rw [IABS_neg]
    exact h e Reach.root
  · apply inputs_in_node (by rw [is_node_neg]; exact hn)
    rw [get_arguments_neg]
    exact fun a ha => inputs_in_child h hn ha

theorem reach_extends {rt : Runtime} {p q : Pog} (h : p.Extends q) (hwf : p.WF rt) {e c : Int}
    (he : p.edge_ok e) (hr : Reach q e c) : Reach p e c := by
  induction hr with
  | root => exact Reach.root
  | child x c _ hn hc ih =>
    have hx := hwf.reach_edge_ok he ih
    rw [h.is_node] at hn
    rw [h.get_arguments (edge_ok_bound hx)] at hc
    exact Reach.child x c ih hn hc

theorem inputs_in_extends {rt : Runtime} {p q : Pog} (h : p.Extends q) (hwf : p.WF rt)
    {dv : Finset Int} {e : Int} (he : p.edge_ok e) (hd : inputs_in p dv e) :
    inputs_in q dv e := by
  intro c hr h1 h2
  rw [h.1] at h2
  exact hd c (reach_extends h hwf he hr) h1 h2

theorem inputs_proto_step {rt : Runtime} {p : Pog} (_hwf : p.WF rt) (dv : Finset Int) (n : Node)
    (e : Int) (ht : n.type = POG_PRODUCT ∨ n.type = POG_SUM) (hd : inputs_in p dv e)
    (hn : ∀ a ∈ n.args, inputs_in p dv a) :
    ∀ a ∈ (p.add_argument_node n e).args, inputs_in p dv a := by
  have hc := inputs_in_const _hwf dv
  have happ : ∀ a ∈ n.args ++ [e], inputs_in p dv a := by
    intro a ha
    rcases List.mem_append.1 ha with ha | ha
    · exact hn a ha
    · rw [List.mem_singleton.1 ha]; exact hd
  rcases ht with ht | ht
  · rw [Pog.add_argument_node_product p n e ht]
    split_ifs with h1 h2 h3 h4
    · exact hn
    · exact hn
    · intro a ha
      rw [List.mem_singleton.1 ha]; exact hc.2
    · intro a ha
      rcases List.mem_append.1 ha with ha | ha
      · exact hn a ha
      · exact inputs_in_child hd h4.1 ha
    · exact happ
  · rw [Pog.add_argument_node_sum p n e ht]
    split_ifs with h1 h2 h3 h4
    · exact hn
    · intro a ha
      rw [List.mem_singleton.1 ha]; exact hc.1
    · exact hn
    · intro a ha
      rw [List.mem_singleton.1 ha]; exact hc.1
    · exact happ

theorem inputs_proto_fold {rt : Runtime} {p : Pog} (hwf : p.WF rt) (dv : Finset Int)
    (args : List Int) : ∀ n : Node, (n.type = POG_PRODUCT ∨ n.type = POG_SUM) →
    (∀ a ∈ args, inputs_in p dv a) → (∀ a ∈ n.args, inputs_in p dv a) →
    ∀ a ∈ (args.foldl p.add_argument_node n).args, inputs_in p dv a := by
  induction args with
  | nil => intro n _ _ h; exact h
  | cons e rest ih =>
    intro n ht hok hn
    simp only [List.foldl_cons]
    exact ih _ (by rw [Pog.add_argument_node_type]; exact ht)
      (fun a ha => hok a (List.mem_cons_of_mem _ ha))
      (inputs_proto_step hwf dv n e ht (hok e (List.mem_cons_self _ _)) hn)

/-- A node built from edges with input variables in `dv` below them has only input
variables of `dv` below it. -/
theorem build_inputs_in (rt : Runtime) (hs : rt.sort_ok) {p : Pog} (hwf : p.WF rt)
    (dv : Finset Int) (t : pog_type_t) (ht : t = POG_PRODUCT ∨ t = POG_SUM) (args : List Int)
    (hok : ∀ a ∈ args, p.edge_ok a ∧ inputs_in p dv a)
    (hr : (p.nvar : Int) + p.nodes.length + 1 < MAX_VARIABLE) :
    inputs_in (Pog.build rt p t args).1 dv (Pog.build rt p t args).2 := by
  have hok1 : ∀ a ∈ args, p.edge_ok a := fun a ha => (hok a ha).1
  have hpa : ∀ a ∈ (p.proto_of t args).args, inputs_in p dv a :=
    inputs_proto_fold hwf dv args ⟨t, [], true, true⟩ ht (fun a ha => (hok a ha).2) (by simp)
  have hpo := Pog.proto_of_ok hwf t args ht hok1
  have hM := Pog.MAX_VARIABLE_lt
  rcases Pog.build_cases rt hwf t args hok1 with ⟨_, h⟩ | ⟨h1, h⟩ | ⟨h2, i, n, hn, _, hna, h⟩ |
    ⟨h2, _, h⟩
  · rw [h]
    simp only []
    split
    · exact (inputs_in_const hwf dv).2
    · exact (inputs_in_const hwf dv).1
  · rw [h]
    simp only []
    cases hargs : (p.proto_of t args).args with
    | nil => rw [hargs] at h1; simp at h1
    | cons a rest =>
      rw [hargs] at hpa
      exact hpa a (List.mem_cons_self _ _)
  · rw [h]
    simp only []
    have hl := Pog.node_lookup p hn hwf.range
    apply inputs_in_node hl.1
    rw [hl.2.2, hna]
    intro a ha
    exact hpa a (((hs _).1.mem_iff).1 ha)
  · rw [h]
    simp only []
    rcases hpo with hp | ⟨c1, _, _⟩
    · rw [hp] at h2; simp at h2
    · have hget : (p.commit rt ⟨t, rt.sort (p.proto_of t args).args,
          (p.proto_of t args).data_only, (p.proto_of t args).projection_only⟩).nodes.get?
            p.nodes.length = some ⟨t, rt.sort (p.proto_of t args).args,
          (p.proto_of t args).data_only, (p.proto_of t args).projection_only⟩ := by
        simp [List.get?_eq_getElem?]
      have hl := Pog.node_lookup _ hget (by simp; omega)
      simp only [Pog.commit_nvar] at hl
      apply inputs_in_node hl.1
      rw [hl.2.2]
      intro a ha
      have ha1 := ((hs _).1.mem_iff).1 ha
      exact inputs_in_extends (Extends.push_commit rt p _) hwf (Or.inl (c1 a ha1)) (hpa a ha1)

theorem lookup_key {α : Type} : ∀ (l : List (Int × α)) (k : Int) (v : α),
    l.lookup k = some v → (k, v) ∈ l := by
  intro l
  induction l with
  | nil => intro k v h; simp at h
  | cons x rest ih =>
    intro k v h
    obtain ⟨a, b⟩ := x
    rw [List.lookup_cons] at h
    by_cases hk : k = a
    · subst hk
      simp only [beq_self_eq_true] at h
      cases h
      exact List.mem_cons_self _ _
    · have : (k == a) = false := by simpa using hk
      simp only [this] at h
      exact List.mem_cons_of_mem _ (ih k v h)

theorem visit_children_finishes (nnf : Nnf) (fuel : Nat)
    (ih : ∀ (nid : Int) (st : List Int × Finset Int), (nnf.keys \ st.2).card < fuel →
      nnf.visit fuel nid st ≠ Outcome.unfinished ∧
      ∀ st1, nnf.visit fuel nid st = Outcome.ok st1 → st.2 ⊆ st1.2) :
    ∀ (children : List Int) (acc : Outcome (List Int × Finset Int)),
    acc ≠ Outcome.unfinished → (∀ st, acc = Outcome.ok st → (nnf.keys \ st.2).card < fuel) →
    children.foldl (fun acc c =>
      match acc with
      | Outcome.ok st1 => nnf.visit fuel c st1
      | Outcome.fatal => Outcome.fatal
      | Outcome.unfinished => Outcome.unfinished) acc ≠ Outcome.unfinished ∧
    ∀ st st1, acc = Outcome.ok st → children.foldl (fun acc c =>
      match acc with
      | Outcome.ok st1 => nnf.visit fuel c st1
      | Outcome.fatal => Outcome.fatal
      | Outcome.unfinished => Outcome.unfinished) acc = Outcome.ok st1 → st.2 ⊆ st1.2 := by
  intro children
  induction children with
  | nil =>
    intro acc h1 _
    refine ⟨h1, fun st st1 e1 e2 => ?_⟩
    rw [List.foldl_nil, e1] at e2
    cases e2
    exact Finset.Subset.refl _
  | cons c rest ihc =>
    intro acc h1 h2
    rw [List.foldl_cons]
    cases acc with
    | unfinished => exact absurd rfl h1
    | fatal =>
      simp only []
      refine ⟨(ihc Outcome.fatal (fun h => by cases h) (fun st h => by cases h)).1, ?_⟩
      intro st st1 e1
      cases e1
    | ok st0 =>
      simp only []
      have hv := ih c st0 (h2 st0 rfl)
      have hr := ihc (nnf.visit fuel c st0) hv.1 (fun st hst =>
        lt_of_le_of_lt (Finset.card_le_card (Finset.sdiff_subset_sdiff (Finset.Subset.refl _)
          (hv.2 st hst))) (h2 st0 rfl))
      refine ⟨hr.1, ?_⟩
      intro st st1 e1 e2
      cases e1
      cases hvis : nnf.visit fuel c st0 with
      | unfinished => exact absurd hvis hv.1
      | fatal =>
        rw [hvis] at e2
        have := (ihc Outcome.fatal (fun h => by cases h) (fun st h => by cases h)).2
        exfalso
        have hf : ∀ (l : List Int), l.foldl (fun acc c =>
            match acc with
            | Outcome.ok st1 => nnf.visit fuel c st1
            | Outcome.fatal => Outcome.fatal
            | Outcome.unfinished => Outcome.unfinished)
            (Outcome.fatal : Outcome (List Int × Finset Int)) = Outcome.fatal := by
          intro l
          induction l with
          | nil => rfl
          | cons _ _ ihl => rw [List.foldl_cons]; exact ihl
        rw [hf] at e2
        cases e2
      | ok st2 =>
        rw [hvis] at e2
        exact (hv.2 st2 hvis).trans (hr.2 st2 st1 hvis (by rw [hvis]; exact e2))

/-- The recursion of `visit` ends within the rounds it is given: its depth is bounded by
the number of nodes not yet visited. -/
theorem visit_finishes (nnf : Nnf) : ∀ (fuel : Nat) (nid : Int) (st : List Int × Finset Int),
    (nnf.keys \ st.2).card < fuel →
    nnf.visit fuel nid st ≠ Outcome.unfinished ∧
    ∀ st1, nnf.visit fuel nid st = Outcome.ok st1 → st.2 ⊆ st1.2 := by
  intro fuel
  induction fuel with
  | zero => intro nid st h; omega
  | succ fuel ih =>
    intro nid st h
    unfold Nnf.visit
    by_cases h1 : nid < NODE_START
    · simp only [h1, if_true]
      exact ⟨(fun h => by cases h), fun st1 e => by cases e; exact Finset.Subset.refl _⟩
    · simp only [h1, if_false]
      by_cases h2 : nid ∈ st.2
      · simp only [h2, if_true]
        exact ⟨(fun h => by cases h), fun st1 e => by cases e; exact Finset.Subset.refl _⟩
      · simp only [h2, if_false]
        cases hl : nnf.nodes.lookup nid with
        | none =>
          simp only []
          exact ⟨(fun h => by cases h), fun st1 e => by cases e⟩
        | some node =>
          simp only []
          have hk : nid ∈ nnf.keys := by
            unfold Nnf.keys
            rw [List.mem_toFinset, List.mem_map]
            exact ⟨(nid, node), lookup_key _ _ _ hl, rfl⟩
          have hcard : (nnf.keys \ insert nid st.2).card < fuel := by
            have hm : nid ∈ nnf.keys \ st.2 := Finset.mem_sdiff.2 ⟨hk, h2⟩
            have : nnf.keys \ insert nid st.2 = (nnf.keys \ st.2).erase nid := by
              ext x
              simp only [Finset.mem_sdiff, Finset.mem_insert, Finset.mem_erase]
              tauto
            rw [this, Finset.card_erase_of_mem hm]
            have := Finset.card_pos.2 ⟨nid, hm⟩
            omega
          have hc := visit_children_finishes nnf fuel ih node.tail
            (Outcome.ok (st.1, insert nid st.2)) (fun h => by cases h)
            (fun st0 e => by cases e; exact hcard)
          generalize node.tail.foldl (fun acc c =>
            match acc with
            | Outcome.ok st1 => nnf.visit fuel c st1
            | Outcome.fatal => Outcome.fatal
            | Outcome.unfinished => Outcome.unfinished)
            (Outcome.ok (st.1, insert nid st.2)) = res at hc
          cases res with
          | unfinished => exact absurd rfl hc.1
          | fatal =>
            simp only []
            exact ⟨(fun h => by cases h), fun st1 e => by cases e⟩
          | ok st2 =>
            simp only []
            refine ⟨(fun h => by cases h), fun st1 e => ?_⟩
            cases e
            exact (Finset.subset_insert _ _).trans (hc.2 _ st2 rfl rfl)

theorem topo_order_finishes (nnf : Nnf) : nnf.topo_order ≠ Outcome.unfinished := by
  have h := (visit_finishes nnf nnf.visit_fuel nnf.root_id ([], ∅) (by
    rw [Finset.sdiff_empty]
    unfold Nnf.keys Nnf.visit_fuel
    exact lt_of_le_of_lt (List.toFinset_card_le _) (by simp))).1
  unfold Nnf.topo_order
  cases hv : nnf.visit nnf.visit_fuel nnf.root_id ([], ∅) with
  | unfinished => exact absurd hv h
  | fatal => simp only []; intro h; cases h
  | ok st => simp only []; intro h; cases h

theorem nnf_arguments_ok {p : Pog} (dv : Finset Int) (hdv : ∀ v ∈ dv, 1 ≤ v ∧ v ≤ (p.nvar : Int))
    (nnid2edge : List (Int × Int))
    (hmap : ∀ x ∈ nnid2edge, p.edge_ok x.2 ∧ inputs_in p dv x.2) {rt : Runtime} (hwf : p.WF rt) :
    ∀ (l args : List Int), nnf_arguments (some dv) nnid2edge l = some args →
    ∀ a ∈ args, p.edge_ok a ∧ inputs_in p dv a := by
  intro l
  induction l with
  | nil =>
    intro args h a ha
    unfold nnf_arguments at h
    cases h
    simp at ha
  | cons x rest ih =>
    intro args h a ha
    unfold nnf_arguments at h
    cases h1 : nnf_argument (some dv) nnid2edge x with
    | none => rw [h1] at h; cases h
    | some e =>
      rw [h1] at h
      simp only [] at h
      cases h2 : nnf_arguments (some dv) nnid2edge rest with
      | none => rw [h2] at h; cases h
      | some es =>
        rw [h2] at h
        simp only [Option.some.injEq] at h
        rw [← h, List.mem_cons] at ha
        rcases ha with ha | ha
        · rw [ha]
          unfold nnf_argument at h1
          by_cases hn : NODE_START ≤ x
          · simp only [hn, if_true] at h1
            exact hmap (x, e) (lookup_key _ _ _ h1)
          · simp only [hn, if_false] at h1
            by_cases hd : IABS x ∉ dv
            · simp only [hd, not_false_eq_true, if_true, Option.some.injEq] at h1
              rw [← h1]
              exact ⟨Or.inr IABS_TAUTOLOGY, (inputs_in_const hwf dv).1⟩
            · simp only [hd, if_false, Option.some.injEq] at h1
              rw [← h1]
              have hd1 : IABS x ∈ dv := by simpa using hd
              have hb := hdv _ hd1
              refine ⟨Or.inl ⟨hb.1, by omega⟩, ?_⟩
              apply inputs_in_leaf
              · cases hnode : p.is_node x
                · rfl
                · have := ((is_node_iff p x).1 hnode).1
                  omega
              · exact fun _ _ => hd1
        · exact ih es h2 a ha

theorem load_nnf_loop_frame (rt : Runtime) (nnf : Nnf) (dvo : Option (Finset Int)) :
    ∀ (ids : List Int) (p : Pog) (nnid2edge : List (Int × Int)) (edge : Int) (q : Pog)
      (e : Int), load_nnf_loop rt nnf dvo ids p nnid2edge edge = some (q, e) →
    p.nodes.length ≤ q.nodes.length ∧ q.nvar = p.nvar := by
  intro ids
  induction ids with
  | nil =>
    intro p m edge q e h
    unfold load_nnf_loop at h
    cases h
    exact ⟨le_refl _, rfl⟩
  | cons nnid rest ih =>
    intro p m edge q e h
    unfold load_nnf_loop at h
    cases hl : nnf.nodes.lookup nnid with
    | none => rw [hl] at h; cases h
    | some node =>
      rw [hl] at h
      simp only [] at h
      by_cases h1 : node.headD 0 = NNF_TRUE
      · simp only [h1, if_true] at h
        exact ih _ _ _ _ _ h
      · simp only [h1, if_false] at h
        by_cases h2 : node.headD 0 = NNF_FALSE
        · simp only [h2, if_true] at h
          exact ih _ _ _ _ _ h
        · simp only [h2, if_false] at h
          by_cases h3 : node.headD 0 = NNF_AND ∨ node.headD 0 = NNF_OR
          · simp only [h3, if_true] at h
            cases ha : nnf_arguments dvo m node.tail with
            | none => rw [ha] at h; cases h
            | some args =>
              rw [ha] at h
              simp only [] at h
              have := ih _ _ _ _ _ h
              have hf := build_frame rt p (if node.headD 0 = NNF_AND then POG_PRODUCT
                else POG_SUM) args
              refine ⟨by omega, this.2.trans hf.2⟩
          · simp only [h3, if_false] at h
            cases h

theorem load_nnf_loop_inputs (rt : Runtime) (hs : rt.sort_ok) (nnf : Nnf) (dv : Finset Int) :
    ∀ (ids : List Int) (p : Pog) (nnid2edge : List (Int × Int)) (edge : Int) (q : Pog)
      (e : Int), load_nnf_loop rt nnf (some dv) ids p nnid2edge edge = some (q, e) →
    p.WF rt → (∀ v ∈ dv, 1 ≤ v ∧ v ≤ (p.nvar : Int)) →
    (∀ x ∈ nnid2edge, p.edge_ok x.2 ∧ inputs_in p dv x.2) → inputs_in p dv edge →
    (q.nvar : Int) + q.nodes.length + 1 < MAX_VARIABLE → inputs_in q dv e := by
  intro ids
  induction ids with
  | nil =>
    intro p m edge q e h _ _ _ he _
    unfold load_nnf_loop at h
    cases h
    exact he
  | cons nnid rest ih =>
    intro p m edge q e h hwf hdv hmap _ hq
    have hfr := load_nnf_loop_frame rt nnf (some dv) _ _ _ _ _ _ h
    unfold load_nnf_loop at h
    cases hl : nnf.nodes.lookup nnid with
    | none => rw [hl] at h; cases h
    | some node =>
      rw [hl] at h
      simp only [] at h
      have hc := inputs_in_const hwf dv
      by_cases h1 : node.headD 0 = NNF_TRUE
      · simp only [h1, if_true] at h
        refine ih _ _ _ _ _ h hwf hdv ?_ hc.1 hq
        intro x hx
        rcases List.mem_cons.1 hx with hx | hx
        · rw [hx]; exact ⟨Or.inr IABS_TAUTOLOGY, hc.1⟩
        · exact hmap x hx
      · simp only [h1, if_false] at h
        by_cases h2 : node.headD 0 = NNF_FALSE
        · simp only [h2, if_true] at h
          refine ih _ _ _ _ _ h hwf hdv ?_ hc.2 hq
          intro x hx
          rcases List.mem_cons.1 hx with hx | hx
          · rw [hx]; exact ⟨Or.inr IABS_CONFLICT, hc.2⟩
          · exact hmap x hx
        · simp only [h2, if_false] at h
          by_cases h3 : node.headD 0 = NNF_AND ∨ node.headD 0 = NNF_OR
          · simp only [h3, if_true] at h
            cases ha : nnf_arguments (some dv) m node.tail with
            | none => rw [ha] at h; cases h
            | some args =>
              rw [ha] at h
              simp only [] at h
              have hargs := nnf_arguments_ok dv hdv m hmap hwf node.tail args ha
              have ht : (if node.headD 0 = NNF_AND then POG_PRODUCT else POG_SUM) = POG_PRODUCT ∨
                  (if node.headD 0 = NNF_AND then POG_PRODUCT else POG_SUM) = POG_SUM := by
                split
                · exact Or.inl rfl
                · exact Or.inr rfl
              generalize (if node.headD 0 = NNF_AND then POG_PRODUCT else POG_SUM) = t
                at h ht
              have hr : (p.nvar : Int) + p.nodes.length + 1 < MAX_VARIABLE := by
                rw [hfr.2] at hq
                have := hfr.1
                omega
              have hok1 : ∀ a ∈ args, p.edge_ok a := fun a ha => (hargs a ha).1
              have hsp := build_spec rt hs hwf t ht args hok1 hr
              have hext := build_extends rt hs hwf t ht args hok1 hr
              have hin := build_inputs_in rt hs hwf dv t ht args hargs hr
              refine ih _ _ _ _ _ h hsp.1 (by rw [hext.1]; exact hdv) ?_ hin hq
              intro x hx
              rcases List.mem_cons.1 hx with hx | hx
              · rw [hx]; exact ⟨hsp.2.1, hin⟩
              · exact ⟨hext.edge_ok (hmap x hx).1,
                  inputs_in_extends hext hwf (hmap x hx).1 (hmap x hx).2⟩
          · simp only [h3, if_false] at h
            cases h

/-- C21. For every well-formed graph, every parsed NNF graph and every supplied set of
data variables, all of them input variables: `load_nnf` ends within the rounds given to
the ordering of the nodes, and when it returns an edge, with the graph inside the range of
node ids, every input variable reachable from that edge belongs to the supplied set. -/
theorem load_nnf_data_only (rt : Runtime) (hs : rt.sort_ok) (p : Pog) (hwf : p.WF rt)
    (nnf : Nnf) (dv : Finset Int) (hdv : ∀ v ∈ dv, 1 ≤ v ∧ v ≤ (p.nvar : Int)) :
    p.load_nnf rt nnf (some dv) ≠ Outcome.unfinished ∧
    ∀ q e, p.load_nnf rt nnf (some dv) = Outcome.ok (q, e) →
      (q.nvar : Int) + q.nodes.length + 1 < MAX_VARIABLE →
      ∀ c, Reach q e c → 1 ≤ IABS c → IABS c ≤ (q.nvar : Int) → IABS c ∈ dv := by
  have ht := topo_order_finishes nnf
  unfold load_nnf
  cases hto : nnf.topo_order with
  | unfinished => exact absurd hto ht
  | fatal =>
    simp only []
    exact ⟨(fun h => by cases h), fun q e h => by cases h⟩
  | ok ids =>
    simp only []
    cases hlo : load_nnf_loop rt nnf (some dv) ids p [] 0 with
    | none =>
      simp only []
      exact ⟨(fun h => by cases h), fun q e h => by cases h⟩
    | some r =>
      simp only []
      refine ⟨(fun h => by cases h), fun q e h hq => ?_⟩
      cases h
      exact load_nnf_loop_inputs rt hs nnf dv ids p [] 0 q e hlo hwf hdv
        (fun x hx => by simp at hx)
        (inputs_in_leaf (by
          cases hn : p.is_node 0
          · rfl
          · have := ((is_node_iff p 0).1 hn).1
            have : IABS 0 = 0 := rfl
            omega) (fun h1 _ => by
              have : IABS 0 = 0 := rfl
              omega)) hq

/-- C21 (witness). The theorem `load_nnf_data_only` at the NNF graph of
`x1 ∧ (¬x2 ∧ x3 ∧ true)` with the data variables 1 and 3: the edge returned is the node
of `x1 ∧ x3`. -/
theorem load_nnf_data_only_witness :
    (match (Pog.init 3 {1, 3} ∅).load_nnf stdRuntime
        ⟨3, [(500000001, [4, 1000000001]), (500000002, [3, 1000000002]), (500000003, [1]),
          (1000000001, [3, 1, 500000002]), (1000000002, [3, -2, 3, 500000003])], 500000001⟩
        (some {1, 3}) with
      | Outcome.ok r => (r.2, r.1.get_arguments r.2)
      | _ => (0, [])) = (4, [1, 3]) ∧
    ∀ q e, (Pog.init 3 {1, 3} ∅).load_nnf stdRuntime
        ⟨3, [(500000001, [4, 1000000001]), (500000002, [3, 1000000002]), (500000003, [1]),
          (1000000001, [3, 1, 500000002]), (1000000002, [3, -2, 3, 500000003])], 500000001⟩
        (some {1, 3}) = Outcome.ok (q, e) →
      (q.nvar : Int) + q.nodes.length + 1 < MAX_VARIABLE →
      ∀ c, Reach q e c → 1 ≤ IABS c → IABS c ≤ (q.nvar : Int) → IABS c ∈ ({1, 3} : Finset Int) :=
  ⟨by decide, (load_nnf_data_only stdRuntime stdRuntime_sort_ok (Pog.init 3 {1, 3} ∅)
    (WF_init stdRuntime 3 {1, 3} ∅ (by decide))
    ⟨3, [(500000001, [4, 1000000001]), (500000002, [3, 1000000002]), (500000003, [1]),
      (1000000001, [3, 1, 500000002]), (1000000002, [3, -2, 3, 500000003])], 500000001⟩
    {1, 3} (by decide)).2⟩

end Pog

namespace Compiler

/-- C1 (failing input). The clauses `(-x2 ∨ -x3)`, `(x3 ∨ x1)`, `(-x3 ∨ x2)` and
`(x3 ∨ -x1 ∨ x2)` with the data variable `x2`, in a state with no conflict, no quantified
variable and no unit literal, on which `bcp` derives no unit and `bve` with
`maxdegree` zero eliminates no variable: every assignment that satisfies the clauses makes `x2` true,
so the assignment `x2 = false` has no extension, but `builtin_kc` with `trim` returns
`TAUTOLOGY`. In the branch that asserts `x3`, `bcp` stops at the conflict in the third
clause, `bve` then deactivates that clause as one of a pure literal, and
`check_simple_pkc` finds no falsified clause. The result is the same when the unordered
sets are walked in ascending and in descending order. -/
theorem builtin_kc_projection_failure :
    ({ ([3, -1, 2].foldl Cnf.add_literal ([-3, 2].foldl Cnf.add_literal
        ([3, 1].foldl Cnf.add_literal ([-2, -3].foldl Cnf.add_literal
          (Cnf.init 3).new_clause).new_clause).new_clause).new_clause) with
        data_variables := {2} } : Cnf).has_conflict = false ∧
    ({ ([3, -1, 2].foldl Cnf.add_literal ([-3, 2].foldl Cnf.add_literal
        ([3, 1].foldl Cnf.add_literal ([-2, -3].foldl Cnf.add_literal
          (Cnf.init 3).new_clause).new_clause).new_clause).new_clause) with
        data_variables := {2} } : Cnf).unit_literals = ∅ ∧
    ({ ([3, -1, 2].foldl Cnf.add_literal ([-3, 2].foldl Cnf.add_literal
        ([3, 1].foldl Cnf.add_literal ([-2, -3].foldl Cnf.add_literal
          (Cnf.init 3).new_clause).new_clause).new_clause).new_clause) with
        data_variables := {2} } : Cnf).uquantified_variables = ∅ ∧
    (∀ b1 b3 : Bool, ¬ ∀ cid ∈ ({ ([3, -1, 2].foldl Cnf.add_literal
        ([-3, 2].foldl Cnf.add_literal ([3, 1].foldl Cnf.add_literal
          ([-2, -3].foldl Cnf.add_literal (Cnf.init 3).new_clause).new_clause).new_clause).new_clause)
        with data_variables := {2} } : Cnf).active_clauses,
      clause_true (fun v => if v = 1 then b1 else if v = 3 then b3 else false)
        (({ ([3, -1, 2].foldl Cnf.add_literal ([-3, 2].foldl Cnf.add_literal
          ([3, 1].foldl Cnf.add_literal ([-2, -3].foldl Cnf.add_literal
            (Cnf.init 3).new_clause).new_clause).new_clause).new_clause) with
          data_variables := {2} } : Cnf).clause cid) = true) ∧
    (({ ([3, -1, 2].foldl Cnf.add_literal ([-3, 2].foldl Cnf.add_literal
        ([3, 1].foldl Cnf.add_literal ([-2, -3].foldl Cnf.add_literal
          (Cnf.init 3).new_clause).new_clause).new_clause).new_clause) with
        data_variables := {2} } : Cnf).bcp stdWalk false).2 = 0 ∧
    (({ ([3, -1, 2].foldl Cnf.add_literal ([-3, 2].foldl Cnf.add_literal
        ([3, 1].foldl Cnf.add_literal ([-2, -3].foldl Cnf.add_literal
          (Cnf.init 3).new_clause).new_clause).new_clause).new_clause) with
        data_variables := {2} } : Cnf).bve stdRuntime stdWalk false 0).2 = 0 ∧
    (builtin_kc stdRuntime true false stdWalk 4 (Pog.init 3 {2} ∅)
      { ([3, -1, 2].foldl Cnf.add_literal ([-3, 2].foldl Cnf.add_literal
        ([3, 1].foldl Cnf.add_literal ([-2, -3].foldl Cnf.add_literal
          (Cnf.init 3).new_clause).new_clause).new_clause).new_clause) with
        data_variables := {2} }).map (fun r => r.2.2) = some TAUTOLOGY ∧
    (builtin_kc stdRuntime true false revWalk 4 (Pog.init 3 {2} ∅)
      { ([3, -1, 2].foldl Cnf.add_literal ([-3, 2].foldl Cnf.add_literal
        ([3, 1].foldl Cnf.add_literal ([-2, -3].foldl Cnf.add_literal
          (Cnf.init 3).new_clause).new_clause).new_clause).new_clause) with
        data_variables := {2} }).map (fun r => r.2.2) = some TAUTOLOGY := by
  decide!

end Compiler

namespace Cnf

theorem clause_true_iff (τ : Int → Bool) (c : List Int) :
    clause_true τ c = true ↔ ∃ l ∈ c, lit_true τ l = true := by
  unfold clause_true
  rw [List.any_eq_true]

theorem lit_true_update (σ : Int → Bool) (v : Int) (b : Bool) {l : Int} (h : IABS l ≠ v) :
    lit_true (Function.update σ v b) l = lit_true σ l := by
  unfold lit_true
  unfold IABS at h
  by_cases hl : l > 0
  · have h1 : ¬ l < 0 := by omega
    simp only [h1, if_false] at h
    simp only [hl, if_true, Function.update_noteq h]
  · simp only [hl, if_false]
    by_cases h0 : l < 0
    · simp only [h0, if_true] at h
      rw [Function.update_noteq h]
    · have : l = 0 := by omega
      subst this
      simp only [h0, if_false] at h
      rw [neg_zero, Function.update_noteq h]

/-- The value that makes the literal `lit` of the variable `v` true. -/
theorem lit_true_update_self (σ : Int → Bool) {v lit : Int} (hv : 0 < v)
    (hl : lit = v ∨ lit = -v) :
    lit_true (Function.update σ v (decide (lit = v))) lit = true ∧
    lit_true (Function.update σ v (!decide (lit = v))) (-lit) = true := by
  rcases hl with h | h
  · subst h
    have h1 : lit > 0 := hv
    have h2 : ¬ (-lit > 0) := by omega
    unfold lit_true
    simp [h1, h2]
    rw [neg_neg]
    exact Function.update_same _ _ _
  · subst h
    have h1 : ¬ (-v > 0) := by omega
    have h3 : ¬ (-v = v) := by omega
    unfold lit_true
    simp [h1, h3, hv]
    constructor <;> (rw [neg_neg]; exact Function.update_same _ _ _)

theorem IABS_eq_var {l v : Int} (h : IABS l = v) : l = v ∨ l = -v := by
  unfold IABS at h
  split_ifs at h <;> omega

theorem IABS_lit_var {lit v : Int} (hv : 0 < v) (hl : lit = v ∨ lit = -v) : IABS lit = v := by
  unfold IABS
  rcases hl with h | h <;> subst h <;> split_ifs <;> omega

/-- Resolution is sound: an assignment that satisfies the unit literals and two clauses,
the first without `-lit` and the second without `lit`, satisfies the literals that
`resolve` merges. -/
theorem resolve_literals_sound {s : Cnf} {σ : Int → Bool} (huq : s.uquantified_variables = ∅)
    (hu : ∀ l ∈ s.unit_literals, lit_true σ l = true) {var lit : Int} (hv : 0 < var)
    (hl : lit = var ∨ lit = -var) {cid1 cid2 : Int}
    (h10 : ∀ l ∈ s.clause cid1, l ≠ 0) (h20 : ∀ l ∈ s.clause cid2, l ≠ 0)
    (h1 : -lit ∉ s.clause cid1) (h2 : lit ∉ s.clause cid2)
    (t1 : clause_true σ (s.clause cid1) = true) (t2 : clause_true σ (s.clause cid2) = true) :
    clause_true σ (s.resolve_literals var cid1 cid2) = true := by
  have hl0 : lit ≠ 0 := by rcases hl with h | h <;> omega
  rw [clause_true_iff]
  unfold resolve_literals
  by_cases hlt : lit_true σ lit = true
  · obtain ⟨l, hlc, hltl, hsk⟩ := true_literal_not_skipped huq hu h20 t2
    refine ⟨l, List.mem_append_right _ ?_, hltl⟩
    rw [List.mem_filter]
    refine ⟨hlc, ?_⟩
    have hne : IABS l ≠ var := by
      intro h
      rcases IABS_eq_var h with e | e
      · rcases hl with e2 | e2
        · exact h2 (by rw [e2, ← e]; exact hlc)
        · have : l = -lit := by omega
          rw [this, Pog.lit_true_neg σ hl0, hlt] at hltl
          cases hltl
      · rcases hl with e2 | e2
        · have : l = -lit := by omega
          rw [this, Pog.lit_true_neg σ hl0, hlt] at hltl
          cases hltl
        · exact h2 (by rw [e2, ← e]; exact hlc)
    simp [hne, hsk]
  · obtain ⟨l, hlc, hltl, hsk⟩ := true_literal_not_skipped huq hu h10 t1
    refine ⟨l, List.mem_append_left _ ?_, hltl⟩
    rw [List.mem_filter]
    refine ⟨hlc, ?_⟩
    have hne : IABS l ≠ var := by
      intro h
      rcases IABS_eq_var h with e | e
      · rcases hl with e2 | e2
        · exact hlt (by rw [e2, ← e]; exact hltl)
        · exact h1 (by rw [e2, neg_neg, ← e]; exact hlc)
      · rcases hl with e2 | e2
        · exact h1 (by rw [e2, ← e]; exact hlc)
        · exact hlt (by rw [e2, ← e]; exact hltl)
    simp [hne, hsk]

/-- Resolution on `var` is complete: when an assignment satisfies, for every clause with
`lit` and every clause with `-lit`, the merged literals unless they are complementary,
some value of `var` satisfies all these clauses. -/
theorem resolve_literals_complete (s : Cnf) (σ : Int → Bool) {var lit : Int} (hv : 0 < var)
    (hl : lit = var ∨ lit = -var) (P N : List Int)
    (h0 : ∀ cid ∈ P ++ N, ∀ l ∈ s.clause cid, l ≠ 0)
    (hP : ∀ cid ∈ P, lit ∈ s.clause cid) (hN : ∀ cid ∈ N, -lit ∈ s.clause cid)
    (hres : ∀ cid1 ∈ P, ∀ cid2 ∈ N, complementary (s.resolve_literals var cid1 cid2) ∨
      clause_true σ (s.resolve_literals var cid1 cid2) = true) :
    ∃ b : Bool, ∀ cid ∈ P ++ N, clause_true (Function.update σ var b) (s.clause cid) = true := by
  have hself := lit_true_update_self σ hv hl
  by_cases hall : ∀ cid1 ∈ P, ∃ l ∈ s.clause cid1, IABS l ≠ var ∧ lit_true σ l = true
  · refine ⟨!decide (lit = var), fun cid hc => ?_⟩
    rw [clause_true_iff]
    rcases List.mem_append.1 hc with hc | hc
    · obtain ⟨l, hlc, hne, hlt⟩ := hall cid hc
      exact ⟨l, hlc, by rw [lit_true_update σ var _ hne]; exact hlt⟩
    · exact ⟨-lit, hN cid hc, hself.2⟩
  · push_neg at hall
    obtain ⟨c1, hc1, hfalse⟩ := hall
    have hfalse1 : ∀ l ∈ s.clause c1, IABS l ≠ var → lit_true σ l = false := by
      intro l hlc hne
      cases h : lit_true σ l
      · rfl
      · exact absurd h (hfalse l hlc hne)
    refine ⟨decide (lit = var), fun cid hc => ?_⟩
    rw [clause_true_iff]
    rcases List.mem_append.1 hc with hc | hc
    · exact ⟨lit, hP cid hc, hself.1⟩
    · have hmem : ∀ l, l ∈ s.resolve_literals var c1 cid →
          (l ∈ s.clause c1 ∧ IABS l ≠ var) ∨ (l ∈ s.clause cid ∧ IABS l ≠ var) := by
        intro l hl
        unfold resolve_literals at hl
        rcases List.mem_append.1 hl with h | h
        · rw [List.mem_filter] at h
          left
          refine ⟨h.1, ?_⟩
          have := h.2
          simp only [Bool.and_eq_true, decide_eq_true_eq] at this
          exact this.1
        · rw [List.mem_filter] at h
          right
          refine ⟨h.1, ?_⟩
          have := h.2
          simp only [Bool.and_eq_true, decide_eq_true_eq] at this
          exact this.1
      have hgood : ∃ l ∈ s.clause cid, IABS l ≠ var ∧ lit_true σ l = true := by
        rcases hres c1 hc1 cid hc with ⟨l, hl1, hl2⟩ | ht
        · rcases hmem l hl1 with ⟨a1, a2⟩ | ⟨a1, a2⟩
          · have hl0 : l ≠ 0 := h0 c1 (List.mem_append_left _ hc1) l a1
            have hf := hfalse1 l a1 a2
            have hneg : IABS (-l) ≠ var := by rw [IABS_neg]; exact a2
            rcases hmem (-l) hl2 with ⟨b1, _⟩ | ⟨b1, _⟩
            · have := hfalse1 (-l) b1 hneg
              rw [Pog.lit_true_neg σ hl0, hf] at this
              cases this
            · exact ⟨-l, b1, hneg, by rw [Pog.lit_true_neg σ hl0, hf]; rfl⟩
          · have hl0 : l ≠ 0 := h0 cid (List.mem_append_right _ hc) l a1
            have hneg : IABS (-l) ≠ var := by rw [IABS_neg]; exact a2
            rcases hmem (-l) hl2 with ⟨b1, _⟩ | ⟨b1, _⟩
            · have hf := hfalse1 (-l) b1 hneg
              rw [Pog.lit_true_neg σ hl0] at hf
              refine ⟨l, a1, a2, ?_⟩
              cases h : lit_true σ l
              · rw [h] at hf; cases hf
              · rfl
            · cases h : lit_true σ l
              · exact ⟨-l, b1, hneg, by rw [Pog.lit_true_neg σ hl0, h]; rfl⟩
              · exact ⟨l, a1, a2, h⟩
        · rw [clause_true_iff] at ht
          obtain ⟨l, hl1, hlt⟩ := ht
          rcases hmem l hl1 with ⟨a1, a2⟩ | ⟨a1, a2⟩
          · rw [hfalse1 l a1 a2] at hlt
            cases hlt
          · exact ⟨l, a1, a2, hlt⟩
      obtain ⟨l, hlc, hne, hlt⟩ := hgood
      exact ⟨l, hlc, by rw [lit_true_update σ var _ hne]; exact hlt⟩

theorem fold_add_literal_rest (lits : List Int) : ∀ s : Cnf,
    (lits.foldl add_literal s).bcp_unit_literals = s.bcp_unit_literals ∧
    (lits.foldl add_literal s).data_variables = s.data_variables ∧
    (lits.foldl add_literal s).has_conflict = s.has_conflict := by
  induction lits with
  | nil => intro s; exact ⟨rfl, rfl, rfl⟩
  | cons a r ih => intro s; rw [List.foldl_cons]; exact ih _

theorem resolve_fields (rt : Runtime) (s : Cnf) (var cid1 cid2 : Int) :
    (s.resolve rt var cid1 cid2).1.unit_literals = s.unit_literals ∧
    (s.resolve rt var cid1 cid2).1.bcp_unit_literals = s.bcp_unit_literals ∧
    (s.resolve rt var cid1 cid2).1.uquantified_variables = s.uquantified_variables ∧
    (s.resolve rt var cid1 cid2).1.data_variables = s.data_variables ∧
    (s.resolve rt var cid1 cid2).1.has_conflict = s.has_conflict := by
  unfold resolve
  dsimp only
  cases resolve_dedup _ 0 [] with
  | none => exact ⟨rfl, rfl, rfl, rfl, rfl⟩
  | some nlits =>
    have h1 := fold_add_literal_fields nlits s.new_clause
    have h2 := fold_add_literal_rest nlits s.new_clause
    exact ⟨h1.1, h2.1, h1.2.1, h2.2.1, h2.2.2⟩

theorem resolve_index (rt : Runtime) (s : Cnf) (var cid1 cid2 : Int) (h1 : s.index_exact)
    (h2 : ∀ cid ∈ s.active_clauses, 1 ≤ cid ∧ cid ≤ (s.clauses.length : Int)) :
    (s.resolve rt var cid1 cid2).1.index_exact ∧
    ∀ cid ∈ (s.resolve rt var cid1 cid2).1.active_clauses,
      1 ≤ cid ∧ cid ≤ ((s.resolve rt var cid1 cid2).1.clauses.length : Int) := by
  unfold resolve
  dsimp only
  cases resolve_dedup _ 0 [] with
  | none => exact ⟨h1, h2⟩
  | some nlits =>
    have := loaded_fold_add_literal nlits (loading_new_clause ⟨h1, h2⟩)
    exact ⟨this.1, this.2.1⟩

theorem resolve_literals_congr {a b : Cnf} (var cid1 cid2 : Int)
    (hu : a.unit_literals = b.unit_literals)
    (hq : a.uquantified_variables = b.uquantified_variables)
    (h1 : a.clause cid1 = b.clause cid1) (h2 : a.clause cid2 = b.clause cid2) :
    a.resolve_literals var cid1 cid2 = b.resolve_literals var cid1 cid2 := by
  unfold resolve_literals skip_literal
  rw [hu, hq, h1, h2]

theorem resolved_refl {s : Cnf} (var : Int) (h1 : s.index_exact)
    (h2 : ∀ cid ∈ s.active_clauses, 1 ≤ cid ∧ cid ≤ (s.clauses.length : Int)) :
    resolved s s var [] :=
  ⟨⟨rfl, rfl, rfl, rfl, rfl⟩, ⟨le_refl _, fun _ _ _ => rfl⟩, ⟨h1, h2⟩, Finset.Subset.refl _,
    fun cid hc hn => absurd hc hn, fun x hx => absurd hx (List.not_mem_nil _)⟩

/-- One call of `resolve` on two clauses of the first state keeps the relation. -/
theorem resolved_step (rt : Runtime) (hs : rt.sort_ok) {s0 s : Cnf} {var : Int}
    {done : List (Int × Int)} (h : resolved s0 s var done) (cid1 cid2 : Int)
    (v1 : 1 ≤ cid1 ∧ cid1 ≤ (s0.clauses.length : Int))
    (v2 : 1 ≤ cid2 ∧ cid2 ≤ (s0.clauses.length : Int))
    (z1 : ∀ l ∈ s0.clause cid1, l ≠ 0) (z2 : ∀ l ∈ s0.clause cid2, l ≠ 0) :
    resolved s0 (s.resolve rt var cid1 cid2).1 var (done ++ [(cid1, cid2)]) := by
  obtain ⟨⟨f1, f2, f3, f4, f5⟩, ⟨g1, g2⟩, ⟨i1, i2⟩, hsub, hnew, hall⟩ := h
  have hrl : s.resolve_literals var cid1 cid2 = s0.resolve_literals var cid1 cid2 :=
    resolve_literals_congr var cid1 cid2 f1 f3 (g2 cid1 v1.1 v1.2) (g2 cid2 v2.1 v2.2)
  have hnz : ∀ l ∈ s.resolve_literals var cid1 cid2, l ≠ 0 := by
    intro l hl
    rw [hrl] at hl
    unfold resolve_literals at hl
    rcases List.mem_append.1 hl with hl | hl
    · exact z1 l (List.mem_filter.1 hl).1
    · exact z2 l (List.mem_filter.1 hl).1
  have hspec := resolve_spec rt hs s var cid1 cid2 hnz
  have hfld := resolve_fields rt s var cid1 cid2
  have hidx := resolve_index rt s var cid1 cid2 i1 i2
  rw [hrl] at hspec
  by_cases hc : complementary (s0.resolve_literals var cid1 cid2)
  · have hsame : (s.resolve rt var cid1 cid2).1 = s := (hspec.1.2 hc).2
    rw [hsame]
    refine ⟨⟨f1, f2, f3, f4, f5⟩, ⟨g1, g2⟩, ⟨i1, i2⟩, hsub, ?_, ?_⟩
    · intro cid hcid hn
      obtain ⟨a, x, hx, b⟩ := hnew cid hcid hn
      exact ⟨a, x, List.mem_append_left _ hx, b⟩
    · intro x hx hnc
      rcases List.mem_append.1 hx with hx | hx
      · exact hall x hx hnc
      · rw [List.mem_singleton.1 hx] at hnc
        exact absurd hc hnc
  · obtain ⟨_, e2, e3, _, e5, _, e7⟩ := hspec.2 hc
    have e1 : (s.resolve rt var cid1 cid2).2 = (s.clauses.length : Int) + 1 := (hspec.2 hc).1
    rw [e1] at e5
    have hold : ∀ cid : Int, 1 ≤ cid → cid ≤ (s0.clauses.length : Int) →
        (s.resolve rt var cid1 cid2).1.clause cid = s0.clause cid := by
      intro cid a b
      rw [e7 cid a (by omega)]
      exact g2 cid a b
    refine ⟨⟨hfld.1.trans f1, hfld.2.1.trans f2, hfld.2.2.1.trans f3, hfld.2.2.2.1.trans f4,
      hfld.2.2.2.2.trans f5⟩, ⟨by omega, hold⟩, hidx, ?_, ?_, ?_⟩
    · rw [e3]
      exact hsub.trans (Finset.subset_insert _ _)
    · intro cid hcid hn
      rw [e3, Finset.mem_insert] at hcid
      rcases hcid with hcid | hcid
      · rw [hcid]
        refine ⟨by omega, (cid1, cid2), List.mem_append_right _ (List.mem_singleton_self _),
          ?_, hc⟩
        exact e5
      · obtain ⟨a, x, hx, b1, b2⟩ := hnew cid hcid hn
        refine ⟨a, x, List.mem_append_left _ hx, ?_, b2⟩
        rw [e7 cid (i2 cid hcid).1 (i2 cid hcid).2]
        exact b1
    · intro x hx hnc
      rcases List.mem_append.1 hx with hx | hx
      · obtain ⟨cid, a, b, c⟩ := hall x hx hnc
        refine ⟨cid, by rw [e3]; exact Finset.mem_insert_of_mem a, b, ?_⟩
        rw [e7 cid (i2 cid a).1 (i2 cid a).2]
        exact c
      · rw [List.mem_singleton.1 hx]
        exact ⟨(s.clauses.length : Int) + 1, by rw [e3]; exact Finset.mem_insert_self _ _,
          by omega, e5⟩

theorem resolved_inner (rt : Runtime) (hs : rt.sort_ok) {s0 : Cnf} {var : Int} (cid1 : Int)
    (v1 : 1 ≤ cid1 ∧ cid1 ≤ (s0.clauses.length : Int)) (z1 : ∀ l ∈ s0.clause cid1, l ≠ 0) :
    ∀ (cids2 : List Int) (s : Cnf) (done : List (Int × Int)),
    (∀ c ∈ cids2, (1 ≤ c ∧ c ≤ (s0.clauses.length : Int)) ∧ ∀ l ∈ s0.clause c, l ≠ 0) →
    resolved s0 s var done →
    resolved s0 (cids2.foldl (fun s cid2 => (resolve rt s var cid1 cid2).1) s) var
      (done ++ cids2.map fun c => (cid1, c)) := by
  intro cids2
  induction cids2 with
  | nil =>
    intro s done _ h
    rw [List.map_nil, List.append_nil]
    exact h
  | cons c rest ih =>
    intro s done hv h
    rw [List.foldl_cons, List.map_cons]
    have hc := hv c (List.mem_cons_self _ _)
    have := ih _ _ (fun x hx => hv x (List.mem_cons_of_mem _ hx))
      (resolved_step rt hs h cid1 c v1 hc.1 z1 hc.2)
    rw [List.append_assoc] at this
    exact this

theorem resolved_outer (rt : Runtime) (hs : rt.sort_ok) {s0 : Cnf} {var : Int}
    (cids2 : List Int)
    (hv2 : ∀ c ∈ cids2, (1 ≤ c ∧ c ≤ (s0.clauses.length : Int)) ∧ ∀ l ∈ s0.clause c, l ≠ 0) :
    ∀ (cids1 : List Int) (s : Cnf) (done : List (Int × Int)),
    (∀ c ∈ cids1, (1 ≤ c ∧ c ≤ (s0.clauses.length : Int)) ∧ ∀ l ∈ s0.clause c, l ≠ 0) →
    resolved s0 s var done →
    resolved s0 (cids1.foldl (fun s cid1 =>
      cids2.foldl (fun s cid2 => (resolve rt s var cid1 cid2).1) s) s) var
      (done ++ cids1.flatMap fun c1 => cids2.map fun c => (c1, c)) := by
  intro cids1
  induction cids1 with
  | nil =>
    intro s done _ h
    rw [List.flatMap_nil, List.append_nil]
    exact h
  | cons c rest ih =>
    intro s done hv h
    rw [List.foldl_cons, List.flatMap_cons]
    have hc := hv c (List.mem_cons_self _ _)
    have := ih _ _ (fun x hx => hv x (List.mem_cons_of_mem _ hx))
      (resolved_inner rt hs c hc.1 hc.2 cids2 s done hv2 h)
    rw [List.append_assoc] at this
    exact this

theorem clause_true_congr_mem (σ : Int → Bool) {a b : List Int} (h : ∀ l, l ∈ a ↔ l ∈ b) :
    clause_true σ a = true ↔ clause_true σ b = true := by
  rw [clause_true_iff, clause_true_iff]
  constructor
  · rintro ⟨l, h1, h2⟩; exact ⟨l, (h l).1 h1, h2⟩
  · rintro ⟨l, h1, h2⟩; exact ⟨l, (h l).2 h1, h2⟩

theorem clause_true_update (σ : Int → Bool) (v : Int) (b : Bool) {c : List Int}
    (h : ∀ l ∈ c, IABS l ≠ v) :
    clause_true (Function.update σ v b) c = true ↔ clause_true σ c = true := by
  rw [clause_true_iff, clause_true_iff]
  constructor
  · rintro ⟨l, h1, h2⟩; exact ⟨l, h1, by rw [← lit_true_update σ v b (h l h1)]; exact h2⟩
  · rintro ⟨l, h1, h2⟩; exact ⟨l, h1, by rw [lit_true_update σ v b (h l h1)]; exact h2⟩

theorem deactivate_clauses_data : ∀ (remove : List Int) (s : Cnf),
    (s.deactivate_clauses remove).data_variables = s.data_variables := by
  intro remove
  induction remove with
  | nil => intro s; rfl
  | cons c rest ih =>
    intro s
    have h := ih (s.deactivate_clause c)
    unfold deactivate_clauses at h ⊢
    rw [List.foldl_cons, h]
    rfl

/-- The fields after `assign_literal(lit, true)` of a literal that is not assigned. -/
theorem assign_bcp_new (s : Cnf) (lit : Int) (h1 : -lit ∉ s.unit_literals)
    (h2 : lit ∉ s.unit_literals) :
    (s.assign_literal lit true).unit_literals = insert lit s.unit_literals ∧
    (s.assign_literal lit true).uquantified_variables = s.uquantified_variables ∧
    (s.assign_literal lit true).data_variables = s.data_variables ∧
    (s.assign_literal lit true).has_conflict = s.has_conflict := by
  unfold assign_literal
  simp only [h1, h2, if_false, decide_False, if_true, Bool.false_eq_true, and_self]

/-- One elimination of the loop of `bve`, without the setting of the variable type: the
state stays one on which `bve` is run, and the assignments to the data variables that
extend to a model are the same. -/
theorem bve_step_sound (rt : Runtime) (w : Walk) (fuel : Nat) (hw : w.ok) (hs : rt.sort_ok)
    (s : Cnf) (hr : s.bve_ready)
    (var lit : Int) (degree : Nat) (hv : 0 < var) (hd : var ∉ s.data_variables)
    (hu1 : var ∉ s.unit_literals) (hu2 : -var ∉ s.unit_literals)
    (hl : lit = var ∨ lit = -var) :
    (bve_step rt w fuel false s var lit degree).bve_ready ∧
    (bve_step rt w fuel false s var lit degree).data_variables = s.data_variables ∧
    (bve_step rt w fuel false s var lit degree).has_conflict = s.has_conflict ∧
    (s.unit_literals ⊆ (bve_step rt w fuel false s var lit degree).unit_literals ∧
      (bve_step rt w fuel false s var lit degree).unit_literals ⊆ insert (-lit) s.unit_literals) ∧
    ∀ τ, projected_model (bve_step rt w fuel false s var lit degree) τ ↔ projected_model s τ := by
  obtain ⟨huq, hidx, hids, hlits⟩ := hr
  have hiabs : IABS lit = var := IABS_lit_var hv hl
  have hlu : lit ∉ s.unit_literals ∧ -lit ∉ s.unit_literals := by
    rcases hl with h | h
    · rw [h]; exact ⟨hu1, hu2⟩
    · rw [h, neg_neg]; exact ⟨hu2, hu1⟩
  have hP : ∀ c, c ∈ w.order [fuel, 1] (s.literal_clauses lit) ↔
      (c ∈ s.active_clauses ∧ lit ∈ s.clause c) := by
    intro c; rw [hw.mem]; exact hidx lit c
  have hN : ∀ c, c ∈ w.order [fuel, 2] (s.literal_clauses (-lit)) ↔
      (c ∈ s.active_clauses ∧ -lit ∈ s.clause c) := by
    intro c; rw [hw.mem]; exact hidx (-lit) c
  have hvP : ∀ c ∈ w.order [fuel, 1] (s.literal_clauses lit),
      (1 ≤ c ∧ c ≤ (s.clauses.length : Int)) ∧ ∀ l ∈ s.clause c, l ≠ 0 :=
    fun c hc => ⟨hids c ((hP c).1 hc).1, fun l hl => (hlits c ((hP c).1 hc).1 l hl).1⟩
  have hvN : ∀ c ∈ w.order [fuel, 2] (s.literal_clauses (-lit)),
      (1 ≤ c ∧ c ≤ (s.clauses.length : Int)) ∧ ∀ l ∈ s.clause c, l ≠ 0 :=
    fun c hc => ⟨hids c ((hN c).1 hc).1, fun l hl => (hlits c ((hN c).1 hc).1 l hl).1⟩
  have hres := resolved_outer rt hs (w.order [fuel, 2] (s.literal_clauses (-lit))) hvN
    (w.order [fuel, 1] (s.literal_clauses lit)) s [] hvP (resolved_refl var hidx hids)
  rw [List.nil_append] at hres
  -- the state after the deactivation
  have hs3 : ∀ s2 : Cnf, resolved s s2 var ((w.order [fuel, 1] (s.literal_clauses lit)).flatMap
      fun c1 => (w.order [fuel, 2] (s.literal_clauses (-lit))).map fun c => (c1, c)) →
      ∀ s4 : Cnf, s4 = (if degree = 0 ∧ -lit ∉ (s2.deactivate_clauses
          (w.order [fuel, 1] (s.literal_clauses lit) ++ w.order [fuel, 2] (s.literal_clauses (-lit)))).bcp_unit_literals
        then (s2.deactivate_clauses (w.order [fuel, 1] (s.literal_clauses lit) ++
          w.order [fuel, 2] (s.literal_clauses (-lit)))).assign_literal (-lit) true
        else s2.deactivate_clauses (w.order [fuel, 1] (s.literal_clauses lit) ++
          w.order [fuel, 2] (s.literal_clauses (-lit)))) →
      s4.bve_ready ∧ s4.data_variables = s.data_variables ∧ s4.has_conflict = s.has_conflict ∧
      (s.unit_literals ⊆ s4.unit_literals ∧ s4.unit_literals ⊆ insert (-lit) s.unit_literals) ∧
      ∀ τ, projected_model s4 τ ↔ projected_model s τ := by
    intro s2 hres s4 hs4
    obtain ⟨⟨f1, f2, f3, f4, f5⟩, ⟨g1, g2⟩, ⟨i1, i2⟩, hsub, hnew, hall⟩ := hres
    have d1 := deactivate_clauses_fields (w.order [fuel, 1] (s.literal_clauses lit) ++
      w.order [fuel, 2] (s.literal_clauses (-lit))) s2
    have d2 := deactivate_clauses_data (w.order [fuel, 1] (s.literal_clauses lit) ++
      w.order [fuel, 2] (s.literal_clauses (-lit))) s2
    have d3 := deactivate_clauses_clauses (w.order [fuel, 1] (s.literal_clauses lit) ++
      w.order [fuel, 2] (s.literal_clauses (-lit))) s2
    have d4 := deactivate_clauses_active (w.order [fuel, 1] (s.literal_clauses lit) ++
      w.order [fuel, 2] (s.literal_clauses (-lit))) s2
    have d5 := index_exact_deactivate_clauses (w.order [fuel, 1] (s.literal_clauses lit) ++
      w.order [fuel, 2] (s.literal_clauses (-lit))) i1
    generalize s2.deactivate_clauses (w.order [fuel, 1] (s.literal_clauses lit) ++
      w.order [fuel, 2] (s.literal_clauses (-lit))) = s3 at d1 d2 d3 d4 d5 hs4
    have hcl3 : ∀ cid, s3.clause cid = s2.clause cid := clause_congr d3
    have hact3 : ∀ cid, cid ∈ s3.active_clauses ↔ (cid ∈ s2.active_clauses ∧
        ¬ (cid ∈ s.active_clauses ∧ lit ∈ s.clause cid) ∧
        ¬ (cid ∈ s.active_clauses ∧ -lit ∈ s.clause cid)) := by
      intro cid
      rw [d4, Finset.mem_sdiff, List.mem_toFinset, List.mem_append, hP, hN, not_or]
    -- every clause active after the deactivation
    have hcases : ∀ cid ∈ s3.active_clauses,
        (cid ∈ s.active_clauses ∧ s3.clause cid = s.clause cid ∧ lit ∉ s.clause cid ∧
          -lit ∉ s.clause cid) ∨
        (∃ c1 c2, (c1 ∈ s.active_clauses ∧ lit ∈ s.clause c1) ∧
          (c2 ∈ s.active_clauses ∧ -lit ∈ s.clause c2) ∧
          (∀ l, l ∈ s3.clause cid ↔ l ∈ s.resolve_literals var c1 c2) ∧
          ¬ complementary (s.resolve_literals var c1 c2)) := by
      intro cid hc
      obtain ⟨a1, a2, a3⟩ := (hact3 cid).1 hc
      by_cases hold : cid ∈ s.active_clauses
      · left
        refine ⟨hold, ?_, fun h => a2 ⟨hold, h⟩, fun h => a3 ⟨hold, h⟩⟩
        rw [hcl3, g2 cid (hids cid hold).1 (hids cid hold).2]
      · right
        obtain ⟨_, x, hx, b1, b2⟩ := hnew cid a1 hold
        rw [List.mem_flatMap] at hx
        obtain ⟨c1, hc1, hx⟩ := hx
        rw [List.mem_map] at hx
        obtain ⟨c2, hc2, hx⟩ := hx
        rw [← hx] at b1 b2
        exact ⟨c1, c2, (hP c1).1 hc1, (hN c2).1 hc2, by
          intro l; rw [hcl3]; exact b1 l, b2⟩
    have hrl : ∀ c1 c2 l, l ∈ s.resolve_literals var c1 c2 →
        IABS l ≠ var ∧ (l ∈ s.clause c1 ∨ l ∈ s.clause c2) := by
      intro c1 c2 l hl
      unfold resolve_literals at hl
      rcases List.mem_append.1 hl with h | h
      · rw [List.mem_filter] at h
        have := h.2
        simp only [Bool.and_eq_true, decide_eq_true_eq] at this
        exact ⟨this.1, Or.inl h.1⟩
      · rw [List.mem_filter] at h
        have := h.2
        simp only [Bool.and_eq_true, decide_eq_true_eq] at this
        exact ⟨this.1, Or.inr h.1⟩
    have hnovar : ∀ cid ∈ s3.active_clauses, ∀ l ∈ s3.clause cid, IABS l ≠ var := by
      intro cid hc l hlc
      rcases hcases cid hc with ⟨a1, a2, a3, a4⟩ | ⟨c1, c2, _, _, b1, _⟩
      · rw [a2] at hlc
        intro h
        rcases IABS_eq_var h with e | e
        · rcases hl with e2 | e2
          · exact a3 (by rw [e2, ← e]; exact hlc)
          · exact a4 (by rw [e2, neg_neg, ← e]; exact hlc)
        · rcases hl with e2 | e2
          · exact a4 (by rw [e2, ← e]; exact hlc)
          · exact a3 (by rw [e2, ← e]; exact hlc)
      · exact (hrl c1 c2 l ((b1 l).1 hlc)).1
    have hlits3 : ∀ cid ∈ s3.active_clauses, ∀ l ∈ s3.clause cid,
        l ≠ 0 ∧ (IABS l ∉ s.data_variables → l ∉ s.unit_literals ∧ -l ∉ s3.clause cid) := by
      intro cid hc l hlc
      rcases hcases cid hc with ⟨a1, a2, _, _⟩ | ⟨c1, c2, p1, p2, b1, b2⟩
      · rw [a2] at hlc ⊢
        exact hlits cid a1 l hlc
      · have hm := (hrl c1 c2 l ((b1 l).1 hlc)).2
        have hbase : l ≠ 0 ∧ (IABS l ∉ s.data_variables → l ∉ s.unit_literals) := by
          rcases hm with hm | hm
          · exact ⟨(hlits c1 p1.1 l hm).1, fun h => ((hlits c1 p1.1 l hm).2 h).1⟩
          · exact ⟨(hlits c2 p2.1 l hm).1, fun h => ((hlits c2 p2.1 l hm).2 h).1⟩
        refine ⟨hbase.1, fun h => ⟨hbase.2 h, fun hneg => ?_⟩⟩
        exact b2 ⟨l, (b1 l).1 hlc, (b1 (-l)).1 hneg⟩
    have hids3 : ∀ cid ∈ s3.active_clauses, 1 ≤ cid ∧ cid ≤ (s3.clauses.length : Int) := by
      intro cid hc
      rw [d3]
      exact i2 cid ((hact3 cid).1 hc).1
    have hunit3 : s3.unit_literals = s.unit_literals := d1.1.trans f1
    have huq3 : s3.uquantified_variables = ∅ := (d1.2.2.1.trans f3).trans huq
    have hdata3 : s3.data_variables = s.data_variables := d2.trans f4
    have hready3 : s3.bve_ready := by
      refine ⟨huq3, d5, hids3, ?_⟩
      intro cid hc l hlc
      rw [hdata3, hunit3]
      exact hlits3 cid hc l hlc
    -- models of the two states
    have hfwd : ∀ σ, models σ s → models σ s3 := by
      intro σ hm
      refine ⟨?_, by rw [hunit3]; exact hm.2⟩
      intro cid hc
      rcases hcases cid hc with ⟨a1, a2, _, _⟩ | ⟨c1, c2, p1, p2, b1, _⟩
      · rw [a2]; exact hm.1 cid a1
      · rw [clause_true_congr_mem σ b1]
        refine resolve_literals_sound huq hm.2 hv hl (fun l h => (hlits c1 p1.1 l h).1)
          (fun l h => (hlits c2 p2.1 l h).1) ?_ ?_ (hm.1 c1 p1.1) (hm.1 c2 p2.1)
        · exact ((hlits c1 p1.1 lit p1.2).2 (by rw [hiabs]; exact hd)).2
        · have := ((hlits c2 p2.1 (-lit) p2.2).2 (by rw [IABS_neg, hiabs]; exact hd)).2
          rw [neg_neg] at this
          exact this
    have hunitvar : ∀ l ∈ s.unit_literals, IABS l ≠ var := by
      intro l hlu h
      rcases IABS_eq_var h with e | e
      · exact hu1 (e ▸ hlu)
      · exact hu2 (e ▸ hlu)
    have hbwd : ∀ σ, models σ s3 → ∃ b, models (Function.update σ var b) s := by
      intro σ hm
      obtain ⟨b, hb⟩ := resolve_literals_complete s σ hv hl (w.order [fuel, 1] (s.literal_clauses lit))
        (w.order [fuel, 2] (s.literal_clauses (-lit)))
        (by
          intro cid hc l hlc
          rcases List.mem_append.1 hc with hc | hc
          · exact (hvP cid hc).2 l hlc
          · exact (hvN cid hc).2 l hlc)
        (fun cid hc => ((hP cid).1 hc).2) (fun cid hc => ((hN cid).1 hc).2)
        (by
          intro c1 hc1 c2 hc2
          by_cases hcomp : complementary (s.resolve_literals var c1 c2)
          · exact Or.inl hcomp
          · right
            obtain ⟨cid, a1, a2, a3⟩ := hall (c1, c2) (by
              rw [List.mem_flatMap]
              exact ⟨c1, hc1, List.mem_map.2 ⟨c2, hc2, rfl⟩⟩) hcomp
            have hc3 : cid ∈ s3.active_clauses := by
              rw [hact3]
              refine ⟨a1, fun h => ?_, fun h => ?_⟩
              · have := (hids cid h.1).2; omega
              · have := (hids cid h.1).2; omega
            have hiff : ∀ l, l ∈ s3.clause cid ↔ l ∈ s.resolve_literals var c1 c2 :=
              fun l => by rw [hcl3]; exact a3 l
            rw [← clause_true_congr_mem σ hiff]
            exact hm.1 cid hc3)
      refine ⟨b, ?_, ?_⟩
      · intro cid hc
        by_cases hin : cid ∈ w.order [fuel, 1] (s.literal_clauses lit) ++
            w.order [fuel, 2] (s.literal_clauses (-lit))
        · exact hb cid hin
        · rw [List.mem_append, hP, hN, not_or] at hin
          have hc3 : cid ∈ s3.active_clauses := by
            rw [hact3]; exact ⟨hsub hc, hin.1, hin.2⟩
          have hcl : s3.clause cid = s.clause cid := by
            rw [hcl3, g2 cid (hids cid hc).1 (hids cid hc).2]
          rw [clause_true_update σ var b (by rw [← hcl]; exact hnovar cid hc3), ← hcl]
          exact hm.1 cid hc3
      · intro l hlu
        rw [lit_true_update σ var b (hunitvar l hlu)]
        exact hm.2 l (by rw [hunit3]; exact hlu)
    by_cases hcond : degree = 0 ∧ -lit ∉ s3.bcp_unit_literals
    · rw [if_pos hcond] at hs4
      have hfld := assign_bcp_new s3 (-lit) (by rw [neg_neg, hunit3]; exact hlu.1)
        (by rw [hunit3]; exact hlu.2)
      have hafl := assign_literal_fields s3 (-lit) true
      rw [← hs4] at hfld hafl
      have hcl4 : ∀ cid, s4.clause cid = s3.clause cid := clause_congr hafl.2.2
      refine ⟨⟨hfld.2.1.trans huq3, index_exact_of_fields hafl.2.1 hafl.1 hafl.2.2 d5, ?_, ?_⟩,
        hfld.2.2.1.trans hdata3, hfld.2.2.2.trans (d1.2.2.2.trans f5), ⟨?_, ?_⟩, ?_⟩
      · intro cid hc
        rw [hafl.1] at hc
        rw [hafl.2.2]
        exact hids3 cid hc
      · intro cid hc l hlc
        rw [hafl.1] at hc
        rw [hcl4] at hlc ⊢
        rw [hfld.2.2.1, hdata3, hfld.1, hunit3]
        have := hlits3 cid hc l hlc
        refine ⟨this.1, fun h => ⟨?_, (this.2 h).2⟩⟩
        rw [Finset.mem_insert, not_or]
        refine ⟨fun e => ?_, (this.2 h).1⟩
        exact hnovar cid hc l hlc (by rw [e, IABS_neg]; exact hiabs)
      · rw [hfld.1, hunit3]; exact Finset.subset_insert _ _
      · rw [hfld.1, hunit3]
      · intro τ
        constructor
        · rintro ⟨σ, hag, hm⟩
          have hm3 : models σ s3 := by
            refine ⟨fun cid hc => ?_, fun l hl => hm.2 l (by
              rw [hfld.1]; exact Finset.mem_insert_of_mem hl)⟩
            rw [← hcl4]
            exact hm.1 cid (by rw [hafl.1]; exact hc)
          obtain ⟨b, hb⟩ := hbwd σ hm3
          refine ⟨Function.update σ var b, fun v hvd => ?_, hb⟩
          rw [Function.update_noteq (fun e => hd (by rw [← e]; exact hvd))]
          exact hag v (by rw [hfld.2.2.1, hdata3]; exact hvd)
        · rintro ⟨σ, hag, hm⟩
          have hm3 := hfwd σ hm
          have hself := lit_true_update_self σ hv hl
          refine ⟨Function.update σ var (!decide (lit = var)), fun v hvd => ?_, ?_, ?_⟩
          · rw [hfld.2.2.1, hdata3] at hvd
            rw [Function.update_noteq (fun e => hd (by rw [← e]; exact hvd))]
            exact hag v hvd
          · intro cid hc
            rw [hafl.1] at hc
            rw [hcl4, clause_true_update σ var _ (hnovar cid hc)]
            exact hm3.1 cid hc
          · intro l hlu4
            rw [hfld.1, Finset.mem_insert] at hlu4
            rcases hlu4 with e | hlu3
            · rw [e]; exact hself.2
            · rw [hunit3] at hlu3
              rw [lit_true_update σ var _ (hunitvar l hlu3)]
              exact hm.2 l hlu3
    · rw [if_neg hcond] at hs4
      rw [hs4]
      refine ⟨hready3, hdata3, d1.2.2.2.trans f5, ⟨by rw [hunit3],
        by rw [hunit3]; exact Finset.subset_insert _ _⟩, ?_⟩
      intro τ
      constructor
      · rintro ⟨σ, hag, hm⟩
        obtain ⟨b, hb⟩ := hbwd σ hm
        refine ⟨Function.update σ var b, fun v hvd => ?_, hb⟩
        rw [Function.update_noteq (fun e => hd (by rw [← e]; exact hvd))]
        exact hag v (by rw [hdata3]; exact hvd)
      · rintro ⟨σ, hag, hm⟩
        exact ⟨σ, fun v hvd => hag v (by rw [← hdata3]; exact hvd), hfwd σ hm⟩
  exact hs3 _ hres _ rfl

theorem bve_step_preprocess (rt : Runtime) (w : Walk) (fuel : Nat) (s : Cnf) (var lit : Int) (degree : Nat) :
    bve_step rt w fuel true s var lit degree =
      bve_step rt w fuel false (s.set_variable_type var VAR_ELIM) var lit degree := rfl

/-- One elimination of the loop of `bve`, for both values of `preprocess`. -/
theorem bve_step_projection (rt : Runtime) (w : Walk) (fuel : Nat) (hw : w.ok) (hs : rt.sort_ok)
    (preprocess : Bool) (s : Cnf)
    (hr : s.bve_ready) (var lit : Int) (degree : Nat) (hc : s.bve_candidate var)
    (hl : lit = var ∨ lit = -var) :
    (bve_step rt w fuel preprocess s var lit degree).bve_ready ∧
    (bve_step rt w fuel preprocess s var lit degree).data_variables = s.data_variables ∧
    (bve_step rt w fuel preprocess s var lit degree).has_conflict = s.has_conflict ∧
    (s.unit_literals ⊆ (bve_step rt w fuel preprocess s var lit degree).unit_literals ∧
      (bve_step rt w fuel preprocess s var lit degree).unit_literals ⊆ insert (-lit) s.unit_literals) ∧
    ∀ τ, projected_model (bve_step rt w fuel preprocess s var lit degree) τ ↔ projected_model s τ := by
  cases preprocess with
  | false => exact bve_step_sound rt w fuel hw hs s hr var lit degree hc.1 hc.2.1 hc.2.2.1 hc.2.2.2 hl
  | true =>
    rw [bve_step_preprocess]
    exact bve_step_sound rt w fuel hw hs (s.set_variable_type var VAR_ELIM) hr var lit degree hc.1
      hc.2.1 hc.2.2.1 hc.2.2.2 hl

theorem bve_scan_bucket_mem (s : Cnf) (eliminated : Finset Int) (d : Nat) :
    ∀ (l : List Int) (v : Int), (bve_scan_bucket s eliminated d l).2 = some v → v ∈ l := by
  intro l
  induction l with
  | nil => intro v h; simp [bve_scan_bucket] at h
  | cons dvar rest ih =>
    intro v h
    unfold bve_scan_bucket at h
    split_ifs at h with hc
    · simp only [Option.some.injEq] at h
      rw [← h]; exact List.mem_cons_self _ _
    · exact List.mem_cons_of_mem _ (ih v h)

theorem foldl_erase_subset (l : List Int) : ∀ b : Finset Int,
    l.foldl (fun b x => b.erase x) b ⊆ b := by
  induction l with
  | nil => intro b; exact Finset.Subset.refl _
  | cons x rest ih =>
    intro b
    rw [List.foldl_cons]
    exact (ih _).trans (Finset.erase_subset _ _)

/-- What `bve` selects: a variable of a bucket that is not eliminated, with one of its
literals; the buckets only lose variables. -/
theorem bve_select_spec (w : Walk) (hw : w.ok) (s : Cnf) (eliminated : Finset Int) : ∀ (k d : Nat)
    (dv dv1 : Nat → Finset Int) (r : Option (Int × Int × Nat)),
    bve_select w s eliminated k d dv = (dv1, r) →
    (∀ i, dv1 i ⊆ dv i) ∧
    ∀ var lit degree, r = some (var, lit, degree) →
      var ∉ eliminated ∧ (∃ i, var ∈ dv i) ∧ (lit = var ∨ lit = -var) := by
  intro k
  induction k with
  | zero =>
    intro d dv dv1 r h
    simp only [bve_select, Prod.mk.injEq] at h
    rw [← h.1, ← h.2]
    exact ⟨fun i => Finset.Subset.refl _, fun _ _ _ h => by cases h⟩
  | succ k ih =>
    intro d dv dv1 r h
    unfold bve_select at h
    dsimp only at h
    have hsub : ∀ i, Function.update dv d ((bve_scan_bucket s eliminated d
        (w.order [d] (dv d))).1.foldl (fun b x => b.erase x) (dv d)) i ⊆ dv i := by
      intro i
      by_cases hi : i = d
      · rw [hi, Function.update_same]
        exact foldl_erase_subset _ _
      · rw [Function.update_noteq hi]
    cases hr : (bve_scan_bucket s eliminated d (w.order [d] (dv d))).2 with
    | none =>
      rw [hr] at h
      have := ih _ _ _ _ h
      refine ⟨fun i => (this.1 i).trans (hsub i), ?_⟩
      intro var lit degree hsome
      obtain ⟨a, ⟨i, hi⟩, c⟩ := this.2 var lit degree hsome
      exact ⟨a, ⟨i, hsub i hi⟩, c⟩
    | some v =>
      rw [hr] at h
      simp only [Prod.mk.injEq] at h
      obtain ⟨h1, h2⟩ := h
      refine ⟨fun i => by rw [← h1]; exact hsub i, ?_⟩
      intro var lit degree hsome
      rw [hsome] at h2
      simp only [Option.some.injEq, Prod.mk.injEq] at h2
      obtain ⟨hv, hl, _⟩ := h2
      have hmem := bve_scan_bucket_mem s eliminated d _ v hr
      have hne := (bve_scan_bucket_spec s eliminated d _ v hr).1
      rw [hw.mem] at hmem
      rw [← hv, ← hl]
      refine ⟨hne, ⟨d, hmem⟩, ?_⟩
      split_ifs
      · exact Or.inl rfl
      · exact Or.inr rfl

/-- A literal of an active clause that is neither skipped nor of a data variable has a
variable that `bve` may select. -/
theorem bve_candidate_of_literal {s : Cnf} (hr : s.bve_ready) {cid l : Int}
    (hc : cid ∈ s.active_clauses) (hl : l ∈ s.clause cid) (hsk : s.skip_literal l = false)
    (hd : s.is_data_variable (IABS l) = false) : s.bve_candidate (IABS l) := by
  obtain ⟨huq, _, _, hlits⟩ := hr
  have h := hlits cid hc l hl
  have hd1 : IABS l ∉ s.data_variables := by
    unfold is_data_variable at hd
    simpa using hd
  have hu := (h.2 hd1).1
  have hn : -l ∉ s.unit_literals := by
    unfold skip_literal at hsk
    rw [huq] at hsk
    simpa using hsk
  unfold bve_candidate
  by_cases h0 : l < 0
  · have e : IABS l = -l := by unfold IABS; simp only [h0, if_true]
    rw [e] at hd1 ⊢
    exact ⟨by omega, hd1, hn, by rw [neg_neg]; exact hu⟩
  · have e : IABS l = l := by unfold IABS; simp only [h0, if_false]
    rw [e] at hd1 ⊢
    have := h.1
    exact ⟨by omega, hd1, hu, hn⟩

theorem bve_change_mem (s : Cnf) (lit : Int) : ∀ (cids : List Int) (acc : Finset Int) (v : Int),
    v ∈ s.bve_change lit cids acc → v ∈ acc ∨
      ∃ cid ∈ cids, ∃ l ∈ s.clause cid, s.skip_literal l = false ∧
        s.is_data_variable (IABS l) = false ∧ v = IABS l := by
  have inner : ∀ (c : List Int) (acc : Finset Int) (v : Int),
      v ∈ c.foldl (fun acc lit1 =>
        if s.skip_literal lit1 then acc
        else if lit1 = lit then acc
        else if s.is_data_variable (IABS lit1) then acc
        else insert (IABS lit1) acc) acc → v ∈ acc ∨
      ∃ l ∈ c, s.skip_literal l = false ∧ s.is_data_variable (IABS l) = false ∧ v = IABS l := by
    intro c
    induction c with
    | nil => intro acc v h; exact Or.inl h
    | cons x rest ih =>
      intro acc v h
      rw [List.foldl_cons] at h
      rcases ih _ v h with h1 | ⟨l, hl, a, b, c⟩
      · split_ifs at h1 with k1 k2 k3
        · exact Or.inl h1
        · exact Or.inl h1
        · exact Or.inl h1
        · rw [Finset.mem_insert] at h1
          rcases h1 with h1 | h1
          · right
            refine ⟨x, List.mem_cons_self _ _, ?_, ?_, h1⟩
            · simpa using k1
            · simpa using k3
          · exact Or.inl h1
      · exact Or.inr ⟨l, List.mem_cons_of_mem _ hl, a, b, c⟩
  intro cids
  induction cids with
  | nil => intro acc v h; exact Or.inl h
  | cons c rest ih =>
    intro acc v h
    unfold bve_change at h ih
    rw [List.foldl_cons] at h
    rcases ih _ v h with h1 | ⟨cid, hc, l, hl, a⟩
    · rcases inner _ _ v h1 with h2 | ⟨l, hl, a⟩
      · exact Or.inl h2
      · exact Or.inr ⟨c, List.mem_cons_self _ _, l, hl, a⟩
    · exact Or.inr ⟨cid, List.mem_cons_of_mem _ hc, l, hl, a⟩

theorem bucket_fold_mem (g : Int → Nat) (md : Nat) : ∀ (l : List Int) (dv : Nat → Finset Int)
    (i : Nat) (v : Int),
    v ∈ (l.foldl (fun dv ovar =>
      if g ovar ≤ md then Function.update dv (g ovar) (insert ovar (dv (g ovar)))
      else dv) dv) i → v ∈ dv i ∨ v ∈ l := by
  intro l
  induction l with
  | nil => intro dv i v h; exact Or.inl h
  | cons x rest ih =>
    intro dv i v h
    rw [List.foldl_cons] at h
    rcases ih _ i v h with h1 | h1
    · split_ifs at h1 with hc
      · by_cases hi : i = g x
        · rw [hi, Function.update_same, Finset.mem_insert] at h1
          rcases h1 with h1 | h1
          · exact Or.inr (by rw [h1]; exact List.mem_cons_self _ _)
          · exact Or.inl (by rw [hi]; exact h1)
        · rw [Function.update_noteq hi] at h1
          exact Or.inl h1
      · exact Or.inl h1
    · exact Or.inr (List.mem_cons_of_mem _ h1)

/-- One round of the loop of `bve` that eliminates the selected variable: the next state
is that of `bve_step`, and the buckets gain variables of `change_variables` only. -/
theorem bve_loop_elim (rt : Runtime) (w : Walk) (hw : w.ok) (preprocess : Bool)
    (maxdegree fuel : Nat) (s : Cnf)
    (dv dv1 : Nat → Finset Int) (eliminated : Finset Int) (var lit : Int) (degree : Nat)
    (hsel : bve_select ((w.sub fuel).sub 0) s eliminated (maxdegree + 1) 0 dv = (dv1, some (var, lit, degree)))
    (h : ¬ (((s.literal_clauses var).card : Int) * (s.literal_clauses (-var)).card -
        (((s.literal_clauses var).card : Int) + (s.literal_clauses (-var)).card) >
        (maxdegree : Int) * maxdegree - 2 * maxdegree)) :
    ∃ dv2, bve_loop rt w preprocess maxdegree (fuel + 1) s dv eliminated =
        bve_loop rt w preprocess maxdegree fuel (bve_step rt w fuel preprocess s var lit degree) dv2
          (insert var eliminated) ∧
      ∀ i, ∀ v ∈ dv2 i, v ∈ dv1 i ∨
        v ∈ s.bve_change (-lit) (w.order [fuel, 2] (s.literal_clauses (-lit)))
          (s.bve_change lit (w.order [fuel, 1] (s.literal_clauses lit)) ∅) := by
  cases preprocess with
  | false =>
    rw [bve_loop, hsel]
    simp only [h, if_false]
    refine ⟨_, rfl, fun i v hv => ?_⟩
    rcases bucket_fold_mem _ maxdegree _ _ i v hv with h1 | h1
    · exact Or.inl h1
    · rw [hw.mem] at h1
      exact Or.inr h1
  | true =>
    rw [bve_loop, hsel]
    simp only [h, if_false]
    refine ⟨_, rfl, fun i v hv => ?_⟩
    rcases bucket_fold_mem _ maxdegree _ _ i v hv with h1 | h1
    · exact Or.inl h1
    · rw [hw.mem] at h1
      exact Or.inr h1

/-- The loop of `bve`, for every bound on its rounds: the assignments to the data
variables that extend to a model are kept, and only projection variables are
eliminated. -/
theorem bve_loop_projection (rt : Runtime) (w : Walk) (hw : w.ok) (hs : rt.sort_ok)
    (preprocess : Bool)
    (maxdegree : Nat) : ∀ (fuel : Nat) (s : Cnf) (dv : Nat → Finset Int) (el : Finset Int),
    s.bve_ready → (∀ i, ∀ v ∈ dv i, v ∈ el ∨ s.bve_candidate v) →
    (bve_loop rt w preprocess maxdegree fuel s dv el).1.bve_ready ∧
    (bve_loop rt w preprocess maxdegree fuel s dv el).1.data_variables = s.data_variables ∧
    (bve_loop rt w preprocess maxdegree fuel s dv el).1.has_conflict = s.has_conflict ∧
    (∀ τ, projected_model (bve_loop rt w preprocess maxdegree fuel s dv el).1 τ ↔
      projected_model s τ) ∧
    ∀ v ∈ (bve_loop rt w preprocess maxdegree fuel s dv el).2, v ∈ el ∨ v ∉ s.data_variables := by
  intro fuel
  induction fuel with
  | zero =>
    intro s dv el hr _
    exact ⟨hr, rfl, rfl, fun _ => Iff.rfl, fun v hv => Or.inl hv⟩
  | succ fuel ih =>
    intro s dv el hr hb
    cases hsel : bve_select ((w.sub fuel).sub 0) s el (maxdegree + 1) 0 dv with
    | mk dv1 r =>
      have hspec := bve_select_spec _ ((hw.sub fuel).sub 0) s el _ _ _ _ _ hsel
      cases r with
      | none =>
        have : bve_loop rt w preprocess maxdegree (fuel + 1) s dv el = (s, el) := by
          rw [bve_loop, hsel]
        rw [this]
        exact ⟨hr, rfl, rfl, fun _ => Iff.rfl, fun v hv => Or.inl hv⟩
      | some x =>
        obtain ⟨var, lit, degree⟩ := x
        obtain ⟨hne, ⟨i0, hi0⟩, hl⟩ := hspec.2 var lit degree rfl
        have hb1 : ∀ i, ∀ v ∈ dv1 i, v ∈ el ∨ s.bve_candidate v :=
          fun i v hv => hb i v (hspec.1 i hv)
        by_cases hbig : ((s.literal_clauses var).card : Int) * (s.literal_clauses (-var)).card -
            (((s.literal_clauses var).card : Int) + (s.literal_clauses (-var)).card) >
            (maxdegree : Int) * maxdegree - 2 * maxdegree
        · rw [(bve_loop_round rt w preprocess maxdegree fuel s dv dv1 el var lit degree hsel).1
            hbig]
          exact ih s dv1 el hr hb1
        · obtain ⟨dv2, heq, hdv2⟩ := bve_loop_elim rt w hw preprocess maxdegree fuel s dv dv1 el
            var lit degree hsel hbig
          rw [heq]
          have hcand : s.bve_candidate var := by
            rcases hb i0 var hi0 with h | h
            · exact absurd h hne
            · exact h
          obtain ⟨r1, r2, r3, ⟨r4, r5⟩, r6⟩ :=
            bve_step_projection rt w fuel hw hs preprocess s hr var lit degree hcand hl
          have hidx := hr.2.1
          have hb2 : ∀ i, ∀ v ∈ dv2 i, v ∈ insert var el ∨
              (bve_step rt w fuel preprocess s var lit degree).bve_candidate v := by
            intro i v hv
            have hc : v ∈ el ∨ s.bve_candidate v := by
              rcases hdv2 i v hv with h | h
              · exact hb1 i v h
              · right
                rcases bve_change_mem s _ _ _ v h with h | ⟨cid, hc, l, hlc, a, b, c⟩
                · rcases bve_change_mem s _ _ _ v h with h | ⟨cid, hc, l, hlc, a, b, c⟩
                  · exact absurd h (Finset.not_mem_empty _)
                  · rw [hw.mem] at hc
                    rw [c]
                    exact bve_candidate_of_literal hr ((hidx _ _).1 hc).1 hlc a b
                · rw [hw.mem] at hc
                  rw [c]
                  exact bve_candidate_of_literal hr ((hidx _ _).1 hc).1 hlc a b
            rcases hc with h | h
            · exact Or.inl (Finset.mem_insert_of_mem h)
            · by_cases hvv : v = var
              · exact Or.inl (by rw [hvv]; exact Finset.mem_insert_self _ _)
              · right
                obtain ⟨c1, c2, c3, c4⟩ := h
                have hv0 := hcand.1
                refine ⟨c1, by rw [r2]; exact c2, fun hin => ?_, fun hin => ?_⟩
                · have := r5 hin
                  rw [Finset.mem_insert] at this
                  rcases this with e | e
                  · rcases hl with e2 | e2 <;> omega
                  · exact c3 e
                · have := r5 hin
                  rw [Finset.mem_insert] at this
                  rcases this with e | e
                  · rcases hl with e2 | e2 <;> omega
                  · exact c4 e
          obtain ⟨q1, q2, q3, q4, q5⟩ := ih _ dv2 (insert var el) r1 hb2
          refine ⟨q1, q2.trans r2, q3.trans r3, fun τ => (q4 τ).trans (r6 τ), ?_⟩
          intro v hv
          rcases q5 v hv with h | h
          · rw [Finset.mem_insert] at h
            rcases h with h | h
            · exact Or.inr (by rw [h]; exact hcand.2.1)
            · exact Or.inl h
          · exact Or.inr (by rw [← r2]; exact h)

theorem bve_buckets_mem (s : Cnf) (maxdegree : Nat) (i : Nat) (v : Int)
    (h : v ∈ s.bve_buckets maxdegree i) :
    ∃ cid ∈ s.active_clauses, ∃ l ∈ s.clause cid, s.skip_literal l = false ∧
      s.is_data_variable (IABS l) = false ∧ v = IABS l := by
  have step : ∀ (st : Finset Int × (Nat → Finset Int)) (cid l : Int),
      cid ∈ s.active_clauses → l ∈ s.clause cid →
      (∀ i, ∀ v ∈ st.2 i, ∃ cid ∈ s.active_clauses, ∃ l ∈ s.clause cid,
        s.skip_literal l = false ∧ s.is_data_variable (IABS l) = false ∧ v = IABS l) →
      ∀ i, ∀ v ∈ (bve_scan_literal s maxdegree st l).2 i, ∃ cid ∈ s.active_clauses,
        ∃ l ∈ s.clause cid, s.skip_literal l = false ∧
          s.is_data_variable (IABS l) = false ∧ v = IABS l := by
    intro st cid l hc hl hst i v hv
    unfold bve_scan_literal at hv
    split_ifs at hv with k1 k2 k3
    · exact hst i v hv
    · exact hst i v hv
    · exact hst i v hv
    · dsimp only at hv
      split_ifs at hv with k4
      · by_cases hi : i = IMIN (s.literal_clauses l).card (s.literal_clauses (-l)).card
        · rw [hi, Function.update_same, Finset.mem_insert] at hv
          rcases hv with hv | hv
          · exact ⟨cid, hc, l, hl, by simpa using k1, by simpa using k2, hv⟩
          · exact hst _ v hv
        · rw [Function.update_noteq hi] at hv
          exact hst i v hv
      · exact hst i v hv
  have inner : ∀ (cid : Int), cid ∈ s.active_clauses → ∀ (c : List Int),
      (∀ l ∈ c, l ∈ s.clause cid) → ∀ (st : Finset Int × (Nat → Finset Int)),
      (∀ i, ∀ v ∈ st.2 i, ∃ cid ∈ s.active_clauses, ∃ l ∈ s.clause cid,
        s.skip_literal l = false ∧ s.is_data_variable (IABS l) = false ∧ v = IABS l) →
      ∀ i, ∀ v ∈ (c.foldl (bve_scan_literal s maxdegree) st).2 i, ∃ cid ∈ s.active_clauses,
        ∃ l ∈ s.clause cid, s.skip_literal l = false ∧
          s.is_data_variable (IABS l) = false ∧ v = IABS l := by
    intro cid hc c
    induction c with
    | nil => intro _ st hst; exact hst
    | cons x rest ih =>
      intro hsub st hst
      rw [List.foldl_cons]
      exact ih (fun l hl => hsub l (List.mem_cons_of_mem _ hl)) _
        (step st cid x hc (hsub x (List.mem_cons_self _ _)) hst)
  have outer : ∀ (cids : List Int), (∀ c ∈ cids, c ∈ s.active_clauses) →
      ∀ (st : Finset Int × (Nat → Finset Int)),
      (∀ i, ∀ v ∈ st.2 i, ∃ cid ∈ s.active_clauses, ∃ l ∈ s.clause cid,
        s.skip_literal l = false ∧ s.is_data_variable (IABS l) = false ∧ v = IABS l) →
      ∀ i, ∀ v ∈ (cids.foldl (fun st cid =>
        (s.clause cid).foldl (bve_scan_literal s maxdegree) st) st).2 i,
        ∃ cid ∈ s.active_clauses, ∃ l ∈ s.clause cid, s.skip_literal l = false ∧
          s.is_data_variable (IABS l) = false ∧ v = IABS l := by
    intro cids
    induction cids with
    | nil => intro _ st hst; exact hst
    | cons c rest ih =>
      intro hsub st hst
      rw [List.foldl_cons]
      exact ih (fun x hx => hsub x (List.mem_cons_of_mem _ hx)) _
        (inner c (hsub c (List.mem_cons_self _ _)) _ (fun l hl => hl) st hst)
  exact outer (ascList s.active_clauses) (fun c hc => (mem_ascList _ _).1 hc) _
    (fun i v hv => absurd hv (Finset.not_mem_empty _)) i v h

/-- Where `bve` does preserve the projected models. For every state without universally
quantified variables whose literal index is exact, whose active clauses are clauses of
the state with literals other than zero, and in which no active clause holds a unit
literal of a projection variable (as after `bcp`) or both literals of a projection
variable, for every `max_degree` and every order of walking the unordered sets: the
assignments to the data variables that extend to an assignment satisfying all active
clauses and all unit literals are the same before and after `bve`, also when the loop of
`bve` is stopped after any number of rounds; `bve` eliminates no data variable; and it
leaves the set of data variables and the conflict flag as they are. -/
theorem bve_preserves_projection (rt : Runtime) (w : Walk) (hw : w.ok) (hs : rt.sort_ok)
    (s : Cnf) (preprocess : Bool) (maxdegree : Nat) (hr : s.bve_ready) :
    (∀ τ, projected_model (s.bve rt w preprocess maxdegree).1 τ ↔ projected_model s τ) ∧
    (∀ fuel τ, projected_model
      (bve_loop rt w preprocess maxdegree fuel s (s.bve_buckets maxdegree) ∅).1 τ ↔
        projected_model s τ) ∧
    (∀ v ∈ s.bve_eliminated rt w preprocess maxdegree, v ∉ s.data_variables) ∧
    (s.bve rt w preprocess maxdegree).1.data_variables = s.data_variables ∧
    (s.bve rt w preprocess maxdegree).1.has_conflict = s.has_conflict := by
  have hb : ∀ i, ∀ v ∈ s.bve_buckets maxdegree i, v ∈ (∅ : Finset Int) ∨ s.bve_candidate v := by
    intro i v hv
    obtain ⟨cid, hc, l, hl, a, b, c⟩ := bve_buckets_mem s maxdegree i v hv
    rw [c]
    exact Or.inr (bve_candidate_of_literal hr hc hl a b)
  have hloop := fun fuel => bve_loop_projection rt w hw hs preprocess maxdegree fuel s
    (s.bve_buckets maxdegree) ∅ hr hb
  rw [bve_eq]
  refine ⟨(hloop _).2.2.2.1, fun fuel => (hloop fuel).2.2.2.1, ?_, (hloop _).2.1,
    (hloop _).2.2.1⟩
  intro v hv
  rcases (hloop s.bve_fuel).2.2.2.2 v hv with h | h
  · exact absurd h (Finset.not_mem_empty _)
  · exact h

/-- The theorem `bve_preserves_projection` at the clauses `(x3 ∨ x1)` and `(-x3 ∨ x2)` with
the data variables 1 and 2 and `max_degree` 1, for the descending walk: `bve` replaces
the two clauses by their resolvent `(x1 ∨ x2)`. -/
theorem bve_preserves_projection_example :
    (ascList (({ ([-3, 2].foldl add_literal ([3, 1].foldl add_literal
      (Cnf.init 3).new_clause).new_clause) with data_variables := {1, 2} } : Cnf).bve
        stdRuntime revWalk false 1).1.active_clauses).map
      (({ ([-3, 2].foldl add_literal ([3, 1].foldl add_literal
      (Cnf.init 3).new_clause).new_clause) with data_variables := {1, 2} } : Cnf).bve
        stdRuntime revWalk false 1).1.clause = [[1, 2]] ∧
    ∀ τ, projected_model (({ ([-3, 2].foldl add_literal ([3, 1].foldl add_literal
      (Cnf.init 3).new_clause).new_clause) with data_variables := {1, 2} } : Cnf).bve
        stdRuntime revWalk false 1).1 τ ↔
      projected_model ({ ([-3, 2].foldl add_literal ([3, 1].foldl add_literal
      (Cnf.init 3).new_clause).new_clause) with data_variables := {1, 2} } : Cnf) τ := by
  have hidx : ({ ([-3, 2].foldl add_literal ([3, 1].foldl add_literal
      (Cnf.init 3).new_clause).new_clause) with data_variables := {1, 2} } : Cnf).index_exact :=
    (index_reachable_inv (index_reachable.create [-3, 2] (index_reachable.create [3, 1]
      (index_reachable.start (Cnf.init 3) rfl rfl rfl rfl rfl rfl rfl)))).1.1
  exact ⟨by decide!, (bve_preserves_projection stdRuntime revWalk revWalk_ok
    stdRuntime_sort_ok
    ({ ([-3, 2].foldl add_literal ([3, 1].foldl add_literal
      (Cnf.init 3).new_clause).new_clause) with data_variables := {1, 2} } : Cnf) false 1
    ⟨rfl, hidx, by decide, by decide⟩).1⟩

end Cnf

theorem count_or_exclusive (l : List (Int → Bool)) (g h : (Int → Bool) → Bool)
    (hx : ∀ τ ∈ l, ¬ (g τ = true ∧ h τ = true)) :
    l.countP (fun τ => g τ || h τ) = l.countP g + l.countP h := by
  induction l with
  | nil => rfl
  | cons a l ih =>
    have ha := hx a (List.mem_cons_self _ _)
    have := ih (fun τ hτ => hx τ (List.mem_cons_of_mem _ hτ))
    simp only [List.countP_cons, this]
    cases hg : g a <;> cases hh : h a <;> simp_all <;> omega

/-- Mutually exclusive functions: the number of assignments that satisfy one of them is
the sum of the counts. -/
theorem count_any_exclusive {α : Type} (f : α → (Int → Bool) → Bool) (l : List (Int → Bool)) :
    ∀ as : List α, as.Pairwise (fun a b => ∀ τ ∈ l, ¬ (f a τ = true ∧ f b τ = true)) →
    l.countP (fun τ => as.any fun a => f a τ) = (as.map fun a => l.countP (f a)).sum := by
  intro as
  induction as with
  | nil => intro _; simp
  | cons a as ih =>
    intro h
    rw [List.pairwise_cons] at h
    simp only [List.any_cons, List.map_cons, List.sum_cons]
    rw [count_or_exclusive l (f a) (fun τ => as.any fun b => f b τ), ih h.2]
    rintro τ hτ ⟨h1, h2⟩
    rw [List.any_eq_true] at h2
    obtain ⟨b, hb, hfb⟩ := h2
    exact h.1 b hb τ hτ ⟨h1, hfb⟩

theorem list_all_insensitive {α : Type} (f : α → (Int → Bool) → Bool) (v : Int) :
    ∀ as : List α, (∀ b ∈ as, insensitive (f b) v) →
    insensitive (fun τ => as.all fun b => f b τ) v := by
  intro as
  induction as with
  | nil => intro _ τ c; rfl
  | cons a as ih =>
    intro h τ c
    have h1 := h a (List.mem_cons_self _ _) τ c
    have h2 := ih (fun b hb => h b (List.mem_cons_of_mem _ hb)) τ c
    simp only [List.all_cons] at h2 ⊢
    rw [h1, h2]

/-- Independent functions: the share of the assignments that satisfy all of them is the
product of the shares. -/
theorem count_all_independent {α : Type} (f : α → (Int → Bool) → Bool) (vs : List Int) :
    ∀ as : List α,
    as.Pairwise (fun a b => ∀ v ∈ vs, insensitive (f a) v ∨ insensitive (f b) v) →
    (((assignments vs).countP (fun τ => as.all fun a => f a τ) : ℕ) : ℚ) / 2 ^ vs.length =
      (as.map fun a => (((assignments vs).countP (f a) : ℕ) : ℚ) / 2 ^ vs.length).prod := by
  intro as
  have hN : (2 : ℚ) ^ vs.length ≠ 0 := by positivity
  induction as with
  | nil =>
    intro _
    simp only [List.all_nil, List.map_nil, List.prod_nil]
    rw [count_true]
    push_cast
    exact div_self hN
  | cons a as ih =>
    intro h
    rw [List.pairwise_cons] at h
    have hand := count_and vs (f a) (fun τ => as.all fun b => f b τ) (by
      intro v hv
      by_cases h1 : insensitive (f a) v
      · exact Or.inl h1
      · refine Or.inr (list_all_insensitive f v as ?_)
        intro b hb
        exact (h.1 b hb v hv).resolve_left h1)
    have hq : (((assignments vs).countP (fun τ => f a τ && as.all fun b => f b τ) : ℕ) : ℚ) *
        2 ^ vs.length =
        (((assignments vs).countP (f a) : ℕ) : ℚ) *
          (((assignments vs).countP (fun τ => as.all fun b => f b τ) : ℕ) : ℚ) := by
      exact_mod_cast hand
    simp only [List.all_cons, List.map_cons, List.prod_cons]
    rw [← ih h.2, div_mul_div_comm, ← hq, mul_div_mul_right _ _ hN]

theorem count_not_share (vs : List Int) (g : (Int → Bool) → Bool) :
    (((assignments vs).countP (fun τ => !g τ) : ℕ) : ℚ) / 2 ^ vs.length =
      1 - (((assignments vs).countP g : ℕ) : ℚ) / 2 ^ vs.length := by
  have hN : (2 : ℚ) ^ vs.length ≠ 0 := by positivity
  have h := count_not vs g
  have hq : (((assignments vs).countP g : ℕ) : ℚ) +
      (((assignments vs).countP (fun τ => !g τ) : ℕ) : ℚ) = 2 ^ vs.length := by
    exact_mod_cast h
  field_simp
  linarith [hq]

theorem sum_map_share {α : Type} (g : α → ℕ) (N : ℚ) : ∀ as : List α,
    (as.map fun a => ((g a : ℕ) : ℚ) / N).sum = (((as.map g).sum : ℕ) : ℚ) / N := by
  intro as
  induction as with
  | nil => simp
  | cons a as ih =>
    simp only [List.map_cons, List.sum_cons, ih]
    push_cast
    ring

namespace Pog

/-- The edges below an edge of the range of the graph are in the range. -/
theorem WF.reach_range {rt : Runtime} {p : Pog} (hwf : p.WF rt) {e c : Int}
    (he : 1 ≤ IABS e ∧ IABS e ≤ (p.nvar : Int) + p.nodes.length) (h : Reach p e c) :
    1 ≤ IABS c ∧ IABS c ≤ (p.nvar : Int) + p.nodes.length := by
  induction h with
  | root => exact he
  | child x c _ hn hc ih =>
    obtain ⟨i, hil, _, _, _, hch⟩ := hwf.children_of_node (Or.inl ih.2) hn
    have := hch c hc
    exact ⟨this.1, by omega⟩

/-- The variables that `get_variables` collects from an edge: the variables of the
literals reachable from it. -/
theorem mem_get_variables_edge {rt : Runtime} {p : Pog} (hwf : p.WF rt) {e : Int}
    (he : p.edge_ok e) (v : Int) :
    v ∈ p.get_variables e ∅ ↔ ∃ c, Reach p e c ∧ p.is_node c = false ∧ v = IABS c := by
  by_cases hn : p.is_node e = true
  · exact mem_get_variables hwf he hn v
  · have hn' : p.is_node e = false := by simpa using hn
    unfold get_variables
    simp only [hn', if_true]
    constructor
    · intro h
      simp only [Finset.mem_insert, Finset.not_mem_empty, or_false] at h
      exact ⟨e, Reach.root, hn', h⟩
    · rintro ⟨c, hc, _, hv⟩
      rw [Reach.of_leaf hn' hc] at hv
      simp [hv, get_var]

/-- The Boolean function of an edge does not depend on a variable that is not below it. -/
theorem WF.beval_insensitive {rt : Runtime} {p : Pog} (hwf : p.WF rt) (v : Int) :
    ∀ (k : Nat) (e : Int), 1 ≤ IABS e → IABS e ≤ (p.nvar : Int) + k → k ≤ p.nodes.length →
      (∀ c, Reach p e c → p.is_node c = false → IABS c ≠ v) →
      insensitive (fun τ => p.beval τ p.visit_fuel e) v := by
  have hr := hwf.range
  have hlt := MAX_VARIABLE_lt
  intro k
  induction k with
  | zero =>
    intro e h1 h2 _ hv
    have hT : IABS e ≠ TAUTOLOGY := by omega
    have hn : p.is_node e = false := by
      by_contra hc
      have := (is_node_iff p e).1 (by simpa using hc)
      omega
    intro τ b
    simp only [visit_fuel]
    rw [beval_leaf p _ _ hT hn, beval_leaf p _ _ hT hn]
    exact lit_insensitive (hv e Reach.root hn) τ b
  | succ k ih =>
    intro e h1 h2 hk hv
    have hT : IABS e ≠ TAUTOLOGY := by omega
    by_cases hn : p.is_node e = true
    · obtain ⟨i, hil, hie, _, _, hch⟩ := hwf.children_of_node (Or.inl (by omega)) hn
      intro τ b
      simp only
      rw [hwf.beval_node_full _ (Or.inl (by omega)) hn p.visit_fuel (by unfold visit_fuel; omega),
        hwf.beval_node_full τ (Or.inl (by omega)) hn p.visit_fuel (by unfold visit_fuel; omega)]
      have : (p.get_arguments e).map (p.beval (Function.update τ v b) p.visit_fuel) =
          (p.get_arguments e).map (p.beval τ p.visit_fuel) := by
        apply List.map_congr_left
        intro c hc
        have hc' := hch c hc
        exact ih c hc'.1 (by omega) (by omega)
          (fun y hy hyn => hv y (Reach.lift hn hc hy) hyn) τ b
      rw [this]
    · have hn' : p.is_node e = false := by simpa using hn
      intro τ b
      simp only [visit_fuel]
      rw [beval_leaf p _ _ hT hn', beval_leaf p _ _ hT hn']
      exact lit_insensitive (hv e Reach.root hn') τ b

/-- In a deterministic decomposable subgraph whose literals have weight one half, the
ring value of an edge is the share of the assignments that satisfy its formula. -/
theorem WF.count_val {rt : Runtime} {p : Pog} (hwf : p.WF rt) (w : Int → Option ℚ)
    (vs : List Int) (hw : ∀ l, IABS l ∈ vs → w l = some (1 / 2)) :
    ∀ (k : Nat) (e : Int), 1 ≤ IABS e → IABS e ≤ (p.nvar : Int) + k → k ≤ p.nodes.length →
      (∀ c, Reach p e c → p.is_node c = false → IABS c ∈ vs) →
      (∀ x, Reach p e x → p.is_node x = true →
        if p.is_sum x = true then p.exclusive vs x else p.decomposable x) →
      p.val w p.visit_fuel e =
        (((assignments vs).countP fun τ => p.beval τ p.visit_fuel e : ℕ) : ℚ) /
          2 ^ vs.length := by
  have hr := hwf.range
  have hlt := MAX_VARIABLE_lt
  have hN : (2 : ℚ) ^ vs.length ≠ 0 := by positivity
  have hleaf : ∀ e, IABS e ≠ TAUTOLOGY → p.is_node e = false → IABS e ∈ vs →
      p.val w p.visit_fuel e =
        (((assignments vs).countP fun τ => p.beval τ p.visit_fuel e : ℕ) : ℚ) /
          2 ^ vs.length := by
    intro e hT hn hm
    simp only [visit_fuel]
    rw [val_leaf p w _ hT hn, hw e hm]
    have hb : (fun τ => p.beval τ (p.nodes.length + 1) e) = fun τ => lit_true τ e :=
      funext fun τ => beval_leaf p τ _ hT hn
    rw [hb]
    have h := count_lit e vs hm
    have hq : (2 : ℚ) * (((assignments vs).countP fun τ => lit_true τ e : ℕ) : ℚ) =
        2 ^ vs.length := by exact_mod_cast h
    simp only [Option.getD_some]
    field_simp
    linarith [hq]
  intro k
  induction k with
  | zero =>
    intro e h1 h2 _ hv _
    have hn : p.is_node e = false := by
      by_contra hc
      have := (is_node_iff p e).1 (by simpa using hc)
      omega
    exact hleaf e (by omega) hn (hv e Reach.root hn)
  | succ k ih =>
    intro e h1 h2 hk hv hx
    by_cases hn : p.is_node e = true
    · obtain ⟨i, hil, hie, _, _, hch⟩ := hwf.children_of_node (Or.inl (by omega)) hn
      have hF : p.nodes.length < p.visit_fuel := by unfold visit_fuel; omega
      have hb : (fun τ => p.beval τ p.visit_fuel e) = fun τ =>
          if e > 0 then
            (if p.is_sum e then (p.get_arguments e).any fun a => p.beval τ p.visit_fuel a
             else (p.get_arguments e).all fun a => p.beval τ p.visit_fuel a)
          else !(if p.is_sum e then (p.get_arguments e).any fun a => p.beval τ p.visit_fuel a
             else (p.get_arguments e).all fun a => p.beval τ p.visit_fuel a) := by
        funext τ
        rw [hwf.beval_node_full τ (Or.inl (by omega)) hn p.visit_fuel hF]
        have hany : ∀ l : List Int, (l.map (p.beval τ p.visit_fuel)).any id =
            l.any fun a => p.beval τ p.visit_fuel a := by
          intro l; induction l <;> simp_all
        have hall : ∀ l : List Int, (l.map (p.beval τ p.visit_fuel)).all id =
            l.all fun a => p.beval τ p.visit_fuel a := by
          intro l; induction l <;> simp_all
        rw [hany, hall]
      have hargs : (p.get_arguments e).map (p.val w p.visit_fuel) =
          (p.get_arguments e).map fun a =>
            (((assignments vs).countP fun τ => p.beval τ p.visit_fuel a : ℕ) : ℚ) /
              2 ^ vs.length := by
        apply List.map_congr_left
        intro c hc
        have hc' := hch c hc
        exact ih c hc'.1 (by omega) (by omega)
          (fun y hy hyn => hv y (Reach.lift hn hc hy) hyn)
          (fun y hy hyn => hx y (Reach.lift hn hc hy) hyn)
      have hnode := hx e Reach.root hn
      have hcore : (if p.is_sum e then ((p.get_arguments e).map (p.val w p.visit_fuel)).sum
          else ((p.get_arguments e).map (p.val w p.visit_fuel)).prod) =
          (((assignments vs).countP fun τ =>
            (if p.is_sum e then (p.get_arguments e).any fun a => p.beval τ p.visit_fuel a
             else (p.get_arguments e).all fun a => p.beval τ p.visit_fuel a) : ℕ) : ℚ) /
            2 ^ vs.length := by
        rw [hargs]
        by_cases hs : p.is_sum e = true
        · simp only [hs, if_true] at hnode ⊢
          rw [sum_map_share, count_any_exclusive (fun a τ => p.beval τ p.visit_fuel a) _ _ hnode]
        · simp only [hs, if_false] at hnode ⊢
          have hs' : p.is_sum e = false := by simpa using hs
          simp only [hs', Bool.false_eq_true, if_false]
          rw [count_all_independent (fun a τ => p.beval τ p.visit_fuel a) vs]
          refine List.Pairwise.imp_of_mem ?_ hnode
          intro a b ha hb hd v hv'
          have ha' := hch a ha
          have hb' := hch b hb
          by_cases hva : v ∈ p.get_variables a ∅
          · right
            have hvb : v ∉ p.get_variables b ∅ := fun h =>
              (Finset.disjoint_left.1 hd) hva h
            apply hwf.beval_insensitive v i b hb'.1 hb'.2 (by omega)
            intro c hc hcn hcv
            exact hvb ((mem_get_variables_edge hwf (Or.inl ⟨hb'.1, by omega⟩) v).2
              ⟨c, hc, hcn, hcv.symm⟩)
          · left
            apply hwf.beval_insensitive v i a ha'.1 ha'.2 (by omega)
            intro c hc hcn hcv
            exact hva ((mem_get_variables_edge hwf (Or.inl ⟨ha'.1, by omega⟩) v).2
              ⟨c, hc, hcn, hcv.symm⟩)
      rw [hwf.val_node_full w (Or.inl (by omega)) hn p.visit_fuel hF, hb, hcore]
      by_cases hpos : e > 0
      · rw [if_pos hpos]
        simp only [if_pos hpos]
      · rw [if_neg hpos]
        simp only [if_neg hpos]
        rw [count_not_share]
    · have hn' : p.is_node e = false := by simpa using hn
      exact hleaf e (by omega) hn' (hv e Reach.root hn')

/-- C6 (amended). In a well-formed graph, for every edge `e` whose subgraph is a
deterministic decomposable form over the data variables `D` (every variable below `e` is
a data variable, the arguments of every Sum below `e` are mutually exclusive and the
arguments of every Product below `e` are over disjoint variables): `2 ^ |D|` times
`ring_evaluate(e, weights)` with weight one half for every literal is the number of
assignments to the data variables that satisfy the formula of `e`, and this is the value
that the unweighted `Project::subgraph_count` returns for `e`. -/
theorem ring_evaluate_model_count (rt : Runtime) (p : Pog) (hwf : p.WF rt) (e : Int)
    (he : p.edge_ok e) (hD : ∀ v ∈ p.data_variables, 0 < v) (hc : p.countable e)
    (cache : Int → Option Int) (wts : List (Int × ℚ)) (lvl : Int) :
    (2 : ℚ) ^ p.data_variables.card * p.ring_evaluate e (fun _ => some (1 / 2)) =
      (((assignments (ascList p.data_variables)).countP
        fun τ => p.beval τ p.visit_fuel e : ℕ) : ℚ) ∧
    Project.subgraph_count ⟨p, e, cache, wts, lvl⟩ false e =
      some (((assignments (ascList p.data_variables)).countP
        fun τ => p.beval τ p.visit_fuel e : ℕ) : ℚ) := by
  have hr := hwf.range
  have hlt := MAX_VARIABLE_lt
  have hF : p.nodes.length < p.visit_fuel := by unfold visit_fuel; omega
  have hN : (2 : ℚ) ^ p.data_variables.card ≠ 0 := by positivity
  have hleafD : ∀ l, Reach p e l → p.is_node l = false → IABS l ≠ TAUTOLOGY →
      IABS l ∈ p.data_variables := by
    intro l hl hn hT
    rcases hc.1 (IABS l) ((mem_get_variables_edge hwf he _).2 ⟨l, hl, hn, rfl⟩) with h | h
    · exact absurd h hT
    · exact h
  have hval : ∀ (w : Int → Option ℚ),
      (∀ l, IABS l ∈ p.data_variables → w l = some (1 / 2)) →
      (2 : ℚ) ^ p.data_variables.card * p.ring_evaluate e w =
        (((assignments (ascList p.data_variables)).countP
          fun τ => p.beval τ p.visit_fuel e : ℕ) : ℚ) := by
    intro w hw
    rw [ring_evaluate_eq_val rt p hwf e he w (fun l hl hn hT => by
      rw [hw l (hleafD l hl hn hT)]; rfl) p.visit_fuel hF]
    rcases he with ⟨h1, h2⟩ | hT
    · rw [hwf.count_val w (ascList p.data_variables)
        (fun l hl => hw l ((mem_ascList _ _).1 hl)) p.nodes.length e h1 h2 le_rfl
        (fun c hcr hcn => (mem_ascList _ _).2
          (hleafD c hcr hcn (by have := hwf.reach_range ⟨h1, h2⟩ hcr; omega)))
        (fun x hxr hxn => by
          have h := hc.2 (IABS x) (visit_complete hwf (Or.inl ⟨h1, h2⟩) hxr hxn)
          simpa only [is_sum_IABS, exclusive, decomposable, get_arguments_IABS] using h),
        ascList_length]
      field_simp
    · rcases IABS_eq_iff (hT.trans IABS_TAUTOLOGY.symm) with h | h
      · subst h
        simp only [visit_fuel]
        rw [(val_const p w _).1]
        simp only [(beval_const p _ _).1]
        rw [count_true, ascList_length]
        push_cast
        ring
      · have h' : e = CONFLICT := h
        subst h'
        simp only [visit_fuel]
        rw [(val_const p w _).2]
        simp only [(beval_const p _ _).2]
        rw [count_false]
        simp
  refine ⟨hval _ (fun _ _ => rfl), ?_⟩
  rw [Project.subgraph_count_spec _ false _ hD (by simp)]
  unfold Project.spec_count
  simp only [Project.spec_sum, Project.spec_weight, Bool.false_eq_true, if_false]
  rw [← hval (fun l => if IABS l ∈ p.data_variables then some ((1 : ℚ) / (1 + 1)) else none) (by
    intro l hl
    simp only [hl, if_true]
    norm_num)]
  congr 2
  rw [Finset.prod_const]
  norm_num

/-- C6 (witness). The theorem `ring_evaluate_model_count` at the edge that `simple_kc`
returns for the clauses `(x1 or x2)` and `(x3 or x4)` over four data variables, which has
9 models, and at the Sum of the Products `x1 and x2` and `not x1 and x3` over three data
variables, which has 4 models. -/
theorem ring_evaluate_model_count_witness :
    ((2 : ℚ) ^ (simple_kc stdRuntime (Pog.init 4 {1, 2, 3, 4} ∅)
        (stream_of [[1, 2], [3, 4]])).1.data_variables.card *
      (simple_kc stdRuntime (Pog.init 4 {1, 2, 3, 4} ∅)
        (stream_of [[1, 2], [3, 4]])).1.ring_evaluate
        (simple_kc stdRuntime (Pog.init 4 {1, 2, 3, 4} ∅) (stream_of [[1, 2], [3, 4]])).2
        (fun _ => some (1 / 2)) = ((9 : ℕ) : ℚ)) ∧
    ((2 : ℚ) ^ (build stdRuntime (build stdRuntime (build stdRuntime (Pog.init 3 {1, 2, 3} ∅)
        POG_PRODUCT [1, 2]).1 POG_PRODUCT [-1, 3]).1 POG_SUM [4, 5]).1.data_variables.card *
      (build stdRuntime (build stdRuntime (build stdRuntime (Pog.init 3 {1, 2, 3} ∅)
        POG_PRODUCT [1, 2]).1 POG_PRODUCT [-1, 3]).1 POG_SUM [4, 5]).1.ring_evaluate 6
        (fun _ => some (1 / 2)) = ((4 : ℕ) : ℚ)) :=
  ⟨(ring_evaluate_model_count stdRuntime
      (simple_kc stdRuntime (Pog.init 4 {1, 2, 3, 4} ∅) (stream_of [[1, 2], [3, 4]])).1
      (simple_kc_spec stdRuntime stdRuntime_sort_ok (WF_init _ 4 {1, 2, 3, 4} ∅ (by decide))
        [[1, 2], [3, 4]] (by decide) (by decide)).1
      (simple_kc stdRuntime (Pog.init 4 {1, 2, 3, 4} ∅) (stream_of [[1, 2], [3, 4]])).2
      (by decide!) (by decide!) (by decide!) (fun _ => none) [] 0).1,
   (ring_evaluate_model_count stdRuntime
      (build stdRuntime (build stdRuntime (build stdRuntime (Pog.init 3 {1, 2, 3} ∅)
        POG_PRODUCT [1, 2]).1 POG_PRODUCT [-1, 3]).1 POG_SUM [4, 5]).1
      (Reachable.wf stdRuntime_sort_ok
        (Reachable.build _ _ _ (Reachable.build _ _ _ (Reachable.build _ _ _
          (Reachable.init 3 {1, 2, 3} ∅) (Or.inl rfl) (by decide)) (Or.inl rfl) (by decide))
          (Or.inr rfl) (by decide)) (by decide))
      6 (by decide!) (by decide!) (by decide!) (fun _ => none) [] 0).1⟩

end Pog

end PKC
